import Mathlib

/-!
A shallow embedding of the JSON codec of `Json.cpp` / `Json.h`.

Bytes (`unsigned char`) are natural numbers, byte strings (`std::string`,
`std::string_view`) are lists of them.  Functions that return `bool` and report
through an `error` reference return the flag together with the updated state.
Loops of the form `while(buffer.next())` recurse on the bytes that are still
ahead of the reader; the main loop of `JsonSAXReader::parse`, whose body hands
the reader to the lexers, runs on a step counter that the entry point sets to
one more than the number of bytes ahead.
-/

namespace Json

/-! ## Characters -/

/-- `isControlCode` (Json.cpp:10). -/
def isControlCode (value : Nat) : Bool :=
  decide (value ≤ 8) || (decide (value ≥ 14) && decide (value ≤ 31)) || value == 127

/-- `std::isspace` in the "C" locale: space, `\t`, `\n`, `\v`, `\f`, `\r`. -/
def isspace (ch : Nat) : Bool :=
  ch == 32 || (decide (9 ≤ ch) && decide (ch ≤ 13))

/-- `std::isdigit`: `'0'..'9'`. -/
def isdigit (ch : Nat) : Bool :=
  decide (48 ≤ ch) && decide (ch ≤ 57)

/-- The bytes of an ASCII string literal. -/
def bytes (s : String) : List Nat :=
  s.data.map Char.toNat

/-! ## Byte source -/

/-- `JsonStringViewBufferReader`.  `pos` is the member `pos`; `ahead` holds the
bytes of `_json` behind index `pos`, so that `_json.size() = pos + 1 + ahead.length`;
`cur` is the byte `value()` returns. -/
structure JsonStringViewBufferReader where
  pos : Int
  cur : Nat
  ahead : List Nat
deriving DecidableEq, Repr

namespace JsonStringViewBufferReader

/-- The constructor: `pos = -1`, nothing read yet. -/
def ofString (json : List Nat) : JsonStringViewBufferReader :=
  { pos := -1, cur := 0, ahead := json }

/-- `next()`: `pos++`, false when `pos` reached `_json.size()`. -/
def next (b : JsonStringViewBufferReader) : Bool × JsonStringViewBufferReader :=
  match b.ahead with
  | [] => (false, { pos := b.pos + 1, cur := 0, ahead := [] })
  | ch :: ahead => (true, { pos := b.pos + 1, cur := ch, ahead := ahead })

/-- `value()`: the current byte (0 at the end of the input). -/
def value (b : JsonStringViewBufferReader) : Nat := b.cur

/-- `offset()`: `static_cast<std::size_t>(pos)`. -/
def offset (b : JsonStringViewBufferReader) : Nat := (b.pos % 2 ^ 64).toNat

end JsonStringViewBufferReader

/-! ## Error messages -/

/-- The message constants of Json.cpp:60-74. -/
inductive Msg
  | ControlCharacterDetectionMsg
  | InvalidNumberMsg
  | ALotPointMsg
  | NumberRangeMsg
  | NumberOutOfArrayMsg
  | StringOutOfArrayMsg
  | ValueOutOfArrayMsg
  | InvalidValueMsg
  | InvalidEntryCharacterMsg
  | InvalidObjectKeyMsg
  | InvalidObjectKeyValueMsg
  | InvalidSeparatorObjectMsg
  | InvalidSeparatorArrayMsg
  | UnexpectedEndMsg
  | InvalidSpecialCharMsg
deriving DecidableEq, Repr

/-- The text of each message constant. -/
def Msg.text : Msg → String
  | .ControlCharacterDetectionMsg => "Control character detection, offset: "
  | .InvalidNumberMsg => "Invalid number, offset: "
  | .ALotPointMsg => "A lot or an incorrect numeric point, offset: "
  | .NumberRangeMsg => "Number out of range, offset: "
  | .NumberOutOfArrayMsg => "Number out of array limit, offset: "
  | .StringOutOfArrayMsg => "String out of array limit, offset: "
  | .ValueOutOfArrayMsg => "Value out of array limit, offset: "
  | .InvalidValueMsg => "Invalid value, offset: "
  | .InvalidEntryCharacterMsg => "Invalid entry character '"
  | .InvalidObjectKeyMsg => "Invalid starting symbol of the object key or the end of an object '"
  | .InvalidObjectKeyValueMsg => "Invalid object key-value separator character '"
  | .InvalidSeparatorObjectMsg => "Invalid pair separator or end of object symbol, offset: "
  | .InvalidSeparatorArrayMsg => "Invalid value separator or end of array symbol, offset: "
  | .UnexpectedEndMsg => "Unexpected end of json stream"
  | .InvalidSpecialCharMsg => "Invalid special character in string '\\"

/-- The content of the `_error` string, kept in structured form: the empty
string, a bare message, `msg + offset`, or `msg + ch + "', offset: " + offset`. -/
inductive ErrorText
  | empty
  | plain (msg : Msg)
  | withOffset (msg : Msg) (offset : Nat)
  | withChar (msg : Msg) (ch : Nat) (offset : Nat)
deriving DecidableEq, Repr

/-- The string an `ErrorText` stands for. -/
def ErrorText.render : ErrorText → String
  | .empty => ""
  | .plain msg => msg.text
  | .withOffset msg offset => msg.text ++ toString offset
  | .withChar msg ch offset =>
      (msg.text.push (Char.ofNat ch)) ++ "', offset: " ++ toString offset

/-- `makeError(msg, buffer)` (Json.cpp:76). -/
def makeError (msg : Msg) (buffer : JsonStringViewBufferReader) : ErrorText :=
  .withOffset msg buffer.offset

/-- `makeError(msg, ch, buffer)` (Json.cpp:81). -/
def makeErrorCh (msg : Msg) (ch : Nat) (buffer : JsonStringViewBufferReader) : ErrorText :=
  .withChar msg ch buffer.offset

/-! ## Numbers -/

/-- The value of a run of decimal digits read left to right, starting from `acc`. -/
def digitsValue (acc : Nat) (ds : List Nat) : Nat :=
  ds.foldl (fun a d => a * 10 + (d - 48)) acc

/-- `std::from_chars(first, last, long long&)`, base 10: an optional `-`
followed by the longest run of digits.  `none` stands for `ec != std::errc()`:
no digit at all (`invalid_argument`) or a value outside `[-2^63, 2^63-1]`
(`result_out_of_range`). -/
def from_chars (view : List Nat) : Option Int :=
  let neg := view.head? == some 45
  let digits := (if neg then view.tail else view).takeWhile isdigit
  if digits.isEmpty then none
  else
    let n := digitsValue 0 digits
    if neg then (if n ≤ 2 ^ 63 then some (-(n : Int)) else none)
    else (if n < 2 ^ 63 then some (n : Int) else none)

/-- A finite IEEE-754 binary64 value `(-1)^neg * mant * 2^exp`, kept normalised:
`2^52 ≤ mant < 2^53` with `-1074 ≤ exp ≤ 971`, or `mant < 2^52` with
`exp = -1074` (subnormal numbers and zero). -/
structure Double where
  neg : Bool
  mant : Nat
  exp : Int
deriving DecidableEq, Repr

/-- Number of binary digits of `n`, counted with the step counter `fuel`. -/
def bitLength : Nat → Nat → Nat
  | 0, _ => 0
  | fuel + 1, n => if n = 0 then 0 else bitLength fuel (n / 2) + 1

/-- The fraction `num / den` rounded to the nearest binary64 value, ties to
even; `none` when the magnitude exceeds the largest finite value. -/
def roundToDouble (neg : Bool) (num den : Nat) : Option Double :=
  if num = 0 then some { neg := neg, mant := 0, exp := -1074 }
  else
    let l : Int := (bitLength num num : Int) - (bitLength den den : Int)
    let ge : Bool := if 0 ≤ l then decide (den * 2 ^ l.toNat ≤ num) else decide (den ≤ num * 2 ^ (-l).toNat)
    let e0 : Int := (if ge then l else l - 1) - 52
    let e : Int := if e0 < -1074 then -1074 else e0
    let n : Nat := if 0 ≤ e then num else num * 2 ^ (-e).toNat
    let d : Nat := if 0 ≤ e then den * 2 ^ e.toNat else den
    let q := n / d
    let r := n % d
    let up : Bool := decide (d < 2 * r) || (decide (2 * r = d) && decide (q % 2 = 1))
    let m := if up then q + 1 else q
    let m1 := if m = 2 ^ 53 then 2 ^ 52 else m
    let e1 : Int := if m = 2 ^ 53 then e + 1 else e
    if 971 < e1 then none else some { neg := neg, mant := m1, exp := e1 }

/-- Whether `strtod` reports a range error for the positive fraction
`num / den` because it underflows: the value is tiny, that is below the smallest
normal number `2^-1022` also when it is rounded to 53 binary digits with an
unbounded exponent (tininess is detected after rounding, as on x86-64), and the
binary64 value nearest to it is not equal to it.  This is the rule of glibc; the
C standard leaves it to the implementation whether an underflow sets `errno`. -/
def underflows (num den : Nat) : Bool :=
  if num = 0 then false
  else
    let l : Int := (bitLength num num : Int) - (bitLength den den : Int)
    let ge : Bool := if 0 ≤ l then decide (den * 2 ^ l.toNat ≤ num) else decide (den ≤ num * 2 ^ (-l).toNat)
    let e0 : Int := (if ge then l else l - 1) - 52
    if -1074 ≤ e0 then false
    else
      let n0 : Nat := num * 2 ^ (-e0).toNat
      let q0 := n0 / den
      let r0 := n0 % den
      let up0 : Bool := decide (den < 2 * r0) || (decide (2 * r0 = den) && decide (q0 % 2 = 1))
      let normal : Bool := decide (e0 = -1075) && up0 && decide (q0 + 1 = 2 ^ 53)
      !normal && decide ((num * 2 ^ 1074) % den ≠ 0)

/-- `std::stod(temp, nullptr)` on a decimal literal: an optional `-`, digits, an
optional `.` and more digits, converted with round-to-nearest.  `none` stands
for the exception `std::stod` throws: `std::invalid_argument` when there is no
digit, `std::out_of_range` when `strtod` reports a range error, on overflow and
on underflow.  A call that returns leaves `errno` as it was. -/
def stod (temp : List Nat) : Option Double :=
  let neg := temp.head? == some 45
  let body := if neg then temp.tail else temp
  let intPart := body.takeWhile isdigit
  let after := body.dropWhile isdigit
  let fracPart := if after.head? == some 46 then after.tail.takeWhile isdigit else []
  if intPart.isEmpty && fracPart.isEmpty then none
  else if underflows (digitsValue 0 (intPart ++ fracPart)) (10 ^ fracPart.length) then none
  else roundToDouble neg (digitsValue 0 (intPart ++ fracPart)) (10 ^ fracPart.length)

/-- Whether `std::stod(temp, nullptr)` throws `std::out_of_range`: there is a
number to convert and the conversion reports a range error.  The exception
leaves `ERANGE` in `errno`. -/
def stodRange (temp : List Nat) : Bool :=
  let neg := temp.head? == some 45
  let body := if neg then temp.tail else temp
  let intPart := body.takeWhile isdigit
  let after := body.dropWhile isdigit
  let fracPart := if after.head? == some 46 then after.tail.takeWhile isdigit else []
  !(intPart.isEmpty && fracPart.isEmpty) && (stod temp).isNone

/-! ## Event parser -/

/-- `JsonReaderType` (Json.cpp:88); the order of the constructors is the order
of the enumerators, which the number lexer compares. -/
inductive JsonReaderType
  | Object
  | ObjectKey
  | ObjectValue
  | ObjectNextPair
  | ObjectNextKey
  | Array
  | ArrayNext
  | ArrayNextValue
deriving DecidableEq, Repr

/-- The underlying value of an enumerator. -/
def JsonReaderType.code : JsonReaderType → Nat
  | .Object => 0
  | .ObjectKey => 1
  | .ObjectValue => 2
  | .ObjectNextPair => 3
  | .ObjectNextKey => 4
  | .Array => 5
  | .ArrayNext => 6
  | .ArrayNextValue => 7

/-- `JsonSAXReader::Operation`. -/
inductive Operation
  | Single
  | Multiple
deriving DecidableEq, Repr

/-- One call of a virtual hook of `JsonSAXReader` (Json.h:81-95). -/
inductive Event
  | JsonBegin
  | JsonEnd
  | ObjectBegin
  | ObjectKey (key : List Nat)
  | ObjectEnd
  | ArrayBegin
  | ArrayEnd
  | ValueString (value : List Nat)
  | ValueDouble (value : Double)
  | ValueLongLong (value : Int)
  | ValueBool (value : Bool)
  | Null
deriving DecidableEq, Repr

/-- The derived class that implements the hooks, with state `σ`: a hook call
yields the new state and whether the hook called `stopParse()`; `none` stands
for an exception leaving the hook. -/
abbrev Hooks (σ : Type) := Event → σ → Option (σ × Bool)

/-- How a function of the reader ends: `return true`, `return false`, or an
exception passing through it. -/
inductive Ret
  | true
  | false
  | thrown
deriving DecidableEq, Repr

/-- The state `JsonSAXReader::parse` works on: the byte source, the local stack
`depth` (top first), the members `_error` and `stop`, the state `self` of the
derived class, and `errno`: whether the `errno` of the calling thread holds
`ERANGE`, which `readyNumber` tests behind `std::stod` (Json.cpp:326).  The
hooks are taken to leave `errno` alone.  A state written without `errno` is one
in which it does not hold `ERANGE`. -/
structure Machine (σ : Type) where
  buffer : JsonStringViewBufferReader
  depth : List JsonReaderType
  self : σ
  stop : Bool
  error : ErrorText
  errno : Bool := false
deriving DecidableEq, Repr

/-- `depth.top()`; the stack is never empty where the code reads its top. -/
def top (depth : List JsonReaderType) : JsonReaderType :=
  depth.headD .Object

/-- The assignment `depth.top() = t`. -/
def setTop (t : JsonReaderType) (depth : List JsonReaderType) : List JsonReaderType :=
  t :: depth.tail

/-- A hook call `self->...`. -/
def emit {σ : Type} (h : Hooks σ) (e : Event) (m : Machine σ) : Option (Machine σ) :=
  match h e m.self with
  | none => none
  | some (s, stopped) => some { m with self := s, stop := m.stop || stopped }

/-- A hook call inside a function of the reader: the function goes on when the
hook returns, an exception of the hook passes through it. -/
def call {σ : Type} (h : Hooks σ) (e : Event) (m : Machine σ) : Ret × Machine σ :=
  match emit h e m with
  | none => (.thrown, m)
  | some m1 => (.true, m1)

/-- What a lexer hands back: `ok` for `return true` with its output, `fail` for
`return false` with the `error` it wrote; both with the reader where it stands. -/
inductive Ready (α : Type)
  | ok (out : α) (buffer : JsonStringViewBufferReader)
  | fail (error : ErrorText) (buffer : JsonStringViewBufferReader)
deriving DecidableEq, Repr

/-- The `switch` of `readyString` on the byte behind a backslash
(Json.cpp:129-156): the bytes pushed to `temp`, `none` for the `default` branch. -/
def unescape (ch : Nat) : Option (List Nat) :=
  if ch == 34 || ch == 92 || ch == 47 then some [ch]
  else if ch == 98 then some [8]
  else if ch == 102 then some [12]
  else if ch == 110 then some [10]
  else if ch == 114 then some [13]
  else if ch == 116 then some [9]
  else if ch == 117 then some [92, ch]
  else none

/-- What one pass through the loop of `readyString` does. -/
inductive StringStep
  | control
  | exit
  | special
  | invalid
  | push (out : List Nat)
deriving DecidableEq, Repr

/-- The body of the loop of `readyString` (Json.cpp:107-162) for the byte `ch`:
a control byte is an error, an unescaped quote ends the string, an unescaped
backslash sets `special`, an escaped byte goes through the `switch`, any other
byte is pushed. -/
def stringStep (special : Bool) (ch : Nat) : StringStep :=
  if isControlCode ch then .control
  else if !special && ch == 34 then .exit
  else if !special && ch == 92 then .special
  else if special then
    match unescape ch with
    | some out => .push out
    | none => .invalid
  else .push [ch]

/-- The loop of `readyString` (Json.cpp:105-169); `pos` is the reader's position
before `buffer.next()`, the list argument the bytes ahead of it. -/
def readyStringLoop (special : Bool) (temp : List Nat) (pos : Int) :
    List Nat → Ready (List Nat)
  | [] =>
      let buffer : JsonStringViewBufferReader := { pos := pos + 1, cur := 0, ahead := [] }
      .fail (makeError .StringOutOfArrayMsg buffer) buffer
  | ch :: ahead =>
      let buffer : JsonStringViewBufferReader := { pos := pos + 1, cur := ch, ahead := ahead }
      match stringStep special ch with
      | .control => .fail (makeError .ControlCharacterDetectionMsg buffer) buffer
      | .exit => .ok temp buffer
      | .special => readyStringLoop true temp (pos + 1) ahead
      | .invalid => .fail (makeErrorCh .InvalidSpecialCharMsg ch buffer) buffer
      | .push out => readyStringLoop false (temp ++ out) (pos + 1) ahead

/-- `readyString` (Json.cpp:101). -/
def readyString (temp : List Nat) (buffer : JsonStringViewBufferReader) : Ready (List Nat) :=
  readyStringLoop false temp buffer.pos buffer.ahead

/-- `readyObjectKey` (Json.cpp:174). -/
def readyObjectKey {σ : Type} (h : Hooks σ) (m : Machine σ) : Ret × Machine σ :=
  match readyString [] m.buffer with
  | .fail error buffer => (.false, { m with buffer := buffer, error := error })
  | .ok temp buffer => call h (.ObjectKey temp) { m with buffer := buffer }

/-- `readyStringValue` (Json.cpp:182). -/
def readyStringValue {σ : Type} (h : Hooks σ) (m : Machine σ) : Ret × Machine σ :=
  match readyString [] m.buffer with
  | .fail error buffer => (.false, { m with buffer := buffer, error := error })
  | .ok temp buffer => call h (.ValueString temp) { m with buffer := buffer }

/-- `DOUBLE_MAX` (Json.cpp:5). -/
def DOUBLE_MAX : Nat := 15
/-- `NEGATIVE_DOUBLE_MAX` (Json.cpp:6). -/
def NEGATIVE_DOUBLE_MAX : Nat := DOUBLE_MAX + 1
/-- `INTEGER_MAX` (Json.cpp:7). -/
def INTEGER_MAX : Nat := 18
/-- `NEGATIVE_INTEGER_MAX` (Json.cpp:8). -/
def NEGATIVE_INTEGER_MAX : Nat := INTEGER_MAX + 1

/-- The local `enum End` of `readyNumber`. -/
inductive End
  | None
  | Object
  | Array
  | Separator
deriving DecidableEq, Repr

/-- The locals of `readyNumber` when its loop is left. -/
structure NumberScan where
  exit : Bool
  «end» : End
  points : Nat
  temp : List Nat
  ch : Nat
  depth : List JsonReaderType
deriving DecidableEq, Repr

/-- What one pass through the loop of `readyNumber` does: an error, leaving the
loop with `exit = true`, or pushing a decimal point or a digit. -/
inductive NumberStep
  | error (msg : Msg)
  | leave (e : End) (depth : List JsonReaderType)
  | point
  | digit
deriving DecidableEq, Repr

/-- The length caps of Json.cpp:266-278. -/
def capped (neg : Bool) (points i : Nat) : Bool :=
  if neg then (decide (points > 0) && i == NEGATIVE_DOUBLE_MAX)
                || (points == 0 && i == NEGATIVE_INTEGER_MAX)
  else (decide (points > 0) && i == DOUBLE_MAX) || (points == 0 && i == INTEGER_MAX)

/-- The body of the loop of `readyNumber` (Json.cpp:210-301) for the byte `ch`. -/
def numberStep (neg : Bool) (depth : List JsonReaderType) (i points : Nat) (ch : Nat) :
    NumberStep :=
  if isControlCode ch then .error .ControlCharacterDetectionMsg
  else if isspace ch then .leave .None depth
  else if ch == 44 then
    if (top depth).code < JsonReaderType.Array.code then
      .leave .Separator (setTop .ObjectNextKey depth)
    else .leave .Separator (setTop .ArrayNextValue depth)
  else if ch == 125 then
    if (top depth).code > JsonReaderType.ObjectNextKey.code then .error .InvalidSeparatorArrayMsg
    else .leave .Object depth.tail
  else if ch == 93 then
    if (top depth).code < JsonReaderType.Array.code then .error .InvalidSeparatorObjectMsg
    else .leave .Array depth.tail
  else if capped neg points i then .leave .None depth
  else if ch == 46 then
    if points == 1 || (neg && i == 0) then .error .ALotPointMsg else .point
  else if !isdigit ch then .error .InvalidNumberMsg
  else .digit

/-- The loop of `readyNumber` (Json.cpp:208-302); `pos` is the reader's position
before `buffer.next()`, the list argument the bytes ahead of it, `ch0` the
value of the local `ch`. -/
def readyNumberLoop (neg : Bool) (depth : List JsonReaderType) (pos : Int)
    (i : Nat) (points : Nat) (temp : List Nat) (ch0 : Nat) :
    List Nat → Ready NumberScan
  | [] =>
      .ok { exit := false, «end» := .None, points := points, temp := temp, ch := ch0,
            depth := depth }
        { pos := pos + 1, cur := 0, ahead := [] }
  | ch :: ahead =>
      let buffer : JsonStringViewBufferReader := { pos := pos + 1, cur := ch, ahead := ahead }
      match numberStep neg depth i points ch with
      | .error msg => .fail (makeError msg buffer) buffer
      | .leave e depth1 =>
          .ok { exit := true, «end» := e, points := points, temp := temp, ch := ch,
                depth := depth1 } buffer
      | .point => readyNumberLoop neg depth (pos + 1) (i + 1) (points + 1) (temp ++ [ch]) ch ahead
      | .digit => readyNumberLoop neg depth (pos + 1) (i + 1) points (temp ++ [ch]) ch ahead

/-- The conversion of the scanned text and the value hook (Json.cpp:322-347):
one decimal point selects `std::stod`, none selects `std::from_chars`. -/
def numberValue {σ : Type} (h : Hooks σ) (scan : NumberScan) (m : Machine σ) : Ret × Machine σ :=
  if scan.points == 1 then
    match stod scan.temp with
    | none => (.thrown, { m with errno := m.errno || stodRange scan.temp })
    | some value =>
        if m.errno then (.false, { m with error := makeError .NumberRangeMsg m.buffer })
        else call h (.ValueDouble value) m
  else if scan.points == 0 then
    match from_chars scan.temp with
    | none => (.false, { m with error := makeError .NumberRangeMsg m.buffer })
    | some value => call h (.ValueLongLong value) m
  else (.true, m)

/-- The end hook that `readyNumber` calls when the number was ended by a
closing bracket (Json.cpp:349-350). -/
def numberEnd {σ : Type} (h : Hooks σ) (scan : NumberScan) (r : Ret × Machine σ) :
    Ret × Machine σ :=
  match r with
  | (.true, m) =>
      if scan.end == .Object then call h .ObjectEnd m
      else if scan.end == .Array then call h .ArrayEnd m
      else (.true, m)
  | r => r

/-- The part of `readyNumber` behind its loop (Json.cpp:304-352); `m` holds the
reader and the stack as the loop left them. -/
def readyNumberEnd {σ : Type} (h : Hooks σ) (scan : NumberScan) (m : Machine σ) :
    Ret × Machine σ :=
  if !scan.exit then (.false, { m with error := makeError .NumberOutOfArrayMsg m.buffer })
  else if scan.end == .None && !isspace scan.ch then
    (.false, { m with error := makeError .InvalidValueMsg m.buffer })
  else if scan.temp.getLast? == some 46 then
    (.false, { m with error := makeError .ALotPointMsg m.buffer })
  else numberEnd h scan (numberValue h scan m)

/-- `readyNumber` (Json.cpp:190). -/
def readyNumber {σ : Type} (h : Hooks σ) (digit : Nat) (m : Machine σ) : Ret × Machine σ :=
  match readyNumberLoop (digit == 45) m.depth m.buffer.pos 0 0 [digit] 0 m.buffer.ahead with
  | .fail error buffer => (.false, { m with buffer := buffer, error := error })
  | .ok scan buffer => readyNumberEnd h scan { m with buffer := buffer, depth := scan.depth }

/-- `readyValue` (Json.cpp:355): match the rest `value` of a keyword. -/
def readyValue : List Nat → JsonStringViewBufferReader → Ready Unit
  | [], buffer => .ok () buffer
  | v :: value, buffer =>
      match buffer.next with
      | (false, buffer1) => .fail (makeError .ValueOutOfArrayMsg buffer1) buffer1
      | (true, buffer1) =>
          let ch := buffer1.value
          if isControlCode ch then .fail (makeError .ControlCharacterDetectionMsg buffer1) buffer1
          else if ch != v then .fail (makeError .InvalidValueMsg buffer1) buffer1
          else readyValue value buffer1

/-- A keyword branch of `ready`: `readyValue(rest, ...)` followed by the hook. -/
def readyKeyword {σ : Type} (h : Hooks σ) (rest : List Nat) (e : Event) (m : Machine σ) :
    Ret × Machine σ :=
  match readyValue rest m.buffer with
  | .fail error buffer => (.false, { m with buffer := buffer, error := error })
  | .ok _ buffer => call h e { m with buffer := buffer }

/-- `ready` (Json.cpp:386): a value starts at the byte `ch`. -/
def ready {σ : Type} (h : Hooks σ) (ch : Nat) (m : Machine σ) : Ret × Machine σ :=
  if ch == 123 then call h .ObjectBegin { m with depth := JsonReaderType.Object :: m.depth }
  else if ch == 91 then call h .ArrayBegin { m with depth := JsonReaderType.Array :: m.depth }
  else if ch == 34 then readyStringValue h m
  else if ch == 45 || isdigit ch then readyNumber h ch m
  else if ch == 116 then readyKeyword h [114, 117, 101] (.ValueBool true) m
  else if ch == 102 then readyKeyword h [97, 108, 115, 101] (.ValueBool false) m
  else if ch == 110 then readyKeyword h [117, 108, 108] .Null m
  else (.false, { m with error := makeError .InvalidValueMsg m.buffer })

/-- How one pass through the body of the loop of `JsonSAXReader::parse` ends. -/
inductive Step (σ : Type)
  | continue (m : Machine σ)
  | break (m : Machine σ)
  | return (r : Ret) (m : Machine σ)
deriving DecidableEq, Repr

/-- Json.cpp:581-586: after the dispatch, a document is complete when `depth`
is empty. -/
def documentEnd {σ : Type} (h : Hooks σ) (operation : Operation) (m : Machine σ) : Step σ :=
  if m.depth.isEmpty then
    match call h .JsonEnd m with
    | (.true, m1) =>
        if operation == .Single then .break m1
        else if m1.stop then .break m1
        else .continue m1
    | (r, m1) => .return r m1
  else .continue m

/-- Continue with `documentEnd` when the called function returned true. -/
def andThen {σ : Type} (h : Hooks σ) (operation : Operation) (r : Ret × Machine σ) : Step σ :=
  match r with
  | (.true, m) => documentEnd h operation m
  | (r, m) => .return r m

/-- A container closes in the main loop: `depth.pop()` and the end hook. -/
def close {σ : Type} (h : Hooks σ) (e : Event) (m : Machine σ) : Ret × Machine σ :=
  call h e { m with depth := m.depth.tail }

/-- A document opens at depth 0: `JsonBegin()`, push, the begin hook. -/
def openDocument {σ : Type} (h : Hooks σ) (t : JsonReaderType) (e : Event) (m : Machine σ) :
    Ret × Machine σ :=
  match call h .JsonBegin m with
  | (.true, m1) => call h e { m1 with depth := t :: m1.depth }
  | r => r

/-- An object key starts: `readyObjectKey`, then `depth.top() = ObjectKey`. -/
def keyThenTop {σ : Type} (h : Hooks σ) (m : Machine σ) : Ret × Machine σ :=
  match readyObjectKey h m with
  | (.true, m1) => (.true, { m1 with depth := setTop .ObjectKey m1.depth })
  | r => r

/-- The body of the loop of `JsonSAXReader::parse` (Json.cpp:450-586) for the
byte `ch` that `buffer.next()` just reached. -/
def parseBody {σ : Type} (h : Hooks σ) (operation : Operation) (m : Machine σ) : Step σ :=
  let ch := m.buffer.value
  if isspace ch then .continue m
  else if isControlCode ch then
    .return .false { m with error := makeError .ControlCharacterDetectionMsg m.buffer }
  else
    match m.depth with
    | [] =>
        if ch == 123 then andThen h operation (openDocument h .Object .ObjectBegin m)
        else if ch == 91 then andThen h operation (openDocument h .Array .ArrayBegin m)
        else .return .false { m with error := makeErrorCh .InvalidEntryCharacterMsg ch m.buffer }
    | .Object :: _ =>
        if ch == 34 then andThen h operation (keyThenTop h m)
        else if ch == 125 then andThen h operation (close h .ObjectEnd m)
        else .return .false { m with error := makeErrorCh .InvalidObjectKeyMsg ch m.buffer }
    | .ObjectKey :: _ =>
        if ch == 58 then documentEnd h operation { m with depth := setTop .ObjectValue m.depth }
        else .return .false { m with error := makeErrorCh .InvalidObjectKeyValueMsg ch m.buffer }
    | .ObjectValue :: _ =>
        andThen h operation (ready h ch { m with depth := setTop .ObjectNextPair m.depth })
    | .ObjectNextPair :: _ =>
        if ch == 44 then documentEnd h operation { m with depth := setTop .ObjectNextKey m.depth }
        else if ch == 125 then andThen h operation (close h .ObjectEnd m)
        else .return .false { m with error := makeError .InvalidSeparatorObjectMsg m.buffer }
    | .ObjectNextKey :: _ =>
        if ch == 34 then andThen h operation (keyThenTop h m)
        else .return .false { m with error := makeErrorCh .InvalidObjectKeyMsg ch m.buffer }
    | .Array :: _ =>
        if ch == 93 then andThen h operation (close h .ArrayEnd m)
        else andThen h operation (ready h ch { m with depth := setTop .ArrayNext m.depth })
    | .ArrayNext :: _ =>
        if ch == 44 then documentEnd h operation { m with depth := setTop .ArrayNextValue m.depth }
        else if ch == 93 then andThen h operation (close h .ArrayEnd m)
        else .return .false { m with error := makeError .InvalidSeparatorArrayMsg m.buffer }
    | .ArrayNextValue :: _ =>
        andThen h operation (ready h ch { m with depth := setTop .ArrayNext m.depth })

/-- Json.cpp:589-595: the code behind the loop. -/
def parseEnd {σ : Type} (m : Machine σ) : Ret × Machine σ :=
  if !m.depth.isEmpty then (.false, { m with error := .plain .UnexpectedEndMsg })
  else (.true, m)

/-- The loop of `JsonSAXReader::parse` (Json.cpp:448-587), run for at most `fuel`
passes; `none` when the passes are used up. -/
def parseLoop {σ : Type} (h : Hooks σ) (operation : Operation) :
    Nat → Machine σ → Option (Ret × Machine σ)
  | 0, _ => none
  | fuel + 1, m =>
      match m.buffer.next with
      | (false, buffer) => some (parseEnd { m with buffer := buffer })
      | (true, buffer) =>
          match parseBody h operation { m with buffer := buffer } with
          | .continue m1 => parseLoop h operation fuel m1
          | .break m1 => some (parseEnd m1)
          | .return r m1 => some (r, m1)

/-- The run of the loop from the machine state `m`: every pass reads at least
one byte, so one pass more than the bytes ahead is enough. -/
def parseFrom {σ : Type} (h : Hooks σ) (operation : Operation) (m : Machine σ) :
    Option (Ret × Machine σ) :=
  parseLoop h operation (m.buffer.ahead.length + 1) m

/-- A `JsonSAXReader` object: the members `_error` and `stop` and the state of
the derived class; with it `errno`, whether the `errno` of the thread that
calls `parse` holds `ERANGE` (it does not when the field is left out). -/
structure JsonSAXReader (σ : Type) where
  _error : ErrorText
  stop : Bool
  self : σ
  errno : Bool := false
deriving DecidableEq, Repr

/-- The machine state at the head of `JsonSAXReader::parse`: `stop = false` and
an empty `depth`. -/
def JsonSAXReader.start {σ : Type} (r : JsonSAXReader σ) (buffer : JsonStringViewBufferReader) :
    Machine σ :=
  { buffer := buffer, depth := [], self := r.self, stop := false, error := r._error, errno := r.errno }

/-- `JsonSAXReader::parse(buffer, operation)` (Json.cpp:443). -/
def JsonSAXReader.parse {σ : Type} (h : Hooks σ) (r : JsonSAXReader σ)
    (buffer : JsonStringViewBufferReader) (operation : Operation) : Option (Ret × Machine σ) :=
  parseFrom h operation (r.start buffer)

/-- A derived class that records the hook calls in order and never stops. -/
def recorder : Hooks (List Event) :=
  fun e s => some (s ++ [e], false)

/-- A fresh recording reader, in a thread whose `errno` does not hold `ERANGE`. -/
def freshRecorder : JsonSAXReader (List Event) :=
  { _error := .empty, stop := false, self := [] }

/-- Parse the byte string `json` with the recording reader. -/
def parseEvents (json : List Nat) (operation : Operation) : Option (Ret × Machine (List Event)) :=
  JsonSAXReader.parse recorder freshRecorder (JsonStringViewBufferReader.ofString json) operation

/-! ## Number to text -/

/-- The decimal digits of `n`, most significant first, as ASCII bytes; `fuel`
bounds the number of digits. -/
def decimalDigits : Nat → Nat → List Nat → List Nat
  | 0, _, acc => acc
  | fuel + 1, n, acc =>
      if n < 10 then (48 + n) :: acc
      else decimalDigits fuel (n / 10) ((48 + n % 10) :: acc)

/-- The plain decimal text of a natural number. -/
def natText (n : Nat) : List Nat :=
  decimalDigits (n + 1) n []

/-- The plain decimal text of an integer, as `std::to_chars` produces it for
`long long`: a `-` for negative values, then the digits. -/
def intText (value : Int) : List Nat :=
  if value < 0 then 45 :: natText value.natAbs else natText value.toNat

/-- `std::to_chars(first, last, long long)` with a buffer of `size` bytes:
`none` stands for `ec != std::errc()` (the text does not fit). -/
def to_chars_longlong (size : Nat) (value : Int) : Option (List Nat) :=
  if (intText value).length ≤ size then some (intText value) else none

/-- The largest `e` with `10^e ≤ num / den`, for `num, den > 0`. -/
def floorLog10 (num den : Nat) : Int :=
  let g : Int := ((natText num).length : Int) - ((natText den).length : Int)
  let ge : Bool := if 0 ≤ g then decide (den * 10 ^ g.toNat ≤ num) else decide (den ≤ num * 10 ^ (-g).toNat)
  if ge then g else g - 1

/-- The two decimal numbers with `n` significant digits next to `num / den`
(`c * 10^k` and `(c + 1) * 10^k`), and whether the upper one is nearer or, in a
tie, even. -/
def decimalNeighbours (num den : Nat) (e10 : Int) (n : Nat) : Nat × Int × Bool :=
  let k : Int := e10 - ((n : Int) - 1)
  let a : Nat := if 0 ≤ k then num else num * 10 ^ (-k).toNat
  let b : Nat := if 0 ≤ k then den * 10 ^ k.toNat else den
  let c := a / b
  let r := a % b
  (c, k, decide (b < 2 * r) || (decide (2 * r = b) && decide (c % 2 = 1)))

/-- The value `c * 10^k` read back as a binary64 number. -/
def decimalToDouble (neg : Bool) (c : Nat) (k : Int) : Option Double :=
  if 0 ≤ k then roundToDouble neg (c * 10 ^ k.toNat) 1 else roundToDouble neg c (10 ^ (-k).toNat)

/-- The shortest decimal `c * 10^k` that reads back as `d`, searched among the
numbers with `n, n + 1, ...` significant digits for `fuel` lengths; among two
candidates of one length the nearer one is taken. -/
def shortestDecimal (d : Double) (num den : Nat) (e10 : Int) : Nat → Nat → Nat × Int
  | 0, n => let (c, k, _) := decimalNeighbours num den e10 n; (c, k)
  | fuel + 1, n =>
      let (c, k, up) := decimalNeighbours num den e10 n
      let lowOk : Bool := c != 0 && decimalToDouble d.neg c k == some d
      let highOk : Bool := decimalToDouble d.neg (c + 1) k == some d
      if lowOk && highOk then (if up then (c + 1, k) else (c, k))
      else if lowOk then (c, k)
      else if highOk then (c + 1, k)
      else shortestDecimal d num den e10 fuel (n + 1)

/-- Strip trailing zeros of `c * 10^k`. -/
def stripZeros : Nat → Nat → Int → Nat × Int
  | 0, c, k => (c, k)
  | fuel + 1, c, k => if c % 10 = 0 ∧ c ≠ 0 then stripZeros fuel (c / 10) (k + 1) else (c, k)

/-- The exponent part of scientific notation: sign and at least two digits. -/
def exponentText (x : Int) : List Nat :=
  let ds := natText x.natAbs
  (if x < 0 then 45 else 43) :: (if ds.length < 2 then 48 :: ds else ds)

/-- Fixed notation of `ds * 10^k`, `ds` being the digit text. -/
def fixedText (ds : List Nat) (k : Int) : List Nat :=
  if 0 ≤ k then ds ++ List.replicate k.toNat 48
  else if (-k).toNat < ds.length then
    ds.take (ds.length - (-k).toNat) ++ 46 :: ds.drop (ds.length - (-k).toNat)
  else 48 :: 46 :: (List.replicate ((-k).toNat - ds.length) 48 ++ ds)

/-- Scientific notation of `ds * 10^k`. -/
def scientificText (ds : List Nat) (k : Int) : List Nat :=
  ds.take 1 ++ (if 1 < ds.length then 46 :: ds.drop 1 else [])
    ++ 101 :: exponentText (k + (ds.length : Int) - 1)

/-- The text of `std::to_chars(first, last, double)` without a format argument
([charconv.to.chars]): the shortest digits that read back as the same value,
in fixed or scientific notation, whichever is shorter, fixed in a tie.  In
fixed notation a value without a fractional part is written with all the digits
of its integer value, which from `2^53` on can differ from the shortest digits
followed by zeros. -/
def doubleText (d : Double) : List Nat :=
  let sign : List Nat := if d.neg then [45] else []
  if d.mant = 0 then sign ++ [48]
  else
    let num : Nat := if 0 ≤ d.exp then d.mant * 2 ^ d.exp.toNat else d.mant
    let den : Nat := if 0 ≤ d.exp then 1 else 2 ^ (-d.exp).toNat
    let (c0, k0) := shortestDecimal d num den (floorLog10 num den) 17 1
    let (c, k) := stripZeros 20 c0 k0
    let ds := natText c
    let fixed := fixedText ds k
    let scientific := scientificText ds k
    sign ++ (if fixed.length ≤ scientific.length then (if 0 ≤ k then natText (num / den) else fixed)
      else scientific)

/-- `std::to_chars(first, last, double)` with a buffer of `size` bytes: `none`
stands for `ec != std::errc()` (the text does not fit). -/
def to_chars_double (size : Nat) (value : Double) : Option (List Nat) :=
  if (doubleText value).length ≤ size then some (doubleText value) else none

/-! ## Byte sink and event serializer -/

/-- A `JsonBufferWriter`: `JsonStringBufferWriter` is the case `is_open = true`
(its `write` always succeeds), `JsonFileBufferWriter` refuses when its stream is
not open.  `json` is what was written, `count` the member `count`. -/
structure JsonBufferWriter where
  is_open : Bool
  count : Nat
  json : List Nat
deriving DecidableEq, Repr

/-- `JsonStringBufferWriter()`. -/
def JsonStringBufferWriter : JsonBufferWriter :=
  { is_open := true, count := 0, json := [] }

/-- `write(ch)` of the sink (Json.cpp:1006, 1032). -/
def JsonBufferWriter.write (b : JsonBufferWriter) (ch : Nat) : Bool × JsonBufferWriter :=
  if !b.is_open then (false, b)
  else (true, { b with count := b.count + 1, json := b.json ++ [ch] })

/-- `JsonSAXWriter::Сondition` (Json.h:348). -/
inductive Condition
  | Object
  | ObjectKey
  | ObjectNextPair
  | Array
  | ArrayNextValue
deriving DecidableEq, Repr

/-- The content of `JsonSAXWriter::_error`: empty, one of the constants of
Json.cpp:1044-1049, or a text passed to `setError`. -/
inductive WriteError
  | empty
  | InvalidBuffer
  | InvalidOperation
  | ErrorConvDouble
  | ErrorConvLongLong
  | ControlCharacterDetect
  | BufferEnding
  | text (msg : String)
deriving DecidableEq, Repr

/-- How a function of the writer ends: `return true`, `return false`, or
undefined behaviour (the top of an empty stack or a null sink is used). -/
inductive Out
  | true
  | false
  | undefined
deriving DecidableEq, Repr

/-- A `JsonSAXWriter` object; `stack` has its top first, `buffer = none` is the
null pointer. -/
structure JsonSAXWriter where
  beautiful : Bool
  _error : WriteError
  buffer : Option JsonBufferWriter
  stack : List Condition
deriving DecidableEq, Repr

namespace JsonSAXWriter

/-- A member function of the writer. -/
abbrev Action := JsonSAXWriter → Out × JsonSAXWriter

/-- Run `b` when `a` returned true: the chain `!a() || !b()`. -/
def seq (a b : Action) : Action :=
  fun w => match a w with
    | (.true, w1) => b w1
    | r => r

/-- `return true` without effect. -/
def skip : Action := fun w => (.true, w)

/-- Store `e` in `_error` and `return false`. -/
def failWith (e : WriteError) : Action := fun w => (.false, { w with _error := e })

/-- `JsonSAXWriter()`. -/
def new : JsonSAXWriter :=
  { beautiful := false, _error := .empty, buffer := none, stack := [] }

/-- `checkBuffer` (Json.cpp:1051). -/
def checkBuffer : Action := fun w =>
  match w.buffer with
  | none => failWith .InvalidBuffer w
  | some _ => (.true, w)

/-- `writeChar` (Json.cpp:1062). -/
def writeChar (ch : Nat) : Action := fun w =>
  if isControlCode ch then failWith .ControlCharacterDetect w
  else
    match w.buffer with
    | none => (.undefined, w)
    | some b =>
        match b.write ch with
        | (false, b1) => failWith .BufferEnding { w with buffer := some b1 }
        | (true, b1) => (.true, { w with buffer := some b1 })

/-- `writeSpace` (Json.cpp:1079). -/
def writeSpace : Nat → Action
  | 0 => skip
  | count + 1 => seq (writeChar 32) (writeSpace count)

/-- The separator written before an entry that is not the first of its
container: `,`, and in beautiful mode a newline and the indentation. -/
def separator : Action := fun w =>
  seq (writeChar 44)
    (if w.beautiful then seq (writeChar 10) (writeSpace (2 * w.stack.length)) else skip) w

/-- The part of `checkCorrectValue` and `containerEnd` that follows the top of
the stack (Json.cpp:1093-1102, 1111-1120). -/
def advance : Action := fun w =>
  match w.stack with
  | [] => (.undefined, w)
  | .ArrayNextValue :: _ => separator w
  | .ObjectKey :: below => (.true, { w with stack := .ObjectNextPair :: below })
  | .Array :: below =>
      seq (if w.beautiful then writeSpace (2 * w.stack.length) else skip)
        (fun w1 => (.true, { w1 with stack := .ArrayNextValue :: below })) w
  | _ => (.true, w)

/-- `checkCorrectValue` (Json.cpp:1085). -/
def checkCorrectValue : Action := fun w =>
  match w.stack with
  | .Object :: _ => failWith .InvalidOperation w
  | .ObjectNextPair :: _ => failWith .InvalidOperation w
  | _ => advance w

/-- `containerEnd` (Json.cpp:1107). -/
def containerEnd : Action := fun w =>
  if w.stack.isEmpty then (.true, w) else advance w

/-- `checkIsNotObject` (Json.cpp:1126). -/
def checkIsNotObject : Action := fun w =>
  match w.stack with
  | .Object :: _ => failWith .InvalidOperation w
  | .ObjectNextPair :: _ => failWith .InvalidOperation w
  | _ => (.true, w)

/-- `checkIsObject` (Json.cpp:1137). -/
def checkIsObject (key : Bool) («end» : Bool) : Action := fun w =>
  let indent : Action := fun w =>
    if w.beautiful then
      writeSpace (if «end» then 2 * w.stack.length - 2 else 2 * w.stack.length) w
    else (.true, w)
  match w.stack with
  | .Object :: _ => indent w
  | .ObjectNextPair :: _ => if key then separator w else indent w
  | _ => failWith .InvalidOperation w

/-- The bytes `writeString` passes to `writeChar` for the byte `c`
(Json.cpp:1160-1179). -/
def escape (c : Nat) : List Nat :=
  if c == 34 then [92, 34]
  else if c == 92 then [92, 92]
  else if c == 47 then [92, 47]
  else if c == 8 then [92, 98]
  else if c == 12 then [92, 102]
  else if c == 10 then [92, 110]
  else if c == 13 then [92, 114]
  else if c == 9 then [92, 116]
  else [c]

/-- `writeChar` on each byte of `s` in turn, until one fails. -/
def writeChars : List Nat → Action
  | [] => skip
  | ch :: s => seq (writeChar ch) (writeChars s)

/-- The loop of `writeString` (Json.cpp:1158-1180). -/
def writeStringBody : List Nat → Action
  | [] => skip
  | c :: string => seq (writeChars (escape c)) (writeStringBody string)

/-- `writeString` (Json.cpp:1154). -/
def writeString (string : List Nat) : Action :=
  seq (writeChar 34) (seq (writeStringBody string) (writeChar 34))

/-- `setBuffer` (Json.cpp:1193). -/
def setBuffer (w : JsonSAXWriter) (buffer : Option JsonBufferWriter) (beautiful : Bool) :
    JsonSAXWriter :=
  { w with stack := [], buffer := buffer, beautiful := beautiful }

/-- Push `c` on the state stack. -/
def push (c : Condition) : Action := fun w => (.true, { w with stack := c :: w.stack })

/-- `stack.pop()`. -/
def pop : Action := fun w => (.true, { w with stack := w.stack.tail })

/-- `if(beautiful && !writeChar('\n')) return false;`. -/
def newline : Action := fun w => if w.beautiful then writeChar 10 w else (.true, w)

/-- `ObjectBegin` (Json.cpp:1200). -/
def ObjectBegin : Action :=
  seq checkBuffer (seq checkIsNotObject (seq containerEnd (seq (writeChar 123)
    (seq newline (push .Object)))))

/-- `ObjectKey` (Json.cpp:1208). -/
def ObjectKey (key : List Nat) : Action :=
  seq checkBuffer (seq (checkIsObject true false) (seq (writeString key) (seq (writeChar 58)
    (fun w => (.true, { w with stack := .ObjectKey :: w.stack.tail })))))

/-- `ObjectEnd` (Json.cpp:1215). -/
def ObjectEnd : Action :=
  seq checkBuffer (seq newline (seq (checkIsObject false true) (seq (writeChar 125) pop)))

/-- `ArrayBegin` (Json.cpp:1222). -/
def ArrayBegin : Action :=
  seq checkBuffer (seq checkIsNotObject (seq containerEnd (seq (writeChar 91)
    (seq newline (push .Array)))))

/-- `ArrayEnd` (Json.cpp:1230): the test `stack.empty() && stack.top() != Array`
reads the top exactly when the stack is empty. -/
def ArrayEnd : Action :=
  seq checkBuffer (fun w =>
    if w.stack.isEmpty then (.undefined, w)
    else
      seq pop (seq (fun w1 =>
        if w1.beautiful then seq (writeChar 10) (writeSpace (2 * w1.stack.length)) w1
        else (.true, w1)) (writeChar 93)) w)

/-- `Value(const std::string &)` (Json.cpp:1244). -/
def ValueString (value : List Nat) : Action :=
  seq checkBuffer (seq checkCorrectValue (writeString value))

/-- `Value(double)` (Json.cpp:1251), with its buffer of 18 bytes. -/
def ValueDouble (value : Double) : Action :=
  seq checkBuffer (seq checkCorrectValue (fun w =>
    match to_chars_double 18 value with
    | none => failWith .ErrorConvDouble w
    | some str => writeChars str w))

/-- `Value(long long)` (Json.cpp:1269), with its buffer of 20 bytes. -/
def ValueLongLong (value : Int) : Action :=
  seq checkBuffer (seq checkCorrectValue (fun w =>
    match to_chars_longlong 20 value with
    | none => failWith .ErrorConvLongLong w
    | some str => writeChars str w))

/-- `Value(bool)` (Json.cpp:1288). -/
def ValueBool (value : Bool) : Action :=
  seq checkBuffer (seq checkCorrectValue
    (if value then writeChars [116, 114, 117, 101] else writeChars [102, 97, 108, 115, 101]))

/-- `Null` (Json.cpp:1296). -/
def Null : Action :=
  seq checkBuffer (seq checkCorrectValue (writeChars [110, 117, 108, 108]))

end JsonSAXWriter

/-! ## Document model -/

/-- The alternatives of `JsonValue::Value` (Json.h:177), in index order.
`Object` and `Array` hold the address of the shared `Map` / `Vector`. -/
inductive Value
  | Empty
  | Object (map : Nat)
  | Array (array : Nat)
  | String (string : List Nat)
  | Double (val : Double)
  | LongLong (val : Int)
  | Bool (val : Bool)
  | Null
deriving DecidableEq, Repr

/-- `JsonType` (Json.h:98) is the index of the alternative. -/
inductive JsonType
  | Empty
  | Object
  | Array
  | String
  | Double
  | LongLong
  | Bool
  | Null
deriving DecidableEq, Repr

/-- A `JsonValue` (Json.h:110): the member `value`, a shared pointer to a
`Value` cell, given by the address of the cell.  Copying a `JsonValue` copies
the address. -/
structure JsonValue where
  value : Nat
deriving DecidableEq, Repr

/-- `std::string` comparison, which orders the keys of `Object::Map`: bytes are
compared as unsigned values, a proper prefix comes first. -/
def keyLess : List Nat → List Nat → Bool
  | [], [] => false
  | [], _ :: _ => true
  | _ :: _, [] => false
  | a :: as, b :: bs => decide (a < b) || (a == b && keyLess as bs)

/-- `std::map::insert` on the entries in key order: nothing changes when the
key is present. -/
def mapInsert (key : List Nat) (value : JsonValue) :
    List (List Nat × JsonValue) → List (List Nat × JsonValue)
  | [] => [(key, value)]
  | (k, v) :: rest =>
      if keyLess key k then (key, value) :: (k, v) :: rest
      else if keyLess k key then (k, v) :: mapInsert key value rest
      else (k, v) :: rest

/-- The store of shared cells: the `Value` cells behind `JsonValue::value`, the
maps behind `Object::map` (entries in key order) and the vectors behind
`Array::array`.  An address is an index; cells are never released. -/
structure Heap where
  values : List Value
  maps : List (List (List Nat × JsonValue))
  arrays : List (List JsonValue)
deriving DecidableEq, Repr

namespace Heap

/-- The heap with no cell. -/
def empty : Heap := { values := [], maps := [], arrays := [] }

/-- `std::make_shared<Value>()` followed by an assignment of `v` to the cell. -/
def newValue (h : Heap) (v : Value) : Heap × JsonValue :=
  ({ h with values := h.values ++ [v] }, { value := h.values.length })

/-- `JsonValue::Object()`: a new empty map. -/
def newMap (h : Heap) : Heap × Nat :=
  ({ h with maps := h.maps ++ [[]] }, h.maps.length)

/-- `JsonValue::Array()`: a new empty vector. -/
def newArray (h : Heap) : Heap × Nat :=
  ({ h with arrays := h.arrays ++ [[]] }, h.arrays.length)

/-- `value.type()` (Json.cpp:685). -/
def type (h : Heap) (j : JsonValue) : Option JsonType :=
  match h.values[j.value]? with
  | none => none
  | some .Empty => some .Empty
  | some (.Object _) => some .Object
  | some (.Array _) => some .Array
  | some (.String _) => some .String
  | some (.Double _) => some .Double
  | some (.LongLong _) => some .LongLong
  | some (.Bool _) => some .Bool
  | some .Null => some .Null

end Heap

/-- A document as a finite tree: what a `JsonValue` unfolds to when the shared
cells are followed. -/
inductive ValueTree
  | Empty
  | Object (members : List (List Nat × ValueTree))
  | Array (elements : List ValueTree)
  | String (string : List Nat)
  | Double (val : Double)
  | LongLong (val : Int)
  | Bool (val : Bool)
  | Null
deriving Repr

mutual
/-- Equality test on document trees. -/
def beqTree : ValueTree → ValueTree → Bool
  | .Empty, .Empty => true
  | .Object xs, .Object ys => beqMembers xs ys
  | .Array xs, .Array ys => beqElements xs ys
  | .String a, .String b => a == b
  | .Double a, .Double b => a == b
  | .LongLong a, .LongLong b => a == b
  | .Bool a, .Bool b => a == b
  | .Null, .Null => true
  | _, _ => false
/-- Equality test on member lists. -/
def beqMembers : List (List Nat × ValueTree) → List (List Nat × ValueTree) → Bool
  | [], [] => true
  | (k, x) :: xs, (l, y) :: ys => k == l && beqTree x y && beqMembers xs ys
  | _, _ => false
/-- Equality test on element lists. -/
def beqElements : List ValueTree → List ValueTree → Bool
  | [], [] => true
  | x :: xs, y :: ys => beqTree x y && beqElements xs ys
  | _, _ => false
end

mutual
/-- The tree the value `j` unfolds to in the heap `h`, following at most `fuel`
levels; `none` when a cell is missing or the levels do not suffice. -/
def Heap.tree (h : Heap) : Nat → JsonValue → Option ValueTree
  | 0, _ => none
  | fuel + 1, j =>
      match h.values[j.value]? with
      | none => none
      | some .Empty => some .Empty
      | some (.Object map) =>
          match h.maps[map]? with
          | none => none
          | some entries => (Heap.treeMembers h fuel entries).map .Object
      | some (.Array array) =>
          match h.arrays[array]? with
          | none => none
          | some elements => (Heap.treeElements h fuel elements).map .Array
      | some (.String s) => some (.String s)
      | some (.Double d) => some (.Double d)
      | some (.LongLong n) => some (.LongLong n)
      | some (.Bool b) => some (.Bool b)
      | some .Null => some .Null
/-- The trees of the entries of a map. -/
def Heap.treeMembers (h : Heap) : Nat → List (List Nat × JsonValue) →
    Option (List (List Nat × ValueTree))
  | 0, _ => none
  | _ + 1, [] => some []
  | fuel + 1, (k, j) :: rest =>
      match Heap.tree h fuel j, Heap.treeMembers h fuel rest with
      | some t, some ts => some ((k, t) :: ts)
      | _, _ => none
/-- The trees of the elements of a vector. -/
def Heap.treeElements (h : Heap) : Nat → List JsonValue → Option (List ValueTree)
  | 0, _ => none
  | _ + 1, [] => some []
  | fuel + 1, j :: rest =>
      match Heap.tree h fuel j, Heap.treeElements h fuel rest with
      | some t, some ts => some (t :: ts)
      | _, _ => none
end

/-! ## DOM builder -/

/-- A `JsonReader` object (Json.h:270): the heap its values live in, the members
`root`, `stack` (top first, the addresses of the `Value` cells) and `key`, and
`user`, the state the callback keeps. -/
structure JsonReader (κ : Type) where
  heap : Heap
  root : JsonValue
  stack : List Nat
  key : List Nat
  user : κ
deriving DecidableEq, Repr

/-- The callback `std::function<bool(JsonValue &)>`: it sees the value and the
heap and updates its own state. -/
abbrev Callback (κ : Type) := JsonValue → Heap → κ → κ × Bool

namespace JsonReader

/-- `JsonReader()`: the member `root` is a new `JsonValue`, whose cell is empty. -/
def new {κ : Type} (user : κ) : JsonReader κ :=
  { heap := { values := [.Empty], maps := [], arrays := [] }, root := { value := 0 },
    stack := [], key := [], user := user }

/-- `insertValue` (Json.cpp:838).  `none` stands for the exception
`std::bad_variant_access` of `std::get`, or for the use of the top of an empty
stack.  The moved-from `key` is empty afterwards. -/
def insertValue {κ : Type} (value : JsonValue) (r : JsonReader κ) : Option (JsonReader κ) :=
  match r.stack with
  | [] => none
  | cell :: _ =>
      if !r.key.isEmpty then
        match r.heap.values[cell]? with
        | some (.Object map) =>
            match r.heap.maps[map]? with
            | none => none
            | some entries =>
                some { r with
                  heap := { r.heap with maps := r.heap.maps.set map (mapInsert r.key value entries) },
                  key := [] }
        | _ => none
      else
        match r.heap.values[cell]? with
        | some (.Array array) =>
            match r.heap.arrays[array]? with
            | none => none
            | some elements =>
                some { r with
                  heap := { r.heap with arrays := r.heap.arrays.set array (elements ++ [value]) } }
        | _ => none

/-- The body shared by `ObjectBegin` and `ArrayBegin` (Json.cpp:929, 949) once
the new value `value` exists. -/
def begin {κ : Type} (value : JsonValue) (r : JsonReader κ) : Option (JsonReader κ) :=
  if r.stack.isEmpty then some { r with root := value, stack := [value.value] }
  else
    match insertValue value r with
    | none => none
    | some r1 => some { r1 with stack := value.value :: r1.stack }

/-- A scalar hook (Json.cpp:967-1000): a new value holding `v`, then
`insertValue`. -/
def scalar {κ : Type} (v : Value) (r : JsonReader κ) : Option (JsonReader κ) :=
  let (heap, value) := r.heap.newValue v
  insertValue value { r with heap := heap }

/-- The hooks of `JsonReader` (Json.cpp:918-1000) with the callback `callback`. -/
def hooks {κ : Type} (callback : Callback κ) : Hooks (JsonReader κ) := fun e r =>
  match e with
  | .JsonBegin => some ({ r with stack := [] }, false)
  | .JsonEnd =>
      let (user, go) := callback r.root r.heap r.user
      some ({ r with stack := [], user := user }, !go)
  | .ObjectBegin =>
      let (heap1, map) := r.heap.newMap
      let (heap2, value) := heap1.newValue (.Object map)
      (begin value { r with heap := heap2 }).map (·, false)
  | .ObjectKey key => some ({ r with key := key }, false)
  | .ObjectEnd => if r.stack.isEmpty then none else some ({ r with stack := r.stack.tail }, false)
  | .ArrayBegin =>
      let (heap1, array) := r.heap.newArray
      let (heap2, value) := heap1.newValue (.Array array)
      (begin value { r with heap := heap2 }).map (·, false)
  | .ArrayEnd => if r.stack.isEmpty then none else some ({ r with stack := r.stack.tail }, false)
  | .ValueString value => (scalar (.String value) r).map (·, false)
  | .ValueDouble value => (scalar (.Double value) r).map (·, false)
  | .ValueLongLong value => (scalar (.LongLong value) r).map (·, false)
  | .ValueBool value => (scalar (.Bool value) r).map (·, false)
  | .Null => (scalar .Null r).map (·, false)

/-- `JsonReader::parse(buffer, resultCallback, operation)` (Json.cpp:856) for a
callable `resultCallback`; `sax` is the base-class part of the object.  On a
false return of the event parser the stack is cleared, `root` becomes a new
empty value and `key` is cleared. -/
def parse {κ : Type} (callback : Callback κ) (sax : JsonSAXReader (JsonReader κ))
    (buffer : JsonStringViewBufferReader) (operation : Operation) :
    Option (Ret × Machine (JsonReader κ)) :=
  match JsonSAXReader.parse (hooks callback) sax buffer operation with
  | none => none
  | some (.false, m) =>
      let (heap, root) := m.self.heap.newValue .Empty
      some (.false, { m with self := { m.self with heap := heap, stack := [], root := root, key := [] } })
  | some r => some r

/-- The callback of the convenience overloads: `ret = value; return true;`. -/
def keep : Callback JsonValue := fun value _ _ => (value, true)

/-- `JsonValue JsonReader::parse(std::string_view json)` (Json.cpp:889) on a new
reader: the outcome, the returned `ret` and the heap it lives in.  `errno` tells
whether the `errno` of the calling thread holds `ERANGE` at the call. -/
def parseValue (errno : Bool) (json : List Nat) : Option (Ret × JsonValue × Heap) :=
  let (heap, ret) := (new (κ := Unit) ()).heap.newValue .Empty
  let reader : JsonReader JsonValue :=
    { heap := heap, root := { value := 0 }, stack := [], key := [], user := ret }
  match parse keep { _error := .empty, stop := false, self := reader, errno := errno }
      (JsonStringViewBufferReader.ofString json) .Single with
  | none => none
  | some (r, m) => some (r, m.self.user, m.self.heap)

/-- The callback used to observe every document: it appends the value it is
given to its list and returns true. -/
def collect : Callback (List JsonValue) := fun value _ seen => (seen ++ [value], true)

end JsonReader

/-! ## Tree writer -/

/-- The `Variant` of `JsonWriter::write` (Json.cpp:1335): no iterator yet, a
map iterator or a vector iterator, an iterator being the index of its entry. -/
inductive Variant
  | monostate
  | map (pos : Nat)
  | vector (pos : Nat)
deriving DecidableEq, Repr

/-- A `JsonWriter`: the serializer it derives from and the local `stack` of
`write` (back of the list first). -/
structure JsonWriter where
  sax : JsonSAXWriter
  stack : List (JsonValue × Variant)
deriving DecidableEq, Repr

namespace JsonWriter

/-- `writeValue` (Json.cpp:1305). -/
def writeValue (h : Heap) (value : JsonValue) : JsonSAXWriter.Action :=
  match h.values[value.value]? with
  | some (.String s) => JsonSAXWriter.ValueString s
  | some (.Double d) => JsonSAXWriter.ValueDouble d
  | some (.LongLong n) => JsonSAXWriter.ValueLongLong n
  | some (.Bool b) => JsonSAXWriter.ValueBool b
  | some .Null => JsonSAXWriter.Null
  | _ => JsonSAXWriter.failWith (.text "Invalid json value is empty type")

/-- Whether `value` is a container (Json.cpp:1356, 1395). -/
def isContainer (h : Heap) (value : JsonValue) : Bool :=
  h.type value == some .Object || h.type value == some .Array

/-- The search of Json.cpp:1358-1366: `value` shares its cell with an entry of
the stack. -/
def onStack (stack : List (JsonValue × Variant)) (value : JsonValue) : Bool :=
  stack.any (fun pair => pair.1.value == value.value)

/-- How the inner loop over the entries of a container ends. -/
inductive Walk
  | finished (w : JsonSAXWriter)
  | child (value : JsonValue) (pos : Nat) (w : JsonSAXWriter)
  | failed (out : Out) (w : JsonSAXWriter)
deriving DecidableEq, Repr

/-- One entry value of a container (Json.cpp:1355-1378, 1394-1417): `none` when
the writer has to descend into it. -/
def entry (h : Heap) (stack : List (JsonValue × Variant)) (value : JsonValue) :
    Option JsonSAXWriter.Action :=
  if isContainer h value then
    if onStack stack value then some JsonSAXWriter.Null else none
  else some (writeValue h value)

/-- The inner loop over the entries of an object from the iterator `pos` on
(Json.cpp:1351-1380); the list holds the entries at and behind `pos`. -/
def walkObject (h : Heap) (stack : List (JsonValue × Variant)) :
    List (List Nat × JsonValue) → Nat → JsonSAXWriter → Walk
  | [], _, w => .finished w
  | (key, value) :: rest, pos, w =>
      match JsonSAXWriter.ObjectKey key w with
      | (.true, w1) =>
          match entry h stack value with
          | none => .child value (pos + 1) w1
          | some act =>
              match act w1 with
              | (.true, w2) => walkObject h stack rest (pos + 1) w2
              | (out, w2) => .failed out w2
      | (out, w1) => .failed out w1

/-- The inner loop over the elements of an array from the iterator `pos` on
(Json.cpp:1392-1419). -/
def walkArray (h : Heap) (stack : List (JsonValue × Variant)) :
    List JsonValue → Nat → JsonSAXWriter → Walk
  | [], _, w => .finished w
  | value :: rest, pos, w =>
      match entry h stack value with
      | none => .child value (pos + 1) w
      | some act =>
          match act w with
          | (.true, w1) => walkArray h stack rest (pos + 1) w1
          | (out, w1) => .failed out w1

/-- The iterator a stack entry resumes at: `begin()` when none is stored. -/
def resume : Variant → Nat
  | .monostate => 0
  | .map pos => pos
  | .vector pos => pos

/-- How one pass through the loop of `write` ends. -/
inductive Pass
  | continue (w : JsonWriter)
  | return (out : Out) (w : JsonWriter)
deriving DecidableEq, Repr

/-- The body of the loop of `JsonWriter::write` (Json.cpp:1344-1425) for the
stack entry `(value, it)` at the back. -/
def pass (h : Heap) (value : JsonValue) (it : Variant) (below : List (JsonValue × Variant))
    (w : JsonWriter) : Pass :=
  let pos := resume it
  match h.values[value.value]? with
  | some (.Object map) =>
      let entries := (h.maps[map]?).getD []
      match (if pos == 0 then JsonSAXWriter.ObjectBegin w.sax else (.true, w.sax)) with
      | (.true, s1) =>
          match walkObject h w.stack (entries.drop pos) pos s1 with
          | .failed out s2 => .return out { w with sax := s2 }
          | .child child next s2 =>
              .continue { sax := s2, stack := (child, .monostate) :: (value, .map next) :: below }
          | .finished s2 =>
              match JsonSAXWriter.ObjectEnd s2 with
              | (.true, s3) => .continue { sax := s3, stack := below }
              | (out, s3) => .return out { w with sax := s3 }
      | (out, s1) => .return out { w with sax := s1 }
  | other =>
      let elements : List JsonValue :=
        match other with
        | some (.Array array) => (h.arrays[array]?).getD []
        | _ => []
      match (if pos == 0 then JsonSAXWriter.ArrayBegin w.sax else (.true, w.sax)) with
      | (.true, s1) =>
          match walkArray h w.stack (elements.drop pos) pos s1 with
          | .failed out s2 => .return out { w with sax := s2 }
          | .child child next s2 =>
              .continue { sax := s2, stack := (child, .monostate) :: (value, .vector next) :: below }
          | .finished s2 =>
              match JsonSAXWriter.ArrayEnd s2 with
              | (.true, s3) => .continue { sax := s3, stack := below }
              | (out, s3) => .return out { w with sax := s3 }
      | (out, s1) => .return out { w with sax := s1 }

/-- The loop of `JsonWriter::write` (Json.cpp:1342-1426), run for at most `fuel`
passes; `none` when the passes are used up. -/
def writeLoop (h : Heap) : Nat → JsonWriter → Option (Out × JsonWriter)
  | 0, _ => none
  | fuel + 1, w =>
      match w.stack with
      | [] => some (.true, w)
      | (value, it) :: below =>
          match pass h value it below w with
          | .continue w1 => writeLoop h fuel w1
          | .return out w1 => some (out, w1)

/-- `JsonWriter::write(buffer, json, beautiful)` (Json.cpp:1332), its loop run
for at most `fuel` passes. -/
def write (fuel : Nat) (h : Heap) (w : JsonWriter) (buffer : JsonBufferWriter)
    (json : JsonValue) (beautiful : Bool) : Option (Out × JsonWriter) :=
  if h.type json != some .Object && h.type json != some .Array then some (.false, w)
  else
    writeLoop h fuel
      { sax := w.sax.setBuffer (some buffer) beautiful, stack := [(json, .monostate)] }

/-- `JsonWriter()`. -/
def new : JsonWriter := { sax := JsonSAXWriter.new, stack := [] }

/-- `bool JsonWriter::write(std::string &, json, beautiful)` (Json.cpp:1431) on a
new writer: the flag and, when it is true, the text moved into the string. -/
def writeString (fuel : Nat) (h : Heap) (json : JsonValue) (beautiful : Bool) :
    Option (Out × List Nat) :=
  match write fuel h new JsonStringBufferWriter json beautiful with
  | none => none
  | some (out, w) => some (out, ((w.sax.buffer.map (·.json)).getD []))

end JsonWriter

/-! ## Auxiliary notions for the statements -/

/-- The reader a lexer hands back. -/
def Ready.buffer {α : Type} : Ready α → JsonStringViewBufferReader
  | .ok _ buffer => buffer
  | .fail _ buffer => buffer

/-- The same reader over an input that continues with the bytes `s`. -/
def JsonStringViewBufferReader.extend (b : JsonStringViewBufferReader) (s : List Nat) :
    JsonStringViewBufferReader :=
  { b with ahead := b.ahead ++ s }

/-- The same lexer result over an input that continues with the bytes `s`. -/
def Ready.extend {α : Type} (r : Ready α) (s : List Nat) : Ready α :=
  match r with
  | .ok out buffer => .ok out (buffer.extend s)
  | .fail error buffer => .fail error (buffer.extend s)

/-- The same machine state over an input that continues with the bytes `s`. -/
def Machine.extend {σ : Type} (m : Machine σ) (s : List Nat) : Machine σ :=
  { m with buffer := m.buffer.extend s }

/-- The same loop step over an input that continues with the bytes `s`. -/
def Step.extend {σ : Type} (r : Step σ) (s : List Nat) : Step σ :=
  match r with
  | .continue m => .continue (m.extend s)
  | .break m => .break (m.extend s)
  | .return x m => .return x (m.extend s)

/-- The machine state a loop step ends in. -/
def Step.machine {σ : Type} : Step σ → Machine σ
  | .continue m => m
  | .break m => m
  | .return _ m => m

/-- What a step of the main loop in Single mode is in Multiple mode: a `break`
behind a document becomes a `continue`, unless the hook has asked to stop. -/
def Step.toMultiple {σ : Type} : Step σ → Step σ
  | .break m => if m.stop then .break m else .continue m
  | s => s

/-- A reader that stood at `pos` with the bytes `ahead` ahead of it has moved on
to the byte `b.cur` of `ahead`. -/
def Live (pos : Int) (ahead : List Nat) (b : JsonStringViewBufferReader) : Prop :=
  ∃ pre, ahead = pre ++ b.cur :: b.ahead ∧ b.pos = pos + 1 + pre.length

/-- A reader that stood at `pos` with the bytes `ahead` ahead of it has run past
the end of the input: `next()` returned false. -/
def Ended (pos : Int) (ahead : List Nat) (b : JsonStringViewBufferReader) : Prop :=
  b.pos = pos + 1 + ahead.length ∧ b.ahead = [] ∧ b.cur = 0

/-- Where a reader that stood at `pos` with the bytes `ahead` ahead of it can be
after calls of `next()`: on a byte of `ahead`, or past the end of the input. -/
def Advanced (pos : Int) (ahead : List Nat) (b : JsonStringViewBufferReader) : Prop :=
  Live pos ahead b ∨ Ended pos ahead b

/-- The reader `b1` is the reader `b` or a later state of it within the input. -/
def Onward (b b1 : JsonStringViewBufferReader) : Prop :=
  b1 = b ∨ Live b.pos b.ahead b1

/-- The message of the error for a token that the end of the input cuts off,
by the byte the token starts with: a string behind `"`, a number behind `-` or
a digit, else a keyword. -/
def tokenMsg (ch : Nat) : Msg :=
  if ch == 34 then .StringOutOfArrayMsg
  else if ch == 45 || isdigit ch then .NumberOutOfArrayMsg
  else .ValueOutOfArrayMsg

/-- The function `f` of the reader acts locally at the machine state `m`: either
it stops at a byte of the input, and then does the same whatever bytes are
appended to the input, or it runs past the end of the input and returns false
with the error `msg` for a truncated token. -/
def Local {σ : Type} (msg : Msg) (f : Machine σ → Ret × Machine σ) (m : Machine σ) : Prop :=
  (Onward m.buffer (f m).2.buffer ∧ ∀ s, f (m.extend s) = ((f m).1, (f m).2.extend s))
    ∨ (Ended m.buffer.pos m.buffer.ahead (f m).2.buffer ∧ (f m).1 = .false
        ∧ (f m).2.error = makeError msg (f m).2.buffer)

/-- `Local` for a function that yields a step of the main loop. -/
def LocalStep {σ : Type} (msg : Msg) (f : Machine σ → Step σ) (m : Machine σ) : Prop :=
  (Onward m.buffer (f m).machine.buffer ∧ ∀ s, f (m.extend s) = (f m).extend s)
    ∨ (Ended m.buffer.pos m.buffer.ahead (f m).machine.buffer
        ∧ f m = .return .false (f m).machine
        ∧ (f m).machine.error = makeError msg (f m).machine.buffer)

/-- The machine state after `k` further passes through the loop of
`JsonSAXReader::parse`, each of which goes on to the next pass; `none` when the
loop is left earlier. -/
def passes {σ : Type} (h : Hooks σ) (operation : Operation) : Nat → Machine σ → Option (Machine σ)
  | 0, m => some m
  | k + 1, m =>
      match m.buffer.next with
      | (false, _) => none
      | (true, buffer) =>
          match parseBody h operation { m with buffer := buffer } with
          | .continue m1 => passes h operation k m1
          | _ => none

/-- The start state of the recording reader on the input `json`. -/
def startEvents (json : List Nat) : Machine (List Event) :=
  freshRecorder.start (JsonStringViewBufferReader.ofString json)

/-- The number of bytes of the input of a reader that is not past its end. -/
def JsonStringViewBufferReader.size (b : JsonStringViewBufferReader) : Int :=
  b.pos + 1 + b.ahead.length

/-- The number that a decimal literal denotes: an optional `-` in front of the
digit bytes `ds`, read in base 10. -/
def literalValue (neg : Bool) (ds : List Nat) : Int :=
  if neg then -((Nat.ofDigits 10 ((ds.map (fun d => d - 48)).reverse) : Nat) : Int)
  else ((Nat.ofDigits 10 ((ds.map (fun d => d - 48)).reverse) : Nat) : Int)

/-- The text of a decimal literal: an optional `-` in front of the digit bytes. -/
def literalText (neg : Bool) (ds : List Nat) : List Nat :=
  (if neg then [45] else []) ++ ds

/-! ## Runs that differ in the state of the derived class -/

/-- Two readers stand on the same byte with the same bytes ahead of them; their
positions may differ. -/
def SameInput (b b1 : JsonStringViewBufferReader) : Prop :=
  b1.cur = b.cur ∧ b1.ahead = b.ahead

/-- Two machine states that agree in all but the position of the reader, the
error text and the states of the derived classes, which `R` relates. -/
def Alike {σ τ : Type} (R : σ → τ → Prop) (m : Machine σ) (m1 : Machine τ) : Prop :=
  SameInput m.buffer m1.buffer ∧ m1.depth = m.depth ∧ m1.stop = m.stop ∧ m1.errno = m.errno
    ∧ R m.self m1.self

/-- Two results of a function of the reader: the same outcome in alike states. -/
def AlikeRet {σ τ : Type} (R : σ → τ → Prop) (r : Ret × Machine σ) (r1 : Ret × Machine τ) :
    Prop :=
  r1.1 = r.1 ∧ Alike R r.2 r1.2

/-- Two lexer results: the same outcome with the same output on the same input. -/
def AlikeReady {α : Type} (r r1 : Ready α) : Prop :=
  match r, r1 with
  | .ok out b, .ok out1 b1 => out1 = out ∧ SameInput b b1
  | .fail _ b, .fail _ b1 => SameInput b b1
  | _, _ => False

/-- Two steps of the main loop that end the same way in alike states. -/
def AlikeStep {σ τ : Type} (R : σ → τ → Prop) (s : Step σ) (s1 : Step τ) : Prop :=
  match s, s1 with
  | .continue m, .continue m1 => Alike R m m1
  | .break m, .break m1 => Alike R m m1
  | .return r m, .return r1 m1 => r1 = r ∧ Alike R m m1
  | _, _ => False

/-- The hooks `h` and `h1` act alike on states that `R` relates: both throw, or
both return, in related states, with the same request to stop. -/
def HooksAlike {σ τ : Type} (R : σ → τ → Prop) (h : Hooks σ) (h1 : Hooks τ) : Prop :=
  ∀ (e : Event) (s : σ) (s1 : τ), R s s1 →
    match h e s, h1 e s1 with
    | none, none => True
    | some (t, b), some (t1, b1) => R t t1 ∧ b1 = b
    | _, _ => False

/-! ## Documents one after another -/

/-- What the observing callback keeps: each value it was given, with the tree
the value unfolded to when the callback ran. -/
abbrev Seen := List (JsonValue × Option ValueTree)

/-- The callback that observes every document: it notes the value it is given
and the tree of that value in the heap as it is then, and returns true. -/
def JsonReader.observe : Callback Seen :=
  fun value heap seen => (seen ++ [(value, heap.tree (heap.values.length + 1) value)], true)

/-- A new `JsonReader` with the observing callback, as the base-class object,
in a thread whose `errno` does not hold `ERANGE`. -/
def JsonReader.fresh : JsonSAXReader (JsonReader Seen) :=
  { _error := .empty, stop := false, self := JsonReader.new [] }

/-- The tree of the top-level document `d`: `JsonReader::parse` of `d` alone, in
Single mode on a new reader, returns true with the reader on the last byte of
`d`, and has called back once, with an object or array that unfolds to the
tree.  `none` when `d` is no such document. -/
def documentTree (d : List Nat) : Option ValueTree :=
  match JsonReader.parse JsonReader.observe JsonReader.fresh (JsonStringViewBufferReader.ofString d) .Single with
  | some (.true, m) =>
      if m.buffer.pos + 1 = d.length then
        match m.self.user with
        | [(v, some t)] => if JsonWriter.isContainer m.self.heap v then some t else none
        | _ => none
      else none
  | _ => none

/-- The text of documents one after another: each entry gives the whitespace
before a document, the document and its tree; `ws` is the whitespace behind the
last document. -/
def documentsText : List (List Nat × List Nat × ValueTree) → List Nat → List Nat
  | [], ws => ws
  | p :: docs, ws => p.1 ++ (p.2.1 ++ documentsText docs ws)

/-- The heap `g` holds the cells of the heap `f` and maybe more: no cell of `f`
was changed. -/
def Heap.Extends (f g : Heap) : Prop :=
  (∃ vs, g.values = f.values ++ vs) ∧ (∃ ms, g.maps = f.maps ++ ms)
    ∧ (∃ as, g.arrays = f.arrays ++ as)

/-- The address of a value cell of a new reader as it is in a reader that held
`a + 1` value cells before: cell 0, the first root, stays; later cells move up. -/
def moveCell (a : Nat) (j : Nat) : Nat := if j = 0 then 0 else j + a

/-- A cell content with its map or vector address moved up by `b` or `c`. -/
def moveValue (b c : Nat) : Value → Value
  | .Object map => .Object (map + b)
  | .Array array => .Array (array + c)
  | v => v

/-- A `JsonValue` with its cell address moved. -/
def moveJson (a : Nat) (j : JsonValue) : JsonValue := { value := moveCell a j.value }

/-- The entries of a map with the addresses of their values moved. -/
def moveEntries (a : Nat) (entries : List (List Nat × JsonValue)) : List (List Nat × JsonValue) :=
  entries.map (fun p => (p.1, moveJson a p.2))

/-- The heap `g` of a reader that has parsed before holds the cells of `base`,
which it had then, followed by the cells that the heap `f` of a new reader
holds behind its first cell, with their addresses moved up. -/
def MovedHeap (base f g : Heap) : Prop :=
  f.values.head? = some .Empty ∧ base.values.head? = some .Empty
    ∧ g.values = base.values ++ (f.values.tail).map (moveValue base.maps.length base.arrays.length)
    ∧ g.maps = base.maps ++ f.maps.map (moveEntries (base.values.length - 1))
    ∧ g.arrays = base.arrays ++ f.arrays.map (fun l => l.map (moveJson (base.values.length - 1)))

/-- The state `r1` of a reader that has parsed before, with the heap `base` and
the observations `seen` then, against the state `r` of a new reader after the
same hook calls: the same state, moved up in the heap.  The observations agree
unless the new reader has called back with its first root or with a value
whose tree it could not unfold. -/
def Moved (base : Heap) (seen : Seen) (r r1 : JsonReader Seen) : Prop :=
  MovedHeap base r.heap r1.heap
    ∧ r1.stack = r.stack.map (moveCell (base.values.length - 1))
    ∧ r1.key = r.key
    ∧ ((∃ e ∈ r.user, e.1.value = 0 ∨ e.2 = none)
        ∨ (r1.user = seen ++ r.user.map (fun e => (moveJson (base.values.length - 1) e.1, e.2))
            ∧ (r1.root = moveJson (base.values.length - 1) r.root ∨ r.root.value = 0)))

/-- Between two passes of the main loop the builder's stack is as deep as
`depth`, and a key is pending only behind a key or behind its `:`. -/
def Settled {κ : Type} (m : Machine (JsonReader κ)) : Prop :=
  m.self.stack.length = m.depth.length
    ∧ (m.depth.head? = some .ObjectKey ∨ m.depth.head? = some .ObjectValue ∨ m.self.key = [])

/-! ## Invariants of the derived class -/

/-- Every hook other than `JsonEnd` keeps `I`, a property of the state of the
derived class and of the member `stop`. -/
def Keeps {σ : Type} (I : σ → Bool → Prop) (h : Hooks σ) : Prop :=
  ∀ (e : Event) (s s1 : σ) (b st : Bool), e ≠ .JsonEnd → h e s = some (s1, b) → I s st →
    I s1 (st || b)

/-! ## Operations of the document model -/

namespace JsonValue

/-- The implicit copy constructor and copy assignment of `JsonValue` (Json.h:185:
its only member is the shared pointer `value`): the copy points to the cell of
the original. -/
def copyConstruct (v : JsonValue) : JsonValue := { value := v.value }

/-- The assignment `*value = x`, which is the body of every setter and of every
`operator =` that takes a payload (Json.cpp:691-833). -/
def assign (h : Heap) (v : JsonValue) (x : Value) : Heap :=
  { h with values := h.values.set v.value x }

/-- `setString(const std::string &)` and `operator = (const std::string &)`
(Json.cpp:753, 769). -/
def setString (h : Heap) (v : JsonValue) (string : List Nat) : Heap := assign h v (.String string)

/-- `setDouble(double)` and `operator = (double)` (Json.cpp:771, 778). -/
def setDouble (h : Heap) (v : JsonValue) (val : Double) : Heap := assign h v (.Double val)

/-- `setLongLong` and `operator =` for the integer types (Json.cpp:784-819): the
argument is cast to `long long`, which keeps its value. -/
def setLongLong (h : Heap) (v : JsonValue) (val : Int) : Heap := assign h v (.LongLong val)

/-- `setBool(bool)` and `operator = (bool)` (Json.cpp:821, 823). -/
def setBool (h : Heap) (v : JsonValue) (val : Bool) : Heap := assign h v (.Bool val)

/-- `setNull()` and `operator = (std::nullptr_t)` (Json.cpp:829, 830). -/
def setNull (h : Heap) (v : JsonValue) : Heap := assign h v .Null

/-- `JsonValue::copy()` (Json.cpp:678): a new cell that holds a copy of the
content of the cell of `v`; `none` when `v` is no cell of the heap. -/
def copy (h : Heap) (v : JsonValue) : Option (Heap × JsonValue) :=
  match h.values[v.value]? with
  | none => none
  | some x => some (h.newValue x)

/-- `JsonValue(const Object &)` (Json.cpp:661): a new cell that holds the handle. -/
def ofObject (h : Heap) (object : Nat) : Heap × JsonValue := h.newValue (.Object object)

/-- `JsonValue(const Array &)` (Json.cpp:662): a new cell that holds the handle. -/
def ofArray (h : Heap) (array : Nat) : Heap × JsonValue := h.newValue (.Array array)

/-- `JsonValue(long long)` (Json.cpp:674): a new cell that holds the number. -/
def ofLongLong (h : Heap) (val : Int) : Heap × JsonValue := h.newValue (.LongLong val)

end JsonValue

/-- The entry of a map that `std::map::find` yields for `key`. -/
def mapFind (key : List Nat) (entries : List (List Nat × JsonValue)) : Option JsonValue :=
  (entries.find? (fun p => p.1 == key)).map (fun p => p.2)

/-- `std::map::erase(key)`. -/
def mapErase (key : List Nat) (entries : List (List Nat × JsonValue)) :
    List (List Nat × JsonValue) :=
  entries.filter (fun p => !(p.1 == key))

/-- The member functions of `JsonValue::Object` (Json.cpp:600-617).  An `Object`
is the address of its map; `none` stands for an address that is no map of the
heap. -/
structure Object where
  map : Nat
deriving DecidableEq, Repr

namespace Object

/-- The implicit copy constructor of `Object` (Json.h:146: its only member is
the shared pointer `map`): the copy is a handle to the same map. -/
def copyConstruct (o : Object) : Object := { map := o.map }

/-- `Object::copy()` (Json.cpp:602): a new map, to which the entries are
assigned. -/
def copy (h : Heap) (o : Object) : Option (Heap × Object) :=
  match h.maps[o.map]? with
  | none => none
  | some entries => some ({ h with maps := h.maps ++ [entries] }, { map := h.maps.length })

/-- `count()` (Json.cpp:609). -/
def count (h : Heap) (o : Object) : Option Nat := (h.maps[o.map]?).map List.length

/-- `contains(key)` (Json.cpp:610). -/
def contains (h : Heap) (o : Object) (key : List Nat) : Option Bool :=
  (h.maps[o.map]?).map (fun entries => (mapFind key entries).isSome)

/-- `value(key)` (Json.cpp:611): a copy of the `JsonValue` stored under `key`,
or a new empty `JsonValue`. -/
def value (h : Heap) (o : Object) (key : List Nat) : Option (Heap × JsonValue) :=
  match h.maps[o.map]? with
  | none => none
  | some entries =>
      match mapFind key entries with
      | some v => some (h, v.copyConstruct)
      | none => some (h.newValue .Empty)

/-- `insert(key, value)` (Json.cpp:612). -/
def insert (h : Heap) (o : Object) (key : List Nat) (value : JsonValue) : Option Heap :=
  match h.maps[o.map]? with
  | none => none
  | some entries => some { h with maps := h.maps.set o.map (mapInsert key value entries) }

/-- `remove(key)` (Json.cpp:613). -/
def remove (h : Heap) (o : Object) (key : List Nat) : Option Heap :=
  match h.maps[o.map]? with
  | none => none
  | some entries => some { h with maps := h.maps.set o.map (mapErase key entries) }

/-- `clear()` (Json.cpp:614). -/
def clear (h : Heap) (o : Object) : Option Heap :=
  match h.maps[o.map]? with
  | none => none
  | some _ => some { h with maps := h.maps.set o.map [] }

/-- `operator [](key)` (Json.cpp:615): the `JsonValue` stored under `key`, by
reference; `std::map::operator[]` first stores a new empty `JsonValue` when the
key is absent. -/
def index (h : Heap) (o : Object) (key : List Nat) : Option (Heap × JsonValue) :=
  match h.maps[o.map]? with
  | none => none
  | some entries =>
      match mapFind key entries with
      | some v => some (h, v)
      | none =>
          let (h1, v) := h.newValue .Empty
          some ({ h1 with maps := h1.maps.set o.map (mapInsert key v entries) }, v)

end Object

/-- The member functions of `JsonValue::Array` (Json.cpp:631-645).  An `Array`
is the address of its vector. -/
structure Array where
  array : Nat
deriving DecidableEq, Repr

namespace Array

/-- `Array::copy()` (Json.cpp:633): a new vector, to which the elements are
assigned. -/
def copy (h : Heap) (a : Array) : Option (Heap × Array) :=
  match h.arrays[a.array]? with
  | none => none
  | some elements => some ({ h with arrays := h.arrays ++ [elements] }, { array := h.arrays.length })

/-- `count()` (Json.cpp:640). -/
def count (h : Heap) (a : Array) : Option Nat := (h.arrays[a.array]?).map List.length

/-- `at(index)` and `operator [](index)` (Json.cpp:641, 644): the element, by
reference; `none` also stands for the exception of `std::vector::at`. -/
def «at» (h : Heap) (a : Array) (index : Nat) : Option JsonValue :=
  match h.arrays[a.array]? with
  | none => none
  | some elements => elements[index]?

/-- `append(value)` (Json.cpp:642). -/
def append (h : Heap) (a : Array) (value : JsonValue) : Option Heap :=
  match h.arrays[a.array]? with
  | none => none
  | some elements => some { h with arrays := h.arrays.set a.array (elements ++ [value]) }

/-- `clear()` (Json.cpp:643). -/
def clear (h : Heap) (a : Array) : Option Heap :=
  match h.arrays[a.array]? with
  | none => none
  | some _ => some { h with arrays := h.arrays.set a.array [] }

end Array

/-- Whether the content of a cell is a string, a number, a boolean or null. -/
def isPrimitive : Value → Bool
  | .String _ => true
  | .Double _ => true
  | .LongLong _ => true
  | .Bool _ => true
  | .Null => true
  | _ => false

/-! ## The traversal of the tree writer -/

/-- The number of entries of the container in the cell of `value`. -/
def JsonWriter.size (h : Heap) (value : JsonValue) : Nat :=
  match h.values[value.value]? with
  | some (.Object map) => ((h.maps[map]?).getD []).length
  | some (.Array array) => ((h.arrays[array]?).getD []).length
  | _ => 0

/-- The state of the writer after `n` further passes through the loop of
`JsonWriter::write`, each of which goes on to the next pass; `none` when the
loop is left earlier. -/
def JsonWriter.after (h : Heap) : Nat → JsonWriter → Option JsonWriter
  | 0, w => some w
  | n + 1, w =>
      match w.stack with
      | [] => none
      | (value, it) :: below =>
          match JsonWriter.pass h value it below w with
          | .continue w1 => JsonWriter.after h n w1
          | .return _ _ => none

/-- The state in which `JsonWriter::write` enters its loop. -/
def JsonWriter.start (w : JsonWriter) (buffer : JsonBufferWriter) (json : JsonValue)
    (beautiful : Bool) : JsonWriter :=
  { sax := w.sax.setBuffer (some buffer) beautiful, stack := [(json, .monostate)] }

/-- The storage of the container in the cell of `value`: the address of its
map or of its vector. -/
def JsonWriter.storage (h : Heap) (value : JsonValue) : Option (Bool × Nat) :=
  match h.values[value.value]? with
  | some (.Object map) => some (true, map)
  | some (.Array array) => some (false, array)
  | _ => none

/-! ## The string literal in the words of the specification -/

/-- A byte that the specification lets a string hold as it is: no control byte
(`0x00..0x08`, `0x0E..0x1F`, `0x7F`), not `"`, not `\`. -/
def isPlain (c : Nat) : Bool :=
  !(decide (c ≤ 8) || (decide (14 ≤ c) && decide (c ≤ 31)) || c == 127) && c != 34 && c != 92

/-- The bytes the specification allows behind a backslash: `"`, `\`, `/`, `b`,
`f`, `n`, `r`, `t` and `u`. -/
def isEscapeChar (c : Nat) : Bool :=
  c == 34 || c == 92 || c == 47 || c == 98 || c == 102 || c == 110 || c == 114 || c == 116
    || c == 117

/-- An item of a string literal: a byte that stands for itself, or a backslash
with the byte behind it. -/
inductive StringItem
  | plain (c : Nat)
  | escaped (c : Nat)
deriving DecidableEq, Repr

/-- An item the specification accepts. -/
def StringItem.wellFormed : StringItem → Bool
  | .plain c => isPlain c
  | .escaped c => isEscapeChar c

/-- The bytes of an item in the input. -/
def StringItem.text : StringItem → List Nat
  | .plain c => [c]
  | .escaped c => [92, c]

/-- The bytes an item stands for in the value: the escapes `b`, `f`, `n`, `r`,
`t` stand for their character, `"`, `\` and `/` for themselves, and `\u` is
copied through as the two bytes `\` and `u`. -/
def StringItem.value : StringItem → List Nat
  | .plain c => [c]
  | .escaped c =>
      if c == 98 then [8]
      else if c == 102 then [12]
      else if c == 110 then [10]
      else if c == 114 then [13]
      else if c == 116 then [9]
      else if c == 117 then [92, 117]
      else [c]

/-- The input text of a list of items. -/
def itemsText (items : List StringItem) : List Nat := items.flatMap StringItem.text

/-- The value of a list of items. -/
def itemsValue (items : List StringItem) : List Nat := items.flatMap StringItem.value

/-! ## The output text, described tree by tree -/

/-- The writer with the bytes `text` added to its sink and the state stack
`stack`. -/
def JsonSAXWriter.emit (w : JsonSAXWriter) (text : List Nat) (stack : List Condition) :
    JsonSAXWriter :=
  { w with buffer := w.buffer.map (fun b => { b with count := b.count + text.length, json := b.json ++ text }), stack := stack }

/-- The writer has a sink, and the sink takes bytes. -/
def JsonSAXWriter.isOpen (w : JsonSAXWriter) : Bool :=
  match w.buffer with
  | some b => b.is_open
  | none => false

/-- The indentation of beautified output: two spaces for each level. -/
def indentText (beautiful : Bool) (depth : Nat) : List Nat :=
  if beautiful then List.replicate (2 * depth) 32 else []

/-- The newline of beautified output. -/
def newlineText (beautiful : Bool) : List Nat :=
  if beautiful then [10] else []

/-- What stands between two entries of a container: `,`, and in beautified
output a newline and the indentation. -/
def separatorText (beautiful : Bool) (depth : Nat) : List Nat :=
  44 :: (newlineText beautiful ++ indentText beautiful depth)

/-- What stands before an entry of a container: the indentation before the
first one, the separator before the others. -/
def entryPrefix (beautiful : Bool) (depth : Nat) (first : Bool) : List Nat :=
  if first then indentText beautiful depth else separatorText beautiful depth

/-- What the serializer writes before a value, by its state stack: the
indentation before the first element of an array, the separator before the
others, nothing behind a key or outside a container. -/
def valuePrefix (beautiful : Bool) : List Condition → List Nat
  | .Array :: below => entryPrefix beautiful (below.length + 1) true
  | .ArrayNextValue :: below => entryPrefix beautiful (below.length + 1) false
  | _ => []

/-- The state stack behind a value. -/
def advanced : List Condition → List Condition
  | .ObjectKey :: below => .ObjectNextPair :: below
  | .Array :: below => .ArrayNextValue :: below
  | stack => stack

/-- What the serializer writes before a key, by its state stack. -/
def keyPrefix (beautiful : Bool) : List Condition → List Nat
  | .Object :: below => entryPrefix beautiful (below.length + 1) true
  | .ObjectNextPair :: below => entryPrefix beautiful (below.length + 1) false
  | _ => []

/-- A string in quotes, with the six named escapes and the escaped quote,
backslash and slash. -/
def quoteText (s : List Nat) : List Nat :=
  34 :: (s.flatMap JsonSAXWriter.escape ++ [34])

/-- A string without a byte of `0x00..0x07`, `0x0E..0x1F`, `0x7F`. -/
def acceptsString (s : List Nat) : Bool :=
  s.all (fun c => !(decide (c ≤ 7) || (decide (14 ≤ c) && decide (c ≤ 31)) || c == 127))

/-- The text of a scalar: a quoted string, the shortest decimal of a double when
it fits 18 bytes, the decimal of an integer, `true`, `false`, `null`.  An empty
value has no text. -/
def scalarText : ValueTree → Option (List Nat)
  | .String s => if acceptsString s then some (quoteText s) else none
  | .Double d => to_chars_double 18 d
  | .LongLong n => to_chars_longlong 20 n
  | .Bool true => some [116, 114, 117, 101]
  | .Bool false => some [102, 97, 108, 115, 101]
  | .Null => some [110, 117, 108, 108]
  | _ => none

mutual
/-- The text of a tree that starts at nesting level `depth`: a container holds
its entries one level deeper, each on a line of its own in beautified output;
`none` when a string, a key or a number in it has no text. -/
def renderTree (beautiful : Bool) (depth : Nat) : ValueTree → Option (List Nat)
  | .Object members =>
      (renderMembers beautiful (depth + 1) true members).map (fun body =>
        123 :: (newlineText beautiful ++ body ++ newlineText beautiful
          ++ indentText beautiful depth ++ [125]))
  | .Array elements =>
      (renderElements beautiful (depth + 1) true elements).map (fun body =>
        91 :: (newlineText beautiful ++ body ++ newlineText beautiful
          ++ indentText beautiful depth ++ [93]))
  | .Empty => none
  | .String s => scalarText (.String s)
  | .Double d => scalarText (.Double d)
  | .LongLong n => scalarText (.LongLong n)
  | .Bool b => scalarText (.Bool b)
  | .Null => scalarText .Null
/-- The text of the members of an object, in the order of the list. -/
def renderMembers (beautiful : Bool) (depth : Nat) :
    Bool → List (List Nat × ValueTree) → Option (List Nat)
  | _, [] => some []
  | first, (key, value) :: members =>
      if acceptsString key then
        match renderTree beautiful depth value, renderMembers beautiful depth false members with
        | some text, some rest =>
            some (entryPrefix beautiful depth first ++ (quoteText key ++ 58 :: (text ++ rest)))
        | _, _ => none
      else none
/-- The text of the elements of an array, in the order of the list. -/
def renderElements (beautiful : Bool) (depth : Nat) :
    Bool → List ValueTree → Option (List Nat)
  | _, [] => some []
  | first, value :: elements =>
      match renderTree beautiful depth value, renderElements beautiful depth false elements with
      | some text, some rest => some (entryPrefix beautiful depth first ++ (text ++ rest))
      | _, _ => none
end

/-- The message constant of an error text, its kind. -/
def ErrorText.kind : ErrorText → Option Msg
  | .empty => none
  | .plain msg => some msg
  | .withOffset msg _ => some msg
  | .withChar msg _ _ => some msg

/-! ## The overloads of `JsonWriter::write` -/

/-- What a call `write(buffer, json, beautiful)` (Json.cpp:1332) leaves in the
sink `buffer` of the caller, with the flag it returns: the sink is untouched
when the root is no container, else the writer holds a pointer to it. -/
def JsonWriter.written (fuel : Nat) (h : Heap) (w : JsonWriter) (buffer : JsonBufferWriter)
    (json : JsonValue) (beautiful : Bool) : Option (Out × JsonBufferWriter) :=
  if h.type json != some .Object && h.type json != some .Array then some (.false, buffer)
  else
    match JsonWriter.write fuel h w buffer json beautiful with
    | none => none
    | some (out, w1) => some (out, (w1.sax.buffer).getD buffer)

/-- `bool JsonWriter::write(std::string & string, json, beautiful)`
(Json.cpp:1431): the flag, and the string of the caller afterwards, which is
assigned only behind a true return of `write(buffer, json, beautiful)`. -/
def JsonWriter.writeInto (fuel : Nat) (h : Heap) (w : JsonWriter) (string : List Nat)
    (json : JsonValue) (beautiful : Bool) : Option (Out × List Nat) :=
  match JsonWriter.written fuel h w JsonStringBufferWriter json beautiful with
  | none => none
  | some (.true, buffer) => some (.true, buffer.json)
  | some (out, _) => some (out, string)

/-- `std::string JsonWriter::write(json, beautiful)` (Json.cpp:1439): `ret`
starts empty and is returned whatever the flag is. -/
def JsonWriter.writeText (fuel : Nat) (h : Heap) (w : JsonWriter) (json : JsonValue)
    (beautiful : Bool) : Option (List Nat) :=
  (JsonWriter.writeInto fuel h w [] json beautiful).map (fun p => p.2)

/-! ## The passes of the tree writer over a subtree -/

mutual
/-- The number of nodes of a tree. -/
def ValueTree.size : ValueTree → Nat
  | .Object members => membersSize members + 1
  | .Array elements => elementsSize elements + 1
  | .Empty => 1
  | .String _ => 1
  | .Double _ => 1
  | .LongLong _ => 1
  | .Bool _ => 1
  | .Null => 1
/-- The number of nodes of the values of a member list. -/
def membersSize : List (List Nat × ValueTree) → Nat
  | [] => 0
  | (_, value) :: members => value.size + membersSize members
/-- The number of nodes of an element list. -/
def elementsSize : List ValueTree → Nat
  | [] => 0
  | value :: elements => value.size + elementsSize elements
end

/-- From the state `w` the loop of `JsonWriter::write` reaches the state
`target` after some passes, each of which goes on to the next; for `none`: it
returns false after some passes. -/
def JsonWriter.Runs (h : Heap) (w : JsonWriter) (target : Option JsonWriter) : Prop :=
  match target with
  | some w1 => ∃ n, JsonWriter.after h n w = some w1
  | none => ∃ fuel w1, JsonWriter.writeLoop h fuel w = some (.false, w1)

/-- `Runs` for the loop behind a pass that ended as `p`. -/
def JsonWriter.Pass.Runs (h : Heap) (p : JsonWriter.Pass) (target : Option JsonWriter) : Prop :=
  match p with
  | .continue w => JsonWriter.Runs h w target
  | .return out _ => out = .false ∧ target = none

/-- The part of a pass over an object that follows its inner loop
(Json.cpp:1382-1384 and the `return false` and `continue` of the loop). -/
def JsonWriter.objectTail (value : JsonValue) (below stack : List (JsonValue × Variant)) :
    JsonWriter.Walk → JsonWriter.Pass
  | .failed out s2 => .return out { sax := s2, stack := stack }
  | .child child next s2 =>
      .continue { sax := s2, stack := (child, .monostate) :: (value, .map next) :: below }
  | .finished s2 =>
      match JsonSAXWriter.ObjectEnd s2 with
      | (.true, s3) => .continue { sax := s3, stack := below }
      | (out, s3) => .return out { sax := s3, stack := stack }

/-- The part of a pass over an array that follows its inner loop. -/
def JsonWriter.arrayTail (value : JsonValue) (below stack : List (JsonValue × Variant)) :
    JsonWriter.Walk → JsonWriter.Pass
  | .failed out s2 => .return out { sax := s2, stack := stack }
  | .child child next s2 =>
      .continue { sax := s2, stack := (child, .monostate) :: (value, .vector next) :: below }
  | .finished s2 =>
      match JsonSAXWriter.ArrayEnd s2 with
      | (.true, s3) => .continue { sax := s3, stack := below }
      | (out, s3) => .return out { sax := s3, stack := stack }

/-- Every value on the traversal stack unfolds to a tree of more than `k` nodes,
if it unfolds at all. -/
def JsonWriter.Above (h : Heap) (k : Nat) (stack : List (JsonValue × Variant)) : Prop :=
  ∀ e ∈ stack, ∀ (n : Nat) (t : ValueTree), h.tree n e.1 = some t → k < t.size

/-- The serializer is where a value may stand: outside every container, behind
a key, or in an array. -/
def JsonSAXWriter.takesValue (s : JsonSAXWriter) : Prop :=
  s.stack = [] ∨ s.stack.head? = some .ObjectKey ∨ s.stack.head? = some .Array
    ∨ s.stack.head? = some .ArrayNextValue

/-- The passes over the container `value`, which unfolds to the tree `t`: from
the state with `value` alone on top of the traversal stack the loop reaches the
state in which `value` is popped and the text of `t` is written, at the nesting
level of the serializer and behind what stands before a value; or it returns
false, when `t` has no text. -/
def JsonWriter.Renders (h : Heap) (value : JsonValue) (t : ValueTree) : Prop :=
  ∀ (s : JsonSAXWriter) (below : List (JsonValue × Variant)),
    s.isOpen = true → s.takesValue → JsonWriter.Above h t.size below →
    JsonWriter.Runs h { sax := s, stack := (value, .monostate) :: below }
      ((renderTree s.beautiful s.stack.length t).map (fun text =>
        { sax := s.emit (valuePrefix s.beautiful s.stack ++ text) (advanced s.stack),
          stack := below }))

/-- A byte of the text of a number: a digit, `-`, `+`, `.` or `e`. -/
def isNumberChar (c : Nat) : Bool :=
  isdigit c || c == 45 || c == 43 || c == 46 || c == 101

/-! ## Keys in order -/

/-- `insert` of each pair in turn into an empty `Object::Map`. -/
def insertAll (pairs : List (List Nat × JsonValue)) : List (List Nat × JsonValue) :=
  pairs.foldl (fun entries p => mapInsert p.1 p.2 entries) []

/-- The entries stand in strictly increasing key order. -/
def KeysAscend {α : Type} (entries : List (List Nat × α)) : Prop :=
  entries.Pairwise (fun p q => keyLess p.1 q.1 = true)

/-- Every map of the heap holds its entries in strictly increasing key order. -/
def Heap.Ordered (h : Heap) : Prop :=
  ∀ entries ∈ h.maps, KeysAscend entries

mutual
/-- Every object of the tree holds its members in strictly increasing key
order. -/
def ValueTree.Ordered : ValueTree → Prop
  | .Object members => KeysAscend members ∧ membersOrdered members
  | .Array elements => elementsOrdered elements
  | .Empty => True
  | .String _ => True
  | .Double _ => True
  | .LongLong _ => True
  | .Bool _ => True
  | .Null => True
/-- `Ordered` for the values of a member list. -/
def membersOrdered : List (List Nat × ValueTree) → Prop
  | [] => True
  | (_, value) :: members => value.Ordered ∧ membersOrdered members
/-- `Ordered` for an element list. -/
def elementsOrdered : List ValueTree → Prop
  | [] => True
  | value :: elements => value.Ordered ∧ elementsOrdered elements
end

/-! ## Runs over texts that differ in whitespace -/

/-- What a call of `JsonSAXReader::parse` shows its caller: the flag, the state of
the derived class, `stop` and the kind of the error. -/
def shown {σ : Type} (r : Ret × Machine σ) : Ret × σ × Bool × Option Msg :=
  (r.1, r.2.self, r.2.stop, r.2.error.kind)

/-- How the run goes on behind a pass of the loop of `JsonSAXReader::parse`. -/
def Step.run {σ : Type} (h : Hooks σ) (operation : Operation) :
    Step σ → Option (Ret × Machine σ)
  | .continue m => parseFrom h operation m
  | .break m => some (parseEnd m)
  | .return r m => some (r, m)

/-- What a run of the loop of `JsonSAXReader::parse` shows its caller, from the
state `m` with the bytes `ahead` ahead of the reader. -/
def outcome {σ : Type} (h : Hooks σ) (operation : Operation) (m : Machine σ)
    (ahead : List Nat) : Option (Ret × σ × Bool × Option Msg) :=
  (parseFrom h operation { m with buffer := { m.buffer with ahead := ahead } }).map shown

/-- What the run shows that calls the hook `e` in the state `m` and then goes on
over the bytes `ahead`: an exception of the hook ends the run. -/
def hooked {σ : Type} (h : Hooks σ) (operation : Operation) (e : Event) (m : Machine σ)
    (ahead : List Nat) : Option (Ret × σ × Bool × Option Msg) :=
  match h e m.self with
  | none => some (.thrown, m.self, m.stop, m.error.kind)
  | some (s, stopped) => outcome h operation { m with self := s, stop := m.stop || stopped } ahead

/-- The runs over `restA` and over `restB` show the same, from every state with
the stack `depth`. -/
def Agree {σ : Type} (h : Hooks σ) (operation : Operation) (depth : List JsonReaderType)
    (restA restB : List Nat) : Prop :=
  ∀ m : Machine σ, m.depth = depth → outcome h operation m restA = outcome h operation m restB

/-- The text `rest` behind a value starts with a byte that ends a number:
whitespace, `,`, or the bracket that closes the container, an object for
`object = true` and an array else. -/
def Terminated (object : Bool) (rest : List Nat) : Prop :=
  ∃ (c : Nat) (tail : List Nat), rest = c :: tail
    ∧ (isspace c = true ∨ c = 44 ∨ (c = 125 ∧ object = true) ∨ (c = 93 ∧ object = false))

/-! ## The writer without its error text -/

/-- The serializer with its error text dropped: the sink, the mode and the
state stack are what its functions read. -/
def JsonSAXWriter.forget (w : JsonSAXWriter) : JsonSAXWriter := { w with _error := .empty }

/-- A function of the serializer that does not read the error text: from two
states that differ in the error text only, it returns the same flag in states
that differ in the error text only. -/
def JsonSAXWriter.Blind (a : JsonSAXWriter.Action) : Prop :=
  ∀ w w1 : JsonSAXWriter, w1.forget = w.forget →
    (a w1).1 = (a w).1 ∧ (a w1).2.forget = (a w).2.forget

/-- The tree writer with the error text of its serializer dropped. -/
def JsonWriter.forget (w : JsonWriter) : JsonWriter := { w with sax := w.sax.forget }

/-- The end of an inner loop with the error text dropped. -/
def JsonWriter.Walk.forget : JsonWriter.Walk → JsonWriter.Walk
  | .finished w => .finished w.forget
  | .child value pos w => .child value pos w.forget
  | .failed out w => .failed out w.forget

/-- The end of a pass with the error text dropped. -/
def JsonWriter.Pass.forget : JsonWriter.Pass → JsonWriter.Pass
  | .continue w => .continue w.forget
  | .return out w => .return out w.forget

/-! ## Runs that differ in the position of the reader -/

/-- The machine state with the reader at the position `pos` and with the error
text `error`. -/
def Machine.repos {σ : Type} (m : Machine σ) (pos : Int) (error : ErrorText) : Machine σ :=
  { m with buffer := { m.buffer with pos := pos }, error := error }

/-- The machine state `m1` is `m` with the reader at another position, and with
an error text of the same kind. -/
def Shifted {σ : Type} (m m1 : Machine σ) : Prop :=
  ∃ (pos : Int) (error : ErrorText), error.kind = m.error.kind ∧ m1 = m.repos pos error

/-- Two results of a function of the reader: the same outcome in shifted
states. -/
def ShiftedRet {σ : Type} (r r1 : Ret × Machine σ) : Prop :=
  r1.1 = r.1 ∧ Shifted r.2 r1.2

/-- Two lexer results: the same outcome with the same output, or the same kind
of error, on the same input. -/
def ShiftedReady {α : Type} (r r1 : Ready α) : Prop :=
  match r, r1 with
  | .ok out b, .ok out1 b1 => out1 = out ∧ b1.cur = b.cur ∧ b1.ahead = b.ahead
  | .fail e b, .fail e1 b1 => e1.kind = e.kind ∧ b1.cur = b.cur ∧ b1.ahead = b.ahead
  | _, _ => False

/-- Two steps of the main loop that end the same way in shifted states. -/
def ShiftedStep {σ : Type} (s s1 : Step σ) : Prop :=
  match s, s1 with
  | .continue m, .continue m1 => Shifted m m1
  | .break m, .break m1 => Shifted m m1
  | .return r m, .return r1 m1 => r1 = r ∧ Shifted m m1
  | _, _ => False

/-! ## The tree writer and the state stack of the serializer -/

/-- The action `a` only writes: on a writer with a sink it uses neither a null
sink nor the top of an empty state stack, and leaves the sink in place and the
state stack as it was. -/
def JsonSAXWriter.Writes (a : JsonSAXWriter.Action) : Prop :=
  ∀ w : JsonSAXWriter, w.buffer.isSome = true →
    (a w).1 ≠ .undefined ∧ (a w).2.buffer.isSome = true ∧ (a w).2.stack = w.stack

/-- The action `a` on the writer `w` uses neither a null sink nor the top of an
empty state stack, leaves the sink in place, and leaves a state stack of `n`
entries when it returns true. -/
def JsonSAXWriter.Moves (a : JsonSAXWriter.Action) (w : JsonSAXWriter) (n : Nat) : Prop :=
  (a w).1 ≠ .undefined ∧ (a w).2.buffer.isSome = true
    ∧ ((a w).1 = .true → (a w).2.stack.length = n)

/-- An inner loop of `write` that ended without undefined behaviour: with a
sink and `n` entries on the state stack, or with `return false`. -/
def JsonWriter.Walk.Safe (n : Nat) : JsonWriter.Walk → Prop
  | .finished s => s.buffer.isSome = true ∧ s.stack.length = n
  | .child _ _ s => s.buffer.isSome = true ∧ s.stack.length = n
  | .failed out _ => out = .false

/-- The state of `write` between two passes: the serializer has a sink, and its
state stack holds one entry for each container of the traversal stack that was
begun, which are all but the one at the back when that has no iterator yet. -/
def JsonWriter.Sound (w : JsonWriter) : Prop :=
  w.sax.buffer.isSome = true ∧
    match w.stack with
    | [] => True
    | (_, it) :: below =>
        w.sax.stack.length = below.length + (if JsonWriter.resume it = 0 then 0 else 1)
          ∧ ∀ p ∈ below, JsonWriter.resume p.2 ≠ 0

/-- A pass of `write` that ended without undefined behaviour. -/
def JsonWriter.Pass.Sound : JsonWriter.Pass → Prop
  | .continue w => w.Sound
  | .return out _ => out = .false

/-- The traversal stack has the value `json` at its bottom, with an iterator
that has not passed the index `i`. -/
def JsonWriter.Before (json : JsonValue) (i : Nat) (w : JsonWriter) : Prop :=
  ∃ upper it, w.stack = upper ++ [(json, it)] ∧ JsonWriter.resume it ≤ i

mutual
/-- The tree is an empty value or holds one, at whatever depth. -/
def ValueTree.holdsEmpty : ValueTree → Bool
  | .Empty => true
  | .Object members => membersHoldEmpty members
  | .Array elements => elementsHoldEmpty elements
  | .String _ => false
  | .Double _ => false
  | .LongLong _ => false
  | .Bool _ => false
  | .Null => false
/-- A member of the list is an empty value or holds one. -/
def membersHoldEmpty : List (List Nat × ValueTree) → Bool
  | [] => false
  | (_, value) :: members => value.holdsEmpty || membersHoldEmpty members
/-- An element of the list is an empty value or holds one. -/
def elementsHoldEmpty : List ValueTree → Bool
  | [] => false
  | value :: elements => value.holdsEmpty || elementsHoldEmpty elements
end

/-- The error text of `writeValue` for a value without a type (Json.cpp:1320). -/
def emptyTypeError : WriteError := .text "Invalid json value is empty type"

/-! ## Inputs of the examples -/

/-- The input `{"a": }`. -/
def inputC4 : List Nat := [123, 34, 97, 34, 58, 32, 125]

/-- The input `42`. -/
def inputC7 : List Nat := [52, 50]

/-- The input `[1, "ab`. -/
def inputC8 : List Nat := [91, 49, 44, 32, 34, 97, 98]

/-- The document `[1]`. -/
def inputC6 : List Nat := [91, 49, 93]

/-- The digits of `9223372036854775807`, which is `2^63 - 1`. -/
def digitsMax : List Nat :=
  [57, 50, 50, 51, 51, 55, 50, 48, 51, 54, 56, 53, 52, 55, 55, 53, 56, 48, 55]

/-- The digits of `9223372036854775808`, which is `2^63`. -/
def digitsOver : List Nat :=
  [57, 50, 50, 51, 51, 55, 50, 48, 51, 54, 56, 53, 52, 55, 55, 53, 56, 48, 56]

/-- The documents `{"a":1}` and `{"b":2}`, the second behind a space, each
with the whitespace before it and its tree. -/
def inputC5 : List (List Nat × List Nat × ValueTree) :=
  [([], [123, 34, 97, 34, 58, 49, 125], .Object [([97], .LongLong 1)]),
   ([32], [123, 34, 98, 34, 58, 50, 125], .Object [([98], .LongLong 2)])]

/-- The document `[0.00001]`. -/
def inputC1 : List Nat := [91, 48, 46, 48, 48, 48, 48, 49, 93]

/-- The binary64 value nearest to `0.00001`. -/
def doubleC1 : Double := { neg := false, mant := 5902958103587057, exp := -69 }

/-- The heap after the parse of `[0.00001]` on a new reader: cell 2 is the array,
cell 3 its element. -/
def heapC1 : Heap :=
  { values := [.Empty, .Empty, .Array 0, .Double doubleC1], maps := [],
    arrays := [[{ value := 3 }]] }

/-- The heap after the parse of `[1.0]` on a new reader. -/
def heapOne : Heap :=
  { values := [.Empty, .Empty, .Array 0, .Double { neg := false, mant := 4503599627370496, exp := -52 }],
    maps := [], arrays := [[{ value := 3 }]] }

/-- The heap after the parse of `[1]` on a new reader. -/
def heapInt : Heap :=
  { values := [.Empty, .Empty, .Array 0, .LongLong 1], maps := [], arrays := [[{ value := 3 }]] }

/-- The digits of `12345678901234567890`: twenty digits. -/
def digitsLong : List Nat :=
  [49, 50, 51, 52, 53, 54, 55, 56, 57, 48, 49, 50, 51, 52, 53, 54, 55, 56, 57, 48]

/-- The document `{"":1}`, whose only key is the empty string. -/
def inputC12 : List Nat := [123, 34, 34, 58, 49, 125]

/-- A callback that counts its calls and returns false on the call that makes
the count `n`. -/
def stopAt (n : Nat) : Callback Nat :=
  fun _ _ count => (count + 1, decide (count + 1 ≠ n))

/-- The documents `{"a":1}`, ` {"b":2}`: the second behind a space. -/
def inputC13 : List Nat := [123, 34, 97, 34, 58, 49, 125, 32, 123, 34, 98, 34, 58, 50, 125]

/-- The document `[1234567890123456.5]`: the decimal point is the 17th character
of the literal. -/
def inputC29 : List Nat :=
  [91, 49, 50, 51, 52, 53, 54, 55, 56, 57, 48, 49, 50, 51, 52, 53, 54, 46, 53, 93]

/-- A heap with the object that `insert("b", 1)` and then `insert("a", [2])`
build: cell 0 is the object, cell 1 the integer 1, cell 2 the array, cell 3 the
integer 2. -/
def heapC25 : Heap :=
  { values := [.Object 0, .LongLong 1, .Array 0, .LongLong 2],
    maps := [insertAll [([98], { value := 1 }), ([97], { value := 2 })]],
    arrays := [[{ value := 3 }]] }

/-- A heap with the object `{"a":1}`: cell 0 is the object, cell 1 the
integer 1. -/
def heapC36 : Heap :=
  { values := [.Object 0, .LongLong 1], maps := [[([97], { value := 1 })]], arrays := [] }

/-- A heap with an array of the integer 1 and a value of type Empty: cell 0 is
the array, cell 1 the integer, cell 2 the empty value. -/
def heapC36Array : Heap :=
  { values := [.Array 0, .LongLong 1, .Empty], maps := [], arrays := [[{ value := 1 }, { value := 2 }]] }




open JsonStringViewBufferReader

/-! ## The byte source -/

theorem Live.here (pos : Int) (ch : Nat) (ahead : List Nat) :
    Live pos (ch :: ahead) { pos := pos + 1, cur := ch, ahead := ahead } :=
  ⟨[], by simp⟩

theorem Live.consLive {pos : Int} {ahead : List Nat} {b : JsonStringViewBufferReader} (ch : Nat)
    (h : Live (pos + 1) ahead b) : Live pos (ch :: ahead) b := by
  obtain ⟨pre, h1, h2⟩ := h
  exact ⟨ch :: pre, by simp [h1], by simp [h2]; omega⟩

theorem Ended.consEnded {pos : Int} {ahead : List Nat} {b : JsonStringViewBufferReader} (ch : Nat)
    (h : Ended (pos + 1) ahead b) : Ended pos (ch :: ahead) b := by
  obtain ⟨h1, h2, h3⟩ := h
  exact ⟨by simp [h1]; omega, h2, h3⟩

theorem Ended.nil (pos : Int) : Ended pos [] { pos := pos + 1, cur := 0, ahead := [] } :=
  ⟨by simp, rfl, rfl⟩

theorem Advanced.consAdvanced {pos : Int} {ahead : List Nat} {b : JsonStringViewBufferReader} (ch : Nat)
    (h : Advanced (pos + 1) ahead b) : Advanced pos (ch :: ahead) b :=
  h.elim (fun h => Or.inl (h.consLive ch)) (fun h => Or.inr (h.consEnded ch))

theorem Live.length_lt {pos : Int} {ahead : List Nat} {b : JsonStringViewBufferReader}
    (h : Live pos ahead b) : b.ahead.length < ahead.length := by
  obtain ⟨pre, h1, _⟩ := h
  rw [h1]; simp; omega

theorem Live.pos_lt {pos : Int} {ahead : List Nat} {b : JsonStringViewBufferReader}
    (h : Live pos ahead b) : b.pos < pos + 1 + ahead.length := by
  obtain ⟨pre, h1, h2⟩ := h
  rw [h1, h2]; simp

theorem Live.size_eq {pos : Int} {ahead : List Nat} {b : JsonStringViewBufferReader}
    (h : Live pos ahead b) : b.pos + 1 + b.ahead.length = pos + 1 + ahead.length := by
  obtain ⟨pre, h1, h2⟩ := h
  rw [h1, h2]; simp; omega

theorem Ended.not_pos_lt {pos : Int} {ahead : List Nat} {b : JsonStringViewBufferReader}
    (h : Ended pos ahead b) : ¬ b.pos < pos + 1 + ahead.length := by
  obtain ⟨h1, _, _⟩ := h
  omega

theorem Advanced.live_of_pos_lt {pos : Int} {ahead : List Nat} {b : JsonStringViewBufferReader}
    (h : Advanced pos ahead b) (hlt : b.pos < pos + 1 + ahead.length) : Live pos ahead b :=
  h.elim id (fun he => absurd hlt he.not_pos_lt)

theorem Live.transLive {pos : Int} {ahead : List Nat} {b c : JsonStringViewBufferReader}
    (h1 : Live pos ahead b) (h2 : Live b.pos b.ahead c) : Live pos ahead c := by
  obtain ⟨pre, e1, p1⟩ := h1
  obtain ⟨pre2, e3, p2⟩ := h2
  refine ⟨pre ++ b.cur :: pre2, ?_, ?_⟩
  · rw [e1, e3]; simp
  · rw [p2, p1]; simp; omega

theorem Live.trans_ended {pos : Int} {ahead : List Nat} {b c : JsonStringViewBufferReader}
    (h1 : Live pos ahead b) (h2 : Ended b.pos b.ahead c) : Ended pos ahead c := by
  obtain ⟨pre, e1, p1⟩ := h1
  obtain ⟨p3, e4, e5⟩ := h2
  refine ⟨?_, e4, e5⟩
  rw [p3, p1, e1]; simp; omega

theorem Live.trans_advanced {pos : Int} {ahead : List Nat} {b c : JsonStringViewBufferReader}
    (h1 : Live pos ahead b) (h2 : Advanced b.pos b.ahead c) : Advanced pos ahead c :=
  h2.elim (fun h => Or.inl (h1.transLive h)) (fun h => Or.inr (h1.trans_ended h))

theorem Live.extend {pos : Int} {ahead : List Nat} {b : JsonStringViewBufferReader}
    (h : Live pos ahead b) (s : List Nat) : Live pos (ahead ++ s) (b.extend s) := by
  obtain ⟨pre, h1, h2⟩ := h
  exact ⟨pre, by simp [JsonStringViewBufferReader.extend, h1], by simp [JsonStringViewBufferReader.extend, h2]⟩

theorem Onward.refl (b : JsonStringViewBufferReader) : Onward b b := Or.inl rfl

theorem Onward.transOnward {a b c : JsonStringViewBufferReader} (h1 : Onward a b) (h2 : Onward b c) :
    Onward a c := by
  rcases h1 with rfl | h1
  · exact h2
  · rcases h2 with rfl | h2
    · exact Or.inr h1
    · exact Or.inr (h1.transLive h2)

theorem Onward.length_le {a b : JsonStringViewBufferReader} (h : Onward a b) :
    b.ahead.length ≤ a.ahead.length := by
  rcases h with rfl | h
  · exact le_refl _
  · exact le_of_lt h.length_lt

/-! ## The string lexer -/

theorem readyStringLoop_advanced (ahead : List Nat) :
    ∀ (special : Bool) (temp : List Nat) (pos : Int),
      Advanced pos ahead (readyStringLoop special temp pos ahead).buffer := by
  induction ahead with
  | nil => intro special temp pos; exact Or.inr (Ended.nil pos)
  | cons ch ahead ih =>
      intro special temp pos
      rw [readyStringLoop]
      split
      all_goals first
        | exact Or.inl (Live.here pos ch ahead)
        | exact Advanced.consAdvanced ch (ih _ _ _)

theorem readyStringLoop_ok_live (ahead : List Nat) :
    ∀ (special : Bool) (temp : List Nat) (pos : Int) (out : List Nat)
      (b : JsonStringViewBufferReader),
      readyStringLoop special temp pos ahead = .ok out b → Live pos ahead b := by
  induction ahead with
  | nil => intro special temp pos out b h; simp [readyStringLoop] at h
  | cons ch ahead ih =>
      intro special temp pos out b h
      rw [readyStringLoop] at h
      split at h
      · simp at h
      · simp only [Ready.ok.injEq] at h; rw [← h.2]; exact Live.here pos ch ahead
      · exact (ih _ _ _ _ _ h).consLive ch
      · simp at h
      · exact (ih _ _ _ _ _ h).consLive ch

theorem readyStringLoop_fail_ended (ahead : List Nat) :
    ∀ (special : Bool) (temp : List Nat) (pos : Int) (e : ErrorText)
      (b : JsonStringViewBufferReader),
      readyStringLoop special temp pos ahead = .fail e b → Ended pos ahead b →
      e = makeError .StringOutOfArrayMsg b := by
  induction ahead with
  | nil =>
      intro special temp pos e b h _
      simp only [readyStringLoop, Ready.fail.injEq] at h
      rw [← h.1, ← h.2]
  | cons ch ahead ih =>
      intro special temp pos e b h he
      rw [readyStringLoop] at h
      split at h
      · simp only [Ready.fail.injEq] at h
        rw [← h.2] at he
        exact absurd (Live.here pos ch ahead).pos_lt he.not_pos_lt
      · simp at h
      · exact ih _ _ _ _ _ h ⟨by have := he.1; simp at this; omega, he.2.1, he.2.2⟩
      · simp only [Ready.fail.injEq] at h
        rw [← h.2] at he
        exact absurd (Live.here pos ch ahead).pos_lt he.not_pos_lt
      · exact ih _ _ _ _ _ h ⟨by have := he.1; simp at this; omega, he.2.1, he.2.2⟩

theorem readyStringLoop_extend (s : List Nat) (ahead : List Nat) :
    ∀ (special : Bool) (temp : List Nat) (pos : Int),
      (readyStringLoop special temp pos ahead).buffer.pos < pos + 1 + ahead.length →
      readyStringLoop special temp pos (ahead ++ s)
        = (readyStringLoop special temp pos ahead).extend s := by
  induction ahead with
  | nil =>
      intro special temp pos h
      simp [readyStringLoop, Ready.buffer] at h
  | cons ch ahead ih =>
      intro special temp pos h
      rw [List.cons_append, readyStringLoop, readyStringLoop]
      rw [readyStringLoop] at h
      cases hs : stringStep special ch <;> simp only [hs] at h ⊢
      · rfl
      · rfl
      · exact ih _ _ _ (by simp only [List.length_cons, Nat.cast_add, Nat.cast_one] at h; omega)
      · rfl
      · exact ih _ _ _ (by simp only [List.length_cons, Nat.cast_add, Nat.cast_one] at h; omega)

/-! ## The number lexer -/

theorem readyNumberLoop_cases (neg : Bool) (depth : List JsonReaderType) (ahead : List Nat) :
    ∀ (pos : Int) (i points : Nat) (temp : List Nat) (ch0 : Nat),
      match readyNumberLoop neg depth pos i points temp ch0 ahead with
      | .ok scan b => (scan.exit = true ∧ Live pos ahead b) ∨ (scan.exit = false ∧ Ended pos ahead b)
      | .fail _ b => Live pos ahead b := by
  induction ahead with
  | nil =>
      intro pos i points temp ch0
      simp only [readyNumberLoop]
      exact Or.inr ⟨by simp, Ended.nil pos⟩
  | cons ch ahead ih =>
      intro pos i points temp ch0
      rw [readyNumberLoop]
      cases hs : numberStep neg depth i points ch <;> simp only []
      · exact Live.here pos ch ahead
      · exact Or.inl ⟨by simp, Live.here pos ch ahead⟩
      · have := ih (pos + 1) (i + 1) (points + 1) (temp ++ [ch]) ch
        split at this
        · exact this.elim (fun h => Or.inl ⟨h.1, h.2.consLive ch⟩) (fun h => Or.inr ⟨h.1, h.2.consEnded ch⟩)
        · exact this.consLive ch
      · have := ih (pos + 1) (i + 1) points (temp ++ [ch]) ch
        split at this
        · exact this.elim (fun h => Or.inl ⟨h.1, h.2.consLive ch⟩) (fun h => Or.inr ⟨h.1, h.2.consEnded ch⟩)
        · exact this.consLive ch

theorem readyNumberLoop_advanced (neg : Bool) (depth : List JsonReaderType) (ahead : List Nat)
    (pos : Int) (i points : Nat) (temp : List Nat) (ch0 : Nat) :
    Advanced pos ahead (readyNumberLoop neg depth pos i points temp ch0 ahead).buffer := by
  have := readyNumberLoop_cases neg depth ahead pos i points temp ch0
  split at this
  · rename_i h; rw [h]
    exact this.elim (fun h => Or.inl h.2) (fun h => Or.inr h.2)
  · rename_i h; rw [h]; exact Or.inl this

theorem readyNumberLoop_extend (neg : Bool) (depth : List JsonReaderType) (s : List Nat)
    (ahead : List Nat) :
    ∀ (pos : Int) (i points : Nat) (temp : List Nat) (ch0 : Nat),
      (readyNumberLoop neg depth pos i points temp ch0 ahead).buffer.pos < pos + 1 + ahead.length →
      readyNumberLoop neg depth pos i points temp ch0 (ahead ++ s)
        = (readyNumberLoop neg depth pos i points temp ch0 ahead).extend s := by
  induction ahead with
  | nil =>
      intro pos i points temp ch0 h
      simp [readyNumberLoop, Ready.buffer] at h
  | cons ch ahead ih =>
      intro pos i points temp ch0 h
      rw [List.cons_append, readyNumberLoop, readyNumberLoop]
      rw [readyNumberLoop] at h
      cases hs : numberStep neg depth i points ch <;> simp only [hs] at h ⊢
      · rfl
      · rfl
      · exact ih _ _ _ _ _ (by simp only [List.length_cons, Nat.cast_add, Nat.cast_one] at h; omega)
      · exact ih _ _ _ _ _ (by simp only [List.length_cons, Nat.cast_add, Nat.cast_one] at h; omega)

/-! ## The keyword lexer -/

theorem next_nil (b : JsonStringViewBufferReader) (h : b.ahead = []) :
    b.next = (false, { pos := b.pos + 1, cur := 0, ahead := [] }) := by
  simp [JsonStringViewBufferReader.next, h]

theorem next_cons (b : JsonStringViewBufferReader) (ch : Nat) (rest : List Nat)
    (h : b.ahead = ch :: rest) :
    b.next = (true, { pos := b.pos + 1, cur := ch, ahead := rest }) := by
  simp [JsonStringViewBufferReader.next, h]

theorem readyValue_cases (value : List Nat) :
    ∀ (buffer : JsonStringViewBufferReader),
      match readyValue value buffer with
      | .ok _ b => Onward buffer b
      | .fail e b => Live buffer.pos buffer.ahead b
          ∨ (Ended buffer.pos buffer.ahead b ∧ e = makeError .ValueOutOfArrayMsg b) := by
  induction value with
  | nil => intro buffer; simp only [readyValue]; exact Onward.refl _
  | cons v value ih =>
      intro buffer
      obtain ⟨pos, cur, ahead⟩ := buffer
      rw [readyValue]
      cases ahead with
      | nil =>
          simp only [JsonStringViewBufferReader.next]
          exact Or.inr ⟨Ended.nil _, by simp⟩
      | cons ch rest =>
          simp only [JsonStringViewBufferReader.next, JsonStringViewBufferReader.value]
          have hl : Live pos (ch :: rest) { pos := pos + 1, cur := ch, ahead := rest } :=
            Live.here _ _ _
          by_cases hc : isControlCode ch = true
          · rw [if_pos hc]; exact Or.inl hl
          · rw [if_neg hc]
            by_cases hv : (ch != v) = true
            · rw [if_pos hv]; exact Or.inl hl
            · rw [if_neg hv]
              have := ih { pos := pos + 1, cur := ch, ahead := rest }
              split at this
              · rcases this with h2 | h2
                · rw [h2]; exact Or.inr hl
                · exact Or.inr (hl.transLive h2)
              · rcases this with h2 | ⟨h2, h3⟩
                · exact Or.inl (hl.transLive h2)
                · exact Or.inr ⟨hl.trans_ended h2, h3⟩

theorem readyValue_extend (s : List Nat) (value : List Nat) :
    ∀ (buffer : JsonStringViewBufferReader),
      (readyValue value buffer).buffer.pos < buffer.pos + 1 + buffer.ahead.length →
      readyValue value (buffer.extend s) = (readyValue value buffer).extend s := by
  induction value with
  | nil => intro buffer _; simp [readyValue, Ready.extend]
  | cons v value ih =>
      intro buffer h
      rw [readyValue, readyValue]
      rw [readyValue] at h
      cases ha : buffer.ahead with
      | nil =>
          rw [next_nil buffer ha] at h
          simp [Ready.buffer, ha] at h
      | cons ch rest =>
          rw [next_cons buffer ch rest ha] at h ⊢
          rw [next_cons (buffer.extend s) ch (rest ++ s) (by simp [JsonStringViewBufferReader.extend, ha])]
          simp only [JsonStringViewBufferReader.value] at h ⊢
          by_cases hc : isControlCode ch = true
          · rw [if_pos hc, if_pos hc]; rfl
          · rw [if_neg hc, if_neg hc]
            rw [if_neg hc] at h
            by_cases hv : (ch != v) = true
            · rw [if_pos hv, if_pos hv]; rfl
            · rw [if_neg hv, if_neg hv]
              rw [if_neg hv] at h
              have := ih { pos := buffer.pos + 1, cur := ch, ahead := rest }
                (by simp only [ha, List.length_cons, Nat.cast_add, Nat.cast_one] at h ⊢; omega)
              simpa [JsonStringViewBufferReader.extend] using this




open JsonStringViewBufferReader

/-! ## Locality of the functions of the reader -/

section
variable {σ : Type}

@[simp] theorem Machine.extend_buffer (m : Machine σ) (s : List Nat) :
    (m.extend s).buffer = m.buffer.extend s := rfl
@[simp] theorem Machine.extend_depth (m : Machine σ) (s : List Nat) :
    (m.extend s).depth = m.depth := rfl
@[simp] theorem Machine.extend_self (m : Machine σ) (s : List Nat) :
    (m.extend s).self = m.self := rfl
@[simp] theorem Machine.extend_stop (m : Machine σ) (s : List Nat) :
    (m.extend s).stop = m.stop := rfl
@[simp] theorem Machine.extend_error (m : Machine σ) (s : List Nat) :
    (m.extend s).error = m.error := rfl
@[simp] theorem extend_pos (b : JsonStringViewBufferReader) (s : List Nat) :
    (b.extend s).pos = b.pos := rfl
@[simp] theorem extend_cur (b : JsonStringViewBufferReader) (s : List Nat) :
    (b.extend s).cur = b.cur := rfl
@[simp] theorem extend_ahead (b : JsonStringViewBufferReader) (s : List Nat) :
    (b.extend s).ahead = b.ahead ++ s := rfl
@[simp] theorem extend_value (b : JsonStringViewBufferReader) (s : List Nat) :
    (b.extend s).value = b.value := rfl
@[simp] theorem extend_offset (b : JsonStringViewBufferReader) (s : List Nat) :
    (b.extend s).offset = b.offset := rfl

theorem makeError_extend (msg : Msg) (b : JsonStringViewBufferReader) (s : List Nat) :
    makeError msg (b.extend s) = makeError msg b := rfl

theorem makeErrorCh_extend (msg : Msg) (ch : Nat) (b : JsonStringViewBufferReader) (s : List Nat) :
    makeErrorCh msg ch (b.extend s) = makeErrorCh msg ch b := rfl

theorem emit_extend (h : Hooks σ) (e : Event) (m : Machine σ) (s : List Nat) :
    emit h e (m.extend s) = (emit h e m).map (fun m1 => m1.extend s) := by
  simp only [emit, Machine.extend_self, Machine.extend_stop]
  cases h e m.self with
  | none => rfl
  | some p => rfl

theorem emit_buffer (h : Hooks σ) (e : Event) (m m1 : Machine σ) (he : emit h e m = some m1) :
    m1.buffer = m.buffer ∧ m1.depth = m.depth ∧ m1.error = m.error := by
  simp only [emit] at he
  cases hh : h e m.self with
  | none => simp [hh] at he
  | some p => simp only [hh, Option.some.injEq] at he; rw [← he]; exact ⟨rfl, rfl, rfl⟩

theorem call_buffer (h : Hooks σ) (e : Event) (m : Machine σ) :
    (call h e m).2.buffer = m.buffer := by
  simp only [call]
  cases he : emit h e m with
  | none => rfl
  | some m1 => exact (emit_buffer h e m m1 he).1

theorem call_depth (h : Hooks σ) (e : Event) (m : Machine σ) :
    (call h e m).2.depth = m.depth := by
  simp only [call]
  cases he : emit h e m with
  | none => rfl
  | some m1 => exact (emit_buffer h e m m1 he).2.1

theorem call_error (h : Hooks σ) (e : Event) (m : Machine σ) :
    (call h e m).2.error = m.error := by
  simp only [call]
  cases he : emit h e m with
  | none => rfl
  | some m1 => exact (emit_buffer h e m m1 he).2.2

theorem call_ne_false (h : Hooks σ) (e : Event) (m : Machine σ) :
    (call h e m).1 ≠ .false := by
  simp only [call]
  cases emit h e m <;> simp

theorem call_extend (h : Hooks σ) (e : Event) (m : Machine σ) (s : List Nat) :
    call h e (m.extend s) = ((call h e m).1, (call h e m).2.extend s) := by
  simp only [call, emit_extend]
  cases emit h e m with
  | none => rfl
  | some m1 => rfl

/-- A function that leaves the reader alone and does not look at it is local. -/
theorem Local.of_same (msg : Msg) (f : Machine σ → Ret × Machine σ) (m : Machine σ)
    (h1 : (f m).2.buffer = m.buffer)
    (h2 : ∀ s, f (m.extend s) = ((f m).1, (f m).2.extend s)) : Local msg f m :=
  Or.inl ⟨Or.inl h1, h2⟩

theorem readyString_local (b : JsonStringViewBufferReader) :
    (Live b.pos b.ahead (readyString [] b).buffer
        ∧ ∀ s, readyString [] (b.extend s) = (readyString [] b).extend s)
      ∨ (Ended b.pos b.ahead (readyString [] b).buffer
        ∧ ∃ e, readyString [] b = .fail e (readyString [] b).buffer
            ∧ e = makeError .StringOutOfArrayMsg (readyString [] b).buffer) := by
  rcases readyStringLoop_advanced b.ahead false [] b.pos with hl | he
  · left
    refine ⟨hl, fun s => ?_⟩
    exact readyStringLoop_extend s b.ahead false [] b.pos hl.pos_lt
  · right
    refine ⟨he, ?_⟩
    cases hr : readyString [] b with
    | ok out b1 =>
        have := readyStringLoop_ok_live b.ahead false [] b.pos out b1 hr
        have h2 : b1 = (readyString [] b).buffer := by rw [hr]; rfl
        rw [h2] at this
        exact absurd this.pos_lt he.not_pos_lt
    | fail e b1 =>
        refine ⟨e, rfl, ?_⟩
        have h2 : b1 = (readyString [] b).buffer := by rw [hr]; rfl
        have := readyStringLoop_fail_ended b.ahead false [] b.pos e b1 hr (h2 ▸ he)
        exact this

/-- The shape shared by `readyObjectKey` and `readyStringValue`. -/
theorem stringHook_local (h : Hooks σ) (E : List Nat → Event) (f : Machine σ → Ret × Machine σ)
    (hf : ∀ m, f m = match readyString [] m.buffer with
      | .fail error buffer => (.false, { m with buffer := buffer, error := error })
      | .ok temp buffer => call h (E temp) { m with buffer := buffer })
    (m : Machine σ) : Local .StringOutOfArrayMsg f m := by
  rcases readyString_local m.buffer with ⟨hl, hx⟩ | ⟨he, e, hr, hE⟩
  · left
    constructor
    · right
      rw [hf]
      cases hr : readyString [] m.buffer with
      | fail error buffer => rw [hr] at hl; exact hl
      | ok temp buffer =>
          rw [hr] at hl
          simp only [call_buffer]
          exact hl
    · intro s
      rw [hf, hf, Machine.extend_buffer, hx s]
      cases hr : readyString [] m.buffer with
      | fail error buffer => rfl
      | ok temp buffer =>
          simp only [Ready.extend]
          exact call_extend h (E temp) { m with buffer := buffer } s
  · right
    rw [hf]
    rw [hr] at he ⊢
    simp only [Ready.buffer] at he hE ⊢
    exact ⟨he, trivial, hE⟩

theorem readyObjectKey_local (h : Hooks σ) (m : Machine σ) :
    Local .StringOutOfArrayMsg (readyObjectKey h) m :=
  stringHook_local h .ObjectKey _ (fun _ => rfl) m

theorem readyStringValue_local (h : Hooks σ) (m : Machine σ) :
    Local .StringOutOfArrayMsg (readyStringValue h) m :=
  stringHook_local h .ValueString _ (fun _ => rfl) m

theorem readyValue_ok_live (v : Nat) (value : List Nat) (buffer b : JsonStringViewBufferReader)
    (u : Unit) (h : readyValue (v :: value) buffer = .ok u b) : Live buffer.pos buffer.ahead b := by
  obtain ⟨pos, cur, ahead⟩ := buffer
  rw [readyValue] at h
  cases ahead with
  | nil => simp [JsonStringViewBufferReader.next] at h
  | cons ch rest =>
      simp only [JsonStringViewBufferReader.next, JsonStringViewBufferReader.value] at h
      by_cases hc : isControlCode ch = true
      · rw [if_pos hc] at h; simp at h
      · rw [if_neg hc] at h
        by_cases hv : (ch != v) = true
        · rw [if_pos hv] at h; simp at h
        · rw [if_neg hv] at h
          have := readyValue_cases value { pos := pos + 1, cur := ch, ahead := rest }
          rw [h] at this
          rcases this with h2 | h2
          · rw [h2]; exact Live.here _ _ _
          · exact (Live.here pos ch rest).transLive h2

theorem readyKeyword_local (h : Hooks σ) (v : Nat) (rest : List Nat) (e : Event) (m : Machine σ) :
    Local .ValueOutOfArrayMsg (readyKeyword h (v :: rest) e) m := by
  have hc := readyValue_cases (v :: rest) m.buffer
  cases hr : readyValue (v :: rest) m.buffer with
  | ok u buffer =>
      have hl := readyValue_ok_live v rest m.buffer buffer u hr
      have hx : ∀ s, readyValue (v :: rest) (m.buffer.extend s) = .ok u (buffer.extend s) := by
        intro s
        have := readyValue_extend s (v :: rest) m.buffer (by rw [hr]; exact hl.pos_lt)
        rw [this, hr]; rfl
      left
      constructor
      · right
        simp only [readyKeyword, hr, call_buffer]
        exact hl
      · intro s
        simp only [readyKeyword, hr, Machine.extend_buffer, hx s]
        exact call_extend h e { m with buffer := buffer } s
  | fail error buffer =>
      rw [hr] at hc
      simp only [] at hc
      rcases hc with hl | ⟨he, hE⟩
      · left
        constructor
        · right; simp only [readyKeyword, hr]; exact hl
        · intro s
          have := readyValue_extend s (v :: rest) m.buffer (by rw [hr]; exact hl.pos_lt)
          simp only [readyKeyword, hr, Machine.extend_buffer, this]
          rfl
      · right
        simp only [readyKeyword, hr]
        exact ⟨he, trivial, hE⟩

theorem numberValue_buffer (h : Hooks σ) (scan : NumberScan) (m : Machine σ) :
    (numberValue h scan m).2.buffer = m.buffer := by
  simp only [numberValue]
  split
  · split
    · rfl
    · split
      · rfl
      · exact call_buffer _ _ _
  · split
    · split
      · rfl
      · exact call_buffer _ _ _
    · rfl

theorem numberValue_extend (h : Hooks σ) (scan : NumberScan) (m : Machine σ) (s : List Nat) :
    numberValue h scan (m.extend s)
      = ((numberValue h scan m).1, (numberValue h scan m).2.extend s) := by
  simp only [numberValue]
  split
  · split
    · rfl
    · have he : (m.extend s).errno = m.errno := rfl
      rw [he]
      split
      · rfl
      · exact call_extend _ _ _ _
  · split
    · split
      · rfl
      · exact call_extend _ _ _ _
    · rfl

theorem numberEnd_buffer (h : Hooks σ) (scan : NumberScan) (r : Ret × Machine σ) :
    (numberEnd h scan r).2.buffer = r.2.buffer := by
  obtain ⟨x, m⟩ := r
  cases x <;> simp only [numberEnd]
  split
  · exact call_buffer _ _ _
  · split
    · exact call_buffer _ _ _
    · rfl

theorem numberEnd_extend (h : Hooks σ) (scan : NumberScan) (r : Ret × Machine σ) (s : List Nat) :
    numberEnd h scan (r.1, r.2.extend s)
      = ((numberEnd h scan r).1, (numberEnd h scan r).2.extend s) := by
  obtain ⟨x, m⟩ := r
  cases x <;> simp only [numberEnd]
  split
  · exact call_extend _ _ _ _
  · split
    · exact call_extend _ _ _ _
    · rfl

theorem readyNumberEnd_buffer (h : Hooks σ) (scan : NumberScan) (m : Machine σ) :
    (readyNumberEnd h scan m).2.buffer = m.buffer := by
  simp only [readyNumberEnd]
  split
  · rfl
  · split
    · rfl
    · split
      · rfl
      · rw [numberEnd_buffer, numberValue_buffer]

theorem readyNumberEnd_extend (h : Hooks σ) (scan : NumberScan) (m : Machine σ) (s : List Nat) :
    readyNumberEnd h scan (m.extend s)
      = ((readyNumberEnd h scan m).1, (readyNumberEnd h scan m).2.extend s) := by
  simp only [readyNumberEnd]
  split
  · rfl
  · split
    · rfl
    · split
      · rfl
      · rw [numberValue_extend, numberEnd_extend]

theorem readyNumber_local (h : Hooks σ) (digit : Nat) (m : Machine σ) :
    Local .NumberOutOfArrayMsg (readyNumber h digit) m := by
  have hc := readyNumberLoop_cases (digit == 45) m.depth m.buffer.ahead m.buffer.pos 0 0 [digit] 0
  cases hr : readyNumberLoop (digit == 45) m.depth m.buffer.pos 0 0 [digit] 0 m.buffer.ahead with
  | fail error buffer =>
      rw [hr] at hc
      simp only [] at hc
      left
      constructor
      · right; simp only [readyNumber, hr]; exact hc
      · intro s
        have := readyNumberLoop_extend (digit == 45) m.depth s m.buffer.ahead m.buffer.pos 0 0
          [digit] 0 (by rw [hr]; exact hc.pos_lt)
        simp only [readyNumber, hr, Machine.extend_buffer, Machine.extend_depth, extend_pos,
          extend_ahead, this]
        rfl
  | ok scan buffer =>
      rw [hr] at hc
      simp only [] at hc
      rcases hc with ⟨_, hl⟩ | ⟨hx, he⟩
      · left
        constructor
        · right
          simp only [readyNumber, hr, readyNumberEnd_buffer]
          exact hl
        · intro s
          have := readyNumberLoop_extend (digit == 45) m.depth s m.buffer.ahead m.buffer.pos 0 0
            [digit] 0 (by rw [hr]; exact hl.pos_lt)
          simp only [readyNumber, hr, Machine.extend_buffer, Machine.extend_depth, extend_pos,
            extend_ahead, this, Ready.extend]
          exact readyNumberEnd_extend h scan { m with buffer := buffer, depth := scan.depth } s
      · right
        have hend : readyNumberEnd h scan { m with buffer := buffer, depth := scan.depth }
            = (.false, { m with buffer := buffer, depth := scan.depth,
                                error := makeError .NumberOutOfArrayMsg buffer }) := by
          simp [readyNumberEnd, hx]
        simp only [readyNumber, hr, hend]
        exact ⟨he, trivial, trivial⟩

theorem tokenMsg_string : tokenMsg 34 = .StringOutOfArrayMsg := rfl

theorem tokenMsg_number (ch : Nat) (h3 : ¬ (ch == 34) = true)
    (h4 : (ch == 45 || isdigit ch) = true) : tokenMsg ch = .NumberOutOfArrayMsg := by
  rw [tokenMsg, if_neg h3, if_pos h4]

theorem tokenMsg_keyword (ch : Nat) (h3 : ¬ (ch == 34) = true)
    (h4 : ¬ (ch == 45 || isdigit ch) = true) : tokenMsg ch = .ValueOutOfArrayMsg := by
  rw [tokenMsg, if_neg h3, if_neg h4]

theorem ready_local (h : Hooks σ) (ch : Nat) (m : Machine σ) :
    Local (tokenMsg ch) (ready h ch) m := by
  by_cases h1 : (ch == 123) = true
  · have hf : ready h ch = fun m => call h .ObjectBegin
        { m with depth := JsonReaderType.Object :: m.depth } := by
      funext m; rw [ready, if_pos h1]
    rw [hf]
    exact Local.of_same _ _ m (call_buffer _ _ _)
      (fun s => call_extend h _ { m with depth := JsonReaderType.Object :: m.depth } s)
  by_cases h2 : (ch == 91) = true
  · have hf : ready h ch = fun m => call h .ArrayBegin
        { m with depth := JsonReaderType.Array :: m.depth } := by
      funext m; rw [ready, if_neg h1, if_pos h2]
    rw [hf]
    exact Local.of_same _ _ m (call_buffer _ _ _)
      (fun s => call_extend h _ { m with depth := JsonReaderType.Array :: m.depth } s)
  by_cases h3 : (ch == 34) = true
  · have hf : ready h ch = readyStringValue h := by
      funext m; rw [ready, if_neg h1, if_neg h2, if_pos h3]
    have hc : ch = 34 := by simpa using h3
    rw [hf, hc, tokenMsg_string]; exact readyStringValue_local h m
  by_cases h4 : (ch == 45 || isdigit ch) = true
  · have hf : ready h ch = readyNumber h ch := by
      funext m; rw [ready, if_neg h1, if_neg h2, if_neg h3, if_pos h4]
    rw [hf, tokenMsg_number ch h3 h4]; exact readyNumber_local h ch m
  rw [tokenMsg_keyword ch h3 h4]
  by_cases h5 : (ch == 116) = true
  · have hf : ready h ch = readyKeyword h [114, 117, 101] (.ValueBool true) := by
      funext m; rw [ready, if_neg h1, if_neg h2, if_neg h3, if_neg h4, if_pos h5]
    rw [hf]; exact readyKeyword_local h _ _ _ m
  by_cases h6 : (ch == 102) = true
  · have hf : ready h ch = readyKeyword h [97, 108, 115, 101] (.ValueBool false) := by
      funext m; rw [ready, if_neg h1, if_neg h2, if_neg h3, if_neg h4, if_neg h5, if_pos h6]
    rw [hf]; exact readyKeyword_local h _ _ _ m
  by_cases h7 : (ch == 110) = true
  · have hf : ready h ch = readyKeyword h [117, 108, 108] .Null := by
      funext m
      rw [ready, if_neg h1, if_neg h2, if_neg h3, if_neg h4, if_neg h5, if_neg h6, if_pos h7]
    rw [hf]; exact readyKeyword_local h _ _ _ m
  · have hf : ready h ch = fun m =>
        (.false, { m with error := makeError .InvalidValueMsg m.buffer }) := by
      funext m
      rw [ready, if_neg h1, if_neg h2, if_neg h3, if_neg h4, if_neg h5, if_neg h6, if_neg h7]
    rw [hf]
    exact Local.of_same _ _ m rfl (fun s => rfl)

theorem close_local (msg : Msg) (h : Hooks σ) (e : Event) (m : Machine σ) :
    Local msg (close h e) m :=
  Local.of_same _ _ m (call_buffer _ _ _)
    (fun s => call_extend h e { m with depth := m.depth.tail } s)

theorem openDocument_local (msg : Msg) (h : Hooks σ) (t : JsonReaderType) (e : Event)
    (m : Machine σ) : Local msg (openDocument h t e) m := by
  refine Local.of_same _ _ m ?_ (fun s => ?_)
  · simp only [openDocument]
    have hb := call_buffer h .JsonBegin m
    cases hc : call h .JsonBegin m with
    | mk r m1 =>
        rw [hc] at hb
        cases r <;> simp only [] <;> first
          | exact hb
          | (rw [call_buffer]; exact hb)
  · simp only [openDocument, call_extend h .JsonBegin m s]
    cases hc : call h .JsonBegin m with
    | mk r m1 =>
        cases r <;> simp only []
        exact call_extend h e { m1 with depth := t :: m1.depth } s

theorem keyThenTop_local (h : Hooks σ) (m : Machine σ) :
    Local .StringOutOfArrayMsg (keyThenTop h) m := by
  rcases readyObjectKey_local h m with ⟨ho, hx⟩ | ⟨he, hf, ht⟩
  · left
    constructor
    · simp only [keyThenTop]
      cases hc : readyObjectKey h m with
      | mk r m1 => rw [hc] at ho; cases r <;> exact ho
    · intro s
      simp only [keyThenTop, hx s]
      cases hc : readyObjectKey h m with
      | mk r m1 => cases r <;> rfl
  · right
    simp only [keyThenTop]
    cases hc : readyObjectKey h m with
    | mk r m1 =>
        rw [hc] at he hf ht
        simp only [] at hf
        subst hf
        exact ⟨he, rfl, ht⟩

/-! ## Locality of the loop body -/

theorem documentEnd_buffer (h : Hooks σ) (operation : Operation) (m : Machine σ) :
    (documentEnd h operation m).machine.buffer = m.buffer := by
  simp only [documentEnd]
  split
  · have hb := call_buffer h .JsonEnd m
    cases hc : call h .JsonEnd m with
    | mk r m1 =>
        rw [hc] at hb
        cases r <;> simp only []
        · split
          · exact hb
          · split <;> exact hb
        · exact hb
        · exact hb
  · rfl

theorem documentEnd_extend (h : Hooks σ) (operation : Operation) (m : Machine σ) (s : List Nat) :
    documentEnd h operation (m.extend s) = (documentEnd h operation m).extend s := by
  simp only [documentEnd, Machine.extend_depth, call_extend h .JsonEnd m s]
  split
  · cases hc : call h .JsonEnd m with
    | mk r m1 =>
        cases r <;> simp only []
        · split
          · rfl
          · simp only [Machine.extend_stop]
            split <;> rfl
        · rfl
        · rfl
  · rfl

theorem andThen_buffer (h : Hooks σ) (operation : Operation) (r : Ret × Machine σ) :
    (andThen h operation r).machine.buffer = r.2.buffer := by
  obtain ⟨x, m⟩ := r
  cases x <;> simp only [andThen]
  · exact documentEnd_buffer h operation m
  · rfl
  · rfl

theorem andThen_extend (h : Hooks σ) (operation : Operation) (r : Ret × Machine σ) (s : List Nat) :
    andThen h operation (r.1, r.2.extend s) = (andThen h operation r).extend s := by
  obtain ⟨x, m⟩ := r
  cases x <;> simp only [andThen]
  · exact documentEnd_extend h operation m s
  · rfl
  · rfl

/-- The loop body is the skip of a whitespace byte or a function of the reader
followed by the test for the end of a document. -/
theorem parseBody_shape (h : Hooks σ) (operation : Operation) (m : Machine σ) :
    (parseBody h operation m = .continue m
        ∧ ∀ s, parseBody h operation (m.extend s) = .continue (m.extend s))
      ∨ ∃ (f : Machine σ → Ret × Machine σ) (m0 : Machine σ),
          m0.buffer = m.buffer ∧ Local (tokenMsg m.buffer.value) f m0
            ∧ parseBody h operation m = andThen h operation (f m0)
            ∧ ∀ s, parseBody h operation (m.extend s) = andThen h operation (f (m0.extend s)) := by
  have fail : ∀ (e : ErrorText) (p : Step σ) (q : List Nat → Step σ),
      p = .return .false { m with error := e } →
      (∀ s, q s = .return .false { m.extend s with error := e }) →
      ∃ (f : Machine σ → Ret × Machine σ) (m0 : Machine σ),
          m0.buffer = m.buffer ∧ Local (tokenMsg m.buffer.value) f m0 ∧ p = andThen h operation (f m0)
            ∧ ∀ s, q s = andThen h operation (f (m0.extend s)) := by
    intro e p q hp hq
    exact ⟨fun m => (.false, { m with error := e }), m, rfl,
      Local.of_same _ _ m rfl (fun s => rfl), hp, hq⟩
  have step : ∀ (f : Machine σ → Ret × Machine σ) (d : List JsonReaderType)
      (p : Step σ) (q : List Nat → Step σ),
      Local (tokenMsg m.buffer.value) f { m with depth := d } →
      p = andThen h operation (f { m with depth := d }) →
      (∀ s, q s = andThen h operation (f { m.extend s with depth := d })) →
      ∃ (f : Machine σ → Ret × Machine σ) (m0 : Machine σ),
          m0.buffer = m.buffer ∧ Local (tokenMsg m.buffer.value) f m0 ∧ p = andThen h operation (f m0)
            ∧ ∀ s, q s = andThen h operation (f (m0.extend s)) := by
    intro f d p q hl hp hq
    exact ⟨f, { m with depth := d }, rfl, hl, hp, hq⟩
  have same : ∀ (d : List JsonReaderType) (p : Step σ) (q : List Nat → Step σ),
      p = documentEnd h operation { m with depth := d } →
      (∀ s, q s = documentEnd h operation { m.extend s with depth := d }) →
      ∃ (f : Machine σ → Ret × Machine σ) (m0 : Machine σ),
          m0.buffer = m.buffer ∧ Local (tokenMsg m.buffer.value) f m0 ∧ p = andThen h operation (f m0)
            ∧ ∀ s, q s = andThen h operation (f (m0.extend s)) := by
    intro d p q hp hq
    exact ⟨fun m => (.true, m), { m with depth := d }, rfl,
      Local.of_same _ _ _ rfl (fun s => rfl), hp, hq⟩
  revert fail step same
  obtain ⟨buffer, depth, self, stop, error, errno⟩ := m
  intro fail step same
  unfold parseBody
  simp only [Machine.extend_buffer, extend_value, Machine.extend_depth]
  by_cases hs : isspace buffer.value = true
  · left; simp only [if_pos hs, true_and, implies_true]
  right
  simp only [if_neg hs]
  by_cases hc : isControlCode buffer.value = true
  · simp only [if_pos hc]
    exact fail _ _ _ rfl (fun s => rfl)
  simp only [if_neg hc]
  cases depth with
  | nil =>
      simp only []
      by_cases h1 : (buffer.value == 123) = true
      · simp only [if_pos h1]
        exact ⟨openDocument h .Object .ObjectBegin, _, rfl, openDocument_local _ _ _ _ _, rfl,
          fun s => rfl⟩
      simp only [if_neg h1]
      by_cases h2 : (buffer.value == 91) = true
      · simp only [if_pos h2]
        exact ⟨openDocument h .Array .ArrayBegin, _, rfl, openDocument_local _ _ _ _ _, rfl,
          fun s => rfl⟩
      simp only [if_neg h2]
      exact fail _ _ _ rfl (fun s => rfl)
  | cons t below =>
      cases t <;> simp only []
      · by_cases h1 : (buffer.value == 34) = true
        · simp only [if_pos h1]
          have hc : buffer.value = 34 := by simpa using h1
          exact ⟨keyThenTop h, _, rfl, by rw [hc, tokenMsg_string]; exact keyThenTop_local _ _,
            rfl, fun s => rfl⟩
        simp only [if_neg h1]
        by_cases h2 : (buffer.value == 125) = true
        · simp only [if_pos h2]
          exact ⟨close h .ObjectEnd, _, rfl, close_local _ _ _ _, rfl, fun s => rfl⟩
        simp only [if_neg h2]
        exact fail _ _ _ rfl (fun s => rfl)
      · by_cases h1 : (buffer.value == 58) = true
        · simp only [if_pos h1]
          exact same _ _ _ rfl (fun s => rfl)
        simp only [if_neg h1]
        exact fail _ _ _ rfl (fun s => rfl)
      · exact step (ready h buffer.value) _ _ _ (ready_local _ _ _) rfl (fun s => rfl)
      · by_cases h1 : (buffer.value == 44) = true
        · simp only [if_pos h1]
          exact same _ _ _ rfl (fun s => rfl)
        simp only [if_neg h1]
        by_cases h2 : (buffer.value == 125) = true
        · simp only [if_pos h2]
          exact ⟨close h .ObjectEnd, _, rfl, close_local _ _ _ _, rfl, fun s => rfl⟩
        simp only [if_neg h2]
        exact fail _ _ _ rfl (fun s => rfl)
      · by_cases h1 : (buffer.value == 34) = true
        · simp only [if_pos h1]
          have hc : buffer.value = 34 := by simpa using h1
          exact ⟨keyThenTop h, _, rfl, by rw [hc, tokenMsg_string]; exact keyThenTop_local _ _,
            rfl, fun s => rfl⟩
        simp only [if_neg h1]
        exact fail _ _ _ rfl (fun s => rfl)
      · by_cases h1 : (buffer.value == 93) = true
        · simp only [if_pos h1]
          exact ⟨close h .ArrayEnd, _, rfl, close_local _ _ _ _, rfl, fun s => rfl⟩
        simp only [if_neg h1]
        exact step (ready h buffer.value) _ _ _ (ready_local _ _ _) rfl (fun s => rfl)
      · by_cases h1 : (buffer.value == 44) = true
        · simp only [if_pos h1]
          exact same _ _ _ rfl (fun s => rfl)
        simp only [if_neg h1]
        by_cases h2 : (buffer.value == 93) = true
        · simp only [if_pos h2]
          exact ⟨close h .ArrayEnd, _, rfl, close_local _ _ _ _, rfl, fun s => rfl⟩
        simp only [if_neg h2]
        exact fail _ _ _ rfl (fun s => rfl)
      · exact step (ready h buffer.value) _ _ _ (ready_local _ _ _) rfl (fun s => rfl)

end




open JsonStringViewBufferReader

section
variable {σ : Type}

/-! ## The main loop -/

theorem parseBody_local (h : Hooks σ) (operation : Operation) (m : Machine σ) :
    LocalStep (tokenMsg m.buffer.value) (parseBody h operation) m := by
  rcases parseBody_shape h operation m with ⟨h1, h2⟩ | ⟨f, m0, hb, hl, h1, h2⟩
  · left
    rw [h1]
    exact ⟨Onward.refl _, fun s => by rw [h2 s]; rfl⟩
  · rcases hl with ⟨ho, hx⟩ | ⟨he, hf, ht⟩
    · left
      constructor
      · rw [h1, andThen_buffer, ← hb]; exact ho
      · intro s
        rw [h2 s, h1, hx s, andThen_extend]
    · right
      rw [hb] at he
      have h3 : andThen h operation (f m0) = .return .false (f m0).2 := by
        cases hc : f m0 with
        | mk r m1 => rw [hc] at hf; simp only [] at hf; subst hf; rfl
      rw [h1, h3]
      exact ⟨he, rfl, ht⟩

/-- The reader a pass that goes on or breaks leaves behind is within the input. -/
theorem parseBody_onward (h : Hooks σ) (operation : Operation) (m m1 : Machine σ)
    (hp : parseBody h operation m = .continue m1 ∨ parseBody h operation m = .break m1) :
    Onward m.buffer m1.buffer := by
  rcases parseBody_local h operation m with ⟨ho, _⟩ | ⟨_, hf, _⟩
  · rcases hp with hp | hp <;> (rw [hp] at ho; exact ho)
  · rcases hp with hp | hp <;> (rw [hp] at hf; simp at hf)

theorem parseLoop_succ (h : Hooks σ) (operation : Operation) (fuel : Nat) (m : Machine σ) :
    parseLoop h operation (fuel + 1) m =
      match m.buffer.next with
      | (false, buffer) => some (parseEnd { m with buffer := buffer })
      | (true, buffer) =>
          match parseBody h operation { m with buffer := buffer } with
          | .continue m1 => parseLoop h operation fuel m1
          | .break m1 => some (parseEnd m1)
          | .return r m1 => some (r, m1) := rfl

/-- More passes than needed do not change the outcome. -/
theorem parseLoop_mono (h : Hooks σ) (operation : Operation) (fuel : Nat) :
    ∀ (m : Machine σ) (r : Ret × Machine σ), parseLoop h operation fuel m = some r →
      ∀ k, parseLoop h operation (fuel + k) m = some r := by
  induction fuel with
  | zero => intro m r hr; simp [parseLoop] at hr
  | succ n ih =>
      intro m r hr k
      rw [show n + 1 + k = (n + k) + 1 by omega, parseLoop_succ]
      rw [parseLoop_succ] at hr
      cases hn : m.buffer.next with
      | mk more buffer =>
          rw [hn] at hr
          cases more with
          | false => exact hr
          | true =>
              simp only [] at hr ⊢
              cases hb : parseBody h operation { m with buffer := buffer } with
              | «continue» m1 => rw [hb] at hr; exact ih m1 r hr k
              | «break» m1 => rw [hb] at hr; exact hr
              | «return» x m1 => rw [hb] at hr; exact hr

/-- One pass more than the number of bytes ahead is enough. -/
theorem parseLoop_total (h : Hooks σ) (operation : Operation) (fuel : Nat) :
    ∀ (m : Machine σ), m.buffer.ahead.length < fuel →
      ∃ r, parseLoop h operation fuel m = some r := by
  induction fuel with
  | zero => intro m hm; omega
  | succ n ih =>
      intro m hm
      rw [parseLoop_succ]
      obtain ⟨buffer, depth, self, stop, error, errno⟩ := m
      obtain ⟨pos, cur, ahead⟩ := buffer
      cases ahead with
      | nil => exact ⟨_, rfl⟩
      | cons ch rest =>
          simp only [JsonStringViewBufferReader.next]
          cases hb : parseBody h operation
              { buffer := { pos := pos + 1, cur := ch, ahead := rest }, depth := depth,
                self := self, stop := stop, error := error, errno := errno } with
          | «continue» m1 =>
              have := (parseBody_onward h operation _ m1 (Or.inl hb)).length_le
              simp only [List.length_cons] at hm this
              exact ih m1 (by omega)
          | «break» m1 => exact ⟨_, rfl⟩
          | «return» x m1 => exact ⟨_, rfl⟩

theorem parseFrom_of_loop (h : Hooks σ) (operation : Operation) (fuel : Nat) (m : Machine σ)
    (r : Ret × Machine σ) (hr : parseLoop h operation fuel m = some r) :
    parseFrom h operation m = some r := by
  obtain ⟨r1, h1⟩ := parseLoop_total h operation (m.buffer.ahead.length + 1) m (by omega)
  have h2 := parseLoop_mono h operation _ m r1 h1 fuel
  have h3 := parseLoop_mono h operation _ m r hr (m.buffer.ahead.length + 1)
  rw [Nat.add_comm] at h3
  rw [h3] at h2
  rw [parseFrom, h1, ← h2]

theorem parseFrom_isSome (h : Hooks σ) (operation : Operation) (m : Machine σ) :
    ∃ r, parseFrom h operation m = some r :=
  parseLoop_total h operation _ m (by omega)

/-- The loop, unfolded by one pass. -/
theorem parseFrom_step (h : Hooks σ) (operation : Operation) (m : Machine σ) :
    parseFrom h operation m =
      match m.buffer.next with
      | (false, buffer) => some (parseEnd { m with buffer := buffer })
      | (true, buffer) =>
          match parseBody h operation { m with buffer := buffer } with
          | .continue m1 => parseFrom h operation m1
          | .break m1 => some (parseEnd m1)
          | .return r m1 => some (r, m1) := by
  rw [parseFrom, parseLoop_succ]
  cases hn : m.buffer.next with
  | mk more buffer =>
      cases more with
      | false => rfl
      | true =>
          simp only []
          cases hb : parseBody h operation { m with buffer := buffer } with
          | «continue» m1 =>
              simp only []
              obtain ⟨r, hr⟩ := parseFrom_isSome h operation m1
              rw [hr]
              have hlen : m1.buffer.ahead.length + 1 ≤ m.buffer.ahead.length := by
                have h1 := (parseBody_onward h operation _ m1 (Or.inl hb)).length_le
                simp only [JsonStringViewBufferReader.next] at hn
                cases ha : m.buffer.ahead with
                | nil => rw [ha] at hn; simp at hn
                | cons c t =>
                    rw [ha] at hn
                    simp only [Prod.mk.injEq, true_and] at hn
                    rw [← hn] at h1
                    simp only [List.length_cons] at h1 ⊢
                    omega
              have := parseLoop_mono h operation _ m1 r hr
                (m.buffer.ahead.length - (m1.buffer.ahead.length + 1))
              rw [show m1.buffer.ahead.length + 1
                  + (m.buffer.ahead.length - (m1.buffer.ahead.length + 1))
                  = m.buffer.ahead.length by omega] at this
              exact this
          | «break» m1 => rfl
          | «return» x m1 => rfl

theorem parseFrom_nil (h : Hooks σ) (operation : Operation) (m : Machine σ)
    (ha : m.buffer.ahead = []) :
    parseFrom h operation m
      = some (parseEnd { m with buffer := { pos := m.buffer.pos + 1, cur := 0, ahead := [] } }) := by
  rw [parseFrom_step, next_nil _ ha]

theorem parseFrom_cons (h : Hooks σ) (operation : Operation) (m : Machine σ) (ch : Nat)
    (rest : List Nat) (ha : m.buffer.ahead = ch :: rest) :
    parseFrom h operation m =
      match parseBody h operation
          { m with buffer := { pos := m.buffer.pos + 1, cur := ch, ahead := rest } } with
      | .continue m1 => parseFrom h operation m1
      | .break m1 => some (parseEnd m1)
      | .return r m1 => some (r, m1) := by
  rw [parseFrom_step, next_cons _ ch rest ha]

theorem parseEnd_buffer (m : Machine σ) : (parseEnd m).2.buffer = m.buffer := by
  simp only [parseEnd]; split <;> rfl

theorem parseEnd_depth (m : Machine σ) : (parseEnd m).2.depth = m.depth := by
  simp only [parseEnd]; split <;> rfl

theorem parseEnd_extend (m : Machine σ) (s : List Nat) :
    parseEnd (m.extend s) = ((parseEnd m).1, (parseEnd m).2.extend s) := by
  simp only [parseEnd, Machine.extend_depth]; split <;> rfl

theorem passes_succ_of_continue (h : Hooks σ) (operation : Operation) (k : Nat)
    (m m2 : Machine σ) (ch : Nat) (rest : List Nat) (ha : m.buffer.ahead = ch :: rest)
    (hb : parseBody h operation
      { m with buffer := { pos := m.buffer.pos + 1, cur := ch, ahead := rest } } = .continue m2) :
    passes h operation (k + 1) m = passes h operation k m2 := by
  rw [passes, next_cons _ ch rest ha]
  simp only [hb]

/-- What a run of the loop from the state `m` comes to: it stops at a byte of the
input, and then runs the same way whatever bytes are appended; or it reads past
the end of the input, either between two passes, where the code behind the loop
decides, or inside the token that the last pass started at a byte `c`, and then
returns false with the error for that token. -/
theorem parseFrom_local (h : Hooks σ) (operation : Operation) (n : Nat) :
    ∀ (m : Machine σ), m.buffer.ahead.length = n →
      ∀ (r : Ret) (m1 : Machine σ), parseFrom h operation m = some (r, m1) →
        (Live m.buffer.pos m.buffer.ahead m1.buffer
            ∧ ∀ s, parseFrom h operation (m.extend s) = some (r, m1.extend s))
          ∨ (Ended m.buffer.pos m.buffer.ahead m1.buffer
            ∧ ((∃ k m2, passes h operation k m = some m2 ∧ m2.buffer.ahead = []
                  ∧ (r, m1) = parseEnd
                      { m2 with buffer := { pos := m2.buffer.pos + 1, cur := 0, ahead := [] } })
              ∨ (∃ k m2 c rest, passes h operation k m = some m2 ∧ m2.buffer.ahead = c :: rest
                  ∧ isspace c = false ∧ r = .false
                  ∧ m1.error = makeError (tokenMsg c) m1.buffer))) := by
  induction n using Nat.strong_induction_on with
  | _ n ih =>
    intro m hn r m1 hr
    cases ha : m.buffer.ahead with
    | nil =>
        rw [parseFrom_nil _ _ _ ha] at hr
        simp only [Option.some.injEq] at hr
        right
        have hb := parseEnd_buffer { m with buffer := { pos := m.buffer.pos + 1, cur := 0, ahead := [] } }
        rw [hr] at hb
        simp only [] at hb
        exact ⟨by rw [hb]; exact Ended.nil _, Or.inl ⟨0, m, rfl, ha, hr.symm⟩⟩
    | cons ch rest =>
        rw [parseFrom_cons _ _ _ ch rest ha] at hr
        have hlive : Live m.buffer.pos (ch :: rest)
            { pos := m.buffer.pos + 1, cur := ch, ahead := rest } := Live.here _ ch rest
        have hext : ∀ s, parseFrom h operation (m.extend s)
            = match parseBody h operation
                (Machine.extend { m with buffer := { pos := m.buffer.pos + 1, cur := ch, ahead := rest } } s) with
              | .continue m2 => parseFrom h operation m2
              | .break m2 => some (parseEnd m2)
              | .return x m2 => some (x, m2) := by
          intro s
          exact parseFrom_cons _ _ _ ch (rest ++ s) (by simp [ha])
        have hl2 : ∀ m2 : Machine σ,
            Onward { pos := m.buffer.pos + 1, cur := ch, ahead := rest } m2.buffer →
              Live m.buffer.pos (ch :: rest) m2.buffer := by
          intro m2 ho2
          rcases ho2 with ho2 | ho2
          · rw [ho2]; exact hlive
          · exact hlive.transLive ho2
        rcases parseBody_local h operation
            { m with buffer := { pos := m.buffer.pos + 1, cur := ch, ahead := rest } }
          with ⟨ho, hx⟩ | ⟨he, hf, ht⟩
        · cases hb : parseBody h operation
              { m with buffer := { pos := m.buffer.pos + 1, cur := ch, ahead := rest } } with
          | «continue» m2 =>
              rw [hb] at hr ho hx
              simp only [Step.machine] at ho
              simp only [] at hr
              have hlen : m2.buffer.ahead.length < n := by
                have := ho.length_le
                rw [ha] at hn
                simp only [List.length_cons] at hn this
                omega
              have hps : ∀ k, passes h operation (k + 1) m = passes h operation k m2 :=
                fun k => passes_succ_of_continue h operation k m m2 ch rest ha hb
              rcases ih _ hlen m2 rfl r m1 hr with ⟨hl3, hx3⟩ | ⟨he3, hd3⟩
              · left
                refine ⟨(hl2 m2 ho).transLive hl3, fun s => ?_⟩
                rw [hext s, hx s]
                exact hx3 s
              · right
                refine ⟨(hl2 m2 ho).trans_ended he3, ?_⟩
                rcases hd3 with ⟨k, m3, h1, h2, h3⟩ | ⟨k, m3, c, rest3, h1, h2, h3, h4, h5⟩
                · exact Or.inl ⟨k + 1, m3, by rw [hps k]; exact h1, h2, h3⟩
                · exact Or.inr ⟨k + 1, m3, c, rest3, by rw [hps k]; exact h1, h2, h3, h4, h5⟩
          | «break» m2 =>
              rw [hb] at hr ho hx
              simp only [Step.machine] at ho
              simp only [Option.some.injEq] at hr
              left
              have hb2 := parseEnd_buffer m2
              rw [hr] at hb2
              simp only [] at hb2
              refine ⟨by rw [hb2]; exact hl2 m2 ho, fun s => ?_⟩
              rw [hext s, hx s]
              simp only [Step.extend]
              rw [parseEnd_extend, hr]
          | «return» x m2 =>
              rw [hb] at hr ho hx
              simp only [Step.machine] at ho
              simp only [Option.some.injEq, Prod.mk.injEq] at hr
              left
              rw [← hr.1, ← hr.2]
              refine ⟨hl2 m2 ho, fun s => ?_⟩
              rw [hext s, hx s]
              rfl
        · right
          have hsp : isspace ch = false := by
            by_cases hs : isspace ch = true
            · exfalso
              have : parseBody h operation
                  { m with buffer := { pos := m.buffer.pos + 1, cur := ch, ahead := rest } }
                  = .continue
                    { m with buffer := { pos := m.buffer.pos + 1, cur := ch, ahead := rest } } := by
                unfold parseBody
                simp only [JsonStringViewBufferReader.value]
                rw [if_pos hs]
              rw [this] at hf
              simp at hf
            · simpa using hs
          rw [hf] at hr
          simp only [Option.some.injEq, Prod.mk.injEq] at hr
          rw [hr.2] at he ht
          exact ⟨hlive.trans_ended he, Or.inr ⟨0, m, ch, rest, rfl, ha, hsp, hr.1.symm, ht⟩⟩

end




open JsonStringViewBufferReader

section
variable {σ : Type}

/-! ## Reaching a state, skipping whitespace -/

theorem passes_parseFrom (h : Hooks σ) (operation : Operation) (k : Nat) :
    ∀ (m m1 : Machine σ), passes h operation k m = some m1 →
      parseFrom h operation m = parseFrom h operation m1 := by
  induction k with
  | zero => intro m m1 hp; simp only [passes, Option.some.injEq] at hp; rw [hp]
  | succ k ih =>
      intro m m1 hp
      rw [passes] at hp
      rw [parseFrom_step]
      cases hn : m.buffer.next with
      | mk more buffer =>
          rw [hn] at hp
          cases more with
          | false => simp at hp
          | true =>
              simp only [] at hp ⊢
              cases hb : parseBody h operation { m with buffer := buffer } with
              | «continue» m2 => rw [hb] at hp; exact ih m2 m1 hp
              | «break» m2 => rw [hb] at hp; simp at hp
              | «return» x m2 => rw [hb] at hp; simp at hp

/-- A state reached by passes of the loop is the start state or stands at a byte
of the input. -/
theorem passes_onward (h : Hooks σ) (operation : Operation) (k : Nat) :
    ∀ (m m1 : Machine σ), passes h operation k m = some m1 → Onward m.buffer m1.buffer := by
  induction k with
  | zero => intro m m1 hp; simp only [passes, Option.some.injEq] at hp; rw [hp]; exact Onward.refl _
  | succ k ih =>
      intro m m1 hp
      rw [passes] at hp
      cases ha : m.buffer.ahead with
      | nil => rw [next_nil _ ha] at hp; simp at hp
      | cons ch rest =>
          rw [next_cons _ ch rest ha] at hp
          simp only [] at hp
          cases hb : parseBody h operation
              { m with buffer := { pos := m.buffer.pos + 1, cur := ch, ahead := rest } } with
          | «continue» m2 =>
              rw [hb] at hp
              have h1 := parseBody_onward h operation _ m2 (Or.inl hb)
              have h2 := ih m2 m1 hp
              have h3 : Live m.buffer.pos m.buffer.ahead
                  { pos := m.buffer.pos + 1, cur := ch, ahead := rest } := by
                rw [ha]; exact Live.here _ _ _
              exact Onward.transOnward (Or.inr h3) (Onward.transOnward h1 h2)
          | «break» m2 => rw [hb] at hp; simp at hp
          | «return» x m2 => rw [hb] at hp; simp at hp

/-- In a state reached from the start of the input `json`, the bytes ahead are
the end of `json`. -/
theorem passes_start (h : Hooks σ) (operation : Operation) (k : Nat) (r0 : JsonSAXReader σ)
    (json : List Nat) (m : Machine σ)
    (hp : passes h operation k (r0.start (ofString json)) = some m) :
    m.buffer.pos + 1 + m.buffer.ahead.length = json.length
      ∧ json.drop (json.length - m.buffer.ahead.length) = m.buffer.ahead
      ∧ -1 ≤ m.buffer.pos := by
  rcases passes_onward h operation k _ m hp with h1 | h1
  · rw [h1]
    simp [JsonSAXReader.start, ofString]
  · obtain ⟨pre, e1, p1⟩ := h1
    simp only [JsonSAXReader.start, ofString] at e1 p1
    refine ⟨?_, ?_, by omega⟩
    · rw [p1, e1]; simp; omega
    · rw [e1]
      simp only [List.length_append, List.length_cons]
      rw [show pre.length + (m.buffer.ahead.length + 1) - m.buffer.ahead.length = (pre ++ [m.buffer.cur]).length by simp; omega]
      rw [show pre ++ m.buffer.cur :: m.buffer.ahead = (pre ++ [m.buffer.cur]) ++ m.buffer.ahead by simp]
      exact List.drop_left _ _

/-- Whitespace between tokens is skipped: the loop goes on behind it. -/
theorem passes_whitespace (h : Hooks σ) (operation : Operation) (ws : List Nat) :
    ∀ (m : Machine σ) (rest : List Nat), (∀ c ∈ ws, isspace c = true) →
      m.buffer.ahead = ws ++ rest →
      ∃ cur, passes h operation ws.length m
        = some { m with buffer := { pos := m.buffer.pos + ws.length, cur := cur, ahead := rest } } := by
  induction ws with
  | nil =>
      intro m rest _ ha
      refine ⟨m.buffer.cur, ?_⟩
      simp only [passes, List.length_nil, Nat.cast_zero, add_zero]
      simp only [List.nil_append] at ha
      rw [← ha]
  | cons c ws ih =>
      intro m rest hws ha
      have hc : isspace c = true := hws c (List.mem_cons_self _ _)
      have hb : parseBody h operation
          { m with buffer := { pos := m.buffer.pos + 1, cur := c, ahead := ws ++ rest } }
          = .continue { m with buffer := { pos := m.buffer.pos + 1, cur := c, ahead := ws ++ rest } } := by
        unfold parseBody
        simp only [JsonStringViewBufferReader.value]
        rw [if_pos hc]
      obtain ⟨cur, hcur⟩ := ih { m with buffer := { pos := m.buffer.pos + 1, cur := c, ahead := ws ++ rest } }
        rest (fun x hx => hws x (List.mem_cons_of_mem _ hx)) rfl
      refine ⟨cur, ?_⟩
      rw [List.length_cons, passes, next_cons _ c (ws ++ rest) ha]
      simp only [hb, hcur]
      simp only [Nat.cast_add, Nat.cast_one]
      congr 3
      omega

end




open JsonStringViewBufferReader

section
variable {σ : Type}

/-! ## Value positions -/

theorem ready_invalid (h : Hooks σ) (b : Nat) (m : Machine σ)
    (hb : b ≠ 123 ∧ b ≠ 91 ∧ b ≠ 34 ∧ b ≠ 45 ∧ isdigit b = false ∧ b ≠ 116 ∧ b ≠ 102 ∧ b ≠ 110) :
    ready h b m = (.false, { m with error := makeError .InvalidValueMsg m.buffer }) := by
  obtain ⟨h1, h2, h3, h4, h5, h6, h7, h8⟩ := hb
  rw [ready, if_neg (by simpa using h1), if_neg (by simpa using h2), if_neg (by simpa using h3),
    if_neg (by simp [h4, h5]), if_neg (by simpa using h6), if_neg (by simpa using h7),
    if_neg (by simpa using h8)]

theorem offset_of_nonneg (b : JsonStringViewBufferReader) (n : Nat) (h1 : b.pos = n)
    (h2 : n < 2 ^ 64) : b.offset = n := by
  simp only [JsonStringViewBufferReader.offset, h1]
  have : ((n : Int) % 2 ^ 64) = n := Int.emod_eq_of_lt (by omega) (by exact_mod_cast h2)
  rw [this]; simp

/-- The byte behind whitespace, seen from a state reached from the start of the
input `json`: the loop goes on with the pass for that byte, which stands at the
index `json.length - rest.length - 1` of `json`. -/
theorem parse_at_byte (h : Hooks σ) (operation : Operation) (r0 : JsonSAXReader σ)
    (json : List Nat) (k : Nat) (m : Machine σ) (ws rest : List Nat) (b : Nat)
    (hreach : passes h operation k (r0.start (ofString json)) = some m)
    (hahead : m.buffer.ahead = ws ++ b :: rest)
    (hws : ∀ c ∈ ws, isspace c = true) :
    ∃ buffer : JsonStringViewBufferReader,
      buffer.pos = ((json.length - rest.length - 1 : Nat) : Int) ∧ buffer.cur = b
        ∧ buffer.ahead = rest
        ∧ json[json.length - rest.length - 1]? = some b
        ∧ JsonSAXReader.parse h r0 (ofString json) operation =
          match parseBody h operation { m with buffer := buffer } with
          | .continue m1 => parseFrom h operation m1
          | .break m1 => some (parseEnd m1)
          | .return r m1 => some (r, m1) := by
  obtain ⟨cur, hskip⟩ := passes_whitespace h operation ws m (b :: rest) hws hahead
  obtain ⟨hsize, hdrop, hnonneg⟩ := passes_start h operation k r0 json m hreach
  refine ⟨{ pos := m.buffer.pos + ws.length + 1, cur := b, ahead := rest }, ?_, rfl, rfl, ?_, ?_⟩
  · simp only [hahead, List.length_append, List.length_cons] at hsize
    simp only []
    omega
  · have : json.length - rest.length - 1 = json.length - m.buffer.ahead.length + ws.length := by
      simp only [hahead, List.length_append, List.length_cons] at hsize ⊢
      omega
    rw [this, ← List.getElem?_drop, hdrop, hahead, List.getElem?_append_right (le_refl _)]
    simp
  · rw [JsonSAXReader.parse, passes_parseFrom h operation k _ m hreach,
      passes_parseFrom h operation _ _ _ hskip, parseFrom_cons _ _ _ b rest rfl] <;> rfl

/-- C4 (error locality): in a state at a value position (after `:` in an object,
after `,` in an array, or after `[` with a byte other than `]`), when the next
byte behind whitespace is no control byte and none of the bytes that start a
value, parse returns false with the error "Invalid value, offset: i", `i` being
the 0-based index of that byte in the input. -/
theorem C4_invalid_value_offset (h : Hooks σ) (operation : Operation) (r0 : JsonSAXReader σ)
    (json : List Nat) (k : Nat) (m : Machine σ) (ws rest : List Nat) (b : Nat)
    (t : JsonReaderType) (below : List JsonReaderType)
    (hsize : json.length < 2 ^ 64)
    (hreach : passes h operation k (r0.start (ofString json)) = some m)
    (hdepth : m.depth = t :: below)
    (hpos : t = .ObjectValue ∨ t = .ArrayNextValue ∨ (t = .Array ∧ b ≠ 93))
    (hahead : m.buffer.ahead = ws ++ b :: rest)
    (hws : ∀ c ∈ ws, isspace c = true)
    (hb : isspace b = false ∧ isControlCode b = false)
    (hstart : b ≠ 123 ∧ b ≠ 91 ∧ b ≠ 34 ∧ b ≠ 45 ∧ isdigit b = false ∧ b ≠ 116 ∧ b ≠ 102
      ∧ b ≠ 110) :
    ∃ m1, JsonSAXReader.parse h r0 (ofString json) operation = some (.false, m1)
      ∧ m1.error = .withOffset .InvalidValueMsg (json.length - rest.length - 1)
      ∧ m1.error.render = "Invalid value, offset: " ++ toString (json.length - rest.length - 1)
      ∧ json[json.length - rest.length - 1]? = some b := by
  obtain ⟨buffer, hp, hc, ha, hidx, hparse⟩ :=
    parse_at_byte h operation r0 json k m ws rest b hreach hahead hws
  have hoff : buffer.offset = json.length - rest.length - 1 :=
    offset_of_nonneg buffer _ hp (by omega)
  have hbody : ∀ d : JsonReaderType, parseBody h operation { m with buffer := buffer }
      = andThen h operation (ready h b { m with buffer := buffer, depth := setTop d m.depth })
      → ∃ m1, JsonSAXReader.parse h r0 (ofString json) operation = some (.false, m1)
        ∧ m1.error = .withOffset .InvalidValueMsg (json.length - rest.length - 1) := by
    intro d hd
    rw [hparse, hd, ready_invalid h b _ hstart]
    exact ⟨_, rfl, by simp only [makeError, hoff]⟩
  have hmain : ∃ m1, JsonSAXReader.parse h r0 (ofString json) operation = some (.false, m1)
      ∧ m1.error = .withOffset .InvalidValueMsg (json.length - rest.length - 1) := by
    rcases hpos with ht | ht | ⟨ht, h93⟩
    · apply hbody .ObjectNextPair
      unfold parseBody
      simp only [JsonStringViewBufferReader.value, hc, hb.1, hb.2, hdepth, ht, Bool.false_eq_true,
        if_false]
    · apply hbody .ArrayNext
      unfold parseBody
      simp only [JsonStringViewBufferReader.value, hc, hb.1, hb.2, hdepth, ht, Bool.false_eq_true,
        if_false]
    · apply hbody .ArrayNext
      unfold parseBody
      simp only [JsonStringViewBufferReader.value, hc, hb.1, hb.2, hdepth, ht, Bool.false_eq_true,
        if_false]
      rw [if_neg (by simp [h93])]
  obtain ⟨m1, h1, h2⟩ := hmain
  exact ⟨m1, h1, h2, by rw [h2]; rfl, hidx⟩

end

/-- C4, witness: for the input `{"a": }` the state after three passes is behind
the `:`; the next byte behind the space is `}` at index 6, and parse fails with
"Invalid value, offset: 6". -/
theorem C4_invalid_value_offset_witness :
    ∃ m1, JsonSAXReader.parse recorder freshRecorder (ofString inputC4) .Single
        = some (.false, m1)
      ∧ m1.error = .withOffset .InvalidValueMsg 6
      ∧ m1.error.render = "Invalid value, offset: 6"
      ∧ inputC4[6]? = some 125 :=
  C4_invalid_value_offset recorder .Single freshRecorder inputC4 3
    { buffer := { pos := 4, cur := 58, ahead := [32, 125] }, depth := [.ObjectValue],
      self := [.JsonBegin, .ObjectBegin, .ObjectKey [97]], stop := false, error := .empty }
    [32] [] 125 .ObjectValue [] (by decide) (by decide) rfl (Or.inl rfl) rfl (by decide)
    (by decide) (by decide)




open JsonStringViewBufferReader

/-- C7, amended (parser entry rule): in a state with no container open (the start
of parse, or behind a completed document in Multiple mode), when the next byte
behind whitespace is neither `{` nor `[`, parse returns false and no hook is
called for that byte: the state of the derived class stays as it was.  When the
byte is no control byte the error is "Invalid entry character 'b', offset: i",
`i` being the 0-based index of that byte in the input; when it is a control
byte the error is "Control character detection, offset: i". -/
theorem C7_entry_rule {σ : Type} (h : Hooks σ) (operation : Operation) (r0 : JsonSAXReader σ)
    (json : List Nat) (k : Nat) (m : Machine σ) (ws rest : List Nat) (b : Nat)
    (hsize : json.length < 2 ^ 64)
    (hreach : passes h operation k (r0.start (ofString json)) = some m)
    (hdepth : m.depth = [])
    (hahead : m.buffer.ahead = ws ++ b :: rest)
    (hws : ∀ c ∈ ws, isspace c = true)
    (hb : isspace b = false)
    (hentry : b ≠ 123 ∧ b ≠ 91) :
    ∃ m1, JsonSAXReader.parse h r0 (ofString json) operation = some (.false, m1)
      ∧ m1.error = (if isControlCode b = true
          then .withOffset .ControlCharacterDetectionMsg (json.length - rest.length - 1)
          else .withChar .InvalidEntryCharacterMsg b (json.length - rest.length - 1))
      ∧ m1.self = m.self
      ∧ json[json.length - rest.length - 1]? = some b := by
  obtain ⟨buffer, hp, hc, ha, hidx, hparse⟩ :=
    parse_at_byte h operation r0 json k m ws rest b hreach hahead hws
  have hoff : buffer.offset = json.length - rest.length - 1 :=
    offset_of_nonneg buffer _ hp (by omega)
  by_cases hctl : isControlCode b = true
  · have hbody : parseBody h operation { m with buffer := buffer }
        = .return .false
            { m with buffer := buffer, error := makeError .ControlCharacterDetectionMsg buffer } := by
      unfold parseBody
      simp only [JsonStringViewBufferReader.value, hc, hb, hctl, Bool.false_eq_true, if_false,
        if_true]
    rw [hparse, hbody]
    exact ⟨_, rfl, by rw [if_pos hctl]; simp only [makeError, hoff], rfl, hidx⟩
  · have hctl1 : isControlCode b = false := by simpa using hctl
    have hbody : parseBody h operation { m with buffer := buffer }
        = .return .false
            { m with buffer := buffer, error := makeErrorCh .InvalidEntryCharacterMsg b buffer } := by
      unfold parseBody
      simp only [JsonStringViewBufferReader.value, hc, hb, hctl1, hdepth, Bool.false_eq_true,
        if_false]
      rw [if_neg (by simp [hentry.1]), if_neg (by simp [hentry.2])]
    rw [hparse, hbody]
    exact ⟨_, rfl, by rw [if_neg hctl]; simp only [makeErrorCh, hoff], rfl, hidx⟩

/-- C7, counterexample: the input consisting of the byte 0x01, which is neither
whitespace nor `{` nor `[`, fails with "Control character detection, offset: 0"
and not with the error for an invalid entry character. -/
theorem C7_counterexample :
    isspace 1 = false ∧ (1 : Nat) ≠ 123 ∧ (1 : Nat) ≠ 91
      ∧ ∃ m, parseEvents [1] .Single = some (.false, m)
          ∧ m.error = .withOffset .ControlCharacterDetectionMsg 0
          ∧ m.error ≠ .withChar .InvalidEntryCharacterMsg 1 0 :=
  ⟨by decide, by decide, by decide, _, rfl, rfl, by decide⟩

/-- C7, witness: the bare scalar `42` is refused at offset 0 with no event, and
the control byte 0x01 behind a space and a tab is refused at offset 2 with the
error for a control byte, with no event.  In Multiple mode, behind the document
`{}` and a space, the byte `4` is refused at offset 3 with the entry error and
the byte 0x01 with the error for a control byte, the events of the document
being all that was reported. -/
theorem C7_entry_rule_witness :
    (∃ m1, JsonSAXReader.parse recorder freshRecorder (ofString inputC7) .Single
        = some (.false, m1)
      ∧ m1.error = .withChar .InvalidEntryCharacterMsg 52 0
      ∧ m1.self = []
      ∧ inputC7[0]? = some 52)
    ∧ (∃ m1, JsonSAXReader.parse recorder freshRecorder (ofString [32, 9, 1]) .Single
        = some (.false, m1)
      ∧ m1.error = .withOffset .ControlCharacterDetectionMsg 2
      ∧ m1.self = []
      ∧ ([32, 9, 1] : List Nat)[2]? = some 1)
    ∧ (∃ m1, JsonSAXReader.parse recorder freshRecorder (ofString [123, 125, 32, 52]) .Multiple
        = some (.false, m1)
      ∧ m1.error = .withChar .InvalidEntryCharacterMsg 52 3
      ∧ m1.self = [.JsonBegin, .ObjectBegin, .ObjectEnd, .JsonEnd]
      ∧ ([123, 125, 32, 52] : List Nat)[3]? = some 52)
    ∧ (∃ m1, JsonSAXReader.parse recorder freshRecorder (ofString [123, 125, 32, 1]) .Multiple
        = some (.false, m1)
      ∧ m1.error = .withOffset .ControlCharacterDetectionMsg 3
      ∧ m1.self = [.JsonBegin, .ObjectBegin, .ObjectEnd, .JsonEnd]
      ∧ ([123, 125, 32, 1] : List Nat)[3]? = some 1) :=
  ⟨C7_entry_rule recorder .Single freshRecorder inputC7 0
    (freshRecorder.start (ofString inputC7)) [] [50] 52 (by decide) rfl rfl rfl (by decide)
    (by decide) (by decide),
   C7_entry_rule recorder .Single freshRecorder [32, 9, 1] 0
    (freshRecorder.start (ofString [32, 9, 1])) [32, 9] [] 1 (by decide) rfl rfl rfl (by decide)
    (by decide) (by decide),
   C7_entry_rule recorder .Multiple freshRecorder [123, 125, 32, 52] 2
    { buffer := { pos := 1, cur := 125, ahead := [32, 52] }, depth := [], self := [.JsonBegin, .ObjectBegin, .ObjectEnd, .JsonEnd], stop := false, error := .empty }
    [32] [] 52 (by decide) (by decide) rfl rfl (by decide) (by decide) (by decide),
   C7_entry_rule recorder .Multiple freshRecorder [123, 125, 32, 1] 2
    { buffer := { pos := 1, cur := 125, ahead := [32, 1] }, depth := [], self := [.JsonBegin, .ObjectBegin, .ObjectEnd, .JsonEnd], stop := false, error := .empty }
    [32] [] 1 (by decide) (by decide) rfl rfl (by decide) (by decide) (by decide)⟩




open JsonStringViewBufferReader

/-- C8 (unexpected end of input): when parse has read past the last byte of the
input while a container is open, it returns false, never true.  Either the input
ended between two passes of the loop, in a reached state with nothing ahead, and
the error is "Unexpected end of json stream"; or it ended inside the token that
the last pass started at a byte `c`, and the error is the one for a truncated
token, at the offset of the end of the input: "String out of array limit" behind
`"`, "Number out of array limit" behind `-` or a digit, "Value out of array
limit" for a keyword. -/
theorem C8_unexpected_end {σ : Type} (h : Hooks σ) (operation : Operation)
    (r0 : JsonSAXReader σ) (json : List Nat) (r : Ret) (m1 : Machine σ)
    (hsize : json.length < 2 ^ 64)
    (hparse : JsonSAXReader.parse h r0 (ofString json) operation = some (r, m1))
    (hend : m1.buffer.pos = json.length)
    (hopen : m1.depth ≠ []) :
    r = .false
      ∧ ((m1.error = .plain .UnexpectedEndMsg
            ∧ ∃ k m, passes h operation k (r0.start (ofString json)) = some m
                ∧ m.buffer.ahead = [] ∧ m.depth = m1.depth)
          ∨ ∃ k m c rest, passes h operation k (r0.start (ofString json)) = some m
              ∧ m.buffer.ahead = c :: rest ∧ isspace c = false
              ∧ ((c = 34 ∧ m1.error = .withOffset .StringOutOfArrayMsg json.length)
                ∨ ((c = 45 ∨ isdigit c = true)
                    ∧ m1.error = .withOffset .NumberOutOfArrayMsg json.length)
                ∨ (c ≠ 34 ∧ c ≠ 45 ∧ isdigit c = false
                    ∧ m1.error = .withOffset .ValueOutOfArrayMsg json.length))) := by
  have hoff : m1.buffer.offset = json.length := offset_of_nonneg m1.buffer _ hend hsize
  rcases parseFrom_local h operation _ (r0.start (ofString json)) rfl r m1 hparse with
    ⟨hl, _⟩ | ⟨_, hcase⟩
  · exfalso
    have := hl.pos_lt
    simp only [JsonSAXReader.start, ofString] at this
    omega
  · rcases hcase with ⟨k, m, hk, ha, hr⟩ | ⟨k, m, c, rest, hk, ha, hs, hr, he⟩
    · have hd := parseEnd_depth { m with buffer := { pos := m.buffer.pos + 1, cur := 0, ahead := [] } }
      rw [← hr] at hd
      simp only [] at hd
      have hne : m.depth.isEmpty = false := by
        rw [hd] at hopen
        cases hm : m.depth <;> simp [hm] at hopen ⊢
      simp only [parseEnd, hne, Bool.not_false, if_true, Prod.mk.injEq] at hr
      refine ⟨hr.1, Or.inl ⟨by rw [hr.2], k, m, hk, ha, hd.symm⟩⟩
    · refine ⟨hr, Or.inr ⟨k, m, c, rest, hk, ha, hs, ?_⟩⟩
      simp only [makeError, hoff] at he
      by_cases h3 : (c == 34) = true
      · left
        have hc : c = 34 := by simpa using h3
        refine ⟨hc, ?_⟩
        rw [he, hc, tokenMsg_string]
      · by_cases h4 : (c == 45 || isdigit c) = true
        · right; left
          refine ⟨by simpa using h4, ?_⟩
          rw [he, tokenMsg_number c h3 h4]
        · right; right
          have h5 : c ≠ 45 ∧ isdigit c = false := by simpa using h4
          refine ⟨by simpa using h3, h5.1, h5.2, ?_⟩
          rw [he, tokenMsg_keyword c h3 h4]

/-- C8, witness: the input `[1, "ab` ends inside a string; parse returns false
with "String out of array limit, offset: 7". -/
theorem C8_unexpected_end_witness :
    Ret.false = .false
      ∧ ((ErrorText.withOffset .StringOutOfArrayMsg 7 = .plain .UnexpectedEndMsg
            ∧ ∃ k m, passes recorder .Single k (freshRecorder.start (ofString inputC8)) = some m
                ∧ m.buffer.ahead = [] ∧ m.depth = [.ArrayNext])
          ∨ ∃ k m c rest, passes recorder .Single k (freshRecorder.start (ofString inputC8)) = some m
              ∧ m.buffer.ahead = c :: rest ∧ isspace c = false
              ∧ ((c = 34 ∧ ErrorText.withOffset .StringOutOfArrayMsg 7
                      = .withOffset .StringOutOfArrayMsg 7)
                ∨ ((c = 45 ∨ isdigit c = true)
                    ∧ ErrorText.withOffset .StringOutOfArrayMsg 7
                      = .withOffset .NumberOutOfArrayMsg 7)
                ∨ (c ≠ 34 ∧ c ≠ 45 ∧ isdigit c = false
                    ∧ ErrorText.withOffset .StringOutOfArrayMsg 7
                      = .withOffset .ValueOutOfArrayMsg 7))) :=
  C8_unexpected_end recorder .Single freshRecorder inputC8 .false
    { buffer := { pos := 7, cur := 0, ahead := [] }, depth := [.ArrayNext],
      self := [.JsonBegin, .ArrayBegin, .ValueLongLong 1], stop := false,
      error := .withOffset .StringOutOfArrayMsg 7 }
    (by decide) rfl rfl (by decide)




open JsonStringViewBufferReader

/-- C6 (Single mode stops after the first document): let `d` be an input on
which Single-mode parse returns true with the reader on the last byte of `d`
(so `d` ends at the closing bracket of its first complete document).  Then for
every continuation `s` parse of `d ++ s` returns true with the same final state
of the derived class (the same hook calls), the reader on the same byte, and all
of `s` still ahead of it, unread. -/
theorem C6_single_stops {σ : Type} (h : Hooks σ) (r0 : JsonSAXReader σ) (d s : List Nat)
    (m : Machine σ)
    (hd : JsonSAXReader.parse h r0 (ofString d) .Single = some (.true, m))
    (hlast : m.buffer.pos + 1 = d.length) :
    ∃ m1, JsonSAXReader.parse h r0 (ofString (d ++ s)) .Single = some (.true, m1)
      ∧ m1.self = m.self ∧ m1.depth = m.depth ∧ m1.error = m.error
      ∧ m1.buffer.pos = m.buffer.pos ∧ m1.buffer.ahead = s := by
  rcases parseFrom_local h .Single _ (r0.start (ofString d)) rfl .true m hd with
    ⟨hl, hx⟩ | ⟨he, _⟩
  · refine ⟨m.extend s, hx s, rfl, rfl, rfl, rfl, ?_⟩
    have := hl.size_eq
    simp only [JsonSAXReader.start, ofString] at this
    have h0 : m.buffer.ahead = [] := List.length_eq_zero.mp (by omega)
    simp [h0]
  · exfalso
    have := he.1
    simp only [JsonSAXReader.start, ofString] at this
    omega

/-- C6, witness: `[1]` followed by the bytes `]x{` parses like `[1]` alone. -/
theorem C6_single_stops_witness :
    ∃ m1, JsonSAXReader.parse recorder freshRecorder (ofString (inputC6 ++ [93, 120, 123])) .Single
        = some (.true, m1)
      ∧ m1.self = [.JsonBegin, .ArrayBegin, .ValueLongLong 1, .ArrayEnd, .JsonEnd]
      ∧ m1.depth = [] ∧ m1.error = .empty
      ∧ m1.buffer.pos = 2 ∧ m1.buffer.ahead = [93, 120, 123] :=
  C6_single_stops recorder freshRecorder inputC6 [93, 120, 123]
    { buffer := { pos := 2, cur := 93, ahead := [] }, depth := [],
      self := [.JsonBegin, .ArrayBegin, .ValueLongLong 1, .ArrayEnd, .JsonEnd], stop := false,
      error := .empty }
    rfl rfl




open JsonStringViewBufferReader

/-! ## Scanning digits -/

theorem isdigit_iff (d : Nat) : isdigit d = true ↔ 48 ≤ d ∧ d ≤ 57 := by
  simp [isdigit]

theorem isdigit_not_control (d : Nat) (h : isdigit d = true) : isControlCode d = false := by
  rw [isdigit_iff] at h
  simp [isControlCode]; omega

theorem isdigit_not_space (d : Nat) (h : isdigit d = true) : isspace d = false := by
  rw [isdigit_iff] at h
  simp [isspace]; omega

theorem numberStep_digit (neg : Bool) (depth : List JsonReaderType) (i points d : Nat)
    (hd : isdigit d = true) (hcap : capped neg points i = false) :
    numberStep neg depth i points d = .digit := by
  have h1 := isdigit_not_control d hd
  have h2 := isdigit_not_space d hd
  rw [isdigit_iff] at hd
  unfold numberStep
  rw [if_neg (by simp [h1]), if_neg (by simp [h2]), if_neg (by simp; omega),
    if_neg (by simp; omega), if_neg (by simp; omega), if_neg (by simp [hcap]),
    if_neg (by simp; omega), if_neg (by simp [isdigit]; omega)]

theorem capped_integer (neg : Bool) (i : Nat) (h : i < (if neg then 19 else 18)) :
    capped neg 0 i = false := by
  cases neg <;> simp [capped, INTEGER_MAX, NEGATIVE_INTEGER_MAX] at h ⊢ <;> omega

/-- A run of digits within the length cap of an integer literal is pushed to
`temp` byte by byte. -/
theorem readyNumberLoop_digits (neg : Bool) (depth : List JsonReaderType) (ds : List Nat) :
    ∀ (pos : Int) (i : Nat) (temp : List Nat) (ch0 : Nat) (tail : List Nat),
      (∀ d ∈ ds, isdigit d = true) → i + ds.length ≤ (if neg then 19 else 18) →
      ∃ ch1, readyNumberLoop neg depth pos i 0 temp ch0 (ds ++ tail)
        = readyNumberLoop neg depth (pos + ds.length) (i + ds.length) 0 (temp ++ ds) ch1 tail := by
  induction ds with
  | nil => intro pos i temp ch0 tail _ _; exact ⟨ch0, by simp⟩
  | cons d ds ih =>
      intro pos i temp ch0 tail hds hlen
      have hd : isdigit d = true := hds d (List.mem_cons_self _ _)
      simp only [List.length_cons] at hlen
      have hstep := numberStep_digit neg depth i 0 d hd (capped_integer neg i (by omega))
      obtain ⟨ch1, h1⟩ := ih (pos + 1) (i + 1) (temp ++ [d]) d tail
        (fun x hx => hds x (List.mem_cons_of_mem _ hx)) (by omega)
      refine ⟨ch1, ?_⟩
      rw [List.cons_append, readyNumberLoop]
      simp only [hstep, h1]
      simp only [List.length_cons, Nat.cast_add, Nat.cast_one, List.append_assoc,
        List.singleton_append]
      congr 1 <;> omega

/-- What the loop of the number lexer does at a byte that ends a number. -/
theorem numberStep_terminator (neg : Bool) (depth : List JsonReaderType) (i points t : Nat)
    (hc : isControlCode t = false) :
    (isspace t = true → numberStep neg depth i points t = .leave .None depth)
      ∧ (t = 44 → numberStep neg depth i points t = .leave .Separator
          (if (top depth).code < JsonReaderType.Array.code then setTop .ObjectNextKey depth
           else setTop .ArrayNextValue depth))
      ∧ (t = 125 → numberStep neg depth i points t =
          if (top depth).code > JsonReaderType.ObjectNextKey.code then
            .error .InvalidSeparatorArrayMsg
          else .leave .Object depth.tail)
      ∧ (t = 93 → numberStep neg depth i points t =
          if (top depth).code < JsonReaderType.Array.code then .error .InvalidSeparatorObjectMsg
          else .leave .Array depth.tail) := by
  refine ⟨fun hs => ?_, fun ht => ?_, fun ht => ?_, fun ht => ?_⟩
  · unfold numberStep
    rw [if_neg (by simp [hc]), if_pos hs]
  · subst ht
    have h1 : ¬ isControlCode 44 = true := by decide
    have h2 : ¬ isspace 44 = true := by decide
    have h3 : ((44 : Nat) == 44) = true := by decide
    unfold numberStep
    rw [if_neg h1, if_neg h2, if_pos h3]
    split <;> rfl
  · subst ht
    have h1 : ¬ isControlCode 125 = true := by decide
    have h2 : ¬ isspace 125 = true := by decide
    have h3 : ¬ ((125 : Nat) == 44) = true := by decide
    have h4 : ((125 : Nat) == 125) = true := by decide
    unfold numberStep
    rw [if_neg h1, if_neg h2, if_neg h3, if_pos h4]
  · subst ht
    have h1 : ¬ isControlCode 93 = true := by decide
    have h2 : ¬ isspace 93 = true := by decide
    have h3 : ¬ ((93 : Nat) == 44) = true := by decide
    have h4 : ¬ ((93 : Nat) == 125) = true := by decide
    have h5 : ((93 : Nat) == 93) = true := by decide
    unfold numberStep
    rw [if_neg h1, if_neg h2, if_neg h3, if_neg h4, if_pos h5]

/-! ## The value of a literal -/

theorem digitsValue_nil (acc : Nat) : digitsValue acc [] = acc := rfl

theorem digitsValue_cons (acc d : Nat) (ds : List Nat) :
    digitsValue acc (d :: ds) = digitsValue (acc * 10 + (d - 48)) ds := by
  simp only [digitsValue, List.foldl_cons]

theorem digitsValue_append (ds es : List Nat) (acc : Nat) :
    digitsValue acc (ds ++ es) = digitsValue (digitsValue acc ds) es := by
  simp only [digitsValue, List.foldl_append]

theorem digitsValue_acc (ds : List Nat) :
    ∀ acc, digitsValue acc ds = acc * 10 ^ ds.length + digitsValue 0 ds := by
  induction ds with
  | nil => intro acc; simp [digitsValue_nil]
  | cons d ds ih =>
      intro acc
      rw [digitsValue_cons, digitsValue_cons, ih (acc * 10 + (d - 48)), ih (0 * 10 + (d - 48))]
      simp only [List.length_cons]
      ring

/-- The value of a digit string is the number its digits denote in base 10. -/
theorem digitsValue_eq_ofDigits (ds : List Nat) :
    digitsValue 0 ds = Nat.ofDigits 10 ((ds.map (fun d => d - 48)).reverse) := by
  induction ds with
  | nil => simp [digitsValue_nil]
  | cons d ds ih =>
      rw [digitsValue_cons, digitsValue_acc, ih]
      simp only [List.map_cons, List.reverse_cons]
      rw [Nat.ofDigits_append, Nat.ofDigits_singleton]
      simp only [List.length_reverse, List.length_map]
      ring

theorem takeWhile_digits (ds : List Nat) (h : ∀ d ∈ ds, isdigit d = true) :
    ds.takeWhile isdigit = ds := by
  rw [List.takeWhile_eq_self_iff]
  exact h




open JsonStringViewBufferReader

/-! ## Integer literals -/

theorem digit_ne_minus (d : Nat) (h : isdigit d = true) : d ≠ 45 := by
  rw [isdigit_iff] at h; omega

theorem from_chars_digits (ds : List Nat) (hne : ds ≠ []) (hds : ∀ d ∈ ds, isdigit d = true) :
    from_chars ds = if digitsValue 0 ds < 2 ^ 63 then some (digitsValue 0 ds : Int) else none := by
  obtain ⟨d, ds1, rfl⟩ := List.exists_cons_of_ne_nil hne
  have hd : isdigit d = true := hds d (List.mem_cons_self _ _)
  have hneg : (((d :: ds1).head? == some 45) = false) := by
    simp [digit_ne_minus d hd]
  unfold from_chars
  simp only [hneg, Bool.false_eq_true, if_false, takeWhile_digits _ hds]
  simp

theorem from_chars_minus (ds : List Nat) (hne : ds ≠ []) (hds : ∀ d ∈ ds, isdigit d = true) :
    from_chars (45 :: ds)
      = if digitsValue 0 ds ≤ 2 ^ 63 then some (-(digitsValue 0 ds : Int)) else none := by
  obtain ⟨d, ds1, rfl⟩ := List.exists_cons_of_ne_nil hne
  unfold from_chars
  simp only [List.head?_cons, beq_self_eq_true, if_true, List.tail_cons, takeWhile_digits _ hds]
  simp

/-- The text of an integer literal: an optional `-` and the digits `ds`. -/
theorem literal_cases (neg : Bool) (ds : List Nat) (hne : ds ≠ [])
    (hds : ∀ d ∈ ds, isdigit d = true) :
    ∃ digit tail, (if neg then [45] else []) ++ ds = digit :: tail
      ∧ (digit == 45) = neg ∧ (∀ d ∈ tail, isdigit d = true)
      ∧ tail.length + 1 = (if neg then 1 else 0) + ds.length := by
  obtain ⟨d, ds1, rfl⟩ := List.exists_cons_of_ne_nil hne
  cases neg with
  | true => exact ⟨45, d :: ds1, rfl, rfl, hds, by simp; omega⟩
  | false =>
      refine ⟨d, ds1, rfl, ?_, fun x hx => hds x (List.mem_cons_of_mem _ hx), by simp⟩
      have := digit_ne_minus d (hds d (List.mem_cons_self _ _))
      simp [this]

/-- The number lexer on an integer literal of at most 19 digits that is followed
by the byte `t`: the loop reaches `t` with the whole literal in `temp`. -/
theorem readyNumber_integer {σ : Type} (h : Hooks σ) (m : Machine σ) (neg : Bool)
    (ds : List Nat) (digit : Nat) (tail : List Nat) (t : Nat) (rest : List Nat)
    (hlit : (if neg then [45] else []) ++ ds = digit :: tail)
    (hne : ds ≠ []) (hds : ∀ d ∈ ds, isdigit d = true) (hlen : ds.length ≤ 19)
    (ha : m.buffer.ahead = tail ++ t :: rest) :
    readyNumber h digit m =
      match numberStep neg m.depth tail.length 0 t with
      | .error msg =>
          (.false, { m with buffer := { pos := m.buffer.pos + tail.length + 1, cur := t, ahead := rest }, error := makeError msg { pos := m.buffer.pos + tail.length + 1, cur := t, ahead := rest } })
      | .leave e depth1 =>
          readyNumberEnd h { exit := true, «end» := e, points := 0, temp := digit :: tail, ch := t, depth := depth1 } { m with buffer := { pos := m.buffer.pos + tail.length + 1, cur := t, ahead := rest }, depth := depth1 }
      | .point =>
          match readyNumberLoop neg m.depth (m.buffer.pos + tail.length + 1) (tail.length + 1) 1 (digit :: tail ++ [t]) t rest with
          | .fail error buffer => (.false, { m with buffer := buffer, error := error })
          | .ok scan buffer => readyNumberEnd h scan { m with buffer := buffer, depth := scan.depth }
      | .digit =>
          match readyNumberLoop neg m.depth (m.buffer.pos + tail.length + 1) (tail.length + 1) 0 (digit :: tail ++ [t]) t rest with
          | .fail error buffer => (.false, { m with buffer := buffer, error := error })
          | .ok scan buffer => readyNumberEnd h scan { m with buffer := buffer, depth := scan.depth } := by
  obtain ⟨digit1, tail1, h1, hneg, htail, htl⟩ := literal_cases neg ds hne hds
  rw [hlit] at h1
  simp only [List.cons.injEq] at h1
  obtain ⟨rfl, rfl⟩ := h1
  have hcap : 0 + tail.length ≤ (if neg then 19 else 18) := by
    cases neg <;> simp at htl ⊢ <;> omega
  obtain ⟨ch1, hloop⟩ := readyNumberLoop_digits neg m.depth tail m.buffer.pos 0 [digit] 0
    (t :: rest) htail hcap
  rw [readyNumber, hneg, ha, hloop, readyNumberLoop]
  simp only [Nat.zero_add, List.singleton_append]
  cases hs : numberStep neg m.depth tail.length 0 t <;> simp only [] <;> rfl




open JsonStringViewBufferReader

theorem isspace_iff (c : Nat) : isspace c = true ↔ c = 32 ∨ (9 ≤ c ∧ c ≤ 13) := by
  unfold isspace
  simp
  try omega

theorem isspace_not_control (c : Nat) (h : isspace c = true) : isControlCode c = false := by
  rw [isspace_iff] at h
  simp [isControlCode]; omega

theorem literal_getLast (neg : Bool) (ds : List Nat) (hne : ds ≠ [])
    (hds : ∀ d ∈ ds, isdigit d = true) :
    (((if neg then [45] else []) ++ ds).getLast? == some 46) = false := by
  rw [List.getLast?_append_of_ne_nil _ hne, List.getLast?_eq_getLast _ hne]
  have := hds _ (List.getLast_mem hne)
  rw [isdigit_iff] at this
  simp; omega

/-- The part of the number lexer behind its loop, for a literal without a
decimal point whose scan was ended by a byte that ends a number. -/
theorem readyNumberEnd_integer {σ : Type} (h : Hooks σ) (m : Machine σ) (e : End)
    (temp : List Nat) (ch : Nat) (depth : List JsonReaderType)
    (hend : e = .None → isspace ch = true) (hlast : (temp.getLast? == some 46) = false) :
    readyNumberEnd h { exit := true, «end» := e, points := 0, temp := temp, ch := ch, depth := depth } m
      = match from_chars temp with
        | none => (.false, { m with error := makeError .NumberRangeMsg m.buffer })
        | some v =>
            match call h (.ValueLongLong v) m with
            | (.true, m2) =>
                if e = .Object then call h .ObjectEnd m2
                else if e = .Array then call h .ArrayEnd m2
                else (.true, m2)
            | r => r := by
  have h1 : ((e == End.None) && !isspace ch) = false := by
    cases e <;> simp
    exact hend rfl
  unfold readyNumberEnd
  simp only [Bool.not_true, Bool.false_eq_true, if_false, h1, hlast]
  unfold numberValue
  simp only [beq_self_eq_true, if_true]
  have h2 : ((0 : Nat) == 1) = false := by decide
  simp only [h2, Bool.false_eq_true, if_false]
  cases from_chars temp with
  | none => simp only [numberEnd]
  | some v =>
      simp only []
      cases hc : call h (.ValueLongLong v) m with
      | mk r m2 =>
          cases r <;> simp only [numberEnd, beq_iff_eq]

/-- The number lexer on an integer literal at a value position: `d` is the
state on top of the stack, which the main loop set before the call, and `t`
the byte that ends the literal. -/
theorem readyNumber_value {σ : Type} (h : Hooks σ) (m : Machine σ) (neg : Bool)
    (ds : List Nat) (digit : Nat) (tail : List Nat) (t : Nat) (rest : List Nat)
    (d : JsonReaderType) (below : List JsonReaderType)
    (hlit : (if neg then [45] else []) ++ ds = digit :: tail)
    (hne : ds ≠ []) (hds : ∀ d ∈ ds, isdigit d = true) (hlen : ds.length ≤ 19)
    (ha : m.buffer.ahead = tail ++ t :: rest)
    (hdepth : m.depth = d :: below) (hd : d = .ObjectNextPair ∨ d = .ArrayNext)
    (ht : isspace t = true ∨ t = 44 ∨ (t = 125 ∧ d = .ObjectNextPair) ∨ (t = 93 ∧ d = .ArrayNext)) :
    readyNumber h digit m =
      match from_chars (digit :: tail) with
      | none => (.false, { m with buffer := { pos := m.buffer.pos + tail.length + 1, cur := t, ahead := rest }, depth := if t = 125 ∨ t = 93 then below else (if t = 44 then (if d = .ObjectNextPair then .ObjectNextKey else .ArrayNextValue) else d) :: below, error := makeError .NumberRangeMsg { pos := m.buffer.pos + tail.length + 1, cur := t, ahead := rest } })
      | some v =>
          match call h (.ValueLongLong v) { m with buffer := { pos := m.buffer.pos + tail.length + 1, cur := t, ahead := rest }, depth := if t = 125 ∨ t = 93 then below else (if t = 44 then (if d = .ObjectNextPair then .ObjectNextKey else .ArrayNextValue) else d) :: below } with
          | (.true, m2) =>
              if t = 125 then call h .ObjectEnd m2
              else if t = 93 then call h .ArrayEnd m2
              else (.true, m2)
          | r => r := by
  have hlast : (((digit :: tail).getLast? == some 46) = false) := by
    rw [← hlit]; exact literal_getLast neg ds hne hds
  rw [readyNumber_integer h m neg ds digit tail t rest hlit hne hds hlen ha, hdepth]
  rcases ht with hs | rfl | ⟨rfl, rfl⟩ | ⟨rfl, rfl⟩
  · have hc := isspace_not_control t hs
    rw [(numberStep_terminator neg (d :: below) tail.length 0 t hc).1 hs]
    simp only []
    rw [readyNumberEnd_integer h _ _ _ _ _ (fun _ => hs) hlast]
    rw [isspace_iff] at hs
    have e1 : ¬ (t = 125 ∨ t = 93) := by omega
    have e2 : ¬ t = 44 := by omega
    have e3 : ¬ t = 125 := by omega
    have e4 : ¬ t = 93 := by omega
    simp only [e1, e2, e3, e4, if_false, reduceCtorEq, or_self]
  · rw [(numberStep_terminator neg (d :: below) tail.length 0 44 (by decide)).2.1 rfl]
    rcases hd with rfl | rfl
    · simp only [top, List.headD_cons, JsonReaderType.code, setTop, List.tail_cons]
      rw [if_pos (by decide)]
      rw [readyNumberEnd_integer h _ _ _ _ _ (fun hx => by cases hx) hlast]
      rfl
    · simp only [top, List.headD_cons, JsonReaderType.code, setTop, List.tail_cons]
      rw [if_neg (by decide)]
      rw [readyNumberEnd_integer h _ _ _ _ _ (fun hx => by cases hx) hlast]
      rfl
  · rw [(numberStep_terminator neg (.ObjectNextPair :: below) tail.length 0 125 (by decide)).2.2.1 rfl]
    simp only [top, List.headD_cons, JsonReaderType.code, List.tail_cons]
    rw [if_neg (by decide)]
    simp only []
    rw [readyNumberEnd_integer h _ _ _ _ _ (fun hx => by cases hx) hlast]
    simp only [reduceCtorEq, if_false, if_true, Nat.reduceEqDiff, or_false, true_or]
  · rw [(numberStep_terminator neg (.ArrayNext :: below) tail.length 0 93 (by decide)).2.2.2 rfl]
    simp only [top, List.headD_cons, JsonReaderType.code, List.tail_cons]
    rw [if_neg (by decide)]
    simp only []
    rw [readyNumberEnd_integer h _ _ _ _ _ (fun hx => by cases hx) hlast]
    simp only [reduceCtorEq, if_false, if_true, Nat.reduceEqDiff, or_true]




open JsonStringViewBufferReader

/-- The main loop at a value position hands the byte to `ready`, with the state
that follows the value on top of the stack. -/
theorem parseBody_value {σ : Type} (h : Hooks σ) (operation : Operation) (m : Machine σ)
    (t : JsonReaderType) (below : List JsonReaderType)
    (hs : isspace m.buffer.cur = false) (hc : isControlCode m.buffer.cur = false)
    (hdepth : m.depth = t :: below)
    (hpos : t = .ObjectValue ∨ t = .ArrayNextValue ∨ (t = .Array ∧ m.buffer.cur ≠ 93)) :
    parseBody h operation m
      = andThen h operation (ready h m.buffer.cur { m with depth := (if t = .ObjectValue then .ObjectNextPair else .ArrayNext) :: below }) := by
  unfold parseBody
  rcases hpos with ht | ht | ⟨ht, h93⟩
  · simp only [JsonStringViewBufferReader.value, hs, hc, hdepth, ht, Bool.false_eq_true,
      if_false, setTop, List.tail_cons, if_true]
  · simp only [JsonStringViewBufferReader.value, hs, hc, hdepth, ht, Bool.false_eq_true,
      if_false, setTop, List.tail_cons, reduceCtorEq]
  · simp only [JsonStringViewBufferReader.value, hs, hc, hdepth, ht, Bool.false_eq_true,
      if_false, setTop, List.tail_cons, reduceCtorEq]
    rw [if_neg (by simp [h93])]

theorem ready_number {σ : Type} (h : Hooks σ) (b : Nat) (m : Machine σ)
    (hb : b = 45 ∨ isdigit b = true) : ready h b m = readyNumber h b m := by
  have h1 : b ≠ 123 ∧ b ≠ 91 ∧ b ≠ 34 := by
    rcases hb with hb | hb
    · omega
    · rw [isdigit_iff] at hb; omega
  have h2 : (b == 45 || isdigit b) = true := by
    rcases hb with hb | hb
    · simp [hb]
    · simp [hb]
  rw [ready, if_neg (by simpa using h1.1), if_neg (by simpa using h1.2.1),
    if_neg (by simpa using h1.2.2), if_pos h2]

theorem literal_head (neg : Bool) (ds : List Nat) (digit : Nat) (tail : List Nat)
    (hne : ds ≠ []) (hds : ∀ d ∈ ds, isdigit d = true)
    (hlit : literalText neg ds = digit :: tail) : digit = 45 ∨ isdigit digit = true := by
  obtain ⟨d, ds1, rfl⟩ := List.exists_cons_of_ne_nil hne
  cases neg with
  | true => simp [literalText] at hlit; exact Or.inl hlit.1.symm
  | false =>
      simp [literalText] at hlit
      rw [← hlit.1]
      exact Or.inr (hds d (List.mem_cons_self _ _))

/-- `std::from_chars` on the text of a literal of digits: its value when that
fits `long long`, else an error. -/
theorem from_chars_literal (neg : Bool) (ds : List Nat) (hne : ds ≠ [])
    (hds : ∀ d ∈ ds, isdigit d = true) :
    from_chars (literalText neg ds)
      = if -(2 : Int) ^ 63 ≤ literalValue neg ds ∧ literalValue neg ds ≤ 2 ^ 63 - 1 then
          some (literalValue neg ds)
        else none := by
  cases neg with
  | true =>
      simp only [literalText, if_true, List.singleton_append, literalValue]
      rw [from_chars_minus ds hne hds, digitsValue_eq_ofDigits]
      by_cases hr : Nat.ofDigits 10 ((ds.map (fun d => d - 48)).reverse) ≤ 2 ^ 63
      · rw [if_pos hr, if_pos]
        constructor
        · have : ((Nat.ofDigits 10 ((ds.map (fun d => d - 48)).reverse) : Nat) : Int) ≤ 2 ^ 63 := by
            exact_mod_cast hr
          omega
        · omega
      · rw [if_neg hr, if_neg]
        intro hx
        apply hr
        have : ((Nat.ofDigits 10 ((ds.map (fun d => d - 48)).reverse) : Nat) : Int) ≤ 2 ^ 63 := by
          omega
        exact_mod_cast this
  | false =>
      simp only [literalText, Bool.false_eq_true, if_false, List.nil_append, literalValue]
      rw [from_chars_digits ds hne hds, digitsValue_eq_ofDigits]
      by_cases hr : Nat.ofDigits 10 ((ds.map (fun d => d - 48)).reverse) < 2 ^ 63
      · rw [if_pos hr, if_pos]
        constructor
        · omega
        · have : ((Nat.ofDigits 10 ((ds.map (fun d => d - 48)).reverse) : Nat) : Int) < 2 ^ 63 := by
            exact_mod_cast hr
          omega
      · rw [if_neg hr, if_neg]
        intro hx
        apply hr
        have : ((Nat.ofDigits 10 ((ds.map (fun d => d - 48)).reverse) : Nat) : Int) < 2 ^ 63 := by
          omega
        exact_mod_cast this

theorem call_recorder (e : Event) (m : Machine (List Event)) :
    call recorder e m = (.true, { m with self := m.self ++ [e] }) := by
  simp [call, emit, recorder]

/-- The pass of the main loop over an integer literal at a value position:
the one value event when the number fits `long long`, else the range error. -/
theorem integer_literal_pass (operation : Operation) (json : List Nat) (k : Nat)
    (m : Machine (List Event)) (ws rest : List Nat) (neg : Bool) (ds : List Nat) (b : Nat)
    (t : JsonReaderType) (below : List JsonReaderType)
    (hreach : passes recorder operation k (startEvents json) = some m)
    (hdepth : m.depth = t :: below)
    (hpos : t = .ObjectValue ∨ t = .ArrayNextValue ∨ t = .Array)
    (hahead : m.buffer.ahead = ws ++ literalText neg ds ++ b :: rest)
    (hws : ∀ c ∈ ws, isspace c = true)
    (hne : 1 ≤ ds.length) (hlen : ds.length ≤ 19) (hds : ∀ d ∈ ds, isdigit d = true)
    (hb : isspace b = true ∨ b = 44 ∨ (b = 125 ∧ t = .ObjectValue) ∨ (b = 93 ∧ t ≠ .ObjectValue)) :
    (-(2 : Int) ^ 63 ≤ literalValue neg ds ∧ literalValue neg ds ≤ 2 ^ 63 - 1 →
        parseEvents json operation =
          match documentEnd recorder operation { buffer := { pos := ((json.length - rest.length - 1 : Nat) : Int), cur := b, ahead := rest }, depth := if b = 125 ∨ b = 93 then below else (if b = 44 then (if t = .ObjectValue then .ObjectNextKey else .ArrayNextValue) else (if t = .ObjectValue then .ObjectNextPair else .ArrayNext)) :: below, self := m.self ++ .ValueLongLong (literalValue neg ds) :: (if b = 125 then [.ObjectEnd] else if b = 93 then [.ArrayEnd] else []), stop := m.stop, error := m.error, errno := m.errno } with
          | .continue m1 => parseFrom recorder operation m1
          | .break m1 => some (parseEnd m1)
          | .return r m1 => some (r, m1))
      ∧ (json.length < 2 ^ 64 →
          ¬ (-(2 : Int) ^ 63 ≤ literalValue neg ds ∧ literalValue neg ds ≤ 2 ^ 63 - 1) →
          ∃ m1, parseEvents json operation = some (.false, m1)
            ∧ m1.error = .withOffset .NumberRangeMsg (json.length - rest.length - 1)
            ∧ m1.error.render
                = "Number out of range, offset: " ++ toString (json.length - rest.length - 1)
            ∧ m1.self = m.self) := by
  have hne1 : ds ≠ [] := by
    intro h0; rw [h0] at hne; simp at hne
  obtain ⟨digit, tail, hlit, -, -, -⟩ := literal_cases neg ds hne1 hds
  have hhead := literal_head neg ds digit tail hne1 hds hlit
  have hahead1 : m.buffer.ahead = ws ++ digit :: (tail ++ b :: rest) := by
    rw [hahead, literalText, hlit]; simp
  obtain ⟨buffer, hp, hc, ha, -, hparse⟩ :=
    parse_at_byte recorder operation freshRecorder json k m ws (tail ++ b :: rest) digit hreach
      hahead1 hws
  obtain ⟨hsz, -, hnonneg⟩ := passes_start recorder operation k freshRecorder json m hreach
  have hs0 : isspace digit = false := by
    rcases hhead with rfl | hd
    · decide
    · exact isdigit_not_space _ hd
  have hc0 : isControlCode digit = false := by
    rcases hhead with rfl | hd
    · decide
    · exact isdigit_not_control _ hd
  have h93 : digit ≠ 93 := by
    rcases hhead with rfl | hd
    · decide
    · rw [isdigit_iff] at hd; omega
  have hbody := parseBody_value recorder operation { m with buffer := buffer } t below
    (by simp only [hc]; exact hs0) (by simp only [hc]; exact hc0) hdepth
    (by rcases hpos with ht | ht | ht
        · exact Or.inl ht
        · exact Or.inr (Or.inl ht)
        · exact Or.inr (Or.inr ⟨ht, by simp only [hc]; exact h93⟩))
  simp only [hc] at hbody
  have hd : (if t = .ObjectValue then JsonReaderType.ObjectNextPair else .ArrayNext) = .ObjectNextPair
      ∨ (if t = .ObjectValue then JsonReaderType.ObjectNextPair else .ArrayNext) = .ArrayNext := by
    by_cases ht : t = .ObjectValue
    · left; rw [if_pos ht]
    · right; rw [if_neg ht]
  have hb1 : isspace b = true ∨ b = 44
      ∨ (b = 125 ∧ (if t = .ObjectValue then JsonReaderType.ObjectNextPair else .ArrayNext) = .ObjectNextPair)
      ∨ (b = 93 ∧ (if t = .ObjectValue then JsonReaderType.ObjectNextPair else .ArrayNext) = .ArrayNext) := by
    rcases hb with h1 | h1 | ⟨h1, h2⟩ | ⟨h1, h2⟩
    · exact Or.inl h1
    · exact Or.inr (Or.inl h1)
    · exact Or.inr (Or.inr (Or.inl ⟨h1, by rw [if_pos h2]⟩))
    · exact Or.inr (Or.inr (Or.inr ⟨h1, by rw [if_neg h2]⟩))
  have hnum := readyNumber_value recorder
    { m with buffer := buffer, depth := (if t = .ObjectValue then JsonReaderType.ObjectNextPair else .ArrayNext) :: below }
    neg ds digit tail b rest _ below hlit hne1 hds hlen ha rfl hd hb1
  have hpos1 : buffer.pos + tail.length + 1 = ((json.length - rest.length - 1 : Nat) : Int) := by
    rw [hp]
    simp only [hahead1, List.length_append, List.length_cons] at hsz
    simp only [List.length_append, List.length_cons]
    omega
  have hfc := from_chars_literal neg ds hne1 hds
  rw [literalText, hlit] at hfc
  have hdep : (if t = .ObjectValue then JsonReaderType.ObjectNextPair else .ArrayNext) = .ObjectNextPair ↔ t = .ObjectValue := by
    by_cases ht : t = .ObjectValue
    · simp [ht]
    · simp [ht]
  simp only [hpos1, hdep] at hnum
  have hpe : parseEvents json operation
      = JsonSAXReader.parse recorder freshRecorder (ofString json) operation := rfl
  rw [hpe, hparse, hbody, ready_number recorder digit _ hhead, hnum, hfc]
  constructor
  · intro hr
    rw [if_pos hr]
    simp only [call_recorder, andThen]
    rcases hb with h1 | h1 | ⟨h1, h2⟩ | ⟨h1, h2⟩
    · rw [isspace_iff] at h1
      have e1 : ¬ b = 125 := by omega
      have e2 : ¬ b = 93 := by omega
      simp only [e1, e2, if_false, or_self]
      cases documentEnd recorder operation _ <;> rfl
    · subst h1
      simp only [Nat.reduceEqDiff, if_false, if_true, or_self]
      cases documentEnd recorder operation _ <;> rfl
    · subst h1
      simp only [if_true, call_recorder, List.append_assoc, List.singleton_append, true_or]
      cases documentEnd recorder operation _ <;> rfl
    · subst h1
      simp only [Nat.reduceEqDiff, if_false, if_true, call_recorder, List.append_assoc,
        List.singleton_append, or_true]
      cases documentEnd recorder operation _ <;> rfl
  · intro hsize hr
    have hoff : ({ pos := ((json.length - rest.length - 1 : Nat) : Int), cur := b, ahead := rest } : JsonStringViewBufferReader).offset = json.length - rest.length - 1 :=
      offset_of_nonneg _ _ rfl (by omega)
    rw [if_neg hr]
    simp only [andThen]
    refine ⟨_, rfl, ?_, ?_, rfl⟩
    · simp only [makeError, hoff]
    · simp only [makeError, hoff]
      rfl

/-- C10 (integer literals, with the closing bracket that matches the enclosing
container): in a state at a value position, a literal made of an optional `-`
and 1 to 19 digits that is followed by whitespace, by `,`, or by the closing
bracket of the enclosing container (`}` behind a key, `]` in an array) makes
the parser call the integer value hook exactly once, with the number the
literal denotes, when that number lies in `[-2^63, 2^63-1]`: the pass ends on
the byte behind the literal with that one event recorded (followed by the end
event of the container when the byte is its closing bracket), and the loop goes
on from there.  When the number lies outside that range, parse returns false
with the number-range error at the offset of the byte behind the literal and no
event is recorded for the literal. -/
theorem C10_integer_literal (operation : Operation) (json : List Nat) (k : Nat)
    (m : Machine (List Event)) (ws rest : List Nat) (neg : Bool) (ds : List Nat) (b : Nat)
    (t : JsonReaderType) (below : List JsonReaderType)
    (hsize : json.length < 2 ^ 64)
    (hreach : passes recorder operation k (startEvents json) = some m)
    (hdepth : m.depth = t :: below)
    (hpos : t = .ObjectValue ∨ t = .ArrayNextValue ∨ t = .Array)
    (hahead : m.buffer.ahead = ws ++ literalText neg ds ++ b :: rest)
    (hws : ∀ c ∈ ws, isspace c = true)
    (hne : 1 ≤ ds.length) (hlen : ds.length ≤ 19) (hds : ∀ d ∈ ds, isdigit d = true)
    (hb : isspace b = true ∨ b = 44 ∨ (b = 125 ∧ t = .ObjectValue) ∨ (b = 93 ∧ t ≠ .ObjectValue)) :
    (-(2 : Int) ^ 63 ≤ literalValue neg ds ∧ literalValue neg ds ≤ 2 ^ 63 - 1 →
        parseEvents json operation =
          match documentEnd recorder operation { buffer := { pos := ((json.length - rest.length - 1 : Nat) : Int), cur := b, ahead := rest }, depth := if b = 125 ∨ b = 93 then below else (if b = 44 then (if t = .ObjectValue then .ObjectNextKey else .ArrayNextValue) else (if t = .ObjectValue then .ObjectNextPair else .ArrayNext)) :: below, self := m.self ++ .ValueLongLong (literalValue neg ds) :: (if b = 125 then [.ObjectEnd] else if b = 93 then [.ArrayEnd] else []), stop := m.stop, error := m.error, errno := m.errno } with
          | .continue m1 => parseFrom recorder operation m1
          | .break m1 => some (parseEnd m1)
          | .return r m1 => some (r, m1))
      ∧ (¬ (-(2 : Int) ^ 63 ≤ literalValue neg ds ∧ literalValue neg ds ≤ 2 ^ 63 - 1) →
          ∃ m1, parseEvents json operation = some (.false, m1)
            ∧ m1.error = .withOffset .NumberRangeMsg (json.length - rest.length - 1)
            ∧ m1.error.render
                = "Number out of range, offset: " ++ toString (json.length - rest.length - 1)
            ∧ m1.self = m.self) :=
  ⟨(integer_literal_pass operation json k m ws rest neg ds b t below hreach hdepth hpos hahead hws
      hne hlen hds hb).1,
   (integer_literal_pass operation json k m ws rest neg ds b t below hreach hdepth hpos hahead hws
      hne hlen hds hb).2 hsize⟩

/-- C10, witness: `[9223372036854775807]` parses to the one integer value
`2^63 - 1`, and `[9223372036854775808]` is rejected as out of range at offset
20, with no value event. -/
theorem C10_integer_literal_witness :
    (∃ m1, parseEvents (91 :: digitsMax ++ [93]) .Single = some (.true, m1)
        ∧ m1.self = [.JsonBegin, .ArrayBegin, .ValueLongLong (2 ^ 63 - 1), .ArrayEnd, .JsonEnd])
      ∧ (∃ m1, parseEvents (91 :: digitsOver ++ [93]) .Single = some (.false, m1)
          ∧ m1.error = .withOffset .NumberRangeMsg 20
          ∧ m1.error.render = "Number out of range, offset: 20"
          ∧ m1.self = [.JsonBegin, .ArrayBegin]) :=
  ⟨⟨_, ((C10_integer_literal .Single (91 :: digitsMax ++ [93]) 1
        { buffer := { pos := 0, cur := 91, ahead := digitsMax ++ [93] }, depth := [.Array], self := [.JsonBegin, .ArrayBegin], stop := false, error := .empty }
        [] [] false digitsMax 93 .Array [] (by decide) (by decide) rfl (Or.inr (Or.inr rfl)) rfl
        (by decide) (by decide) (by decide) (by decide)
        (Or.inr (Or.inr (Or.inr ⟨rfl, by decide⟩)))).1 (by decide)).trans rfl, by decide⟩,
   (C10_integer_literal .Single (91 :: digitsOver ++ [93]) 1
        { buffer := { pos := 0, cur := 91, ahead := digitsOver ++ [93] }, depth := [.Array], self := [.JsonBegin, .ArrayBegin], stop := false, error := .empty }
        [] [] false digitsOver 93 .Array [] (by decide) (by decide) rfl (Or.inr (Or.inr rfl)) rfl
        (by decide) (by decide) (by decide) (by decide)
        (Or.inr (Or.inr (Or.inr ⟨rfl, by decide⟩)))).2 (by decide)⟩

/-- C10 as stated fails at `[1}`: the literal `1` stands at a value position
(behind `[`), is followed by `}`, and denotes a number in range, but parse
returns false with "Invalid value separator or end of array symbol, offset: 2"
and the integer value hook is never called. -/
theorem C10_counterexample :
    passes recorder .Single 1 (startEvents [91, 49, 125])
        = some { buffer := { pos := 0, cur := 91, ahead := [49, 125] }, depth := [.Array], self := [.JsonBegin, .ArrayBegin], stop := false, error := .empty }
      ∧ literalText false [49] ++ [125] = [49, 125]
      ∧ literalValue false [49] = 1
      ∧ ∃ m1, parseEvents [91, 49, 125] .Single = some (.false, m1)
          ∧ m1.error = .withOffset .InvalidSeparatorArrayMsg 2
          ∧ m1.error.render = "Invalid value separator or end of array symbol, offset: 2"
          ∧ m1.self = [.JsonBegin, .ArrayBegin] :=
  ⟨by decide, rfl, by decide, _, rfl, rfl, by decide, rfl⟩




open JsonStringViewBufferReader

/-! ## Strings: written, then read -/

/-- Bytes that are no control bytes go to an open sink one by one. -/
theorem writeChars_open (l : List Nat) :
    ∀ (w : JsonSAXWriter) (b : JsonBufferWriter), w.buffer = some b → b.is_open = true →
      (∀ c ∈ l, isControlCode c = false) →
      JsonSAXWriter.writeChars l w
        = (.true, { w with buffer := some { b with count := b.count + l.length, json := b.json ++ l } }) := by
  induction l with
  | nil =>
      intro w b hw _ _
      simp only [JsonSAXWriter.writeChars, JsonSAXWriter.skip, List.length_nil, Nat.add_zero,
        List.append_nil]
      rw [← hw]
  | cons c l ih =>
      intro w b hw ho hl
      have hc : isControlCode c = false := hl c (List.mem_cons_self _ _)
      have h1 : JsonSAXWriter.writeChar c w
          = (.true, { w with buffer := some { b with count := b.count + 1, json := b.json ++ [c] } }) := by
        simp only [JsonSAXWriter.writeChar, hc, Bool.false_eq_true, if_false, hw,
          JsonBufferWriter.write, ho, Bool.not_true]
      rw [JsonSAXWriter.writeChars, JsonSAXWriter.seq, h1]
      simp only []
      rw [ih _ { b with count := b.count + 1, json := b.json ++ [c] } rfl ho
        (fun x hx => hl x (List.mem_cons_of_mem _ hx))]
      simp only [List.length_cons, List.append_assoc, List.singleton_append, Nat.add_assoc,
        Nat.add_comm 1]

/-- The bytes a string may hold for the writer to accept it. -/
theorem escape_cases (c : Nat) (hc : ¬ (c ≤ 7 ∨ (14 ≤ c ∧ c ≤ 31) ∨ c = 127)) :
    (JsonSAXWriter.escape c = [c] ∧ isControlCode c = false ∧ c ≠ 34 ∧ c ≠ 92)
      ∨ (∃ x, JsonSAXWriter.escape c = [92, x] ∧ isControlCode x = false ∧ unescape x = some [c]) := by
  unfold JsonSAXWriter.escape
  by_cases h1 : c = 34
  · subst h1; right; exact ⟨34, by decide, by decide, by decide⟩
  by_cases h2 : c = 92
  · subst h2; right; exact ⟨92, by decide, by decide, by decide⟩
  by_cases h3 : c = 47
  · subst h3; right; exact ⟨47, by decide, by decide, by decide⟩
  by_cases h4 : c = 8
  · subst h4; right; exact ⟨98, by decide, by decide, by decide⟩
  by_cases h5 : c = 12
  · subst h5; right; exact ⟨102, by decide, by decide, by decide⟩
  by_cases h6 : c = 10
  · subst h6; right; exact ⟨110, by decide, by decide, by decide⟩
  by_cases h7 : c = 13
  · subst h7; right; exact ⟨114, by decide, by decide, by decide⟩
  by_cases h8 : c = 9
  · subst h8; right; exact ⟨116, by decide, by decide, by decide⟩
  left
  refine ⟨?_, ?_, h1, h2⟩
  · simp [h1, h2, h3, h4, h5, h6, h7, h8]
  · simp [isControlCode]; omega

theorem escape_writable (s : List Nat)
    (hs : ∀ c ∈ s, ¬ (c ≤ 7 ∨ (14 ≤ c ∧ c ≤ 31) ∨ c = 127)) :
    ∀ x ∈ s.flatMap JsonSAXWriter.escape, isControlCode x = false := by
  intro x hx
  rw [List.mem_flatMap] at hx
  obtain ⟨c, hc, hxc⟩ := hx
  rcases escape_cases c (hs c hc) with ⟨h1, h2, -, -⟩ | ⟨y, h1, h2, -⟩
  · rw [h1] at hxc; simp at hxc; rw [hxc]; exact h2
  · rw [h1] at hxc
    simp at hxc
    rcases hxc with rfl | rfl
    · decide
    · exact h2

theorem seq_skip (a : JsonSAXWriter.Action) (w : JsonSAXWriter) :
    JsonSAXWriter.seq a JsonSAXWriter.skip w = a w := by
  simp only [JsonSAXWriter.seq, JsonSAXWriter.skip]
  cases hh : a w with
  | mk r w1 => cases r <;> rfl

theorem writeChars_append (l1 : List Nat) :
    ∀ (l2 : List Nat) (w : JsonSAXWriter),
      JsonSAXWriter.writeChars (l1 ++ l2) w
        = JsonSAXWriter.seq (JsonSAXWriter.writeChars l1) (JsonSAXWriter.writeChars l2) w := by
  induction l1 with
  | nil => intro l2 w; rfl
  | cons c l1 ih =>
      intro l2 w
      simp only [List.cons_append, JsonSAXWriter.writeChars, JsonSAXWriter.seq]
      cases hh : JsonSAXWriter.writeChar c w with
      | mk r w1 =>
          cases r with
          | «true» => exact ih l2 w1
          | «false» => rfl
          | undefined => rfl

/-- The loop of `writeString` writes the escaped form of each byte. -/
theorem writeStringBody_eq (s : List Nat) :
    ∀ w, JsonSAXWriter.writeStringBody s w
      = JsonSAXWriter.writeChars (s.flatMap JsonSAXWriter.escape) w := by
  induction s with
  | nil => intro w; rfl
  | cons c s ih =>
      intro w
      rw [List.flatMap_cons, writeChars_append, JsonSAXWriter.writeStringBody]
      simp only [JsonSAXWriter.seq]
      cases hh : JsonSAXWriter.writeChars (JsonSAXWriter.escape c) w with
      | mk r w1 =>
          cases r with
          | «true» => exact ih w1
          | «false» => rfl
          | undefined => rfl

/-- `writeString` passes a quote, the escaped bytes and a quote to `writeChar`. -/
theorem writeString_eq (s : List Nat) (w : JsonSAXWriter) :
    JsonSAXWriter.writeString s w
      = JsonSAXWriter.writeChars (34 :: (s.flatMap JsonSAXWriter.escape ++ [34])) w := by
  simp only [JsonSAXWriter.writeString, JsonSAXWriter.writeChars, JsonSAXWriter.seq]
  cases hh : JsonSAXWriter.writeChar 34 w with
  | mk r w1 =>
      cases r with
      | «true» =>
          simp only []
          rw [writeChars_append, writeStringBody_eq]
          simp only [JsonSAXWriter.seq, JsonSAXWriter.writeChars]
          cases h2 : JsonSAXWriter.writeChars (s.flatMap JsonSAXWriter.escape) w1 with
          | mk r2 w2 =>
              cases r2 with
              | «true» =>
                  simp only []
                  cases h3 : JsonSAXWriter.writeChar 34 w2 with
                  | mk r3 w3 => cases r3 <;> rfl
              | «false» => rfl
              | undefined => rfl
      | «false» => rfl
      | undefined => rfl

/-- The string lexer reads the escaped form of a byte back as that byte. -/
theorem readyStringLoop_escape (c : Nat) (hc : ¬ (c ≤ 7 ∨ (14 ≤ c ∧ c ≤ 31) ∨ c = 127))
    (temp : List Nat) (pos : Int) (rest : List Nat) :
    readyStringLoop false temp pos (JsonSAXWriter.escape c ++ rest)
      = readyStringLoop false (temp ++ [c]) (pos + (JsonSAXWriter.escape c).length) rest := by
  rcases escape_cases c hc with ⟨h1, h2, h3, h4⟩ | ⟨x, h1, h2, h3⟩
  · rw [h1]
    have hstep : stringStep false c = .push [c] := by
      simp [stringStep, h2, h3, h4]
    simp only [List.singleton_append, readyStringLoop, hstep, List.length_singleton,
      Nat.cast_one]
    rfl
  · rw [h1]
    have hs1 : stringStep false 92 = .special := by decide
    have hs2 : stringStep true x = .push [c] := by
      simp [stringStep, h2, h3]
    simp only [List.cons_append, List.nil_append, readyStringLoop, hs1, hs2, List.length_cons,
      List.length_nil]
    congr 1
    push_cast
    ring

theorem readyStringLoop_escaped (s : List Nat) :
    ∀ (temp : List Nat) (pos : Int) (rest : List Nat),
      (∀ c ∈ s, ¬ (c ≤ 7 ∨ (14 ≤ c ∧ c ≤ 31) ∨ c = 127)) →
      readyStringLoop false temp pos (s.flatMap JsonSAXWriter.escape ++ 34 :: rest)
        = .ok (temp ++ s) { pos := pos + (s.flatMap JsonSAXWriter.escape).length + 1, cur := 34, ahead := rest } := by
  induction s with
  | nil =>
      intro temp pos rest _
      have hs1 : stringStep false 34 = .exit := by decide
      simp [readyStringLoop, hs1]
  | cons c s ih =>
      intro temp pos rest hs
      rw [List.flatMap_cons, List.append_assoc,
        readyStringLoop_escape c (hs c (List.mem_cons_self _ _)),
        ih _ _ _ (fun x hx => hs x (List.mem_cons_of_mem _ hx))]
      simp only [List.append_assoc, List.singleton_append, List.length_append, Nat.cast_add]
      congr 2
      ring

/-- `writeString` on an open sink, for a string the writer accepts. -/
theorem writeString_open (s : List Nat) (w : JsonSAXWriter) (b : JsonBufferWriter)
    (hw : w.buffer = some b) (ho : b.is_open = true)
    (hs : ∀ c ∈ s, ¬ (c ≤ 7 ∨ (14 ≤ c ∧ c ≤ 31) ∨ c = 127)) :
    JsonSAXWriter.writeString s w
        = (.true, { w with buffer := some { b with count := b.count + ((s.flatMap JsonSAXWriter.escape).length + 2), json := b.json ++ 34 :: (s.flatMap JsonSAXWriter.escape ++ [34]) } }) := by
  have hall : ∀ x ∈ 34 :: (s.flatMap JsonSAXWriter.escape ++ [34]), isControlCode x = false := by
    intro x hx
    simp only [List.mem_cons, List.mem_append, List.mem_singleton, List.not_mem_nil,
      or_false] at hx
    rcases hx with rfl | hx | rfl
    · decide
    · exact escape_writable s hs x hx
    · decide
  rw [writeString_eq, writeChars_open _ w b hw ho hall]
  simp only [List.length_cons, List.length_append, List.length_singleton, List.length_nil]

/-- The string lexer on the escaped form of a string and the closing quote. -/
theorem readyString_escaped (s : List Nat)
    (hs : ∀ c ∈ s, ¬ (c ≤ 7 ∨ (14 ≤ c ∧ c ≤ 31) ∨ c = 127)) (pos : Int) (cur : Nat)
    (rest : List Nat) :
    readyString [] { pos := pos, cur := cur, ahead := s.flatMap JsonSAXWriter.escape ++ 34 :: rest }
      = .ok s { pos := pos + (s.flatMap JsonSAXWriter.escape).length + 1, cur := 34, ahead := rest } := by
  rw [readyString]
  simp only []
  rw [readyStringLoop_escaped s [] pos rest hs]
  simp

/-- C2 (string escaping round trip): for a byte string `s` without a byte in
`0x00..0x07, 0x0E..0x1F, 0x7F`, `writeString(s)` on a writer with an open sink
returns true, having written a quote, the escaped form of the bytes of `s`, and
a quote; and the string lexer, started behind the opening quote of that text,
returns exactly `s` and stops on the closing quote, whatever follows it. -/
theorem C2_string_round_trip (s : List Nat) (w : JsonSAXWriter) (b : JsonBufferWriter)
    (hw : w.buffer = some b) (ho : b.is_open = true)
    (hs : ∀ c ∈ s, ¬ (c ≤ 7 ∨ (14 ≤ c ∧ c ≤ 31) ∨ c = 127)) :
    JsonSAXWriter.writeString s w
        = (.true, { w with buffer := some { b with count := b.count + ((s.flatMap JsonSAXWriter.escape).length + 2), json := b.json ++ 34 :: (s.flatMap JsonSAXWriter.escape ++ [34]) } })
      ∧ ∀ (pos : Int) (rest : List Nat),
          readyString [] { pos := pos, cur := 34, ahead := s.flatMap JsonSAXWriter.escape ++ 34 :: rest }
            = .ok s { pos := pos + (s.flatMap JsonSAXWriter.escape).length + 1, cur := 34, ahead := rest } :=
  ⟨writeString_open s w b hw ho hs, fun pos rest => readyString_escaped s hs pos 34 rest⟩

/-- C2, witness: the four bytes newline, tab, quote, backslash are written as
`"\\n\\t\\"\\\\"` and read back from that text as the same four bytes, the lexer
stopping on the closing quote. -/
theorem C2_string_round_trip_witness :
    JsonSAXWriter.writeString [10, 9, 34, 92] (JsonSAXWriter.new.setBuffer (some JsonStringBufferWriter) false)
        = (.true, { beautiful := false, _error := .empty, buffer := some { is_open := true, count := 10, json := [34, 92, 110, 92, 116, 92, 34, 92, 92, 34] }, stack := [] })
      ∧ readyString [] { pos := 0, cur := 34, ahead := [92, 110, 92, 116, 92, 34, 92, 92, 34] }
          = .ok [10, 9, 34, 92] { pos := 9, cur := 34, ahead := [] } :=
  ⟨(C2_string_round_trip [10, 9, 34, 92] (JsonSAXWriter.new.setBuffer (some JsonStringBufferWriter) false)
      JsonStringBufferWriter rfl rfl (by decide)).1,
   (C2_string_round_trip [10, 9, 34, 92] (JsonSAXWriter.new.setBuffer (some JsonStringBufferWriter) false)
      JsonStringBufferWriter rfl rfl (by decide)).2 0 []⟩




open JsonStringViewBufferReader

/-! ## The text of an integer -/

/-- The digits that `decimalDigits` puts in front of `acc`. -/
theorem decimalDigits_spec (fuel : Nat) :
    ∀ (n : Nat) (acc : List Nat), n < 10 ^ fuel → 1 ≤ fuel →
      ∃ ds, decimalDigits fuel n acc = ds ++ acc ∧ ds ≠ []
        ∧ (∀ d ∈ ds, isdigit d = true) ∧ digitsValue 0 ds = n
        ∧ (∀ k, 1 ≤ k → n < 10 ^ k → ds.length ≤ k)
        ∧ (ds.head? = some 48 → ds = [48]) := by
  induction fuel with
  | zero => intro n acc _ h; omega
  | succ fuel ih =>
      intro n acc hn _
      by_cases h10 : n < 10
      · refine ⟨[48 + n], ?_, by simp, ?_, ?_, ?_, ?_⟩
        · simp [decimalDigits, h10]
        · intro d hd
          simp only [List.mem_singleton] at hd
          rw [hd, isdigit_iff]; omega
        · simp [digitsValue]
        · intro k hk _; simpa using hk
        · intro h0
          simp only [List.head?_cons, Option.some.injEq] at h0
          rw [h0]
      · have hf : 1 ≤ fuel := by
          rcases Nat.eq_zero_or_pos fuel with h0 | h0
          · subst h0; simp at hn; omega
          · exact h0
        have hdiv : n / 10 < 10 ^ fuel := by
          rw [Nat.div_lt_iff_lt_mul (by decide)]
          rw [pow_succ] at hn
          exact hn
        obtain ⟨ds, h1, h2, h3, h4, h5, h6⟩ := ih (n / 10) ((48 + n % 10) :: acc) hdiv hf
        refine ⟨ds ++ [48 + n % 10], ?_, by simp, ?_, ?_, ?_, ?_⟩
        · simp only [decimalDigits, h10, if_false, h1, List.append_assoc, List.singleton_append]
        · intro d hd
          simp only [List.mem_append, List.mem_singleton] at hd
          rcases hd with hd | hd
          · exact h3 d hd
          · rw [hd, isdigit_iff]; omega
        · rw [digitsValue_append, h4]
          simp only [digitsValue, List.foldl_cons, List.foldl_nil]
          omega
        · intro k hk hnk
          have hk2 : 2 ≤ k := by
            rcases Nat.lt_or_ge k 2 with hlt | hge
            · have : k = 1 := by omega
              subst this
              simp at hnk
              omega
            · exact hge
          have : n / 10 < 10 ^ (k - 1) := by
            rw [Nat.div_lt_iff_lt_mul (by decide), ← pow_succ]
            rw [show k - 1 + 1 = k by omega]
            exact hnk
          have := h5 (k - 1) (by omega) this
          simp only [List.length_append, List.length_singleton]
          omega
        · intro h0
          exfalso
          obtain ⟨d, ds1, rfl⟩ := List.exists_cons_of_ne_nil h2
          simp only [List.cons_append, List.head?_cons, Option.some.injEq] at h0
          have := h6 (by simp [h0])
          rw [this] at h4
          simp [digitsValue] at h4
          omega

/-- The text of a natural number: its decimal digits. -/
theorem natText_spec (n : Nat) :
    natText n ≠ [] ∧ (∀ d ∈ natText n, isdigit d = true) ∧ digitsValue 0 (natText n) = n
      ∧ (∀ k, 1 ≤ k → n < 10 ^ k → (natText n).length ≤ k)
      ∧ (∀ rest, natText n = 48 :: rest → n = 0 ∧ rest = []) := by
  have hn : n < 10 ^ (n + 1) := by
    calc n < n + 1 := Nat.lt_succ_self n
      _ < 10 ^ (n + 1) := Nat.lt_pow_self (by decide) _
  obtain ⟨ds, h1, h2, h3, h4, h5, h6⟩ := decimalDigits_spec (n + 1) n [] hn (by omega)
  rw [List.append_nil] at h1
  rw [natText, h1]
  refine ⟨h2, h3, h4, h5, ?_⟩
  intro rest hr
  have := h6 (by rw [hr]; rfl)
  rw [this] at h4 hr
  simp only [List.cons.injEq, true_and] at hr
  simp [digitsValue] at h4
  exact ⟨h4.symm, hr.symm⟩

/-- The text of a `long long` is a literal of at most 19 digits that denotes it. -/
theorem intText_spec (n : Int) (hlo : -(2 : Int) ^ 63 ≤ n) (hhi : n ≤ 2 ^ 63 - 1) :
    ∃ ds, intText n = literalText (decide (n < 0)) ds ∧ 1 ≤ ds.length ∧ ds.length ≤ 19
      ∧ (∀ d ∈ ds, isdigit d = true) ∧ literalValue (decide (n < 0)) ds = n
      ∧ (∀ rest, ds = 48 :: rest → n = 0 ∧ rest = []) := by
  by_cases hneg : n < 0
  · obtain ⟨h1, h2, h3, h4, h5⟩ := natText_spec n.natAbs
    refine ⟨natText n.natAbs, ?_, ?_, ?_, h2, ?_, ?_⟩
    · simp [intText, hneg, literalText]
    · exact Nat.one_le_iff_ne_zero.mpr (fun h0 => h1 (List.length_eq_zero.mp h0))
    · apply h4 19 (by decide)
      have : (n.natAbs : Int) ≤ 2 ^ 63 := by omega
      have : n.natAbs ≤ 2 ^ 63 := by exact_mod_cast this
      omega
    · simp only [literalValue, hneg, decide_True, if_true, ← digitsValue_eq_ofDigits, h3]
      omega
    · intro rest hr
      have := (h5 rest hr).1
      omega
  · obtain ⟨h1, h2, h3, h4, h5⟩ := natText_spec n.toNat
    refine ⟨natText n.toNat, ?_, ?_, ?_, h2, ?_, ?_⟩
    · simp [intText, hneg, literalText]
    · exact Nat.one_le_iff_ne_zero.mpr (fun h0 => h1 (List.length_eq_zero.mp h0))
    · apply h4 19 (by decide)
      have : (n.toNat : Int) ≤ 2 ^ 63 := by omega
      have : n.toNat ≤ 2 ^ 63 := by exact_mod_cast this
      omega
    · simp only [literalValue, hneg, decide_False, Bool.false_eq_true, if_false,
        ← digitsValue_eq_ofDigits, h3]
      omega
    · intro rest hr
      have := h5 rest hr
      exact ⟨by omega, this.2⟩




open JsonStringViewBufferReader

/-! ## Integers: written, then read -/

theorem literalText_writable (neg : Bool) (ds : List Nat) (hds : ∀ d ∈ ds, isdigit d = true) :
    ∀ c ∈ literalText neg ds, isControlCode c = false := by
  intro c hc
  cases neg with
  | true =>
      simp only [literalText, if_true, List.singleton_append, List.mem_cons] at hc
      rcases hc with rfl | hc
      · decide
      · exact isdigit_not_control c (hds c hc)
  | false =>
      simp only [literalText, Bool.false_eq_true, if_false, List.nil_append] at hc
      exact isdigit_not_control c (hds c hc)

theorem literalText_length (neg : Bool) (ds : List Nat) :
    (literalText neg ds).length ≤ ds.length + 1 := by
  cases neg <;> simp [literalText]

/-- `Value(long long)` behind `[` or behind a key, compact output: the text of
the number goes to the sink. -/
theorem ValueLongLong_open (n : Int) (hlo : -(2 : Int) ^ 63 ≤ n) (hhi : n ≤ 2 ^ 63 - 1)
    (w : JsonSAXWriter) (b : JsonBufferWriter) (c : Condition) (below : List Condition)
    (hw : w.buffer = some b) (ho : b.is_open = true) (hb : w.beautiful = false)
    (hs : w.stack = c :: below) (hc : c = .Array ∨ c = .ObjectKey) :
    JsonSAXWriter.ValueLongLong n w
      = (.true, { w with buffer := some { b with count := b.count + (intText n).length, json := b.json ++ intText n }, stack := (if c = .Array then .ArrayNextValue else .ObjectNextPair) :: below }) := by
  obtain ⟨ds, h1, h2, h3, h4, -, -⟩ := intText_spec n hlo hhi
  have hlen : (intText n).length ≤ 20 := by
    rw [h1]
    have := literalText_length (decide (n < 0)) ds
    omega
  have hall : ∀ x ∈ intText n, isControlCode x = false := by
    rw [h1]; exact literalText_writable _ ds h4
  obtain ⟨beautiful, error, buffer, stack⟩ := w
  simp only at hw hb hs
  subst hw hb hs
  rcases hc with rfl | rfl
  · simp only [JsonSAXWriter.ValueLongLong, JsonSAXWriter.seq, JsonSAXWriter.checkBuffer,
      JsonSAXWriter.checkCorrectValue, JsonSAXWriter.advance, JsonSAXWriter.skip,
      to_chars_longlong, hlen, if_true, Bool.false_eq_true, if_false]
    rw [writeChars_open _ _ b rfl ho hall]
  · simp only [JsonSAXWriter.ValueLongLong, JsonSAXWriter.seq, JsonSAXWriter.checkBuffer,
      JsonSAXWriter.checkCorrectValue, JsonSAXWriter.advance, JsonSAXWriter.skip,
      to_chars_longlong, hlen, if_true, Bool.false_eq_true, if_false]
    rw [writeChars_open _ _ b rfl ho hall]
    simp

theorem writeChar_open (c : Nat) (hc : isControlCode c = false) (w : JsonSAXWriter)
    (b : JsonBufferWriter) (hw : w.buffer = some b) (ho : b.is_open = true) :
    JsonSAXWriter.writeChar c w
      = (.true, { w with buffer := some { b with count := b.count + 1, json := b.json ++ [c] } }) := by
  simp only [JsonSAXWriter.writeChar, hc, Bool.false_eq_true, if_false, hw,
    JsonBufferWriter.write, ho, Bool.not_true]

/-- The end of a run of the recording reader after the last closing bracket. -/
theorem finish_events (operation : Operation) (m : Machine (List Event))
    (hd : m.depth = []) (ha : m.buffer.ahead = []) (hstop : m.stop = false) :
    ∃ m1, (match documentEnd recorder operation m with
        | .continue m1 => parseFrom recorder operation m1
        | .break m1 => some (parseEnd m1)
        | .return r m1 => some (r, m1)) = some (.true, m1)
      ∧ m1.self = m.self ++ [.JsonEnd] := by
  obtain ⟨buffer, depth, self, stop, error, errno⟩ := m
  simp only at hd ha hstop
  subst hd hstop
  cases operation with
  | Single =>
      refine ⟨{ buffer := buffer, depth := [], self := self ++ [.JsonEnd], stop := false, error := error, errno := errno }, ?_, ?_⟩
      · simp only [documentEnd, List.isEmpty_nil, if_true, call_recorder, beq_self_eq_true]
        rfl
      · rfl
  | Multiple =>
      refine ⟨{ buffer := { pos := buffer.pos + 1, cur := 0, ahead := [] }, depth := [], self := self ++ [.JsonEnd], stop := false, error := error, errno := errno }, ?_, ?_⟩
      · simp only [documentEnd, List.isEmpty_nil, if_true, call_recorder]
        have h1 : (Operation.Multiple == Operation.Single) = false := by decide
        simp only [h1, Bool.false_eq_true, if_false]
        rw [parseFrom_nil _ _ _ ha]
        rfl
      · rfl

/-- The array `[n]` with the literal `n` is read as one integer value. -/
theorem parse_array_literal (operation : Operation) (neg : Bool) (ds : List Nat)
    (hne : 1 ≤ ds.length) (hlen : ds.length ≤ 19) (hds : ∀ d ∈ ds, isdigit d = true)
    (hr : -(2 : Int) ^ 63 ≤ literalValue neg ds ∧ literalValue neg ds ≤ 2 ^ 63 - 1) :
    ∃ m, parseEvents (91 :: (literalText neg ds ++ [93])) operation = some (.true, m)
      ∧ m.self = [.JsonBegin, .ArrayBegin, .ValueLongLong (literalValue neg ds), .ArrayEnd, .JsonEnd] := by
  have hreach : passes recorder operation 1 (startEvents (91 :: (literalText neg ds ++ [93])))
      = some { buffer := { pos := 0, cur := 91, ahead := literalText neg ds ++ [93] }, depth := [.Array], self := [.JsonBegin, .ArrayBegin], stop := false, error := .empty } := by
    rw [passes_succ_of_continue recorder operation 0 _ { buffer := { pos := 0, cur := 91, ahead := literalText neg ds ++ [93] }, depth := [.Array], self := [.JsonBegin, .ArrayBegin], stop := false, error := .empty } 91 (literalText neg ds ++ [93]) rfl]
    · rfl
    · have h1 : isspace 91 = false := by decide
      have h2 : isControlCode 91 = false := by decide
      simp only [parseBody, JsonStringViewBufferReader.value, h1, h2, Bool.false_eq_true,
        if_false, startEvents, JsonSAXReader.start, freshRecorder, ofString]
      rfl
  have hmain := (integer_literal_pass operation _ 1 _ [] [] neg ds 93 .Array [] hreach rfl
    (Or.inr (Or.inr rfl)) (by simp) (by simp) hne hlen hds
    (Or.inr (Or.inr (Or.inr ⟨rfl, by decide⟩)))).1 hr
  rw [hmain]
  obtain ⟨m1, h1, h2⟩ := finish_events operation { buffer := { pos := (((91 :: (literalText neg ds ++ [93])).length - ([] : List Nat).length - 1 : Nat) : Int), cur := 93, ahead := [] }, depth := [], self := [.JsonBegin, .ArrayBegin, .ValueLongLong (literalValue neg ds), .ArrayEnd], stop := false, error := .empty } rfl rfl rfl
  exact ⟨m1, h1, h2⟩

/-- The object `{"key":n}` with the literal `n` is read as one key with one
integer value. -/
theorem parse_object_literal (operation : Operation) (key : List Nat) (neg : Bool)
    (ds : List Nat)
    (hkey : ∀ c ∈ key, ¬ (c ≤ 7 ∨ (14 ≤ c ∧ c ≤ 31) ∨ c = 127))
    (hne : 1 ≤ ds.length) (hlen : ds.length ≤ 19) (hds : ∀ d ∈ ds, isdigit d = true)
    (hr : -(2 : Int) ^ 63 ≤ literalValue neg ds ∧ literalValue neg ds ≤ 2 ^ 63 - 1) :
    ∃ m, parseEvents (123 :: 34 :: (key.flatMap JsonSAXWriter.escape ++ 34 :: 58 :: (literalText neg ds ++ [125]))) operation = some (.true, m)
      ∧ m.self = [.JsonBegin, .ObjectBegin, .ObjectKey key, .ValueLongLong (literalValue neg ds), .ObjectEnd, .JsonEnd] := by
  have hreach : passes recorder operation 3 (startEvents (123 :: 34 :: (key.flatMap JsonSAXWriter.escape ++ 34 :: 58 :: (literalText neg ds ++ [125]))))
      = some { buffer := { pos := 1 + (key.flatMap JsonSAXWriter.escape).length + 1 + 1, cur := 58, ahead := literalText neg ds ++ [125] }, depth := [.ObjectValue], self := [.JsonBegin, .ObjectBegin, .ObjectKey key], stop := false, error := .empty } := by
    rw [passes_succ_of_continue recorder operation 2 _ { buffer := { pos := 0, cur := 123, ahead := 34 :: (key.flatMap JsonSAXWriter.escape ++ 34 :: 58 :: (literalText neg ds ++ [125])) }, depth := [.Object], self := [.JsonBegin, .ObjectBegin], stop := false, error := .empty } 123 _ rfl]
    · rw [passes_succ_of_continue recorder operation 1 _ { buffer := { pos := 1 + (key.flatMap JsonSAXWriter.escape).length + 1, cur := 34, ahead := 58 :: (literalText neg ds ++ [125]) }, depth := [.ObjectKey], self := [.JsonBegin, .ObjectBegin, .ObjectKey key], stop := false, error := .empty } 34 _ rfl]
      · rw [passes_succ_of_continue recorder operation 0 _ { buffer := { pos := 1 + (key.flatMap JsonSAXWriter.escape).length + 1 + 1, cur := 58, ahead := literalText neg ds ++ [125] }, depth := [.ObjectValue], self := [.JsonBegin, .ObjectBegin, .ObjectKey key], stop := false, error := .empty } 58 _ rfl]
        · rfl
        · have h1 : isspace 58 = false := by decide
          have h2 : isControlCode 58 = false := by decide
          simp only [parseBody, JsonStringViewBufferReader.value, h1, h2, Bool.false_eq_true,
            if_false]
          rfl
      · have h1 : isspace 34 = false := by decide
        have h2 : isControlCode 34 = false := by decide
        simp only [parseBody, JsonStringViewBufferReader.value, h1, h2, Bool.false_eq_true,
          if_false, beq_self_eq_true, if_true, keyThenTop, readyObjectKey]
        rw [readyString_escaped key hkey]
        simp only [call_recorder, andThen, documentEnd, setTop]
        rfl
    · have h1 : isspace 123 = false := by decide
      have h2 : isControlCode 123 = false := by decide
      simp only [parseBody, JsonStringViewBufferReader.value, h1, h2, Bool.false_eq_true,
        if_false, startEvents, JsonSAXReader.start, freshRecorder, ofString]
      rfl
  have hmain := (integer_literal_pass operation _ 3 _ [] [] neg ds 125 .ObjectValue [] hreach rfl
    (Or.inl rfl) (by simp) (by simp) hne hlen hds
    (Or.inr (Or.inr (Or.inl ⟨rfl, rfl⟩)))).1 hr
  rw [hmain]
  obtain ⟨m1, h1, h2⟩ := finish_events operation { buffer := { pos := (((123 :: 34 :: (key.flatMap JsonSAXWriter.escape ++ 34 :: 58 :: (literalText neg ds ++ [125]))).length - ([] : List Nat).length - 1 : Nat) : Int), cur := 125, ahead := [] }, depth := [], self := [.JsonBegin, .ObjectBegin, .ObjectKey key, .ValueLongLong (literalValue neg ds), .ObjectEnd], stop := false, error := .empty } rfl rfl rfl
  exact ⟨m1, h1, h2⟩

/-- C3 (integer round trip, compact output): for every `n` in
`[-2^63, 2^63-1]`, the text `intText n` that `Value(long long)` writes is the
plain decimal text of `n` (an optional `-`, then 1 to 19 digits without a
leading zero, denoting `n`); the calls `ArrayBegin, Value(n), ArrayEnd` on a
writer with a string sink write `[`, that text and `]`, and parse of this output
returns true having called the integer value hook with `n` (and no other value
hook); likewise the calls `ObjectBegin, ObjectKey(key), Value(n), ObjectEnd`
write the object with the one member `key` and parse of the output returns true
with the integer value `n` behind the key. -/
theorem C3_integer_round_trip (n : Int) (key : List Nat) (operation : Operation)
    (hlo : -(2 : Int) ^ 63 ≤ n) (hhi : n ≤ 2 ^ 63 - 1)
    (hkey : ∀ c ∈ key, ¬ (c ≤ 7 ∨ (14 ≤ c ∧ c ≤ 31) ∨ c = 127)) :
    (∃ ds, intText n = literalText (decide (n < 0)) ds ∧ 1 ≤ ds.length ∧ ds.length ≤ 19
        ∧ (∀ d ∈ ds, isdigit d = true) ∧ literalValue (decide (n < 0)) ds = n
        ∧ (∀ rest, ds = 48 :: rest → n = 0 ∧ rest = []))
      ∧ JsonSAXWriter.seq JsonSAXWriter.ArrayBegin (JsonSAXWriter.seq (JsonSAXWriter.ValueLongLong n) JsonSAXWriter.ArrayEnd) (JsonSAXWriter.new.setBuffer (some JsonStringBufferWriter) false)
          = (.true, { beautiful := false, _error := .empty, buffer := some { is_open := true, count := (intText n).length + 2, json := 91 :: (intText n ++ [93]) }, stack := [] })
      ∧ (∃ m, parseEvents (91 :: (intText n ++ [93])) operation = some (.true, m)
          ∧ m.self = [.JsonBegin, .ArrayBegin, .ValueLongLong n, .ArrayEnd, .JsonEnd])
      ∧ JsonSAXWriter.seq JsonSAXWriter.ObjectBegin (JsonSAXWriter.seq (JsonSAXWriter.ObjectKey key) (JsonSAXWriter.seq (JsonSAXWriter.ValueLongLong n) JsonSAXWriter.ObjectEnd)) (JsonSAXWriter.new.setBuffer (some JsonStringBufferWriter) false)
          = (.true, { beautiful := false, _error := .empty, buffer := some { is_open := true, count := (key.flatMap JsonSAXWriter.escape).length + (intText n).length + 5, json := 123 :: 34 :: (key.flatMap JsonSAXWriter.escape ++ 34 :: 58 :: (intText n ++ [125])) }, stack := [] })
      ∧ (∃ m, parseEvents (123 :: 34 :: (key.flatMap JsonSAXWriter.escape ++ 34 :: 58 :: (intText n ++ [125]))) operation = some (.true, m)
          ∧ m.self = [.JsonBegin, .ObjectBegin, .ObjectKey key, .ValueLongLong n, .ObjectEnd, .JsonEnd]) := by
  obtain ⟨ds, h1, h2, h3, h4, h5, h6⟩ := intText_spec n hlo hhi
  have hr : -(2 : Int) ^ 63 ≤ literalValue (decide (n < 0)) ds
      ∧ literalValue (decide (n < 0)) ds ≤ 2 ^ 63 - 1 := by
    rw [h5]; exact ⟨hlo, hhi⟩
  refine ⟨⟨ds, h1, h2, h3, h4, h5, h6⟩, ?_, ?_, ?_, ?_⟩
  · have hA : JsonSAXWriter.ArrayBegin (JsonSAXWriter.new.setBuffer (some JsonStringBufferWriter) false)
        = (.true, { beautiful := false, _error := .empty, buffer := some { is_open := true, count := 1, json := [91] }, stack := [.Array] }) := by
      decide
    rw [JsonSAXWriter.seq, hA]
    simp only []
    rw [JsonSAXWriter.seq, ValueLongLong_open n hlo hhi _ { is_open := true, count := 1, json := [91] } .Array [] rfl rfl rfl rfl (Or.inl rfl)]
    simp only [if_true, JsonSAXWriter.ArrayEnd, JsonSAXWriter.seq, JsonSAXWriter.checkBuffer,
      List.isEmpty_cons, Bool.false_eq_true, if_false, JsonSAXWriter.pop, List.tail_cons]
    rw [writeChar_open 93 (by decide) _ { is_open := true, count := 1 + (intText n).length, json := [91] ++ intText n } rfl rfl]
    simp only [List.singleton_append, List.cons_append, List.append_assoc, Prod.mk.injEq,
      true_and, JsonSAXWriter.mk.injEq, Option.some.injEq, JsonBufferWriter.mk.injEq, and_true]
    exact ⟨by omega, rfl⟩
  · have := parse_array_literal operation (decide (n < 0)) ds h2 h3 h4 hr
    rw [← h1, h5] at this
    exact this
  · have hA : JsonSAXWriter.ObjectBegin (JsonSAXWriter.new.setBuffer (some JsonStringBufferWriter) false)
        = (.true, { beautiful := false, _error := .empty, buffer := some { is_open := true, count := 1, json := [123] }, stack := [.Object] }) := by
      decide
    rw [JsonSAXWriter.seq, hA]
    simp only []
    have hK : JsonSAXWriter.ObjectKey key { beautiful := false, _error := .empty, buffer := some { is_open := true, count := 1, json := [123] }, stack := [.Object] }
        = (.true, { beautiful := false, _error := .empty, buffer := some { is_open := true, count := 1 + ((key.flatMap JsonSAXWriter.escape).length + 2) + 1, json := [123] ++ 34 :: (key.flatMap JsonSAXWriter.escape ++ [34]) ++ [58] }, stack := [.ObjectKey] }) := by
      simp only [JsonSAXWriter.ObjectKey, JsonSAXWriter.seq, JsonSAXWriter.checkBuffer,
        JsonSAXWriter.checkIsObject, Bool.false_eq_true, if_false]
      rw [writeString_open key _ { is_open := true, count := 1, json := [123] } rfl rfl hkey]
      simp only []
      rw [writeChar_open 58 (by decide) _ { is_open := true, count := 1 + ((key.flatMap JsonSAXWriter.escape).length + 2), json := [123] ++ 34 :: (key.flatMap JsonSAXWriter.escape ++ [34]) } rfl rfl]
      rfl
    rw [JsonSAXWriter.seq, hK]
    simp only []
    rw [JsonSAXWriter.seq, ValueLongLong_open n hlo hhi _ { is_open := true, count := 1 + ((key.flatMap JsonSAXWriter.escape).length + 2) + 1, json := [123] ++ 34 :: (key.flatMap JsonSAXWriter.escape ++ [34]) ++ [58] } .ObjectKey [] rfl rfl rfl rfl (Or.inr rfl)]
    simp only [reduceCtorEq, if_false, JsonSAXWriter.ObjectEnd, JsonSAXWriter.seq,
      JsonSAXWriter.checkBuffer, JsonSAXWriter.newline, Bool.false_eq_true,
      JsonSAXWriter.checkIsObject, JsonSAXWriter.pop, List.tail_cons]
    rw [writeChar_open 125 (by decide) _ { is_open := true, count := 1 + ((key.flatMap JsonSAXWriter.escape).length + 2) + 1 + (intText n).length, json := [123] ++ 34 :: (key.flatMap JsonSAXWriter.escape ++ [34]) ++ [58] ++ intText n } rfl rfl]
    simp only [List.singleton_append, List.cons_append, List.append_assoc, Prod.mk.injEq,
      true_and, JsonSAXWriter.mk.injEq, Option.some.injEq, JsonBufferWriter.mk.injEq, and_true,
      List.nil_append]
    exact ⟨by omega, rfl⟩
  · have := parse_object_literal operation key (decide (n < 0)) ds hkey h2 h3 h4 hr
    rw [← h1, h5] at this
    exact this

/-- C3, witness: the smallest value `-9223372036854775808`, in an array and in
an object with the key `a`. -/
theorem C3_integer_round_trip_witness :
    (∃ m, parseEvents (91 :: (intText (-9223372036854775808) ++ [93])) .Single = some (.true, m)
        ∧ m.self = [.JsonBegin, .ArrayBegin, .ValueLongLong (-9223372036854775808), .ArrayEnd, .JsonEnd])
      ∧ intText (-9223372036854775808)
          = [45, 57, 50, 50, 51, 51, 55, 50, 48, 51, 54, 56, 53, 52, 55, 55, 53, 56, 48, 56]
      ∧ (∃ m, parseEvents (123 :: 34 :: ([97].flatMap JsonSAXWriter.escape ++ 34 :: 58 :: (intText (-9223372036854775808) ++ [125]))) .Single = some (.true, m)
          ∧ m.self = [.JsonBegin, .ObjectBegin, .ObjectKey [97], .ValueLongLong (-9223372036854775808), .ObjectEnd, .JsonEnd]) :=
  ⟨(C3_integer_round_trip (-9223372036854775808) [97] .Single (by decide) (by decide)
      (by decide)).2.2.1,
    by decide,
    (C3_integer_round_trip (-9223372036854775808) [97] .Single (by decide) (by decide)
      (by decide)).2.2.2.2⟩




open JsonStringViewBufferReader

section
variable {σ : Type}

/-! ## Where a pass of the main loop ends -/

theorem call_true (h : Hooks σ) (e : Event) (m m1 : Machine σ) (r : Ret)
    (hc : call h e m = (r, m1)) : m1.buffer = m.buffer ∧ m1.depth = m.depth := by
  have h1 := call_buffer h e m
  have h2 := call_depth h e m
  rw [hc] at h1 h2
  exact ⟨h1, h2⟩

theorem documentEnd_depth (h : Hooks σ) (operation : Operation) (m : Machine σ) :
    (documentEnd h operation m).machine.depth = m.depth := by
  simp only [documentEnd]
  split
  · have hb := call_depth h .JsonEnd m
    cases hc : call h .JsonEnd m with
    | mk r m1 =>
        rw [hc] at hb
        cases r <;> simp only []
        · split
          · exact hb
          · split <;> exact hb
        · exact hb
        · exact hb
  · rfl

theorem documentEnd_go (h : Hooks σ) (operation : Operation) (m m1 : Machine σ)
    (hd : documentEnd h operation m = .continue m1 ∨ documentEnd h operation m = .break m1) :
    m1.buffer = m.buffer ∧ m1.depth = m.depth := by
  have h1 := documentEnd_buffer h operation m
  have h2 := documentEnd_depth h operation m
  rcases hd with hd | hd <;> rw [hd] at h1 h2 <;> exact ⟨h1, h2⟩

theorem andThen_go (h : Hooks σ) (operation : Operation) (r : Ret × Machine σ) (m1 : Machine σ)
    (hd : andThen h operation r = .continue m1 ∨ andThen h operation r = .break m1) :
    r.1 = .true ∧ m1.buffer = r.2.buffer ∧ m1.depth = r.2.depth := by
  obtain ⟨x, m⟩ := r
  cases x with
  | «true» =>
      simp only [andThen] at hd
      exact ⟨rfl, documentEnd_go h operation m m1 hd⟩
  | «false» => simp [andThen] at hd
  | thrown => simp [andThen] at hd

theorem readyStringLoop_ok_cur (ahead : List Nat) :
    ∀ (special : Bool) (temp : List Nat) (pos : Int) (out : List Nat)
      (b : JsonStringViewBufferReader),
      readyStringLoop special temp pos ahead = .ok out b → b.cur = 34 := by
  induction ahead with
  | nil => intro special temp pos out b h; simp [readyStringLoop] at h
  | cons ch ahead ih =>
      intro special temp pos out b h
      rw [readyStringLoop] at h
      cases hs : stringStep special ch <;> simp only [hs] at h
      · simp at h
      · simp only [Ready.ok.injEq] at h
        rw [← h.2]
        simp only []
        unfold stringStep at hs
        by_cases h1 : isControlCode ch = true
        · simp [h1] at hs
        · simp only [h1, if_false] at hs
          by_cases h2 : (!special && ch == 34) = true
          · simp only [Bool.and_eq_true, beq_iff_eq] at h2
            exact h2.2
          · simp only [h2, if_false] at hs
            by_cases h3 : (!special && ch == 92) = true
            · simp [h3] at hs
            · simp only [h3, if_false] at hs
              by_cases h4 : special = true
              · simp only [h4, if_true] at hs
                cases hu : unescape ch <;> simp [hu] at hs
              · simp [h4] at hs
      · exact ih _ _ _ _ _ h
      · simp at h
      · exact ih _ _ _ _ _ h

theorem readyValue_ok_cur (value : List Nat) :
    ∀ (buffer b : JsonStringViewBufferReader) (u : Unit),
      readyValue value buffer = .ok u b → b = buffer ∨ b.cur ∈ value := by
  induction value with
  | nil =>
      intro buffer b u h
      simp only [readyValue, Ready.ok.injEq, true_and] at h
      exact Or.inl h.symm
  | cons v value ih =>
      intro buffer b u h
      obtain ⟨pos, cur, ahead⟩ := buffer
      rw [readyValue] at h
      cases ahead with
      | nil => simp [JsonStringViewBufferReader.next] at h
      | cons ch rest =>
          simp only [JsonStringViewBufferReader.next, JsonStringViewBufferReader.value] at h
          by_cases hc : isControlCode ch = true
          · rw [if_pos hc] at h; simp at h
          · rw [if_neg hc] at h
            by_cases hv : (ch != v) = true
            · rw [if_pos hv] at h; simp at h
            · rw [if_neg hv] at h
              have hcv : ch = v := by simpa using hv
              rcases ih _ _ _ h with h2 | h2
              · right; rw [h2]; simp [hcv]
              · right; exact List.mem_cons_of_mem _ h2

end




open JsonStringViewBufferReader

section
variable {σ : Type}

/-- How the loop of the number lexer is left at the byte `ch`: at whitespace or
at the length cap with the stack as it was, at `,` with the state behind a
comma on top, at a closing bracket of the right kind with the top popped. -/
theorem numberStep_leave (neg : Bool) (depth : List JsonReaderType) (i points ch : Nat)
    (e : End) (d1 : List JsonReaderType)
    (hs : numberStep neg depth i points ch = .leave e d1) :
    (e = .None ∧ d1 = depth)
      ∨ (ch = 44 ∧ d1 = setTop (if (top depth).code < JsonReaderType.Array.code then .ObjectNextKey else .ArrayNextValue) depth)
      ∨ (ch = 125 ∧ d1 = depth.tail ∧ (top depth).code ≤ JsonReaderType.ObjectNextKey.code)
      ∨ (ch = 93 ∧ d1 = depth.tail ∧ JsonReaderType.Array.code ≤ (top depth).code) := by
  unfold numberStep at hs
  by_cases h1 : isControlCode ch = true
  · rw [if_pos h1] at hs; simp at hs
  rw [if_neg h1] at hs
  by_cases h2 : isspace ch = true
  · rw [if_pos h2] at hs
    simp only [NumberStep.leave.injEq] at hs
    exact Or.inl ⟨hs.1.symm, hs.2.symm⟩
  rw [if_neg h2] at hs
  by_cases h3 : (ch == 44) = true
  · rw [if_pos h3] at hs
    right; left
    refine ⟨by simpa using h3, ?_⟩
    by_cases h4 : (top depth).code < JsonReaderType.Array.code
    · rw [if_pos h4] at hs ⊢
      simp only [NumberStep.leave.injEq] at hs
      exact hs.2.symm
    · rw [if_neg h4] at hs ⊢
      simp only [NumberStep.leave.injEq] at hs
      exact hs.2.symm
  rw [if_neg h3] at hs
  by_cases h4 : (ch == 125) = true
  · rw [if_pos h4] at hs
    right; right; left
    by_cases h5 : (top depth).code > JsonReaderType.ObjectNextKey.code
    · rw [if_pos h5] at hs; simp at hs
    · rw [if_neg h5] at hs
      simp only [NumberStep.leave.injEq] at hs
      exact ⟨by simpa using h4, hs.2.symm, by omega⟩
  rw [if_neg h4] at hs
  by_cases h5 : (ch == 93) = true
  · rw [if_pos h5] at hs
    right; right; right
    by_cases h6 : (top depth).code < JsonReaderType.Array.code
    · rw [if_pos h6] at hs; simp at hs
    · rw [if_neg h6] at hs
      simp only [NumberStep.leave.injEq] at hs
      exact ⟨by simpa using h5, hs.2.symm, by omega⟩
  rw [if_neg h5] at hs
  by_cases h6 : capped neg points i = true
  · rw [if_pos h6] at hs
    simp only [NumberStep.leave.injEq] at hs
    exact Or.inl ⟨hs.1.symm, hs.2.symm⟩
  rw [if_neg h6] at hs
  by_cases h7 : (ch == 46) = true
  · rw [if_pos h7] at hs
    split at hs <;> simp at hs
  rw [if_neg h7] at hs
  split at hs <;> simp at hs

/-- The loop of the number lexer, when it is left before the end of the input:
the reader stands on the byte that ended it. -/
theorem readyNumberLoop_exit (neg : Bool) (depth : List JsonReaderType) (ahead : List Nat) :
    ∀ (pos : Int) (i points : Nat) (temp : List Nat) (ch0 : Nat) (scan : NumberScan)
      (b : JsonStringViewBufferReader),
      readyNumberLoop neg depth pos i points temp ch0 ahead = .ok scan b → scan.exit = true →
      b.cur = scan.ch ∧
        ((scan.end = .None ∧ scan.depth = depth)
          ∨ (scan.ch = 44 ∧ scan.depth = setTop (if (top depth).code < JsonReaderType.Array.code then .ObjectNextKey else .ArrayNextValue) depth)
          ∨ (scan.ch = 125 ∧ scan.depth = depth.tail ∧ (top depth).code ≤ JsonReaderType.ObjectNextKey.code)
          ∨ (scan.ch = 93 ∧ scan.depth = depth.tail ∧ JsonReaderType.Array.code ≤ (top depth).code)) := by
  induction ahead with
  | nil =>
      intro pos i points temp ch0 scan b h hx
      simp only [readyNumberLoop, Ready.ok.injEq] at h
      rw [← h.1] at hx
      simp at hx
  | cons ch ahead ih =>
      intro pos i points temp ch0 scan b h hx
      rw [readyNumberLoop] at h
      cases hs : numberStep neg depth i points ch with
      | error msg => rw [hs] at h; simp at h
      | leave e d1 =>
          rw [hs] at h
          simp only [Ready.ok.injEq] at h
          rw [← h.1, ← h.2]
          exact ⟨rfl, numberStep_leave neg depth i points ch e d1 hs⟩
      | point => rw [hs] at h; exact ih _ _ _ _ _ _ _ h hx
      | digit => rw [hs] at h; exact ih _ _ _ _ _ _ _ h hx

theorem numberValue_depth (h : Hooks σ) (scan : NumberScan) (m : Machine σ) :
    (numberValue h scan m).2.depth = m.depth := by
  simp only [numberValue]
  split
  · split
    · rfl
    · split
      · rfl
      · exact call_depth _ _ _
  · split
    · split
      · rfl
      · exact call_depth _ _ _
    · rfl

theorem numberEnd_depth (h : Hooks σ) (scan : NumberScan) (r : Ret × Machine σ) :
    (numberEnd h scan r).2.depth = r.2.depth := by
  obtain ⟨x, m⟩ := r
  cases x <;> simp only [numberEnd]
  split
  · exact call_depth _ _ _
  · split
    · exact call_depth _ _ _
    · rfl

/-- When the number lexer returns true, the reader stands on the byte that ended
the number: whitespace, with the stack unchanged; `,`, with the state behind a
comma on top; or the closing bracket of the enclosing container, with the top
popped. -/
theorem readyNumber_true (h : Hooks σ) (digit : Nat) (m m1 : Machine σ)
    (hr : readyNumber h digit m = (.true, m1)) :
    (isspace m1.buffer.cur = true ∧ m1.depth = m.depth)
      ∨ (m1.buffer.cur = 44 ∧ m1.depth = setTop (if (top m.depth).code < JsonReaderType.Array.code then .ObjectNextKey else .ArrayNextValue) m.depth)
      ∨ (m1.buffer.cur = 125 ∧ m1.depth = m.depth.tail ∧ (top m.depth).code ≤ JsonReaderType.ObjectNextKey.code)
      ∨ (m1.buffer.cur = 93 ∧ m1.depth = m.depth.tail ∧ JsonReaderType.Array.code ≤ (top m.depth).code) := by
  unfold readyNumber at hr
  cases hl : readyNumberLoop (digit == 45) m.depth m.buffer.pos 0 0 [digit] 0 m.buffer.ahead with
  | fail error buffer => rw [hl] at hr; simp at hr
  | ok scan buffer =>
      rw [hl] at hr
      simp only [] at hr
      have hb := readyNumberEnd_buffer h scan { m with buffer := buffer, depth := scan.depth }
      unfold readyNumberEnd at hr
      by_cases hx : scan.exit = true
      · simp only [hx, Bool.not_true, Bool.false_eq_true, if_false] at hr
        obtain ⟨hcur, hcases⟩ := readyNumberLoop_exit _ _ _ _ _ _ _ _ _ _ hl hx
        by_cases hn : (scan.end == End.None && !isspace scan.ch) = true
        · rw [if_pos hn] at hr; simp at hr
        · rw [if_neg hn] at hr
          by_cases hp : (scan.temp.getLast? == some 46) = true
          · rw [if_pos hp] at hr; simp at hr
          · rw [if_neg hp] at hr
            have h1 : m1.buffer = buffer := by
              have := numberEnd_buffer h scan (numberValue h scan { m with buffer := buffer, depth := scan.depth })
              rw [hr, numberValue_buffer] at this
              exact this
            have h2 : m1.depth = scan.depth := by
              have := numberEnd_depth h scan (numberValue h scan { m with buffer := buffer, depth := scan.depth })
              rw [hr, numberValue_depth] at this
              exact this
            rw [h1, h2, hcur]
            rcases hcases with ⟨he, hd⟩ | hrest
            · left
              refine ⟨?_, hd⟩
              simp only [he, beq_self_eq_true, Bool.true_and, Bool.not_eq_true',
                Bool.not_eq_false] at hn
              simpa using hn
            · exact Or.inr hrest
      · simp only [hx, Bool.not_false, if_true] at hr
        simp at hr

end




open JsonStringViewBufferReader

section
variable {σ : Type}

theorem afterComma_setTop (depth : List JsonReaderType) :
    (setTop (if (top depth).code < JsonReaderType.Array.code then JsonReaderType.ObjectNextKey else JsonReaderType.ArrayNextValue) depth).head? = some .ObjectNextKey
      ∨ (setTop (if (top depth).code < JsonReaderType.Array.code then JsonReaderType.ObjectNextKey else JsonReaderType.ArrayNextValue) depth).head? = some .ArrayNextValue := by
  by_cases h : (top depth).code < JsonReaderType.Array.code
  · left; rw [if_pos h]; rfl
  · right; rw [if_neg h]; rfl

/-- When `ready` returns true with the reader on a `,`, the value was a number
that the comma ended, and the state behind a comma is on top of the stack. -/
theorem ready_true_comma (h : Hooks σ) (ch : Nat) (m m1 : Machine σ) (hcur : m.buffer.cur = ch)
    (hr : ready h ch m = (.true, m1)) (hc : m1.buffer.cur = 44) :
    m1.depth.head? = some .ObjectNextKey ∨ m1.depth.head? = some .ArrayNextValue := by
  have keyword : ∀ (rest : List Nat) (e : Event), ch ≠ 44 → 44 ∉ rest →
      readyKeyword h rest e m = (.true, m1) → False := by
    intro rest e h44 hrest hk
    unfold readyKeyword at hk
    cases hv : readyValue rest m.buffer with
    | fail error buffer => rw [hv] at hk; simp at hk
    | ok u buffer =>
        rw [hv] at hk
        simp only [] at hk
        have hb := (call_true h e _ m1 .true hk).1
        simp only [] at hb
        rcases readyValue_ok_cur rest _ _ _ hv with h2 | h2
        · rw [hb, h2, hcur] at hc; exact h44 hc
        · rw [hb] at hc; rw [hc] at h2; exact hrest h2
  by_cases h1 : (ch == 123) = true
  · rw [ready, if_pos h1] at hr
    have hb := (call_true h _ _ m1 .true hr).1
    simp only [] at hb
    rw [hb, hcur] at hc
    rw [hc] at h1
    exact absurd h1 (by decide)
  by_cases h2 : (ch == 91) = true
  · rw [ready, if_neg h1, if_pos h2] at hr
    have hb := (call_true h _ _ m1 .true hr).1
    simp only [] at hb
    rw [hb, hcur] at hc
    rw [hc] at h2
    exact absurd h2 (by decide)
  by_cases h3 : (ch == 34) = true
  · rw [ready, if_neg h1, if_neg h2, if_pos h3] at hr
    unfold readyStringValue at hr
    cases hs : readyString [] m.buffer with
    | fail error buffer => rw [hs] at hr; simp at hr
    | ok temp buffer =>
        rw [hs] at hr
        simp only [] at hr
        have hb := (call_true h _ _ m1 .true hr).1
        simp only [] at hb
        have := readyStringLoop_ok_cur _ _ _ _ _ _ hs
        rw [hb, this] at hc
        exact absurd hc (by decide)
  by_cases h4 : (ch == 45 || isdigit ch) = true
  · rw [ready, if_neg h1, if_neg h2, if_neg h3, if_pos h4] at hr
    rcases readyNumber_true h ch m m1 hr with ⟨hs, _⟩ | ⟨_, hd⟩ | ⟨hx, _⟩ | ⟨hx, _⟩
    · rw [hc] at hs; exact absurd hs (by decide)
    · rw [hd]; exact afterComma_setTop m.depth
    · rw [hc] at hx; exact absurd hx (by decide)
    · rw [hc] at hx; exact absurd hx (by decide)
  have h44 : ch ≠ 44 := by
    intro h0; rw [h0] at h4
    have : isControlCode 44 = false := by decide
    by_cases h5 : (ch == 116) = true
    · rw [h0] at h5; exact absurd h5 (by decide)
    by_cases h6 : (ch == 102) = true
    · rw [h0] at h6; exact absurd h6 (by decide)
    by_cases h7 : (ch == 110) = true
    · rw [h0] at h7; exact absurd h7 (by decide)
    rw [ready, if_neg h1, if_neg h2, if_neg h3, if_neg (by rw [h0]; decide), if_neg h5,
      if_neg h6, if_neg h7] at hr
    simp at hr
  by_cases h5 : (ch == 116) = true
  · rw [ready, if_neg h1, if_neg h2, if_neg h3, if_neg h4, if_pos h5] at hr
    exact (keyword _ _ h44 (by decide) hr).elim
  by_cases h6 : (ch == 102) = true
  · rw [ready, if_neg h1, if_neg h2, if_neg h3, if_neg h4, if_neg h5, if_pos h6] at hr
    exact (keyword _ _ h44 (by decide) hr).elim
  by_cases h7 : (ch == 110) = true
  · rw [ready, if_neg h1, if_neg h2, if_neg h3, if_neg h4, if_neg h5, if_neg h6, if_pos h7] at hr
    exact (keyword _ _ h44 (by decide) hr).elim
  · rw [ready, if_neg h1, if_neg h2, if_neg h3, if_neg h4, if_neg h5, if_neg h6, if_neg h7] at hr
    simp at hr

/-- The last of `k + 1` passes of the main loop. -/
theorem passes_last (h : Hooks σ) (operation : Operation) (k : Nat) :
    ∀ (m0 m : Machine σ), passes h operation (k + 1) m0 = some m →
      ∃ (m1 : Machine σ) (ch : Nat) (rest : List Nat), passes h operation k m0 = some m1
        ∧ m1.buffer.ahead = ch :: rest
        ∧ parseBody h operation { m1 with buffer := { pos := m1.buffer.pos + 1, cur := ch, ahead := rest } } = .continue m := by
  induction k with
  | zero =>
      intro m0 m hp
      rw [passes] at hp
      cases ha : m0.buffer.ahead with
      | nil => rw [next_nil _ ha] at hp; simp at hp
      | cons ch rest =>
          rw [next_cons _ ch rest ha] at hp
          simp only [] at hp
          cases hb : parseBody h operation { m0 with buffer := { pos := m0.buffer.pos + 1, cur := ch, ahead := rest } } with
          | «continue» m2 =>
              rw [hb] at hp
              simp only [passes, Option.some.injEq] at hp
              exact ⟨m0, ch, rest, rfl, ha, by rw [hb, hp]⟩
          | «break» m2 => rw [hb] at hp; simp at hp
          | «return» x m2 => rw [hb] at hp; simp at hp
  | succ k ih =>
      intro m0 m hp
      rw [passes] at hp
      cases ha : m0.buffer.ahead with
      | nil => rw [next_nil _ ha] at hp; simp at hp
      | cons ch rest =>
          rw [next_cons _ ch rest ha] at hp
          simp only [] at hp
          cases hb : parseBody h operation { m0 with buffer := { pos := m0.buffer.pos + 1, cur := ch, ahead := rest } } with
          | «continue» m2 =>
              rw [hb] at hp
              simp only [] at hp
              obtain ⟨m1, c1, r1, h1, h2, h3⟩ := ih m2 m hp
              refine ⟨m1, c1, r1, ?_, h2, h3⟩
              rw [passes_succ_of_continue h operation k m0 m2 ch rest ha hb]
              exact h1
          | «break» m2 => rw [hb] at hp; simp at hp
          | «return» x m2 => rw [hb] at hp; simp at hp

end




open JsonStringViewBufferReader

section
variable {σ : Type}

theorem openDocument_true (h : Hooks σ) (t : JsonReaderType) (e : Event) (m m1 : Machine σ)
    (ho : openDocument h t e m = (.true, m1)) : m1.buffer = m.buffer := by
  unfold openDocument at ho
  cases hc : call h .JsonBegin m with
  | mk r m2 =>
      have h1 := (call_true h _ m m2 r hc).1
      rw [hc] at ho
      cases r with
      | «true» =>
          simp only [] at ho
          have h2 := (call_true h _ _ m1 .true ho).1
          simp only [] at h2
          rw [h2, h1]
      | «false» => simp at ho
      | thrown => simp at ho

theorem keyThenTop_true (h : Hooks σ) (m m1 : Machine σ)
    (hk : keyThenTop h m = (.true, m1)) : m1.buffer.cur = 34 := by
  unfold keyThenTop at hk
  cases hr : readyObjectKey h m with
  | mk r m2 =>
      rw [hr] at hk
      cases r with
      | «true» =>
          simp only [Prod.mk.injEq, true_and] at hk
          rw [← hk]
          simp only []
          unfold readyObjectKey at hr
          cases hs : readyString [] m.buffer with
          | fail error buffer => rw [hs] at hr; simp at hr
          | ok temp buffer =>
              rw [hs] at hr
              simp only [] at hr
              have hb := (call_true h _ _ m2 .true hr).1
              simp only [] at hb
              rw [hb]
              exact readyStringLoop_ok_cur _ _ _ _ _ _ hs
      | «false» => simp at hk
      | thrown => simp at hk

/-- A pass of the main loop that goes on and leaves the reader on a `,` leaves
the state behind a comma on top of the stack: the comma was the separator the
loop read behind a value, or the byte that ended a number. -/
theorem parseBody_comma (h : Hooks σ) (operation : Operation) (m m1 : Machine σ)
    (hb : parseBody h operation m = .continue m1) (hc : m1.buffer.cur = 44) :
    m1.depth.head? = some .ObjectNextKey ∨ m1.depth.head? = some .ArrayNextValue := by
  have plain : ∀ (r : Ret × Machine σ), andThen h operation r = .continue m1 →
      (r.1 = .true → r.2.buffer.cur ≠ 44) → False := by
    intro r hr hne
    obtain ⟨h1, h2, _⟩ := andThen_go h operation r m1 (Or.inl hr)
    rw [h2] at hc
    exact hne h1 hc
  have value : ∀ (d : List JsonReaderType),
      andThen h operation (ready h m.buffer.cur { m with depth := d }) = .continue m1 →
      m1.depth.head? = some .ObjectNextKey ∨ m1.depth.head? = some .ArrayNextValue := by
    intro d hr
    obtain ⟨h1, h2, h3⟩ := andThen_go h operation _ m1 (Or.inl hr)
    cases hx : ready h m.buffer.cur { m with depth := d } with
    | mk r m2 =>
        rw [hx] at h1 h2 h3
        simp only [] at h1 h2 h3
        subst h1
        rw [h3]
        exact ready_true_comma h m.buffer.cur { m with depth := d } m2 rfl hx (by rw [← h2]; exact hc)
  have comma : ∀ (t : JsonReaderType) (d : List JsonReaderType),
      t = .ObjectNextKey ∨ t = .ArrayNextValue →
      documentEnd h operation { m with depth := setTop t d } = .continue m1 →
      m1.depth.head? = some .ObjectNextKey ∨ m1.depth.head? = some .ArrayNextValue := by
    intro t d ht hr
    have := (documentEnd_go h operation _ m1 (Or.inl hr)).2
    rw [this]
    rcases ht with rfl | rfl
    · left; rfl
    · right; rfl
  have other : ∀ (d : List JsonReaderType), m.buffer.cur ≠ 44 →
      documentEnd h operation { m with depth := d } = .continue m1 → False := by
    intro d hne hr
    have := (documentEnd_go h operation _ m1 (Or.inl hr)).1
    rw [this] at hc
    exact hne hc
  have closing : ∀ (e : Event), m.buffer.cur ≠ 44 →
      andThen h operation (close h e m) = .continue m1 → False := by
    intro e hne hr
    apply plain _ hr
    intro _
    rw [close, call_buffer]
    exact hne
  revert plain value comma other closing
  obtain ⟨buffer, depth, self, stop, error, errno⟩ := m
  intro plain value comma other closing
  unfold parseBody at hb
  simp only [JsonStringViewBufferReader.value] at hb value other closing
  by_cases hs : isspace buffer.cur = true
  · rw [if_pos hs] at hb
    simp only [Step.continue.injEq] at hb
    rw [← hb] at hc
    simp only [] at hc
    rw [hc] at hs
    exact absurd hs (by decide)
  rw [if_neg hs] at hb
  by_cases hk : isControlCode buffer.cur = true
  · rw [if_pos hk] at hb; simp at hb
  rw [if_neg hk] at hb
  cases depth with
  | nil =>
      simp only [] at hb
      by_cases h1 : (buffer.cur == 123) = true
      · rw [if_pos h1] at hb
        exfalso
        apply plain _ hb
        intro ht
        cases ho : openDocument h .Object .ObjectBegin { buffer := buffer, depth := [], self := self, stop := stop, error := error, errno := errno } with
        | mk r m2 =>
            rw [ho] at ht
            simp only [] at ht
            subst ht
            rw [openDocument_true h _ _ _ m2 ho]
            simp only []
            intro h0; rw [h0] at h1; exact absurd h1 (by decide)
      · rw [if_neg h1] at hb
        by_cases h2 : (buffer.cur == 91) = true
        · rw [if_pos h2] at hb
          exfalso
          apply plain _ hb
          intro ht
          cases ho : openDocument h .Array .ArrayBegin { buffer := buffer, depth := [], self := self, stop := stop, error := error, errno := errno } with
          | mk r m2 =>
              rw [ho] at ht
              simp only [] at ht
              subst ht
              rw [openDocument_true h _ _ _ m2 ho]
              simp only []
              intro h0; rw [h0] at h2; exact absurd h2 (by decide)
        · rw [if_neg h2] at hb; simp at hb
  | cons t below =>
      have key : andThen h operation (keyThenTop h { buffer := buffer, depth := t :: below, self := self, stop := stop, error := error, errno := errno }) = .continue m1 → False := by
        intro hr
        apply plain _ hr
        intro ht
        cases ho : keyThenTop h { buffer := buffer, depth := t :: below, self := self, stop := stop, error := error, errno := errno } with
        | mk r m2 =>
            rw [ho] at ht
            simp only [] at ht
            subst ht
            rw [keyThenTop_true h _ m2 ho]
            decide
      cases t with
      | Object =>
          simp only [] at hb
          by_cases h1 : (buffer.cur == 34) = true
          · rw [if_pos h1] at hb; exact (key hb).elim
          · rw [if_neg h1] at hb
            by_cases h2 : (buffer.cur == 125) = true
            · rw [if_pos h2] at hb
              exact (closing _ (by intro h0; rw [h0] at h2; exact absurd h2 (by decide)) hb).elim
            · rw [if_neg h2] at hb; simp at hb
      | ObjectKey =>
          simp only [] at hb
          by_cases h1 : (buffer.cur == 58) = true
          · rw [if_pos h1] at hb
            exact (other _ (by intro h0; rw [h0] at h1; exact absurd h1 (by decide)) hb).elim
          · rw [if_neg h1] at hb; simp at hb
      | ObjectValue =>
          simp only [] at hb
          exact value _ hb
      | ObjectNextPair =>
          simp only [] at hb
          by_cases h1 : (buffer.cur == 44) = true
          · rw [if_pos h1] at hb
            exact comma _ _ (Or.inl rfl) hb
          · rw [if_neg h1] at hb
            by_cases h2 : (buffer.cur == 125) = true
            · rw [if_pos h2] at hb
              exact (closing _ (by intro h0; rw [h0] at h2; exact absurd h2 (by decide)) hb).elim
            · rw [if_neg h2] at hb; simp at hb
      | ObjectNextKey =>
          simp only [] at hb
          by_cases h1 : (buffer.cur == 34) = true
          · rw [if_pos h1] at hb; exact (key hb).elim
          · rw [if_neg h1] at hb; simp at hb
      | Array =>
          simp only [] at hb
          by_cases h1 : (buffer.cur == 93) = true
          · rw [if_pos h1] at hb
            exact (closing _ (by intro h0; rw [h0] at h1; exact absurd h1 (by decide)) hb).elim
          · rw [if_neg h1] at hb
            exact value _ hb
      | ArrayNext =>
          simp only [] at hb
          by_cases h1 : (buffer.cur == 44) = true
          · rw [if_pos h1] at hb
            exact comma _ _ (Or.inr rfl) hb
          · rw [if_neg h1] at hb
            by_cases h2 : (buffer.cur == 93) = true
            · rw [if_pos h2] at hb
              exact (closing _ (by intro h0; rw [h0] at h2; exact absurd h2 (by decide)) hb).elim
            · rw [if_neg h2] at hb; simp at hb
      | ArrayNextValue =>
          simp only [] at hb
          exact value _ hb

end




open JsonStringViewBufferReader

section
variable {σ : Type}

/-! ## Bytes the main loop and the number lexer reject -/

/-- The main loop returns false at a closing bracket that the state on top of
the stack does not allow, and behind a complete value at a byte that is neither
`,` nor the closing bracket of the container. -/
theorem parseBody_reject (h : Hooks σ) (operation : Operation) (m : Machine σ)
    (hs : isspace m.buffer.cur = false)
    (hcase : (m.buffer.cur = 125 ∧ m.depth.head? ≠ some .Object
          ∧ m.depth.head? ≠ some .ObjectNextPair)
      ∨ (m.buffer.cur = 93 ∧ m.depth.head? ≠ some .Array ∧ m.depth.head? ≠ some .ArrayNext)
      ∨ (m.depth.head? = some .ObjectNextPair ∧ m.buffer.cur ≠ 44 ∧ m.buffer.cur ≠ 125)
      ∨ (m.depth.head? = some .ArrayNext ∧ m.buffer.cur ≠ 44 ∧ m.buffer.cur ≠ 93)) :
    ∃ m1, parseBody h operation m = .return .false m1 ∧ m1.self = m.self := by
  have hinv : ∀ d : List JsonReaderType, m.buffer.cur = 125 ∨ m.buffer.cur = 93 →
      ready h m.buffer.cur { m with depth := d }
        = (.false, { m with depth := d, error := makeError .InvalidValueMsg m.buffer }) := by
    intro d hc
    apply ready_invalid
    rcases hc with hc | hc <;> rw [hc] <;> decide
  revert hinv
  obtain ⟨buffer, depth, self, stop, error, errno⟩ := m
  intro hinv
  simp only at hs hcase hinv
  unfold parseBody
  simp only [JsonStringViewBufferReader.value, hs, Bool.false_eq_true, if_false]
  by_cases hk : isControlCode buffer.cur = true
  · rw [if_pos hk]; exact ⟨_, rfl, rfl⟩
  rw [if_neg hk]
  cases depth with
  | nil =>
      rcases hcase with ⟨hc, -, -⟩ | ⟨hc, -, -⟩ | ⟨hc, -⟩ | ⟨hc, -⟩
      · simp only [hc]; exact ⟨_, rfl, rfl⟩
      · simp only [hc]; exact ⟨_, rfl, rfl⟩
      · simp at hc
      · simp at hc
  | cons t below =>
      cases t with
      | Object =>
          rcases hcase with ⟨hc, h1, -⟩ | ⟨hc, -, -⟩ | ⟨hc, -⟩ | ⟨hc, -⟩
          · simp at h1
          · simp only [hc]; exact ⟨_, rfl, rfl⟩
          · simp at hc
          · simp at hc
      | ObjectKey =>
          rcases hcase with ⟨hc, -, -⟩ | ⟨hc, -, -⟩ | ⟨hc, -⟩ | ⟨hc, -⟩
          · simp only [hc]; exact ⟨_, rfl, rfl⟩
          · simp only [hc]; exact ⟨_, rfl, rfl⟩
          · simp at hc
          · simp at hc
      | ObjectValue =>
          rcases hcase with ⟨hc, -, -⟩ | ⟨hc, -, -⟩ | ⟨hc, -⟩ | ⟨hc, -⟩
          · simp only [hinv _ (Or.inl hc), andThen]; exact ⟨_, rfl, rfl⟩
          · simp only [hinv _ (Or.inr hc), andThen]; exact ⟨_, rfl, rfl⟩
          · simp at hc
          · simp at hc
      | ObjectNextPair =>
          rcases hcase with ⟨hc, -, h1⟩ | ⟨hc, -, -⟩ | ⟨-, h1, h2⟩ | ⟨hc, -⟩
          · simp at h1
          · simp only [hc]; exact ⟨_, rfl, rfl⟩
          · simp only []
            rw [if_neg (by simpa using h1), if_neg (by simpa using h2)]
            exact ⟨_, rfl, rfl⟩
          · simp at hc
      | ObjectNextKey =>
          rcases hcase with ⟨hc, -, -⟩ | ⟨hc, -, -⟩ | ⟨hc, -⟩ | ⟨hc, -⟩
          · simp only [hc]; exact ⟨_, rfl, rfl⟩
          · simp only [hc]; exact ⟨_, rfl, rfl⟩
          · simp at hc
          · simp at hc
      | Array =>
          rcases hcase with ⟨hc, -, -⟩ | ⟨hc, h1, -⟩ | ⟨hc, -⟩ | ⟨hc, -⟩
          · simp only []
            rw [if_neg (by rw [hc]; decide), hinv _ (Or.inl hc)]
            exact ⟨_, rfl, rfl⟩
          · simp at h1
          · simp at hc
          · simp at hc
      | ArrayNext =>
          rcases hcase with ⟨hc, -, -⟩ | ⟨hc, -, h1⟩ | ⟨hc, -⟩ | ⟨-, h1, h2⟩
          · simp only [hc]; exact ⟨_, rfl, rfl⟩
          · simp at h1
          · simp at hc
          · simp only []
            rw [if_neg (by simpa using h1), if_neg (by simpa using h2)]
            exact ⟨_, rfl, rfl⟩
      | ArrayNextValue =>
          rcases hcase with ⟨hc, -, -⟩ | ⟨hc, -, -⟩ | ⟨hc, -⟩ | ⟨hc, -⟩
          · simp only [hinv _ (Or.inl hc), andThen]; exact ⟨_, rfl, rfl⟩
          · simp only [hinv _ (Or.inr hc), andThen]; exact ⟨_, rfl, rfl⟩
          · simp at hc
          · simp at hc

theorem numberStep_push (neg : Bool) (depth : List JsonReaderType) (i points ch : Nat) :
    (numberStep neg depth i points ch = .point → ch = 46)
      ∧ (numberStep neg depth i points ch = .digit → isdigit ch = true) := by
  unfold numberStep
  by_cases h1 : isControlCode ch = true
  · rw [if_pos h1]; simp
  rw [if_neg h1]
  by_cases h2 : isspace ch = true
  · rw [if_pos h2]; simp
  rw [if_neg h2]
  by_cases h3 : (ch == 44) = true
  · rw [if_pos h3]; split <;> simp
  rw [if_neg h3]
  by_cases h4 : (ch == 125) = true
  · rw [if_pos h4]; split <;> simp
  rw [if_neg h4]
  by_cases h5 : (ch == 93) = true
  · rw [if_pos h5]; split <;> simp
  rw [if_neg h5]
  by_cases h6 : capped neg points i = true
  · rw [if_pos h6]; simp
  rw [if_neg h6]
  by_cases h7 : (ch == 46) = true
  · rw [if_pos h7]
    have : ch = 46 := by simpa using h7
    split <;> simp [this]
  rw [if_neg h7]
  by_cases h8 : isdigit ch = true
  · simp [h8]
  · simp [h8]

/-- The loop of the number lexer over digits and points that are followed by a
byte `x` which neither ends nor continues a number: the lexer fails, or leaves
its loop at the length cap on a byte that is no whitespace. -/
theorem readyNumberLoop_reject (neg : Bool) (depth : List JsonReaderType) (x : Nat)
    (rest : List Nat) (hx : isspace x = false ∧ x ≠ 44 ∧ x ≠ 125 ∧ x ≠ 93 ∧ x ≠ 46
      ∧ isdigit x = false) (body : List Nat) :
    ∀ (pos : Int) (i points : Nat) (temp : List Nat) (ch0 : Nat),
      (∀ b ∈ body, isdigit b = true ∨ b = 46) →
      match readyNumberLoop neg depth pos i points temp ch0 (body ++ x :: rest) with
      | .fail _ _ => True
      | .ok scan _ => scan.exit = true ∧ scan.end = .None ∧ isspace scan.ch = false := by
  induction body with
  | nil =>
      intro pos i points temp ch0 _
      rw [List.nil_append, readyNumberLoop]
      cases hs : numberStep neg depth i points x with
      | error msg => trivial
      | leave e d1 =>
          simp only []
          rcases numberStep_leave neg depth i points x e d1 hs with ⟨he, -⟩ | ⟨hc, -⟩ | ⟨hc, -⟩ | ⟨hc, -⟩
          · exact ⟨trivial, he, hx.1⟩
          · exact absurd hc hx.2.1
          · exact absurd hc hx.2.2.1
          · exact absurd hc hx.2.2.2.1
      | point => exact absurd ((numberStep_push neg depth i points x).1 hs) hx.2.2.2.2.1
      | digit =>
          have := (numberStep_push neg depth i points x).2 hs
          rw [hx.2.2.2.2.2] at this
          exact absurd this (by decide)
  | cons b body ih =>
      intro pos i points temp ch0 hb
      have hb0 := hb b (List.mem_cons_self _ _)
      have hns : isspace b = false ∧ b ≠ 44 ∧ b ≠ 125 ∧ b ≠ 93 := by
        rcases hb0 with hd | rfl
        · have := isdigit_not_space b hd
          rw [isdigit_iff] at hd
          exact ⟨this, by omega, by omega, by omega⟩
        · decide
      rw [List.cons_append, readyNumberLoop]
      cases hs : numberStep neg depth i points b with
      | error msg => trivial
      | leave e d1 =>
          simp only []
          rcases numberStep_leave neg depth i points b e d1 hs with ⟨he, -⟩ | ⟨hc, -⟩ | ⟨hc, -⟩ | ⟨hc, -⟩
          · exact ⟨trivial, he, hns.1⟩
          · exact absurd hc hns.2.1
          · exact absurd hc hns.2.2.1
          · exact absurd hc hns.2.2.2
      | point => exact ih _ _ _ _ _ (fun y hy => hb y (List.mem_cons_of_mem _ hy))
      | digit => exact ih _ _ _ _ _ (fun y hy => hb y (List.mem_cons_of_mem _ hy))

/-- The number lexer returns false, without a hook call, on a number that is
directly followed by a byte which neither ends nor continues it. -/
theorem readyNumber_reject (h : Hooks σ) (digit : Nat) (m : Machine σ) (body : List Nat)
    (x : Nat) (rest : List Nat) (ha : m.buffer.ahead = body ++ x :: rest)
    (hbody : ∀ b ∈ body, isdigit b = true ∨ b = 46)
    (hx : isspace x = false ∧ x ≠ 44 ∧ x ≠ 125 ∧ x ≠ 93 ∧ x ≠ 46 ∧ isdigit x = false) :
    ∃ m1, readyNumber h digit m = (.false, m1) ∧ m1.self = m.self := by
  have := readyNumberLoop_reject (digit == 45) m.depth x rest hx body m.buffer.pos 0 0 [digit] 0 hbody
  unfold readyNumber
  rw [ha]
  cases hl : readyNumberLoop (digit == 45) m.depth m.buffer.pos 0 0 [digit] 0 (body ++ x :: rest) with
  | fail error buffer => exact ⟨_, rfl, rfl⟩
  | ok scan buffer =>
      rw [hl] at this
      simp only [] at this
      obtain ⟨h1, h2, h3⟩ := this
      simp only [readyNumberEnd, h1, h2, h3, Bool.not_true, Bool.false_eq_true, if_false,
        beq_self_eq_true, Bool.not_false, Bool.and_self, if_true]
      exact ⟨_, rfl, rfl⟩

end




open JsonStringViewBufferReader

/-- C9 (no trailing commas, no missing separators), for a state `m` that the
main loop has reached and the next byte `c` behind whitespace:
(1) `}` is rejected unless the state on top of the stack is `Object` (directly
behind `{`) or `ObjectNextPair` (behind a complete pair), and (2) `]` unless it
is `Array` (directly behind `[`) or `ArrayNext` (behind a complete element);
(3, 4) behind a complete pair or element every byte other than `,` and the
closing bracket of the container is rejected, so two values or pairs never
follow each other without `,`; (5) whenever the last pass ended on a `,`, be it
the separator read by the main loop or the byte that ended a number inside the
number lexer, the state behind a comma is on top, and a following `}` or `]` is
rejected; (6) a number at a value position that is directly followed by a byte
which neither ends nor continues a number is rejected.  Rejected means: parse
returns false and no further hook is called. -/
theorem C9_separators {σ : Type} (h : Hooks σ) (operation : Operation) (r0 : JsonSAXReader σ)
    (json : List Nat) (k : Nat) (m : Machine σ) (ws rest : List Nat) (c : Nat)
    (hreach : passes h operation k (r0.start (ofString json)) = some m)
    (hahead : m.buffer.ahead = ws ++ c :: rest)
    (hws : ∀ x ∈ ws, isspace x = true) (hc : isspace c = false) :
    (c = 125 → m.depth.head? ≠ some .Object → m.depth.head? ≠ some .ObjectNextPair →
        ∃ m1, JsonSAXReader.parse h r0 (ofString json) operation = some (.false, m1)
          ∧ m1.self = m.self)
      ∧ (c = 93 → m.depth.head? ≠ some .Array → m.depth.head? ≠ some .ArrayNext →
          ∃ m1, JsonSAXReader.parse h r0 (ofString json) operation = some (.false, m1)
            ∧ m1.self = m.self)
      ∧ (m.depth.head? = some .ObjectNextPair → c ≠ 44 → c ≠ 125 →
          ∃ m1, JsonSAXReader.parse h r0 (ofString json) operation = some (.false, m1)
            ∧ m1.self = m.self)
      ∧ (m.depth.head? = some .ArrayNext → c ≠ 44 → c ≠ 93 →
          ∃ m1, JsonSAXReader.parse h r0 (ofString json) operation = some (.false, m1)
            ∧ m1.self = m.self)
      ∧ (1 ≤ k → m.buffer.cur = 44 →
          (m.depth.head? = some .ObjectNextKey ∨ m.depth.head? = some .ArrayNextValue)
            ∧ (c = 125 ∨ c = 93 →
                ∃ m1, JsonSAXReader.parse h r0 (ofString json) operation = some (.false, m1)
                  ∧ m1.self = m.self))
      ∧ (∀ (body : List Nat) (x : Nat) (rest2 : List Nat),
          m.depth.head? = some .ObjectValue ∨ m.depth.head? = some .ArrayNextValue
            ∨ m.depth.head? = some .Array →
          c = 45 ∨ isdigit c = true → rest = body ++ x :: rest2 →
          (∀ b ∈ body, isdigit b = true ∨ b = 46) →
          isspace x = false ∧ x ≠ 44 ∧ x ≠ 125 ∧ x ≠ 93 ∧ x ≠ 46 ∧ isdigit x = false →
          ∃ m1, JsonSAXReader.parse h r0 (ofString json) operation = some (.false, m1)
            ∧ m1.self = m.self) := by
  obtain ⟨buffer, -, hcur, hrest, -, hparse⟩ :=
    parse_at_byte h operation r0 json k m ws rest c hreach hahead hws
  have reject : ((c = 125 ∧ m.depth.head? ≠ some .Object ∧ m.depth.head? ≠ some .ObjectNextPair)
      ∨ (c = 93 ∧ m.depth.head? ≠ some .Array ∧ m.depth.head? ≠ some .ArrayNext)
      ∨ (m.depth.head? = some .ObjectNextPair ∧ c ≠ 44 ∧ c ≠ 125)
      ∨ (m.depth.head? = some .ArrayNext ∧ c ≠ 44 ∧ c ≠ 93)) →
      ∃ m1, JsonSAXReader.parse h r0 (ofString json) operation = some (.false, m1)
        ∧ m1.self = m.self := by
    intro hcase
    obtain ⟨m1, h1, h2⟩ := parseBody_reject h operation { m with buffer := buffer }
      (by simp only [hcur]; exact hc) (by simp only [hcur]; exact hcase)
    rw [hparse, h1]
    exact ⟨m1, rfl, h2⟩
  refine ⟨fun h1 h2 h3 => reject (Or.inl ⟨h1, h2, h3⟩),
    fun h1 h2 h3 => reject (Or.inr (Or.inl ⟨h1, h2, h3⟩)),
    fun h1 h2 h3 => reject (Or.inr (Or.inr (Or.inl ⟨h1, h2, h3⟩))),
    fun h1 h2 h3 => reject (Or.inr (Or.inr (Or.inr ⟨h1, h2, h3⟩))), ?_, ?_⟩
  · intro hk h44
    obtain ⟨k1, rfl⟩ : ∃ k1, k = k1 + 1 := ⟨k - 1, by omega⟩
    obtain ⟨m0, ch, rest0, -, -, hb⟩ := passes_last h operation k1 _ m hreach
    have hstate := parseBody_comma h operation _ m hb h44
    refine ⟨hstate, ?_⟩
    intro hclose
    apply reject
    rcases hclose with h1 | h1
    · left
      refine ⟨h1, ?_, ?_⟩ <;> rcases hstate with hs | hs <;> rw [hs] <;> simp
    · right; left
      refine ⟨h1, ?_, ?_⟩ <;> rcases hstate with hs | hs <;> rw [hs] <;> simp
  · intro body x rest2 hpos hnum hbody hdigits hx
    have hc0 : isControlCode c = false := by
      rcases hnum with rfl | hd
      · decide
      · exact isdigit_not_control _ hd
    have h93 : c ≠ 93 := by
      rcases hnum with rfl | hd
      · decide
      · rw [isdigit_iff] at hd; omega
    obtain ⟨t, below, hdepth⟩ : ∃ t below, m.depth = t :: below := by
      cases hd : m.depth with
      | nil => rw [hd] at hpos; simp at hpos
      | cons t below => exact ⟨t, below, rfl⟩
    have hpos1 : t = .ObjectValue ∨ t = .ArrayNextValue ∨ (t = .Array ∧ c ≠ 93) := by
      rw [hdepth] at hpos
      simp only [List.head?_cons, Option.some.injEq] at hpos
      rcases hpos with h1 | h1 | h1
      · exact Or.inl h1
      · exact Or.inr (Or.inl h1)
      · exact Or.inr (Or.inr ⟨h1, h93⟩)
    have hbody1 := parseBody_value h operation { m with buffer := buffer } t below
      (by simp only [hcur]; exact hc) (by simp only [hcur]; exact hc0) hdepth
      (by simp only [hcur]; exact hpos1)
    simp only [hcur] at hbody1
    obtain ⟨m1, h1, h2⟩ := readyNumber_reject h c
      { m with buffer := buffer, depth := (if t = .ObjectValue then JsonReaderType.ObjectNextPair else .ArrayNext) :: below }
      body x rest2 (by simp only [hrest, hbody]) hdigits hx
    rw [hparse, hbody1, ready_number h c _ hnum, h1]
    exact ⟨m1, rfl, h2⟩

/-- C9, witness: `[1,]`, where the number lexer has read the comma itself, is
rejected at `]`; `[1 2]` is rejected at `2`; and in `{"a":1"b":2}` the number
`1` directly followed by `"` is rejected.  In each case no hook is called after
the value `1`. -/
theorem C9_separators_witness :
    (∃ m1, parseEvents [91, 49, 44, 93] .Single = some (.false, m1)
        ∧ m1.self = [.JsonBegin, .ArrayBegin, .ValueLongLong 1])
      ∧ (∃ m1, parseEvents [91, 49, 32, 50, 93] .Single = some (.false, m1)
          ∧ m1.self = [.JsonBegin, .ArrayBegin, .ValueLongLong 1])
      ∧ (∃ m1, parseEvents [123, 34, 97, 34, 58, 49, 34, 98, 34, 58, 50, 125] .Single
            = some (.false, m1)
          ∧ m1.self = [.JsonBegin, .ObjectBegin, .ObjectKey [97]]) :=
  ⟨((C9_separators recorder .Single freshRecorder [91, 49, 44, 93] 2
        { buffer := { pos := 2, cur := 44, ahead := [93] }, depth := [.ArrayNextValue], self := [.JsonBegin, .ArrayBegin, .ValueLongLong 1], stop := false, error := .empty }
        [] [] 93 (by decide) rfl (by decide) (by decide)).2.2.2.2.1 (by decide) rfl).2 (Or.inr rfl),
   (C9_separators recorder .Single freshRecorder [91, 49, 32, 50, 93] 2
        { buffer := { pos := 2, cur := 32, ahead := [50, 93] }, depth := [.ArrayNext], self := [.JsonBegin, .ArrayBegin, .ValueLongLong 1], stop := false, error := .empty }
        [] [93] 50 (by decide) rfl (by decide) (by decide)).2.2.2.1 rfl (by decide) (by decide),
   (C9_separators recorder .Single freshRecorder [123, 34, 97, 34, 58, 49, 34, 98, 34, 58, 50, 125] 3
        { buffer := { pos := 4, cur := 58, ahead := [49, 34, 98, 34, 58, 50, 125] }, depth := [.ObjectValue], self := [.JsonBegin, .ObjectBegin, .ObjectKey [97]], stop := false, error := .empty }
        [] [34, 98, 34, 58, 50, 125] 49 (by decide) rfl (by decide) (by decide)).2.2.2.2.2
      [] 34 [98, 34, 58, 50, 125] (Or.inl rfl) (Or.inr (by decide)) rfl (by decide) (by decide)⟩




open JsonStringViewBufferReader

/-- C1 (round trip), evaluated where it fails.  The document `[0.00001]` parses
to an array holding the Double nearest to `0.00001`; `JsonWriter::write` of that
tree returns true with the text `[1e-05]`, the shortest text `std::to_chars`
gives for the value; and parse of `[1e-05]` returns false with "Invalid number,
offset: 2", because the number lexer takes no exponent.  Likewise `[1.0]` parses
to an array holding the Double `1`, which is written as `[1]` and read back as
the LongLong `1`: the tag of the node changes. -/
theorem C1_round_trip_fails :
    JsonReader.parseValue false inputC1 = some (.true, { value := 2 }, heapC1)
      ∧ heapC1.tree 3 { value := 2 } = some (.Array [.Double doubleC1])
      ∧ JsonWriter.writeString 10 heapC1 { value := 2 } false
          = some (.true, [91, 49, 101, 45, 48, 53, 93])
      ∧ (JsonReader.parseValue false [91, 49, 101, 45, 48, 53, 93]).map (fun p => p.1) = some .false
      ∧ (JsonSAXReader.parse recorder freshRecorder (ofString [91, 49, 101, 45, 48, 53, 93]) .Single).map
          (fun p => (p.1, p.2.error.render)) = some (.false, "Invalid number, offset: 2")
      ∧ JsonReader.parseValue false [91, 49, 46, 48, 93] = some (.true, { value := 2 }, heapOne)
      ∧ JsonWriter.writeString 10 heapOne { value := 2 } false = some (.true, [91, 49, 93])
      ∧ JsonReader.parseValue false [91, 49, 93] = some (.true, { value := 2 }, heapInt)
      ∧ heapOne.tree 3 { value := 2 }
          = some (.Array [.Double { neg := false, mant := 4503599627370496, exp := -52 }])
      ∧ heapInt.tree 3 { value := 2 } = some (.Array [.LongLong 1]) := by
  refine ⟨by decide, by rfl, by decide, by decide, by decide, by decide, by decide, by decide,
    by rfl, by rfl⟩




open JsonStringViewBufferReader

section
variable {σ τ : Type} {R : σ → τ → Prop} {h : Hooks σ} {h1 : Hooks τ}

/-! ## Runs on the same input with related hooks -/

theorem call_alike (hh : HooksAlike R h h1) (e : Event) (m : Machine σ) (m1 : Machine τ)
    (ha : Alike R m m1) : AlikeRet R (call h e m) (call h1 e m1) := by
  obtain ⟨hb, hd, hs, he, hr⟩ := ha
  have := hh e m.self m1.self hr
  simp only [call, emit]
  cases hx : h e m.self with
  | none =>
      cases hy : h1 e m1.self with
      | none => exact ⟨rfl, hb, hd, hs, he, hr⟩
      | some p => rw [hx, hy] at this; exact this.elim
  | some p =>
      cases hy : h1 e m1.self with
      | none => rw [hx, hy] at this; exact this.elim
      | some p1 =>
          rw [hx, hy] at this
          obtain ⟨t, b⟩ := p
          obtain ⟨t1, b1⟩ := p1
          simp only [] at this ⊢
          exact ⟨rfl, hb, hd, by simp only [hs, this.2], he, this.1⟩

theorem readyStringLoop_alike (ahead : List Nat) :
    ∀ (special : Bool) (temp : List Nat) (pos pos1 : Int),
      AlikeReady (readyStringLoop special temp pos ahead)
        (readyStringLoop special temp pos1 ahead) := by
  induction ahead with
  | nil => intro special temp pos pos1; exact ⟨rfl, rfl⟩
  | cons ch ahead ih =>
      intro special temp pos pos1
      rw [readyStringLoop, readyStringLoop]
      cases hs : stringStep special ch <;> simp only []
      · exact ⟨rfl, rfl⟩
      · exact ⟨rfl, rfl, rfl⟩
      · exact ih _ _ _ _
      · exact ⟨rfl, rfl⟩
      · exact ih _ _ _ _

theorem readyString_alike (temp : List Nat) (b b1 : JsonStringViewBufferReader)
    (hb : SameInput b b1) : AlikeReady (readyString temp b) (readyString temp b1) := by
  rw [readyString, readyString, hb.2]
  exact readyStringLoop_alike _ _ _ _ _

theorem readyNumberLoop_alike (neg : Bool) (depth : List JsonReaderType) (ahead : List Nat) :
    ∀ (pos pos1 : Int) (i points : Nat) (temp : List Nat) (ch0 : Nat),
      AlikeReady (readyNumberLoop neg depth pos i points temp ch0 ahead)
        (readyNumberLoop neg depth pos1 i points temp ch0 ahead) := by
  induction ahead with
  | nil => intro pos pos1 i points temp ch0; exact ⟨rfl, rfl, rfl⟩
  | cons ch ahead ih =>
      intro pos pos1 i points temp ch0
      rw [readyNumberLoop, readyNumberLoop]
      cases hs : numberStep neg depth i points ch <;> simp only []
      · exact ⟨rfl, rfl⟩
      · exact ⟨rfl, rfl, rfl⟩
      · exact ih _ _ _ _ _ _
      · exact ih _ _ _ _ _ _

theorem readyValue_alike (value : List Nat) :
    ∀ (b b1 : JsonStringViewBufferReader), SameInput b b1 →
      AlikeReady (readyValue value b) (readyValue value b1) := by
  induction value with
  | nil => intro b b1 hb; exact ⟨rfl, hb⟩
  | cons v value ih =>
      intro b b1 hb
      obtain ⟨pos, cur, ahead⟩ := b
      obtain ⟨pos1, cur1, ahead1⟩ := b1
      obtain ⟨h1, h2⟩ := hb
      simp only at h1 h2
      subst h1 h2
      rw [readyValue, readyValue]
      cases ahead1 with
      | nil => exact ⟨rfl, rfl⟩
      | cons ch rest =>
          simp only [JsonStringViewBufferReader.next, JsonStringViewBufferReader.value]
          by_cases hc : isControlCode ch = true
          · rw [if_pos hc, if_pos hc]; exact ⟨rfl, rfl⟩
          · rw [if_neg hc, if_neg hc]
            by_cases hv : (ch != v) = true
            · rw [if_pos hv, if_pos hv]; exact ⟨rfl, rfl⟩
            · rw [if_neg hv, if_neg hv]
              exact ih _ _ ⟨rfl, rfl⟩

end




open JsonStringViewBufferReader

section
variable {σ τ : Type} {R : σ → τ → Prop} {h : Hooks σ} {h1 : Hooks τ}

theorem Alike.same_cur {m : Machine σ} {m1 : Machine τ} (ha : Alike R m m1) :
    m1.buffer.cur = m.buffer.cur := ha.1.1

theorem Alike.set {m : Machine σ} {m1 : Machine τ} (ha : Alike R m m1)
    (b b1 : JsonStringViewBufferReader) (hb : SameInput b b1) (d : List JsonReaderType)
    (e e1 : ErrorText) :
    Alike R { m with buffer := b, depth := d, error := e }
      { m1 with buffer := b1, depth := d, error := e1 } :=
  ⟨hb, rfl, ha.2.2.1, ha.2.2.2⟩

theorem stringHook_alike (hh : HooksAlike R h h1) (E : List Nat → Event) (m : Machine σ)
    (m1 : Machine τ) (ha : Alike R m m1) :
    AlikeRet R
      (match readyString [] m.buffer with
        | .fail error buffer => (.false, { m with buffer := buffer, error := error })
        | .ok temp buffer => call h (E temp) { m with buffer := buffer })
      (match readyString [] m1.buffer with
        | .fail error buffer => (.false, { m1 with buffer := buffer, error := error })
        | .ok temp buffer => call h1 (E temp) { m1 with buffer := buffer }) := by
  have hs := readyString_alike [] m.buffer m1.buffer ha.1
  cases hx : readyString [] m.buffer with
  | fail e b =>
      cases hy : readyString [] m1.buffer with
      | fail e1 b1 =>
          rw [hx, hy] at hs
          exact ⟨rfl, hs, ha.2.1, ha.2.2.1, ha.2.2.2⟩
      | ok t1 b1 => rw [hx, hy] at hs; exact hs.elim
  | ok t b =>
      cases hy : readyString [] m1.buffer with
      | fail e1 b1 => rw [hx, hy] at hs; exact hs.elim
      | ok t1 b1 =>
          rw [hx, hy] at hs
          obtain ⟨ht, hb⟩ := hs
          subst ht
          exact call_alike hh _ _ _ ⟨hb, ha.2.1, ha.2.2.1, ha.2.2.2⟩

theorem readyObjectKey_alike (hh : HooksAlike R h h1) (m : Machine σ) (m1 : Machine τ)
    (ha : Alike R m m1) : AlikeRet R (readyObjectKey h m) (readyObjectKey h1 m1) :=
  stringHook_alike hh .ObjectKey m m1 ha

theorem readyStringValue_alike (hh : HooksAlike R h h1) (m : Machine σ) (m1 : Machine τ)
    (ha : Alike R m m1) : AlikeRet R (readyStringValue h m) (readyStringValue h1 m1) :=
  stringHook_alike hh .ValueString m m1 ha

theorem numberValue_alike (hh : HooksAlike R h h1) (scan : NumberScan) (m : Machine σ)
    (m1 : Machine τ) (ha : Alike R m m1) :
    AlikeRet R (numberValue h scan m) (numberValue h1 scan m1) := by
  unfold numberValue
  by_cases h1p : (scan.points == 1) = true
  · simp only [h1p, if_true]
    cases stod scan.temp with
    | none =>
        exact ⟨rfl, ha.1, ha.2.1, ha.2.2.1,
          congrArg (fun b => b || stodRange scan.temp) ha.2.2.2.1, ha.2.2.2.2⟩
    | some v =>
        simp only []
        by_cases he : m.errno = true
        · rw [if_pos he, if_pos (ha.2.2.2.1.trans he)]
          exact ⟨rfl, ha.1, ha.2.1, ha.2.2.1, ha.2.2.2⟩
        · rw [if_neg he, if_neg (fun hx => he (ha.2.2.2.1.symm.trans hx))]
          exact call_alike hh _ _ _ ha
  · simp only [h1p, Bool.false_eq_true, if_false]
    by_cases h0p : (scan.points == 0) = true
    · simp only [h0p, if_true]
      cases from_chars scan.temp with
      | none => exact ⟨rfl, ha.1, ha.2.1, ha.2.2.1, ha.2.2.2⟩
      | some v => exact call_alike hh _ _ _ ha
    · simp only [h0p, Bool.false_eq_true, if_false]
      exact ⟨rfl, ha⟩

theorem numberEnd_alike (hh : HooksAlike R h h1) (scan : NumberScan) (r : Ret × Machine σ)
    (r1 : Ret × Machine τ) (ha : AlikeRet R r r1) :
    AlikeRet R (numberEnd h scan r) (numberEnd h1 scan r1) := by
  obtain ⟨x, m⟩ := r
  obtain ⟨x1, m1⟩ := r1
  obtain ⟨hx, hm⟩ := ha
  simp only at hx hm
  subst hx
  cases x1 with
  | «true» =>
      simp only [numberEnd]
      by_cases h1e : (scan.end == End.Object) = true
      · simp only [h1e, if_true]; exact call_alike hh _ _ _ hm
      · simp only [h1e, Bool.false_eq_true, if_false]
        by_cases h2e : (scan.end == End.Array) = true
        · simp only [h2e, if_true]; exact call_alike hh _ _ _ hm
        · simp only [h2e, Bool.false_eq_true, if_false]; exact ⟨rfl, hm⟩
  | «false» => exact ⟨rfl, hm⟩
  | thrown => exact ⟨rfl, hm⟩

theorem readyNumberEnd_alike (hh : HooksAlike R h h1) (scan : NumberScan) (m : Machine σ)
    (m1 : Machine τ) (ha : Alike R m m1) :
    AlikeRet R (readyNumberEnd h scan m) (readyNumberEnd h1 scan m1) := by
  unfold readyNumberEnd
  by_cases hx : (!scan.exit) = true
  · simp only [hx, if_true]; exact ⟨rfl, ha.1, ha.2.1, ha.2.2.1, ha.2.2.2⟩
  · simp only [hx, Bool.false_eq_true, if_false]
    by_cases hn : (scan.end == End.None && !isspace scan.ch) = true
    · simp only [hn, if_true]; exact ⟨rfl, ha.1, ha.2.1, ha.2.2.1, ha.2.2.2⟩
    · simp only [hn, Bool.false_eq_true, if_false]
      by_cases hp : (scan.temp.getLast? == some 46) = true
      · simp only [hp, if_true]; exact ⟨rfl, ha.1, ha.2.1, ha.2.2.1, ha.2.2.2⟩
      · simp only [hp, Bool.false_eq_true, if_false]
        exact numberEnd_alike hh scan _ _ (numberValue_alike hh scan m m1 ha)

theorem readyNumber_alike (hh : HooksAlike R h h1) (digit : Nat) (m : Machine σ)
    (m1 : Machine τ) (ha : Alike R m m1) :
    AlikeRet R (readyNumber h digit m) (readyNumber h1 digit m1) := by
  unfold readyNumber
  have hl := readyNumberLoop_alike (digit == 45) m.depth m.buffer.ahead m.buffer.pos
    m1.buffer.pos 0 0 [digit] 0
  rw [ha.1.2, ha.2.1]
  cases hx : readyNumberLoop (digit == 45) m.depth m.buffer.pos 0 0 [digit] 0 m.buffer.ahead with
  | fail e b =>
      cases hy : readyNumberLoop (digit == 45) m.depth m1.buffer.pos 0 0 [digit] 0 m.buffer.ahead with
      | fail e1 b1 =>
          rw [hx, hy] at hl
          exact ⟨rfl, hl, rfl, ha.2.2.1, ha.2.2.2⟩
      | ok s1 b1 => rw [hx, hy] at hl; exact hl.elim
  | ok s b =>
      cases hy : readyNumberLoop (digit == 45) m.depth m1.buffer.pos 0 0 [digit] 0 m.buffer.ahead with
      | fail e1 b1 => rw [hx, hy] at hl; exact hl.elim
      | ok s1 b1 =>
          rw [hx, hy] at hl
          obtain ⟨hs, hb⟩ := hl
          subst hs
          exact readyNumberEnd_alike hh _ _ _ ⟨hb, rfl, ha.2.2.1, ha.2.2.2⟩

theorem readyKeyword_alike (hh : HooksAlike R h h1) (rest : List Nat) (e : Event)
    (m : Machine σ) (m1 : Machine τ) (ha : Alike R m m1) :
    AlikeRet R (readyKeyword h rest e m) (readyKeyword h1 rest e m1) := by
  unfold readyKeyword
  have hs := readyValue_alike rest m.buffer m1.buffer ha.1
  cases hx : readyValue rest m.buffer with
  | fail er b =>
      cases hy : readyValue rest m1.buffer with
      | fail e1 b1 =>
          rw [hx, hy] at hs
          exact ⟨rfl, hs, ha.2.1, ha.2.2.1, ha.2.2.2⟩
      | ok t1 b1 => rw [hx, hy] at hs; exact hs.elim
  | ok t b =>
      cases hy : readyValue rest m1.buffer with
      | fail e1 b1 => rw [hx, hy] at hs; exact hs.elim
      | ok t1 b1 =>
          rw [hx, hy] at hs
          exact call_alike hh _ _ _ ⟨hs.2, ha.2.1, ha.2.2.1, ha.2.2.2⟩

theorem ready_alike (hh : HooksAlike R h h1) (ch : Nat) (m : Machine σ) (m1 : Machine τ)
    (ha : Alike R m m1) : AlikeRet R (ready h ch m) (ready h1 ch m1) := by
  by_cases c1 : (ch == 123) = true
  · rw [ready, ready, if_pos c1, if_pos c1]
    exact call_alike hh _ _ _ ⟨ha.1, by simp only [ha.2.1], ha.2.2.1, ha.2.2.2⟩
  by_cases c2 : (ch == 91) = true
  · rw [ready, ready, if_neg c1, if_neg c1, if_pos c2, if_pos c2]
    exact call_alike hh _ _ _ ⟨ha.1, by simp only [ha.2.1], ha.2.2.1, ha.2.2.2⟩
  by_cases c3 : (ch == 34) = true
  · rw [ready, ready, if_neg c1, if_neg c1, if_neg c2, if_neg c2, if_pos c3, if_pos c3]
    exact readyStringValue_alike hh m m1 ha
  by_cases c4 : (ch == 45 || isdigit ch) = true
  · rw [ready, ready, if_neg c1, if_neg c1, if_neg c2, if_neg c2, if_neg c3, if_neg c3,
      if_pos c4, if_pos c4]
    exact readyNumber_alike hh ch m m1 ha
  by_cases c5 : (ch == 116) = true
  · rw [ready, ready, if_neg c1, if_neg c1, if_neg c2, if_neg c2, if_neg c3, if_neg c3,
      if_neg c4, if_neg c4, if_pos c5, if_pos c5]
    exact readyKeyword_alike hh _ _ m m1 ha
  by_cases c6 : (ch == 102) = true
  · rw [ready, ready, if_neg c1, if_neg c1, if_neg c2, if_neg c2, if_neg c3, if_neg c3,
      if_neg c4, if_neg c4, if_neg c5, if_neg c5, if_pos c6, if_pos c6]
    exact readyKeyword_alike hh _ _ m m1 ha
  by_cases c7 : (ch == 110) = true
  · rw [ready, ready, if_neg c1, if_neg c1, if_neg c2, if_neg c2, if_neg c3, if_neg c3,
      if_neg c4, if_neg c4, if_neg c5, if_neg c5, if_neg c6, if_neg c6, if_pos c7, if_pos c7]
    exact readyKeyword_alike hh _ _ m m1 ha
  · rw [ready, ready, if_neg c1, if_neg c1, if_neg c2, if_neg c2, if_neg c3, if_neg c3,
      if_neg c4, if_neg c4, if_neg c5, if_neg c5, if_neg c6, if_neg c6, if_neg c7, if_neg c7]
    exact ⟨rfl, ha.1, ha.2.1, ha.2.2.1, ha.2.2.2⟩

end




open JsonStringViewBufferReader

section
variable {σ τ : Type} {R : σ → τ → Prop} {h : Hooks σ} {h1 : Hooks τ}

theorem documentEnd_alike (hh : HooksAlike R h h1) (operation : Operation) (m : Machine σ)
    (m1 : Machine τ) (ha : Alike R m m1) :
    AlikeStep R (documentEnd h operation m) (documentEnd h1 operation m1) := by
  unfold documentEnd
  rw [ha.2.1]
  by_cases he : m.depth.isEmpty = true
  · simp only [he, if_true]
    have hc := call_alike hh .JsonEnd m m1 ha
    cases hx : call h .JsonEnd m with
    | mk r m2 =>
        cases hy : call h1 .JsonEnd m1 with
        | mk r1 m3 =>
            rw [hx, hy] at hc
            obtain ⟨hr, hm⟩ := hc
            simp only at hr hm
            subst hr
            cases r1 with
            | «true» =>
                simp only []
                by_cases h1o : (operation == Operation.Single) = true
                · simp only [h1o, if_true]; exact hm
                · simp only [h1o, Bool.false_eq_true, if_false]
                  rw [hm.2.2.1]
                  by_cases hst : m2.stop = true
                  · simp only [hst, if_true]; exact hm
                  · simp only [hst, Bool.false_eq_true, if_false]; exact hm
            | «false» => exact ⟨rfl, hm⟩
            | thrown => exact ⟨rfl, hm⟩
  · simp only [he, Bool.false_eq_true, if_false]
    exact ha

theorem andThen_alike (hh : HooksAlike R h h1) (operation : Operation) (r : Ret × Machine σ)
    (r1 : Ret × Machine τ) (ha : AlikeRet R r r1) :
    AlikeStep R (andThen h operation r) (andThen h1 operation r1) := by
  obtain ⟨x, m⟩ := r
  obtain ⟨x1, m1⟩ := r1
  obtain ⟨hx, hm⟩ := ha
  simp only at hx hm
  subst hx
  cases x1 with
  | «true» => exact documentEnd_alike hh operation m m1 hm
  | «false» => exact ⟨rfl, hm⟩
  | thrown => exact ⟨rfl, hm⟩

theorem close_alike (hh : HooksAlike R h h1) (e : Event) (m : Machine σ) (m1 : Machine τ)
    (ha : Alike R m m1) : AlikeRet R (close h e m) (close h1 e m1) :=
  call_alike hh e _ _ ⟨ha.1, by simp only [ha.2.1], ha.2.2.1, ha.2.2.2⟩

theorem openDocument_alike (hh : HooksAlike R h h1) (t : JsonReaderType) (e : Event)
    (m : Machine σ) (m1 : Machine τ) (ha : Alike R m m1) :
    AlikeRet R (openDocument h t e m) (openDocument h1 t e m1) := by
  unfold openDocument
  have hc := call_alike hh .JsonBegin m m1 ha
  cases hx : call h .JsonBegin m with
  | mk r m2 =>
      cases hy : call h1 .JsonBegin m1 with
      | mk r1 m3 =>
          rw [hx, hy] at hc
          obtain ⟨hr, hm⟩ := hc
          simp only at hr hm
          subst hr
          cases r1 with
          | «true» =>
              exact call_alike hh e _ _ ⟨hm.1, by simp only [hm.2.1], hm.2.2.1, hm.2.2.2⟩
          | «false» => exact ⟨rfl, hm⟩
          | thrown => exact ⟨rfl, hm⟩

theorem keyThenTop_alike (hh : HooksAlike R h h1) (m : Machine σ) (m1 : Machine τ)
    (ha : Alike R m m1) : AlikeRet R (keyThenTop h m) (keyThenTop h1 m1) := by
  unfold keyThenTop
  have hc := readyObjectKey_alike hh m m1 ha
  cases hx : readyObjectKey h m with
  | mk r m2 =>
      cases hy : readyObjectKey h1 m1 with
      | mk r1 m3 =>
          rw [hx, hy] at hc
          obtain ⟨hr, hm⟩ := hc
          simp only at hr hm
          subst hr
          cases r1 with
          | «true» => exact ⟨rfl, hm.1, by simp only [hm.2.1], hm.2.2.1, hm.2.2.2⟩
          | «false» => exact ⟨rfl, hm⟩
          | thrown => exact ⟨rfl, hm⟩

/-- One pass of the main loop from alike states ends alike. -/
theorem parseBody_alike (hh : HooksAlike R h h1) (operation : Operation) (m : Machine σ)
    (m1 : Machine τ) (ha : Alike R m m1) :
    AlikeStep R (parseBody h operation m) (parseBody h1 operation m1) := by
  have fail : ∀ (e e1 : ErrorText),
      AlikeStep R (.return .false { m with error := e }) (.return .false { m1 with error := e1 }) :=
    fun e e1 => ⟨rfl, ha.1, ha.2.1, ha.2.2.1, ha.2.2.2⟩
  have same : ∀ (d : List JsonReaderType), Alike R { m with depth := d } { m1 with depth := d } :=
    fun d => ⟨ha.1, rfl, ha.2.2.1, ha.2.2.2⟩
  have hcur := ha.1.1
  have hdepth := ha.2.1
  revert fail same
  obtain ⟨buffer, depth, self, stop, error, errno⟩ := m
  obtain ⟨buffer1, depth1, self1, stop1, error1⟩ := m1
  intro fail same
  simp only at hcur hdepth
  subst hdepth
  unfold parseBody
  simp only [JsonStringViewBufferReader.value, hcur]
  by_cases hs : isspace buffer.cur = true
  · rw [if_pos hs, if_pos hs]; exact ha
  rw [if_neg hs, if_neg hs]
  by_cases hk : isControlCode buffer.cur = true
  · rw [if_pos hk, if_pos hk]; exact fail _ _
  rw [if_neg hk, if_neg hk]
  cases depth1 with
  | nil =>
      simp only []
      by_cases c1 : (buffer.cur == 123) = true
      · rw [if_pos c1, if_pos c1]
        exact andThen_alike hh _ _ _ (openDocument_alike hh _ _ _ _ ha)
      · rw [if_neg c1, if_neg c1]
        by_cases c2 : (buffer.cur == 91) = true
        · rw [if_pos c2, if_pos c2]
          exact andThen_alike hh _ _ _ (openDocument_alike hh _ _ _ _ ha)
        · rw [if_neg c2, if_neg c2]; exact fail _ _
  | cons t below =>
      cases t with
      | Object =>
          simp only []
          by_cases c1 : (buffer.cur == 34) = true
          · rw [if_pos c1, if_pos c1]
            exact andThen_alike hh _ _ _ (keyThenTop_alike hh _ _ ha)
          · rw [if_neg c1, if_neg c1]
            by_cases c2 : (buffer.cur == 125) = true
            · rw [if_pos c2, if_pos c2]
              exact andThen_alike hh _ _ _ (close_alike hh _ _ _ ha)
            · rw [if_neg c2, if_neg c2]; exact fail _ _
      | ObjectKey =>
          simp only []
          by_cases c1 : (buffer.cur == 58) = true
          · rw [if_pos c1, if_pos c1]
            exact documentEnd_alike hh _ _ _ (same _)
          · rw [if_neg c1, if_neg c1]; exact fail _ _
      | ObjectValue =>
          simp only []
          exact andThen_alike hh _ _ _ (ready_alike hh _ _ _ (same _))
      | ObjectNextPair =>
          simp only []
          by_cases c1 : (buffer.cur == 44) = true
          · rw [if_pos c1, if_pos c1]
            exact documentEnd_alike hh _ _ _ (same _)
          · rw [if_neg c1, if_neg c1]
            by_cases c2 : (buffer.cur == 125) = true
            · rw [if_pos c2, if_pos c2]
              exact andThen_alike hh _ _ _ (close_alike hh _ _ _ ha)
            · rw [if_neg c2, if_neg c2]; exact fail _ _
      | ObjectNextKey =>
          simp only []
          by_cases c1 : (buffer.cur == 34) = true
          · rw [if_pos c1, if_pos c1]
            exact andThen_alike hh _ _ _ (keyThenTop_alike hh _ _ ha)
          · rw [if_neg c1, if_neg c1]; exact fail _ _
      | Array =>
          simp only []
          by_cases c1 : (buffer.cur == 93) = true
          · rw [if_pos c1, if_pos c1]
            exact andThen_alike hh _ _ _ (close_alike hh _ _ _ ha)
          · rw [if_neg c1, if_neg c1]
            exact andThen_alike hh _ _ _ (ready_alike hh _ _ _ (same _))
      | ArrayNext =>
          simp only []
          by_cases c1 : (buffer.cur == 44) = true
          · rw [if_pos c1, if_pos c1]
            exact documentEnd_alike hh _ _ _ (same _)
          · rw [if_neg c1, if_neg c1]
            by_cases c2 : (buffer.cur == 93) = true
            · rw [if_pos c2, if_pos c2]
              exact andThen_alike hh _ _ _ (close_alike hh _ _ _ ha)
            · rw [if_neg c2, if_neg c2]; exact fail _ _
      | ArrayNextValue =>
          simp only []
          exact andThen_alike hh _ _ _ (ready_alike hh _ _ _ (same _))

end




open JsonStringViewBufferReader

section
variable {σ τ : Type} {R : σ → τ → Prop} {h : Hooks σ} {h1 : Hooks τ}

/-- Passes of the main loop from alike states lead to alike states. -/
theorem passes_alike (hh : HooksAlike R h h1) (operation : Operation) (k : Nat) :
    ∀ (m : Machine σ) (m1 : Machine τ), Alike R m m1 →
      ∀ mk, passes h operation k m = some mk →
        ∃ mk1, passes h1 operation k m1 = some mk1 ∧ Alike R mk mk1 := by
  induction k with
  | zero =>
      intro m m1 ha mk hp
      simp only [passes, Option.some.injEq] at hp
      exact ⟨m1, rfl, by rw [← hp]; exact ha⟩
  | succ k ih =>
      intro m m1 ha mk hp
      rw [passes] at hp
      cases hx : m.buffer.ahead with
      | nil => rw [next_nil _ hx] at hp; simp at hp
      | cons ch rest =>
          rw [next_cons _ ch rest hx] at hp
          simp only [] at hp
          have hx1 : m1.buffer.ahead = ch :: rest := by rw [ha.1.2, hx]
          have hb := parseBody_alike hh operation
            { m with buffer := { pos := m.buffer.pos + 1, cur := ch, ahead := rest } }
            { m1 with buffer := { pos := m1.buffer.pos + 1, cur := ch, ahead := rest } }
            ⟨⟨rfl, rfl⟩, ha.2.1, ha.2.2.1, ha.2.2.2⟩
          rw [passes, next_cons _ ch rest hx1]
          simp only []
          cases hs : parseBody h operation { m with buffer := { pos := m.buffer.pos + 1, cur := ch, ahead := rest } } with
          | «continue» m2 =>
              rw [hs] at hp hb
              cases hs1 : parseBody h1 operation { m1 with buffer := { pos := m1.buffer.pos + 1, cur := ch, ahead := rest } } with
              | «continue» m3 =>
                  rw [hs1] at hb
                  exact ih m2 m3 hb mk hp
              | «break» m3 => rw [hs1] at hb; exact hb.elim
              | «return» r m3 => rw [hs1] at hb; exact hb.elim
          | «break» m2 => rw [hs] at hp; simp at hp
          | «return» r m2 => rw [hs] at hp; simp at hp

theorem documentEnd_multiple (h : Hooks σ) (m : Machine σ) :
    documentEnd h .Multiple m = (documentEnd h .Single m).toMultiple := by
  unfold documentEnd
  by_cases he : m.depth.isEmpty = true
  · simp only [he, if_true]
    cases hc : call h .JsonEnd m with
    | mk r m1 =>
        cases r with
        | «true» =>
            have h1 : (Operation.Multiple == Operation.Single) = false := by decide
            simp only [h1, Bool.false_eq_true, if_false, beq_self_eq_true, if_true,
              Step.toMultiple]
        | «false» => rfl
        | thrown => rfl
  · simp only [he, Bool.false_eq_true, if_false, Step.toMultiple]

theorem andThen_multiple (h : Hooks σ) (r : Ret × Machine σ) :
    andThen h .Multiple r = (andThen h .Single r).toMultiple := by
  obtain ⟨x, m⟩ := r
  cases x with
  | «true» => exact documentEnd_multiple h m
  | «false» => rfl
  | thrown => rfl

/-- A pass of the main loop in Multiple mode is the pass in Single mode, but
for the `break` behind a document. -/
theorem parseBody_multiple (h : Hooks σ) (m : Machine σ) :
    parseBody h .Multiple m = (parseBody h .Single m).toMultiple := by
  obtain ⟨buffer, depth, self, stop, error, errno⟩ := m
  unfold parseBody
  simp only [JsonStringViewBufferReader.value]
  by_cases hs : isspace buffer.cur = true
  · rw [if_pos hs, if_pos hs]; rfl
  rw [if_neg hs, if_neg hs]
  by_cases hk : isControlCode buffer.cur = true
  · rw [if_pos hk, if_pos hk]; rfl
  rw [if_neg hk, if_neg hk]
  cases depth with
  | nil =>
      simp only []
      by_cases c1 : (buffer.cur == 123) = true
      · rw [if_pos c1, if_pos c1]; exact andThen_multiple h _
      · rw [if_neg c1, if_neg c1]
        by_cases c2 : (buffer.cur == 91) = true
        · rw [if_pos c2, if_pos c2]; exact andThen_multiple h _
        · rw [if_neg c2, if_neg c2]; rfl
  | cons t below =>
      cases t with
      | Object =>
          simp only []
          by_cases c1 : (buffer.cur == 34) = true
          · rw [if_pos c1, if_pos c1]; exact andThen_multiple h _
          · rw [if_neg c1, if_neg c1]
            by_cases c2 : (buffer.cur == 125) = true
            · rw [if_pos c2, if_pos c2]; exact andThen_multiple h _
            · rw [if_neg c2, if_neg c2]; rfl
      | ObjectKey =>
          simp only []
          by_cases c1 : (buffer.cur == 58) = true
          · rw [if_pos c1, if_pos c1]; exact documentEnd_multiple h _
          · rw [if_neg c1, if_neg c1]; rfl
      | ObjectValue =>
          simp only []
          exact andThen_multiple h _
      | ObjectNextPair =>
          simp only []
          by_cases c1 : (buffer.cur == 44) = true
          · rw [if_pos c1, if_pos c1]; exact documentEnd_multiple h _
          · rw [if_neg c1, if_neg c1]
            by_cases c2 : (buffer.cur == 125) = true
            · rw [if_pos c2, if_pos c2]; exact andThen_multiple h _
            · rw [if_neg c2, if_neg c2]; rfl
      | ObjectNextKey =>
          simp only []
          by_cases c1 : (buffer.cur == 34) = true
          · rw [if_pos c1, if_pos c1]; exact andThen_multiple h _
          · rw [if_neg c1, if_neg c1]; rfl
      | Array =>
          simp only []
          by_cases c1 : (buffer.cur == 93) = true
          · rw [if_pos c1, if_pos c1]; exact andThen_multiple h _
          · rw [if_neg c1, if_neg c1]; exact andThen_multiple h _
      | ArrayNext =>
          simp only []
          by_cases c1 : (buffer.cur == 44) = true
          · rw [if_pos c1, if_pos c1]; exact documentEnd_multiple h _
          · rw [if_neg c1, if_neg c1]
            by_cases c2 : (buffer.cur == 93) = true
            · rw [if_pos c2, if_pos c2]; exact andThen_multiple h _
            · rw [if_neg c2, if_neg c2]; rfl
      | ArrayNextValue =>
          simp only []
          exact andThen_multiple h _

/-- Passes that go on in Single mode are the same passes in Multiple mode. -/
theorem passes_multiple (h : Hooks σ) (k : Nat) :
    ∀ (m mk : Machine σ), passes h .Single k m = some mk → passes h .Multiple k m = some mk := by
  induction k with
  | zero => intro m mk hp; exact hp
  | succ k ih =>
      intro m mk hp
      rw [passes] at hp ⊢
      cases hx : m.buffer.ahead with
      | nil => rw [next_nil _ hx] at hp; simp at hp
      | cons ch rest =>
          rw [next_cons _ ch rest hx] at hp ⊢
          simp only [] at hp ⊢
          rw [parseBody_multiple]
          cases hs : parseBody h .Single { m with buffer := { pos := m.buffer.pos + 1, cur := ch, ahead := rest } } with
          | «continue» m2 =>
              rw [hs] at hp
              simp only [Step.toMultiple]
              exact ih m2 mk hp
          | «break» m2 => rw [hs] at hp; simp at hp
          | «return» r m2 => rw [hs] at hp; simp at hp

end




open JsonStringViewBufferReader

section
variable {σ : Type}

theorem andThen_return (h : Hooks σ) (operation : Operation) (r : Ret × Machine σ) (x : Ret)
    (m1 : Machine σ) (hr : andThen h operation r = .return x m1) : x ≠ .true := by
  obtain ⟨y, m⟩ := r
  cases y with
  | «true» =>
      simp only [andThen, documentEnd] at hr
      by_cases he : m.depth.isEmpty = true
      · simp only [he, if_true] at hr
        cases hc : call h .JsonEnd m with
        | mk z m2 =>
            rw [hc] at hr
            cases z with
            | «true» =>
                simp only [] at hr
                by_cases h1 : (operation == Operation.Single) = true
                · simp [h1] at hr
                · simp only [h1, Bool.false_eq_true, if_false] at hr
                  by_cases h2 : m2.stop = true
                  · simp [h2] at hr
                  · simp [h2] at hr
            | «false» =>
                simp only [Step.return.injEq] at hr
                rw [← hr.1]; simp
            | thrown =>
                simp only [Step.return.injEq] at hr
                rw [← hr.1]; simp
      · simp [he] at hr
  | «false» =>
      simp only [andThen, Step.return.injEq] at hr
      rw [← hr.1]; simp
  | thrown =>
      simp only [andThen, Step.return.injEq] at hr
      rw [← hr.1]; simp

/-- A pass of the main loop never returns true: parse returns true only behind
its loop. -/
theorem parseBody_return (h : Hooks σ) (operation : Operation) (m m1 : Machine σ) (x : Ret)
    (hr : parseBody h operation m = .return x m1) : x ≠ .true := by
  rcases parseBody_shape h operation m with ⟨hc, -⟩ | ⟨f, m0, -, -, hf, -⟩
  · rw [hc] at hr; simp at hr
  · rw [hf] at hr
    exact andThen_return h operation _ x m1 hr

/-- A run that returns true ended behind the loop: at the end of the input with
no container open, or by the `break` behind a document. -/
theorem parseFrom_true (h : Hooks σ) (operation : Operation) (n : Nat) :
    ∀ (m : Machine σ), m.buffer.ahead.length = n →
      ∀ (m1 : Machine σ), parseFrom h operation m = some (.true, m1) →
        (∃ k mk, passes h operation k m = some mk ∧ mk.buffer.ahead = [] ∧ m1.buffer.ahead = []
            ∧ m1.buffer.pos = mk.buffer.pos + 1)
          ∨ (∃ k mk ch rest, passes h operation k m = some mk ∧ mk.buffer.ahead = ch :: rest
              ∧ parseBody h operation
                  { mk with buffer := { pos := mk.buffer.pos + 1, cur := ch, ahead := rest } }
                = .break m1 ∧ m1.depth = []) := by
  induction n using Nat.strong_induction_on with
  | _ n ih =>
    intro m hn m1 hr
    cases ha : m.buffer.ahead with
    | nil =>
        rw [parseFrom_nil _ _ _ ha] at hr
        simp only [Option.some.injEq] at hr
        left
        have hb := parseEnd_buffer { m with buffer := { pos := m.buffer.pos + 1, cur := 0, ahead := [] } }
        rw [hr] at hb
        simp only [] at hb
        exact ⟨0, m, rfl, ha, by rw [hb], by rw [hb]⟩
    | cons ch rest =>
        rw [parseFrom_cons _ _ _ ch rest ha] at hr
        cases hb : parseBody h operation
            { m with buffer := { pos := m.buffer.pos + 1, cur := ch, ahead := rest } } with
        | «continue» m2 =>
            rw [hb] at hr
            simp only [] at hr
            have ho := parseBody_onward h operation _ m2 (Or.inl hb)
            have hlen : m2.buffer.ahead.length < n := by
              have := ho.length_le
              rw [ha] at hn
              simp only [List.length_cons] at hn this
              omega
            have hps : ∀ k, passes h operation (k + 1) m = passes h operation k m2 :=
              fun k => passes_succ_of_continue h operation k m m2 ch rest ha hb
            rcases ih _ hlen m2 rfl m1 hr with ⟨k, mk, h1, h2, h3, h4⟩ | ⟨k, mk, c, r3, h1, h2, h3, h4⟩
            · exact Or.inl ⟨k + 1, mk, by rw [hps k]; exact h1, h2, h3, h4⟩
            · exact Or.inr ⟨k + 1, mk, c, r3, by rw [hps k]; exact h1, h2, h3, h4⟩
        | «break» m2 =>
            rw [hb] at hr
            simp only [Option.some.injEq] at hr
            right
            have hd : m2.depth = [] ∧ m2 = m1 := by
              unfold parseEnd at hr
              by_cases he : (!m2.depth.isEmpty) = true
              · rw [if_pos he] at hr; simp at hr
              · rw [if_neg he] at hr
                simp only [Prod.mk.injEq, true_and] at hr
                refine ⟨?_, hr⟩
                simpa using he
            refine ⟨0, m, ch, rest, rfl, ha, ?_, ?_⟩
            · rw [hb, hd.2]
            · rw [← hd.2]; exact hd.1
        | «return» x m2 =>
            rw [hb] at hr
            simp only [Option.some.injEq, Prod.mk.injEq] at hr
            exact absurd hr.1 (parseBody_return h operation _ m2 x hb)

end




open JsonSAXWriter

/-! ## The protocol checks of the event serializer -/

theorem checkBuffer_some (w : JsonSAXWriter) (b : JsonBufferWriter) (hb : w.buffer = some b) :
    checkBuffer w = (.true, w) := by
  simp only [checkBuffer, hb]

theorem checkCorrectValue_key (w : JsonSAXWriter)
    (hs : w.stack.head? = some .Object ∨ w.stack.head? = some .ObjectNextPair) :
    checkCorrectValue w = (.false, { w with _error := .InvalidOperation }) := by
  obtain ⟨beautiful, error, buffer, stack⟩ := w
  cases stack with
  | nil => simp at hs
  | cons c below =>
      simp only [List.head?_cons, Option.some.injEq] at hs
      rcases hs with hs | hs <;> subst hs <;> rfl

theorem checkIsNotObject_key (w : JsonSAXWriter)
    (hs : w.stack.head? = some .Object ∨ w.stack.head? = some .ObjectNextPair) :
    checkIsNotObject w = (.false, { w with _error := .InvalidOperation }) := by
  obtain ⟨beautiful, error, buffer, stack⟩ := w
  cases stack with
  | nil => simp at hs
  | cons c below =>
      simp only [List.head?_cons, Option.some.injEq] at hs
      rcases hs with hs | hs <;> subst hs <;> rfl

theorem checkIsObject_other (w : JsonSAXWriter) (key «end» : Bool)
    (hs : w.stack = [] ∨ w.stack.head? = some .Array ∨ w.stack.head? = some .ArrayNextValue
      ∨ w.stack.head? = some .ObjectKey) :
    checkIsObject key «end» w = (.false, { w with _error := .InvalidOperation }) := by
  obtain ⟨beautiful, error, buffer, stack⟩ := w
  cases stack with
  | nil => rfl
  | cons c below =>
      simp only [List.head?_cons, Option.some.injEq, reduceCtorEq, false_or] at hs
      rcases hs with hs | hs | hs <;> subst hs <;> rfl

/-- A value call or a container opening in a writer with a sink whose innermost
open container awaits a key. -/
theorem value_rejected (w : JsonSAXWriter) (b : JsonBufferWriter) (hb : w.buffer = some b)
    (hs : w.stack.head? = some .Object ∨ w.stack.head? = some .ObjectNextPair)
    (act : Action) :
    seq checkBuffer (seq checkCorrectValue act) w = (.false, { w with _error := .InvalidOperation })
      ∧ seq checkBuffer (seq checkIsNotObject act) w
          = (.false, { w with _error := .InvalidOperation }) := by
  simp only [seq, checkBuffer_some w b hb, checkCorrectValue_key w hs, checkIsNotObject_key w hs,
    and_self]

/-- C20 (serializer protocol rejection): in a writer with a sink, when the top
of the state stack is `Object` or `ObjectNextPair` (the innermost open container
is an object that awaits a key), each overload of `Value`, `Null`, `ObjectBegin`
and `ArrayBegin` returns false with the error InvalidOperation and changes
nothing else: no byte is written and the state stack is as before.  And
`ObjectKey` returns false with InvalidOperation, again changing nothing else,
when the stack is empty (no container is open), when its top is `Array` or
`ArrayNextValue` (the innermost container is an array), and when its top is
`ObjectKey` (a key was just written and a value is expected). -/
theorem C20_protocol_rejection (w : JsonSAXWriter) (b : JsonBufferWriter)
    (hb : w.buffer = some b) :
    ((w.stack.head? = some .Object ∨ w.stack.head? = some .ObjectNextPair) →
        (∀ value, ValueString value w = (.false, { w with _error := .InvalidOperation }))
        ∧ (∀ value, ValueDouble value w = (.false, { w with _error := .InvalidOperation }))
        ∧ (∀ value, ValueLongLong value w = (.false, { w with _error := .InvalidOperation }))
        ∧ (∀ value, ValueBool value w = (.false, { w with _error := .InvalidOperation }))
        ∧ Null w = (.false, { w with _error := .InvalidOperation })
        ∧ ObjectBegin w = (.false, { w with _error := .InvalidOperation })
        ∧ ArrayBegin w = (.false, { w with _error := .InvalidOperation }))
      ∧ ((w.stack = [] ∨ w.stack.head? = some .Array ∨ w.stack.head? = some .ArrayNextValue
            ∨ w.stack.head? = some .ObjectKey) →
          ∀ key, ObjectKey key w = (.false, { w with _error := .InvalidOperation })) := by
  constructor
  · intro hs
    refine ⟨fun v => (value_rejected w b hb hs _).1, fun v => (value_rejected w b hb hs _).1,
      fun v => (value_rejected w b hb hs _).1, fun v => (value_rejected w b hb hs _).1,
      (value_rejected w b hb hs _).1, (value_rejected w b hb hs _).2,
      (value_rejected w b hb hs _).2⟩
  · intro hs key
    simp only [ObjectKey, seq, checkBuffer_some w b hb, checkIsObject_other w true false hs]

/-- C20, witness: behind `{` a `Null` call is rejected, and so is `ObjectBegin`
behind `{"a":1`; an `ObjectKey` call is rejected in a new writer, behind `[` and
behind `{"a":`.  The sink and the stack stay as they were. -/
theorem C20_protocol_rejection_witness :
    Null { beautiful := false, _error := .empty, buffer := some { is_open := true, count := 1, json := [123] }, stack := [.Object] }
        = (.false, { beautiful := false, _error := .InvalidOperation, buffer := some { is_open := true, count := 1, json := [123] }, stack := [.Object] })
      ∧ ObjectKey [97] { beautiful := false, _error := .empty, buffer := some { is_open := true, count := 1, json := [91] }, stack := [.Array] }
        = (.false, { beautiful := false, _error := .InvalidOperation, buffer := some { is_open := true, count := 1, json := [91] }, stack := [.Array] }) :=
  ⟨((C20_protocol_rejection
      { beautiful := false, _error := .empty, buffer := some { is_open := true, count := 1, json := [123] }, stack := [.Object] }
      { is_open := true, count := 1, json := [123] } rfl).1 (Or.inl rfl)).2.2.2.2.1,
   (C20_protocol_rejection
      { beautiful := false, _error := .empty, buffer := some { is_open := true, count := 1, json := [91] }, stack := [.Array] }
      { is_open := true, count := 1, json := [91] } rfl).2 (Or.inr (Or.inl rfl)) [97]⟩




open JsonStringViewBufferReader

/-! ## The length caps of the number lexer -/

/-- At a capped index a byte that is no terminator ends the scan: the byte is
not pushed, `exit` is set and `end` stays `None`. -/
theorem numberStep_capped (neg : Bool) (depth : List JsonReaderType) (i points x : Nat)
    (hcap : capped neg points i = true) (hc : isControlCode x = false) (hs : isspace x = false)
    (h1 : x ≠ 44) (h2 : x ≠ 125) (h3 : x ≠ 93) :
    numberStep neg depth i points x = .leave .None depth := by
  unfold numberStep
  rw [if_neg (by simp [hc]), if_neg (by simp [hs]), if_neg (by simpa using h1),
    if_neg (by simpa using h2), if_neg (by simpa using h3), if_pos hcap]

/-- A scan that was left without a terminator on a byte that is no whitespace is
rejected with "Invalid value": no hook is called. -/
theorem readyNumberEnd_none {σ : Type} (h : Hooks σ) (scan : NumberScan) (m : Machine σ)
    (he : scan.exit = true) (hn : scan.end = .None) (hs : isspace scan.ch = false) :
    readyNumberEnd h scan m = (.false, { m with error := makeError .InvalidValueMsg m.buffer }) := by
  unfold readyNumberEnd
  rw [if_neg (by simp [he]), if_pos (by simp [hn, hs])]

theorem capped_at_cap (neg : Bool) : capped neg 0 (if neg then 19 else 18) = true := by
  cases neg <;> decide

theorem digit_not_terminator (x : Nat) (hx : isdigit x = true) :
    isControlCode x = false ∧ isspace x = false ∧ x ≠ 44 ∧ x ≠ 125 ∧ x ≠ 93 := by
  have h := (isdigit_iff x).mp hx
  refine ⟨isdigit_not_control x hx, isdigit_not_space x hx, ?_, ?_, ?_⟩ <;> omega

/-- An integer literal of 20 digits or more is rejected at its 20th digit. -/
theorem readyNumber_overlong {σ : Type} (h : Hooks σ) (m : Machine σ) (neg : Bool)
    (ds : List Nat) (digit : Nat) (tail rest : List Nat)
    (hlit : literalText neg ds = digit :: tail)
    (hds : ∀ d ∈ ds, isdigit d = true) (hlen : 20 ≤ ds.length)
    (ha : m.buffer.ahead = tail ++ rest) :
    ∃ x more, ds.drop 19 = x :: more ∧
      readyNumber h digit m
        = (.false, { m with buffer := { pos := m.buffer.pos + (if neg then 20 else 19), cur := x, ahead := more ++ rest }, error := makeError .InvalidValueMsg { pos := m.buffer.pos + (if neg then 20 else 19), cur := x, ahead := more ++ rest } }) := by
  have hsplit : ds = ds.take 19 ++ ds.drop 19 := (List.take_append_drop 19 ds).symm
  cases hd : ds.drop 19 with
  | nil =>
      have := congrArg List.length hd
      simp only [List.length_drop, List.length_nil] at this
      omega
  | cons x more =>
      refine ⟨x, more, rfl, ?_⟩
      have htake : (ds.take 19).length = 19 := by simp; omega
      have hne : ds.take 19 ≠ [] := by
        intro h0; rw [h0] at htake; simp at htake
      have hds1 : ∀ d ∈ ds.take 19, isdigit d = true := fun d hd1 => hds d (List.mem_of_mem_take hd1)
      have hx : isdigit x = true := by
        apply hds
        rw [hsplit, hd]
        simp
      obtain ⟨digit1, tail1, h1, -, -, htl⟩ := literal_cases neg (ds.take 19) hne hds1
      have hfull : digit :: tail = digit1 :: (tail1 ++ x :: more) := by
        rw [← hlit, literalText, hsplit, hd, ← List.append_assoc, h1]
        simp
      simp only [List.cons.injEq] at hfull
      obtain ⟨rfl, rfl⟩ := hfull
      have hlen1 : tail1.length = if neg then 19 else 18 := by
        rw [htake] at htl
        cases neg <;> simp at htl ⊢ <;> omega
      have ha1 : m.buffer.ahead = tail1 ++ x :: (more ++ rest) := by rw [ha]; simp
      rw [readyNumber_integer h m neg (ds.take 19) digit tail1 x (more ++ rest) h1 hne hds1
        (by omega) ha1]
      obtain ⟨c1, c2, c3, c4, c5⟩ := digit_not_terminator x hx
      rw [numberStep_capped neg m.depth tail1.length 0 x (by rw [hlen1]; exact capped_at_cap neg)
        c1 c2 c3 c4 c5]
      simp only []
      rw [readyNumberEnd_none h _ _ rfl rfl c2]
      have hp : m.buffer.pos + (tail1.length : Int) + 1 = m.buffer.pos + (if neg then 20 else 19) := by
        rw [hlen1]; cases neg <;> simp <;> omega
      simp only [hp]




open JsonStringViewBufferReader

/-! ## Where the builder puts a value -/

/-- With an object on top of the builder's stack and no byte in `key`,
`insertValue` takes the array branch, where `std::get` throws. -/
theorem insertValue_empty_key {κ : Type} (value : JsonValue) (r : JsonReader κ) (cell : Nat)
    (below : List Nat) (map : Nat) (hs : r.stack = cell :: below)
    (hc : r.heap.values[cell]? = some (.Object map)) (hk : r.key = []) :
    JsonReader.insertValue value r = none := by
  unfold JsonReader.insertValue
  rw [hs]
  simp only [hk, List.isEmpty_nil, Bool.not_true, Bool.false_eq_true, if_false, hc]

/-- With an object on top of the builder's stack and a key of at least one
byte, `insertValue` stores the value under the key, unless the key is present,
and leaves `key` empty. -/
theorem insertValue_key {κ : Type} (value : JsonValue) (r : JsonReader κ) (cell : Nat)
    (below : List Nat) (map : Nat) (entries : List (List Nat × JsonValue))
    (hs : r.stack = cell :: below) (hc : r.heap.values[cell]? = some (.Object map))
    (hm : r.heap.maps[map]? = some entries) (hk : r.key ≠ []) :
    JsonReader.insertValue value r
      = some { r with heap := { r.heap with maps := r.heap.maps.set map (mapInsert r.key value entries) }, key := [] } := by
  unfold JsonReader.insertValue
  rw [hs]
  have : (!r.key.isEmpty) = true := by
    cases hk1 : r.key with
    | nil => exact absurd hk1 hk
    | cons a as => rfl
  simp only [this, if_true, hc, hm]

/-- With an array on top of the builder's stack and no byte in `key`,
`insertValue` appends the value to the array. -/
theorem insertValue_array {κ : Type} (value : JsonValue) (r : JsonReader κ) (cell : Nat)
    (below : List Nat) (array : Nat) (elements : List JsonValue)
    (hs : r.stack = cell :: below) (hc : r.heap.values[cell]? = some (.Array array))
    (hm : r.heap.arrays[array]? = some elements) (hk : r.key = []) :
    JsonReader.insertValue value r
      = some { r with heap := { r.heap with arrays := r.heap.arrays.set array (elements ++ [value]) } } := by
  unfold JsonReader.insertValue
  rw [hs]
  simp only [hk, List.isEmpty_nil, Bool.not_true, Bool.false_eq_true, if_false, hc, hm]

/-- C12 (key attachment), evaluated where it fails.  The event parser accepts
`{"":1}` and reports the key as the empty string.  In the builder the hook
`ObjectKey` stores that key, and the value hook behind it finds `key` empty,
treats the value as an array element and applies `std::get` for an array to the
cell of the object: the exception `std::bad_variant_access` leaves
`JsonReader::parse`, and no Object is returned.  With the key `a` the same
document parses to the object that holds `1` under `a`. -/
theorem C12_empty_key_throws :
    (JsonSAXReader.parse recorder freshRecorder (ofString inputC12) .Single).map
        (fun p => (p.1, p.2.self))
      = some (.true, [.JsonBegin, .ObjectBegin, .ObjectKey [], .ValueLongLong 1, .ObjectEnd, .JsonEnd])
      ∧ JsonReader.hooks JsonReader.keep (.ObjectKey [])
          { heap := { values := [.Empty, .Empty, .Object 0], maps := [[]], arrays := [] }, root := { value := 2 }, stack := [2], key := [], user := { value := 1 } }
        = some ({ heap := { values := [.Empty, .Empty, .Object 0], maps := [[]], arrays := [] }, root := { value := 2 }, stack := [2], key := [], user := { value := 1 } }, false)
      ∧ JsonReader.hooks JsonReader.keep (.ValueLongLong 1)
          { heap := { values := [.Empty, .Empty, .Object 0], maps := [[]], arrays := [] }, root := { value := 2 }, stack := [2], key := [], user := { value := 1 } }
        = none
      ∧ (JsonReader.parseValue false inputC12).map (fun p => p.1) = some .thrown
      ∧ JsonReader.parseValue false [123, 34, 97, 34, 58, 49, 125]
        = some (.true, { value := 2 }, { values := [.Empty, .Empty, .Object 0, .LongLong 1], maps := [[([97], { value := 3 })]], arrays := [] })
      ∧ Heap.tree { values := [.Empty, .Empty, .Object 0, .LongLong 1], maps := [[([97], { value := 3 })]], arrays := [] } 3 { value := 2 }
        = some (.Object [([97], .LongLong 1)]) := by
  refine ⟨by decide, by rfl, by rfl, by decide, by decide, by rfl⟩




/-! ## Maps and shared cells -/

theorem lt_of_getElem? {α : Type} {l : List α} {i : Nat} {a : α} (h : l[i]? = some a) :
    i < l.length := by
  obtain ⟨h1, _⟩ := List.getElem?_eq_some_iff.mp h
  exact h1

/-- The order of the keys is total: two keys of which neither is less are equal. -/
theorem keyLess_total : ∀ (a b : List Nat), keyLess a b = false → keyLess b a = false → a = b
  | [], [], _, _ => rfl
  | [], _ :: _, h, _ => by simp [keyLess] at h
  | _ :: _, [], _, h => by simp [keyLess] at h
  | a :: as, b :: bs, h1, h2 => by
      simp only [keyLess, Bool.or_eq_false_iff, decide_eq_false_iff_not, Bool.and_eq_false_imp,
        beq_iff_eq, not_lt] at h1 h2
      have hab : a = b := by omega
      subst hab
      rw [keyLess_total as bs (h1.2 rfl) (h2.2 rfl)]

theorem keyLess_irrefl : ∀ (a : List Nat), keyLess a a = false
  | [] => rfl
  | a :: as => by simp [keyLess, keyLess_irrefl as]

theorem mapFind_cons (key k : List Nat) (v : JsonValue) (rest : List (List Nat × JsonValue)) :
    mapFind key ((k, v) :: rest) = if k = key then some v else mapFind key rest := by
  unfold mapFind
  rw [List.find?_cons]
  by_cases hk : k = key
  · have : (k == key) = true := by simpa using hk
    simp only [this, if_pos hk, Option.map_some']
  · have : (k == key) = false := by simpa using hk
    simp only [this, if_neg hk]

/-- A key that is not in the map is in it behind `insert`, with the inserted
value. -/
theorem mapFind_insert (key : List Nat) (x : JsonValue) :
    ∀ (entries : List (List Nat × JsonValue)), mapFind key entries = none →
      mapFind key (mapInsert key x entries) = some x := by
  intro entries
  induction entries with
  | nil => intro _; simp [mapInsert, mapFind_cons]
  | cons p rest ih =>
      obtain ⟨k, v⟩ := p
      intro hf
      rw [mapFind_cons] at hf
      by_cases hk : k = key
      · rw [if_pos hk] at hf; simp at hf
      · rw [if_neg hk] at hf
        unfold mapInsert
        by_cases h1 : keyLess key k = true
        · rw [if_pos h1, mapFind_cons, if_pos rfl]
        · rw [if_neg h1]
          by_cases h2 : keyLess k key = true
          · rw [if_pos h2, mapFind_cons, if_neg hk]
            exact ih hf
          · exact absurd (keyLess_total k key (by simpa using h2) (by simpa using h1)) hk

/-- A key that is not in the map makes the map one entry longer. -/
theorem mapInsert_length (key : List Nat) (x : JsonValue) :
    ∀ (entries : List (List Nat × JsonValue)), mapFind key entries = none →
      (mapInsert key x entries).length = entries.length + 1 := by
  intro entries
  induction entries with
  | nil => intro _; rfl
  | cons p rest ih =>
      obtain ⟨k, v⟩ := p
      intro hf
      rw [mapFind_cons] at hf
      by_cases hk : k = key
      · rw [if_pos hk] at hf; simp at hf
      · rw [if_neg hk] at hf
        unfold mapInsert
        by_cases h1 : keyLess key k = true
        · rw [if_pos h1]; rfl
        · rw [if_neg h1]
          by_cases h2 : keyLess k key = true
          · rw [if_pos h2, List.length_cons, ih hf]; rfl
          · exact absurd (keyLess_total k key (by simpa using h2) (by simpa using h1)) hk

/-- A key that is in the map is left as it is by `insert`. -/
theorem mapFind_insert_other (key other : List Nat) (x : JsonValue) (hne : other ≠ key) :
    ∀ (entries : List (List Nat × JsonValue)),
      mapFind other (mapInsert key x entries) = mapFind other entries := by
  intro entries
  induction entries with
  | nil => simp [mapInsert, mapFind_cons, Ne.symm hne, mapFind]
  | cons p rest ih =>
      obtain ⟨k, v⟩ := p
      unfold mapInsert
      by_cases h1 : keyLess key k = true
      · rw [if_pos h1, mapFind_cons, if_neg (Ne.symm hne)]
      · rw [if_neg h1]
        by_cases h2 : keyLess k key = true
        · rw [if_pos h2, mapFind_cons, mapFind_cons, ih]
        · rw [if_neg h2]

/-- A cell holds what was assigned to it. -/
theorem assign_self (h : Heap) (v : JsonValue) (x : Value) (hv : v.value < h.values.length) :
    (JsonValue.assign h v x).values[v.value]? = some x := by
  simp only [JsonValue.assign]
  exact List.getElem?_set_self hv

/-- Any other cell holds what it held. -/
theorem assign_other (h : Heap) (v w : JsonValue) (x : Value) (hne : w.value ≠ v.value) :
    (JsonValue.assign h w x).values[v.value]? = h.values[v.value]? := by
  simp only [JsonValue.assign]
  exact List.getElem?_set_ne hne

theorem assign_maps (h : Heap) (v : JsonValue) (x : Value) :
    (JsonValue.assign h v x).maps = h.maps ∧ (JsonValue.assign h v x).arrays = h.arrays :=
  ⟨rfl, rfl⟩




/-! ## Copies of values and of containers -/

theorem copy_spec (h : Heap) (v : JsonValue) (x : Value) (hx : h.values[v.value]? = some x) :
    JsonValue.copy h v
        = some ({ h with values := h.values ++ [x] }, { value := h.values.length })
      ∧ (h.values ++ [x])[h.values.length]? = some x
      ∧ (h.values ++ [x])[v.value]? = some x
      ∧ h.values.length ≠ v.value := by
  have hv := lt_of_getElem? hx
  refine ⟨?_, List.getElem?_concat_length _ _, ?_, by omega⟩
  · simp only [JsonValue.copy, hx, Heap.newValue]
  · rw [List.getElem?_append_left hv, hx]

/-- C17, as the code has it (a copy made by `copy()` is independent, a copy made
by the copy constructor is not).  Let the cell of `v` hold `x`: a String, a
Double, a LongLong, a Bool, Null, or anything else.  `v.copy()` yields a value
`w` with a cell of its own that holds `x`, and whatever a setter assigns to `w`
(`assign` is the body of all of them, `setLongLong` one of them), the cell of
`v` still holds `x`.  A copy made by copy construction or copy assignment
points to the cell of `v`: what a setter assigns to it is what `v` holds
afterwards. -/
theorem C17_copy_independence (h : Heap) (v : JsonValue) (x : Value)
    (hx : h.values[v.value]? = some x) :
    (∃ h1 w, JsonValue.copy h v = some (h1, w) ∧ h1.values[w.value]? = some x
        ∧ (∀ y, (JsonValue.assign h1 w y).values[v.value]? = some x
            ∧ (JsonValue.assign h1 w y).values[w.value]? = some y)
        ∧ (∀ n, (JsonValue.setLongLong h1 w n).values[v.value]? = some x))
      ∧ (∀ y, (JsonValue.assign h v.copyConstruct y).values[v.value]? = some y)
      ∧ (∀ n, (JsonValue.setLongLong h v.copyConstruct n).values[v.value]? = some (.LongLong n)) := by
  obtain ⟨h1, h2, h3, h4⟩ := copy_spec h v x hx
  have hv := lt_of_getElem? hx
  refine ⟨⟨_, _, h1, h2, ?_, ?_⟩, ?_, ?_⟩
  · intro y
    constructor
    · rw [assign_other _ v _ y h4]; exact h3
    · exact assign_self _ _ y (by simp)
  · intro n
    rw [JsonValue.setLongLong, assign_other _ v _ _ h4]; exact h3
  · intro y
    exact assign_self h v y hv
  · intro n
    exact assign_self h v (.LongLong n) hv

/-- C17, witness: a value that holds the LongLong `5`.  Its `copy()` is cell 1;
`setLongLong(6)` on the copy leaves `5` in cell 0, and `setLongLong(6)` on a
copy-constructed value puts `6` into cell 0. -/
theorem C17_copy_independence_witness :
    (∃ h1 w, JsonValue.copy { values := [.LongLong 5], maps := [], arrays := [] } { value := 0 }
          = some (h1, w)
        ∧ h1.values[w.value]? = some (.LongLong 5)
        ∧ (∀ y, (JsonValue.assign h1 w y).values[0]? = some (.LongLong 5)
            ∧ (JsonValue.assign h1 w y).values[w.value]? = some y)
        ∧ (∀ n, (JsonValue.setLongLong h1 w n).values[0]? = some (.LongLong 5)))
      ∧ (∀ y, (JsonValue.assign { values := [.LongLong 5], maps := [], arrays := [] }
            (JsonValue.copyConstruct { value := 0 }) y).values[0]? = some y)
      ∧ (∀ n, (JsonValue.setLongLong { values := [.LongLong 5], maps := [], arrays := [] }
            (JsonValue.copyConstruct { value := 0 }) n).values[0]? = some (.LongLong n)) :=
  C17_copy_independence { values := [.LongLong 5], maps := [], arrays := [] } { value := 0 }
    (.LongLong 5) rfl

/-- C17 as stated fails for a value `v` that holds the LongLong `5`: the copy
`w` made by the copy constructor is the same cell, and after `w.setLongLong(6)`
the value `v` holds `6`. -/
theorem C17_counterexample :
    Heap.type { values := [.LongLong 5], maps := [], arrays := [] } { value := 0 } = some .LongLong
      ∧ isPrimitive (.LongLong 5) = true
      ∧ JsonValue.copyConstruct { value := 0 } = { value := 0 }
      ∧ JsonValue.setLongLong { values := [.LongLong 5], maps := [], arrays := [] }
          (JsonValue.copyConstruct { value := 0 }) 6
        = { values := [.LongLong 6], maps := [], arrays := [] } := by
  decide




theorem objectCopy_spec (h : Heap) (o : Object) (entries : List (List Nat × JsonValue))
    (hm : h.maps[o.map]? = some entries) :
    Object.copy h o = some ({ h with maps := h.maps ++ [entries] }, { map := h.maps.length })
      ∧ (h.maps ++ [entries])[h.maps.length]? = some entries
      ∧ (h.maps ++ [entries])[o.map]? = some entries
      ∧ h.maps.length ≠ o.map := by
  have hv := lt_of_getElem? hm
  refine ⟨?_, List.getElem?_concat_length _ _, ?_, by omega⟩
  · simp only [Object.copy, hm]
  · rw [List.getElem?_append_left hv, hm]

theorem arrayCopy_spec (h : Heap) (a : Array) (elements : List JsonValue)
    (hm : h.arrays[a.array]? = some elements) :
    Array.copy h a = some ({ h with arrays := h.arrays ++ [elements] }, { array := h.arrays.length })
      ∧ (h.arrays ++ [elements])[h.arrays.length]? = some elements
      ∧ (h.arrays ++ [elements])[a.array]? = some elements
      ∧ h.arrays.length ≠ a.array := by
  have hv := lt_of_getElem? hm
  refine ⟨?_, List.getElem?_concat_length _ _, ?_, by omega⟩
  · simp only [Array.copy, hm]
  · rw [List.getElem?_append_left hv, hm]

/-- What `copy()` of an object shares with the original and what not. -/
theorem objectCopy_shares (h : Heap) (o : Object) (entries : List (List Nat × JsonValue))
    (hm : h.maps[o.map]? = some entries) :
    ∃ h1 c, Object.copy h o = some (h1, c) ∧ h1.maps[c.map]? = some entries
      ∧ h1.maps[o.map]? = some entries ∧ c.map ≠ o.map
      ∧ (∀ key value, ∃ h2, Object.insert h1 c key value = some h2
          ∧ h2.maps[o.map]? = some entries)
      ∧ (∀ key, ∃ h2, Object.remove h1 c key = some h2 ∧ h2.maps[o.map]? = some entries)
      ∧ (∃ h2, Object.clear h1 c = some h2 ∧ h2.maps[o.map]? = some entries)
      ∧ (∀ key v, mapFind key entries = some v → v.value < h.values.length → ∀ y,
          Object.index h1 c key = some (h1, v)
            ∧ Object.value (JsonValue.assign h1 v y) o key = some (JsonValue.assign h1 v y, v)
            ∧ (JsonValue.assign h1 v y).values[v.value]? = some y) := by
  obtain ⟨h1, h2, h3, h4⟩ := objectCopy_spec h o entries hm
  refine ⟨_, _, h1, h2, h3, h4, ?_, ?_, ?_, ?_⟩
  · intro key value
    refine ⟨_, by simp only [Object.insert, h2]; rfl, ?_⟩
    simp only []
    rw [List.getElem?_set_ne h4]; exact h3
  · intro key
    refine ⟨_, by simp only [Object.remove, h2]; rfl, ?_⟩
    simp only []
    rw [List.getElem?_set_ne h4]; exact h3
  · refine ⟨_, by simp only [Object.clear, h2]; rfl, ?_⟩
    simp only []
    rw [List.getElem?_set_ne h4]; exact h3
  · intro key v hf hv y
    refine ⟨?_, ?_, ?_⟩
    · simp only [Object.index, h2, hf]
    · simp only [Object.value, (assign_maps _ v y).1, h3, hf]
      rfl
    · exact assign_self _ v y hv

/-- What `copy()` of an array shares with the original and what not. -/
theorem arrayCopy_shares (h : Heap) (a : Array) (elements : List JsonValue)
    (hm : h.arrays[a.array]? = some elements) :
    ∃ h1 c, Array.copy h a = some (h1, c) ∧ h1.arrays[c.array]? = some elements
      ∧ h1.arrays[a.array]? = some elements ∧ c.array ≠ a.array
      ∧ (∀ value, ∃ h2, Array.append h1 c value = some h2 ∧ h2.arrays[a.array]? = some elements)
      ∧ (∃ h2, Array.clear h1 c = some h2 ∧ h2.arrays[a.array]? = some elements)
      ∧ (∀ i v, elements[i]? = some v → v.value < h.values.length → ∀ y,
          Array.at h1 c i = some v
            ∧ Array.at (JsonValue.assign h1 v y) a i = some v
            ∧ (JsonValue.assign h1 v y).values[v.value]? = some y) := by
  obtain ⟨h1, h2, h3, h4⟩ := arrayCopy_spec h a elements hm
  refine ⟨_, _, h1, h2, h3, h4, ?_, ?_, ?_⟩
  · intro value
    refine ⟨_, by simp only [Array.append, h2]; rfl, ?_⟩
    simp only []
    rw [List.getElem?_set_ne h4]; exact h3
  · refine ⟨_, by simp only [Array.clear, h2]; rfl, ?_⟩
    simp only []
    rw [List.getElem?_set_ne h4]; exact h3
  · intro i v hf hv y
    refine ⟨?_, ?_, ?_⟩
    · simp only [Array.at, h2, hf]
    · simp only [Array.at, (assign_maps _ v y).2, h3, hf]
    · exact assign_self _ v y hv

/-- C18, as the code has it (`copy()` copies the map or the vector, not the
values in it).  For an object `o` with the entries `entries` and `c = o.copy()`:
`c` has a map of its own with the same entries, and `insert`, `remove` and
`clear` through `c` leave the entries of `o` as they are.  But an entry of `c`
is the `JsonValue` that `o` holds under the same key, with the same cell: for a
key present in `o`, `c[key]` is that value, and after a setter has assigned `y`
through it (`c[key].setLongLong(5)`, `c[key] = 5`), `o.value(key)` is a value
whose cell holds `y`.  The same holds for `Array::copy()` with `append`, `clear`
and the element access `at`. -/
theorem C18_copy_shares_cells (h : Heap) :
    (∀ (o : Object) (entries : List (List Nat × JsonValue)), h.maps[o.map]? = some entries →
        ∃ h1 c, Object.copy h o = some (h1, c) ∧ h1.maps[c.map]? = some entries
          ∧ h1.maps[o.map]? = some entries ∧ c.map ≠ o.map
          ∧ (∀ key value, ∃ h2, Object.insert h1 c key value = some h2
              ∧ h2.maps[o.map]? = some entries)
          ∧ (∀ key, ∃ h2, Object.remove h1 c key = some h2 ∧ h2.maps[o.map]? = some entries)
          ∧ (∃ h2, Object.clear h1 c = some h2 ∧ h2.maps[o.map]? = some entries)
          ∧ (∀ key v, mapFind key entries = some v → v.value < h.values.length → ∀ y,
              Object.index h1 c key = some (h1, v)
                ∧ Object.value (JsonValue.assign h1 v y) o key = some (JsonValue.assign h1 v y, v)
                ∧ (JsonValue.assign h1 v y).values[v.value]? = some y))
      ∧ (∀ (a : Array) (elements : List JsonValue), h.arrays[a.array]? = some elements →
          ∃ h1 c, Array.copy h a = some (h1, c) ∧ h1.arrays[c.array]? = some elements
            ∧ h1.arrays[a.array]? = some elements ∧ c.array ≠ a.array
            ∧ (∀ value, ∃ h2, Array.append h1 c value = some h2
                ∧ h2.arrays[a.array]? = some elements)
            ∧ (∃ h2, Array.clear h1 c = some h2 ∧ h2.arrays[a.array]? = some elements)
            ∧ (∀ i v, elements[i]? = some v → v.value < h.values.length → ∀ y,
                Array.at h1 c i = some v
                  ∧ Array.at (JsonValue.assign h1 v y) a i = some v
                  ∧ (JsonValue.assign h1 v y).values[v.value]? = some y)) :=
  ⟨fun o entries hm => objectCopy_shares h o entries hm,
   fun a elements hm => arrayCopy_shares h a elements hm⟩

/-- C18, witness: the object with the entry `k: 1` (the LongLong in cell 0) and
the array with the element `1` (the same cell). -/
theorem C18_copy_shares_cells_witness :
    (∃ h1 c, Object.copy { values := [.LongLong 1], maps := [[([107], { value := 0 })]], arrays := [[{ value := 0 }]] } { map := 0 } = some (h1, c)
        ∧ h1.maps[c.map]? = some [([107], { value := 0 })]
        ∧ h1.maps[0]? = some [([107], { value := 0 })] ∧ c.map ≠ 0
        ∧ (∀ key value, ∃ h2, Object.insert h1 c key value = some h2
            ∧ h2.maps[0]? = some [([107], { value := 0 })])
        ∧ (∀ key, ∃ h2, Object.remove h1 c key = some h2
            ∧ h2.maps[0]? = some [([107], { value := 0 })])
        ∧ (∃ h2, Object.clear h1 c = some h2 ∧ h2.maps[0]? = some [([107], { value := 0 })])
        ∧ (∀ key v, mapFind key [([107], { value := 0 })] = some v → v.value < 1 → ∀ y,
            Object.index h1 c key = some (h1, v)
              ∧ Object.value (JsonValue.assign h1 v y) { map := 0 } key
                  = some (JsonValue.assign h1 v y, v)
              ∧ (JsonValue.assign h1 v y).values[v.value]? = some y))
      ∧ (∃ h1 c, Array.copy { values := [.LongLong 1], maps := [[([107], { value := 0 })]], arrays := [[{ value := 0 }]] } { array := 0 } = some (h1, c)
          ∧ h1.arrays[c.array]? = some [{ value := 0 }]
          ∧ h1.arrays[0]? = some [{ value := 0 }] ∧ c.array ≠ 0
          ∧ (∀ value, ∃ h2, Array.append h1 c value = some h2
              ∧ h2.arrays[0]? = some [{ value := 0 }])
          ∧ (∃ h2, Array.clear h1 c = some h2 ∧ h2.arrays[0]? = some [{ value := 0 }])
          ∧ (∀ i v, [({ value := 0 } : JsonValue)][i]? = some v → v.value < 1 → ∀ y,
              Array.at h1 c i = some v
                ∧ Array.at (JsonValue.assign h1 v y) { array := 0 } i = some v
                ∧ (JsonValue.assign h1 v y).values[v.value]? = some y)) :=
  ⟨(C18_copy_shares_cells { values := [.LongLong 1], maps := [[([107], { value := 0 })]], arrays := [[{ value := 0 }]] }).1
      { map := 0 } [([107], { value := 0 })] rfl,
   (C18_copy_shares_cells { values := [.LongLong 1], maps := [[([107], { value := 0 })]], arrays := [[{ value := 0 }]] }).2
      { array := 0 } [{ value := 0 }] rfl⟩

/-- C18 as stated fails for the object `o` with the entry `k: 1`: with
`c = o.copy()`, the call `c["k"].setLongLong(5)` writes to the cell that `o`
holds under `k` as well, so `o.value("k")`, which held the LongLong `1`, holds
`5` afterwards. -/
theorem C18_counterexample :
    Object.value { values := [.LongLong 1], maps := [[([107], { value := 0 })]], arrays := [] } { map := 0 } [107]
        = some ({ values := [.LongLong 1], maps := [[([107], { value := 0 })]], arrays := [] }, { value := 0 })
      ∧ Object.copy { values := [.LongLong 1], maps := [[([107], { value := 0 })]], arrays := [] } { map := 0 }
        = some ({ values := [.LongLong 1], maps := [[([107], { value := 0 })], [([107], { value := 0 })]], arrays := [] }, { map := 1 })
      ∧ Object.index { values := [.LongLong 1], maps := [[([107], { value := 0 })], [([107], { value := 0 })]], arrays := [] } { map := 1 } [107]
        = some ({ values := [.LongLong 1], maps := [[([107], { value := 0 })], [([107], { value := 0 })]], arrays := [] }, { value := 0 })
      ∧ JsonValue.setLongLong { values := [.LongLong 1], maps := [[([107], { value := 0 })], [([107], { value := 0 })]], arrays := [] } { value := 0 } 5
        = { values := [.LongLong 5], maps := [[([107], { value := 0 })], [([107], { value := 0 })]], arrays := [] }
      ∧ Object.value { values := [.LongLong 5], maps := [[([107], { value := 0 })], [([107], { value := 0 })]], arrays := [] } { map := 0 } [107]
        = some ({ values := [.LongLong 5], maps := [[([107], { value := 0 })], [([107], { value := 0 })]], arrays := [] }, { value := 0 }) := by
  decide




/-- C19 (handle aliasing): let `o` be an object with the entries `entries`, and
`key` a key that is not among them.  Through a handle copy `p` of `o`, which is
a handle to the same map, `p.insert(key, x)` makes `o.contains(key)` true,
`o.value(key)` the value `x` and `o.count()` one more.  Through `c = o.copy()`
instead, `c.insert(key, x)` puts the key into the map of `c` only:
`o.contains(key)` is still false and `o.count()` is what it was. -/
theorem C19_handle_aliasing (h : Heap) (o : Object) (entries : List (List Nat × JsonValue))
    (key : List Nat) (x : JsonValue)
    (hm : h.maps[o.map]? = some entries) (hk : mapFind key entries = none) :
    Object.contains h o key = some false
      ∧ (∃ h1, Object.insert h o.copyConstruct key x = some h1
          ∧ Object.contains h1 o key = some true
          ∧ Object.value h1 o key = some (h1, x)
          ∧ Object.count h1 o = some (entries.length + 1))
      ∧ (∃ h1 c h2, Object.copy h o = some (h1, c) ∧ Object.insert h1 c key x = some h2
          ∧ Object.contains h2 o key = some false
          ∧ Object.count h2 o = Object.count h o
          ∧ Object.contains h2 c key = some true
          ∧ Object.value h2 c key = some (h2, x)) := by
  have hv := lt_of_getElem? hm
  refine ⟨?_, ?_, ?_⟩
  · simp only [Object.contains, hm, hk, Option.map_some', Option.isSome_none]
  · refine ⟨_, by simp only [Object.insert, Object.copyConstruct, hm]; rfl, ?_, ?_, ?_⟩
    · simp only [Object.contains, List.getElem?_set_self hv, Option.map_some',
        mapFind_insert key x entries hk, Option.isSome_some]
    · simp only [Object.value, List.getElem?_set_self hv, mapFind_insert key x entries hk]
      rfl
    · simp only [Object.count, List.getElem?_set_self hv, Option.map_some',
        mapInsert_length key x entries hk]
  · obtain ⟨h1, h2, h3, h4⟩ := objectCopy_spec h o entries hm
    have hc : h.maps.length < (h.maps ++ [entries]).length := by simp
    refine ⟨_, _, _, h1, by simp only [Object.insert, h2]; rfl, ?_, ?_, ?_, ?_⟩
    · simp only [Object.contains, List.getElem?_set_ne h4, h3, Option.map_some', hk,
        Option.isSome_none]
    · simp only [Object.count, List.getElem?_set_ne h4, h3, hm]
    · simp only [Object.contains, List.getElem?_set_self hc, Option.map_some',
        mapFind_insert key x entries hk, Option.isSome_some]
    · simp only [Object.value, List.getElem?_set_self hc, mapFind_insert key x entries hk]
      rfl

/-- C19, witness: the object with the entry `a: 1`, the key `b` and a value that
holds `2`. -/
theorem C19_handle_aliasing_witness :
    Object.contains { values := [.LongLong 1, .LongLong 2], maps := [[([97], { value := 0 })]], arrays := [] } { map := 0 } [98] = some false
      ∧ (∃ h1, Object.insert { values := [.LongLong 1, .LongLong 2], maps := [[([97], { value := 0 })]], arrays := [] } (Object.copyConstruct { map := 0 }) [98] { value := 1 } = some h1
          ∧ Object.contains h1 { map := 0 } [98] = some true
          ∧ Object.value h1 { map := 0 } [98] = some (h1, { value := 1 })
          ∧ Object.count h1 { map := 0 } = some ([([97], ({ value := 0 } : JsonValue))].length + 1))
      ∧ (∃ h1 c h2, Object.copy { values := [.LongLong 1, .LongLong 2], maps := [[([97], { value := 0 })]], arrays := [] } { map := 0 } = some (h1, c)
          ∧ Object.insert h1 c [98] { value := 1 } = some h2
          ∧ Object.contains h2 { map := 0 } [98] = some false
          ∧ Object.count h2 { map := 0 } = Object.count { values := [.LongLong 1, .LongLong 2], maps := [[([97], { value := 0 })]], arrays := [] } { map := 0 }
          ∧ Object.contains h2 c [98] = some true
          ∧ Object.value h2 c [98] = some (h2, { value := 1 })) :=
  C19_handle_aliasing { values := [.LongLong 1, .LongLong 2], maps := [[([97], { value := 0 })]], arrays := [] }
    { map := 0 } [([97], { value := 0 })] [98] { value := 1 } rfl rfl




open JsonWriter

/-! ## The cycle check of the tree writer -/

theorem onStack_iff (stack : List (JsonValue × Variant)) (value : JsonValue) :
    onStack stack value = true ↔ ∃ p ∈ stack, p.1.value = value.value := by
  simp only [onStack, List.any_eq_true, beq_iff_eq]

theorem entry_on_stack (h : Heap) (stack : List (JsonValue × Variant)) (value : JsonValue)
    (hc : isContainer h value = true) (hs : onStack stack value = true) :
    entry h stack value = some JsonSAXWriter.Null := by
  simp only [entry, hc, hs, if_true]

theorem entry_off_stack (h : Heap) (stack : List (JsonValue × Variant)) (value : JsonValue)
    (hc : isContainer h value = true) (hs : onStack stack value = false) :
    entry h stack value = none := by
  simp only [entry, hc, hs, if_true, Bool.false_eq_true, if_false]

/-- C15, as the code has it (the cycle is cut where a value cell repeats).  Let
`value` be an entry of the container that `JsonWriter::write` is walking, itself
an object or array, and `stack` the traversal stack, which `write` passes to the
walk whole, the walked container included.  The search compares the cell of
`value` with the cells of the containers on the stack.  If the cell is among
them, `Null` is called for the entry and the walk goes on with the next entry:
the entry is not entered.  If the cell is not among them, the walk stops and
hands the entry back as the container to enter next, whatever map or vector the
entry holds, be it that of a container on the stack. -/
theorem C15_cycle_cut (h : Heap) (stack : List (JsonValue × Variant)) (value : JsonValue)
    (hc : isContainer h value = true) :
    (onStack stack value = true ↔ ∃ p ∈ stack, p.1.value = value.value)
      ∧ (onStack stack value = true →
          entry h stack value = some JsonSAXWriter.Null
          ∧ (∀ key rest pos w, walkObject h stack ((key, value) :: rest) pos w
              = match JsonSAXWriter.ObjectKey key w with
                | (.true, w1) =>
                    match JsonSAXWriter.Null w1 with
                    | (.true, w2) => walkObject h stack rest (pos + 1) w2
                    | (out, w2) => .failed out w2
                | (out, w1) => .failed out w1)
          ∧ (∀ rest pos w, walkArray h stack (value :: rest) pos w
              = match JsonSAXWriter.Null w with
                | (.true, w1) => walkArray h stack rest (pos + 1) w1
                | (out, w1) => .failed out w1))
      ∧ (onStack stack value = false →
          entry h stack value = none
          ∧ (∀ key rest pos w w1, JsonSAXWriter.ObjectKey key w = (.true, w1) →
              walkObject h stack ((key, value) :: rest) pos w = .child value (pos + 1) w1)
          ∧ (∀ rest pos w, walkArray h stack (value :: rest) pos w = .child value (pos + 1) w)) := by
  refine ⟨onStack_iff stack value, ?_, ?_⟩
  · intro hs
    have he := entry_on_stack h stack value hc hs
    refine ⟨he, ?_, ?_⟩
    · intro key rest pos w
      rw [walkObject]
      cases hk : JsonSAXWriter.ObjectKey key w with
      | mk out w1 =>
          cases out with
          | «true» =>
              simp only [he] <;>
                (try (cases hn : JsonSAXWriter.Null w1 with
                  | mk out2 w2 => cases out2 <;> rfl))
          | «false» => rfl
          | undefined => rfl
    · intro rest pos w
      rw [walkArray]
      simp only [he] <;>
        (try (cases hn : JsonSAXWriter.Null w with
          | mk out2 w2 => cases out2 <;> rfl))
  · intro hs
    have he := entry_off_stack h stack value hc hs
    refine ⟨he, ?_, ?_⟩
    · intro key rest pos w w1 hk
      rw [walkObject, hk]
      simp only [he]
    · intro rest pos w
      rw [walkArray]
      simp only [he]

/-- C15, witness: a `JsonValue` that holds an object into which the value itself
was inserted under the key `self`: the entry has the cell of the root, which is
on the stack, and the document is written as `{"self":null}`. -/
theorem C15_cycle_cut_witness :
    entry { values := [.Object 0], maps := [[([115, 101, 108, 102], { value := 0 })]], arrays := [] }
        [({ value := 0 }, .monostate)] { value := 0 } = some JsonSAXWriter.Null
      ∧ JsonWriter.writeString 10
          { values := [.Object 0], maps := [[([115, 101, 108, 102], { value := 0 })]], arrays := [] }
          { value := 0 } false
        = some (.true, [123, 34, 115, 101, 108, 102, 34, 58, 110, 117, 108, 108, 125]) :=
  ⟨((C15_cycle_cut
      { values := [.Object 0], maps := [[([115, 101, 108, 102], { value := 0 })]], arrays := [] }
      [({ value := 0 }, .monostate)] { value := 0 } (by decide)).2.1 (by decide)).1,
   by decide!⟩

/-- C15 as stated fails for an `Object` `o` into which `o` itself was inserted
under the key `self`.  The call `o.insert("self", o)` converts `o` to a
`JsonValue` with a new cell, cell 0, and `write(o)` converts `o` again, to the
root in cell 1; both cells hold the handle to the one map.  The entry `self` is
an object whose map is the map of the root, which is on the stack, but its cell
is not the cell of the root: the writer enters it, and finds the cycle only one
level further down.  The text is `{"self":{"self":null}}`, not `{"self":null}`.
Likewise an object inserted into an array that is an entry of the object is
written as `{"a":[{"a":null}]}`. -/
theorem C15_counterexample :
    (Heap.empty.newMap).1.newValue (.Object 0)
        = ({ values := [.Object 0], maps := [[]], arrays := [] }, { value := 0 })
      ∧ Object.insert { values := [.Object 0], maps := [[]], arrays := [] } { map := 0 }
          [115, 101, 108, 102] { value := 0 }
        = some { values := [.Object 0], maps := [[([115, 101, 108, 102], { value := 0 })]], arrays := [] }
      ∧ JsonValue.ofObject
          { values := [.Object 0], maps := [[([115, 101, 108, 102], { value := 0 })]], arrays := [] } 0
        = ({ values := [.Object 0, .Object 0], maps := [[([115, 101, 108, 102], { value := 0 })]], arrays := [] }, { value := 1 })
      ∧ storage { values := [.Object 0, .Object 0], maps := [[([115, 101, 108, 102], { value := 0 })]], arrays := [] } { value := 0 }
        = storage { values := [.Object 0, .Object 0], maps := [[([115, 101, 108, 102], { value := 0 })]], arrays := [] } { value := 1 }
      ∧ isContainer { values := [.Object 0, .Object 0], maps := [[([115, 101, 108, 102], { value := 0 })]], arrays := [] } { value := 0 } = true
      ∧ entry { values := [.Object 0, .Object 0], maps := [[([115, 101, 108, 102], { value := 0 })]], arrays := [] }
          [({ value := 1 }, .monostate)] { value := 0 } = none
      ∧ JsonWriter.writeString 10
          { values := [.Object 0, .Object 0], maps := [[([115, 101, 108, 102], { value := 0 })]], arrays := [] }
          { value := 1 } false
        = some (.true, [123, 34, 115, 101, 108, 102, 34, 58, 123, 34, 115, 101, 108, 102, 34, 58, 110, 117, 108, 108, 125, 125])
      ∧ JsonWriter.writeString 10
          { values := [.Object 0, .Array 0, .Object 0], maps := [[([97], { value := 1 })]], arrays := [[{ value := 0 }]] }
          { value := 2 } false
        = some (.true, [123, 34, 97, 34, 58, 91, 123, 34, 97, 34, 58, 110, 117, 108, 108, 125, 93, 125]) := by
  refine ⟨by decide, by decide, by decide, by decide, by decide, by rfl, by decide!, by decide!⟩




open JsonWriter

/-! ## The passes of the tree writer -/

theorem entry_none (h : Heap) (stack : List (JsonValue × Variant)) (value : JsonValue)
    (he : entry h stack value = none) :
    isContainer h value = true ∧ onStack stack value = false := by
  unfold entry at he
  by_cases hc : isContainer h value = true
  · rw [if_pos hc] at he
    by_cases hs : onStack stack value = true
    · rw [if_pos hs] at he; simp at he
    · exact ⟨hc, by simpa using hs⟩
  · rw [if_neg hc] at he; simp at he

/-- The walk over an object hands back a container that is not on the stack,
with an iterator behind it. -/
theorem walkObject_child (h : Heap) (stack : List (JsonValue × Variant)) :
    ∀ (es : List (List Nat × JsonValue)) (pos : Nat) (w : JsonSAXWriter) (child : JsonValue)
      (next : Nat) (w2 : JsonSAXWriter),
      walkObject h stack es pos w = .child child next w2 →
        isContainer h child = true ∧ onStack stack child = false ∧ pos < next
          ∧ next ≤ pos + es.length := by
  intro es
  induction es with
  | nil => intro pos w child next w2 hw; simp [walkObject] at hw
  | cons p rest ih =>
      obtain ⟨key, value⟩ := p
      intro pos w child next w2 hw
      rw [walkObject] at hw
      cases hk : JsonSAXWriter.ObjectKey key w with
      | mk out w1 =>
          rw [hk] at hw
          cases out with
          | «true» =>
              simp only [] at hw
              cases he : entry h stack value with
              | none =>
                  rw [he] at hw
                  simp only [Walk.child.injEq] at hw
                  obtain ⟨rfl, rfl, rfl⟩ := hw
                  obtain ⟨h1, h2⟩ := entry_none h stack value he
                  exact ⟨h1, h2, by omega, by simp⟩
              | some act =>
                  rw [he] at hw
                  simp only [] at hw
                  cases ha : act w1 with
                  | mk out2 w3 =>
                      rw [ha] at hw
                      cases out2 with
                      | «true» =>
                          simp only [] at hw
                          obtain ⟨h1, h2, h3, h4⟩ := ih (pos + 1) w3 child next w2 hw
                          exact ⟨h1, h2, by omega, by simp only [List.length_cons]; omega⟩
                      | «false» => simp at hw
                      | undefined => simp at hw
          | «false» => simp at hw
          | undefined => simp at hw

/-- The walk over an array hands back a container that is not on the stack,
with an iterator behind it. -/
theorem walkArray_child (h : Heap) (stack : List (JsonValue × Variant)) :
    ∀ (es : List JsonValue) (pos : Nat) (w : JsonSAXWriter) (child : JsonValue)
      (next : Nat) (w2 : JsonSAXWriter),
      walkArray h stack es pos w = .child child next w2 →
        isContainer h child = true ∧ onStack stack child = false ∧ pos < next
          ∧ next ≤ pos + es.length := by
  intro es
  induction es with
  | nil => intro pos w child next w2 hw; simp [walkArray] at hw
  | cons value rest ih =>
      intro pos w child next w2 hw
      rw [walkArray] at hw
      cases he : entry h stack value with
      | none =>
          rw [he] at hw
          simp only [Walk.child.injEq] at hw
          obtain ⟨rfl, rfl, rfl⟩ := hw
          obtain ⟨h1, h2⟩ := entry_none h stack value he
          exact ⟨h1, h2, by omega, by simp⟩
      | some act =>
          rw [he] at hw
          simp only [] at hw
          cases ha : act w with
          | mk out2 w3 =>
              rw [ha] at hw
              cases out2 with
              | «true» =>
                  simp only [] at hw
                  obtain ⟨h1, h2, h3, h4⟩ := ih (pos + 1) w3 child next w2 hw
                  exact ⟨h1, h2, by omega, by simp only [List.length_cons]; omega⟩
              | «false» => simp at hw
              | undefined => simp at hw

theorem drop_bound {α : Type} (l : List α) (pos next : Nat) (h1 : pos < next)
    (h2 : next ≤ pos + (l.drop pos).length) : next ≤ l.length := by
  simp only [List.length_drop] at h2
  omega

/-- How a pass of the loop of `write` ends: it returns, it pops the entry at the
back of the stack, or it moves the iterator of that entry on and pushes an entry
of the container, itself a container whose cell is not on the stack. -/
theorem pass_cases (h : Heap) (value : JsonValue) (it : Variant)
    (below : List (JsonValue × Variant)) (w : JsonWriter) :
    (∃ out w1, pass h value it below w = .return out w1)
      ∨ (∃ s, pass h value it below w = .continue { sax := s, stack := below })
      ∨ (∃ child it1 s,
          pass h value it below w
            = .continue { sax := s, stack := (child, .monostate) :: (value, it1) :: below }
          ∧ isContainer h child = true ∧ onStack w.stack child = false
          ∧ resume it < resume it1 ∧ resume it1 ≤ JsonWriter.size h value) := by
  unfold JsonWriter.pass
  cases hv : h.values[value.value]? with
  | none =>
      simp only []
      cases hb : (if (resume it == 0) = true then JsonSAXWriter.ArrayBegin w.sax else (Out.true, w.sax)) with
      | mk out s1 =>
          cases out with
          | «true» =>
              simp only [List.drop_nil, walkArray]
              cases he : JsonSAXWriter.ArrayEnd s1 with
              | mk out2 s3 =>
                  cases out2 with
                  | «true» => exact Or.inr (Or.inl ⟨s3, rfl⟩)
                  | «false» => exact Or.inl ⟨_, _, rfl⟩
                  | undefined => exact Or.inl ⟨_, _, rfl⟩
          | «false» => exact Or.inl ⟨_, _, rfl⟩
          | undefined => exact Or.inl ⟨_, _, rfl⟩
  | some x =>
      cases x with
      | Object map =>
          simp only []
          cases hb : (if (resume it == 0) = true then JsonSAXWriter.ObjectBegin w.sax else (Out.true, w.sax)) with
          | mk out s1 =>
              cases out with
              | «true» =>
                  simp only []
                  cases hw : walkObject h w.stack (List.drop (resume it) ((h.maps[map]?).getD [])) (resume it) s1 with
                  | finished s2 =>
                      simp only []
                      cases he : JsonSAXWriter.ObjectEnd s2 with
                      | mk out2 s3 =>
                          cases out2 with
                          | «true» => exact Or.inr (Or.inl ⟨s3, rfl⟩)
                          | «false» => exact Or.inl ⟨_, _, rfl⟩
                          | undefined => exact Or.inl ⟨_, _, rfl⟩
                  | child c next s2 =>
                      obtain ⟨h1, h2, h3, h4⟩ := walkObject_child h w.stack _ _ _ _ _ _ hw
                      refine Or.inr (Or.inr ⟨c, .map next, s2, rfl, h1, h2, h3, ?_⟩)
                      simp only [JsonWriter.size, hv, resume]
                      exact drop_bound _ _ _ h3 h4
                  | failed out2 s2 => exact Or.inl ⟨_, _, rfl⟩
              | «false» => exact Or.inl ⟨_, _, rfl⟩
              | undefined => exact Or.inl ⟨_, _, rfl⟩
      | Array array =>
          simp only []
          cases hb : (if (resume it == 0) = true then JsonSAXWriter.ArrayBegin w.sax else (Out.true, w.sax)) with
          | mk out s1 =>
              cases out with
              | «true» =>
                  simp only []
                  cases hw : walkArray h w.stack (List.drop (resume it) ((h.arrays[array]?).getD [])) (resume it) s1 with
                  | finished s2 =>
                      simp only []
                      cases he : JsonSAXWriter.ArrayEnd s2 with
                      | mk out2 s3 =>
                          cases out2 with
                          | «true» => exact Or.inr (Or.inl ⟨s3, rfl⟩)
                          | «false» => exact Or.inl ⟨_, _, rfl⟩
                          | undefined => exact Or.inl ⟨_, _, rfl⟩
                  | child c next s2 =>
                      obtain ⟨h1, h2, h3, h4⟩ := walkArray_child h w.stack _ _ _ _ _ _ hw
                      refine Or.inr (Or.inr ⟨c, .vector next, s2, rfl, h1, h2, h3, ?_⟩)
                      simp only [JsonWriter.size, hv, resume]
                      exact drop_bound _ _ _ h3 h4
                  | failed out2 s2 => exact Or.inl ⟨_, _, rfl⟩
              | «false» => exact Or.inl ⟨_, _, rfl⟩
              | undefined => exact Or.inl ⟨_, _, rfl⟩
      | _ =>
          simp only []
          cases hb : (if (resume it == 0) = true then JsonSAXWriter.ArrayBegin w.sax else (Out.true, w.sax)) with
          | mk out s1 =>
              cases out with
              | «true» =>
                  simp only [List.drop_nil, walkArray]
                  cases he : JsonSAXWriter.ArrayEnd s1 with
                  | mk out2 s3 =>
                      cases out2 with
                      | «true» => exact Or.inr (Or.inl ⟨s3, rfl⟩)
                      | «false» => exact Or.inl ⟨_, _, rfl⟩
                      | undefined => exact Or.inl ⟨_, _, rfl⟩
              | «false» => exact Or.inl ⟨_, _, rfl⟩
              | undefined => exact Or.inl ⟨_, _, rfl⟩




open JsonWriter

/-! ## Termination of the tree writer -/

theorem isContainer_lt (h : Heap) (v : JsonValue) (hc : isContainer h v = true) :
    v.value < h.values.length := by
  unfold isContainer Heap.type at hc
  cases hv : h.values[v.value]? with
  | none => rw [hv] at hc; simp at hc
  | some x => exact lt_of_getElem? hv

/-- A list of distinct numbers below `n` has at most `n` entries. -/
theorem nodup_length_le (l : List Nat) (n : Nat) (hd : l.Nodup) (hl : ∀ x ∈ l, x < n) :
    l.length ≤ n := by
  have h1 : l.toFinset.card = l.length := List.toFinset_card_of_nodup hd
  have h2 : l.toFinset ⊆ Finset.range n := by
    intro x hx
    rw [List.mem_toFinset] at hx
    exact Finset.mem_range.mpr (hl x hx)
  have h3 := Finset.card_le_card h2
  rw [Finset.card_range] at h3
  omega

/-- The entries of a traversal stack whose cells are distinct containers are at
most as many as the heap has value cells. -/
theorem stack_length_le (h : Heap) (stack : List (JsonValue × Variant))
    (hd : (stack.map (fun p => p.1.value)).Nodup)
    (hc : ∀ p ∈ stack, isContainer h p.1 = true) : stack.length ≤ h.values.length := by
  have := nodup_length_le (stack.map (fun p => p.1.value)) h.values.length hd (by
    intro x hx
    rw [List.mem_map] at hx
    obtain ⟨p, hp, rfl⟩ := hx
    exact isContainer_lt h p.1 (hc p hp))
  simpa using this

theorem writeLoop_step (h : Heap) (fuel : Nat) (w w1 : JsonWriter) (value : JsonValue)
    (it : Variant) (below : List (JsonValue × Variant)) (hw : w.stack = (value, it) :: below)
    (hp : JsonWriter.pass h value it below w = .continue w1) :
    writeLoop h (fuel + 1) w = writeLoop h fuel w1 := by
  rw [writeLoop]
  simp only [hw, hp]

theorem after_step (h : Heap) (n : Nat) (w w1 : JsonWriter) (value : JsonValue)
    (it : Variant) (below : List (JsonValue × Variant)) (hw : w.stack = (value, it) :: below)
    (hp : JsonWriter.pass h value it below w = .continue w1) :
    after h (n + 1) w = after h n w1 := by
  rw [after]
  simp only [hw, hp]

/-- More passes do not change a result. -/
theorem writeLoop_mono (h : Heap) (fuel : Nat) :
    ∀ (w : JsonWriter) (r : Out × JsonWriter), writeLoop h fuel w = some r →
      ∀ more, writeLoop h (fuel + more) w = some r := by
  induction fuel with
  | zero => intro w r hr; simp [writeLoop] at hr
  | succ fuel ih =>
      intro w r hr more
      rw [show fuel + 1 + more = (fuel + more) + 1 by omega]
      rw [writeLoop] at hr ⊢
      cases hs : w.stack with
      | nil => rw [hs] at hr; exact hr
      | cons p below =>
          obtain ⟨value, it⟩ := p
          rw [hs] at hr
          simp only [] at hr ⊢
          cases hp : JsonWriter.pass h value it below w with
          | «continue» w1 => rw [hp] at hr; exact ih w1 r hr more
          | «return» out w1 => rw [hp] at hr; exact hr

/-- The loop run from a state is the loop run from a state it reaches. -/
theorem writeLoop_after (h : Heap) (n : Nat) :
    ∀ (w w1 : JsonWriter), after h n w = some w1 →
      ∀ fuel, writeLoop h (n + fuel) w = writeLoop h fuel w1 := by
  induction n with
  | zero => intro w w1 ha fuel; simp only [after, Option.some.injEq] at ha; rw [ha]; simp
  | succ n ih =>
      intro w w1 ha fuel
      rw [after] at ha
      rw [show n + 1 + fuel = (n + fuel) + 1 by omega, writeLoop]
      cases hs : w.stack with
      | nil => rw [hs] at ha; simp at ha
      | cons p below =>
          obtain ⟨value, it⟩ := p
          rw [hs] at ha
          simp only [] at ha ⊢
          cases hp : JsonWriter.pass h value it below w with
          | «continue» w2 => rw [hp] at ha; exact ih w2 w1 ha fuel
          | «return» out w2 => rw [hp] at ha; simp at ha

theorem after_trans (h : Heap) (a : Nat) :
    ∀ (b : Nat) (w w1 w2 : JsonWriter), after h a w = some w1 → after h b w1 = some w2 →
      after h (a + b) w = some w2 := by
  induction a with
  | zero => intro b w w1 w2 h1 h2; simp only [after, Option.some.injEq] at h1; rw [h1]; simpa using h2
  | succ a ih =>
      intro b w w1 w2 h1 h2
      rw [after] at h1
      rw [show a + 1 + b = (a + b) + 1 by omega, after]
      cases hs : w.stack with
      | nil => rw [hs] at h1; simp at h1
      | cons p below =>
          obtain ⟨value, it⟩ := p
          rw [hs] at h1
          simp only [] at h1 ⊢
          cases hp : JsonWriter.pass h value it below w with
          | «continue» w3 => rw [hp] at h1; exact ih b w3 w1 w2 h1 h2
          | «return» out w3 => rw [hp] at h1; simp at h1

theorem nodup_push (stack : List (JsonValue × Variant)) (child : JsonValue)
    (hd : (stack.map (fun p => p.1.value)).Nodup) (hs : onStack stack child = false) :
    (((child, Variant.monostate) :: stack).map (fun p => p.1.value)).Nodup := by
  simp only [List.map_cons, List.nodup_cons]
  refine ⟨?_, hd⟩
  intro hm
  rw [List.mem_map] at hm
  obtain ⟨p, hp, he⟩ := hm
  have : onStack stack child = true := (onStack_iff stack child).mpr ⟨p, hp, he⟩
  rw [hs] at this
  exact Bool.false_ne_true this

/-- From a state whose stack holds distinct containers, the loop returns, or it
comes to the state in which the entry at the back of the stack is popped. -/
theorem descend (h : Heap) :
    ∀ (free : Nat) (rem : Nat) (w : JsonWriter) (value : JsonValue) (it : Variant)
      (below : List (JsonValue × Variant)), w.stack = (value, it) :: below →
      (w.stack.map (fun p => p.1.value)).Nodup → (∀ p ∈ w.stack, isContainer h p.1 = true) →
      h.values.length - w.stack.length = free → JsonWriter.size h value - resume it = rem →
      (∃ fuel r, writeLoop h fuel w = some r)
        ∨ (∃ n s, after h n w = some { sax := s, stack := below }) := by
  intro free
  induction free using Nat.strong_induction_on with
  | _ free ihf =>
    intro rem
    induction rem using Nat.strong_induction_on with
    | _ rem ihr =>
      intro w value it below hw hd hc hfree hrem
      rcases pass_cases h value it below w with ⟨out, w1, hp⟩ | ⟨s, hp⟩ | ⟨child, it1, s, hp, h1, h2, h3, h4⟩
      · left
        refine ⟨1, (out, w1), ?_⟩
        rw [writeLoop]
        simp only [hw, hp]
      · right
        refine ⟨1, s, ?_⟩
        rw [after_step h 0 w _ value it below hw hp]
        rfl
      · -- the pass pushes `child`
        have hd1 : ((((child, Variant.monostate) :: (value, it1) :: below)).map (fun p => p.1.value)).Nodup := by
          have := nodup_push w.stack child hd h2
          rw [hw] at this
          simpa using this
        have hc1 : ∀ p ∈ (child, Variant.monostate) :: (value, it1) :: below, isContainer h p.1 = true := by
          intro p hp1
          simp only [List.mem_cons] at hp1
          rcases hp1 with rfl | rfl | hp1
          · exact h1
          · exact hc (value, it) (by rw [hw]; simp)
          · exact hc p (by rw [hw]; simp [hp1])
        have hlen := stack_length_le h _ hd1 hc1
        simp only [List.length_cons] at hlen
        have hwl : w.stack.length = below.length + 1 := by rw [hw]; rfl
        rcases ihf (h.values.length - (below.length + 1 + 1)) (by omega)
            (JsonWriter.size h child - resume Variant.monostate)
            { sax := s, stack := (child, .monostate) :: (value, it1) :: below } child .monostate
            ((value, it1) :: below) rfl hd1 hc1 rfl rfl with ⟨fuel, r, hr⟩ | ⟨n, s1, hn⟩
        · left
          refine ⟨fuel + 1, r, ?_⟩
          rw [writeLoop_step h fuel w _ value it below hw hp]
          exact hr
        · -- the child is done: the entry of `value` is at the back again
          have hd2 : ((((value, it1) :: below)).map (fun p => p.1.value)).Nodup := by
            rw [hw] at hd
            simpa using hd
          have hc2 : ∀ p ∈ (value, it1) :: below, isContainer h p.1 = true :=
            fun p hp1 => hc1 p (List.mem_cons_of_mem _ hp1)
          have hstep : after h (n + 1) w = some { sax := s1, stack := (value, it1) :: below } := by
            rw [after_step h n w _ value it below hw hp]
            exact hn
          rcases ihr (JsonWriter.size h value - resume it1) (by omega)
              { sax := s1, stack := (value, it1) :: below } value it1 below rfl hd2 hc2
              (by simp only [List.length_cons]; omega) rfl with ⟨fuel, r, hr⟩ | ⟨n2, s2, hn2⟩
          · left
            refine ⟨n + 1 + fuel, r, ?_⟩
            rw [writeLoop_after h (n + 1) w _ hstep fuel]
            exact hr
          · right
            exact ⟨n + 1 + n2, s2, after_trans h (n + 1) n2 w _ _ hstep hn2⟩

/-- The cells on the traversal stack stay distinct containers. -/
theorem after_distinct (h : Heap) (n : Nat) :
    ∀ (w w1 : JsonWriter), (w.stack.map (fun p => p.1.value)).Nodup →
      (∀ p ∈ w.stack, isContainer h p.1 = true) → after h n w = some w1 →
      (w1.stack.map (fun p => p.1.value)).Nodup ∧ (∀ p ∈ w1.stack, isContainer h p.1 = true) := by
  induction n with
  | zero =>
      intro w w1 hd hc ha
      simp only [after, Option.some.injEq] at ha
      rw [← ha]; exact ⟨hd, hc⟩
  | succ n ih =>
      intro w w1 hd hc ha
      rw [after] at ha
      cases hs : w.stack with
      | nil => rw [hs] at ha; simp at ha
      | cons p below =>
          obtain ⟨value, it⟩ := p
          rw [hs] at ha
          simp only [] at ha
          rcases pass_cases h value it below w with ⟨out, w2, hp⟩ | ⟨s, hp⟩ | ⟨child, it1, s, hp, h1, h2, h3, h4⟩
          · rw [hp] at ha; simp at ha
          · rw [hp] at ha
            simp only [] at ha
            refine ih _ w1 ?_ ?_ ha
            · rw [hs] at hd; simp only [List.map_cons, List.nodup_cons] at hd; exact hd.2
            · intro p hp1; exact hc p (by rw [hs]; exact List.mem_cons_of_mem _ hp1)
          · rw [hp] at ha
            simp only [] at ha
            refine ih _ w1 ?_ ?_ ha
            · have := nodup_push w.stack child hd h2
              rw [hs] at this
              simpa using this
            · intro p hp1
              simp only [List.mem_cons] at hp1
              rcases hp1 with rfl | rfl | hp1
              · exact h1
              · exact hc (value, it) (by rw [hs]; simp)
              · exact hc p (by rw [hs]; simp [hp1])




open JsonWriter

theorem write_eq (fuel : Nat) (h : Heap) (w : JsonWriter) (buffer : JsonBufferWriter)
    (json : JsonValue) (beautiful : Bool) (hc : isContainer h json = true) :
    JsonWriter.write fuel h w buffer json beautiful
      = writeLoop h fuel (w.start buffer json beautiful) := by
  unfold JsonWriter.write
  have : (h.type json != some .Object && h.type json != some .Array) = false := by
    unfold isContainer at hc
    cases ht : h.type json with
    | none => rw [ht] at hc; simp at hc
    | some t => rw [ht] at hc; cases t <;> simp at hc ⊢
  rw [this]
  rfl

theorem writeLoop_halts (h : Heap) (w : JsonWriter) (buffer : JsonBufferWriter)
    (json : JsonValue) (beautiful : Bool) (hc : isContainer h json = true) :
    ∃ fuel r, writeLoop h fuel (w.start buffer json beautiful) = some r := by
  rcases descend h _ _ (w.start buffer json beautiful) json .monostate [] rfl
      (by simp [JsonWriter.start])
      (by intro p hp; simp only [JsonWriter.start, List.mem_singleton] at hp; rw [hp]; exact hc)
      rfl rfl with ⟨fuel, r, hr⟩ | ⟨n, s, hn⟩
  · exact ⟨fuel, r, hr⟩
  · refine ⟨n + 1, (.true, { sax := s, stack := [] }), ?_⟩
    rw [writeLoop_after h n _ _ hn 1]
    rfl

/-- C16 (termination of the tree writer): for every heap `h`, which is a finite
graph of cells, every value `json` and every writer and sink, there is a number
of passes after which the loop of `JsonWriter::write` has returned, with a
result that more passes do not change; cycles through shared cells make no
difference.  When `json` is an object or array, `write` runs its loop from the
stack that holds `json` alone, and in every state the loop reaches the cells on
the traversal stack are pairwise distinct and hold objects or arrays, so the
stack is never deeper than the heap has value cells. -/
theorem C16_write_terminates (h : Heap) (w : JsonWriter) (buffer : JsonBufferWriter)
    (json : JsonValue) (beautiful : Bool) :
    (∃ fuel r, ∀ more, JsonWriter.write (fuel + more) h w buffer json beautiful = some r)
      ∧ (isContainer h json = true →
          (∀ fuel, JsonWriter.write fuel h w buffer json beautiful
              = writeLoop h fuel (w.start buffer json beautiful))
          ∧ ∀ n w1, after h n (w.start buffer json beautiful) = some w1 →
              (w1.stack.map (fun p => p.1.value)).Nodup
                ∧ (∀ p ∈ w1.stack, isContainer h p.1 = true)
                ∧ w1.stack.length ≤ h.values.length) := by
  constructor
  · by_cases hc : isContainer h json = true
    · obtain ⟨fuel, r, hr⟩ := writeLoop_halts h w buffer json beautiful hc
      refine ⟨fuel, r, fun more => ?_⟩
      rw [write_eq _ h w buffer json beautiful hc]
      exact writeLoop_mono h fuel _ r hr more
    · refine ⟨0, (.false, w), fun more => ?_⟩
      unfold JsonWriter.write
      have : (h.type json != some .Object && h.type json != some .Array) = true := by
        unfold isContainer at hc
        cases ht : h.type json with
        | none => rfl
        | some t => rw [ht] at hc; cases t <;> simp at hc ⊢
      rw [this]
      rfl
  · intro hc
    refine ⟨fun fuel => write_eq fuel h w buffer json beautiful hc, ?_⟩
    intro n w1 ha
    obtain ⟨h1, h2⟩ := after_distinct h n (w.start buffer json beautiful) w1
      (by simp [JsonWriter.start])
      (by intro p hp; simp only [JsonWriter.start, List.mem_singleton] at hp; rw [hp]; exact hc)
      ha
    exact ⟨h1, h2, stack_length_le h _ h1 h2⟩

/-- C16, witness: the object that holds itself under the key `self`, through a
cell of its own (cell 0) that `write` enters from the root (cell 1). -/
theorem C16_write_terminates_witness :
    (∃ fuel r, ∀ more, JsonWriter.write (fuel + more)
        { values := [.Object 0, .Object 0], maps := [[([115, 101, 108, 102], { value := 0 })]], arrays := [] }
        JsonWriter.new JsonStringBufferWriter { value := 1 } false = some r)
      ∧ (isContainer { values := [.Object 0, .Object 0], maps := [[([115, 101, 108, 102], { value := 0 })]], arrays := [] } { value := 1 } = true →
          (∀ fuel, JsonWriter.write fuel
              { values := [.Object 0, .Object 0], maps := [[([115, 101, 108, 102], { value := 0 })]], arrays := [] }
              JsonWriter.new JsonStringBufferWriter { value := 1 } false
              = writeLoop { values := [.Object 0, .Object 0], maps := [[([115, 101, 108, 102], { value := 0 })]], arrays := [] } fuel
                  (JsonWriter.new.start JsonStringBufferWriter { value := 1 } false))
          ∧ ∀ n w1, after { values := [.Object 0, .Object 0], maps := [[([115, 101, 108, 102], { value := 0 })]], arrays := [] } n
                (JsonWriter.new.start JsonStringBufferWriter { value := 1 } false) = some w1 →
              (w1.stack.map (fun p => p.1.value)).Nodup
                ∧ (∀ p ∈ w1.stack, isContainer { values := [.Object 0, .Object 0], maps := [[([115, 101, 108, 102], { value := 0 })]], arrays := [] } p.1 = true)
                ∧ w1.stack.length ≤ 2) :=
  C16_write_terminates
    { values := [.Object 0, .Object 0], maps := [[([115, 101, 108, 102], { value := 0 })]], arrays := [] }
    JsonWriter.new JsonStringBufferWriter { value := 1 } false




open JsonStringViewBufferReader

section
variable {σ : Type}

/-! ## What a pass of the main loop calls -/

/-- The body of the main loop, by the state on top of `depth` and the byte: it
skips whitespace, fails, or calls one function of the reader and then tests for
the end of the document. -/
theorem parseBody_dispatch (h : Hooks σ) (operation : Operation) (m : Machine σ) :
    (isspace m.buffer.cur = true ∧ parseBody h operation m = .continue m)
      ∨ (∃ e, parseBody h operation m = .return .false { m with error := e })
      ∨ (m.depth = [] ∧ m.buffer.cur = 123
          ∧ parseBody h operation m = andThen h operation (openDocument h .Object .ObjectBegin m))
      ∨ (m.depth = [] ∧ m.buffer.cur = 91
          ∧ parseBody h operation m = andThen h operation (openDocument h .Array .ArrayBegin m))
      ∨ ((m.depth.head? = some .Object ∨ m.depth.head? = some .ObjectNextKey)
          ∧ m.buffer.cur = 34
          ∧ parseBody h operation m = andThen h operation (keyThenTop h m))
      ∨ ((m.depth.head? = some .Object ∨ m.depth.head? = some .ObjectNextPair)
          ∧ m.buffer.cur = 125
          ∧ parseBody h operation m = andThen h operation (close h .ObjectEnd m))
      ∨ ((m.depth.head? = some .Array ∨ m.depth.head? = some .ArrayNext)
          ∧ m.buffer.cur = 93
          ∧ parseBody h operation m = andThen h operation (close h .ArrayEnd m))
      ∨ (m.depth.head? = some .ObjectKey ∧ m.buffer.cur = 58
          ∧ parseBody h operation m
            = documentEnd h operation { m with depth := setTop .ObjectValue m.depth })
      ∨ (m.depth.head? = some .ObjectNextPair ∧ m.buffer.cur = 44
          ∧ parseBody h operation m
            = documentEnd h operation { m with depth := setTop .ObjectNextKey m.depth })
      ∨ (m.depth.head? = some .ArrayNext ∧ m.buffer.cur = 44
          ∧ parseBody h operation m
            = documentEnd h operation { m with depth := setTop .ArrayNextValue m.depth })
      ∨ (m.depth.head? = some .ObjectValue ∧ isspace m.buffer.cur = false
          ∧ parseBody h operation m
            = andThen h operation
                (ready h m.buffer.cur { m with depth := setTop .ObjectNextPair m.depth }))
      ∨ ((m.depth.head? = some .ArrayNextValue
            ∨ (m.depth.head? = some .Array ∧ m.buffer.cur ≠ 93))
          ∧ isspace m.buffer.cur = false
          ∧ parseBody h operation m
            = andThen h operation
                (ready h m.buffer.cur { m with depth := setTop .ArrayNext m.depth })) := by
  obtain ⟨buffer, depth, self, stop, error, errno⟩ := m
  generalize hp : parseBody h operation _ = s
  unfold parseBody at hp
  simp only [JsonStringViewBufferReader.value] at hp
  by_cases hs : isspace buffer.cur = true
  · left; rw [if_pos hs] at hp; exact ⟨hs, hp.symm⟩
  right
  rw [if_neg hs] at hp
  have hs0 : isspace buffer.cur = false := by simpa using hs
  by_cases hc : isControlCode buffer.cur = true
  · left; rw [if_pos hc] at hp; exact ⟨_, hp.symm⟩
  rw [if_neg hc] at hp
  cases depth with
  | nil =>
      simp only [] at hp
      by_cases h1 : (buffer.cur == 123) = true
      · rw [if_pos h1] at hp
        exact Or.inr (Or.inl ⟨rfl, by simpa using h1, hp.symm⟩)
      rw [if_neg h1] at hp
      by_cases h2 : (buffer.cur == 91) = true
      · rw [if_pos h2] at hp
        exact Or.inr (Or.inr (Or.inl ⟨rfl, by simpa using h2, hp.symm⟩))
      rw [if_neg h2] at hp
      exact Or.inl ⟨_, hp.symm⟩
  | cons t below =>
      cases t <;> simp only [] at hp
      · -- Object
        by_cases h1 : (buffer.cur == 34) = true
        · rw [if_pos h1] at hp
          exact Or.inr (Or.inr (Or.inr (Or.inl ⟨Or.inl rfl, by simpa using h1, hp.symm⟩)))
        rw [if_neg h1] at hp
        by_cases h2 : (buffer.cur == 125) = true
        · rw [if_pos h2] at hp
          exact Or.inr (Or.inr (Or.inr (Or.inr (Or.inl ⟨Or.inl rfl, by simpa using h2, hp.symm⟩))))
        rw [if_neg h2] at hp
        exact Or.inl ⟨_, hp.symm⟩
      · -- ObjectKey
        by_cases h1 : (buffer.cur == 58) = true
        · rw [if_pos h1] at hp
          exact Or.inr (Or.inr (Or.inr (Or.inr (Or.inr (Or.inr (Or.inl
            ⟨rfl, by simpa using h1, hp.symm⟩))))))
        rw [if_neg h1] at hp
        exact Or.inl ⟨_, hp.symm⟩
      · -- ObjectValue
        exact Or.inr (Or.inr (Or.inr (Or.inr (Or.inr (Or.inr (Or.inr (Or.inr (Or.inr (Or.inl
          ⟨rfl, hs0, hp.symm⟩)))))))))
      · -- ObjectNextPair
        by_cases h1 : (buffer.cur == 44) = true
        · rw [if_pos h1] at hp
          exact Or.inr (Or.inr (Or.inr (Or.inr (Or.inr (Or.inr (Or.inr (Or.inl
            ⟨rfl, by simpa using h1, hp.symm⟩)))))))
        rw [if_neg h1] at hp
        by_cases h2 : (buffer.cur == 125) = true
        · rw [if_pos h2] at hp
          exact Or.inr (Or.inr (Or.inr (Or.inr (Or.inl ⟨Or.inr rfl, by simpa using h2, hp.symm⟩))))
        rw [if_neg h2] at hp
        exact Or.inl ⟨_, hp.symm⟩
      · -- ObjectNextKey
        by_cases h1 : (buffer.cur == 34) = true
        · rw [if_pos h1] at hp
          exact Or.inr (Or.inr (Or.inr (Or.inl ⟨Or.inr rfl, by simpa using h1, hp.symm⟩)))
        rw [if_neg h1] at hp
        exact Or.inl ⟨_, hp.symm⟩
      · -- Array
        by_cases h1 : (buffer.cur == 93) = true
        · rw [if_pos h1] at hp
          exact Or.inr (Or.inr (Or.inr (Or.inr (Or.inr (Or.inl
            ⟨Or.inl rfl, by simpa using h1, hp.symm⟩)))))
        rw [if_neg h1] at hp
        exact Or.inr (Or.inr (Or.inr (Or.inr (Or.inr (Or.inr (Or.inr (Or.inr (Or.inr (Or.inr
          ⟨Or.inr ⟨rfl, by simpa using h1⟩, hs0, hp.symm⟩)))))))))
      · -- ArrayNext
        by_cases h1 : (buffer.cur == 44) = true
        · rw [if_pos h1] at hp
          exact Or.inr (Or.inr (Or.inr (Or.inr (Or.inr (Or.inr (Or.inr (Or.inr (Or.inl
            ⟨rfl, by simpa using h1, hp.symm⟩))))))))
        rw [if_neg h1] at hp
        by_cases h2 : (buffer.cur == 93) = true
        · rw [if_pos h2] at hp
          exact Or.inr (Or.inr (Or.inr (Or.inr (Or.inr (Or.inl
            ⟨Or.inr rfl, by simpa using h2, hp.symm⟩)))))
        rw [if_neg h2] at hp
        exact Or.inl ⟨_, hp.symm⟩
      · -- ArrayNextValue
        exact Or.inr (Or.inr (Or.inr (Or.inr (Or.inr (Or.inr (Or.inr (Or.inr (Or.inr (Or.inr
          ⟨Or.inl rfl, hs0, hp.symm⟩)))))))))

/-- How the test for the end of a document goes on behind a function of the
reader that returned true. -/
theorem documentEnd_cases (h : Hooks σ) (operation : Operation) (m : Machine σ) :
    (m.depth ≠ [] ∧ documentEnd h operation m = .continue m)
      ∨ (m.depth = [] ∧ h .JsonEnd m.self = none
          ∧ documentEnd h operation m = .return .thrown m)
      ∨ (m.depth = [] ∧ ∃ s b, h .JsonEnd m.self = some (s, b)
          ∧ documentEnd h operation m
            = if operation = .Single then .break { m with self := s, stop := m.stop || b }
              else if (m.stop || b) = true then .break { m with self := s, stop := m.stop || b }
              else .continue { m with self := s, stop := m.stop || b }) := by
  obtain ⟨buffer, depth, self, stop, error, errno⟩ := m
  generalize hp : documentEnd h operation _ = r
  unfold documentEnd call emit at hp
  cases depth with
  | nil =>
      right
      simp only [List.isEmpty_nil, if_true] at hp
      cases he : h .JsonEnd self with
      | none =>
          left
          rw [he] at hp
          exact ⟨rfl, rfl, hp.symm⟩
      | some p =>
          obtain ⟨s, b⟩ := p
          right
          rw [he] at hp
          refine ⟨rfl, s, b, rfl, ?_⟩
          rw [← hp]
          cases operation
          · simp
          · simp
  | cons t below =>
      left
      simp only [List.isEmpty_cons, Bool.false_eq_true, if_false] at hp
      exact ⟨by simp, hp.symm⟩

end




open JsonStringViewBufferReader

section
variable {σ : Type} {I : σ → Bool → Prop} {h : Hooks σ}

/-! ## Properties that all hooks but `JsonEnd` keep -/

theorem call_keeps (hk : Keeps I h) (e : Event) (he : e ≠ .JsonEnd) (m : Machine σ)
    (hi : I m.self m.stop) : I (call h e m).2.self (call h e m).2.stop := by
  unfold call emit
  cases hh : h e m.self with
  | none => exact hi
  | some p =>
      obtain ⟨s, b⟩ := p
      exact hk e m.self s b m.stop he hh hi

theorem readyObjectKey_keeps (hk : Keeps I h) (m : Machine σ) (hi : I m.self m.stop) :
    I (readyObjectKey h m).2.self (readyObjectKey h m).2.stop := by
  unfold readyObjectKey
  cases readyString [] m.buffer with
  | fail error buffer => exact hi
  | ok temp buffer => exact call_keeps hk _ (by simp) { m with buffer := buffer } hi

theorem readyStringValue_keeps (hk : Keeps I h) (m : Machine σ) (hi : I m.self m.stop) :
    I (readyStringValue h m).2.self (readyStringValue h m).2.stop := by
  unfold readyStringValue
  cases readyString [] m.buffer with
  | fail error buffer => exact hi
  | ok temp buffer => exact call_keeps hk _ (by simp) { m with buffer := buffer } hi

theorem numberValue_keeps (hk : Keeps I h) (scan : NumberScan) (m : Machine σ)
    (hi : I m.self m.stop) :
    I (numberValue h scan m).2.self (numberValue h scan m).2.stop := by
  unfold numberValue
  by_cases h1 : (scan.points == 1) = true
  · rw [if_pos h1]
    cases stod scan.temp with
    | none => exact hi
    | some value =>
        simp only []
        by_cases he : m.errno = true
        · rw [if_pos he]; exact hi
        · rw [if_neg he]; exact call_keeps hk _ (by simp) m hi
  · rw [if_neg h1]
    by_cases h0 : (scan.points == 0) = true
    · rw [if_pos h0]
      cases from_chars scan.temp with
      | none => exact hi
      | some value => exact call_keeps hk _ (by simp) m hi
    · rw [if_neg h0]; exact hi

theorem numberEnd_keeps (hk : Keeps I h) (scan : NumberScan) (r : Ret × Machine σ)
    (hi : I r.2.self r.2.stop) :
    I (numberEnd h scan r).2.self (numberEnd h scan r).2.stop := by
  obtain ⟨x, m⟩ := r
  unfold numberEnd
  cases x with
  | «true» =>
      simp only []
      by_cases h1 : (scan.end == End.Object) = true
      · rw [if_pos h1]; exact call_keeps hk _ (by simp) m hi
      · rw [if_neg h1]
        by_cases h2 : (scan.end == End.Array) = true
        · rw [if_pos h2]; exact call_keeps hk _ (by simp) m hi
        · rw [if_neg h2]; exact hi
  | «false» => exact hi
  | thrown => exact hi

theorem readyNumberEnd_keeps (hk : Keeps I h) (scan : NumberScan) (m : Machine σ)
    (hi : I m.self m.stop) :
    I (readyNumberEnd h scan m).2.self (readyNumberEnd h scan m).2.stop := by
  unfold readyNumberEnd
  by_cases h1 : (!scan.exit) = true
  · rw [if_pos h1]; exact hi
  · rw [if_neg h1]
    by_cases h2 : (scan.end == End.None && !isspace scan.ch) = true
    · rw [if_pos h2]; exact hi
    · rw [if_neg h2]
      by_cases h3 : (scan.temp.getLast? == some 46) = true
      · rw [if_pos h3]; exact hi
      · rw [if_neg h3]
        exact numberEnd_keeps hk scan _ (numberValue_keeps hk scan m hi)

theorem readyNumber_keeps (hk : Keeps I h) (digit : Nat) (m : Machine σ)
    (hi : I m.self m.stop) :
    I (readyNumber h digit m).2.self (readyNumber h digit m).2.stop := by
  unfold readyNumber
  cases readyNumberLoop (digit == 45) m.depth m.buffer.pos 0 0 [digit] 0 m.buffer.ahead with
  | fail error buffer => exact hi
  | ok scan buffer =>
      exact readyNumberEnd_keeps hk scan { m with buffer := buffer, depth := scan.depth } hi

theorem readyKeyword_keeps (hk : Keeps I h) (rest : List Nat) (e : Event) (he : e ≠ .JsonEnd)
    (m : Machine σ) (hi : I m.self m.stop) :
    I (readyKeyword h rest e m).2.self (readyKeyword h rest e m).2.stop := by
  unfold readyKeyword
  cases readyValue rest m.buffer with
  | fail error buffer => exact hi
  | ok u buffer => exact call_keeps hk e he { m with buffer := buffer } hi

theorem ready_keeps (hk : Keeps I h) (ch : Nat) (m : Machine σ) (hi : I m.self m.stop) :
    I (ready h ch m).2.self (ready h ch m).2.stop := by
  unfold ready
  by_cases h1 : (ch == 123) = true
  · rw [if_pos h1]; exact call_keeps hk _ (by simp) { m with depth := _ } hi
  rw [if_neg h1]
  by_cases h2 : (ch == 91) = true
  · rw [if_pos h2]; exact call_keeps hk _ (by simp) { m with depth := _ } hi
  rw [if_neg h2]
  by_cases h3 : (ch == 34) = true
  · rw [if_pos h3]; exact readyStringValue_keeps hk m hi
  rw [if_neg h3]
  by_cases h4 : (ch == 45 || isdigit ch) = true
  · rw [if_pos h4]; exact readyNumber_keeps hk ch m hi
  rw [if_neg h4]
  by_cases h5 : (ch == 116) = true
  · rw [if_pos h5]; exact readyKeyword_keeps hk _ _ (by simp) m hi
  rw [if_neg h5]
  by_cases h6 : (ch == 102) = true
  · rw [if_pos h6]; exact readyKeyword_keeps hk _ _ (by simp) m hi
  rw [if_neg h6]
  by_cases h7 : (ch == 110) = true
  · rw [if_pos h7]; exact readyKeyword_keeps hk _ _ (by simp) m hi
  rw [if_neg h7]
  exact hi

theorem close_keeps (hk : Keeps I h) (e : Event) (he : e ≠ .JsonEnd) (m : Machine σ)
    (hi : I m.self m.stop) : I (close h e m).2.self (close h e m).2.stop := by
  unfold close
  exact call_keeps hk e he { m with depth := m.depth.tail } hi

theorem openDocument_keeps (hk : Keeps I h) (t : JsonReaderType) (e : Event)
    (he : e ≠ .JsonEnd) (m : Machine σ) (hi : I m.self m.stop) :
    I (openDocument h t e m).2.self (openDocument h t e m).2.stop := by
  unfold openDocument
  have h1 := call_keeps hk .JsonBegin (by simp) m hi
  cases hc : call h .JsonBegin m with
  | mk x m1 =>
      rw [hc] at h1
      cases x with
      | «true» => exact call_keeps hk e he { m1 with depth := t :: m1.depth } h1
      | «false» => exact h1
      | thrown => exact h1

theorem keyThenTop_keeps (hk : Keeps I h) (m : Machine σ) (hi : I m.self m.stop) :
    I (keyThenTop h m).2.self (keyThenTop h m).2.stop := by
  unfold keyThenTop
  have h1 := readyObjectKey_keeps hk m hi
  cases hc : readyObjectKey h m with
  | mk x m1 =>
      rw [hc] at h1
      cases x with
      | «true» => exact h1
      | «false» => exact h1
      | thrown => exact h1

/-- A pass of the main loop skips a byte, or it calls a function of the reader,
which keeps `I`, and then tests for the end of the document. -/
theorem parseBody_keeps (hk : Keeps I h) (operation : Operation) (m : Machine σ)
    (hi : I m.self m.stop) :
    parseBody h operation m = .continue m
      ∨ ∃ r : Ret × Machine σ, I r.2.self r.2.stop
          ∧ parseBody h operation m = andThen h operation r := by
  rcases parseBody_dispatch h operation m with
    ⟨_, hp⟩ | ⟨e, hp⟩ | ⟨_, _, hp⟩ | ⟨_, _, hp⟩ | ⟨_, _, hp⟩ | ⟨_, _, hp⟩ | ⟨_, _, hp⟩
      | ⟨_, _, hp⟩ | ⟨_, _, hp⟩ | ⟨_, _, hp⟩ | ⟨_, _, hp⟩ | ⟨_, _, hp⟩
  · exact Or.inl hp
  · exact Or.inr ⟨(.false, { m with error := e }), hi, hp⟩
  · exact Or.inr ⟨_, openDocument_keeps hk _ _ (by simp) m hi, hp⟩
  · exact Or.inr ⟨_, openDocument_keeps hk _ _ (by simp) m hi, hp⟩
  · exact Or.inr ⟨_, keyThenTop_keeps hk m hi, hp⟩
  · exact Or.inr ⟨_, close_keeps hk _ (by simp) m hi, hp⟩
  · exact Or.inr ⟨_, close_keeps hk _ (by simp) m hi, hp⟩
  · exact Or.inr ⟨(.true, { m with depth := setTop .ObjectValue m.depth }), hi, hp⟩
  · exact Or.inr ⟨(.true, { m with depth := setTop .ObjectNextKey m.depth }), hi, hp⟩
  · exact Or.inr ⟨(.true, { m with depth := setTop .ArrayNextValue m.depth }), hi, hp⟩
  · exact Or.inr ⟨_, ready_keeps hk _ { m with depth := setTop .ObjectNextPair m.depth } hi, hp⟩
  · exact Or.inr ⟨_, ready_keeps hk _ { m with depth := setTop .ArrayNext m.depth } hi, hp⟩

end




open JsonStringViewBufferReader

section
variable {σ : Type} {I : σ → Bool → Prop} {h : Hooks σ}

/-! ## Runs of the main loop and what they keep -/

/-- How a pass ends when all hooks but `JsonEnd` keep `I`: it goes on or returns
without a call of `JsonEnd`, and `I` holds; or `JsonEnd` was called at depth 0
in a state in which `I` held, and the operation mode and `stop` decide. -/
theorem pass_outcome (hk : Keeps I h) (operation : Operation) (m : Machine σ)
    (hi : I m.self m.stop) :
    (∃ m1, parseBody h operation m = .continue m1 ∧ I m1.self m1.stop)
      ∨ (∃ r m1, parseBody h operation m = .return r m1 ∧ r ≠ .true ∧ I m1.self m1.stop)
      ∨ (∃ (m1 : Machine σ) (s : σ) (b : Bool), I m1.self m1.stop ∧ m1.depth = []
          ∧ h .JsonEnd m1.self = some (s, b)
          ∧ parseBody h operation m
            = if operation = .Single then .break { m1 with self := s, stop := m1.stop || b }
              else if (m1.stop || b) = true then .break { m1 with self := s, stop := m1.stop || b }
              else .continue { m1 with self := s, stop := m1.stop || b }) := by
  rcases parseBody_keeps hk operation m hi with hp | ⟨r, hr, hp⟩
  · exact Or.inl ⟨m, hp, hi⟩
  · obtain ⟨x, m1⟩ := r
    cases x with
    | «true» =>
        simp only [andThen] at hp
        rcases documentEnd_cases h operation m1 with ⟨_, hd⟩ | ⟨_, _, hd⟩ | ⟨h0, s, b, he, hd⟩
        · exact Or.inl ⟨m1, by rw [hp, hd], hr⟩
        · exact Or.inr (Or.inl ⟨.thrown, m1, by rw [hp, hd], by simp, hr⟩)
        · exact Or.inr (Or.inr ⟨m1, s, b, hr, h0, he, by rw [hp, hd]⟩)
    | «false» => exact Or.inr (Or.inl ⟨.false, m1, hp, by simp, hr⟩)
    | thrown => exact Or.inr (Or.inl ⟨.thrown, m1, hp, by simp, hr⟩)

/-- Where a run of the loop ends: at the end of the input behind some passes, or
in the pass behind them, which leaves the loop or returns. -/
theorem parseFrom_cases (h : Hooks σ) (operation : Operation) (n : Nat) :
    ∀ (m : Machine σ), m.buffer.ahead.length = n →
      ∀ (r : Ret) (m1 : Machine σ), parseFrom h operation m = some (r, m1) →
        (∃ k mk, passes h operation k m = some mk ∧ mk.buffer.ahead = []
            ∧ (r, m1) = parseEnd
                { mk with buffer := { pos := mk.buffer.pos + 1, cur := 0, ahead := [] } })
          ∨ (∃ k mk ch rest, passes h operation k m = some mk ∧ mk.buffer.ahead = ch :: rest
              ∧ ((∃ m2, parseBody h operation
                      { mk with buffer := { pos := mk.buffer.pos + 1, cur := ch, ahead := rest } }
                    = .break m2 ∧ (r, m1) = parseEnd m2)
                ∨ parseBody h operation
                      { mk with buffer := { pos := mk.buffer.pos + 1, cur := ch, ahead := rest } }
                    = .return r m1)) := by
  induction n using Nat.strong_induction_on with
  | _ n ih =>
    intro m hn r m1 hr
    cases ha : m.buffer.ahead with
    | nil =>
        rw [parseFrom_nil _ _ _ ha] at hr
        simp only [Option.some.injEq] at hr
        exact Or.inl ⟨0, m, rfl, ha, hr.symm⟩
    | cons ch rest =>
        rw [parseFrom_cons _ _ _ ch rest ha] at hr
        cases hb : parseBody h operation
            { m with buffer := { pos := m.buffer.pos + 1, cur := ch, ahead := rest } } with
        | «continue» m2 =>
            rw [hb] at hr
            simp only [] at hr
            have ho := parseBody_onward h operation _ m2 (Or.inl hb)
            have hlen : m2.buffer.ahead.length < n := by
              have := ho.length_le
              rw [ha] at hn
              simp only [List.length_cons] at hn this
              omega
            have hps : ∀ k, passes h operation (k + 1) m = passes h operation k m2 :=
              fun k => passes_succ_of_continue h operation k m m2 ch rest ha hb
            rcases ih _ hlen m2 rfl r m1 hr with ⟨k, mk, h1, h2, h3⟩ | ⟨k, mk, c, r3, h1, h2, h3⟩
            · exact Or.inl ⟨k + 1, mk, by rw [hps k]; exact h1, h2, h3⟩
            · exact Or.inr ⟨k + 1, mk, c, r3, by rw [hps k]; exact h1, h2, h3⟩
        | «break» m2 =>
            rw [hb] at hr
            simp only [Option.some.injEq] at hr
            exact Or.inr ⟨0, m, ch, rest, rfl, ha, Or.inl ⟨m2, hb, hr.symm⟩⟩
        | «return» x m2 =>
            rw [hb] at hr
            simp only [Option.some.injEq, Prod.mk.injEq] at hr
            obtain ⟨rfl, rfl⟩ := hr
            exact Or.inr ⟨0, m, ch, rest, rfl, ha, Or.inr hb⟩

/-- In Single mode the passes that go on keep `I`. -/
theorem passes_keeps (hk : Keeps I h) (k : Nat) :
    ∀ (m mk : Machine σ), I m.self m.stop → passes h .Single k m = some mk →
      I mk.self mk.stop := by
  induction k with
  | zero => intro m mk hi hp; simp only [passes, Option.some.injEq] at hp; rw [← hp]; exact hi
  | succ k ih =>
      intro m mk hi hp
      obtain ⟨m1, ch, rest, h1, h2, h3⟩ := passes_last h .Single k m mk hp
      have hi1 := ih m m1 hi h1
      rcases pass_outcome hk .Single
          { m1 with buffer := { pos := m1.buffer.pos + 1, cur := ch, ahead := rest } } hi1 with
        ⟨m2, hp2, hi2⟩ | ⟨r, m2, hp2, _, _⟩ | ⟨m2, s, b, _, _, _, hp2⟩
      · rw [h3] at hp2
        simp only [Step.continue.injEq] at hp2
        rw [hp2]; exact hi2
      · rw [h3] at hp2; simp at hp2
      · rw [h3] at hp2; simp at hp2

/-- When no hook but `JsonEnd` asks to stop, `stop` is false between the passes. -/
theorem passes_stop (hk : Keeps (fun _ st => st = false) h) (operation : Operation) (k : Nat) :
    ∀ (m mk : Machine σ), m.stop = false → passes h operation k m = some mk →
      mk.stop = false := by
  induction k with
  | zero => intro m mk hi hp; simp only [passes, Option.some.injEq] at hp; rw [← hp]; exact hi
  | succ k ih =>
      intro m mk hi hp
      obtain ⟨m1, ch, rest, h1, h2, h3⟩ := passes_last h operation k m mk hp
      have hi1 := ih m m1 hi h1
      rcases pass_outcome hk operation
          { m1 with buffer := { pos := m1.buffer.pos + 1, cur := ch, ahead := rest } } hi1 with
        ⟨m2, hp2, hi2⟩ | ⟨r, m2, hp2, _, _⟩ | ⟨m2, s, b, _, _, _, hp2⟩
      · rw [h3] at hp2
        simp only [Step.continue.injEq] at hp2
        rw [hp2]; exact hi2
      · rw [h3] at hp2; simp at hp2
      · rw [h3] at hp2
        cases operation with
        | Single => simp at hp2
        | Multiple =>
            simp only [reduceCtorEq, if_false] at hp2
            by_cases hb : (m2.stop || b) = true
            · rw [if_pos hb] at hp2; simp at hp2
            · rw [if_neg hb] at hp2
              simp only [Step.continue.injEq] at hp2
              rw [hp2]
              simpa using hb

/-- A Single-mode run that returns false has not called `JsonEnd`: what all the
other hooks keep still holds. -/
theorem parseFrom_false_keeps (hk : Keeps I h) (m m1 : Machine σ) (hi : I m.self m.stop)
    (hr : parseFrom h .Single m = some (.false, m1)) : I m1.self m1.stop := by
  rcases parseFrom_cases h .Single _ m rfl .false m1 hr with
    ⟨k, mk, h1, h2, h3⟩ | ⟨k, mk, ch, rest, h1, h2, h3⟩
  · have hik := passes_keeps hk k m mk hi h1
    unfold parseEnd at h3
    by_cases hd : (!mk.depth.isEmpty) = true
    · simp only [hd, if_true, Prod.mk.injEq, true_and] at h3
      rw [h3]; exact hik
    · simp only [hd, Bool.false_eq_true, if_false, Prod.mk.injEq, reduceCtorEq, false_and] at h3
  · have hik := passes_keeps hk k m mk hi h1
    rcases pass_outcome hk .Single
        { mk with buffer := { pos := mk.buffer.pos + 1, cur := ch, ahead := rest } } hik with
      ⟨m2, hp2, hi2⟩ | ⟨r, m2, hp2, _, hi2⟩ | ⟨m2, s, b, _, hd, _, hp2⟩
    · rcases h3 with ⟨m3, h3, _⟩ | h3 <;> (rw [hp2] at h3; simp at h3)
    · rcases h3 with ⟨m3, h3, _⟩ | h3
      · rw [hp2] at h3; simp at h3
      · rw [hp2] at h3
        simp only [Step.return.injEq] at h3
        rw [← h3.2]; exact hi2
    · simp only [if_true] at hp2
      rcases h3 with ⟨m3, h3, h4⟩ | h3
      · rw [hp2] at h3
        simp only [Step.break.injEq] at h3
        rw [← h3] at h4
        simp [parseEnd, hd] at h4
      · rw [hp2] at h3; simp at h3

end




open JsonStringViewBufferReader

section
variable {σ : Type} {h : Hooks σ}

/-! ## The error number of the thread

`errno` changes in one place: `std::stod` leaves `ERANGE` in it when it throws. -/

theorem call_errno (h : Hooks σ) (e : Event) (m : Machine σ) :
    (call h e m).2.errno = m.errno := by
  unfold call emit
  cases h e m.self with
  | none => rfl
  | some p => rfl

theorem readyObjectKey_errno (h : Hooks σ) (m : Machine σ) :
    (readyObjectKey h m).2.errno = m.errno := by
  unfold readyObjectKey
  cases readyString [] m.buffer with
  | fail error buffer => rfl
  | ok temp buffer => exact call_errno h _ { m with buffer := buffer }

theorem readyStringValue_errno (h : Hooks σ) (m : Machine σ) :
    (readyStringValue h m).2.errno = m.errno := by
  unfold readyStringValue
  cases readyString [] m.buffer with
  | fail error buffer => rfl
  | ok temp buffer => exact call_errno h _ { m with buffer := buffer }

theorem numberValue_errno (h : Hooks σ) (scan : NumberScan) (m : Machine σ)
    (hr : (numberValue h scan m).1 ≠ .thrown) : (numberValue h scan m).2.errno = m.errno := by
  unfold numberValue at hr ⊢
  by_cases h1 : (scan.points == 1) = true
  · rw [if_pos h1] at hr ⊢
    cases hs : stod scan.temp with
    | none => rw [hs] at hr; exact absurd rfl hr
    | some value =>
        simp only []
        by_cases he : m.errno = true
        · rw [if_pos he]
        · rw [if_neg he]; exact call_errno h _ m
  · rw [if_neg h1]
    by_cases h0 : (scan.points == 0) = true
    · rw [if_pos h0]
      cases from_chars scan.temp with
      | none => rfl
      | some value => exact call_errno h _ m
    · rw [if_neg h0]

theorem numberEnd_errno (h : Hooks σ) (scan : NumberScan) (r : Ret × Machine σ) :
    (numberEnd h scan r).2.errno = r.2.errno := by
  obtain ⟨x, m⟩ := r
  unfold numberEnd
  cases x with
  | «true» =>
      simp only []
      by_cases h1 : (scan.end == End.Object) = true
      · rw [if_pos h1]; exact call_errno h _ m
      · rw [if_neg h1]
        by_cases h2 : (scan.end == End.Array) = true
        · rw [if_pos h2]; exact call_errno h _ m
        · rw [if_neg h2]
  | «false» => rfl
  | thrown => rfl

theorem numberEnd_thrown (h : Hooks σ) (scan : NumberScan) (r : Ret × Machine σ)
    (hr : r.1 = .thrown) : (numberEnd h scan r).1 = .thrown := by
  obtain ⟨x, m⟩ := r
  simp only at hr
  subst hr
  rfl

theorem readyNumberEnd_errno (h : Hooks σ) (scan : NumberScan) (m : Machine σ)
    (hr : (readyNumberEnd h scan m).1 ≠ .thrown) :
    (readyNumberEnd h scan m).2.errno = m.errno := by
  unfold readyNumberEnd at hr ⊢
  by_cases h1 : (!scan.exit) = true
  · rw [if_pos h1]
  · rw [if_neg h1] at hr ⊢
    by_cases h2 : (scan.end == End.None && !isspace scan.ch) = true
    · rw [if_pos h2]
    · rw [if_neg h2] at hr ⊢
      by_cases h3 : (scan.temp.getLast? == some 46) = true
      · rw [if_pos h3]
      · rw [if_neg h3] at hr ⊢
        rw [numberEnd_errno]
        exact numberValue_errno h scan m (fun ht => hr (numberEnd_thrown h scan _ ht))

theorem readyNumber_errno (h : Hooks σ) (digit : Nat) (m : Machine σ)
    (hr : (readyNumber h digit m).1 ≠ .thrown) : (readyNumber h digit m).2.errno = m.errno := by
  unfold readyNumber at hr ⊢
  cases hl : readyNumberLoop (digit == 45) m.depth m.buffer.pos 0 0 [digit] 0 m.buffer.ahead with
  | fail error buffer => rfl
  | ok scan buffer =>
      rw [hl] at hr
      exact readyNumberEnd_errno h scan { m with buffer := buffer, depth := scan.depth } hr

theorem readyKeyword_errno (h : Hooks σ) (rest : List Nat) (e : Event) (m : Machine σ) :
    (readyKeyword h rest e m).2.errno = m.errno := by
  unfold readyKeyword
  cases readyValue rest m.buffer with
  | fail error buffer => rfl
  | ok u buffer => exact call_errno h e { m with buffer := buffer }

theorem ready_errno (h : Hooks σ) (ch : Nat) (m : Machine σ)
    (hr : (ready h ch m).1 ≠ .thrown) : (ready h ch m).2.errno = m.errno := by
  unfold ready at hr ⊢
  by_cases h1 : (ch == 123) = true
  · rw [if_pos h1]; exact call_errno h _ { m with depth := _ }
  rw [if_neg h1] at hr ⊢
  by_cases h2 : (ch == 91) = true
  · rw [if_pos h2]; exact call_errno h _ { m with depth := _ }
  rw [if_neg h2] at hr ⊢
  by_cases h3 : (ch == 34) = true
  · rw [if_pos h3]; exact readyStringValue_errno h m
  rw [if_neg h3] at hr ⊢
  by_cases h4 : (ch == 45 || isdigit ch) = true
  · rw [if_pos h4] at hr ⊢; exact readyNumber_errno h ch m hr
  rw [if_neg h4]
  by_cases h5 : (ch == 116) = true
  · rw [if_pos h5]; exact readyKeyword_errno h _ _ m
  rw [if_neg h5]
  by_cases h6 : (ch == 102) = true
  · rw [if_pos h6]; exact readyKeyword_errno h _ _ m
  rw [if_neg h6]
  by_cases h7 : (ch == 110) = true
  · rw [if_pos h7]; exact readyKeyword_errno h _ _ m
  rw [if_neg h7]

theorem close_errno (h : Hooks σ) (e : Event) (m : Machine σ) :
    (close h e m).2.errno = m.errno := by
  unfold close
  exact call_errno h e { m with depth := m.depth.tail }

theorem openDocument_errno (h : Hooks σ) (t : JsonReaderType) (e : Event) (m : Machine σ) :
    (openDocument h t e m).2.errno = m.errno := by
  unfold openDocument
  have h1 := call_errno h .JsonBegin m
  cases hc : call h .JsonBegin m with
  | mk x m1 =>
      rw [hc] at h1
      cases x with
      | «true» =>
          simp only []
          rw [call_errno]
          exact h1
      | «false» => exact h1
      | thrown => exact h1

theorem keyThenTop_errno (h : Hooks σ) (m : Machine σ) :
    (keyThenTop h m).2.errno = m.errno := by
  unfold keyThenTop
  have h1 := readyObjectKey_errno h m
  cases hc : readyObjectKey h m with
  | mk x m1 =>
      rw [hc] at h1
      cases x with
      | «true» => exact h1
      | «false» => exact h1
      | thrown => exact h1

theorem documentEnd_errno (h : Hooks σ) (operation : Operation) (m : Machine σ) :
    (documentEnd h operation m).machine.errno = m.errno := by
  rcases documentEnd_cases h operation m with ⟨_, hd⟩ | ⟨_, _, hd⟩ | ⟨_, s, b, _, hd⟩
  · rw [hd]; rfl
  · rw [hd]; rfl
  · rw [hd]
    by_cases ho : operation = .Single
    · rw [if_pos ho]; rfl
    · rw [if_neg ho]
      by_cases hb : (m.stop || b) = true
      · rw [if_pos hb]; rfl
      · rw [if_neg hb]; rfl

theorem andThen_errno (h : Hooks σ) (operation : Operation) (r : Ret × Machine σ) :
    (andThen h operation r).machine.errno = r.2.errno := by
  obtain ⟨x, m⟩ := r
  cases x with
  | «true» => exact documentEnd_errno h operation m
  | «false» => rfl
  | thrown => rfl

/-- An exception that leaves a function of the reader leaves the main loop as
it is. -/
theorem andThen_thrown (h : Hooks σ) (operation : Operation) (r : Ret × Machine σ)
    (hr : r.1 = .thrown) : andThen h operation r = .return .thrown r.2 := by
  obtain ⟨x, m⟩ := r
  simp only at hr
  subst hr
  rfl

/-- A pass of the main loop leaves `errno` as it was, unless an exception ends
it. -/
theorem parseBody_errno (h : Hooks σ) (operation : Operation) (m : Machine σ)
    (hr : ∀ m1, parseBody h operation m ≠ .return .thrown m1) :
    (parseBody h operation m).machine.errno = m.errno := by
  have hready : ∀ (ch : Nat) (m0 : Machine σ), m0.errno = m.errno →
      parseBody h operation m = andThen h operation (ready h ch m0) →
      (parseBody h operation m).machine.errno = m.errno := by
    intro ch m0 h0 hp
    rw [hp, andThen_errno, ← h0]
    refine ready_errno h ch m0 (fun ht => ?_)
    exact hr _ (by rw [hp]; exact andThen_thrown h operation _ ht)
  rcases parseBody_dispatch h operation m with
    ⟨_, hp⟩ | ⟨e, hp⟩ | ⟨_, _, hp⟩ | ⟨_, _, hp⟩ | ⟨_, _, hp⟩ | ⟨_, _, hp⟩ | ⟨_, _, hp⟩
      | ⟨_, _, hp⟩ | ⟨_, _, hp⟩ | ⟨_, _, hp⟩ | ⟨_, _, hp⟩ | ⟨_, _, hp⟩
  · rw [hp]; rfl
  · rw [hp]; rfl
  · rw [hp, andThen_errno, openDocument_errno]
  · rw [hp, andThen_errno, openDocument_errno]
  · rw [hp, andThen_errno, keyThenTop_errno]
  · rw [hp, andThen_errno, close_errno]
  · rw [hp, andThen_errno, close_errno]
  · rw [hp, documentEnd_errno]
  · rw [hp, documentEnd_errno]
  · rw [hp, documentEnd_errno]
  · exact hready _ { m with depth := setTop .ObjectNextPair m.depth } rfl hp
  · exact hready _ { m with depth := setTop .ArrayNext m.depth } rfl hp

/-- The passes of the main loop leave `errno` as it was. -/
theorem passes_errno (h : Hooks σ) (operation : Operation) (k : Nat) :
    ∀ (m mk : Machine σ), passes h operation k m = some mk → mk.errno = m.errno := by
  induction k with
  | zero => intro m mk hp; simp only [passes, Option.some.injEq] at hp; rw [← hp]
  | succ k ih =>
      intro m mk hp
      obtain ⟨m1, ch, rest, h1, h2, h3⟩ := passes_last h operation k m mk hp
      have hi1 := ih m m1 h1
      have := parseBody_errno h operation
        { m1 with buffer := { pos := m1.buffer.pos + 1, cur := ch, ahead := rest } }
        (by rw [h3]; intro m2 hx; exact Step.noConfusion hx)
      rw [h3] at this
      exact this.trans hi1

end




open JsonStringViewBufferReader

section
variable {κ : Type}

/-! ## What the hooks of the builder change -/

theorem insertValue_effect (value : JsonValue) (r r1 : JsonReader κ)
    (hi : JsonReader.insertValue value r = some r1) :
    r1.user = r.user ∧ r1.heap.values = r.heap.values ∧ r1.stack = r.stack ∧ r1.root = r.root
      ∧ r1.key = [] ∧ r.stack ≠ [] := by
  unfold JsonReader.insertValue at hi
  cases hs : r.stack with
  | nil => rw [hs] at hi; simp at hi
  | cons cell below =>
      rw [hs] at hi
      simp only [] at hi
      by_cases hk : (!r.key.isEmpty) = true
      · rw [if_pos hk] at hi
        cases hc : r.heap.values[cell]? with
        | none => rw [hc] at hi; simp at hi
        | some x =>
            rw [hc] at hi
            cases x <;> simp only [reduceCtorEq] at hi
            rename_i map
            cases hm : r.heap.maps[map]? with
            | none => rw [hm] at hi; simp at hi
            | some entries =>
                rw [hm] at hi
                simp only [Option.some.injEq] at hi
                rw [← hi]
                exact ⟨rfl, rfl, rfl, rfl, rfl, by simp⟩
      · rw [if_neg hk] at hi
        have hk0 : r.key = [] := by
          cases hkk : r.key with
          | nil => rfl
          | cons a as => rw [hkk] at hk; simp at hk
        cases hc : r.heap.values[cell]? with
        | none => rw [hc] at hi; simp at hi
        | some x =>
            rw [hc] at hi
            cases x <;> simp only [reduceCtorEq] at hi
            rename_i array
            cases hm : r.heap.arrays[array]? with
            | none => rw [hm] at hi; simp at hi
            | some elements =>
                rw [hm] at hi
                simp only [Option.some.injEq] at hi
                rw [← hi]
                exact ⟨rfl, rfl, rfl, rfl, hk0, by simp⟩

theorem begin_effect (value : JsonValue) (r r1 : JsonReader κ)
    (hb : JsonReader.begin value r = some r1) :
    r1.user = r.user ∧ r1.heap.values = r.heap.values ∧ r1.stack = value.value :: r.stack
      ∧ (r.stack = [] → r1.key = r.key ∧ r1.root = value)
      ∧ (r.stack ≠ [] → r1.key = [] ∧ r1.root = r.root) := by
  unfold JsonReader.begin at hb
  by_cases he : r.stack.isEmpty = true
  · rw [if_pos he] at hb
    simp only [Option.some.injEq] at hb
    have h0 : r.stack = [] := List.isEmpty_iff.mp he
    rw [← hb]
    exact ⟨rfl, rfl, by simp [h0], fun _ => ⟨rfl, rfl⟩, fun hn => absurd h0 hn⟩
  · rw [if_neg he] at hb
    cases hi : JsonReader.insertValue value r with
    | none => rw [hi] at hb; simp at hb
    | some r2 =>
        rw [hi] at hb
        simp only [Option.some.injEq] at hb
        obtain ⟨h1, h2, h3, h4, h5, h6⟩ := insertValue_effect value r r2 hi
        rw [← hb]
        exact ⟨h1, h2, by simp [h3], fun h0 => absurd h0 h6, fun _ => ⟨h5, h4⟩⟩

theorem scalar_effect (v : Value) (r r1 : JsonReader κ) (hs : JsonReader.scalar v r = some r1) :
    r1.user = r.user ∧ r1.heap.values = r.heap.values ++ [v] ∧ r1.stack = r.stack
      ∧ r1.root = r.root ∧ r1.key = [] ∧ r.stack ≠ [] := by
  unfold JsonReader.scalar at hs
  simp only [Heap.newValue] at hs
  obtain ⟨h1, h2, h3, h4, h5, h6⟩ := insertValue_effect _ _ r1 hs
  exact ⟨h1, h2, h3, h4, h5, h6⟩

/-- No hook of the builder but `JsonEnd` asks to stop or touches the state of
the callback, and none changes a value cell that exists: cells are added at the
end. -/
theorem hooks_frame (callback : Callback κ) (e : Event) (r r1 : JsonReader κ) (b : Bool)
    (he : e ≠ .JsonEnd) (hh : JsonReader.hooks callback e r = some (r1, b)) :
    b = false ∧ r1.user = r.user ∧ ∃ vs, r1.heap.values = r.heap.values ++ vs := by
  have hscalar : ∀ v, (JsonReader.scalar v r).map (fun x => (x, false)) = some (r1, b) →
      b = false ∧ r1.user = r.user ∧ ∃ vs, r1.heap.values = r.heap.values ++ vs := by
    intro v hv
    cases hs : JsonReader.scalar v r with
    | none => rw [hs] at hv; simp at hv
    | some r2 =>
        rw [hs] at hv
        simp only [Option.map_some', Option.some.injEq, Prod.mk.injEq] at hv
        obtain ⟨rfl, rfl⟩ := hv
        obtain ⟨h1, h2, _⟩ := scalar_effect v r r2 hs
        exact ⟨rfl, h1, [v], h2⟩
  have hbegin : ∀ (value : JsonValue) (r0 : JsonReader κ) (x : Value),
      (JsonReader.begin value r0).map (fun x => (x, false)) = some (r1, b) →
      r0.user = r.user → r0.heap.values = r.heap.values ++ [x] →
      b = false ∧ r1.user = r.user ∧ ∃ vs, r1.heap.values = r.heap.values ++ vs := by
    intro value r0 x hm hu hv
    cases hs : JsonReader.begin value r0 with
    | none => rw [hs] at hm; simp at hm
    | some r2 =>
        rw [hs] at hm
        simp only [Option.map_some', Option.some.injEq, Prod.mk.injEq] at hm
        obtain ⟨rfl, rfl⟩ := hm
        obtain ⟨h1, h2, _⟩ := begin_effect value r0 r2 hs
        exact ⟨rfl, by rw [h1, hu], [x], by rw [h2, hv]⟩
  cases e with
  | JsonBegin =>
      simp only [JsonReader.hooks, Option.some.injEq, Prod.mk.injEq] at hh
      obtain ⟨rfl, rfl⟩ := hh
      exact ⟨rfl, rfl, [], by simp⟩
  | JsonEnd => exact absurd rfl he
  | ObjectBegin =>
      simp only [JsonReader.hooks, Heap.newMap, Heap.newValue] at hh
      exact hbegin _ _ (.Object r.heap.maps.length) hh rfl rfl
  | ObjectKey key =>
      simp only [JsonReader.hooks, Option.some.injEq, Prod.mk.injEq] at hh
      obtain ⟨rfl, rfl⟩ := hh
      exact ⟨rfl, rfl, [], by simp⟩
  | ObjectEnd =>
      simp only [JsonReader.hooks] at hh
      by_cases hs : r.stack.isEmpty = true
      · rw [if_pos hs] at hh; simp at hh
      · rw [if_neg hs] at hh
        simp only [Option.some.injEq, Prod.mk.injEq] at hh
        obtain ⟨rfl, rfl⟩ := hh
        exact ⟨rfl, rfl, [], by simp⟩
  | ArrayBegin =>
      simp only [JsonReader.hooks, Heap.newArray, Heap.newValue] at hh
      exact hbegin _ _ (.Array r.heap.arrays.length) hh rfl rfl
  | ArrayEnd =>
      simp only [JsonReader.hooks] at hh
      by_cases hs : r.stack.isEmpty = true
      · rw [if_pos hs] at hh; simp at hh
      · rw [if_neg hs] at hh
        simp only [Option.some.injEq, Prod.mk.injEq] at hh
        obtain ⟨rfl, rfl⟩ := hh
        exact ⟨rfl, rfl, [], by simp⟩
  | ValueString value => exact hscalar _ hh
  | ValueDouble value => exact hscalar _ hh
  | ValueLongLong value => exact hscalar _ hh
  | ValueBool value => exact hscalar _ hh
  | Null => exact hscalar _ hh

/-- The hook `JsonEnd` of the builder: the callback is called with `root`, the
stack is cleared, and `stop` is asked for when the callback returns false. -/
theorem hooks_JsonEnd (callback : Callback κ) (r : JsonReader κ) :
    JsonReader.hooks callback .JsonEnd r
      = some ({ r with stack := [], user := (callback r.root r.heap r.user).1 },
          !(callback r.root r.heap r.user).2) := rfl

theorem hooks_keeps_stop (callback : Callback κ) :
    Keeps (fun _ st => st = false) (JsonReader.hooks callback) := by
  intro e s s1 b st he hh hi
  obtain ⟨hb, _, _⟩ := hooks_frame callback e s s1 b he hh
  have hi1 : st = false := hi
  show (st || b) = false
  rw [hi1, hb]; rfl

theorem hooks_keeps_user (callback : Callback κ) (user : κ) (cells : List Value) :
    Keeps (fun s _ => s.user = user ∧ ∃ vs, s.heap.values = cells ++ vs)
      (JsonReader.hooks callback) := by
  intro e s s1 b st he hh hi
  obtain ⟨_, hu, vs, hv⟩ := hooks_frame callback e s s1 b he hh
  obtain ⟨h1, ws, h2⟩ := hi
  exact ⟨by rw [hu, h1], ws ++ vs, by rw [hv, h2]; simp⟩

end




open JsonStringViewBufferReader

/-! ## What `JsonReader::parse` leaves behind a failure -/

/-- The convenience overload returns an empty value when the parse fails: the
callback, which alone assigns to `ret`, has not run. -/
theorem parseValue_false (errno : Bool) (json : List Nat) (r : Ret) (ret : JsonValue) (heap : Heap)
    (hp : JsonReader.parseValue errno json = some (r, ret, heap)) (hr : r = .false) :
    heap.type ret = some .Empty := by
  subst hr
  unfold JsonReader.parseValue at hp
  simp only [JsonReader.new, Heap.newValue, List.length_singleton] at hp
  unfold JsonReader.parse at hp
  cases hs : JsonSAXReader.parse (JsonReader.hooks JsonReader.keep)
      { _error := .empty, stop := false, self := { heap := { values := [Value.Empty] ++ [Value.Empty], maps := [], arrays := [] }, root := { value := 0 }, stack := [], key := [], user := { value := 1 } }, errno := errno }
      (ofString json) .Single with
  | none => rw [hs] at hp; simp at hp
  | some p =>
      obtain ⟨x, m⟩ := p
      rw [hs] at hp
      cases x with
      | «true» => simp at hp
      | thrown => simp at hp
      | «false» =>
          simp only [Heap.newValue, Option.some.injEq, Prod.mk.injEq, true_and] at hp
          obtain ⟨rfl, rfl⟩ := hp
          have hk := hooks_keeps_user JsonReader.keep ({ value := 1 } : JsonValue)
            [Value.Empty, Value.Empty]
          obtain ⟨hu, vs, hv⟩ := parseFrom_false_keeps hk _ m ⟨rfl, [], rfl⟩ hs
          rw [hu]
          simp only [Heap.type, hv]
          simp

open JsonStringViewBufferReader

/-! ## A run that the callback stops -/

theorem Live.of_onward {a b c d : JsonStringViewBufferReader} (h1 : Onward a b)
    (h2 : Live b.pos b.ahead c) (h3 : Onward c d) : Live a.pos a.ahead d := by
  have h4 : Live b.pos b.ahead d := by
    rcases h3 with rfl | h3
    · exact h2
    · exact h2.transLive h3
  rcases h1 with rfl | h1
  · exact h4
  · exact h1.transLive h4

/-- A Multiple-mode run that ends with `stop` set, when only `JsonEnd` can set
it: the run returned true from the pass in which `JsonEnd` set it, at depth 0,
on a byte of the input. -/
theorem parseFrom_stopped {σ : Type} {h : Hooks σ} (hk : Keeps (fun _ st => st = false) h)
    (m m1 : Machine σ) (r : Ret) (hm : m.stop = false)
    (hr : parseFrom h .Multiple m = some (r, m1)) (hs : m1.stop = true) :
    r = .true ∧ m1.depth = []
      ∧ (∃ m0 : Machine σ, m0.stop = false ∧ h .JsonEnd m0.self = some (m1.self, true)
          ∧ m1 = { m0 with self := m1.self, stop := true })
      ∧ Live m.buffer.pos m.buffer.ahead m1.buffer := by
  rcases parseFrom_cases h .Multiple _ m rfl r m1 hr with
    ⟨k, mk, h1, h2, h3⟩ | ⟨k, mk, ch, rest, h1, h2, h3⟩
  · exfalso
    have hk1 := passes_stop hk .Multiple k m mk hm h1
    have : m1.stop = mk.stop := by
      have := congrArg (fun p => p.2.stop) h3
      simp only [] at this
      rw [this]
      unfold parseEnd
      split <;> rfl
    rw [this, hk1] at hs
    exact Bool.false_ne_true hs
  · have hk1 := passes_stop hk .Multiple k m mk hm h1
    have ho1 := passes_onward h .Multiple k m mk h1
    have hl : Live mk.buffer.pos mk.buffer.ahead
        { pos := mk.buffer.pos + 1, cur := ch, ahead := rest } := by
      rw [h2]; exact Live.here _ _ _
    rcases pass_outcome hk .Multiple
        { mk with buffer := { pos := mk.buffer.pos + 1, cur := ch, ahead := rest } } hk1 with
      ⟨m2, hp2, hi2⟩ | ⟨x, m2, hp2, _, hi2⟩ | ⟨m2, s, b, hi2, hd, he, hp2⟩
    · rcases h3 with ⟨m3, h3, _⟩ | h3 <;> (rw [hp2] at h3; simp at h3)
    · rcases h3 with ⟨m3, h3, _⟩ | h3
      · rw [hp2] at h3; simp at h3
      · rw [hp2] at h3
        simp only [Step.return.injEq] at h3
        rw [← h3.2] at hs
        have hi3 : m2.stop = false := hi2
        rw [hi3] at hs
        exact absurd hs Bool.false_ne_true
    · simp only [reduceCtorEq, if_false] at hp2
      replace hi2 : m2.stop = false := hi2
      by_cases hb : (m2.stop || b) = true
      · rw [if_pos hb] at hp2
        rcases h3 with ⟨m3, h3, h4⟩ | h3
        · have ho2 := parseBody_onward h .Multiple _ m3 (Or.inr h3)
          rw [hp2] at h3
          simp only [Step.break.injEq] at h3
          have hb1 : b = true := by rw [hi2] at hb; simpa using hb
          subst hb1
          have hpe : parseEnd m3 = (.true, m3) := by
            unfold parseEnd
            rw [← h3]
            simp [hd]
          rw [hpe] at h4
          simp only [Prod.mk.injEq] at h4
          obtain ⟨rfl, rfl⟩ := h4
          refine ⟨rfl, by rw [← h3]; exact hd, ⟨m2, hi2, ?_, ?_⟩, Live.of_onward ho1 hl ho2⟩
          · rw [he, ← h3]
          · rw [← h3]; simp [hi2]
        · rw [hp2] at h3; simp at h3
      · rw [if_neg hb] at hp2
        rcases h3 with ⟨m3, h3, _⟩ | h3 <;> (rw [hp2] at h3; simp at h3)

/-- The hook `JsonEnd` of the builder leaves the loop in Multiple mode when the
callback returns false. -/
theorem documentEnd_callback_false {κ : Type} (callback : Callback κ)
    (m : Machine (JsonReader κ)) (hd : m.depth = [])
    (hc : (callback m.self.root m.self.heap m.self.user).2 = false) :
    documentEnd (JsonReader.hooks callback) .Multiple m
      = .break { m with self := { m.self with stack := [], user := (callback m.self.root m.self.heap m.self.user).1 }, stop := true } := by
  rcases documentEnd_cases (JsonReader.hooks callback) .Multiple m with
    ⟨h0, _⟩ | ⟨_, h1, _⟩ | ⟨_, s, b, h1, h2⟩
  · exact absurd hd h0
  · rw [hooks_JsonEnd] at h1; simp at h1
  · rw [hooks_JsonEnd] at h1
    simp only [Option.some.injEq, Prod.mk.injEq] at h1
    obtain ⟨rfl, rfl⟩ := h1
    rw [h2, hc]
    simp

/-- C13 (stop by callback).  In Multiple mode, when the callback returns false
at the end of a document, the hook `JsonEnd` sets `stop` and the pass leaves the
loop.  And a Multiple-mode `JsonReader::parse` of an input `d` that ends with
`stop` set has returned true, at depth 0; the state of the builder is the one
the stopping call of the callback left, with the callback's own state as that
call returned it, so the callback was not called again; the reader stands on a
byte of `d`, and what is ahead of it was not read: for every continuation `t`
of the input, valid, malformed or empty, parse of `d ++ t` returns true in the
same state with `t` ahead as well. -/
theorem C13_stop_by_callback {κ : Type} (callback : Callback κ)
    (sax : JsonSAXReader (JsonReader κ)) :
    (∀ m : Machine (JsonReader κ), m.depth = [] →
        (callback m.self.root m.self.heap m.self.user).2 = false →
        documentEnd (JsonReader.hooks callback) .Multiple m
          = .break { m with self := { m.self with stack := [], user := (callback m.self.root m.self.heap m.self.user).1 }, stop := true })
      ∧ (∀ (d : List Nat) (r : Ret) (m : Machine (JsonReader κ)),
          JsonReader.parse callback sax (ofString d) .Multiple = some (r, m) → m.stop = true →
          r = .true ∧ m.depth = []
            ∧ (∃ s : JsonReader κ, callback s.root s.heap s.user = (m.self.user, false)
                ∧ m.self = { s with stack := [], user := m.self.user })
            ∧ 0 ≤ m.buffer.pos ∧ m.buffer.pos + 1 + m.buffer.ahead.length = d.length
            ∧ ∀ t, JsonReader.parse callback sax (ofString (d ++ t)) .Multiple
                = some (.true, m.extend t)) := by
  refine ⟨fun m hd hc => documentEnd_callback_false callback m hd hc, ?_⟩
  intro d r m hp hstop
  have hk := hooks_keeps_stop callback
  unfold JsonReader.parse at hp
  cases hs : JsonSAXReader.parse (JsonReader.hooks callback) sax (ofString d) .Multiple with
  | none => rw [hs] at hp; simp at hp
  | some p =>
      obtain ⟨x, m0⟩ := p
      rw [hs] at hp
      have hm0 : m0.stop = true := by
        cases x <;> simp only [Option.some.injEq, Prod.mk.injEq] at hp <;>
          (obtain ⟨_, rfl⟩ := hp; exact hstop)
      obtain ⟨hx, h0, ⟨m2, h2, h3, h4⟩, hl⟩ :=
        parseFrom_stopped hk (sax.start (ofString d)) m0 x rfl hs hm0
      subst hx
      simp only [Option.some.injEq, Prod.mk.injEq] at hp
      obtain ⟨rfl, rfl⟩ := hp
      refine ⟨rfl, h0, ?_, ?_, ?_, ?_⟩
      · rw [hooks_JsonEnd] at h3
        simp only [Option.some.injEq, Prod.mk.injEq, Bool.not_eq_true'] at h3
        refine ⟨m2.self, ?_, ?_⟩
        · have hu : (callback m2.self.root m2.self.heap m2.self.user).1 = m0.self.user := by
            rw [← h3.1]
          exact Prod.ext hu h3.2
        · rw [← h3.1]
      · obtain ⟨pre, _, hpos⟩ := hl
        simp only [JsonSAXReader.start, ofString] at hpos
        omega
      · have := hl.size_eq
        simp only [JsonSAXReader.start, ofString] at this
        omega
      · intro t
        rcases parseFrom_local (JsonReader.hooks callback) .Multiple _ (sax.start (ofString d)) rfl
            .true m0 hs with ⟨_, hx⟩ | ⟨he, _⟩
        · have hxt := hx t
          unfold JsonReader.parse
          have : JsonSAXReader.parse (JsonReader.hooks callback) sax (ofString (d ++ t)) .Multiple
              = some (.true, m0.extend t) := hxt
          rw [this]
        · exact absurd hl.pos_lt he.not_pos_lt

/-- C13, witness: the callback that returns false on its first call, which
counts its calls, and the document `{"a":1}`.  Parse returns true with one call
counted and the reader on the `}`; with ` {"b":2}` behind the document, and with
`]]` behind it, parse returns true in the same state, those bytes ahead. -/
theorem C13_stop_by_callback_witness :
    JsonReader.parse (stopAt 1) { _error := .empty, stop := false, self := JsonReader.new 0 }
        (ofString ([123, 34, 97, 34, 58, 49, 125] ++ [32, 123, 34, 98, 34, 58, 50, 125])) .Multiple
      = some (.true, Machine.extend { buffer := { pos := 6, cur := 125, ahead := [] }, depth := [], self := { heap := { values := [.Empty, .Object 0, .LongLong 1], maps := [[([97], { value := 2 })]], arrays := [] }, root := { value := 1 }, stack := [], key := [], user := 1 }, stop := true, error := .empty } [32, 123, 34, 98, 34, 58, 50, 125])
      ∧ JsonReader.parse (stopAt 1) { _error := .empty, stop := false, self := JsonReader.new 0 }
          (ofString ([123, 34, 97, 34, 58, 49, 125] ++ [93, 93])) .Multiple
        = some (.true, Machine.extend { buffer := { pos := 6, cur := 125, ahead := [] }, depth := [], self := { heap := { values := [.Empty, .Object 0, .LongLong 1], maps := [[([97], { value := 2 })]], arrays := [] }, root := { value := 1 }, stack := [], key := [], user := 1 }, stop := true, error := .empty } [93, 93]) :=
  ⟨((C13_stop_by_callback (stopAt 1) { _error := .empty, stop := false, self := JsonReader.new 0 }).2
      [123, 34, 97, 34, 58, 49, 125] .true
      { buffer := { pos := 6, cur := 125, ahead := [] }, depth := [], self := { heap := { values := [.Empty, .Object 0, .LongLong 1], maps := [[([97], { value := 2 })]], arrays := [] }, root := { value := 1 }, stack := [], key := [], user := 1 }, stop := true, error := .empty }
      (by decide!) rfl).2.2.2.2.2 [32, 123, 34, 98, 34, 58, 50, 125],
   ((C13_stop_by_callback (stopAt 1) { _error := .empty, stop := false, self := JsonReader.new 0 }).2
      [123, 34, 97, 34, 58, 49, 125] .true
      { buffer := { pos := 6, cur := 125, ahead := [] }, depth := [], self := { heap := { values := [.Empty, .Object 0, .LongLong 1], maps := [[([97], { value := 2 })]], arrays := [] }, root := { value := 1 }, stack := [], key := [], user := 1 }, stop := true, error := .empty }
      (by decide!) rfl).2.2.2.2.2 [93, 93]⟩




/-! ## Trees in heaps that grow -/

theorem tree_succ (h : Heap) (n : Nat) (j : JsonValue) :
    h.tree (n + 1) j =
      match h.values[j.value]? with
      | none => none
      | some .Empty => some .Empty
      | some (.Object map) =>
          match h.maps[map]? with
          | none => none
          | some entries => (h.treeMembers n entries).map .Object
      | some (.Array array) =>
          match h.arrays[array]? with
          | none => none
          | some elements => (h.treeElements n elements).map .Array
      | some (.String s) => some (.String s)
      | some (.Double d) => some (.Double d)
      | some (.LongLong n) => some (.LongLong n)
      | some (.Bool b) => some (.Bool b)
      | some .Null => some .Null := by
  rw [Heap.tree] <;> rfl

theorem treeMembers_cons (h : Heap) (n : Nat) (k : List Nat) (j : JsonValue)
    (rest : List (List Nat × JsonValue)) :
    h.treeMembers (n + 1) ((k, j) :: rest) =
      match h.tree n j, h.treeMembers n rest with
      | some t, some ts => some ((k, t) :: ts)
      | _, _ => none := by
  rw [Heap.treeMembers] <;> rfl

theorem treeElements_cons (h : Heap) (n : Nat) (j : JsonValue) (rest : List JsonValue) :
    h.treeElements (n + 1) (j :: rest) =
      match h.tree n j, h.treeElements n rest with
      | some t, some ts => some (t :: ts)
      | _, _ => none := by
  rw [Heap.treeElements] <;> rfl

theorem treeMembers_nil (h : Heap) (n : Nat) : h.treeMembers (n + 1) [] = some [] := by
  rw [Heap.treeMembers]

theorem treeElements_nil (h : Heap) (n : Nat) : h.treeElements (n + 1) [] = some [] := by
  rw [Heap.treeElements]

theorem tree_zero (h : Heap) (j : JsonValue) : h.tree 0 j = none := by
  rw [Heap.tree]

theorem treeMembers_zero (h : Heap) (es : List (List Nat × JsonValue)) :
    h.treeMembers 0 es = none := by
  rw [Heap.treeMembers]

theorem treeElements_zero (h : Heap) (es : List JsonValue) : h.treeElements 0 es = none := by
  rw [Heap.treeElements]

/-- More levels do not change a tree. -/
theorem tree_mono (h : Heap) (n : Nat) :
    (∀ (j : JsonValue) (t : ValueTree), h.tree n j = some t → h.tree (n + 1) j = some t)
      ∧ (∀ (es : List (List Nat × JsonValue)) (ts : List (List Nat × ValueTree)),
          h.treeMembers n es = some ts → h.treeMembers (n + 1) es = some ts)
      ∧ (∀ (es : List JsonValue) (ts : List ValueTree),
          h.treeElements n es = some ts → h.treeElements (n + 1) es = some ts) := by
  induction n with
  | zero =>
      refine ⟨?_, ?_, ?_⟩
      · intro j t ht; rw [tree_zero] at ht; simp at ht
      · intro es ts ht; rw [treeMembers_zero] at ht; simp at ht
      · intro es ts ht; rw [treeElements_zero] at ht; simp at ht
  | succ n ih =>
      obtain ⟨ih1, ih2, ih3⟩ := ih
      refine ⟨?_, ?_, ?_⟩
      · intro j t ht
        rw [tree_succ] at ht ⊢
        cases hv : h.values[j.value]? with
        | none => rw [hv] at ht; simp at ht
        | some x =>
            rw [hv] at ht
            cases x with
            | Object map =>
                simp only [] at ht ⊢
                cases hm : h.maps[map]? with
                | none => rw [hm] at ht; simp at ht
                | some entries =>
                    rw [hm] at ht
                    simp only [] at ht ⊢
                    cases hx : h.treeMembers n entries with
                    | none => rw [hx] at ht; simp at ht
                    | some ts => rw [hx] at ht; rw [ih2 entries ts hx]; exact ht
            | Array array =>
                simp only [] at ht ⊢
                cases hm : h.arrays[array]? with
                | none => rw [hm] at ht; simp at ht
                | some elements =>
                    rw [hm] at ht
                    simp only [] at ht ⊢
                    cases hx : h.treeElements n elements with
                    | none => rw [hx] at ht; simp at ht
                    | some ts => rw [hx] at ht; rw [ih3 elements ts hx]; exact ht
            | _ => exact ht
      · intro es ts ht
        cases es with
        | nil => rw [treeMembers_nil] at ht ⊢; exact ht
        | cons p rest =>
            obtain ⟨k, j⟩ := p
            rw [treeMembers_cons] at ht ⊢
            cases h1 : h.tree n j with
            | none => rw [h1] at ht; simp at ht
            | some t =>
                cases h2 : h.treeMembers n rest with
                | none => rw [h1, h2] at ht; simp at ht
                | some ts1 =>
                    rw [h1, h2] at ht
                    rw [ih1 j t h1, ih2 rest ts1 h2]
                    exact ht
      · intro es ts ht
        cases es with
        | nil => rw [treeElements_nil] at ht ⊢; exact ht
        | cons j rest =>
            rw [treeElements_cons] at ht ⊢
            cases h1 : h.tree n j with
            | none => rw [h1] at ht; simp at ht
            | some t =>
                cases h2 : h.treeElements n rest with
                | none => rw [h1, h2] at ht; simp at ht
                | some ts1 =>
                    rw [h1, h2] at ht
                    rw [ih1 j t h1, ih3 rest ts1 h2]
                    exact ht

theorem tree_mono_add (h : Heap) (j : JsonValue) (t : ValueTree) (n : Nat)
    (ht : h.tree n j = some t) : ∀ k, h.tree (n + k) j = some t := by
  intro k
  induction k with
  | zero => exact ht
  | succ k ih => exact (tree_mono h (n + k)).1 j t ih

theorem tree_mono_le (h : Heap) (j : JsonValue) (t : ValueTree) (n m : Nat) (hle : n ≤ m)
    (ht : h.tree n j = some t) : h.tree m j = some t := by
  have := tree_mono_add h j t n ht (m - n)
  rwa [Nat.add_sub_cancel' hle] at this

theorem Heap.Extends.same (f : Heap) : Heap.Extends f f :=
  ⟨⟨[], by simp⟩, ⟨[], by simp⟩, ⟨[], by simp⟩⟩

theorem Heap.Extends.chain {f g k : Heap} (h1 : Heap.Extends f g) (h2 : Heap.Extends g k) :
    Heap.Extends f k := by
  obtain ⟨⟨a1, a2⟩, ⟨b1, b2⟩, ⟨c1, c2⟩⟩ := h1
  obtain ⟨⟨d1, d2⟩, ⟨e1, e2⟩, ⟨f1, f2⟩⟩ := h2
  exact ⟨⟨a1 ++ d1, by rw [d2, a2]; simp⟩, ⟨b1 ++ e1, by rw [e2, b2]; simp⟩,
    ⟨c1 ++ f1, by rw [f2, c2]; simp⟩⟩

theorem Heap.Extends.values_le {f g : Heap} (h1 : Heap.Extends f g) :
    f.values.length ≤ g.values.length := by
  obtain ⟨⟨a1, a2⟩, _⟩ := h1
  rw [a2]; simp

theorem getElem?_append_some {α : Type} (l s : List α) (i : Nat) (x : α)
    (h : l[i]? = some x) : (l ++ s)[i]? = some x := by
  rw [List.getElem?_append_left (lt_of_getElem? h), h]

/-- A tree stays what it is when cells are added to the heap. -/
theorem tree_extends (f g : Heap) (he : Heap.Extends f g) (n : Nat) :
    (∀ (j : JsonValue) (t : ValueTree), f.tree n j = some t → g.tree n j = some t)
      ∧ (∀ (es : List (List Nat × JsonValue)) (ts : List (List Nat × ValueTree)),
          f.treeMembers n es = some ts → g.treeMembers n es = some ts)
      ∧ (∀ (es : List JsonValue) (ts : List ValueTree),
          f.treeElements n es = some ts → g.treeElements n es = some ts) := by
  obtain ⟨⟨vs, hvs⟩, ⟨ms, hms⟩, ⟨as, has⟩⟩ := he
  induction n with
  | zero =>
      refine ⟨?_, ?_, ?_⟩
      · intro j t ht; rw [tree_zero] at ht; simp at ht
      · intro es ts ht; rw [treeMembers_zero] at ht; simp at ht
      · intro es ts ht; rw [treeElements_zero] at ht; simp at ht
  | succ n ih =>
      obtain ⟨ih1, ih2, ih3⟩ := ih
      refine ⟨?_, ?_, ?_⟩
      · intro j t ht
        rw [tree_succ] at ht ⊢
        cases hv : f.values[j.value]? with
        | none => rw [hv] at ht; simp at ht
        | some x =>
            rw [hv] at ht
            rw [hvs, getElem?_append_some _ vs _ _ hv]
            cases x with
            | Object map =>
                simp only [] at ht ⊢
                cases hm : f.maps[map]? with
                | none => rw [hm] at ht; simp at ht
                | some entries =>
                    rw [hm] at ht
                    rw [hms, getElem?_append_some _ ms _ _ hm]
                    simp only [] at ht ⊢
                    cases hx : f.treeMembers n entries with
                    | none => rw [hx] at ht; simp at ht
                    | some ts => rw [hx] at ht; rw [ih2 entries ts hx]; exact ht
            | Array array =>
                simp only [] at ht ⊢
                cases hm : f.arrays[array]? with
                | none => rw [hm] at ht; simp at ht
                | some elements =>
                    rw [hm] at ht
                    rw [has, getElem?_append_some _ as _ _ hm]
                    simp only [] at ht ⊢
                    cases hx : f.treeElements n elements with
                    | none => rw [hx] at ht; simp at ht
                    | some ts => rw [hx] at ht; rw [ih3 elements ts hx]; exact ht
            | _ => exact ht
      · intro es ts ht
        cases es with
        | nil => rw [treeMembers_nil] at ht ⊢; exact ht
        | cons p rest =>
            obtain ⟨k, j⟩ := p
            rw [treeMembers_cons] at ht ⊢
            cases h1 : f.tree n j with
            | none => rw [h1] at ht; simp at ht
            | some t =>
                cases h2 : f.treeMembers n rest with
                | none => rw [h1, h2] at ht; simp at ht
                | some ts1 =>
                    rw [h1, h2] at ht
                    rw [ih1 j t h1, ih2 rest ts1 h2]
                    exact ht
      · intro es ts ht
        cases es with
        | nil => rw [treeElements_nil] at ht ⊢; exact ht
        | cons j rest =>
            rw [treeElements_cons] at ht ⊢
            cases h1 : f.tree n j with
            | none => rw [h1] at ht; simp at ht
            | some t =>
                cases h2 : f.treeElements n rest with
                | none => rw [h1, h2] at ht; simp at ht
                | some ts1 =>
                    rw [h1, h2] at ht
                    rw [ih1 j t h1, ih3 rest ts1 h2]
                    exact ht




/-! ## The heap of a reader that has parsed before -/

theorem head?_eq_getElem? {α : Type} (l : List α) : l.head? = l[0]? := by
  cases l <;> simp

theorem moved_values (base f g : Heap) (hm : MovedHeap base f g) (j : Nat) :
    g.values[moveCell (base.values.length - 1) j]?
      = (f.values[j]?).map (moveValue base.maps.length base.arrays.length) := by
  obtain ⟨hf, hb, hv, _, _⟩ := hm
  rw [hv]
  cases hbv : base.values with
  | nil => rw [hbv] at hb; simp at hb
  | cons b0 brest =>
      rw [hbv] at hb
      simp only [List.head?_cons, Option.some.injEq] at hb
      cases hfv : f.values with
      | nil => rw [hfv] at hf; simp at hf
      | cons f0 frest =>
          rw [hfv] at hf
          simp only [List.head?_cons, Option.some.injEq] at hf
          subst hb hf
          cases j with
          | zero => simp [moveCell, moveValue]
          | succ n =>
              simp only [moveCell, Nat.add_one_ne_zero, if_false, List.length_cons,
                Nat.add_sub_cancel, List.tail_cons, List.getElem?_cons_succ]
              rw [List.getElem?_append_right (by simp; omega)]
              simp only [List.length_cons]
              rw [show n + 1 + brest.length - (brest.length + 1) = n by omega]
              simp

theorem moved_maps (base f g : Heap) (hm : MovedHeap base f g) (i : Nat) :
    g.maps[i + base.maps.length]?
      = (f.maps[i]?).map (moveEntries (base.values.length - 1)) := by
  obtain ⟨_, _, _, hv, _⟩ := hm
  rw [hv, List.getElem?_append_right (by omega)]
  simp

theorem moved_arrays (base f g : Heap) (hm : MovedHeap base f g) (i : Nat) :
    g.arrays[i + base.arrays.length]?
      = (f.arrays[i]?).map (fun l => l.map (moveJson (base.values.length - 1))) := by
  obtain ⟨_, _, _, _, hv⟩ := hm
  rw [hv, List.getElem?_append_right (by omega)]
  simp

theorem MovedHeap.extends {base f g : Heap} (hm : MovedHeap base f g) : Heap.Extends base g := by
  obtain ⟨_, _, h1, h2, h3⟩ := hm
  exact ⟨⟨_, h1⟩, ⟨_, h2⟩, ⟨_, h3⟩⟩

theorem MovedHeap.length {base f g : Heap} (hm : MovedHeap base f g) :
    g.values.length = f.values.length + (base.values.length - 1)
      ∧ 1 ≤ f.values.length ∧ 1 ≤ base.values.length
      ∧ g.maps.length = f.maps.length + base.maps.length
      ∧ g.arrays.length = f.arrays.length + base.arrays.length := by
  obtain ⟨hf, hb, h1, h2, h3⟩ := hm
  have hf1 : 1 ≤ f.values.length := by
    cases hfv : f.values with
    | nil => rw [hfv] at hf; simp at hf
    | cons a as => simp
  have hb1 : 1 ≤ base.values.length := by
    cases hbv : base.values with
    | nil => rw [hbv] at hb; simp at hb
    | cons a as => simp
  refine ⟨?_, hf1, hb1, ?_, ?_⟩
  · rw [h1]; simp; omega
  · rw [h2]; simp; omega
  · rw [h3]; simp; omega

/-- A value of the new reader and the moved value of the reader that has parsed
before unfold to the same tree. -/
theorem tree_shift (base f g : Heap) (hm : MovedHeap base f g) (n : Nat) :
    (∀ j : JsonValue, g.tree n (moveJson (base.values.length - 1) j) = f.tree n j)
      ∧ (∀ es : List (List Nat × JsonValue),
          g.treeMembers n (moveEntries (base.values.length - 1) es) = f.treeMembers n es)
      ∧ (∀ es : List JsonValue,
          g.treeElements n (es.map (moveJson (base.values.length - 1))) = f.treeElements n es) := by
  induction n with
  | zero =>
      refine ⟨?_, ?_, ?_⟩
      · intro j; rw [tree_zero, tree_zero]
      · intro es; rw [treeMembers_zero, treeMembers_zero]
      · intro es; rw [treeElements_zero, treeElements_zero]
  | succ n ih =>
      obtain ⟨ih1, ih2, ih3⟩ := ih
      refine ⟨?_, ?_, ?_⟩
      · intro j
        rw [tree_succ, tree_succ]
        simp only [moveJson]
        rw [moved_values base f g hm j.value]
        cases hv : f.values[j.value]? with
        | none => rfl
        | some x =>
            cases x with
            | Object map =>
                simp only [Option.map_some', moveValue]
                rw [moved_maps base f g hm map]
                cases hx : f.maps[map]? with
                | none => rfl
                | some entries =>
                    simp only [Option.map_some']
                    rw [ih2 entries]
            | Array array =>
                simp only [Option.map_some', moveValue]
                rw [moved_arrays base f g hm array]
                cases hx : f.arrays[array]? with
                | none => rfl
                | some elements =>
                    simp only [Option.map_some']
                    rw [ih3 elements]
            | _ => rfl
      · intro es
        cases es with
        | nil => simp only [moveEntries, List.map_nil]; rw [treeMembers_nil, treeMembers_nil]
        | cons p rest =>
            obtain ⟨k, j⟩ := p
            simp only [moveEntries, List.map_cons]
            rw [treeMembers_cons, treeMembers_cons, ih1 j]
            have := ih2 rest
            simp only [moveEntries] at this
            rw [this]
      · intro es
        cases es with
        | nil => simp only [List.map_nil]; rw [treeElements_nil, treeElements_nil]
        | cons j rest =>
            simp only [List.map_cons]
            rw [treeElements_cons, treeElements_cons, ih1 j, ih3 rest]




section
variable {base : Heap} {seen : Seen}

/-! ## The builder of a reader that has parsed before -/

theorem mapInsert_move (a : Nat) (key : List Nat) (v : JsonValue) :
    ∀ es : List (List Nat × JsonValue),
      mapInsert key (moveJson a v) (moveEntries a es) = moveEntries a (mapInsert key v es) := by
  intro es
  induction es with
  | nil => rfl
  | cons p rest ih =>
      obtain ⟨k, x⟩ := p
      simp only [moveEntries, List.map_cons] at ih ⊢
      unfold mapInsert
      by_cases h1 : keyLess key k = true
      · rw [if_pos h1, if_pos h1]; rfl
      · rw [if_neg h1, if_neg h1]
        by_cases h2 : keyLess k key = true
        · rw [if_pos h2, if_pos h2, ih]; rfl
        · rw [if_neg h2, if_neg h2]; rfl

theorem moveCell_pos (a j : Nat) (hj : j ≠ 0) : moveCell a j = j + a := by
  simp [moveCell, hj]

/-- A new value cell in both heaps. -/
theorem MovedHeap.newValue {f g : Heap} (hm : MovedHeap base f g) (v : Value) :
    MovedHeap base { f with values := f.values ++ [v] }
        { g with values := g.values ++ [moveValue base.maps.length base.arrays.length v] }
      ∧ g.values.length = moveCell (base.values.length - 1) f.values.length := by
  obtain ⟨h1, h2, h3, h4, h5⟩ := hm.length
  obtain ⟨hf, hb, hv, hmp, har⟩ := hm
  refine ⟨⟨?_, hb, ?_, hmp, har⟩, ?_⟩
  · cases hfv : f.values with
    | nil => rw [hfv] at hf; simp at hf
    | cons a as => rw [hfv] at hf; simpa using hf
  · simp only []
    rw [hv]
    cases hfv : f.values with
    | nil => rw [hfv] at hf; simp at hf
    | cons a as => simp
  · rw [moveCell_pos _ _ (by omega), h1]

/-- A new map in both heaps. -/
theorem MovedHeap.newMap {f g : Heap} (hm : MovedHeap base f g) :
    MovedHeap base { f with maps := f.maps ++ [[]] } { g with maps := g.maps ++ [[]] }
      ∧ g.maps.length = f.maps.length + base.maps.length := by
  obtain ⟨h1, h2, h3, h4, h5⟩ := hm.length
  obtain ⟨hf, hb, hv, hmp, har⟩ := hm
  refine ⟨⟨hf, hb, hv, ?_, har⟩, h4⟩
  simp only []
  rw [hmp]
  simp [moveEntries]

/-- A new vector in both heaps. -/
theorem MovedHeap.newArray {f g : Heap} (hm : MovedHeap base f g) :
    MovedHeap base { f with arrays := f.arrays ++ [[]] } { g with arrays := g.arrays ++ [[]] }
      ∧ g.arrays.length = f.arrays.length + base.arrays.length := by
  obtain ⟨h1, h2, h3, h4, h5⟩ := hm.length
  obtain ⟨hf, hb, hv, hmp, har⟩ := hm
  refine ⟨⟨hf, hb, hv, hmp, ?_⟩, h5⟩
  simp only []
  rw [har]
  simp

/-- An entry stored in a map of both heaps. -/
theorem MovedHeap.setMap {f g : Heap} (hm : MovedHeap base f g) (map : Nat)
    (entries : List (List Nat × JsonValue)) :
    MovedHeap base { f with maps := f.maps.set map entries }
      { g with maps := g.maps.set (map + base.maps.length) (moveEntries (base.values.length - 1) entries) } := by
  obtain ⟨hf, hb, hv, hmp, har⟩ := hm
  refine ⟨hf, hb, hv, ?_, har⟩
  simp only []
  rw [hmp, List.set_append_right _ _ (by omega), Nat.add_sub_cancel, List.map_set]

/-- An element stored in a vector of both heaps. -/
theorem MovedHeap.setArray {f g : Heap} (hm : MovedHeap base f g) (array : Nat)
    (elements : List JsonValue) :
    MovedHeap base { f with arrays := f.arrays.set array elements }
      { g with arrays := g.arrays.set (array + base.arrays.length) (elements.map (moveJson (base.values.length - 1))) } := by
  obtain ⟨hf, hb, hv, hmp, har⟩ := hm
  refine ⟨hf, hb, hv, hmp, ?_⟩
  simp only []
  rw [har, List.set_append_right _ _ (by omega), Nat.add_sub_cancel, List.map_set]

end




section
variable {base : Heap} {seen : Seen}

theorem insertValue_moved {r r1 : JsonReader Seen} (hR : Moved base seen r r1)
    (value : JsonValue) :
    (JsonReader.insertValue value r = none
        ∧ JsonReader.insertValue (moveJson (base.values.length - 1) value) r1 = none)
      ∨ ∃ t t1, JsonReader.insertValue value r = some t
          ∧ JsonReader.insertValue (moveJson (base.values.length - 1) value) r1 = some t1
          ∧ Moved base seen t t1 := by
  obtain ⟨hm, hst, hkey, hu⟩ := hR
  unfold JsonReader.insertValue
  cases hs : r.stack with
  | nil =>
      rw [hs] at hst
      simp only [List.map_nil] at hst
      rw [hst]
      exact Or.inl ⟨rfl, rfl⟩
  | cons cell rest =>
      rw [hs] at hst
      simp only [List.map_cons] at hst
      rw [hst, hkey]
      simp only []
      have hl := moved_values base _ _ hm cell
      by_cases hk : (!r.key.isEmpty) = true
      · rw [if_pos hk, if_pos hk]
        cases hv : r.heap.values[cell]? with
        | none => rw [hv] at hl; simp only [Option.map_none'] at hl; rw [hl]; exact Or.inl ⟨rfl, rfl⟩
        | some x =>
            rw [hv] at hl
            simp only [Option.map_some'] at hl
            rw [hl]
            cases x with
            | Object map =>
                simp only [moveValue]
                have hl2 := moved_maps base _ _ hm map
                cases hx : r.heap.maps[map]? with
                | none =>
                    rw [hx] at hl2; simp only [Option.map_none'] at hl2; rw [hl2]
                    exact Or.inl ⟨rfl, rfl⟩
                | some entries =>
                    rw [hx] at hl2; simp only [Option.map_some'] at hl2; rw [hl2]
                    right
                    refine ⟨_, _, rfl, rfl, ?_, ?_, rfl, hu⟩
                    · simp only []
                      rw [mapInsert_move]
                      exact hm.setMap map _
                    · rfl
            | _ => exact Or.inl ⟨rfl, rfl⟩
      · rw [if_neg hk, if_neg hk]
        cases hv : r.heap.values[cell]? with
        | none => rw [hv] at hl; simp only [Option.map_none'] at hl; rw [hl]; exact Or.inl ⟨rfl, rfl⟩
        | some x =>
            rw [hv] at hl
            simp only [Option.map_some'] at hl
            rw [hl]
            cases x with
            | Array array =>
                simp only [moveValue]
                have hl2 := moved_arrays base _ _ hm array
                cases hx : r.heap.arrays[array]? with
                | none =>
                    rw [hx] at hl2; simp only [Option.map_none'] at hl2; rw [hl2]
                    exact Or.inl ⟨rfl, rfl⟩
                | some elements =>
                    rw [hx] at hl2; simp only [Option.map_some'] at hl2; rw [hl2]
                    right
                    refine ⟨_, _, rfl, rfl, ?_, ?_, rfl, hu⟩
                    · simp only []
                      have := hm.setArray array (elements ++ [value])
                      simpa using this
                    · rfl
            | _ => exact Or.inl ⟨rfl, rfl⟩

theorem begin_moved {r r1 : JsonReader Seen} (hR : Moved base seen r r1) (value : JsonValue) :
    (JsonReader.begin value r = none
        ∧ JsonReader.begin (moveJson (base.values.length - 1) value) r1 = none)
      ∨ ∃ t t1, JsonReader.begin value r = some t
          ∧ JsonReader.begin (moveJson (base.values.length - 1) value) r1 = some t1
          ∧ Moved base seen t t1 := by
  have hR0 := hR
  obtain ⟨hm, hst, hkey, hu⟩ := hR
  unfold JsonReader.begin
  by_cases he : r.stack.isEmpty = true
  · have h0 : r.stack = [] := List.isEmpty_iff.mp he
    have h1 : r1.stack = [] := by rw [hst, h0]; rfl
    have he1 : r1.stack.isEmpty = true := by rw [h1]; rfl
    rw [if_pos he, if_pos he1]
    right
    refine ⟨_, _, rfl, rfl, hm, rfl, hkey, ?_⟩
    rcases hu with hu | ⟨hu1, _⟩
    · exact Or.inl hu
    · exact Or.inr ⟨hu1, Or.inl rfl⟩
  · have he1 : ¬ r1.stack.isEmpty = true := by
      rw [hst]
      cases hs : r.stack with
      | nil => rw [hs] at he; simp at he
      | cons c rest => simp
    rw [if_neg he, if_neg he1]
    rcases insertValue_moved hR0 value with ⟨h1, h2⟩ | ⟨t, t1, h1, h2, hT⟩
    · rw [h1, h2]; exact Or.inl ⟨rfl, rfl⟩
    · rw [h1, h2]
      right
      obtain ⟨tm, tst, tkey, tu⟩ := hT
      refine ⟨_, _, rfl, rfl, tm, ?_, tkey, tu⟩
      simp only [List.map_cons, tst]
      rfl

theorem scalar_moved {r r1 : JsonReader Seen} (hR : Moved base seen r r1) (v : Value)
    (hv : moveValue base.maps.length base.arrays.length v = v) :
    (JsonReader.scalar v r = none ∧ JsonReader.scalar v r1 = none)
      ∨ ∃ t t1, JsonReader.scalar v r = some t ∧ JsonReader.scalar v r1 = some t1
          ∧ Moved base seen t t1 := by
  obtain ⟨hm, hst, hkey, hu⟩ := hR
  unfold JsonReader.scalar
  simp only [Heap.newValue]
  obtain ⟨hm1, hlen⟩ := hm.newValue v
  rw [hv] at hm1
  have hR1 : Moved base seen { r with heap := { r.heap with values := r.heap.values ++ [v] } }
      { r1 with heap := { r1.heap with values := r1.heap.values ++ [v] } } :=
    ⟨hm1, hst, hkey, hu⟩
  have := insertValue_moved hR1 { value := r.heap.values.length }
  simp only [moveJson, ← hlen] at this
  exact this

theorem hooksAlike_of {σ τ : Type} {R : σ → τ → Prop} {h : Hooks σ} {h1 : Hooks τ}
    (hh : ∀ (e : Event) (s : σ) (s1 : τ), R s s1 →
      (h e s = none ∧ h1 e s1 = none)
        ∨ ∃ t t1 b, h e s = some (t, b) ∧ h1 e s1 = some (t1, b) ∧ R t t1) :
    HooksAlike R h h1 := by
  intro e s s1 hR
  rcases hh e s s1 hR with ⟨h1, h2⟩ | ⟨t, t1, b, h1, h2, h3⟩
  · rw [h1, h2]; trivial
  · rw [h1, h2]; exact ⟨h3, rfl⟩

theorem map_moved {x x1 : Option (JsonReader Seen)}
    (hx : (x = none ∧ x1 = none) ∨ ∃ t t1, x = some t ∧ x1 = some t1 ∧ Moved base seen t t1) :
    (x.map (fun y => (y, false)) = none ∧ x1.map (fun y => (y, false)) = none)
      ∨ ∃ t t1 b, x.map (fun y => (y, false)) = some (t, b)
          ∧ x1.map (fun y => (y, false)) = some (t1, b) ∧ Moved base seen t t1 := by
  rcases hx with ⟨h1, h2⟩ | ⟨t, t1, h1, h2, h3⟩
  · rw [h1, h2]; exact Or.inl ⟨rfl, rfl⟩
  · rw [h1, h2]; exact Or.inr ⟨t, t1, false, rfl, rfl, h3⟩

theorem end_moved {r r1 : JsonReader Seen} (hR : Moved base seen r r1) :
    ((if r.stack.isEmpty then none else some ({ r with stack := r.stack.tail }, false))
          = (none : Option (JsonReader Seen × Bool))
        ∧ (if r1.stack.isEmpty then none else some ({ r1 with stack := r1.stack.tail }, false))
          = (none : Option (JsonReader Seen × Bool)))
      ∨ ∃ t t1 b,
          (if r.stack.isEmpty then none else some ({ r with stack := r.stack.tail }, false))
            = some (t, b)
          ∧ (if r1.stack.isEmpty then none else some ({ r1 with stack := r1.stack.tail }, false))
            = some (t1, b)
          ∧ Moved base seen t t1 := by
  obtain ⟨hm, hst, hkey, hu⟩ := hR
  have hemp : r1.stack.isEmpty = r.stack.isEmpty := by
    rw [hst]; cases r.stack <;> rfl
  rw [hemp]
  by_cases he : r.stack.isEmpty = true
  · left; rw [if_pos he, if_pos he]; exact ⟨rfl, rfl⟩
  · right
    rw [if_neg he, if_neg he]
    exact ⟨_, _, _, rfl, rfl, hm, by simp only [hst, List.map_tail], hkey, hu⟩

theorem jsonEnd_moved {r r1 : JsonReader Seen} (hR : Moved base seen r r1) :
    Moved base seen
      { r with stack := [], user := r.user ++ [(r.root, r.heap.tree (r.heap.values.length + 1) r.root)] }
      { r1 with stack := [], user := r1.user ++ [(r1.root, r1.heap.tree (r1.heap.values.length + 1) r1.root)] } := by
  obtain ⟨hm, hst, hkey, hu⟩ := hR
  refine ⟨hm, rfl, hkey, ?_⟩
  simp only []
  rcases hu with ⟨e, he, hj⟩ | ⟨hu1, hroot⟩
  · exact Or.inl ⟨e, List.mem_append_left _ he, hj⟩
  · rcases hroot with hroot | hroot
    · cases ht : r.heap.tree (r.heap.values.length + 1) r.root with
      | none => exact Or.inl ⟨_, List.mem_append_right _ (List.mem_singleton_self _), Or.inr rfl⟩
      | some t =>
          right
          refine ⟨?_, Or.inl hroot⟩
          have h1 := (tree_shift base _ _ hm (r.heap.values.length + 1)).1 r.root
          rw [ht] at h1
          have h2 := tree_mono_le r1.heap _ t _ (r1.heap.values.length + 1)
            (by have := hm.length.1; omega) h1
          rw [hroot, h2, hu1]
          simp
    · exact Or.inl ⟨_, List.mem_append_right _ (List.mem_singleton_self _), Or.inl hroot⟩

theorem objectBegin_moved {r r1 : JsonReader Seen} (hR : Moved base seen r r1) :
    (JsonReader.begin { value := r.heap.values.length } { r with heap := { values := r.heap.values ++ [Value.Object r.heap.maps.length], maps := r.heap.maps ++ [[]], arrays := r.heap.arrays } } = none
        ∧ JsonReader.begin { value := r1.heap.values.length } { r1 with heap := { values := r1.heap.values ++ [Value.Object r1.heap.maps.length], maps := r1.heap.maps ++ [[]], arrays := r1.heap.arrays } } = none)
      ∨ ∃ t t1, JsonReader.begin { value := r.heap.values.length } { r with heap := { values := r.heap.values ++ [Value.Object r.heap.maps.length], maps := r.heap.maps ++ [[]], arrays := r.heap.arrays } } = some t
          ∧ JsonReader.begin { value := r1.heap.values.length } { r1 with heap := { values := r1.heap.values ++ [Value.Object r1.heap.maps.length], maps := r1.heap.maps ++ [[]], arrays := r1.heap.arrays } } = some t1
          ∧ Moved base seen t t1 := by
  obtain ⟨hm, hst, hkey, hu⟩ := hR
  obtain ⟨hm1, hl1⟩ := hm.newMap
  obtain ⟨hm2, hl2⟩ := hm1.newValue (.Object r.heap.maps.length)
  simp only [moveValue, ← hl1] at hm2
  have hR1 : Moved base seen { r with heap := { values := r.heap.values ++ [Value.Object r.heap.maps.length], maps := r.heap.maps ++ [[]], arrays := r.heap.arrays } }
      { r1 with heap := { values := r1.heap.values ++ [Value.Object r1.heap.maps.length], maps := r1.heap.maps ++ [[]], arrays := r1.heap.arrays } } :=
    ⟨hm2, hst, hkey, hu⟩
  have := begin_moved hR1 { value := r.heap.values.length }
  simp only [moveJson] at this
  simp only [] at hl2
  rw [← hl2] at this
  exact this

theorem arrayBegin_moved {r r1 : JsonReader Seen} (hR : Moved base seen r r1) :
    (JsonReader.begin { value := r.heap.values.length } { r with heap := { values := r.heap.values ++ [Value.Array r.heap.arrays.length], maps := r.heap.maps, arrays := r.heap.arrays ++ [[]] } } = none
        ∧ JsonReader.begin { value := r1.heap.values.length } { r1 with heap := { values := r1.heap.values ++ [Value.Array r1.heap.arrays.length], maps := r1.heap.maps, arrays := r1.heap.arrays ++ [[]] } } = none)
      ∨ ∃ t t1, JsonReader.begin { value := r.heap.values.length } { r with heap := { values := r.heap.values ++ [Value.Array r.heap.arrays.length], maps := r.heap.maps, arrays := r.heap.arrays ++ [[]] } } = some t
          ∧ JsonReader.begin { value := r1.heap.values.length } { r1 with heap := { values := r1.heap.values ++ [Value.Array r1.heap.arrays.length], maps := r1.heap.maps, arrays := r1.heap.arrays ++ [[]] } } = some t1
          ∧ Moved base seen t t1 := by
  obtain ⟨hm, hst, hkey, hu⟩ := hR
  obtain ⟨hm1, hl1⟩ := hm.newArray
  obtain ⟨hm2, hl2⟩ := hm1.newValue (.Array r.heap.arrays.length)
  simp only [moveValue, ← hl1] at hm2
  have hR1 : Moved base seen { r with heap := { values := r.heap.values ++ [Value.Array r.heap.arrays.length], maps := r.heap.maps, arrays := r.heap.arrays ++ [[]] } }
      { r1 with heap := { values := r1.heap.values ++ [Value.Array r1.heap.arrays.length], maps := r1.heap.maps, arrays := r1.heap.arrays ++ [[]] } } :=
    ⟨hm2, hst, hkey, hu⟩
  have := begin_moved hR1 { value := r.heap.values.length }
  simp only [moveJson] at this
  simp only [] at hl2
  rw [← hl2] at this
  exact this

/-- The hooks of the builder act alike on a new reader and on a reader that has
parsed before, up to the move of the addresses. -/
theorem hooks_moved :
    HooksAlike (Moved base seen) (JsonReader.hooks JsonReader.observe)
      (JsonReader.hooks JsonReader.observe) := by
  apply hooksAlike_of
  intro e r r1 hR
  have hR0 := hR
  obtain ⟨hm, hst, hkey, hu⟩ := hR
  cases e with
  | JsonBegin => exact Or.inr ⟨_, _, _, rfl, rfl, hm, rfl, hkey, hu⟩
  | JsonEnd => exact Or.inr ⟨_, _, _, rfl, rfl, jsonEnd_moved hR0⟩
  | ObjectBegin => exact map_moved (objectBegin_moved hR0)
  | ObjectKey key => exact Or.inr ⟨_, _, _, rfl, rfl, hm, hst, rfl, hu⟩
  | ObjectEnd => exact end_moved hR0
  | ArrayBegin => exact map_moved (arrayBegin_moved hR0)
  | ArrayEnd => exact end_moved hR0
  | ValueString value => exact map_moved (scalar_moved hR0 _ rfl)
  | ValueDouble value => exact map_moved (scalar_moved hR0 _ rfl)
  | ValueLongLong value => exact map_moved (scalar_moved hR0 _ rfl)
  | ValueBool value => exact map_moved (scalar_moved hR0 _ rfl)
  | Null => exact map_moved (scalar_moved hR0 _ rfl)

end




open JsonStringViewBufferReader

section
variable {σ : Type}

/-! ## What a function of the reader has called when it returns true -/

theorem call_some (h : Hooks σ) (e : Event) (m m1 : Machine σ)
    (hc : call h e m = (.true, m1)) :
    ∃ s b, h e m.self = some (s, b) ∧ m1 = { m with self := s, stop := m.stop || b } := by
  unfold call emit at hc
  cases hh : h e m.self with
  | none => rw [hh] at hc; simp at hc
  | some p =>
      obtain ⟨s, b⟩ := p
      rw [hh] at hc
      simp only [Prod.mk.injEq, true_and] at hc
      exact ⟨s, b, rfl, hc.symm⟩

theorem numberStep_point (neg : Bool) (depth : List JsonReaderType) (i points ch : Nat)
    (hs : numberStep neg depth i points ch = .point) : points ≠ 1 := by
  unfold numberStep at hs
  by_cases h1 : isControlCode ch = true
  · rw [if_pos h1] at hs; simp at hs
  rw [if_neg h1] at hs
  by_cases h2 : isspace ch = true
  · rw [if_pos h2] at hs; simp at hs
  rw [if_neg h2] at hs
  by_cases h3 : (ch == 44) = true
  · rw [if_pos h3] at hs; split at hs <;> simp at hs
  rw [if_neg h3] at hs
  by_cases h4 : (ch == 125) = true
  · rw [if_pos h4] at hs; split at hs <;> simp at hs
  rw [if_neg h4] at hs
  by_cases h5 : (ch == 93) = true
  · rw [if_pos h5] at hs; split at hs <;> simp at hs
  rw [if_neg h5] at hs
  by_cases h6 : capped neg points i = true
  · rw [if_pos h6] at hs; simp at hs
  rw [if_neg h6] at hs
  by_cases h7 : (ch == 46) = true
  · rw [if_pos h7] at hs
    by_cases h8 : (points == 1 || (neg && i == 0)) = true
    · rw [if_pos h8] at hs; simp at hs
    · intro hp
      apply h8
      rw [hp]
      rfl
  rw [if_neg h7] at hs
  split at hs <;> simp at hs

/-- How the loop of the number lexer is left, by the local `end`: the stack is
as it was, has a new top, or has lost its top. -/
theorem numberStep_end (neg : Bool) (depth : List JsonReaderType) (i points ch : Nat)
    (e : End) (d1 : List JsonReaderType)
    (hs : numberStep neg depth i points ch = .leave e d1) :
    (e = .None ∧ d1 = depth) ∨ (e = .Separator ∧ ∃ t, d1 = setTop t depth)
      ∨ (e = .Object ∧ d1 = depth.tail) ∨ (e = .Array ∧ d1 = depth.tail) := by
  unfold numberStep at hs
  by_cases h1 : isControlCode ch = true
  · rw [if_pos h1] at hs; simp at hs
  rw [if_neg h1] at hs
  by_cases h2 : isspace ch = true
  · rw [if_pos h2] at hs
    simp only [NumberStep.leave.injEq] at hs
    exact Or.inl ⟨hs.1.symm, hs.2.symm⟩
  rw [if_neg h2] at hs
  by_cases h3 : (ch == 44) = true
  · rw [if_pos h3] at hs
    right; left
    by_cases h4 : (top depth).code < JsonReaderType.Array.code
    · rw [if_pos h4] at hs
      simp only [NumberStep.leave.injEq] at hs
      exact ⟨hs.1.symm, _, hs.2.symm⟩
    · rw [if_neg h4] at hs
      simp only [NumberStep.leave.injEq] at hs
      exact ⟨hs.1.symm, _, hs.2.symm⟩
  rw [if_neg h3] at hs
  by_cases h4 : (ch == 125) = true
  · rw [if_pos h4] at hs
    right; right; left
    by_cases h5 : (top depth).code > JsonReaderType.ObjectNextKey.code
    · rw [if_pos h5] at hs; simp at hs
    · rw [if_neg h5] at hs
      simp only [NumberStep.leave.injEq] at hs
      exact ⟨hs.1.symm, hs.2.symm⟩
  rw [if_neg h4] at hs
  by_cases h5 : (ch == 93) = true
  · rw [if_pos h5] at hs
    right; right; right
    by_cases h6 : (top depth).code < JsonReaderType.Array.code
    · rw [if_pos h6] at hs; simp at hs
    · rw [if_neg h6] at hs
      simp only [NumberStep.leave.injEq] at hs
      exact ⟨hs.1.symm, hs.2.symm⟩
  rw [if_neg h5] at hs
  by_cases h6 : capped neg points i = true
  · rw [if_pos h6] at hs
    simp only [NumberStep.leave.injEq] at hs
    exact Or.inl ⟨hs.1.symm, hs.2.symm⟩
  rw [if_neg h6] at hs
  by_cases h7 : (ch == 46) = true
  · rw [if_pos h7] at hs
    split at hs <;> simp at hs
  rw [if_neg h7] at hs
  split at hs <;> simp at hs

/-- The loop of the number lexer counts at most one decimal point, and leaves
the stack as the local `end` says. -/
theorem readyNumberLoop_end (neg : Bool) (depth : List JsonReaderType) (ahead : List Nat) :
    ∀ (pos : Int) (i points : Nat) (temp : List Nat) (ch0 : Nat) (scan : NumberScan)
      (b : JsonStringViewBufferReader), points ≤ 1 →
      readyNumberLoop neg depth pos i points temp ch0 ahead = .ok scan b → scan.exit = true →
      scan.points ≤ 1 ∧
        ((scan.end = .None ∧ scan.depth = depth) ∨ (scan.end = .Separator ∧ ∃ t, scan.depth = setTop t depth)
          ∨ (scan.end = .Object ∧ scan.depth = depth.tail)
          ∨ (scan.end = .Array ∧ scan.depth = depth.tail)) := by
  induction ahead with
  | nil =>
      intro pos i points temp ch0 scan b hp h hx
      simp only [readyNumberLoop, Ready.ok.injEq] at h
      rw [← h.1] at hx
      simp at hx
  | cons ch ahead ih =>
      intro pos i points temp ch0 scan b hp h hx
      rw [readyNumberLoop] at h
      cases hs : numberStep neg depth i points ch with
      | error msg => rw [hs] at h; simp at h
      | leave e d1 =>
          rw [hs] at h
          simp only [Ready.ok.injEq] at h
          rw [← h.1]
          exact ⟨hp, numberStep_end neg depth i points ch e d1 hs⟩
      | point =>
          rw [hs] at h
          have := numberStep_point neg depth i points ch hs
          exact ih _ _ _ _ _ _ _ (by omega) h hx
      | digit => rw [hs] at h; exact ih _ _ _ _ _ _ _ hp h hx

/-- A number that `readyNumber` accepted: the value hook was called with the
stack as the loop left it, and the end hook behind it when a closing bracket
ended the number. -/
theorem readyNumber_called (h : Hooks σ) (digit : Nat) (m m1 : Machine σ)
    (hr : readyNumber h digit m = (.true, m1)) :
    ∃ (e : Event) (b : JsonStringViewBufferReader) (d : List JsonReaderType) (m2 : Machine σ),
      ((∃ v, e = .ValueDouble v) ∨ (∃ v, e = .ValueLongLong v))
        ∧ call h e { m with buffer := b, depth := d } = (.true, m2)
        ∧ (((d = m.depth ∨ ∃ t, d = setTop t m.depth) ∧ m1 = m2)
            ∨ (d = m.depth.tail
                ∧ (call h .ObjectEnd m2 = (.true, m1) ∨ call h .ArrayEnd m2 = (.true, m1)))) := by
  unfold readyNumber at hr
  cases hl : readyNumberLoop (digit == 45) m.depth m.buffer.pos 0 0 [digit] 0 m.buffer.ahead with
  | fail error buffer => rw [hl] at hr; simp at hr
  | ok scan buffer =>
      rw [hl] at hr
      simp only [] at hr
      unfold readyNumberEnd at hr
      by_cases hx : scan.exit = true
      · simp only [hx, Bool.not_true, Bool.false_eq_true, if_false] at hr
        obtain ⟨hpts, hcases⟩ := readyNumberLoop_end _ _ _ _ _ _ _ _ _ _ (by omega) hl hx
        by_cases hn : (scan.end == End.None && !isspace scan.ch) = true
        · rw [if_pos hn] at hr; simp at hr
        rw [if_neg hn] at hr
        by_cases hp : (scan.temp.getLast? == some 46) = true
        · rw [if_pos hp] at hr; simp at hr
        rw [if_neg hp] at hr
        -- the value hook
        have hv : ∃ (x : Ret) (m2 : Machine σ),
            numberValue h scan { m with buffer := buffer, depth := scan.depth } = (x, m2)
              ∧ (x = .true → ∃ e : Event,
                  ((∃ v, e = .ValueDouble v) ∨ (∃ v, e = .ValueLongLong v))
                    ∧ call h e { m with buffer := buffer, depth := scan.depth } = (.true, m2)) := by
          unfold numberValue
          by_cases h1 : (scan.points == 1) = true
          · rw [if_pos h1]
            cases stod scan.temp with
            | none => exact ⟨.thrown, _, rfl, by simp⟩
            | some value =>
                simp only []
                by_cases hno : m.errno = true
                · rw [if_pos hno]
                  exact ⟨.false, _, rfl, by simp⟩
                · rw [if_neg hno]
                  cases hc : call h (.ValueDouble value) { m with buffer := buffer, depth := scan.depth } with
                  | mk x m2 =>
                      refine ⟨x, m2, rfl, ?_⟩
                      intro hx1
                      exact ⟨.ValueDouble value, Or.inl ⟨_, rfl⟩, by rw [hc, hx1]⟩
          · rw [if_neg h1]
            have h0 : (scan.points == 0) = true := by
              have : scan.points ≠ 1 := by simpa using h1
              have : scan.points = 0 := by omega
              simp [this]
            rw [if_pos h0]
            cases from_chars scan.temp with
            | none => exact ⟨.false, _, rfl, by simp⟩
            | some value =>
                simp only []
                cases hc : call h (.ValueLongLong value) { m with buffer := buffer, depth := scan.depth } with
                | mk x m2 =>
                    refine ⟨x, m2, rfl, ?_⟩
                    intro hx1
                    exact ⟨.ValueLongLong value, Or.inr ⟨_, rfl⟩, by rw [hc, hx1]⟩
        obtain ⟨x, m2, hval, hcall⟩ := hv
        rw [hval] at hr
        cases x with
        | «false» => simp [numberEnd] at hr
        | thrown => simp [numberEnd] at hr
        | «true» =>
            simp only [numberEnd] at hr
            obtain ⟨e, he, hcall⟩ := hcall rfl
            refine ⟨e, buffer, scan.depth, m2, he, hcall, ?_⟩
            rcases hcases with ⟨h1, h2⟩ | ⟨h1, t, h2⟩ | ⟨h1, h2⟩ | ⟨h1, h2⟩
            · rw [h1] at hr
              simp only [reduceCtorEq, beq_iff_eq, if_false, Prod.mk.injEq, true_and] at hr
              exact Or.inl ⟨Or.inl h2, hr.symm⟩
            · rw [h1] at hr
              simp only [reduceCtorEq, beq_iff_eq, if_false, Prod.mk.injEq, true_and] at hr
              exact Or.inl ⟨Or.inr ⟨t, h2⟩, hr.symm⟩
            · rw [h1] at hr
              simp only [beq_self_eq_true, if_true] at hr
              exact Or.inr ⟨h2, Or.inl hr⟩
            · rw [h1] at hr
              simp only [reduceCtorEq, beq_iff_eq, if_false, beq_self_eq_true, if_true] at hr
              exact Or.inr ⟨h2, Or.inr hr⟩
      · simp only [hx, Bool.not_false, if_true] at hr
        simp at hr

/-- A value that `ready` accepted: a begin hook with the container pushed, or a
value hook, behind a number maybe with a new top of the stack or an end hook. -/
theorem ready_called (h : Hooks σ) (ch : Nat) (m m1 : Machine σ)
    (hr : ready h ch m = (.true, m1)) :
    call h .ObjectBegin { m with depth := JsonReaderType.Object :: m.depth } = (.true, m1)
      ∨ call h .ArrayBegin { m with depth := JsonReaderType.Array :: m.depth } = (.true, m1)
      ∨ ∃ (e : Event) (b : JsonStringViewBufferReader) (d : List JsonReaderType) (m2 : Machine σ),
          ((∃ v, e = .ValueString v) ∨ (∃ v, e = .ValueBool v) ∨ e = .Null
              ∨ (∃ v, e = .ValueDouble v) ∨ (∃ v, e = .ValueLongLong v))
            ∧ call h e { m with buffer := b, depth := d } = (.true, m2)
            ∧ (((d = m.depth ∨ ∃ t, d = setTop t m.depth) ∧ m1 = m2)
                ∨ (d = m.depth.tail
                    ∧ (call h .ObjectEnd m2 = (.true, m1) ∨ call h .ArrayEnd m2 = (.true, m1)))) := by
  have keyword : ∀ (rest : List Nat) (e : Event),
      ((∃ v, e = .ValueString v) ∨ (∃ v, e = .ValueBool v) ∨ e = .Null
              ∨ (∃ v, e = .ValueDouble v) ∨ (∃ v, e = .ValueLongLong v)) →
      readyKeyword h rest e m = (.true, m1) →
      ∃ (e : Event) (b : JsonStringViewBufferReader) (d : List JsonReaderType) (m2 : Machine σ),
          ((∃ v, e = .ValueString v) ∨ (∃ v, e = .ValueBool v) ∨ e = .Null
              ∨ (∃ v, e = .ValueDouble v) ∨ (∃ v, e = .ValueLongLong v))
            ∧ call h e { m with buffer := b, depth := d } = (.true, m2)
            ∧ (((d = m.depth ∨ ∃ t, d = setTop t m.depth) ∧ m1 = m2)
                ∨ (d = m.depth.tail
                    ∧ (call h .ObjectEnd m2 = (.true, m1) ∨ call h .ArrayEnd m2 = (.true, m1)))) := by
    intro rest e he hk
    unfold readyKeyword at hk
    cases hv : readyValue rest m.buffer with
    | fail error buffer => rw [hv] at hk; simp at hk
    | ok u buffer =>
        rw [hv] at hk
        exact ⟨e, buffer, m.depth, m1, he, hk, Or.inl ⟨Or.inl rfl, rfl⟩⟩
  unfold ready at hr
  by_cases h1 : (ch == 123) = true
  · rw [if_pos h1] at hr; exact Or.inl hr
  rw [if_neg h1] at hr
  by_cases h2 : (ch == 91) = true
  · rw [if_pos h2] at hr; exact Or.inr (Or.inl hr)
  rw [if_neg h2] at hr
  right; right
  by_cases h3 : (ch == 34) = true
  · rw [if_pos h3] at hr
    unfold readyStringValue at hr
    cases hv : readyString [] m.buffer with
    | fail error buffer => rw [hv] at hr; simp at hr
    | ok temp buffer =>
        rw [hv] at hr
        exact ⟨_, buffer, m.depth, m1, Or.inl ⟨_, rfl⟩, hr, Or.inl ⟨Or.inl rfl, rfl⟩⟩
  rw [if_neg h3] at hr
  by_cases h4 : (ch == 45 || isdigit ch) = true
  · rw [if_pos h4] at hr
    obtain ⟨e, b, d, m2, he, hc, hrest⟩ := readyNumber_called h ch m m1 hr
    exact ⟨e, b, d, m2, Or.inr (Or.inr (Or.inr he)), hc, hrest⟩
  rw [if_neg h4] at hr
  by_cases h5 : (ch == 116) = true
  · rw [if_pos h5] at hr; exact keyword _ _ (Or.inr (Or.inl ⟨_, rfl⟩)) hr
  rw [if_neg h5] at hr
  by_cases h6 : (ch == 102) = true
  · rw [if_pos h6] at hr; exact keyword _ _ (Or.inr (Or.inl ⟨_, rfl⟩)) hr
  rw [if_neg h6] at hr
  by_cases h7 : (ch == 110) = true
  · rw [if_pos h7] at hr; exact keyword _ _ (Or.inr (Or.inr (Or.inl rfl))) hr
  rw [if_neg h7] at hr
  simp at hr

end




open JsonStringViewBufferReader

section
variable {κ : Type}

/-! ## The builder between two passes -/

theorem setTop_length (t : JsonReaderType) (depth : List JsonReaderType) (hd : depth ≠ []) :
    (setTop t depth).length = depth.length := by
  cases depth with
  | nil => exact absurd rfl hd
  | cons a l => rfl

theorem ne_nil_of_head? {α : Type} {l : List α} {a : α} (h : l.head? = some a) : l ≠ [] := by
  intro h0
  rw [h0] at h
  simp at h

theorem value_called (callback : Callback κ) (e : Event)
    (he : (∃ v, e = .ValueString v) ∨ (∃ v, e = .ValueBool v) ∨ e = .Null
      ∨ (∃ v, e = .ValueDouble v) ∨ (∃ v, e = .ValueLongLong v))
    (m m1 : Machine (JsonReader κ))
    (hc : call (JsonReader.hooks callback) e m = (.true, m1)) :
    m1.self.stack = m.self.stack ∧ m1.self.key = [] ∧ m1.depth = m.depth
      ∧ m.self.stack ≠ [] := by
  obtain ⟨s, b, hh, rfl⟩ := call_some _ e m m1 hc
  have hv : ∃ v, (JsonReader.scalar v m.self).map (fun x => (x, false)) = some (s, b) := by
    rcases he with ⟨v, rfl⟩ | ⟨v, rfl⟩ | rfl | ⟨v, rfl⟩ | ⟨v, rfl⟩
    · exact ⟨_, hh⟩
    · exact ⟨_, hh⟩
    · exact ⟨_, hh⟩
    · exact ⟨_, hh⟩
    · exact ⟨_, hh⟩
  obtain ⟨v, hv⟩ := hv
  cases hs : JsonReader.scalar v m.self with
  | none => rw [hs] at hv; simp at hv
  | some r2 =>
      rw [hs] at hv
      simp only [Option.map_some', Option.some.injEq, Prod.mk.injEq] at hv
      obtain ⟨rfl, rfl⟩ := hv
      obtain ⟨_, _, h3, _, h5, h6⟩ := scalar_effect v m.self r2 hs
      exact ⟨h3, h5, rfl, h6⟩

theorem end_called (callback : Callback κ) (e : Event) (he : e = .ObjectEnd ∨ e = .ArrayEnd)
    (m m1 : Machine (JsonReader κ))
    (hc : call (JsonReader.hooks callback) e m = (.true, m1)) :
    m1.self.stack = m.self.stack.tail ∧ m1.self.key = m.self.key ∧ m1.depth = m.depth
      ∧ m.self.stack ≠ [] := by
  obtain ⟨s, b, hh, rfl⟩ := call_some _ e m m1 hc
  have hh2 : (if m.self.stack.isEmpty then none
      else some ({ m.self with stack := m.self.stack.tail }, false)) = some (s, b) := by
    rcases he with rfl | rfl <;> exact hh
  by_cases h0 : m.self.stack.isEmpty = true
  · rw [if_pos h0] at hh2; simp at hh2
  · rw [if_neg h0] at hh2
    simp only [Option.some.injEq, Prod.mk.injEq] at hh2
    obtain ⟨rfl, rfl⟩ := hh2
    exact ⟨rfl, rfl, rfl, fun h => h0 (by rw [h]; rfl)⟩

theorem begin_called (callback : Callback κ) (e : Event)
    (he : e = .ObjectBegin ∨ e = .ArrayBegin) (m m1 : Machine (JsonReader κ))
    (hc : call (JsonReader.hooks callback) e m = (.true, m1)) :
    m1.self.stack.length = m.self.stack.length + 1 ∧ m1.depth = m.depth
      ∧ (m.self.stack = [] → m1.self.key = m.self.key)
      ∧ (m.self.stack ≠ [] → m1.self.key = []) := by
  obtain ⟨s, b, hh, rfl⟩ := call_some _ e m m1 hc
  have hv : ∃ (value : JsonValue) (heap : Heap),
      (JsonReader.begin value { m.self with heap := heap }).map (fun x => (x, false))
        = some (s, b) := by
    rcases he with rfl | rfl
    · exact ⟨_, _, hh⟩
    · exact ⟨_, _, hh⟩
  obtain ⟨value, heap, hv⟩ := hv
  cases hs : JsonReader.begin value { m.self with heap := heap } with
  | none => rw [hs] at hv; simp at hv
  | some r2 =>
      rw [hs] at hv
      simp only [Option.map_some', Option.some.injEq, Prod.mk.injEq] at hv
      obtain ⟨rfl, rfl⟩ := hv
      obtain ⟨_, _, h3, h4, h5⟩ := begin_effect value _ r2 hs
      exact ⟨by rw [h3]; rfl, rfl, fun h => (h4 h).1, fun h => (h5 h).1⟩

theorem ready_settled (callback : Callback κ) (ch : Nat) (m m1 : Machine (JsonReader κ))
    (hd : m.depth ≠ []) (hl : m.self.stack.length = m.depth.length)
    (hr : ready (JsonReader.hooks callback) ch m = (.true, m1)) :
    m1.self.stack.length = m1.depth.length ∧ m1.self.key = [] := by
  have hst : m.self.stack ≠ [] := by
    intro h0
    rw [h0] at hl
    exact hd (List.length_eq_zero.mp hl.symm)
  rcases ready_called _ ch m m1 hr with hc | hc | ⟨e, b, d, m2, he, hc, hrest⟩
  · obtain ⟨h1, h2, _, h4⟩ := begin_called callback _ (Or.inl rfl) _ m1 hc
    exact ⟨by rw [h1, h2]; simp [hl], h4 hst⟩
  · obtain ⟨h1, h2, _, h4⟩ := begin_called callback _ (Or.inr rfl) _ m1 hc
    exact ⟨by rw [h1, h2]; simp [hl], h4 hst⟩
  · obtain ⟨h1, h2, h3, _⟩ := value_called callback e he _ m2 hc
    simp only [] at h1 h3
    rcases hrest with ⟨hd1, rfl⟩ | ⟨hd1, hend⟩
    · refine ⟨?_, h2⟩
      rw [h1, h3, hl]
      rcases hd1 with rfl | ⟨t, rfl⟩
      · rfl
      · exact (setTop_length t m.depth hd).symm
    · have hend1 : ∃ e1, (e1 = Event.ObjectEnd ∨ e1 = Event.ArrayEnd)
          ∧ call (JsonReader.hooks callback) e1 m2 = (.true, m1) := by
        rcases hend with hend | hend
        · exact ⟨_, Or.inl rfl, hend⟩
        · exact ⟨_, Or.inr rfl, hend⟩
      obtain ⟨e1, he1, hc1⟩ := hend1
      obtain ⟨k1, k2, k3, _⟩ := end_called callback e1 he1 m2 m1 hc1
      refine ⟨?_, by rw [k2, h2]⟩
      rw [k1, k3, h1, h3, hd1, List.length_tail, List.length_tail, hl]

theorem openDocument_settled (callback : Callback κ) (t : JsonReaderType) (e : Event)
    (he : e = .ObjectBegin ∨ e = .ArrayBegin) (m m1 : Machine (JsonReader κ))
    (hd : m.depth = []) (hs : Settled m)
    (ho : openDocument (JsonReader.hooks callback) t e m = (.true, m1)) : Settled m1 := by
  unfold openDocument at ho
  cases hc : call (JsonReader.hooks callback) .JsonBegin m with
  | mk x m2 =>
      rw [hc] at ho
      cases x with
      | «false» => simp at ho
      | thrown => simp at ho
      | «true» =>
          simp only [] at ho
          obtain ⟨s, b, hh, rfl⟩ := call_some _ _ m m2 hc
          have hs2 : s = { m.self with stack := [] } := by
            have : some (({ m.self with stack := [] } : JsonReader κ), false) = some (s, b) := hh
            simp only [Option.some.injEq, Prod.mk.injEq] at this
            exact this.1.symm
          obtain ⟨h1, h2, h3, _⟩ := begin_called callback e he _ m1 ho
          simp only [] at h1 h2 h3
          have hkey : m.self.key = [] := by
            rcases hs.2 with h0 | h0 | h0
            · rw [hd] at h0; simp at h0
            · rw [hd] at h0; simp at h0
            · exact h0
          refine ⟨?_, Or.inr (Or.inr ?_)⟩
          · rw [h1, h2, hs2, hd]; rfl
          · rw [h3 (by rw [hs2]), hs2]; exact hkey

theorem keyThenTop_settled (callback : Callback κ) (m m1 : Machine (JsonReader κ))
    (hd : m.depth ≠ []) (hs : Settled m)
    (hk : keyThenTop (JsonReader.hooks callback) m = (.true, m1)) : Settled m1 := by
  unfold keyThenTop at hk
  cases hr : readyObjectKey (JsonReader.hooks callback) m with
  | mk x m2 =>
      rw [hr] at hk
      cases x with
      | «false» => simp at hk
      | thrown => simp at hk
      | «true» =>
          simp only [Prod.mk.injEq, true_and] at hk
          unfold readyObjectKey at hr
          cases hv : readyString [] m.buffer with
          | fail error buffer => rw [hv] at hr; simp at hr
          | ok temp buffer =>
              rw [hv] at hr
              simp only [] at hr
              obtain ⟨s, b, hh, rfl⟩ := call_some _ _ _ m2 hr
              have hs2 : s = { m.self with key := temp } := by
                have : some (({ m.self with key := temp } : JsonReader κ), false) = some (s, b) := hh
                simp only [Option.some.injEq, Prod.mk.injEq] at this
                exact this.1.symm
              rw [← hk]
              refine ⟨?_, Or.inl ?_⟩
              · show s.stack.length = (setTop .ObjectKey m.depth).length
                rw [setTop_length _ _ hd, hs2]
                exact hs.1
              · rfl

theorem close_settled (callback : Callback κ) (e : Event) (he : e = .ObjectEnd ∨ e = .ArrayEnd)
    (m m1 : Machine (JsonReader κ)) (hs : Settled m)
    (hk : m.depth.head? ≠ some .ObjectKey ∧ m.depth.head? ≠ some .ObjectValue)
    (hc : close (JsonReader.hooks callback) e m = (.true, m1)) : Settled m1 := by
  unfold close at hc
  obtain ⟨h1, h2, h3, _⟩ := end_called callback e he _ m1 hc
  simp only [] at h1 h2 h3
  have hkey : m.self.key = [] := by
    rcases hs.2 with h0 | h0 | h0
    · exact absurd h0 hk.1
    · exact absurd h0 hk.2
    · exact h0
  refine ⟨?_, Or.inr (Or.inr (by rw [h2, hkey]))⟩
  rw [h1, h3, List.length_tail, List.length_tail, hs.1]

theorem documentEnd_settled (callback : Callback κ) (operation : Operation)
    (m m1 : Machine (JsonReader κ)) (hs : Settled m)
    (hp : documentEnd (JsonReader.hooks callback) operation m = .continue m1
      ∨ documentEnd (JsonReader.hooks callback) operation m = .break m1) : Settled m1 := by
  rcases documentEnd_cases (JsonReader.hooks callback) operation m with
    ⟨_, hd⟩ | ⟨_, _, hd⟩ | ⟨h0, s, b, he, hd⟩
  · rw [hd] at hp
    rcases hp with hp | hp
    · simp only [Step.continue.injEq] at hp; rw [← hp]; exact hs
    · simp at hp
  · rw [hd] at hp; simp at hp
  · rw [hooks_JsonEnd] at he
    simp only [Option.some.injEq, Prod.mk.injEq] at he
    obtain ⟨rfl, rfl⟩ := he
    have hkey : m.self.key = [] := by
      rcases hs.2 with h1 | h1 | h1
      · rw [h0] at h1; simp at h1
      · rw [h0] at h1; simp at h1
      · exact h1
    have hm : m1 = { m with self := { m.self with stack := [], user := (callback m.self.root m.self.heap m.self.user).1 }, stop := m.stop || !(callback m.self.root m.self.heap m.self.user).2 } := by
      rw [hd] at hp
      by_cases h1 : operation = .Single
      · rw [if_pos h1] at hp
        rcases hp with hp | hp
        · simp at hp
        · simp only [Step.break.injEq] at hp; exact hp.symm
      · rw [if_neg h1] at hp
        by_cases h2 : (m.stop || !(callback m.self.root m.self.heap m.self.user).2) = true
        · rw [if_pos h2] at hp
          rcases hp with hp | hp
          · simp at hp
          · simp only [Step.break.injEq] at hp; exact hp.symm
        · rw [if_neg h2] at hp
          rcases hp with hp | hp
          · simp only [Step.continue.injEq] at hp; exact hp.symm
          · simp at hp
    rw [hm]
    exact ⟨by show ([] : List Nat).length = m.depth.length; rw [h0]; rfl, Or.inr (Or.inr hkey)⟩

theorem andThen_settled (callback : Callback κ) (operation : Operation)
    (r : Ret × Machine (JsonReader κ)) (m1 : Machine (JsonReader κ))
    (hs : ∀ m, r = (.true, m) → Settled m)
    (hp : andThen (JsonReader.hooks callback) operation r = .continue m1
      ∨ andThen (JsonReader.hooks callback) operation r = .break m1) : Settled m1 := by
  obtain ⟨x, m⟩ := r
  cases x with
  | «true» => exact documentEnd_settled callback operation m m1 (hs m rfl) hp
  | «false» => simp [andThen] at hp
  | thrown => simp [andThen] at hp

/-- A pass of the main loop that goes on or leaves the loop keeps the builder
settled: its stack is as deep as `depth`, and a key is pending only behind a
key or its `:`. -/
theorem parseBody_settled (callback : Callback κ) (operation : Operation)
    (m m1 : Machine (JsonReader κ)) (hs : Settled m)
    (hp : parseBody (JsonReader.hooks callback) operation m = .continue m1
      ∨ parseBody (JsonReader.hooks callback) operation m = .break m1) : Settled m1 := by
  have hkey : m.depth.head? ≠ some .ObjectKey → m.depth.head? ≠ some .ObjectValue →
      m.self.key = [] := by
    intro h1 h2
    rcases hs.2 with h0 | h0 | h0
    · exact absurd h0 h1
    · exact absurd h0 h2
    · exact h0
  have sep : ∀ t : JsonReaderType, t ≠ .ObjectKey → m.depth ≠ [] →
      (t = .ObjectValue ∨ m.self.key = []) →
      Settled { m with depth := setTop t m.depth } := by
    intro t _ hd hk
    refine ⟨?_, ?_⟩
    · show m.self.stack.length = (setTop t m.depth).length
      rw [setTop_length _ _ hd]; exact hs.1
    · rcases hk with rfl | hk
      · exact Or.inr (Or.inl rfl)
      · exact Or.inr (Or.inr hk)
  have value : ∀ (t : JsonReaderType) (m2 : Machine (JsonReader κ)), m.depth ≠ [] →
      ready (JsonReader.hooks callback) m.buffer.cur { m with depth := setTop t m.depth }
        = (.true, m2) → Settled m2 := by
    intro t m2 hd hr
    obtain ⟨h1, h2⟩ := ready_settled callback _ _ m2 (by simp [setTop])
      (by show m.self.stack.length = (setTop t m.depth).length
          rw [setTop_length _ _ hd]; exact hs.1) hr
    exact ⟨h1, Or.inr (Or.inr h2)⟩
  rcases parseBody_dispatch (JsonReader.hooks callback) operation m with
    ⟨_, hq⟩ | ⟨e, hq⟩ | ⟨hd, _, hq⟩ | ⟨hd, _, hq⟩ | ⟨hd, _, hq⟩ | ⟨hd, _, hq⟩ | ⟨hd, _, hq⟩
      | ⟨hd, _, hq⟩ | ⟨hd, _, hq⟩ | ⟨hd, _, hq⟩ | ⟨hd, _, hq⟩ | ⟨hd, _, hq⟩
  · rw [hq] at hp
    rcases hp with hp | hp
    · simp only [Step.continue.injEq] at hp; rw [← hp]; exact hs
    · simp at hp
  · rw [hq] at hp; simp at hp
  · rw [hq] at hp
    exact andThen_settled callback operation _ m1
      (fun m2 h2 => openDocument_settled callback _ _ (Or.inl rfl) m m2 hd hs h2) hp
  · rw [hq] at hp
    exact andThen_settled callback operation _ m1
      (fun m2 h2 => openDocument_settled callback _ _ (Or.inr rfl) m m2 hd hs h2) hp
  · rw [hq] at hp
    have hne : m.depth ≠ [] := by rcases hd with hd | hd <;> exact ne_nil_of_head? hd
    exact andThen_settled callback operation _ m1
      (fun m2 h2 => keyThenTop_settled callback m m2 hne hs h2) hp
  · rw [hq] at hp
    refine andThen_settled callback operation _ m1
      (fun m2 h2 => close_settled callback _ (Or.inl rfl) m m2 hs ?_ h2) hp
    rcases hd with hd | hd <;> (rw [hd]; simp)
  · rw [hq] at hp
    refine andThen_settled callback operation _ m1
      (fun m2 h2 => close_settled callback _ (Or.inr rfl) m m2 hs ?_ h2) hp
    rcases hd with hd | hd <;> (rw [hd]; simp)
  · rw [hq] at hp
    exact documentEnd_settled callback operation _ m1
      (sep _ (by simp) (ne_nil_of_head? hd) (Or.inl rfl)) hp
  · rw [hq] at hp
    exact documentEnd_settled callback operation _ m1
      (sep _ (by simp) (ne_nil_of_head? hd)
        (Or.inr (hkey (by rw [hd]; simp) (by rw [hd]; simp)))) hp
  · rw [hq] at hp
    exact documentEnd_settled callback operation _ m1
      (sep _ (by simp) (ne_nil_of_head? hd)
        (Or.inr (hkey (by rw [hd]; simp) (by rw [hd]; simp)))) hp
  · rw [hq] at hp
    exact andThen_settled callback operation _ m1
      (fun m2 h2 => value _ m2 (ne_nil_of_head? hd) h2) hp
  · rw [hq] at hp
    have hne : m.depth ≠ [] := by
      rcases hd with hd | ⟨hd, _⟩ <;> exact ne_nil_of_head? hd
    exact andThen_settled callback operation _ m1
      (fun m2 h2 => value _ m2 hne h2) hp

/-- The passes of the main loop keep the builder settled. -/
theorem passes_settled (callback : Callback κ) (operation : Operation) (k : Nat) :
    ∀ (m mk : Machine (JsonReader κ)), Settled m →
      passes (JsonReader.hooks callback) operation k m = some mk → Settled mk := by
  induction k with
  | zero => intro m mk hs hp; simp only [passes, Option.some.injEq] at hp; rw [← hp]; exact hs
  | succ k ih =>
      intro m mk hs hp
      obtain ⟨m1, ch, rest, h1, h2, h3⟩ := passes_last _ operation k m mk hp
      have hs1 : Settled m1 := ih m m1 hs h1
      refine parseBody_settled callback operation _ mk ?_ (Or.inl h3)
      exact hs1

end




open JsonStringViewBufferReader

section
variable {σ : Type}

/-! ## Passes one after another, and over a longer input -/

theorem passes_trans (h : Hooks σ) (operation : Operation) (a : Nat) :
    ∀ (m m1 : Machine σ), passes h operation a m = some m1 →
      ∀ b, passes h operation (a + b) m = passes h operation b m1 := by
  induction a with
  | zero =>
      intro m m1 hp b
      simp only [passes, Option.some.injEq] at hp
      rw [Nat.zero_add, hp]
  | succ a ih =>
      intro m m1 hp b
      rw [passes] at hp
      cases ha : m.buffer.ahead with
      | nil => rw [next_nil _ ha] at hp; simp at hp
      | cons ch rest =>
          rw [next_cons _ ch rest ha] at hp
          simp only [] at hp
          cases hb : parseBody h operation
              { m with buffer := { pos := m.buffer.pos + 1, cur := ch, ahead := rest } } with
          | «continue» m2 =>
              rw [hb] at hp
              rw [show a + 1 + b = (a + b) + 1 by omega,
                passes_succ_of_continue h operation (a + b) m m2 ch rest ha hb]
              exact ih m2 m1 hp b
          | «break» m2 => rw [hb] at hp; simp at hp
          | «return» x m2 => rw [hb] at hp; simp at hp

theorem passes_snoc (h : Hooks σ) (operation : Operation) (k : Nat) (m mk m2 : Machine σ)
    (ch : Nat) (rest : List Nat) (hp : passes h operation k m = some mk)
    (ha : mk.buffer.ahead = ch :: rest)
    (hb : parseBody h operation
      { mk with buffer := { pos := mk.buffer.pos + 1, cur := ch, ahead := rest } } = .continue m2) :
    passes h operation (k + 1) m = some m2 := by
  rw [passes_trans h operation k m mk hp 1, passes_succ_of_continue h operation 0 mk m2 ch rest ha hb]
  rfl

/-- Passes that go on do so over every longer input, in the same states. -/
theorem passes_extend (h : Hooks σ) (operation : Operation) (k : Nat) :
    ∀ (m mk : Machine σ), passes h operation k m = some mk →
      ∀ s, passes h operation k (m.extend s) = some (mk.extend s) := by
  induction k with
  | zero =>
      intro m mk hp s
      simp only [passes, Option.some.injEq] at hp
      rw [hp]; rfl
  | succ k ih =>
      intro m mk hp s
      rw [passes] at hp
      cases ha : m.buffer.ahead with
      | nil => rw [next_nil _ ha] at hp; simp at hp
      | cons ch rest =>
          rw [next_cons _ ch rest ha] at hp
          simp only [] at hp
          cases hb : parseBody h operation
              { m with buffer := { pos := m.buffer.pos + 1, cur := ch, ahead := rest } } with
          | «continue» m2 =>
              rw [hb] at hp
              have hx : parseBody h operation
                  (Machine.extend { m with buffer := { pos := m.buffer.pos + 1, cur := ch, ahead := rest } } s)
                  = .continue (m2.extend s) := by
                rcases parseBody_local h operation
                    { m with buffer := { pos := m.buffer.pos + 1, cur := ch, ahead := rest } }
                  with ⟨_, hx⟩ | ⟨_, hf, _⟩
                · rw [hx s, hb]; rfl
                · rw [hb] at hf; simp at hf
              have ha2 : (m.extend s).buffer.ahead = ch :: (rest ++ s) := by
                show m.buffer.ahead ++ s = ch :: (rest ++ s)
                rw [ha]; rfl
              rw [passes_succ_of_continue h operation k (m.extend s) (m2.extend s) ch (rest ++ s)
                ha2 hx]
              exact ih m2 mk hp s
          | «break» m2 => rw [hb] at hp; simp at hp
          | «return» x m2 => rw [hb] at hp; simp at hp

/-- A pass starts with `next()`: the byte the reader stood on does not matter. -/
theorem passes_cur (h : Hooks σ) (operation : Operation) (k : Nat) (m : Machine σ) (c : Nat) :
    passes h operation (k + 1) { m with buffer := { m.buffer with cur := c } }
      = passes h operation (k + 1) m := by
  rw [passes, passes]
  cases ha : m.buffer.ahead with
  | nil =>
      rw [next_nil _ ha, next_nil _ (by exact ha)]
  | cons ch rest =>
      rw [next_cons _ ch rest ha, next_cons _ ch rest (by exact ha)]

theorem parseEnd_self (m : Machine σ) : (parseEnd m).2.self = m.self := by
  simp only [parseEnd]; split <;> rfl

theorem keeps_and {I J : σ → Bool → Prop} {h : Hooks σ} (hi : Keeps I h) (hj : Keeps J h) :
    Keeps (fun s st => I s st ∧ J s st) h :=
  fun e s s1 b st he hh hij => ⟨hi e s s1 b st he hh hij.1, hj e s s1 b st he hh hij.2⟩

end

/-! ## One document, alone and behind others -/

/-- What `documentTree d = some t` says of the run on `d` alone: passes that go
on, then the pass that ends the document on the last byte of `d`, with the
builder at rest and one observation, the root with its tree. -/
theorem documentTree_run (d : List Nat) (t : ValueTree) (hd : documentTree d = some t) :
    ∃ (k : Nat) (mk m0 : Machine (JsonReader Seen)) (ch : Nat) (rest : List Nat) (v : JsonValue),
      passes (JsonReader.hooks JsonReader.observe) .Single k
          (JsonReader.fresh.start (ofString d)) = some mk
        ∧ mk.buffer.ahead = ch :: rest
        ∧ parseBody (JsonReader.hooks JsonReader.observe) .Single
            { mk with buffer := { pos := mk.buffer.pos + 1, cur := ch, ahead := rest } } = .break m0
        ∧ m0.depth = [] ∧ m0.buffer.ahead = [] ∧ m0.stop = false
        ∧ m0.self.stack = [] ∧ m0.self.key = []
        ∧ m0.self.user = [(v, some t)]
        ∧ m0.self.heap.tree (m0.self.heap.values.length + 1) v = some t
        ∧ JsonWriter.isContainer m0.self.heap v = true := by
  unfold documentTree at hd
  cases hp : JsonReader.parse JsonReader.observe JsonReader.fresh (ofString d) .Single with
  | none => rw [hp] at hd; simp at hd
  | some p =>
      obtain ⟨r, m⟩ := p
      rw [hp] at hd
      cases r with
      | «false» => simp at hd
      | thrown => simp at hd
      | «true» =>
          simp only [] at hd
          by_cases hpos : m.buffer.pos + 1 = d.length
          · rw [if_pos hpos] at hd
            -- the observation
            have hu : ∃ v, m.self.user = [(v, some t)]
                ∧ JsonWriter.isContainer m.self.heap v = true := by
              split at hd
              · rename_i v t1 hu1
                by_cases hc : JsonWriter.isContainer m.self.heap v = true
                · rw [if_pos hc] at hd
                  simp only [Option.some.injEq] at hd
                  exact ⟨v, by rw [hu1, hd], hc⟩
                · rw [if_neg hc] at hd; simp at hd
              · simp at hd
            obtain ⟨v, hu, hcont⟩ := hu
            -- the run of the event parser
            have hsax : parseFrom (JsonReader.hooks JsonReader.observe) .Single
                (JsonReader.fresh.start (ofString d)) = some (.true, m) := by
              unfold JsonReader.parse JsonSAXReader.parse at hp
              cases hq : parseFrom (JsonReader.hooks JsonReader.observe) .Single
                  (JsonReader.fresh.start (ofString d)) with
              | none => rw [hq] at hp; simp at hp
              | some q =>
                  obtain ⟨x, mq⟩ := q
                  rw [hq] at hp
                  cases x with
                  | «false» => simp at hp
                  | thrown => simp at hp
                  | «true» => simpa using hp
            have hk := keeps_and (hooks_keeps_stop JsonReader.observe)
              (hooks_keeps_user JsonReader.observe ([] : Seen) [Value.Empty])
            have hi0 : (JsonReader.fresh.start (ofString d)).stop = false
                ∧ ((JsonReader.fresh.start (ofString d)).self.user = ([] : Seen)
                  ∧ ∃ vs, (JsonReader.fresh.start (ofString d)).self.heap.values
                      = [Value.Empty] ++ vs) := ⟨rfl, rfl, [], rfl⟩
            have hs0 : Settled (JsonReader.fresh.start (ofString d)) :=
              ⟨rfl, Or.inr (Or.inr rfl)⟩
            rcases parseFrom_cases _ .Single _ _ rfl .true m hsax with
              ⟨k, mk, h1, h2, h3⟩ | ⟨k, mk, ch, rest, h1, h2, h3⟩
            · exfalso
              have hik := passes_keeps hk k _ mk hi0 h1
              have hself : m.self = mk.self := by
                have := congrArg (fun p => p.2.self) h3
                simp only [] at this
                rw [this, parseEnd_self]
              rw [hself, hik.2.1] at hu
              simp at hu
            · have hik := passes_keeps hk k _ mk hi0 h1
              have hsk := passes_settled JsonReader.observe .Single k _ mk hs0 h1
              rcases h3 with ⟨m2, hb, he⟩ | hret
              · have hm : m2 = m ∧ m2.depth = [] := by
                  unfold parseEnd at he
                  by_cases hde : (!m2.depth.isEmpty) = true
                  · rw [if_pos hde] at he; simp at he
                  · rw [if_neg hde] at he
                    simp only [Prod.mk.injEq, true_and] at he
                    refine ⟨he.symm, ?_⟩
                    simpa using hde
                obtain ⟨rfl, hdepth⟩ := hm
                have hset : Settled m2 := by
                  refine parseBody_settled JsonReader.observe .Single _ m2 ?_ (Or.inr hb)
                  exact hsk
                have hstack : m2.self.stack = [] := by
                  have := hset.1
                  rw [hdepth] at this
                  exact List.length_eq_zero.mp this
                have hkey : m2.self.key = [] := by
                  rcases hset.2 with h0 | h0 | h0
                  · rw [hdepth] at h0; simp at h0
                  · rw [hdepth] at h0; simp at h0
                  · exact h0
                have hahead : m2.buffer.ahead = [] := by
                  have hst := (passes_start _ .Single k JsonReader.fresh d mk h1).1
                  have hon := parseBody_onward _ .Single _ m2 (Or.inr hb)
                  have hsz : m2.buffer.pos + 1 + m2.buffer.ahead.length = d.length := by
                    rcases hon with hon | hon
                    · rw [hon, ← hst, h2]
                      simp only [List.length_cons, Nat.cast_add, Nat.cast_one]
                      omega
                    · have := hon.size_eq
                      simp only [] at this
                      rw [this, ← hst, h2]
                      simp only [List.length_cons, Nat.cast_add, Nat.cast_one]
                      omega
                  have : m2.buffer.ahead.length = 0 := by omega
                  exact List.length_eq_zero.mp this
                rcases pass_outcome hk .Single
                    { mk with buffer := { pos := mk.buffer.pos + 1, cur := ch, ahead := rest } } hik with
                  ⟨m3, hp3, _⟩ | ⟨x, m3, hp3, _, _⟩ | ⟨m3, s, b, hi3, hd3, he3, hp3⟩
                · rw [hb] at hp3; simp at hp3
                · rw [hb] at hp3; simp at hp3
                · rw [hb] at hp3
                  simp only [if_true, Step.break.injEq] at hp3
                  rw [hooks_JsonEnd] at he3
                  simp only [Option.some.injEq, Prod.mk.injEq] at he3
                  obtain ⟨rfl, rfl⟩ := he3
                  have hstop : m2.stop = false := by
                    rw [hp3]
                    show (m3.stop || !true) = false
                    rw [hi3.1]; rfl
                  have huser : m2.self.user
                      = m3.self.user ++ [(m3.self.root,
                          m3.self.heap.tree (m3.self.heap.values.length + 1) m3.self.root)] := by
                    rw [hp3]; rfl
                  have hheap : m2.self.heap = m3.self.heap := by rw [hp3]
                  rw [hi3.2.1, hu] at huser
                  simp only [List.nil_append, List.cons.injEq, Prod.mk.injEq, and_true] at huser
                  refine ⟨k, mk, m2, ch, rest, v, h1, h2, hb, hdepth, hahead, hstop, hstack, hkey,
                    hu, ?_, hcont⟩
                  rw [hheap, huser.1, ← huser.2]
              · exact absurd rfl (parseBody_return _ .Single _ m .true hret)
          · rw [if_neg hpos] at hd; simp at hd

/-- A document behind others: a reader at rest between two documents, with the
document `d` ahead, goes through `d` in Multiple mode as a new reader does
alone; it observes the root with the tree of `d`, and adds cells to its heap
without a change to the cells it had. -/
theorem document_step (d rest : List Nat) (t : ValueTree) (hd : documentTree d = some t)
    (m1 : Machine (JsonReader Seen)) (hdepth : m1.depth = []) (hstop : m1.stop = false)
    (hstack : m1.self.stack = []) (hkey : m1.self.key = [])
    (hhead : m1.self.heap.values.head? = some .Empty) (hahead : m1.buffer.ahead = d ++ rest)
    (herrno : m1.errno = false) :
    ∃ (n : Nat) (m2 : Machine (JsonReader Seen)) (v : JsonValue),
      passes (JsonReader.hooks JsonReader.observe) .Multiple n m1 = some m2
        ∧ m2.depth = [] ∧ m2.stop = false ∧ m2.self.stack = [] ∧ m2.self.key = []
        ∧ m2.buffer.ahead = rest
        ∧ Heap.Extends m1.self.heap m2.self.heap
        ∧ m2.self.user = m1.self.user ++ [(v, some t)]
        ∧ m2.self.heap.tree (m2.self.heap.values.length + 1) v = some t
        ∧ m2.errno = false := by
  obtain ⟨k, mk, m0, ch, rest0, v, h1, h2, h3, h4, h5, h6, h7, h8, h9, h10, h11⟩ :=
    documentTree_run d t hd
  -- the same passes in Multiple mode
  have hm1 := passes_multiple _ k _ mk h1
  have hb : parseBody (JsonReader.hooks JsonReader.observe) .Multiple
      { mk with buffer := { pos := mk.buffer.pos + 1, cur := ch, ahead := rest0 } }
        = .continue m0 := by
    rw [parseBody_multiple, h3]
    simp only [Step.toMultiple, h6]
    rfl
  have hm2 := passes_snoc _ .Multiple k _ mk m0 ch rest0 hm1 h2 hb
  -- over the longer input
  have hm3 := passes_extend _ .Multiple (k + 1) _ m0 hm2 rest
  -- in the reader that has parsed before
  have hmoved : Moved m1.self.heap m1.self.user (JsonReader.new []) m1.self := by
    refine ⟨⟨rfl, hhead, ?_, ?_, ?_⟩, ?_, ?_, Or.inr ⟨?_, Or.inr rfl⟩⟩
    · simp [JsonReader.new]
    · simp [JsonReader.new]
    · simp [JsonReader.new]
    · rw [hstack]; rfl
    · rw [hkey]; rfl
    · simp [JsonReader.new]
  have halike : Alike (Moved m1.self.heap m1.self.user)
      ((JsonReader.fresh.start (ofString d)).extend rest)
      { m1 with buffer := { m1.buffer with cur := 0 } } :=
    ⟨⟨rfl, hahead⟩, hdepth, hstop, herrno, hmoved⟩
  obtain ⟨m2, hp2, ha2⟩ := passes_alike hooks_moved .Multiple (k + 1) _ _ halike _ hm3
  rw [passes_cur] at hp2
  obtain ⟨⟨_, hah⟩, hdep, hst, herr2, hmv⟩ := ha2
  obtain ⟨hheap0, hstk, hky, huser⟩ := hmv
  have hheap : MovedHeap m1.self.heap m0.self.heap m2.self.heap := hheap0
  have hv0 : v.value ≠ 0 := by
    intro h0
    have hf := hheap.1
    rw [head?_eq_getElem?] at hf
    have : JsonWriter.isContainer m0.self.heap v = false := by
      simp only [JsonWriter.isContainer, Heap.type, h0]
      rw [hf]
      rfl
    rw [this] at h11
    exact Bool.false_ne_true h11
  have huser2 : m2.self.user
      = m1.self.user ++ [(moveJson (m1.self.heap.values.length - 1) v, some t)] := by
    rcases huser with ⟨e, he, hj⟩ | ⟨hu2, _⟩
    · exfalso
      have he1 : e ∈ m0.self.user := he
      rw [h9] at he1
      simp only [List.mem_singleton] at he1
      rw [he1] at hj
      rcases hj with hj | hj
      · exact hv0 hj
      · simp at hj
    · rw [hu2]
      show m1.self.user ++ (m0.self.user).map _ = _
      rw [h9]
      rfl
  have hlen := hheap.length
  refine ⟨k + 1, m2, moveJson (m1.self.heap.values.length - 1) v, hp2, ?_, ?_, ?_, ?_, ?_,
    hheap.extends, huser2, ?_, ?_⟩
  · rw [hdep]; exact h4
  · rw [hst]; exact h6
  · rw [hstk]
    show (m0.self.stack).map _ = []
    rw [h7]; rfl
  · rw [hky]; exact h8
  · rw [hah]
    show m0.buffer.ahead ++ rest = rest
    rw [h5]; rfl
  · have hsh := (tree_shift _ _ _ hheap (m0.self.heap.values.length + 1)).1 v
    have hsh2 : m2.self.heap.tree (m0.self.heap.values.length + 1)
        (moveJson (m1.self.heap.values.length - 1) v) = some t := by
      rw [← h10]; exact hsh
    refine tree_mono_le _ _ _ _ _ ?_ hsh2
    omega
  · rw [herr2]
    exact passes_errno _ .Multiple (k + 1) _ _ hm3




open JsonStringViewBufferReader

/-! ## C5: documents one after another -/

mutual
theorem beqTree_eq : ∀ (a b : ValueTree), beqTree a b = true → a = b
  | .Empty, b, h => by cases b <;> simp [beqTree] at h ⊢
  | .Object xs, b, h => by
      cases b <;> simp only [beqTree, Bool.false_eq_true] at h
      rw [beqMembers_eq _ _ h]
  | .Array xs, b, h => by
      cases b <;> simp only [beqTree, Bool.false_eq_true] at h
      rw [beqElements_eq _ _ h]
  | .String s, b, h => by cases b <;> simp [beqTree] at h ⊢; exact h
  | .Double s, b, h => by cases b <;> simp [beqTree] at h ⊢; exact h
  | .LongLong s, b, h => by cases b <;> simp [beqTree] at h ⊢; exact h
  | .Bool s, b, h => by cases b <;> simp [beqTree] at h ⊢; exact h
  | .Null, b, h => by cases b <;> simp [beqTree] at h ⊢
theorem beqMembers_eq : ∀ (xs ys : List (List Nat × ValueTree)),
    beqMembers xs ys = true → xs = ys
  | [], ys, h => by cases ys <;> simp [beqMembers] at h ⊢
  | (k, x) :: xs, ys, h => by
      cases ys with
      | nil => simp [beqMembers] at h
      | cons p ys =>
          obtain ⟨l, y⟩ := p
          simp only [beqMembers, Bool.and_eq_true, beq_iff_eq] at h
          rw [h.1.1, beqTree_eq x y h.1.2, beqMembers_eq xs ys h.2]
theorem beqElements_eq : ∀ (xs ys : List ValueTree), beqElements xs ys = true → xs = ys
  | [], ys, h => by cases ys <;> simp [beqElements] at h ⊢
  | x :: xs, ys, h => by
      cases ys with
      | nil => simp [beqElements] at h
      | cons y ys =>
          simp only [beqElements, Bool.and_eq_true] at h
          rw [beqTree_eq x y h.1, beqElements_eq xs ys h.2]
end

/-- A document whose tree passes the equality test against `t` has the tree `t`. -/
theorem documentTree_of_beq (d : List Nat) (t : ValueTree)
    (h : (match documentTree d with
      | some a => beqTree a t
      | none => false) = true) : documentTree d = some t := by
  cases hd : documentTree d with
  | none => rw [hd] at h; simp at h
  | some a =>
      rw [hd] at h
      simp only [] at h
      rw [beqTree_eq a t h]

/-- The run over documents one after another, from a reader at rest between two
documents. -/
theorem documents_run (docs : List (List Nat × List Nat × ValueTree)) :
    ∀ (ws : List Nat) (m1 : Machine (JsonReader Seen)),
      (∀ p ∈ docs, (∀ c ∈ p.1, isspace c = true) ∧ documentTree p.2.1 = some p.2.2) →
      (∀ c ∈ ws, isspace c = true) →
      m1.depth = [] → m1.stop = false → m1.self.stack = [] → m1.self.key = [] →
      m1.self.heap.values.head? = some .Empty →
      m1.buffer.ahead = documentsText docs ws → m1.errno = false →
      (∀ e ∈ m1.self.user, ∃ t, e.2 = some t
        ∧ m1.self.heap.tree (m1.self.heap.values.length + 1) e.1 = some t) →
      ∃ m, parseFrom (JsonReader.hooks JsonReader.observe) .Multiple m1 = some (.true, m)
        ∧ m.self.user.map (fun e => e.2)
            = m1.self.user.map (fun e => e.2) ++ docs.map (fun p => some p.2.2)
        ∧ ∀ e ∈ m.self.user,
            m.self.heap.tree (m.self.heap.values.length + 1) e.1 = e.2 := by
  induction docs with
  | nil =>
      intro ws m1 _ hws hdepth _ _ _ _ hahead _ huser
      obtain ⟨cur, hp⟩ := passes_whitespace (JsonReader.hooks JsonReader.observe) .Multiple ws m1 []
        hws (by rw [hahead]; simp [documentsText])
      rw [passes_parseFrom _ .Multiple _ m1 _ hp, parseFrom_nil _ _ _ rfl]
      have he : parseEnd { ({ m1 with buffer := { pos := m1.buffer.pos + ws.length, cur := cur, ahead := [] } } : Machine (JsonReader Seen)) with buffer := { pos := m1.buffer.pos + ws.length + 1, cur := 0, ahead := [] } }
          = (.true, { m1 with buffer := { pos := m1.buffer.pos + ws.length + 1, cur := 0, ahead := [] } }) := by
        unfold parseEnd
        simp [hdepth]
      refine ⟨_, congrArg some he, by simp, ?_⟩
      intro e he1
      obtain ⟨t, h1, h2⟩ := huser e he1
      rw [h1]; exact h2
  | cons p docs ih =>
      intro ws m1 hdocs hws hdepth hstop hstack hkey hhead hahead herrno huser
      obtain ⟨hp1, hp2⟩ := hdocs p (List.mem_cons_self _ _)
      -- the whitespace before the document
      obtain ⟨cur, hw⟩ := passes_whitespace (JsonReader.hooks JsonReader.observe) .Multiple p.1 m1
        (p.2.1 ++ documentsText docs ws) hp1 (by rw [hahead]; rfl)
      -- the document
      obtain ⟨n, m2, v, h1, h2, h3, h4, h5, h6, h7, h8, h9, h10⟩ :=
        document_step p.2.1 (documentsText docs ws) p.2.2 hp2
          { m1 with buffer := { pos := m1.buffer.pos + p.1.length, cur := cur, ahead := p.2.1 ++ documentsText docs ws } }
          hdepth hstop hstack hkey hhead rfl herrno
      simp only [] at h7 h8
      have hlen := h7.values_le
      have hhead2 : m2.self.heap.values.head? = some .Empty := by
        obtain ⟨⟨vs, hvs⟩, _⟩ := h7
        rw [hvs]
        cases hv : m1.self.heap.values with
        | nil => rw [hv] at hhead; simp at hhead
        | cons a l => rw [hv] at hhead; simpa using hhead
      have huser2 : ∀ e ∈ m2.self.user, ∃ t, e.2 = some t
          ∧ m2.self.heap.tree (m2.self.heap.values.length + 1) e.1 = some t := by
        intro e he
        rw [h8] at he
        rcases List.mem_append.mp he with he | he
        · obtain ⟨t, k1, k2⟩ := huser e he
          refine ⟨t, k1, ?_⟩
          exact tree_mono_le _ _ _ _ _ (by omega) ((tree_extends _ _ h7 _).1 _ _ k2)
        · simp only [List.mem_singleton] at he
          rw [he]
          exact ⟨_, rfl, h9⟩
      obtain ⟨m, k1, k2, k3⟩ := ih ws m2 (fun q hq => hdocs q (List.mem_cons_of_mem _ hq)) hws
        h2 h3 h4 h5 hhead2 h6 h10 huser2
      refine ⟨m, ?_, ?_, k3⟩
      · rw [passes_parseFrom _ .Multiple _ m1 _ hw, passes_parseFrom _ .Multiple _ _ _ h1]
        exact k1
      · rw [k2, h8]
        simp

/-- The run of `JsonReader::parse` in Multiple mode over documents that the
builder accepts.  The input is made of documents one after another, each behind
optional whitespace, with optional whitespace behind the last one; each
document, parsed alone in Single mode on a new reader, makes
`JsonReader::parse` return true on its last byte with one callback, for an
object or array that unfolds to the tree.  Then `JsonReader::parse` of the
input in Multiple mode, on a new reader with the callback that notes the value
it is given and the tree of that value and returns true, returns true; the
callback has run once for each document, in the order of the input, the i-th
time with the tree of the i-th document; and in the heap at the end every value
that the callback was given still unfolds to the tree it had then. -/
theorem documents_called_back (docs : List (List Nat × List Nat × ValueTree)) (ws : List Nat)
    (hdocs : ∀ p ∈ docs, (∀ c ∈ p.1, isspace c = true) ∧ documentTree p.2.1 = some p.2.2)
    (hws : ∀ c ∈ ws, isspace c = true) :
    ∃ m, JsonReader.parse JsonReader.observe JsonReader.fresh
          (ofString (documentsText docs ws)) .Multiple = some (.true, m)
      ∧ m.self.user.map (fun e => e.2) = docs.map (fun p => some p.2.2)
      ∧ ∀ e ∈ m.self.user,
          m.self.heap.tree (m.self.heap.values.length + 1) e.1 = e.2 := by
  obtain ⟨m, h1, h2, h3⟩ := documents_run docs ws
    (JsonReader.fresh.start (ofString (documentsText docs ws))) hdocs hws rfl rfl rfl rfl rfl rfl rfl
    (by intro e he; simp [JsonSAXReader.start, JsonReader.fresh, JsonReader.new] at he)
  refine ⟨m, ?_, by simpa [JsonSAXReader.start, JsonReader.fresh, JsonReader.new] using h2, h3⟩
  unfold JsonReader.parse JsonSAXReader.parse
  rw [h1]

/-- The documents `{"a":1}` and `{"b":2}`, a space between them and a newline
behind: two callbacks, the first with the tree of `{"a":1}`, the second with
the tree of `{"b":2}`, and both values unfold to their trees in the heap at the
end. -/
theorem documents_called_back_twice :
    (∀ p ∈ inputC5, (∀ c ∈ p.1, isspace c = true) ∧ documentTree p.2.1 = some p.2.2)
      ∧ documentsText inputC5 [10]
          = [123, 34, 97, 34, 58, 49, 125, 32, 123, 34, 98, 34, 58, 50, 125, 10]
      ∧ ∃ m, JsonReader.parse JsonReader.observe JsonReader.fresh
            (ofString (documentsText inputC5 [10])) .Multiple = some (.true, m)
          ∧ m.self.user.map (fun e => e.2)
              = [some (.Object [([97], .LongLong 1)]), some (.Object [([98], .LongLong 2)])]
          ∧ ∀ e ∈ m.self.user,
              m.self.heap.tree (m.self.heap.values.length + 1) e.1 = e.2 :=
  have hdocs : ∀ p ∈ inputC5, (∀ c ∈ p.1, isspace c = true) ∧ documentTree p.2.1 = some p.2.2 := by
    intro p hp
    simp only [inputC5, List.mem_cons, List.mem_singleton, List.not_mem_nil, or_false] at hp
    rcases hp with rfl | rfl
    · exact ⟨by decide, documentTree_of_beq _ _ (by decide!)⟩
    · exact ⟨by decide, documentTree_of_beq _ _ (by decide!)⟩
  ⟨hdocs, rfl, documents_called_back inputC5 [10] hdocs (by decide)⟩

/-- C5 (Multiple-document mode), evaluated where it fails.  The input
`{"":1} {"b":2}` is two documents with a space between them, and the event
parser accepts it in Multiple mode: it reports both documents, the key of the
first as the empty string.  `JsonReader::parse` of the same input in Multiple
mode, on a new reader with the callback that notes the value it is given and
returns true, does not return true: in the first document the value hook behind
the empty key finds `key` empty, treats the value as an array element and
applies `std::get` for an array to the cell of the object, so
`std::bad_variant_access` leaves the call, and the callback has not run.  With
the empty key in the second document, `{"a":1} {"":2}`, the callback runs once,
for `{"a":1}`, and the exception leaves the call in the second document.  With
the keys `a` and `b` the call returns true behind two callbacks, the first with
the tree of `{"a":1}` and the second with the tree of `{"b":2}`. -/
theorem C5_empty_key_document :
    (parseEvents [123, 34, 34, 58, 49, 125, 32, 123, 34, 98, 34, 58, 50, 125] .Multiple).map
        (fun p => (p.1, p.2.self))
      = some (.true, [.JsonBegin, .ObjectBegin, .ObjectKey [], .ValueLongLong 1, .ObjectEnd, .JsonEnd,
          .JsonBegin, .ObjectBegin, .ObjectKey [98], .ValueLongLong 2, .ObjectEnd, .JsonEnd])
      ∧ (JsonReader.parse JsonReader.observe JsonReader.fresh
          (ofString [123, 34, 34, 58, 49, 125, 32, 123, 34, 98, 34, 58, 50, 125]) .Multiple).map
            (fun p => (p.1, p.2.self.user.length))
        = some (.thrown, 0)
      ∧ (JsonReader.parse JsonReader.observe JsonReader.fresh
          (ofString [123, 34, 97, 34, 58, 49, 125, 32, 123, 34, 34, 58, 50, 125]) .Multiple).map
            (fun p => (p.1, p.2.self.user.length))
        = some (.thrown, 1)
      ∧ (match JsonReader.parse JsonReader.observe JsonReader.fresh
            (ofString [123, 34, 97, 34, 58, 49, 125, 32, 123, 34, 98, 34, 58, 50, 125]) .Multiple with
          | some (.true, m) =>
              (match m.self.user with
                | [(_, some s), (_, some t)] =>
                    beqTree s (.Object [([97], .LongLong 1)])
                      && beqTree t (.Object [([98], .LongLong 2)])
                | _ => false)
          | _ => false) = true := by
  refine ⟨by decide!, by decide!, by decide!, by decide!⟩




open JsonSAXWriter

/-! ## C21: `ArrayEnd` outside an array -/

/-- `ArrayEnd` in compact mode, with a sink that takes the byte: whatever the top
of a non-empty state stack is, the call pops it, writes `]` and returns true. -/
theorem arrayEnd_any_top (w : JsonSAXWriter) (b : JsonBufferWriter) (c : Condition)
    (below : List Condition) (hb : w.buffer = some b) (ho : b.is_open = true)
    (hf : w.beautiful = false) (hs : w.stack = c :: below) :
    ArrayEnd w
      = (.true, { w with buffer := some { b with count := b.count + 1, json := b.json ++ [93] }, stack := below }) := by
  obtain ⟨beautiful, error, buffer, stack⟩ := w
  simp only [] at hb hf hs
  subst hb hf hs
  simp [ArrayEnd, seq, checkBuffer, pop, writeChar, isControlCode, JsonBufferWriter.write, ho]

/-- C21 (`ArrayEnd` protocol rejection), the code at the call sequence
`ObjectBegin`, `ArrayEnd` on a writer with a string sink: `ObjectBegin` returns
true and leaves `Object` on the state stack; `ArrayEnd` then returns true as
well, pops that state and writes `]`, so the sink holds `{]` and the error is
still empty.  The same happens with `ObjectKey` or `ObjectNextPair` on top
(behind `{"a":` and `{"a":1`). -/
theorem C21_array_end_accepted :
    ObjectBegin (JsonSAXWriter.new.setBuffer (some JsonStringBufferWriter) false)
        = (.true, { beautiful := false, _error := .empty, buffer := some { is_open := true, count := 1, json := [123] }, stack := [.Object] })
      ∧ ArrayEnd { beautiful := false, _error := .empty, buffer := some { is_open := true, count := 1, json := [123] }, stack := [.Object] }
        = (.true, { beautiful := false, _error := .empty, buffer := some { is_open := true, count := 2, json := [123, 93] }, stack := [] })
      ∧ ArrayEnd { beautiful := false, _error := .empty, buffer := some { is_open := true, count := 5, json := [123, 34, 97, 34, 58] }, stack := [.ObjectKey] }
        = (.true, { beautiful := false, _error := .empty, buffer := some { is_open := true, count := 6, json := [123, 34, 97, 34, 58, 93] }, stack := [] })
      ∧ ArrayEnd { beautiful := false, _error := .empty, buffer := some { is_open := true, count := 6, json := [123, 34, 97, 34, 58, 49] }, stack := [.ObjectNextPair] }
        = (.true, { beautiful := false, _error := .empty, buffer := some { is_open := true, count := 7, json := [123, 34, 97, 34, 58, 49, 93] }, stack := [] }) := by
  refine ⟨by decide, by decide, by decide, by decide⟩




open JsonStringViewBufferReader

/-! ## The string lexer, item by item -/

theorem isPlain_iff (c : Nat) :
    isPlain c = true ↔ (isControlCode c = false ∧ c ≠ 34 ∧ c ≠ 92) := by
  simp only [isPlain, isControlCode, Bool.and_eq_true, Bool.not_eq_true', bne_iff_ne, ne_eq,
    ge_iff_le]
  tauto

theorem isEscapeChar_cases (c : Nat) (h : isEscapeChar c = true) :
    c = 34 ∨ c = 92 ∨ c = 47 ∨ c = 98 ∨ c = 102 ∨ c = 110 ∨ c = 114 ∨ c = 116 ∨ c = 117 := by
  simp only [isEscapeChar, Bool.or_eq_true, beq_iff_eq] at h
  tauto

theorem unescape_eq (c : Nat) (h : isEscapeChar c = true) :
    isControlCode c = false ∧ unescape c = some (StringItem.value (.escaped c)) := by
  rcases isEscapeChar_cases c h with h | h | h | h | h | h | h | h | h <;> subst h <;>
    exact ⟨by decide, by decide⟩

theorem unescape_none (c : Nat) (h : isEscapeChar c = false) : unescape c = none := by
  simp only [isEscapeChar, Bool.or_eq_false_iff, beq_eq_false_iff_ne, ne_eq] at h
  obtain ⟨⟨⟨⟨⟨⟨⟨⟨h1, h2⟩, h3⟩, h4⟩, h5⟩, h6⟩, h7⟩, h8⟩, h9⟩ := h
  simp [unescape, h1, h2, h3, h4, h5, h6, h7, h8, h9]

theorem stringStep_plain (c : Nat) (h : isPlain c = true) : stringStep false c = .push [c] := by
  obtain ⟨h1, h2, h3⟩ := (isPlain_iff c).mp h
  simp [stringStep, h1, h2, h3]

theorem stringStep_escaped (c : Nat) (h : isEscapeChar c = true) :
    stringStep true c = .push (StringItem.value (.escaped c)) := by
  obtain ⟨h1, h2⟩ := unescape_eq c h
  simp [stringStep, h1, h2]

theorem stringStep_control (special : Bool) (c : Nat) (h : isControlCode c = true) :
    stringStep special c = .control := by
  simp [stringStep, h]

theorem stringStep_invalid (c : Nat) (h1 : isControlCode c = false)
    (h2 : isEscapeChar c = false) : stringStep true c = .invalid := by
  simp [stringStep, h1, unescape_none c h2]

theorem stringStep_backslash : stringStep false 92 = .special := by decide

theorem stringStep_quote : stringStep false 34 = .exit := by decide

/-- The lexer over one item that the specification accepts: the value of the
item is appended, and the lexer goes on behind the item as it started. -/
theorem readyStringLoop_item (i : StringItem) (hw : i.wellFormed = true) (temp : List Nat)
    (pos : Int) (rest : List Nat) :
    readyStringLoop false temp pos (i.text ++ rest)
      = readyStringLoop false (temp ++ i.value) (pos + i.text.length) rest := by
  cases i with
  | plain c =>
      simp only [StringItem.text, StringItem.value, List.singleton_append, readyStringLoop,
        stringStep_plain c hw, List.length_singleton, Nat.cast_one]
      rfl
  | escaped c =>
      simp only [StringItem.text, List.cons_append, List.nil_append, readyStringLoop,
        stringStep_backslash, stringStep_escaped c hw, List.length_cons, List.length_nil]
      congr 1
      push_cast
      ring

theorem readyStringLoop_items (items : List StringItem) :
    ∀ (temp : List Nat) (pos : Int) (rest : List Nat),
      (∀ i ∈ items, i.wellFormed = true) →
      readyStringLoop false temp pos (itemsText items ++ rest)
        = readyStringLoop false (temp ++ itemsValue items) (pos + (itemsText items).length) rest := by
  induction items with
  | nil => intro temp pos rest _; simp [itemsText, itemsValue]
  | cons i items ih =>
      intro temp pos rest hw
      have h1 := readyStringLoop_item i (hw i (List.mem_cons_self _ _)) temp pos
        (itemsText items ++ rest)
      have h2 := ih (temp ++ i.value) (pos + i.text.length) rest
        (fun j hj => hw j (List.mem_cons_of_mem _ hj))
      simp only [itemsText, itemsValue, List.flatMap_cons, List.append_assoc] at h1 h2 ⊢
      rw [h1, h2]
      congr 1
      simp only [List.length_append, Nat.cast_add]
      ring

/-- What the string lexer returns behind items that the specification accepts,
by what follows them. -/
theorem readyString_shapes (items : List StringItem) (hw : ∀ i ∈ items, i.wellFormed = true)
    (temp : List Nat) (pos : Int) (cur : Nat) (rest : List Nat) :
    readyString temp { pos := pos, cur := cur, ahead := itemsText items ++ 34 :: rest }
        = .ok (temp ++ itemsValue items)
            { pos := pos + (itemsText items).length + 1, cur := 34, ahead := rest }
      ∧ (∀ c, isControlCode c = true →
          readyString temp { pos := pos, cur := cur, ahead := itemsText items ++ c :: rest }
              = .fail (.withOffset .ControlCharacterDetectionMsg (JsonStringViewBufferReader.offset { pos := pos + (itemsText items).length + 1, cur := c, ahead := rest }))
                  { pos := pos + (itemsText items).length + 1, cur := c, ahead := rest }
            ∧ readyString temp { pos := pos, cur := cur, ahead := itemsText items ++ 92 :: c :: rest }
              = .fail (.withOffset .ControlCharacterDetectionMsg (JsonStringViewBufferReader.offset { pos := pos + (itemsText items).length + 2, cur := c, ahead := rest }))
                  { pos := pos + (itemsText items).length + 2, cur := c, ahead := rest })
      ∧ (∀ c, isControlCode c = false → isEscapeChar c = false →
          readyString temp { pos := pos, cur := cur, ahead := itemsText items ++ 92 :: c :: rest }
            = .fail (.withChar .InvalidSpecialCharMsg c (JsonStringViewBufferReader.offset { pos := pos + (itemsText items).length + 2, cur := c, ahead := rest }))
                { pos := pos + (itemsText items).length + 2, cur := c, ahead := rest })
      ∧ readyString temp { pos := pos, cur := cur, ahead := itemsText items }
          = .fail (.withOffset .StringOutOfArrayMsg (JsonStringViewBufferReader.offset { pos := pos + (itemsText items).length + 1, cur := 0, ahead := [] }))
              { pos := pos + (itemsText items).length + 1, cur := 0, ahead := [] }
      ∧ readyString temp { pos := pos, cur := cur, ahead := itemsText items ++ [92] }
          = .fail (.withOffset .StringOutOfArrayMsg (JsonStringViewBufferReader.offset { pos := pos + (itemsText items).length + 2, cur := 0, ahead := [] }))
              { pos := pos + (itemsText items).length + 2, cur := 0, ahead := [] } := by
  have two : pos + ((itemsText items).length : Int) + 1 + 1 = pos + (itemsText items).length + 2 := by
    ring
  refine ⟨?_, ?_, ?_, ?_, ?_⟩
  · simp only [readyString]
    rw [readyStringLoop_items items temp pos _ hw]
    simp only [readyStringLoop, stringStep_quote]
  · intro c hc
    constructor
    · simp only [readyString]
      rw [readyStringLoop_items items temp pos _ hw]
      simp only [readyStringLoop, stringStep_control _ c hc, makeError]
    · simp only [readyString]
      rw [readyStringLoop_items items temp pos _ hw]
      simp only [readyStringLoop, stringStep_backslash, stringStep_control _ c hc, makeError, two]
  · intro c h1 h2
    simp only [readyString]
    rw [readyStringLoop_items items temp pos _ hw]
    simp only [readyStringLoop, stringStep_backslash, stringStep_invalid c h1 h2, makeErrorCh, two]
  · simp only [readyString]
    have := readyStringLoop_items items temp pos [] hw
    rw [List.append_nil] at this
    rw [this]
    simp only [readyStringLoop, makeError]
  · simp only [readyString]
    rw [readyStringLoop_items items temp pos _ hw]
    simp only [readyStringLoop, stringStep_backslash, makeError, two]

/-- Every input of the string lexer is made of items that the specification
accepts, followed by a closing quote, by a control byte (maybe behind a
backslash), by a backslash with a byte that is no escape, or by the end of the
input (maybe behind a backslash). -/
theorem string_input_cases (n : Nat) :
    ∀ ahead : List Nat, ahead.length = n →
      ∃ (items : List StringItem) (rest : List Nat), (∀ i ∈ items, i.wellFormed = true)
        ∧ (ahead = itemsText items ++ 34 :: rest
          ∨ (∃ c, isControlCode c = true
              ∧ (ahead = itemsText items ++ c :: rest ∨ ahead = itemsText items ++ 92 :: c :: rest))
          ∨ (∃ c, isControlCode c = false ∧ isEscapeChar c = false
              ∧ ahead = itemsText items ++ 92 :: c :: rest)
          ∨ ahead = itemsText items ∨ ahead = itemsText items ++ [92]) := by
  induction n using Nat.strong_induction_on with
  | _ n ih =>
    intro ahead hn
    have step : ∀ (i : StringItem) (tail : List Nat), i.wellFormed = true →
        ahead = i.text ++ tail → tail.length < n →
        ∃ (items : List StringItem) (rest : List Nat), (∀ i ∈ items, i.wellFormed = true)
          ∧ (ahead = itemsText items ++ 34 :: rest
            ∨ (∃ c, isControlCode c = true
                ∧ (ahead = itemsText items ++ c :: rest ∨ ahead = itemsText items ++ 92 :: c :: rest))
            ∨ (∃ c, isControlCode c = false ∧ isEscapeChar c = false
                ∧ ahead = itemsText items ++ 92 :: c :: rest)
            ∨ ahead = itemsText items ∨ ahead = itemsText items ++ [92]) := by
      intro i tail hi ha hl
      obtain ⟨items, rest, hw, hc⟩ := ih tail.length hl tail rfl
      refine ⟨i :: items, rest, ?_, ?_⟩
      · intro j hj
        rcases List.mem_cons.mp hj with rfl | hj
        · exact hi
        · exact hw j hj
      · have hcons : ∀ s : List Nat, itemsText (i :: items) ++ s = i.text ++ (itemsText items ++ s) := by
          intro s
          simp [itemsText, List.flatMap_cons]
        have hnil : itemsText (i :: items) = i.text ++ itemsText items := by
          simp [itemsText, List.flatMap_cons]
        rcases hc with h | ⟨c, h1, h | h⟩ | ⟨c, h1, h2, h⟩ | h | h
        · exact Or.inl (by rw [hcons, ha, h])
        · exact Or.inr (Or.inl ⟨c, h1, Or.inl (by rw [hcons, ha, h])⟩)
        · exact Or.inr (Or.inl ⟨c, h1, Or.inr (by rw [hcons, ha, h])⟩)
        · exact Or.inr (Or.inr (Or.inl ⟨c, h1, h2, by rw [hcons, ha, h]⟩))
        · exact Or.inr (Or.inr (Or.inr (Or.inl (by rw [hnil, ha, h]))))
        · exact Or.inr (Or.inr (Or.inr (Or.inr (by rw [hcons, ha, h]))))
    cases ahead with
    | nil => exact ⟨[], [], by simp, Or.inr (Or.inr (Or.inr (Or.inl rfl)))⟩
    | cons c tail =>
        simp only [List.length_cons] at hn
        by_cases hc : isControlCode c = true
        · exact ⟨[], tail, by simp, Or.inr (Or.inl ⟨c, hc, Or.inl rfl⟩)⟩
        have hc0 : isControlCode c = false := by simpa using hc
        by_cases hq : c = 34
        · subst hq
          exact ⟨[], tail, by simp, Or.inl rfl⟩
        by_cases hb : c = 92
        · subst hb
          cases tail with
          | nil => exact ⟨[], [], by simp, Or.inr (Or.inr (Or.inr (Or.inr rfl)))⟩
          | cons x tail2 =>
              simp only [List.length_cons] at hn
              by_cases hx : isControlCode x = true
              · exact ⟨[], tail2, by simp, Or.inr (Or.inl ⟨x, hx, Or.inr rfl⟩)⟩
              have hx0 : isControlCode x = false := by simpa using hx
              by_cases he : isEscapeChar x = true
              · exact step (.escaped x) tail2 he rfl (by omega)
              · have he0 : isEscapeChar x = false := by simpa using he
                exact ⟨[], tail2, by simp, Or.inr (Or.inr (Or.inl ⟨x, hx0, he0, rfl⟩))⟩
        · exact step (.plain c) tail ((isPlain_iff c).mpr ⟨hc0, hq, hb⟩) rfl (by omega)




open JsonStringViewBufferReader

/-! ## C22: `\u` is passed through -/

/-- C22 (Unicode escape pass-through).  Behind a backslash and `u` the string
lexer is in the state it started in, with the two bytes `\` and `u` appended to
the value: it reads what follows as it reads any bytes of a string, with no test
for hex digits and no decoding.  So a literal made of items that the
specification accepts, then `\u`, then such items again and the closing quote
yields the value of the items with the two bytes `\` and `u` in between; the
items behind `\u` may be any bytes that are no control byte, quote or
backslash, or none at all. -/
theorem C22_unicode_passthrough (before after : List StringItem)
    (hb : ∀ i ∈ before, i.wellFormed = true) (ha : ∀ i ∈ after, i.wellFormed = true)
    (temp : List Nat) (pos : Int) (cur : Nat) (rest : List Nat) :
    readyString temp { pos := pos, cur := cur, ahead := 92 :: 117 :: rest }
        = readyString (temp ++ [92, 117]) { pos := pos + 2, cur := 117, ahead := rest }
      ∧ readyString temp { pos := pos, cur := cur, ahead := itemsText (before ++ .escaped 117 :: after) ++ 34 :: rest }
        = .ok (temp ++ (itemsValue before ++ 92 :: 117 :: itemsValue after))
            { pos := pos + (itemsText (before ++ .escaped 117 :: after)).length + 1, cur := 34, ahead := rest }
      ∧ itemsText (before ++ .escaped 117 :: after)
        = itemsText before ++ 92 :: 117 :: itemsText after := by
  refine ⟨?_, ?_, ?_⟩
  · simp only [readyString, readyStringLoop, stringStep_backslash,
      stringStep_escaped 117 (by decide)]
    have : pos + 1 + 1 = pos + 2 := by ring
    rw [this]
    rfl
  · have hw : ∀ i ∈ before ++ StringItem.escaped 117 :: after, i.wellFormed = true := by
      intro i hi
      rcases List.mem_append.mp hi with hi | hi
      · exact hb i hi
      · rcases List.mem_cons.mp hi with rfl | hi
        · decide
        · exact ha i hi
    rw [(readyString_shapes _ hw temp pos cur rest).1]
    congr 2
    simp [itemsValue, StringItem.value]
  · simp [itemsText, StringItem.text]

/-- C22, witness: the literals `"A"` and `"\uZZ"`, read from behind the
opening quote, yield the six bytes `A` and the four bytes `\uZZ`. -/
theorem C22_unicode_passthrough_witness :
    readyString [] { pos := 0, cur := 34, ahead := itemsText ([] ++ .escaped 117 :: [.plain 48, .plain 48, .plain 52, .plain 49]) ++ 34 :: [] }
        = .ok ([] ++ (itemsValue [] ++ 92 :: 117 :: itemsValue [.plain 48, .plain 48, .plain 52, .plain 49]))
            { pos := 0 + (itemsText ([] ++ .escaped 117 :: [.plain 48, .plain 48, .plain 52, .plain 49])).length + 1, cur := 34, ahead := [] }
      ∧ itemsText ([] ++ .escaped 117 :: [.plain 48, .plain 48, .plain 52, .plain 49]) ++ 34 :: []
        = [92, 117, 48, 48, 52, 49, 34]
      ∧ ([] ++ (itemsValue [] ++ 92 :: 117 :: itemsValue [.plain 48, .plain 48, .plain 52, .plain 49]))
        = [92, 117, 48, 48, 52, 49]
      ∧ readyString [] { pos := 0, cur := 34, ahead := itemsText ([] ++ .escaped 117 :: [.plain 90, .plain 90]) ++ 34 :: [] }
        = .ok ([] ++ (itemsValue [] ++ 92 :: 117 :: itemsValue [.plain 90, .plain 90]))
            { pos := 0 + (itemsText ([] ++ .escaped 117 :: [.plain 90, .plain 90])).length + 1, cur := 34, ahead := [] }
      ∧ ([] ++ (itemsValue [] ++ 92 :: 117 :: itemsValue [.plain 90, .plain 90])) = [92, 117, 90, 90] :=
  ⟨(C22_unicode_passthrough [] [.plain 48, .plain 48, .plain 52, .plain 49] (by decide)
      (by decide) [] 0 34 []).2.1,
    by decide, by decide,
    (C22_unicode_passthrough [] [.plain 90, .plain 90] (by decide) (by decide) [] 0 34 []).2.1,
    by decide⟩




open JsonStringViewBufferReader

/-! ## C23: when the string lexer fails -/

/-- C23 (string lexer failure conditions).  Let the bytes behind the opening
quote start with items that the specification accepts: bytes that are no
control byte, quote or backslash, and backslashes followed by one of
`" \ / b f n r t u`.  Then `readyString` returns true with the value of the
items when a quote follows them, and it returns false (a) with the error
ControlCharacterDetection at a control byte that follows them, also when a
backslash stands before the control byte, (b) with the error
InvalidSpecialChar at a byte behind a backslash that is no control byte and
none of the nine escapes, and (c) with the error "String out of array limit"
when the input ends behind the items, or behind a backslash that follows
them; the error is at the offset of the byte named, or of the end of the
input.  Every input is of one of these shapes, so these are all the
failures, each reported at the first place where one occurs. -/
theorem C23_string_failures (items : List StringItem)
    (hw : ∀ i ∈ items, i.wellFormed = true)
    (temp : List Nat) (pos : Int) (cur : Nat) (rest : List Nat) :
    (readyString temp { pos := pos, cur := cur, ahead := itemsText items ++ 34 :: rest }
        = .ok (temp ++ itemsValue items)
            { pos := pos + (itemsText items).length + 1, cur := 34, ahead := rest }
      ∧ (∀ c, isControlCode c = true →
          readyString temp { pos := pos, cur := cur, ahead := itemsText items ++ c :: rest }
              = .fail (.withOffset .ControlCharacterDetectionMsg (JsonStringViewBufferReader.offset { pos := pos + (itemsText items).length + 1, cur := c, ahead := rest }))
                  { pos := pos + (itemsText items).length + 1, cur := c, ahead := rest }
            ∧ readyString temp { pos := pos, cur := cur, ahead := itemsText items ++ 92 :: c :: rest }
              = .fail (.withOffset .ControlCharacterDetectionMsg (JsonStringViewBufferReader.offset { pos := pos + (itemsText items).length + 2, cur := c, ahead := rest }))
                  { pos := pos + (itemsText items).length + 2, cur := c, ahead := rest })
      ∧ (∀ c, isControlCode c = false → isEscapeChar c = false →
          readyString temp { pos := pos, cur := cur, ahead := itemsText items ++ 92 :: c :: rest }
            = .fail (.withChar .InvalidSpecialCharMsg c (JsonStringViewBufferReader.offset { pos := pos + (itemsText items).length + 2, cur := c, ahead := rest }))
                { pos := pos + (itemsText items).length + 2, cur := c, ahead := rest })
      ∧ readyString temp { pos := pos, cur := cur, ahead := itemsText items }
          = .fail (.withOffset .StringOutOfArrayMsg (JsonStringViewBufferReader.offset { pos := pos + (itemsText items).length + 1, cur := 0, ahead := [] }))
              { pos := pos + (itemsText items).length + 1, cur := 0, ahead := [] }
      ∧ readyString temp { pos := pos, cur := cur, ahead := itemsText items ++ [92] }
          = .fail (.withOffset .StringOutOfArrayMsg (JsonStringViewBufferReader.offset { pos := pos + (itemsText items).length + 2, cur := 0, ahead := [] }))
              { pos := pos + (itemsText items).length + 2, cur := 0, ahead := [] })
      ∧ (∀ c, isControlCode c = true ↔ (c ≤ 8 ∨ (14 ≤ c ∧ c ≤ 31) ∨ c = 127))
      ∧ ∀ ahead : List Nat,
          ∃ (items : List StringItem) (rest : List Nat), (∀ i ∈ items, i.wellFormed = true)
            ∧ (ahead = itemsText items ++ 34 :: rest
              ∨ (∃ c, isControlCode c = true
                  ∧ (ahead = itemsText items ++ c :: rest
                    ∨ ahead = itemsText items ++ 92 :: c :: rest))
              ∨ (∃ c, isControlCode c = false ∧ isEscapeChar c = false
                  ∧ ahead = itemsText items ++ 92 :: c :: rest)
              ∨ ahead = itemsText items ∨ ahead = itemsText items ++ [92]) := by
  refine ⟨readyString_shapes items hw temp pos cur rest, ?_, fun ahead =>
    string_input_cases _ ahead rfl⟩
  intro c
  simp only [isControlCode, Bool.or_eq_true, Bool.and_eq_true, decide_eq_true_eq, beq_iff_eq,
    ge_iff_le]
  tauto

/-- C23, witness: behind the items `a` and `\n`, at offset 0 of the input
`a\n...`: a quote ends the string with the value `a`, newline; the byte `0x01`
is a control byte, reported at offset 4 also behind a backslash at offset 5;
`\x` is no escape; the end of the input is reported at offset 4. -/
theorem C23_string_failures_witness :
    (∀ i ∈ [StringItem.plain 97, StringItem.escaped 110], i.wellFormed = true)
      ∧ itemsText [StringItem.plain 97, StringItem.escaped 110] = [97, 92, 110]
      ∧ readyString [] { pos := 0, cur := 34, ahead := itemsText [StringItem.plain 97, StringItem.escaped 110] ++ 34 :: [44] }
          = .ok ([] ++ itemsValue [StringItem.plain 97, StringItem.escaped 110])
            { pos := 0 + (itemsText [StringItem.plain 97, StringItem.escaped 110]).length + 1, cur := 34, ahead := [44] }
      ∧ ([] ++ itemsValue [StringItem.plain 97, StringItem.escaped 110]) = [97, 10]
      ∧ readyString [] { pos := 0, cur := 34, ahead := itemsText [StringItem.plain 97, StringItem.escaped 110] ++ 92 :: 120 :: [44] }
          = .fail (.withChar .InvalidSpecialCharMsg 120 (JsonStringViewBufferReader.offset { pos := 0 + (itemsText [StringItem.plain 97, StringItem.escaped 110]).length + 2, cur := 120, ahead := [44] }))
              { pos := 0 + (itemsText [StringItem.plain 97, StringItem.escaped 110]).length + 2, cur := 120, ahead := [44] }
      ∧ JsonStringViewBufferReader.offset { pos := 0 + (itemsText [StringItem.plain 97, StringItem.escaped 110]).length + 2, cur := 120, ahead := [44] } = 5 :=
  ⟨by decide, by decide,
    (C23_string_failures [.plain 97, .escaped 110] (by decide) [] 0 34 [44]).1.1,
    by decide,
    (C23_string_failures [.plain 97, .escaped 110] (by decide) [] 0 34 [44]).1.2.2.1 120
      (by decide) (by decide),
    by decide⟩




open JsonSAXWriter

/-! ## The serializer on a sink that takes bytes -/

theorem emit_isOpen (w : JsonSAXWriter) (l : List Nat) (s : List Condition) :
    (w.emit l s).isOpen = w.isOpen := by
  obtain ⟨bf, e, buffer, stack⟩ := w
  cases buffer <;> rfl

theorem emit_emit (w : JsonSAXWriter) (l1 l2 : List Nat) (s1 s2 : List Condition) :
    (w.emit l1 s1).emit l2 s2 = w.emit (l1 ++ l2) s2 := by
  obtain ⟨bf, e, buffer, stack⟩ := w
  cases buffer with
  | none => rfl
  | some b =>
      simp only [JsonSAXWriter.emit, Option.map_some', List.length_append, List.append_assoc,
        Nat.add_assoc]

theorem emit_nil (w : JsonSAXWriter) : w.emit [] w.stack = w := by
  obtain ⟨bf, e, buffer, stack⟩ := w
  cases buffer with
  | none => rfl
  | some b => simp [JsonSAXWriter.emit]

theorem emit_nil_stack (w : JsonSAXWriter) (s : List Condition) :
    w.emit [] s = { w with stack := s } := by
  obtain ⟨bf, e, buffer, stack⟩ := w
  cases buffer with
  | none => rfl
  | some b => simp [JsonSAXWriter.emit]

theorem emit_stack (w : JsonSAXWriter) (l : List Nat) (s : List Condition) :
    (w.emit l s).stack = s := rfl

theorem emit_beautiful (w : JsonSAXWriter) (l : List Nat) (s : List Condition) :
    (w.emit l s).beautiful = w.beautiful := rfl

theorem emit_error (w : JsonSAXWriter) (l : List Nat) (s : List Condition) :
    (w.emit l s)._error = w._error := rfl

theorem push_emit (c : Condition) (w : JsonSAXWriter) (l : List Nat) (s : List Condition) :
    push c (w.emit l s) = (.true, w.emit l (c :: s)) := rfl

theorem pop_emit (w : JsonSAXWriter) (l : List Nat) (s : List Condition) :
    pop (w.emit l s) = (.true, w.emit l s.tail) := rfl

theorem writeChar_emit (c : Nat) (hc : isControlCode c = false) (w : JsonSAXWriter)
    (ho : w.isOpen = true) : writeChar c w = (.true, w.emit [c] w.stack) := by
  obtain ⟨bf, e, buffer, stack⟩ := w
  cases buffer with
  | none => simp [JsonSAXWriter.isOpen] at ho
  | some b =>
      simp only [JsonSAXWriter.isOpen] at ho
      simp [writeChar, hc, JsonBufferWriter.write, ho, JsonSAXWriter.emit]

theorem writeChars_emit (l : List Nat) :
    ∀ (w : JsonSAXWriter), w.isOpen = true → (∀ c ∈ l, isControlCode c = false) →
      writeChars l w = (.true, w.emit l w.stack) := by
  induction l with
  | nil => intro w _ _; rw [emit_nil]; rfl
  | cons c l ih =>
      intro w ho hl
      rw [writeChars, seq, writeChar_emit c (hl c (List.mem_cons_self _ _)) w ho]
      simp only []
      rw [ih _ (by rw [emit_isOpen]; exact ho) (fun x hx => hl x (List.mem_cons_of_mem _ hx)),
        emit_emit]
      rfl

/-- The first control byte stops `writeChars`: what stands before it is in the
sink, and the call returns false with the control-character error. -/
theorem writeChars_control (l : List Nat) (c : Nat) (rest : List Nat) (w : JsonSAXWriter)
    (ho : w.isOpen = true) (hl : ∀ x ∈ l, isControlCode x = false)
    (hc : isControlCode c = true) :
    writeChars (l ++ c :: rest) w
      = (.false, { w.emit l w.stack with _error := .ControlCharacterDetect }) := by
  rw [writeChars_append, seq, writeChars_emit l w ho hl]
  simp only [writeChars, seq, writeChar, hc, if_true, failWith]

theorem writeSpace_emit (n : Nat) :
    ∀ (w : JsonSAXWriter), w.isOpen = true →
      writeSpace n w = (.true, w.emit (List.replicate n 32) w.stack) := by
  induction n with
  | zero => intro w _; rw [List.replicate_zero, emit_nil]; rfl
  | succ n ih =>
      intro w ho
      rw [writeSpace, seq, writeChar_emit 32 (by decide) w ho]
      simp only []
      rw [ih _ (by rw [emit_isOpen]; exact ho), emit_emit]
      rfl

theorem indent_emit (n : Nat) (w : JsonSAXWriter) (ho : w.isOpen = true) :
    (if w.beautiful then writeSpace (2 * n) w else (.true, w))
      = (.true, w.emit (indentText w.beautiful n) w.stack) := by
  cases hb : w.beautiful with
  | true => simp only [if_true, indentText]; exact writeSpace_emit _ w ho
  | false => simp only [Bool.false_eq_true, if_false, indentText]; rw [emit_nil]

theorem separator_emit (w : JsonSAXWriter) (ho : w.isOpen = true) :
    separator w = (.true, w.emit (separatorText w.beautiful w.stack.length) w.stack) := by
  rw [separator, seq, writeChar_emit 44 (by decide) w ho]
  simp only []
  have ho1 : (w.emit [44] w.stack).isOpen = true := by rw [emit_isOpen]; exact ho
  cases hb : w.beautiful with
  | true =>
      simp only [if_true, seq]
      rw [writeChar_emit 10 (by decide) _ ho1]
      simp only []
      rw [writeSpace_emit _ _ (by rw [emit_isOpen]; exact ho1), emit_emit, emit_emit]
      simp [separatorText, newlineText, indentText, JsonSAXWriter.emit]
  | false =>
      simp only [Bool.false_eq_true, if_false, skip]
      simp [separatorText, newlineText, indentText]

/-- Before a value the serializer writes the prefix that its state stack asks
for, and moves the top of the stack on. -/
theorem advance_emit (w : JsonSAXWriter) (ho : w.isOpen = true) (hs : w.stack ≠ []) :
    advance w = (.true, w.emit (valuePrefix w.beautiful w.stack) (advanced w.stack)) := by
  cases hst : w.stack with
  | nil => exact absurd hst hs
  | cons c below =>
      have hlen : w.stack.length = below.length + 1 := by rw [hst]; rfl
      cases c with
      | Object =>
          simp only [advance, hst, valuePrefix, advanced]
          rw [← hst, emit_nil]
      | ObjectKey =>
          simp only [advance, hst, valuePrefix, advanced]
          rw [emit_nil_stack]
      | ObjectNextPair =>
          simp only [advance, hst, valuePrefix, advanced]
          rw [← hst, emit_nil]
      | Array =>
          simp only [advance, hst, valuePrefix, advanced, entryPrefix, if_true]
          rw [seq]
          have := indent_emit (below.length + 1) w ho
          cases hb : w.beautiful with
          | true =>
              rw [hb] at this
              simp only [if_true] at this ⊢
              rw [hst] at this
              simp only [List.length_cons]
              rw [this]
              rfl
          | false =>
              rw [hb] at this
              simp only [Bool.false_eq_true, if_false, skip, indentText]
              rw [emit_nil_stack]
      | ArrayNextValue =>
          simp only [advance, hst, valuePrefix, advanced, entryPrefix, Bool.false_eq_true,
            if_false]
          rw [separator_emit w ho, hlen, hst]

theorem checkCorrectValue_emit (w : JsonSAXWriter) (ho : w.isOpen = true)
    (hs : w.stack.head? = some .ObjectKey ∨ w.stack.head? = some .Array
      ∨ w.stack.head? = some .ArrayNextValue) :
    checkCorrectValue w = (.true, w.emit (valuePrefix w.beautiful w.stack) (advanced w.stack)) := by
  have hne : w.stack ≠ [] := by
    intro h0; rw [h0] at hs; simp at hs
  rw [← advance_emit w ho hne]
  cases hst : w.stack with
  | nil => exact absurd hst hne
  | cons c below =>
      rw [hst] at hs
      simp only [List.head?_cons, Option.some.injEq] at hs
      rcases hs with rfl | rfl | rfl <;> simp only [checkCorrectValue, hst]

theorem containerEnd_emit (w : JsonSAXWriter) (ho : w.isOpen = true) :
    containerEnd w = (.true, w.emit (valuePrefix w.beautiful w.stack) (advanced w.stack)) := by
  cases hst : w.stack with
  | nil =>
      simp only [containerEnd, hst, List.isEmpty_nil, if_true, valuePrefix, advanced]
      rw [← hst, emit_nil]
  | cons c below =>
      have := advance_emit w ho (by rw [hst]; simp)
      rw [hst] at this
      simp only [containerEnd, hst, List.isEmpty_cons, Bool.false_eq_true, if_false]
      exact this

theorem checkIsObject_key_emit (w : JsonSAXWriter) (ho : w.isOpen = true)
    (hs : w.stack.head? = some .Object ∨ w.stack.head? = some .ObjectNextPair) :
    checkIsObject true false w = (.true, w.emit (keyPrefix w.beautiful w.stack) w.stack) := by
  cases hst : w.stack with
  | nil => rw [hst] at hs; simp at hs
  | cons c below =>
      have hlen : w.stack.length = below.length + 1 := by rw [hst]; rfl
      rw [hst] at hs
      simp only [List.head?_cons, Option.some.injEq] at hs
      rcases hs with rfl | rfl
      · simp only [checkIsObject, hst, keyPrefix, entryPrefix, if_true, Bool.false_eq_true,
          if_false]
        have := indent_emit (below.length + 1) w ho
        rw [hst] at this
        rw [← this]
        rfl
      · simp only [checkIsObject, hst, keyPrefix, entryPrefix, if_true, Bool.false_eq_true,
          if_false]
        have := separator_emit w ho
        rw [hlen, hst] at this
        exact this

theorem checkIsObject_end_emit (w : JsonSAXWriter) (ho : w.isOpen = true)
    (hs : w.stack.head? = some .Object ∨ w.stack.head? = some .ObjectNextPair) :
    checkIsObject false true w
      = (.true, w.emit (indentText w.beautiful (w.stack.length - 1)) w.stack) := by
  have key : (if w.beautiful then writeSpace (2 * w.stack.length - 2) w else (.true, w))
      = (.true, w.emit (indentText w.beautiful (w.stack.length - 1)) w.stack) := by
    have := indent_emit (w.stack.length - 1) w ho
    rw [← this]
    have h2 : 2 * w.stack.length - 2 = 2 * (w.stack.length - 1) := by omega
    rw [h2]
  cases hst : w.stack with
  | nil => rw [hst] at hs; simp at hs
  | cons c below =>
      rw [hst] at hs key
      simp only [List.head?_cons, Option.some.injEq] at hs
      rcases hs with rfl | rfl
      · simp only [checkIsObject, hst, if_true, Bool.false_eq_true, if_false]
        exact key
      · simp only [checkIsObject, hst, if_true, Bool.false_eq_true, if_false]
        exact key




open JsonSAXWriter

/-! ## The calls of the serializer on a sink that takes bytes -/

theorem checkBuffer_open (w : JsonSAXWriter) (ho : w.isOpen = true) :
    checkBuffer w = (.true, w) := by
  obtain ⟨bf, e, buffer, stack⟩ := w
  cases buffer with
  | none => simp [JsonSAXWriter.isOpen] at ho
  | some b => rfl

theorem checkIsNotObject_pass (w : JsonSAXWriter)
    (hs : w.stack.head? ≠ some .Object ∧ w.stack.head? ≠ some .ObjectNextPair) :
    checkIsNotObject w = (.true, w) := by
  cases hst : w.stack with
  | nil => simp only [checkIsNotObject, hst]
  | cons c below =>
      rw [hst] at hs
      simp only [List.head?_cons, ne_eq, Option.some.injEq] at hs
      cases c <;> simp only [checkIsNotObject, hst] <;> simp at hs

theorem newline_emit (w : JsonSAXWriter) (ho : w.isOpen = true) :
    newline w = (.true, w.emit (newlineText w.beautiful) w.stack) := by
  cases hb : w.beautiful with
  | true =>
      simp only [newline, hb, if_true, newlineText]
      exact writeChar_emit 10 (by decide) w ho
  | false =>
      simp only [newline, hb, Bool.false_eq_true, if_false, newlineText]
      rw [emit_nil]

/-- `ObjectBegin` and `ArrayBegin` where a value may stand: the prefix, the
bracket, and a newline in beautified output; the new container is on the stack. -/
theorem begin_emit (w : JsonSAXWriter) (ho : w.isOpen = true)
    (hs : w.stack.head? ≠ some .Object ∧ w.stack.head? ≠ some .ObjectNextPair) :
    ObjectBegin w
        = (.true, w.emit (valuePrefix w.beautiful w.stack ++ 123 :: newlineText w.beautiful)
            (.Object :: advanced w.stack))
      ∧ ArrayBegin w
        = (.true, w.emit (valuePrefix w.beautiful w.stack ++ 91 :: newlineText w.beautiful)
            (.Array :: advanced w.stack)) := by
  have h1 : (w.emit (valuePrefix w.beautiful w.stack) (advanced w.stack)).isOpen = true := by
    rw [emit_isOpen]; exact ho
  constructor
  · simp only [ObjectBegin, seq, checkBuffer_open w ho, checkIsNotObject_pass w hs,
      containerEnd_emit w ho, writeChar_emit 123 (by decide) _ h1]
    rw [newline_emit _ (by rw [emit_isOpen]; exact h1)]
    simp only [emit_emit, emit_stack, emit_beautiful, push_emit, List.append_assoc,
      List.singleton_append]
  · simp only [ArrayBegin, seq, checkBuffer_open w ho, checkIsNotObject_pass w hs,
      containerEnd_emit w ho, writeChar_emit 91 (by decide) _ h1]
    rw [newline_emit _ (by rw [emit_isOpen]; exact h1)]
    simp only [emit_emit, emit_stack, emit_beautiful, push_emit, List.append_assoc,
      List.singleton_append]

theorem acceptsString_iff (s : List Nat) :
    acceptsString s = true ↔ ∀ c ∈ s, ¬ (c ≤ 7 ∨ (14 ≤ c ∧ c ≤ 31) ∨ c = 127) := by
  simp only [acceptsString, List.all_eq_true, Bool.not_eq_true', Bool.or_eq_false_iff,
    Bool.and_eq_false_imp, decide_eq_false_iff_not, decide_eq_true_eq, beq_eq_false_iff_ne]
  constructor
  · intro h c hc
    have := h c hc
    omega
  · intro h c hc
    have := h c hc
    omega

theorem quoteText_writable (s : List Nat) (hs : acceptsString s = true) :
    ∀ c ∈ quoteText s, isControlCode c = false := by
  intro x hx
  simp only [quoteText, List.mem_cons, List.mem_append, List.mem_singleton, List.not_mem_nil,
    or_false] at hx
  rcases hx with rfl | hx | rfl
  · decide
  · exact escape_writable s ((acceptsString_iff s).mp hs) x hx
  · decide

theorem writeString_emit (s : List Nat) (w : JsonSAXWriter) (ho : w.isOpen = true)
    (hs : acceptsString s = true) :
    JsonSAXWriter.writeString s w = (.true, w.emit (quoteText s) w.stack) := by
  rw [writeString_eq]
  exact writeChars_emit _ w ho (quoteText_writable s hs)

/-- A string with a byte the serializer rejects: the bytes before the first one
are written in their escaped form behind the opening quote, and `writeString`
returns false with the control-character error. -/
theorem writeString_rejected (s : List Nat) (w : JsonSAXWriter) (ho : w.isOpen = true)
    (hs : acceptsString s = false) :
    ∃ (before : List Nat) (c : Nat) (after : List Nat), s = before ++ c :: after
      ∧ acceptsString before = true ∧ (c ≤ 7 ∨ (14 ≤ c ∧ c ≤ 31) ∨ c = 127)
      ∧ JsonSAXWriter.writeString s w
        = (.false, { w.emit (34 :: before.flatMap JsonSAXWriter.escape) w.stack with _error := .ControlCharacterDetect }) := by
  have split : ∀ l : List Nat, acceptsString l = false →
      ∃ (before : List Nat) (c : Nat) (after : List Nat), l = before ++ c :: after
        ∧ acceptsString before = true ∧ (c ≤ 7 ∨ (14 ≤ c ∧ c ≤ 31) ∨ c = 127) := by
    intro l
    induction l with
    | nil => intro h; simp [acceptsString] at h
    | cons x l ih =>
        intro h
        by_cases hx : x ≤ 7 ∨ (14 ≤ x ∧ x ≤ 31) ∨ x = 127
        · exact ⟨[], x, l, rfl, by simp [acceptsString], hx⟩
        · have hl : acceptsString l = false := by
            by_contra hl
            have hl1 : acceptsString l = true := by simpa using hl
            have : acceptsString (x :: l) = true := by
              rw [acceptsString_iff] at hl1 ⊢
              intro c hc
              rcases List.mem_cons.mp hc with rfl | hc
              · exact hx
              · exact hl1 c hc
            rw [this] at h
            exact Bool.noConfusion h
          obtain ⟨before, c, after, h1, h2, h3⟩ := ih hl
          refine ⟨x :: before, c, after, by rw [h1]; rfl, ?_, h3⟩
          rw [acceptsString_iff] at h2 ⊢
          intro y hy
          rcases List.mem_cons.mp hy with rfl | hy
          · exact hx
          · exact h2 y hy
  obtain ⟨before, c, after, h1, h2, h3⟩ := split s hs
  refine ⟨before, c, after, h1, h2, h3, ?_⟩
  have hesc : JsonSAXWriter.escape c = [c] := by
    simp only [JsonSAXWriter.escape]
    rw [if_neg (by simp; omega), if_neg (by simp; omega), if_neg (by simp; omega),
      if_neg (by simp; omega), if_neg (by simp; omega), if_neg (by simp; omega),
      if_neg (by simp; omega), if_neg (by simp; omega)]
  have hctl : isControlCode c = true := by
    simp [isControlCode]; omega
  rw [writeString_eq, h1]
  have htext : 34 :: ((before ++ c :: after).flatMap JsonSAXWriter.escape ++ [34])
      = (34 :: before.flatMap JsonSAXWriter.escape)
          ++ c :: (after.flatMap JsonSAXWriter.escape ++ [34]) := by
    simp [List.flatMap_append, List.flatMap_cons, hesc]
  rw [htext]
  refine writeChars_control _ c _ w ho ?_ hctl
  intro x hx
  rcases List.mem_cons.mp hx with rfl | hx
  · decide
  · exact escape_writable before ((acceptsString_iff before).mp h2) x hx

theorem setTop_key_emit (w : JsonSAXWriter) (l : List Nat) (s : List Condition) :
    (fun w : JsonSAXWriter => ((Out.true, { w with stack := .ObjectKey :: w.stack.tail }) : Out × JsonSAXWriter)) (w.emit l s)
      = (.true, w.emit l (.ObjectKey :: s.tail)) := rfl

/-- `ObjectKey` where a key may stand, with a key the serializer accepts. -/
theorem ObjectKey_emit (key : List Nat) (w : JsonSAXWriter) (ho : w.isOpen = true)
    (hs : w.stack.head? = some .Object ∨ w.stack.head? = some .ObjectNextPair)
    (hk : acceptsString key = true) :
    ObjectKey key w
      = (.true, w.emit (keyPrefix w.beautiful w.stack ++ (quoteText key ++ [58]))
          (.ObjectKey :: w.stack.tail)) := by
  have h1 : (w.emit (keyPrefix w.beautiful w.stack) w.stack).isOpen = true := by
    rw [emit_isOpen]; exact ho
  simp only [ObjectKey, seq, checkBuffer_open w ho, checkIsObject_key_emit w ho hs,
    writeString_emit key _ h1 hk]
  rw [writeChar_emit 58 (by decide) _ (by rw [emit_isOpen]; exact h1)]
  simp only [emit_emit, List.append_assoc]
  rfl

/-- `ObjectKey` where a key may stand, with a key the serializer rejects. -/
theorem ObjectKey_rejected (key : List Nat) (w : JsonSAXWriter) (ho : w.isOpen = true)
    (hs : w.stack.head? = some .Object ∨ w.stack.head? = some .ObjectNextPair)
    (hk : acceptsString key = false) :
    ∃ (before : List Nat) (c : Nat) (after : List Nat), key = before ++ c :: after
      ∧ acceptsString before = true ∧ (c ≤ 7 ∨ (14 ≤ c ∧ c ≤ 31) ∨ c = 127)
      ∧ ObjectKey key w
        = (.false, { w.emit (keyPrefix w.beautiful w.stack
            ++ 34 :: before.flatMap JsonSAXWriter.escape) w.stack
              with _error := .ControlCharacterDetect }) := by
  have h1 : (w.emit (keyPrefix w.beautiful w.stack) w.stack).isOpen = true := by
    rw [emit_isOpen]; exact ho
  obtain ⟨before, c, after, hkey, hb, hc, hw⟩ := writeString_rejected key _ h1 hk
  refine ⟨before, c, after, hkey, hb, hc, ?_⟩
  simp only [ObjectKey, seq, checkBuffer_open w ho, checkIsObject_key_emit w ho hs, hw]
  simp only [emit_emit, emit_stack]

/-- `Value(string)` where a value may stand, with a string the serializer
accepts. -/
theorem ValueString_emit (value : List Nat) (w : JsonSAXWriter) (ho : w.isOpen = true)
    (hs : w.stack.head? = some .ObjectKey ∨ w.stack.head? = some .Array
      ∨ w.stack.head? = some .ArrayNextValue)
    (hv : acceptsString value = true) :
    ValueString value w
      = (.true, w.emit (valuePrefix w.beautiful w.stack ++ quoteText value)
          (advanced w.stack)) := by
  have h1 : (w.emit (valuePrefix w.beautiful w.stack) (advanced w.stack)).isOpen = true := by
    rw [emit_isOpen]; exact ho
  simp only [ValueString, seq, checkBuffer_open w ho, checkCorrectValue_emit w ho hs,
    writeString_emit value _ h1 hv]
  simp only [emit_emit, emit_stack]

/-- `Value(string)` where a value may stand, with a string the serializer
rejects. -/
theorem ValueString_rejected (value : List Nat) (w : JsonSAXWriter) (ho : w.isOpen = true)
    (hs : w.stack.head? = some .ObjectKey ∨ w.stack.head? = some .Array
      ∨ w.stack.head? = some .ArrayNextValue)
    (hv : acceptsString value = false) :
    ∃ (before : List Nat) (c : Nat) (after : List Nat), value = before ++ c :: after
      ∧ acceptsString before = true ∧ (c ≤ 7 ∨ (14 ≤ c ∧ c ≤ 31) ∨ c = 127)
      ∧ ValueString value w
        = (.false, { w.emit (valuePrefix w.beautiful w.stack
            ++ 34 :: before.flatMap JsonSAXWriter.escape) (advanced w.stack)
              with _error := .ControlCharacterDetect }) := by
  have h1 : (w.emit (valuePrefix w.beautiful w.stack) (advanced w.stack)).isOpen = true := by
    rw [emit_isOpen]; exact ho
  obtain ⟨before, c, after, hkey, hb, hc, hw⟩ := writeString_rejected value _ h1 hv
  refine ⟨before, c, after, hkey, hb, hc, ?_⟩
  simp only [ValueString, seq, checkBuffer_open w ho, checkCorrectValue_emit w ho hs, hw]
  simp only [emit_emit, emit_stack]

/-- `ObjectEnd` in an object, behind `{` or behind a pair. -/
theorem ObjectEnd_emit (w : JsonSAXWriter) (ho : w.isOpen = true)
    (hs : w.stack.head? = some .Object ∨ w.stack.head? = some .ObjectNextPair) :
    ObjectEnd w
      = (.true, w.emit (newlineText w.beautiful
          ++ (indentText w.beautiful (w.stack.length - 1) ++ [125])) w.stack.tail) := by
  have h1 : (w.emit (newlineText w.beautiful) w.stack).isOpen = true := by
    rw [emit_isOpen]; exact ho
  simp only [ObjectEnd, seq, checkBuffer_open w ho, newline_emit w ho,
    checkIsObject_end_emit _ h1 hs]
  rw [writeChar_emit 125 (by decide) _ (by rw [emit_isOpen]; exact h1)]
  simp only [emit_emit, emit_stack, emit_beautiful, pop_emit, List.append_assoc]

/-- `ArrayEnd` with a container open. -/
theorem ArrayEnd_emit (w : JsonSAXWriter) (ho : w.isOpen = true) (hs : w.stack ≠ []) :
    ArrayEnd w
      = (.true, w.emit (newlineText w.beautiful
          ++ (indentText w.beautiful (w.stack.length - 1) ++ [93])) w.stack.tail) := by
  obtain ⟨bf, e, buffer, stack⟩ := w
  cases stack with
  | nil => exact absurd rfl hs
  | cons c below =>
      have h0 : ({ beautiful := bf, _error := e, buffer := buffer, stack := below } : JsonSAXWriter).isOpen = true := ho
      cases bf with
      | true =>
          simp only [ArrayEnd, seq, checkBuffer_open _ ho, List.isEmpty_cons, Bool.false_eq_true,
            if_false, pop, List.tail_cons, if_true]
          rw [writeChar_emit 10 (by decide) _ h0]
          simp only []
          rw [writeSpace_emit _ _ (by rw [emit_isOpen]; exact h0)]
          simp only []
          rw [writeChar_emit 93 (by decide) _ (by rw [emit_isOpen, emit_isOpen]; exact h0)]
          simp only [emit_emit, emit_stack]
          simp [newlineText, indentText, JsonSAXWriter.emit]
      | false =>
          simp only [ArrayEnd, seq, checkBuffer_open _ ho, List.isEmpty_cons, Bool.false_eq_true,
            if_false, pop, List.tail_cons]
          rw [writeChar_emit 93 (by decide) _ h0]
          simp [newlineText, indentText, JsonSAXWriter.emit]


open JsonSAXWriter

/-- What `writeString` passes on for a byte it accepts is free of control bytes
and of the raw bytes that have a named escape. -/
theorem escape_clean (c : Nat) (hc : ¬ (c ≤ 7 ∨ (14 ≤ c ∧ c ≤ 31) ∨ c = 127)) :
    ∀ x ∈ JsonSAXWriter.escape c, ¬ (x ≤ 7 ∨ (14 ≤ x ∧ x ≤ 31) ∨ x = 127)
      ∧ x ≠ 8 ∧ x ≠ 9 ∧ x ≠ 10 ∧ x ≠ 12 ∧ x ≠ 13 := by
  intro x hx
  simp only [JsonSAXWriter.escape] at hx
  split_ifs at hx with h1 h2 h3 h4 h5 h6 h7 h8 <;>
    simp only [List.mem_cons, List.mem_singleton, List.not_mem_nil, or_false] at hx <;>
    simp only [beq_iff_eq] at * <;> omega

/-- The escaped form of a string the serializer accepts is free of control
bytes and of the raw bytes that have a named escape. -/
theorem escaped_clean (t : List Nat) (ht : acceptsString t = true) :
    ∀ x ∈ t.flatMap JsonSAXWriter.escape, ¬ (x ≤ 7 ∨ (14 ≤ x ∧ x ≤ 31) ∨ x = 127)
      ∧ x ≠ 8 ∧ x ≠ 9 ∧ x ≠ 10 ∧ x ≠ 12 ∧ x ≠ 13 := by
  intro x hx
  obtain ⟨c, hc, hxc⟩ := List.mem_flatMap.mp hx
  exact escape_clean c ((acceptsString_iff t).mp ht c hc) x hxc

/-- C24: a string used as a key or as a string value, on a writer whose sink
takes bytes: the call succeeds when the string has no byte of 0x00..0x07,
0x0E..0x1F, 0x7F and then writes the quoted, escaped string; it fails with the
control-character error when the string has such a byte, having written the
escaped form of the bytes before the first one; the escaped form never holds
such a byte nor a raw 0x08, 0x09, 0x0A, 0x0C, 0x0D, which are written as the
escapes `\b`, `\t`, `\n`, `\f`, `\r`. -/
theorem C24_control_byte_rejection (s : List Nat) (w : JsonSAXWriter) (ho : w.isOpen = true)
    (hkey : w.stack.head? = some .Object ∨ w.stack.head? = some .ObjectNextPair)
    (w' : JsonSAXWriter) (ho' : w'.isOpen = true)
    (hvalue : w'.stack.head? = some .ObjectKey ∨ w'.stack.head? = some .Array
      ∨ w'.stack.head? = some .ArrayNextValue) :
    (acceptsString s = false ↔ ∃ c ∈ s, c ≤ 7 ∨ (14 ≤ c ∧ c ≤ 31) ∨ c = 127)
    ∧ ((∃ w1, ObjectKey s w = (.false, w1) ∧ w1._error = .ControlCharacterDetect)
        ↔ acceptsString s = false)
    ∧ ((∃ w1, ValueString s w' = (.false, w1) ∧ w1._error = .ControlCharacterDetect)
        ↔ acceptsString s = false)
    ∧ (acceptsString s = true →
        ObjectKey s w
          = (.true, w.emit (keyPrefix w.beautiful w.stack ++ (quoteText s ++ [58]))
              (.ObjectKey :: w.stack.tail))
        ∧ ValueString s w'
          = (.true, w'.emit (valuePrefix w'.beautiful w'.stack ++ quoteText s)
              (advanced w'.stack)))
    ∧ (acceptsString s = false →
        (∃ (before : List Nat) (c : Nat) (after : List Nat), s = before ++ c :: after
          ∧ acceptsString before = true ∧ (c ≤ 7 ∨ (14 ≤ c ∧ c ≤ 31) ∨ c = 127)
          ∧ ObjectKey s w
            = (.false, { w.emit (keyPrefix w.beautiful w.stack
                ++ 34 :: before.flatMap JsonSAXWriter.escape) w.stack
                  with _error := .ControlCharacterDetect }))
        ∧ (∃ (before : List Nat) (c : Nat) (after : List Nat), s = before ++ c :: after
          ∧ acceptsString before = true ∧ (c ≤ 7 ∨ (14 ≤ c ∧ c ≤ 31) ∨ c = 127)
          ∧ ValueString s w'
            = (.false, { w'.emit (valuePrefix w'.beautiful w'.stack
                ++ 34 :: before.flatMap JsonSAXWriter.escape) (advanced w'.stack)
                  with _error := .ControlCharacterDetect })))
    ∧ (∀ t : List Nat, acceptsString t = true →
        ∀ x ∈ t.flatMap JsonSAXWriter.escape, ¬ (x ≤ 7 ∨ (14 ≤ x ∧ x ≤ 31) ∨ x = 127)
          ∧ x ≠ 8 ∧ x ≠ 9 ∧ x ≠ 10 ∧ x ≠ 12 ∧ x ≠ 13)
    ∧ JsonSAXWriter.escape 8 = [92, 98] ∧ JsonSAXWriter.escape 9 = [92, 116]
    ∧ JsonSAXWriter.escape 10 = [92, 110] ∧ JsonSAXWriter.escape 12 = [92, 102]
    ∧ JsonSAXWriter.escape 13 = [92, 114] := by
  have hiff : acceptsString s = false ↔ ∃ c ∈ s, c ≤ 7 ∨ (14 ≤ c ∧ c ≤ 31) ∨ c = 127 := by
    constructor
    · intro h
      by_contra hn
      have : acceptsString s = true := by
        rw [acceptsString_iff]
        intro c hc hbad
        exact hn ⟨c, hc, hbad⟩
      rw [this] at h
      exact Bool.noConfusion h
    · rintro ⟨c, hc, hbad⟩
      cases h : acceptsString s with
      | false => rfl
      | true => exact absurd hbad ((acceptsString_iff s).mp h c hc)
  refine ⟨hiff, ?_, ?_, ?_, ?_, escaped_clean, by decide, by decide, by decide, by decide,
    by decide⟩
  · constructor
    · rintro ⟨w1, hcall, _⟩
      cases h : acceptsString s with
      | false => rfl
      | true =>
          rw [ObjectKey_emit s w ho hkey h] at hcall
          exact Out.noConfusion (congrArg Prod.fst hcall)
    · intro h
      obtain ⟨before, c, after, _, _, _, hcall⟩ := ObjectKey_rejected s w ho hkey h
      exact ⟨_, hcall, rfl⟩
  · constructor
    · rintro ⟨w1, hcall, _⟩
      cases h : acceptsString s with
      | false => rfl
      | true =>
          rw [ValueString_emit s w' ho' hvalue h] at hcall
          exact Out.noConfusion (congrArg Prod.fst hcall)
    · intro h
      obtain ⟨before, c, after, _, _, _, hcall⟩ := ValueString_rejected s w' ho' hvalue h
      exact ⟨_, hcall, rfl⟩
  · intro h
    exact ⟨ObjectKey_emit s w ho hkey h, ValueString_emit s w' ho' hvalue h⟩
  · intro h
    exact ⟨ObjectKey_rejected s w ho hkey h, ValueString_rejected s w' ho' hvalue h⟩

/-- The key `a` followed by byte 0x01 and the value of bytes 0x08, 0x09, `a`:
the first is rejected behind `{"a`, the second is written as `"\b\ta"`. -/
theorem C24_control_byte_rejection_witness :
    ObjectKey [97, 1]
        { beautiful := false, _error := .empty, buffer := some JsonStringBufferWriter, stack := [.Object] }
      = (.false, { beautiful := false, _error := .ControlCharacterDetect, buffer := some { is_open := true, count := 2, json := [34, 97] }, stack := [.Object] })
    ∧ ValueString [8, 9, 97]
        { beautiful := false, _error := .empty, buffer := some JsonStringBufferWriter, stack := [.Array] }
      = (.true, { beautiful := false, _error := .empty, buffer := some { is_open := true, count := 7, json := [34, 92, 98, 92, 116, 97, 34] }, stack := [.ArrayNextValue] })
    ∧ (acceptsString [97, 1] = false ↔ ∃ c ∈ [97, 1], c ≤ 7 ∨ (14 ≤ c ∧ c ≤ 31) ∨ c = 127) :=
  ⟨by decide, by decide,
    (C24_control_byte_rejection [97, 1]
      { beautiful := false, _error := .empty, buffer := some JsonStringBufferWriter, stack := [.Object] }
      (by decide) (by decide)
      { beautiful := false, _error := .empty, buffer := some JsonStringBufferWriter, stack := [.Array] }
      (by decide) (by decide)).1⟩



/-- C28: a root whose tag is Empty, String, Double, LongLong, Bool or Null:
`write` returns false and leaves the writer and the sink as they were, the
overload with an output string returns false and leaves the string as it was,
and the overload that returns a string returns the empty string. -/
theorem C28_root_container (fuel : Nat) (h : Heap) (w : JsonWriter) (buffer : JsonBufferWriter)
    (json : JsonValue) (beautiful : Bool) (string : List Nat)
    (ht : h.type json = some .Empty ∨ h.type json = some .String
      ∨ h.type json = some .Double ∨ h.type json = some .LongLong
      ∨ h.type json = some .Bool ∨ h.type json = some .Null) :
    JsonWriter.write fuel h w buffer json beautiful = some (.false, w)
    ∧ JsonWriter.written fuel h w buffer json beautiful = some (.false, buffer)
    ∧ JsonWriter.writeInto fuel h w string json beautiful = some (.false, string)
    ∧ JsonWriter.writeText fuel h w json beautiful = some [] := by
  have hroot : (h.type json != some .Object && h.type json != some .Array) = true := by
    rcases ht with ht | ht | ht | ht | ht | ht <;> rw [ht] <;> decide
  have h1 : ∀ b : JsonBufferWriter,
      JsonWriter.written fuel h w b json beautiful = some (.false, b) := by
    intro b
    simp only [JsonWriter.written, hroot, if_true]
  have h2 : ∀ s : List Nat, JsonWriter.writeInto fuel h w s json beautiful = some (.false, s) := by
    intro s
    simp only [JsonWriter.writeInto, h1]
  refine ⟨?_, h1 buffer, h2 string, ?_⟩
  · simp only [JsonWriter.write, hroot, if_true]
  · simp only [JsonWriter.writeText, h2, Option.map_some']

/-- The value `"a"` as a root, on a heap with this one cell, with the string
`x` passed for the output. -/
theorem C28_root_container_witness :
    Heap.type { values := [.String [97]], maps := [], arrays := [] } { value := 0 } = some .String
    ∧ JsonWriter.write 5 { values := [.String [97]], maps := [], arrays := [] } JsonWriter.new
        JsonStringBufferWriter { value := 0 } false = some (.false, JsonWriter.new)
    ∧ JsonWriter.written 5 { values := [.String [97]], maps := [], arrays := [] } JsonWriter.new
        JsonStringBufferWriter { value := 0 } false = some (.false, JsonStringBufferWriter)
    ∧ JsonWriter.writeInto 5 { values := [.String [97]], maps := [], arrays := [] } JsonWriter.new
        [120] { value := 0 } false = some (.false, [120])
    ∧ JsonWriter.writeText 5 { values := [.String [97]], maps := [], arrays := [] } JsonWriter.new
        { value := 0 } false = some [] :=
  ⟨by decide,
    C28_root_container 5 { values := [.String [97]], maps := [], arrays := [] } JsonWriter.new
      JsonStringBufferWriter { value := 0 } false [120] (Or.inr (Or.inl (by decide)))⟩



/-- With a decimal point read, the cap applies at one loop index only: 15, or 16
behind a minus sign. -/
theorem capped_late (neg : Bool) (i : Nat) (hi : (if neg then 17 else 16) ≤ i) :
    capped neg 1 i = false := by
  cases neg <;>
    simp [capped, DOUBLE_MAX, NEGATIVE_DOUBLE_MAX, INTEGER_MAX, NEGATIVE_INTEGER_MAX] at hi ⊢ <;>
    omega

/-- Digits behind a decimal point that was read at loop index 15 or later (16 or
later behind a minus sign) are all taken, however many they are. -/
theorem readyNumberLoop_late (neg : Bool) (depth : List JsonReaderType) (n : Nat) :
    ∀ (pos : Int) (i : Nat) (temp : List Nat) (ch0 : Nat) (tail : List Nat),
      (if neg then 17 else 16) ≤ i →
      ∃ ch1, readyNumberLoop neg depth pos i 1 temp ch0 (List.replicate n 53 ++ tail)
        = readyNumberLoop neg depth (pos + n) (i + n) 1 (temp ++ List.replicate n 53) ch1
            tail := by
  induction n with
  | zero =>
      intro pos i temp ch0 tail _
      exact ⟨ch0, by simp⟩
  | succ n ih =>
      intro pos i temp ch0 tail hi
      obtain ⟨ch1, h1⟩ := ih (pos + 1) (i + 1) (temp ++ [53]) 53 tail (by omega)
      refine ⟨ch1, ?_⟩
      have hstep : numberStep neg depth i 1 53 = .digit :=
        numberStep_digit neg depth i 1 53 (by decide) (capped_late neg i hi)
      have hl : List.replicate (n + 1) 53 ++ tail = 53 :: (List.replicate n 53 ++ tail) := rfl
      rw [hl, readyNumberLoop, hstep]
      simp only []
      rw [h1]
      have e1 : pos + 1 + (n : Int) = pos + ((n + 1 : Nat) : Int) := by push_cast; ring
      have e2 : i + 1 + n = i + (n + 1) := by omega
      have e3 : temp ++ [53] ++ List.replicate n 53 = temp ++ List.replicate (n + 1) 53 := by
        rw [List.append_assoc]; rfl
      rw [e1, e2, e3]

/-- C29: the literal `1234567890123456.5` in an array, its decimal point the
17th character: the scan takes all 18 characters and ends on the bracket, the
document parses to one double value, and behind `1234567890123456.` any number
of digits is taken. -/
theorem C29_late_point_uncapped :
    readyNumberLoop false [.Array] 1 0 0 [49] 49 (inputC29.drop 2)
        = .ok { exit := true, «end» := .Array, points := 1, temp := [49, 50, 51, 52, 53, 54, 55, 56, 57, 48, 49, 50, 51, 52, 53, 54, 46, 53], ch := 93, depth := [] }
            { pos := 19, cur := 93, ahead := [] }
    ∧ ([49, 50, 51, 52, 53, 54, 55, 56, 57, 48, 49, 50, 51, 52, 53, 54, 46, 53] : List Nat).length = 18
    ∧ (parseEvents inputC29 .Single).map (fun r => (r.1, r.2.self))
        = some (.true, [.JsonBegin, .ArrayBegin, .ValueDouble { neg := false, mant := 4938271560493826, exp := -2 }, .ArrayEnd, .JsonEnd])
    ∧ (∀ i : Nat, capped false 1 (16 + i) = false)
    ∧ (∀ i : Nat, capped true 1 (17 + i) = false)
    ∧ (∀ n : Nat,
        readyNumberLoop false [.Array] 1 0 0 [49] 49
            ([50, 51, 52, 53, 54, 55, 56, 57, 48, 49, 50, 51, 52, 53, 54, 46]
              ++ (List.replicate n 53 ++ [93]))
          = .ok { exit := true, «end» := .Array, points := 1, temp := [49, 50, 51, 52, 53, 54, 55, 56, 57, 48, 49, 50, 51, 52, 53, 54, 46] ++ List.replicate n 53, ch := 93, depth := [] }
              { pos := 18 + n, cur := 93, ahead := [] }) := by
  refine ⟨by decide, rfl, by decide!, ?_, ?_, ?_⟩
  · intro i
    exact capped_late false (16 + i) (by simp)
  · intro i
    exact capped_late true (17 + i) (by simp)
  · intro n
    have h16 : readyNumberLoop false [.Array] 1 0 0 [49] 49
            ([50, 51, 52, 53, 54, 55, 56, 57, 48, 49, 50, 51, 52, 53, 54, 46]
              ++ (List.replicate n 53 ++ [93]))
          = readyNumberLoop false [.Array] 17 16 1
              [49, 50, 51, 52, 53, 54, 55, 56, 57, 48, 49, 50, 51, 52, 53, 54, 46] 46
              (List.replicate n 53 ++ [93]) := by
      simp [readyNumberLoop, numberStep, isControlCode, isspace, isdigit, capped, top,
        DOUBLE_MAX, INTEGER_MAX, JsonReaderType.code]
    obtain ⟨ch1, h1⟩ := readyNumberLoop_late false [.Array] n 17 16
      [49, 50, 51, 52, 53, 54, 55, 56, 57, 48, 49, 50, 51, 52, 53, 54, 46] 46 [93] (by simp)
    rw [h16, h1]
    have hstep : numberStep false [.Array] (16 + n) 1 93 = .leave .Array [] := by
      have := (numberStep_terminator false [.Array] (16 + n) 1 93 (by decide)).2.2.2 rfl
      rw [this]
      decide
    rw [readyNumberLoop, hstep]
    simp only [readyNumberLoop]
    congr 2
    omega


open JsonSAXWriter JsonWriter

theorem forget_iff (w w1 : JsonSAXWriter) :
    w1.forget = w.forget
      ↔ w1.beautiful = w.beautiful ∧ w1.buffer = w.buffer ∧ w1.stack = w.stack := by
  obtain ⟨b, e, bu, s⟩ := w
  obtain ⟨b1, e1, bu1, s1⟩ := w1
  simp [JsonSAXWriter.forget]

/-- A state that differs in the error text only is the state with another
error text. -/
theorem forget_eq (w w1 : JsonSAXWriter) (hf : w1.forget = w.forget) :
    w1 = { w with _error := w1._error } := by
  obtain ⟨h1, h2, h3⟩ := (forget_iff w w1).mp hf
  obtain ⟨b, e, bu, s⟩ := w
  obtain ⟨b1, e1, bu1, s1⟩ := w1
  simp only at h1 h2 h3
  subst h1 h2 h3
  rfl

theorem blind_of_error (a : Action)
    (ha : ∀ (w : JsonSAXWriter) (e : WriteError),
      (a { w with _error := e }).1 = (a w).1
        ∧ (a { w with _error := e }).2.forget = (a w).2.forget) : Blind a := by
  intro w w1 hf
  rw [forget_eq w w1 hf]
  exact ha w _

theorem blind_seq {a b : Action} (ha : Blind a) (hb : Blind b) : Blind (seq a b) := by
  intro w w1 hf
  obtain ⟨h1, h2⟩ := ha w w1 hf
  unfold JsonSAXWriter.seq
  cases hx : a w with
  | mk x v =>
      cases hy : a w1 with
      | mk y v1 =>
          rw [hx, hy] at h1 h2
          simp only at h1 h2
          subst h1
          cases y with
          | «true» => exact hb v v1 h2
          | «false» => exact ⟨rfl, h2⟩
          | undefined => exact ⟨rfl, h2⟩

theorem blind_skip : Blind JsonSAXWriter.skip := fun _ _ hf => ⟨rfl, hf⟩

theorem blind_failWith (e : WriteError) : Blind (JsonSAXWriter.failWith e) := by
  intro w w1 hf
  obtain ⟨h1, h2, h3⟩ := (forget_iff w w1).mp hf
  refine ⟨rfl, ?_⟩
  simp only [JsonSAXWriter.failWith, JsonSAXWriter.forget, h1, h2, h3]

theorem blind_at {a : Action} (ha : Blind a) (b : Bool) (e e0 : WriteError)
    (bu : Option JsonBufferWriter) (s : List Condition) :
    (a { beautiful := b, _error := e, buffer := bu, stack := s }).1
        = (a { beautiful := b, _error := e0, buffer := bu, stack := s }).1
      ∧ (a { beautiful := b, _error := e, buffer := bu, stack := s }).2.forget
        = (a { beautiful := b, _error := e0, buffer := bu, stack := s }).2.forget :=
  ha _ _ rfl

theorem blind_checkBuffer : Blind JsonSAXWriter.checkBuffer := by
  apply blind_of_error
  intro w e
  obtain ⟨b, e0, bu, s⟩ := w
  cases bu with
  | none => exact ⟨rfl, rfl⟩
  | some bf => exact ⟨rfl, rfl⟩

theorem blind_writeChar (ch : Nat) : Blind (JsonSAXWriter.writeChar ch) := by
  apply blind_of_error
  intro w e
  obtain ⟨b, e0, bu, s⟩ := w
  simp only [JsonSAXWriter.writeChar]
  by_cases hc : isControlCode ch = true
  · simp only [hc, if_true, JsonSAXWriter.failWith, JsonSAXWriter.forget, and_self]
  · simp only [hc, Bool.false_eq_true, if_false]
    cases bu with
    | none => exact ⟨rfl, rfl⟩
    | some bf =>
        simp only []
        cases hw : bf.write ch with
        | mk ok b1 =>
            cases ok <;> simp only [JsonSAXWriter.failWith, JsonSAXWriter.forget, and_self]

theorem blind_writeSpace (n : Nat) : Blind (JsonSAXWriter.writeSpace n) := by
  induction n with
  | zero => exact blind_skip
  | succ n ih => exact blind_seq (blind_writeChar 32) ih

theorem blind_writeChars (l : List Nat) : Blind (JsonSAXWriter.writeChars l) := by
  induction l with
  | nil => exact blind_skip
  | cons c l ih => exact blind_seq (blind_writeChar c) ih

theorem blind_separator : Blind JsonSAXWriter.separator := by
  apply blind_of_error
  intro w e
  obtain ⟨b, e0, bu, s⟩ := w
  cases b with
  | «false» =>
      exact blind_at (blind_seq (blind_writeChar 44) blind_skip) false e e0 bu s
  | «true» =>
      exact blind_at (blind_seq (blind_writeChar 44)
        (blind_seq (blind_writeChar 10) (blind_writeSpace (2 * s.length)))) true e e0 bu s

theorem blind_setStack (st : List Condition) :
    Blind (fun w => (Out.true, { w with stack := st })) := by
  apply blind_of_error
  intro w e
  exact ⟨rfl, rfl⟩

theorem blind_advance : Blind JsonSAXWriter.advance := by
  apply blind_of_error
  intro w e
  obtain ⟨b, e0, bu, s⟩ := w
  cases s with
  | nil => exact ⟨rfl, rfl⟩
  | cons c below =>
      cases c with
      | Object => exact ⟨rfl, rfl⟩
      | ObjectKey => exact ⟨rfl, rfl⟩
      | ObjectNextPair => exact ⟨rfl, rfl⟩
      | Array =>
          cases b with
          | «false» =>
              exact blind_at (blind_seq blind_skip (blind_setStack (.ArrayNextValue :: below)))
                false e e0 bu (.Array :: below)
          | «true» =>
              exact blind_at (blind_seq (blind_writeSpace (2 * (Condition.Array :: below).length))
                (blind_setStack (.ArrayNextValue :: below))) true e e0 bu (.Array :: below)
      | ArrayNextValue => exact blind_at blind_separator b e e0 bu (.ArrayNextValue :: below)

theorem blind_checkCorrectValue : Blind JsonSAXWriter.checkCorrectValue := by
  apply blind_of_error
  intro w e
  obtain ⟨b, e0, bu, s⟩ := w
  cases s with
  | nil => exact blind_at blind_advance b e e0 bu []
  | cons c below =>
      cases c with
      | Object => exact ⟨rfl, rfl⟩
      | ObjectNextPair => exact ⟨rfl, rfl⟩
      | ObjectKey => exact blind_at blind_advance b e e0 bu (.ObjectKey :: below)
      | Array => exact blind_at blind_advance b e e0 bu (.Array :: below)
      | ArrayNextValue => exact blind_at blind_advance b e e0 bu (.ArrayNextValue :: below)

theorem blind_containerEnd : Blind JsonSAXWriter.containerEnd := by
  apply blind_of_error
  intro w e
  obtain ⟨b, e0, bu, s⟩ := w
  cases s with
  | nil => exact ⟨rfl, rfl⟩
  | cons c below => exact blind_at blind_advance b e e0 bu (c :: below)

theorem blind_checkIsNotObject : Blind JsonSAXWriter.checkIsNotObject := by
  apply blind_of_error
  intro w e
  obtain ⟨b, e0, bu, s⟩ := w
  cases s with
  | nil => exact ⟨rfl, rfl⟩
  | cons c below => cases c <;> exact ⟨rfl, rfl⟩

theorem blind_checkIsObject (key «end» : Bool) :
    Blind (JsonSAXWriter.checkIsObject key «end») := by
  apply blind_of_error
  intro w e
  obtain ⟨b, e0, bu, s⟩ := w
  have hindent : ∀ st : List Condition,
      ((if b = true then
          JsonSAXWriter.writeSpace (if «end» = true then 2 * st.length - 2 else 2 * st.length)
            { beautiful := b, _error := e, buffer := bu, stack := st }
        else (Out.true, { beautiful := b, _error := e, buffer := bu, stack := st })).1
        = (if b = true then
          JsonSAXWriter.writeSpace (if «end» = true then 2 * st.length - 2 else 2 * st.length)
            { beautiful := b, _error := e0, buffer := bu, stack := st }
        else (Out.true, { beautiful := b, _error := e0, buffer := bu, stack := st })).1)
      ∧ ((if b = true then
          JsonSAXWriter.writeSpace (if «end» = true then 2 * st.length - 2 else 2 * st.length)
            { beautiful := b, _error := e, buffer := bu, stack := st }
        else (Out.true, { beautiful := b, _error := e, buffer := bu, stack := st })).2.forget
        = (if b = true then
          JsonSAXWriter.writeSpace (if «end» = true then 2 * st.length - 2 else 2 * st.length)
            { beautiful := b, _error := e0, buffer := bu, stack := st }
        else (Out.true, { beautiful := b, _error := e0, buffer := bu, stack := st })).2.forget) := by
    intro st
    cases b with
    | «false» => exact ⟨rfl, rfl⟩
    | «true» =>
        simp only [if_true]
        exact blind_at (blind_writeSpace _) true e e0 bu st
  cases s with
  | nil => exact ⟨rfl, rfl⟩
  | cons c below =>
      cases c with
      | Object => exact hindent (.Object :: below)
      | ObjectNextPair =>
          cases key with
          | «true» => exact blind_at blind_separator b e e0 bu (.ObjectNextPair :: below)
          | «false» => exact hindent (.ObjectNextPair :: below)
      | ObjectKey => exact ⟨rfl, rfl⟩
      | Array => exact ⟨rfl, rfl⟩
      | ArrayNextValue => exact ⟨rfl, rfl⟩

theorem blind_writeStringBody (l : List Nat) : Blind (JsonSAXWriter.writeStringBody l) := by
  induction l with
  | nil => exact blind_skip
  | cons c l ih => exact blind_seq (blind_writeChars _) ih

theorem blind_writeString (l : List Nat) : Blind (JsonSAXWriter.writeString l) :=
  blind_seq (blind_writeChar 34) (blind_seq (blind_writeStringBody l) (blind_writeChar 34))

theorem blind_push (c : Condition) : Blind (JsonSAXWriter.push c) := by
  apply blind_of_error
  intro w e
  exact ⟨rfl, rfl⟩

theorem blind_pop : Blind JsonSAXWriter.pop := by
  apply blind_of_error
  intro w e
  exact ⟨rfl, rfl⟩

theorem blind_newline : Blind JsonSAXWriter.newline := by
  apply blind_of_error
  intro w e
  obtain ⟨b, e0, bu, s⟩ := w
  cases b with
  | «false» => exact ⟨rfl, rfl⟩
  | «true» => exact blind_at (blind_writeChar 10) true e e0 bu s

theorem blind_ObjectBegin : Blind JsonSAXWriter.ObjectBegin :=
  blind_seq blind_checkBuffer (blind_seq blind_checkIsNotObject (blind_seq blind_containerEnd
    (blind_seq (blind_writeChar 123) (blind_seq blind_newline (blind_push .Object)))))

theorem blind_ArrayBegin : Blind JsonSAXWriter.ArrayBegin :=
  blind_seq blind_checkBuffer (blind_seq blind_checkIsNotObject (blind_seq blind_containerEnd
    (blind_seq (blind_writeChar 91) (blind_seq blind_newline (blind_push .Array)))))

theorem blind_ObjectKey (key : List Nat) : Blind (JsonSAXWriter.ObjectKey key) := by
  refine blind_seq blind_checkBuffer (blind_seq (blind_checkIsObject true false)
    (blind_seq (blind_writeString key) (blind_seq (blind_writeChar 58) ?_)))
  apply blind_of_error
  intro w e
  exact ⟨rfl, rfl⟩

theorem blind_ObjectEnd : Blind JsonSAXWriter.ObjectEnd :=
  blind_seq blind_checkBuffer (blind_seq blind_newline (blind_seq (blind_checkIsObject false true)
    (blind_seq (blind_writeChar 125) blind_pop)))

theorem blind_ArrayEnd : Blind JsonSAXWriter.ArrayEnd := by
  refine blind_seq blind_checkBuffer ?_
  apply blind_of_error
  intro w e
  obtain ⟨b, e0, bu, s⟩ := w
  cases s with
  | nil => exact ⟨rfl, rfl⟩
  | cons c below =>
      cases b with
      | «false» =>
          exact blind_at (blind_seq blind_pop (blind_seq blind_skip (blind_writeChar 93)))
            false e e0 bu (c :: below)
      | «true» =>
          exact blind_at (blind_seq blind_pop (blind_seq
            (blind_seq (blind_writeChar 10) (blind_writeSpace (2 * below.length)))
            (blind_writeChar 93))) true e e0 bu (c :: below)

theorem blind_ValueString (value : List Nat) : Blind (JsonSAXWriter.ValueString value) :=
  blind_seq blind_checkBuffer (blind_seq blind_checkCorrectValue (blind_writeString value))

theorem blind_ValueDouble (value : Double) : Blind (JsonSAXWriter.ValueDouble value) := by
  refine blind_seq blind_checkBuffer (blind_seq blind_checkCorrectValue ?_)
  cases hv : to_chars_double 18 value with
  | none => simp only []; exact blind_failWith _
  | some str => simp only []; exact blind_writeChars str

theorem blind_ValueLongLong (value : Int) : Blind (JsonSAXWriter.ValueLongLong value) := by
  refine blind_seq blind_checkBuffer (blind_seq blind_checkCorrectValue ?_)
  cases hv : to_chars_longlong 20 value with
  | none => simp only []; exact blind_failWith _
  | some str => simp only []; exact blind_writeChars str

theorem blind_ValueBool (value : Bool) : Blind (JsonSAXWriter.ValueBool value) := by
  refine blind_seq blind_checkBuffer (blind_seq blind_checkCorrectValue ?_)
  cases value
  · exact blind_writeChars _
  · exact blind_writeChars _

theorem blind_Null : Blind JsonSAXWriter.Null :=
  blind_seq blind_checkBuffer (blind_seq blind_checkCorrectValue (blind_writeChars _))

theorem blind_writeValue (h : Heap) (value : JsonValue) : Blind (writeValue h value) := by
  unfold JsonWriter.writeValue
  cases h.values[value.value]? with
  | none => exact blind_failWith _
  | some v =>
      cases v with
      | Empty => exact blind_failWith _
      | Object _ => exact blind_failWith _
      | Array _ => exact blind_failWith _
      | String s => exact blind_ValueString s
      | Double d => exact blind_ValueDouble d
      | LongLong n => exact blind_ValueLongLong n
      | Bool b => exact blind_ValueBool b
      | Null => exact blind_Null

theorem entry_blind (h : Heap) (stack : List (JsonValue × Variant)) (value : JsonValue)
    (act : Action) (he : entry h stack value = some act) : Blind act := by
  unfold entry at he
  by_cases hc : isContainer h value = true
  · simp only [hc, if_true] at he
    by_cases ho : onStack stack value = true
    · simp only [ho, if_true, Option.some.injEq] at he
      rw [← he]; exact blind_Null
    · simp only [ho, Bool.false_eq_true, if_false] at he
      exact Option.noConfusion he
  · simp only [hc, Bool.false_eq_true, if_false, Option.some.injEq] at he
    rw [← he]; exact blind_writeValue h value

theorem walkObject_forget (h : Heap) (stack : List (JsonValue × Variant)) :
    ∀ (l : List (List Nat × JsonValue)) (pos : Nat) (w w1 : JsonSAXWriter),
      w1.forget = w.forget →
      (walkObject h stack l pos w1).forget = (walkObject h stack l pos w).forget := by
  intro l
  induction l with
  | nil =>
      intro pos w w1 hf
      simp only [walkObject, Walk.forget, hf]
  | cons p rest ih =>
      intro pos w w1 hf
      obtain ⟨key, value⟩ := p
      obtain ⟨h1, h2⟩ := blind_ObjectKey key w w1 hf
      simp only [walkObject]
      cases hx : JsonSAXWriter.ObjectKey key w with
      | mk x v =>
          cases hy : JsonSAXWriter.ObjectKey key w1 with
          | mk y v1 =>
              rw [hx, hy] at h1 h2
              simp only at h1 h2
              subst h1
              cases y with
              | «false» => simp only [Walk.forget, h2]
              | undefined => simp only [Walk.forget, h2]
              | «true» =>
                  simp only []
                  cases he : entry h stack value with
                  | none => simp only [Walk.forget, h2]
                  | some act =>
                      simp only []
                      obtain ⟨h3, h4⟩ := entry_blind h stack value act he v v1 h2
                      cases hx2 : act v with
                      | mk x2 v2 =>
                          cases hy2 : act v1 with
                          | mk y2 v3 =>
                              rw [hx2, hy2] at h3 h4
                              simp only at h3 h4
                              subst h3
                              cases y2 with
                              | «false» => simp only [Walk.forget, h4]
                              | undefined => simp only [Walk.forget, h4]
                              | «true» => exact ih (pos + 1) v2 v3 h4

theorem walkArray_forget (h : Heap) (stack : List (JsonValue × Variant)) :
    ∀ (l : List JsonValue) (pos : Nat) (w w1 : JsonSAXWriter),
      w1.forget = w.forget →
      (walkArray h stack l pos w1).forget = (walkArray h stack l pos w).forget := by
  intro l
  induction l with
  | nil =>
      intro pos w w1 hf
      simp only [walkArray, Walk.forget, hf]
  | cons value rest ih =>
      intro pos w w1 hf
      simp only [walkArray]
      cases he : entry h stack value with
      | none => simp only [Walk.forget, hf]
      | some act =>
          simp only []
          obtain ⟨h3, h4⟩ := entry_blind h stack value act he w w1 hf
          cases hx2 : act w with
          | mk x2 v2 =>
              cases hy2 : act w1 with
              | mk y2 v3 =>
                  rw [hx2, hy2] at h3 h4
                  simp only at h3 h4
                  subst h3
                  cases y2 with
                  | «false» => simp only [Walk.forget, h4]
                  | undefined => simp only [Walk.forget, h4]
                  | «true» => exact ih (pos + 1) v2 v3 h4

/-- The writer with another error text in its serializer. -/
theorem writer_forget_eq (w w1 : JsonWriter) (hf : w1.forget = w.forget) :
    w1.stack = w.stack ∧ w1.sax.forget = w.sax.forget := by
  obtain ⟨s, st⟩ := w
  obtain ⟨s1, st1⟩ := w1
  simp only [JsonWriter.forget, JsonWriter.mk.injEq] at hf
  exact ⟨hf.2, hf.1⟩

theorem begin_forget (a : Action) (ha : Blind a) (c : Bool) (s s1 : JsonSAXWriter)
    (hf : s1.forget = s.forget) :
    (if c then a s1 else (Out.true, s1)).1 = (if c then a s else (Out.true, s)).1
      ∧ (if c then a s1 else (Out.true, s1)).2.forget
        = (if c then a s else (Out.true, s)).2.forget := by
  cases c
  · exact ⟨rfl, hf⟩
  · exact ha s s1 hf

/-- The body of a pass, for either kind of container: the begin call, the inner
loop, the end call. -/
theorem pass_body_forget (start finish : Action) (hb : Blind start) (he : Blind finish)
    (walk : JsonSAXWriter → Walk)
    (hwalk : ∀ s s1 : JsonSAXWriter, s1.forget = s.forget → (walk s1).forget = (walk s).forget)
    (c : Bool) (next : JsonValue → Nat → List (JsonValue × Variant))
    (stack below : List (JsonValue × Variant)) (s s1 : JsonSAXWriter)
    (hf : s1.forget = s.forget) :
    (match (if c then start s1 else (Out.true, s1)) with
      | (.true, t1) =>
          match walk t1 with
          | .failed out t2 => Pass.return out { sax := t2, stack := stack }
          | .child child pos t2 => Pass.continue { sax := t2, stack := next child pos }
          | .finished t2 =>
              match finish t2 with
              | (.true, t3) => Pass.continue { sax := t3, stack := below }
              | (out, t3) => Pass.return out { sax := t3, stack := stack }
      | (out, t1) => Pass.return out { sax := t1, stack := stack }).forget
    = (match (if c then start s else (Out.true, s)) with
      | (.true, t1) =>
          match walk t1 with
          | .failed out t2 => Pass.return out { sax := t2, stack := stack }
          | .child child pos t2 => Pass.continue { sax := t2, stack := next child pos }
          | .finished t2 =>
              match finish t2 with
              | (.true, t3) => Pass.continue { sax := t3, stack := below }
              | (out, t3) => Pass.return out { sax := t3, stack := stack }
      | (out, t1) => Pass.return out { sax := t1, stack := stack }).forget := by
  obtain ⟨h1, h2⟩ := begin_forget start hb c s s1 hf
  cases hx : (if c then start s else (Out.true, s)) with
  | mk x v =>
      cases hy : (if c then start s1 else (Out.true, s1)) with
      | mk y v1 =>
          rw [hx, hy] at h1 h2
          simp only at h1 h2
          subst h1
          cases y with
          | «false» => simp only [Pass.forget, JsonWriter.forget, h2]
          | undefined => simp only [Pass.forget, JsonWriter.forget, h2]
          | «true» =>
              simp only []
              have hw := hwalk v v1 h2
              cases hwx : walk v with
              | failed o s2 =>
                  cases hwy : walk v1 with
                  | failed o1 s3 =>
                      rw [hwx, hwy] at hw
                      simp only [Walk.forget, Walk.failed.injEq] at hw
                      simp only [Pass.forget, JsonWriter.forget, hw.1, hw.2]
                  | child c1 n1 s3 => rw [hwx, hwy] at hw; simp [Walk.forget] at hw
                  | finished s3 => rw [hwx, hwy] at hw; simp [Walk.forget] at hw
              | child c0 n0 s2 =>
                  cases hwy : walk v1 with
                  | failed o1 s3 => rw [hwx, hwy] at hw; simp [Walk.forget] at hw
                  | child c1 n1 s3 =>
                      rw [hwx, hwy] at hw
                      simp only [Walk.forget, Walk.child.injEq] at hw
                      simp only [Pass.forget, JsonWriter.forget, hw.1, hw.2.1, hw.2.2]
                  | finished s3 => rw [hwx, hwy] at hw; simp [Walk.forget] at hw
              | finished s2 =>
                  cases hwy : walk v1 with
                  | failed o1 s3 => rw [hwx, hwy] at hw; simp [Walk.forget] at hw
                  | child c1 n1 s3 => rw [hwx, hwy] at hw; simp [Walk.forget] at hw
                  | finished s3 =>
                      rw [hwx, hwy] at hw
                      simp only [Walk.forget, Walk.finished.injEq] at hw
                      simp only []
                      obtain ⟨h5, h6⟩ := he s2 s3 hw
                      cases hex : finish s2 with
                      | mk x3 v4 =>
                          cases hey : finish s3 with
                          | mk y3 v5 =>
                              rw [hex, hey] at h5 h6
                              simp only at h5 h6
                              subst h5
                              cases y3 <;> simp only [Pass.forget, JsonWriter.forget, h6]

theorem pass_forget (h : Heap) (value : JsonValue) (it : Variant)
    (below : List (JsonValue × Variant)) (w w1 : JsonWriter) (hf : w1.forget = w.forget) :
    (pass h value it below w1).forget = (pass h value it below w).forget := by
  obtain ⟨hst, hsx⟩ := writer_forget_eq w w1 hf
  unfold JsonWriter.pass
  simp only [hst]
  cases hv : h.values[value.value]? with
  | none =>
      exact pass_body_forget _ _ blind_ArrayBegin blind_ArrayEnd _
        (walkArray_forget h w.stack _ _) _ (fun child pos => (child, .monostate) :: (value, .vector pos) :: below)
        w.stack below w.sax w1.sax hsx
  | some cell =>
      cases cell with
      | Object map =>
          exact pass_body_forget _ _ blind_ObjectBegin blind_ObjectEnd _
            (walkObject_forget h w.stack _ _) _ (fun child pos => (child, .monostate) :: (value, .map pos) :: below)
            w.stack below w.sax w1.sax hsx
      | _ =>
          exact pass_body_forget _ _ blind_ArrayBegin blind_ArrayEnd _
            (walkArray_forget h w.stack _ _) _ (fun child pos => (child, .monostate) :: (value, .vector pos) :: below)
            w.stack below w.sax w1.sax hsx

theorem writeLoop_forget (h : Heap) (fuel : Nat) :
    ∀ (w w1 : JsonWriter), w1.forget = w.forget →
      (writeLoop h fuel w1).map (fun r => (r.1, r.2.forget))
        = (writeLoop h fuel w).map (fun r => (r.1, r.2.forget)) := by
  induction fuel with
  | zero => intro w w1 _; rfl
  | succ fuel ih =>
      intro w w1 hf
      obtain ⟨hst, hsx⟩ := writer_forget_eq w w1 hf
      simp only [writeLoop, hst]
      cases hs : w.stack with
      | nil => simp only [Option.map_some', hf]
      | cons p below =>
          obtain ⟨value, it⟩ := p
          simp only []
          have hp := pass_forget h value it below w w1 hf
          cases hx : pass h value it below w with
          | «continue» v =>
              cases hy : pass h value it below w1 with
              | «continue» v1 =>
                  rw [hx, hy] at hp
                  simp only [Pass.forget, Pass.continue.injEq] at hp
                  exact ih v v1 hp
              | «return» o v1 => rw [hx, hy] at hp; simp [Pass.forget] at hp
          | «return» o v =>
              cases hy : pass h value it below w1 with
              | «continue» v1 => rw [hx, hy] at hp; simp [Pass.forget] at hp
              | «return» o1 v1 =>
                  rw [hx, hy] at hp
                  simp only [Pass.forget, Pass.return.injEq] at hp
                  simp only [Option.map_some', hp.1, hp.2]

/-- What `write` leaves in the sink, with the flag, does not depend on the
writer it is called on. -/
theorem written_any (fuel : Nat) (h : Heap) (w w1 : JsonWriter) (buffer : JsonBufferWriter)
    (json : JsonValue) (beautiful : Bool) :
    JsonWriter.written fuel h w1 buffer json beautiful
      = JsonWriter.written fuel h w buffer json beautiful := by
  unfold JsonWriter.written JsonWriter.write
  by_cases hr : (h.type json != some .Object && h.type json != some .Array) = true
  · simp only [hr, if_true]
  · simp only [hr, Bool.false_eq_true, if_false]
    have hl := writeLoop_forget h fuel
      { sax := w.sax.setBuffer (some buffer) beautiful, stack := [(json, .monostate)] }
      { sax := w1.sax.setBuffer (some buffer) beautiful, stack := [(json, .monostate)] } rfl
    cases hx : writeLoop h fuel
        { sax := w.sax.setBuffer (some buffer) beautiful, stack := [(json, .monostate)] } with
    | none =>
        rw [hx] at hl
        cases hy : writeLoop h fuel
            { sax := w1.sax.setBuffer (some buffer) beautiful, stack := [(json, .monostate)] } with
        | none => rfl
        | some r1 => rw [hy] at hl; simp at hl
    | some r =>
        rw [hx] at hl
        cases hy : writeLoop h fuel
            { sax := w1.sax.setBuffer (some buffer) beautiful, stack := [(json, .monostate)] } with
        | none => rw [hy] at hl; simp at hl
        | some r1 =>
            rw [hy] at hl
            simp only [Option.map_some', Option.some.injEq, Prod.mk.injEq] at hl
            obtain ⟨ho, hw⟩ := hl
            obtain ⟨-, hsax⟩ := writer_forget_eq r.2 r1.2 hw
            have hb := ((forget_iff r.2.sax r1.2.sax).mp hsax).2.1
            obtain ⟨o, v⟩ := r
            obtain ⟨o1, v1⟩ := r1
            simp only at ho hb
            simp only [ho, hb]

/-- C27: what a call of `write` returns and what it leaves in the sink do not
depend on the state of the writer it is called on: the flag and the bytes are
the same from a new writer, from a writer that has written before, and from one
whose earlier write failed with containers open; likewise for the overloads that
fill or return a string; and the call returns, with a result that more passes of
its loop do not change. -/
theorem C27_idempotent_writing (h : Heap) (w w1 : JsonWriter) (buffer : JsonBufferWriter)
    (json : JsonValue) (beautiful : Bool) (string : List Nat) :
    (∀ fuel, JsonWriter.written fuel h w1 buffer json beautiful
        = JsonWriter.written fuel h w buffer json beautiful)
    ∧ (∀ fuel, JsonWriter.writeInto fuel h w1 string json beautiful
        = JsonWriter.writeInto fuel h w string json beautiful)
    ∧ (∀ fuel, JsonWriter.writeText fuel h w1 json beautiful
        = JsonWriter.writeText fuel h w json beautiful)
    ∧ (∃ fuel r, ∀ more,
        JsonWriter.written (fuel + more) h w buffer json beautiful = some r
        ∧ JsonWriter.written (fuel + more) h w1 buffer json beautiful = some r) := by
  refine ⟨fun fuel => written_any fuel h w w1 buffer json beautiful, ?_, ?_, ?_⟩
  · intro fuel
    simp only [JsonWriter.writeInto, written_any fuel h w w1 JsonStringBufferWriter json beautiful]
  · intro fuel
    simp only [JsonWriter.writeText, JsonWriter.writeInto,
      written_any fuel h w w1 JsonStringBufferWriter json beautiful]
  · by_cases hc : isContainer h json = true
    · obtain ⟨fuel, r, hr⟩ := writeLoop_halts h w buffer json beautiful hc
      have hroot : (h.type json != some .Object && h.type json != some .Array) = false := by
        unfold isContainer at hc
        cases ht : h.type json with
        | none => rw [ht] at hc; simp at hc
        | some t => rw [ht] at hc; cases t <;> simp at hc ⊢
      have hw : ∀ more, JsonWriter.written (fuel + more) h w buffer json beautiful
          = some (r.1, (r.2.sax.buffer).getD buffer) := by
        intro more
        simp only [JsonWriter.written, hroot, Bool.false_eq_true, if_false,
          write_eq _ h w buffer json beautiful hc, writeLoop_mono h fuel _ r hr more]
      refine ⟨fuel, _, fun more => ⟨hw more, ?_⟩⟩
      rw [written_any (fuel + more) h w w1 buffer json beautiful]
      exact hw more
    · have hroot : (h.type json != some .Object && h.type json != some .Array) = true := by
        unfold isContainer at hc
        cases ht : h.type json with
        | none => rfl
        | some t => rw [ht] at hc; cases t <;> simp at hc ⊢
      refine ⟨0, (.false, buffer), fun more => ?_⟩
      simp only [JsonWriter.written, hroot, if_true, and_self]




open JsonStringViewBufferReader

section
variable {σ : Type} {h : Hooks σ}

/-! ## Runs on the same input from another position -/

theorem makeError_kind (msg : Msg) (b : JsonStringViewBufferReader) :
    (makeError msg b).kind = some msg := rfl

theorem makeErrorCh_kind (msg : Msg) (ch : Nat) (b : JsonStringViewBufferReader) :
    (makeErrorCh msg ch b).kind = some msg := rfl

theorem shifted_iff (m m1 : Machine σ) :
    Shifted m m1 ↔ m1.buffer.cur = m.buffer.cur ∧ m1.buffer.ahead = m.buffer.ahead
      ∧ m1.depth = m.depth ∧ m1.self = m.self ∧ m1.stop = m.stop
      ∧ m1.error.kind = m.error.kind ∧ m1.errno = m.errno := by
  constructor
  · rintro ⟨pos, er, hk, rfl⟩
    exact ⟨rfl, rfl, rfl, rfl, rfl, hk, rfl⟩
  · rintro ⟨h1, h2, h3, h4, h5, h6, h7⟩
    refine ⟨m1.buffer.pos, m1.error, h6, ?_⟩
    obtain ⟨⟨p, c, a⟩, d, s, st, e, no⟩ := m
    obtain ⟨⟨p1, c1, a1⟩, d1, s1, st1, e1, no1⟩ := m1
    simp only at h1 h2 h3 h4 h5 h7
    subst h1 h2 h3 h4 h5 h7
    rfl

theorem Shifted.itself (m : Machine σ) : Shifted m m :=
  (shifted_iff m m).mpr ⟨rfl, rfl, rfl, rfl, rfl, rfl, rfl⟩

theorem Shifted.follow {m m1 m2 : Machine σ} (h1 : Shifted m m1) (h2 : Shifted m1 m2) :
    Shifted m m2 := by
  rw [shifted_iff] at h1 h2 ⊢
  obtain ⟨a1, a2, a3, a4, a5, a6, a7⟩ := h1
  obtain ⟨b1, b2, b3, b4, b5, b6, b7⟩ := h2
  exact ⟨b1.trans a1, b2.trans a2, b3.trans a3, b4.trans a4, b5.trans a5, b6.trans a6,
    b7.trans a7⟩

theorem Shifted.setAll {m m1 : Machine σ} (hs : Shifted m m1)
    (b b1 : JsonStringViewBufferReader) (hc : b1.cur = b.cur) (ha : b1.ahead = b.ahead)
    (d : List JsonReaderType) (e e1 : ErrorText) (hk : e1.kind = e.kind) :
    Shifted { m with buffer := b, depth := d, error := e }
      { m1 with buffer := b1, depth := d, error := e1 } := by
  rw [shifted_iff] at hs ⊢
  exact ⟨hc, ha, rfl, hs.2.2.2.1, hs.2.2.2.2.1, hk, hs.2.2.2.2.2.2⟩

theorem Shifted.setDepth {m m1 : Machine σ} (hs : Shifted m m1) (d : List JsonReaderType) :
    Shifted { m with depth := d } { m1 with depth := d } := by
  rw [shifted_iff] at hs ⊢
  exact ⟨hs.1, hs.2.1, rfl, hs.2.2.2.1, hs.2.2.2.2.1, hs.2.2.2.2.2⟩

theorem Shifted.setError {m m1 : Machine σ} (hs : Shifted m m1) (e e1 : ErrorText)
    (hk : e1.kind = e.kind) :
    Shifted { m with error := e } { m1 with error := e1 } := by
  rw [shifted_iff] at hs ⊢
  exact ⟨hs.1, hs.2.1, hs.2.2.1, hs.2.2.2.1, hs.2.2.2.2.1, hk, hs.2.2.2.2.2.2⟩

theorem call_shifted (e : Event) (m m1 : Machine σ) (hs : Shifted m m1) :
    ShiftedRet (call h e m) (call h e m1) := by
  obtain ⟨pos, er, hk, rfl⟩ := hs
  simp only [call, emit, Machine.repos]
  cases h e m.self with
  | none => exact ⟨rfl, pos, er, hk, rfl⟩
  | some p => exact ⟨rfl, pos, er, hk, rfl⟩

theorem readyStringLoop_shifted (ahead : List Nat) :
    ∀ (special : Bool) (temp : List Nat) (pos pos1 : Int),
      ShiftedReady (readyStringLoop special temp pos ahead)
        (readyStringLoop special temp pos1 ahead) := by
  induction ahead with
  | nil => intro special temp pos pos1; exact ⟨rfl, rfl, rfl⟩
  | cons ch ahead ih =>
      intro special temp pos pos1
      rw [readyStringLoop, readyStringLoop]
      cases hs : stringStep special ch <;> simp only []
      · exact ⟨rfl, rfl, rfl⟩
      · exact ⟨rfl, rfl, rfl⟩
      · exact ih _ _ _ _
      · exact ⟨rfl, rfl, rfl⟩
      · exact ih _ _ _ _

theorem readyString_shifted (temp : List Nat) (b b1 : JsonStringViewBufferReader)
    (ha : b1.ahead = b.ahead) : ShiftedReady (readyString temp b) (readyString temp b1) := by
  rw [readyString, readyString, ha]
  exact readyStringLoop_shifted _ _ _ _ _

theorem readyNumberLoop_shifted (neg : Bool) (depth : List JsonReaderType) (ahead : List Nat) :
    ∀ (pos pos1 : Int) (i points : Nat) (temp : List Nat) (ch0 : Nat),
      ShiftedReady (readyNumberLoop neg depth pos i points temp ch0 ahead)
        (readyNumberLoop neg depth pos1 i points temp ch0 ahead) := by
  induction ahead with
  | nil => intro pos pos1 i points temp ch0; exact ⟨rfl, rfl, rfl⟩
  | cons ch ahead ih =>
      intro pos pos1 i points temp ch0
      rw [readyNumberLoop, readyNumberLoop]
      cases hs : numberStep neg depth i points ch <;> simp only []
      · exact ⟨rfl, rfl, rfl⟩
      · exact ⟨rfl, rfl, rfl⟩
      · exact ih _ _ _ _ _ _
      · exact ih _ _ _ _ _ _

theorem readyValue_shifted (value : List Nat) :
    ∀ (b b1 : JsonStringViewBufferReader), b1.cur = b.cur → b1.ahead = b.ahead →
      ShiftedReady (readyValue value b) (readyValue value b1) := by
  induction value with
  | nil => intro b b1 hc ha; exact ⟨rfl, hc, ha⟩
  | cons v value ih =>
      intro b b1 hc ha
      obtain ⟨pos, cur, ahead⟩ := b
      obtain ⟨pos1, cur1, ahead1⟩ := b1
      simp only at hc ha
      subst hc ha
      rw [readyValue, readyValue]
      cases ahead1 with
      | nil => exact ⟨rfl, rfl, rfl⟩
      | cons ch rest =>
          simp only [JsonStringViewBufferReader.next, JsonStringViewBufferReader.value]
          by_cases hc : isControlCode ch = true
          · rw [if_pos hc, if_pos hc]; exact ⟨rfl, rfl, rfl⟩
          · rw [if_neg hc, if_neg hc]
            by_cases hv : (ch != v) = true
            · rw [if_pos hv, if_pos hv]; exact ⟨rfl, rfl, rfl⟩
            · rw [if_neg hv, if_neg hv]
              exact ih _ _ rfl rfl

theorem stringHook_shifted (E : List Nat → Event) (m m1 : Machine σ) (hs : Shifted m m1) :
    ShiftedRet
      (match readyString [] m.buffer with
        | .fail error buffer => (.false, { m with buffer := buffer, error := error })
        | .ok temp buffer => call h (E temp) { m with buffer := buffer })
      (match readyString [] m1.buffer with
        | .fail error buffer => (.false, { m1 with buffer := buffer, error := error })
        | .ok temp buffer => call h (E temp) { m1 with buffer := buffer }) := by
  have hs0 := (shifted_iff m m1).mp hs
  have hr := readyString_shifted [] m.buffer m1.buffer hs0.2.1
  cases hx : readyString [] m.buffer with
  | fail e b =>
      cases hy : readyString [] m1.buffer with
      | fail e1 b1 =>
          rw [hx, hy] at hr
          exact ⟨rfl, hs.setAll b b1 hr.2.1 hr.2.2 m.depth e e1 hr.1 |> fun t => by
            rw [shifted_iff] at t ⊢
            exact ⟨t.1, t.2.1, hs0.2.2.1, t.2.2.2.1, t.2.2.2.2.1, t.2.2.2.2.2⟩⟩
      | ok t1 b1 => rw [hx, hy] at hr; exact hr.elim
  | ok t b =>
      cases hy : readyString [] m1.buffer with
      | fail e1 b1 => rw [hx, hy] at hr; exact hr.elim
      | ok t1 b1 =>
          rw [hx, hy] at hr
          obtain ⟨ht, hc, ha⟩ := hr
          subst ht
          refine call_shifted _ _ _ ?_
          rw [shifted_iff]
          exact ⟨hc, ha, hs0.2.2.1, hs0.2.2.2.1, hs0.2.2.2.2.1, hs0.2.2.2.2.2⟩

theorem readyObjectKey_shifted (m m1 : Machine σ) (hs : Shifted m m1) :
    ShiftedRet (readyObjectKey h m) (readyObjectKey h m1) :=
  stringHook_shifted .ObjectKey m m1 hs

theorem readyStringValue_shifted (m m1 : Machine σ) (hs : Shifted m m1) :
    ShiftedRet (readyStringValue h m) (readyStringValue h m1) :=
  stringHook_shifted .ValueString m m1 hs

theorem numberValue_shifted (scan : NumberScan) (m m1 : Machine σ) (hs : Shifted m m1) :
    ShiftedRet (numberValue h scan m) (numberValue h scan m1) := by
  unfold numberValue
  by_cases h1p : (scan.points == 1) = true
  · simp only [h1p, if_true]
    have hno : m1.errno = m.errno := ((shifted_iff m m1).mp hs).2.2.2.2.2.2
    cases stod scan.temp with
    | none =>
        refine ⟨rfl, ?_⟩
        rw [shifted_iff] at hs ⊢
        exact ⟨hs.1, hs.2.1, hs.2.2.1, hs.2.2.2.1, hs.2.2.2.2.1, hs.2.2.2.2.2.1,
          congrArg (fun b => b || stodRange scan.temp) hno⟩
    | some v =>
        simp only []
        by_cases he : m.errno = true
        · rw [if_pos he, if_pos (hno.trans he)]
          exact ⟨rfl, hs.setError _ _ rfl⟩
        · rw [if_neg he, if_neg (fun hx => he (hno.symm.trans hx))]
          exact call_shifted _ _ _ hs
  · simp only [h1p, Bool.false_eq_true, if_false]
    by_cases h0p : (scan.points == 0) = true
    · simp only [h0p, if_true]
      cases from_chars scan.temp with
      | none => exact ⟨rfl, hs.setError _ _ rfl⟩
      | some v => exact call_shifted _ _ _ hs
    · simp only [h0p, Bool.false_eq_true, if_false]
      exact ⟨rfl, hs⟩

theorem numberEnd_shifted (scan : NumberScan) (r r1 : Ret × Machine σ)
    (hs : ShiftedRet r r1) : ShiftedRet (numberEnd h scan r) (numberEnd h scan r1) := by
  obtain ⟨x, m⟩ := r
  obtain ⟨x1, m1⟩ := r1
  obtain ⟨hx, hm⟩ := hs
  simp only at hx hm
  subst hx
  cases x1 with
  | «true» =>
      simp only [numberEnd]
      by_cases h1e : (scan.end == End.Object) = true
      · simp only [h1e, if_true]; exact call_shifted _ _ _ hm
      · simp only [h1e, Bool.false_eq_true, if_false]
        by_cases h2e : (scan.end == End.Array) = true
        · simp only [h2e, if_true]; exact call_shifted _ _ _ hm
        · simp only [h2e, Bool.false_eq_true, if_false]; exact ⟨rfl, hm⟩
  | «false» => exact ⟨rfl, hm⟩
  | thrown => exact ⟨rfl, hm⟩

theorem readyNumberEnd_shifted (scan : NumberScan) (m m1 : Machine σ) (hs : Shifted m m1) :
    ShiftedRet (readyNumberEnd h scan m) (readyNumberEnd h scan m1) := by
  unfold readyNumberEnd
  by_cases hx : (!scan.exit) = true
  · simp only [hx, if_true]; exact ⟨rfl, hs.setError _ _ rfl⟩
  · simp only [hx, Bool.false_eq_true, if_false]
    by_cases hn : (scan.end == End.None && !isspace scan.ch) = true
    · simp only [hn, if_true]; exact ⟨rfl, hs.setError _ _ rfl⟩
    · simp only [hn, Bool.false_eq_true, if_false]
      by_cases hp : (scan.temp.getLast? == some 46) = true
      · simp only [hp, if_true]; exact ⟨rfl, hs.setError _ _ rfl⟩
      · simp only [hp, Bool.false_eq_true, if_false]
        exact numberEnd_shifted scan _ _ (numberValue_shifted scan m m1 hs)

theorem readyNumber_shifted (digit : Nat) (m m1 : Machine σ) (hs : Shifted m m1) :
    ShiftedRet (readyNumber h digit m) (readyNumber h digit m1) := by
  have hs0 := (shifted_iff m m1).mp hs
  unfold readyNumber
  have hl := readyNumberLoop_shifted (digit == 45) m.depth m.buffer.ahead m.buffer.pos
    m1.buffer.pos 0 0 [digit] 0
  rw [hs0.2.1, hs0.2.2.1]
  cases hx : readyNumberLoop (digit == 45) m.depth m.buffer.pos 0 0 [digit] 0 m.buffer.ahead with
  | fail e b =>
      cases hy : readyNumberLoop (digit == 45) m.depth m1.buffer.pos 0 0 [digit] 0 m.buffer.ahead with
      | fail e1 b1 =>
          rw [hx, hy] at hl
          refine ⟨rfl, ?_⟩
          rw [shifted_iff]
          exact ⟨hl.2.1, hl.2.2, rfl, hs0.2.2.2.1, hs0.2.2.2.2.1, hl.1, hs0.2.2.2.2.2.2⟩
      | ok s1 b1 => rw [hx, hy] at hl; exact hl.elim
  | ok s b =>
      cases hy : readyNumberLoop (digit == 45) m.depth m1.buffer.pos 0 0 [digit] 0 m.buffer.ahead with
      | fail e1 b1 => rw [hx, hy] at hl; exact hl.elim
      | ok s1 b1 =>
          rw [hx, hy] at hl
          obtain ⟨hsc, hc, ha⟩ := hl
          subst hsc
          refine readyNumberEnd_shifted _ _ _ ?_
          rw [shifted_iff]
          exact ⟨hc, ha, rfl, hs0.2.2.2.1, hs0.2.2.2.2.1, hs0.2.2.2.2.2⟩

theorem readyKeyword_shifted (rest : List Nat) (e : Event) (m m1 : Machine σ)
    (hs : Shifted m m1) : ShiftedRet (readyKeyword h rest e m) (readyKeyword h rest e m1) := by
  have hs0 := (shifted_iff m m1).mp hs
  unfold readyKeyword
  have hr := readyValue_shifted rest m.buffer m1.buffer hs0.1 hs0.2.1
  cases hx : readyValue rest m.buffer with
  | fail er b =>
      cases hy : readyValue rest m1.buffer with
      | fail e1 b1 =>
          rw [hx, hy] at hr
          refine ⟨rfl, ?_⟩
          rw [shifted_iff]
          exact ⟨hr.2.1, hr.2.2, hs0.2.2.1, hs0.2.2.2.1, hs0.2.2.2.2.1, hr.1, hs0.2.2.2.2.2.2⟩
      | ok t1 b1 => rw [hx, hy] at hr; exact hr.elim
  | ok t b =>
      cases hy : readyValue rest m1.buffer with
      | fail e1 b1 => rw [hx, hy] at hr; exact hr.elim
      | ok t1 b1 =>
          rw [hx, hy] at hr
          refine call_shifted _ _ _ ?_
          rw [shifted_iff]
          exact ⟨hr.2.1, hr.2.2, hs0.2.2.1, hs0.2.2.2.1, hs0.2.2.2.2.1, hs0.2.2.2.2.2⟩

theorem ready_shifted (ch : Nat) (m m1 : Machine σ) (hs : Shifted m m1) :
    ShiftedRet (ready h ch m) (ready h ch m1) := by
  have hs0 := (shifted_iff m m1).mp hs
  unfold ready
  by_cases c1 : (ch == 123) = true
  · simp only [c1, if_true]
    refine call_shifted _ _ _ ?_
    rw [hs0.2.2.1]; exact hs.setDepth _
  simp only [c1, Bool.false_eq_true, if_false]
  by_cases c2 : (ch == 91) = true
  · simp only [c2, if_true]
    refine call_shifted _ _ _ ?_
    rw [hs0.2.2.1]; exact hs.setDepth _
  simp only [c2, Bool.false_eq_true, if_false]
  by_cases c3 : (ch == 34) = true
  · simp only [c3, if_true]; exact readyStringValue_shifted m m1 hs
  simp only [c3, Bool.false_eq_true, if_false]
  by_cases c4 : (ch == 45 || isdigit ch) = true
  · simp only [c4, if_true]; exact readyNumber_shifted ch m m1 hs
  simp only [c4, Bool.false_eq_true, if_false]
  by_cases c5 : (ch == 116) = true
  · simp only [c5, if_true]; exact readyKeyword_shifted _ _ m m1 hs
  simp only [c5, Bool.false_eq_true, if_false]
  by_cases c6 : (ch == 102) = true
  · simp only [c6, if_true]; exact readyKeyword_shifted _ _ m m1 hs
  simp only [c6, Bool.false_eq_true, if_false]
  by_cases c7 : (ch == 110) = true
  · simp only [c7, if_true]; exact readyKeyword_shifted _ _ m m1 hs
  simp only [c7, Bool.false_eq_true, if_false]
  exact ⟨rfl, hs.setError _ _ rfl⟩

end




open JsonStringViewBufferReader

section
variable {σ : Type} {h : Hooks σ}

theorem documentEnd_shifted (operation : Operation) (m m1 : Machine σ) (hs : Shifted m m1) :
    ShiftedStep (documentEnd h operation m) (documentEnd h operation m1) := by
  have hs0 := (shifted_iff m m1).mp hs
  unfold documentEnd
  rw [hs0.2.2.1]
  by_cases he : m.depth.isEmpty = true
  · simp only [he, if_true]
    have hc := call_shifted (h := h) .JsonEnd m m1 hs
    cases hx : call h .JsonEnd m with
    | mk r m2 =>
        cases hy : call h .JsonEnd m1 with
        | mk r1 m3 =>
            rw [hx, hy] at hc
            obtain ⟨hr, hm⟩ := hc
            simp only at hr hm
            subst hr
            cases r1 with
            | «true» =>
                simp only []
                by_cases h1o : (operation == Operation.Single) = true
                · simp only [h1o, if_true]; exact hm
                · simp only [h1o, Bool.false_eq_true, if_false]
                  rw [((shifted_iff m2 m3).mp hm).2.2.2.2.1]
                  by_cases hst : m2.stop = true
                  · simp only [hst, if_true]; exact hm
                  · simp only [hst, Bool.false_eq_true, if_false]; exact hm
            | «false» => exact ⟨rfl, hm⟩
            | thrown => exact ⟨rfl, hm⟩
  · simp only [he, Bool.false_eq_true, if_false]
    exact hs

theorem andThen_shifted (operation : Operation) (r r1 : Ret × Machine σ)
    (hs : ShiftedRet r r1) :
    ShiftedStep (andThen h operation r) (andThen h operation r1) := by
  obtain ⟨x, m⟩ := r
  obtain ⟨x1, m1⟩ := r1
  obtain ⟨hx, hm⟩ := hs
  simp only at hx hm
  subst hx
  cases x1 with
  | «true» => exact documentEnd_shifted operation m m1 hm
  | «false» => exact ⟨rfl, hm⟩
  | thrown => exact ⟨rfl, hm⟩

theorem close_shifted (e : Event) (m m1 : Machine σ) (hs : Shifted m m1) :
    ShiftedRet (close h e m) (close h e m1) := by
  unfold close
  rw [((shifted_iff m m1).mp hs).2.2.1]
  exact call_shifted e _ _ (hs.setDepth _)

theorem openDocument_shifted (t : JsonReaderType) (e : Event) (m m1 : Machine σ)
    (hs : Shifted m m1) : ShiftedRet (openDocument h t e m) (openDocument h t e m1) := by
  unfold openDocument
  have hc := call_shifted (h := h) .JsonBegin m m1 hs
  cases hx : call h .JsonBegin m with
  | mk r m2 =>
      cases hy : call h .JsonBegin m1 with
      | mk r1 m3 =>
          rw [hx, hy] at hc
          obtain ⟨hr, hm⟩ := hc
          simp only at hr hm
          subst hr
          cases r1 with
          | «true» =>
              simp only []
              rw [((shifted_iff m2 m3).mp hm).2.2.1]
              exact call_shifted e _ _ (hm.setDepth _)
          | «false» => exact ⟨rfl, hm⟩
          | thrown => exact ⟨rfl, hm⟩

theorem keyThenTop_shifted (m m1 : Machine σ) (hs : Shifted m m1) :
    ShiftedRet (keyThenTop h m) (keyThenTop h m1) := by
  unfold keyThenTop
  have hc := readyObjectKey_shifted (h := h) m m1 hs
  cases hx : readyObjectKey h m with
  | mk r m2 =>
      cases hy : readyObjectKey h m1 with
      | mk r1 m3 =>
          rw [hx, hy] at hc
          obtain ⟨hr, hm⟩ := hc
          simp only at hr hm
          subst hr
          cases r1 with
          | «true» =>
              simp only []
              rw [((shifted_iff m2 m3).mp hm).2.2.1]
              exact ⟨rfl, hm.setDepth _⟩
          | «false» => exact ⟨rfl, hm⟩
          | thrown => exact ⟨rfl, hm⟩

/-- One pass of the main loop from shifted states ends the same way, in
shifted states. -/
theorem parseBody_shifted (operation : Operation) (m m1 : Machine σ) (hs : Shifted m m1) :
    ShiftedStep (parseBody h operation m) (parseBody h operation m1) := by
  have hs0 := (shifted_iff m m1).mp hs
  have fail : ∀ (e e1 : ErrorText), e1.kind = e.kind →
      ShiftedStep (.return .false { m with error := e }) (.return .false { m1 with error := e1 }) :=
    fun e e1 hk => ⟨rfl, hs.setError e e1 hk⟩
  have same : ∀ (d : List JsonReaderType), Shifted { m with depth := d } { m1 with depth := d } :=
    fun d => hs.setDepth d
  have hcur := hs0.1
  have hdepth := hs0.2.2.1
  revert fail same
  obtain ⟨buffer, depth, self, stop, error, errno⟩ := m
  obtain ⟨buffer1, depth1, self1, stop1, error1⟩ := m1
  intro fail same
  simp only at hcur hdepth
  subst hdepth
  unfold parseBody
  simp only [JsonStringViewBufferReader.value, hcur]
  by_cases hsp : isspace buffer.cur = true
  · rw [if_pos hsp, if_pos hsp]; exact hs
  rw [if_neg hsp, if_neg hsp]
  by_cases hk : isControlCode buffer.cur = true
  · rw [if_pos hk, if_pos hk]; exact fail _ _ rfl
  rw [if_neg hk, if_neg hk]
  cases depth1 with
  | nil =>
      simp only []
      by_cases c1 : (buffer.cur == 123) = true
      · rw [if_pos c1, if_pos c1]
        exact andThen_shifted _ _ _ (openDocument_shifted _ _ _ _ hs)
      · rw [if_neg c1, if_neg c1]
        by_cases c2 : (buffer.cur == 91) = true
        · rw [if_pos c2, if_pos c2]
          exact andThen_shifted _ _ _ (openDocument_shifted _ _ _ _ hs)
        · rw [if_neg c2, if_neg c2]; exact fail _ _ rfl
  | cons t below =>
      cases t with
      | Object =>
          simp only []
          by_cases c1 : (buffer.cur == 34) = true
          · rw [if_pos c1, if_pos c1]
            exact andThen_shifted _ _ _ (keyThenTop_shifted _ _ hs)
          · rw [if_neg c1, if_neg c1]
            by_cases c2 : (buffer.cur == 125) = true
            · rw [if_pos c2, if_pos c2]
              exact andThen_shifted _ _ _ (close_shifted _ _ _ hs)
            · rw [if_neg c2, if_neg c2]; exact fail _ _ rfl
      | ObjectKey =>
          simp only []
          by_cases c1 : (buffer.cur == 58) = true
          · rw [if_pos c1, if_pos c1]
            exact documentEnd_shifted _ _ _ (same _)
          · rw [if_neg c1, if_neg c1]; exact fail _ _ rfl
      | ObjectValue =>
          simp only []
          exact andThen_shifted _ _ _ (ready_shifted _ _ _ (same _))
      | ObjectNextPair =>
          simp only []
          by_cases c1 : (buffer.cur == 44) = true
          · rw [if_pos c1, if_pos c1]
            exact documentEnd_shifted _ _ _ (same _)
          · rw [if_neg c1, if_neg c1]
            by_cases c2 : (buffer.cur == 125) = true
            · rw [if_pos c2, if_pos c2]
              exact andThen_shifted _ _ _ (close_shifted _ _ _ hs)
            · rw [if_neg c2, if_neg c2]; exact fail _ _ rfl
      | ObjectNextKey =>
          simp only []
          by_cases c1 : (buffer.cur == 34) = true
          · rw [if_pos c1, if_pos c1]
            exact andThen_shifted _ _ _ (keyThenTop_shifted _ _ hs)
          · rw [if_neg c1, if_neg c1]; exact fail _ _ rfl
      | Array =>
          simp only []
          by_cases c1 : (buffer.cur == 93) = true
          · rw [if_pos c1, if_pos c1]
            exact andThen_shifted _ _ _ (close_shifted _ _ _ hs)
          · rw [if_neg c1, if_neg c1]
            exact andThen_shifted _ _ _ (ready_shifted _ _ _ (same _))
      | ArrayNext =>
          simp only []
          by_cases c1 : (buffer.cur == 44) = true
          · rw [if_pos c1, if_pos c1]
            exact documentEnd_shifted _ _ _ (same _)
          · rw [if_neg c1, if_neg c1]
            by_cases c2 : (buffer.cur == 93) = true
            · rw [if_pos c2, if_pos c2]
              exact andThen_shifted _ _ _ (close_shifted _ _ _ hs)
            · rw [if_neg c2, if_neg c2]; exact fail _ _ rfl
      | ArrayNextValue =>
          simp only []
          exact andThen_shifted _ _ _ (ready_shifted _ _ _ (same _))

theorem parseEnd_shifted (m m1 : Machine σ) (hs : Shifted m m1) :
    ShiftedRet (parseEnd m) (parseEnd m1) := by
  have hd0 := ((shifted_iff m m1).mp hs).2.2.1
  unfold parseEnd
  by_cases hd : (!m.depth.isEmpty) = true
  · have hd1 : (!m1.depth.isEmpty) = true := by rw [hd0]; exact hd
    simp only [hd, hd1, if_true]; exact ⟨rfl, hs.setError _ _ rfl⟩
  · have hd1 : ¬ (!m1.depth.isEmpty) = true := by rw [hd0]; exact hd
    simp only [hd, hd1, Bool.false_eq_true, if_false]; exact ⟨rfl, hs⟩

/-- The loop from shifted states returns the same, in shifted states. -/
theorem parseLoop_shifted (operation : Operation) (fuel : Nat) :
    ∀ (m m1 : Machine σ), Shifted m m1 →
      match parseLoop h operation fuel m, parseLoop h operation fuel m1 with
      | some r, some r1 => ShiftedRet r r1
      | none, none => True
      | _, _ => False := by
  induction fuel with
  | zero => intro m m1 _; simp only [parseLoop]
  | succ fuel ih =>
      intro m m1 hs
      have hs0 := (shifted_iff m m1).mp hs
      rw [parseLoop, parseLoop]
      cases hx : m.buffer.ahead with
      | nil =>
          have hx1 : m1.buffer.ahead = [] := by rw [hs0.2.1, hx]
          rw [next_nil _ hx, next_nil _ hx1]
          simp only []
          refine parseEnd_shifted _ _ ?_
          rw [shifted_iff]
          exact ⟨rfl, rfl, hs0.2.2.1, hs0.2.2.2.1, hs0.2.2.2.2.1, hs0.2.2.2.2.2⟩
      | cons ch rest =>
          have hx1 : m1.buffer.ahead = ch :: rest := by rw [hs0.2.1, hx]
          rw [next_cons _ ch rest hx, next_cons _ ch rest hx1]
          simp only []
          have hb := parseBody_shifted (h := h) operation
            { m with buffer := { pos := m.buffer.pos + 1, cur := ch, ahead := rest } }
            { m1 with buffer := { pos := m1.buffer.pos + 1, cur := ch, ahead := rest } }
            ((shifted_iff _ _).mpr ⟨rfl, rfl, hs0.2.2.1, hs0.2.2.2.1, hs0.2.2.2.2.1, hs0.2.2.2.2.2⟩)
          cases hp : parseBody h operation { m with buffer := { pos := m.buffer.pos + 1, cur := ch, ahead := rest } } with
          | «continue» m2 =>
              cases hp1 : parseBody h operation { m1 with buffer := { pos := m1.buffer.pos + 1, cur := ch, ahead := rest } } with
              | «continue» m3 =>
                  rw [hp, hp1] at hb
                  exact ih m2 m3 hb
              | «break» m3 => rw [hp, hp1] at hb; exact hb.elim
              | «return» r m3 => rw [hp, hp1] at hb; exact hb.elim
          | «break» m2 =>
              cases hp1 : parseBody h operation { m1 with buffer := { pos := m1.buffer.pos + 1, cur := ch, ahead := rest } } with
              | «continue» m3 => rw [hp, hp1] at hb; exact hb.elim
              | «break» m3 =>
                  rw [hp, hp1] at hb
                  exact parseEnd_shifted _ _ hb
              | «return» r m3 => rw [hp, hp1] at hb; exact hb.elim
          | «return» r m2 =>
              cases hp1 : parseBody h operation { m1 with buffer := { pos := m1.buffer.pos + 1, cur := ch, ahead := rest } } with
              | «continue» m3 => rw [hp, hp1] at hb; exact hb.elim
              | «break» m3 => rw [hp, hp1] at hb; exact hb.elim
              | «return» r1 m3 =>
                  rw [hp, hp1] at hb
                  exact ⟨hb.1, hb.2⟩

/-- The run from shifted states returns the same flag, in shifted states: the
same hook calls were made and the error is of the same kind. -/
theorem parseFrom_shifted (operation : Operation) (m m1 : Machine σ) (hs : Shifted m m1) :
    ∃ r r1, parseFrom h operation m = some r ∧ parseFrom h operation m1 = some r1
      ∧ ShiftedRet r r1 := by
  have hl := parseLoop_shifted (h := h) operation (m.buffer.ahead.length + 1) m m1 hs
  have ha : m1.buffer.ahead = m.buffer.ahead := ((shifted_iff m m1).mp hs).2.1
  obtain ⟨r, hr⟩ := parseFrom_isSome h operation m
  unfold parseFrom at hr ⊢
  rw [ha]
  rw [hr] at hl
  cases hy : parseLoop h operation (m.buffer.ahead.length + 1) m1 with
  | none => rw [hy] at hl; exact hl.elim
  | some r1 =>
      rw [hy] at hl
      exact ⟨r, r1, hr, rfl, hl⟩

end




open JsonStringViewBufferReader

section
variable {σ : Type} {h : Hooks σ}

/-! ## A numeric literal and the byte behind it -/

theorem isNumberChar_iff (c : Nat) :
    isNumberChar c = true ↔ (48 ≤ c ∧ c ≤ 57) ∨ c = 45 ∨ c = 43 ∨ c = 46 ∨ c = 101 := by
  simp only [isNumberChar, Bool.or_eq_true, beq_iff_eq, isdigit_iff]
  tauto

theorem numberChar_writable (c : Nat) (hc : isNumberChar c = true) : isControlCode c = false := by
  rw [isNumberChar_iff] at hc
  simp only [isControlCode, Bool.or_eq_false_iff, Bool.and_eq_false_imp, decide_eq_false_iff_not,
    decide_eq_true_eq, beq_eq_false_iff_ne]
  omega

theorem digit_numberChar (c : Nat) (hc : isdigit c = true) : isNumberChar c = true := by
  rw [isNumberChar_iff]; exact Or.inl ((isdigit_iff c).mp hc)

/-- On a byte that can stand in the text of a number the loop of `readyNumber`
stops at the cap, reports an error, or takes the byte. -/
theorem numberStep_literal (neg : Bool) (depth : List JsonReaderType) (i points c : Nat)
    (hc : isNumberChar c = true) :
    numberStep neg depth i points c = .leave .None depth
      ∨ (∃ msg, numberStep neg depth i points c = .error msg)
      ∨ numberStep neg depth i points c = .point
      ∨ numberStep neg depth i points c = .digit := by
  have hr := (isNumberChar_iff c).mp hc
  have h1 : isControlCode c = false := numberChar_writable c hc
  have h2 : isspace c = false := by
    cases hs : isspace c with
    | false => rfl
    | true => rw [isspace_iff] at hs; omega
  have h3 : (c == 44) = false := by simp; omega
  have h4 : (c == 125) = false := by simp; omega
  have h5 : (c == 93) = false := by simp; omega
  unfold numberStep
  simp only [h1, h2, h3, h4, h5, Bool.false_eq_true, if_false]
  by_cases hcap : capped neg points i = true
  · simp only [hcap, if_true, true_or]
  · simp only [hcap, Bool.false_eq_true, if_false]
    by_cases hp : (c == 46) = true
    · simp only [hp, if_true]
      by_cases hq : (points == 1 || (neg && i == 0)) = true
      · simp only [hq, if_true]
        exact Or.inr (Or.inl ⟨_, rfl⟩)
      · simp only [hq, Bool.false_eq_true, if_false, reduceCtorEq, or_true, true_or, false_or]
    · simp only [hp, Bool.false_eq_true, if_false]
      by_cases hd : isdigit c = true
      · simp only [hd, Bool.not_true, Bool.false_eq_true, if_false, or_true]
      · have hd1 : isdigit c = false := by simpa using hd
        simp only [hd1, Bool.not_false, if_true]
        exact Or.inr (Or.inl ⟨_, rfl⟩)

/-- The loop of `readyNumber` over the bytes of a literal does not look at what
follows them: it goes through them all, or fails on one of them, or stops on
one of them at the cap. -/
theorem readyNumberLoop_literal (neg : Bool) (depth : List JsonReaderType) (lit : List Nat)
    (hlit : ∀ c ∈ lit, isNumberChar c = true) :
    ∀ (pos : Int) (i points : Nat) (temp : List Nat) (ch0 : Nat),
      (∃ (i1 points1 : Nat) (temp1 : List Nat) (ch1 : Nat), ∀ tail : List Nat,
          readyNumberLoop neg depth pos i points temp ch0 (lit ++ tail)
            = readyNumberLoop neg depth (pos + lit.length) i1 points1 temp1 ch1 tail)
      ∨ (∃ (e : ErrorText) (p : Int) (c : Nat) (tl : List Nat), ∀ tail : List Nat,
          readyNumberLoop neg depth pos i points temp ch0 (lit ++ tail)
            = .fail e { pos := p, cur := c, ahead := tl ++ tail })
      ∨ (∃ (points1 : Nat) (temp1 : List Nat) (p : Int) (c : Nat) (tl : List Nat),
          isspace c = false ∧ ∀ tail : List Nat,
          readyNumberLoop neg depth pos i points temp ch0 (lit ++ tail)
            = .ok { exit := true, «end» := .None, points := points1, temp := temp1, ch := c,
                    depth := depth } { pos := p, cur := c, ahead := tl ++ tail }) := by
  induction lit with
  | nil =>
      intro pos i points temp ch0
      exact Or.inl ⟨i, points, temp, ch0, fun tail => by simp⟩
  | cons c lit ih =>
      intro pos i points temp ch0
      have hc := hlit c (List.mem_cons_self _ _)
      have hl : ∀ x ∈ lit, isNumberChar x = true :=
        fun x hx => hlit x (List.mem_cons_of_mem _ hx)
      have hsp : isspace c = false := by
        cases hs : isspace c with
        | false => rfl
        | true =>
            rw [isspace_iff] at hs
            rw [isNumberChar_iff] at hc
            omega
      have hlen : pos + 1 + (lit.length : Int) = pos + ((c :: lit).length : Int) := by
        simp only [List.length_cons]; push_cast; ring
      rcases numberStep_literal neg depth i points c hc with hs | ⟨msg, hs⟩ | hs | hs
      · refine Or.inr (Or.inr ⟨points, temp, pos + 1, c, lit, hsp, fun tail => ?_⟩)
        rw [List.cons_append, readyNumberLoop, hs]
      · refine Or.inr (Or.inl ⟨makeError msg { pos := pos + 1, cur := c, ahead := [] },
          pos + 1, c, lit, fun tail => ?_⟩)
        rw [List.cons_append, readyNumberLoop, hs]
        rfl
      · rcases ih hl (pos + 1) (i + 1) (points + 1) (temp ++ [c]) c with
          ⟨i1, p1, t1, c1, hgo⟩ | ⟨e, p, x, tl, hfail⟩ | ⟨p1, t1, p, x, tl, hx, hstop⟩
        · refine Or.inl ⟨i1, p1, t1, c1, fun tail => ?_⟩
          rw [List.cons_append, readyNumberLoop, hs]
          simp only []
          rw [hgo tail, hlen]
        · refine Or.inr (Or.inl ⟨e, p, x, tl, fun tail => ?_⟩)
          rw [List.cons_append, readyNumberLoop, hs]
          exact hfail tail
        · refine Or.inr (Or.inr ⟨p1, t1, p, x, tl, hx, fun tail => ?_⟩)
          rw [List.cons_append, readyNumberLoop, hs]
          exact hstop tail
      · rcases ih hl (pos + 1) (i + 1) points (temp ++ [c]) c with
          ⟨i1, p1, t1, c1, hgo⟩ | ⟨e, p, x, tl, hfail⟩ | ⟨p1, t1, p, x, tl, hx, hstop⟩
        · refine Or.inl ⟨i1, p1, t1, c1, fun tail => ?_⟩
          rw [List.cons_append, readyNumberLoop, hs]
          simp only []
          rw [hgo tail, hlen]
        · refine Or.inr (Or.inl ⟨e, p, x, tl, fun tail => ?_⟩)
          rw [List.cons_append, readyNumberLoop, hs]
          exact hfail tail
        · refine Or.inr (Or.inr ⟨p1, t1, p, x, tl, hx, fun tail => ?_⟩)
          rw [List.cons_append, readyNumberLoop, hs]
          exact hstop tail

/-- The conversion of the scanned text reads the text and the number of points
only, and changes the state of the derived class, `stop` and the error text
only. -/
theorem numberValue_loose (scan scan1 : NumberScan) (hp : scan1.points = scan.points)
    (ht : scan1.temp = scan.temp) (m m1 : Machine σ) (hself : m1.self = m.self)
    (hstop : m1.stop = m.stop) (hk : m1.error.kind = m.error.kind)
    (hno : m1.errno = m.errno) :
    (numberValue h scan1 m1).1 = (numberValue h scan m).1
      ∧ (numberValue h scan1 m1).2.self = (numberValue h scan m).2.self
      ∧ (numberValue h scan1 m1).2.stop = (numberValue h scan m).2.stop
      ∧ (numberValue h scan1 m1).2.error.kind = (numberValue h scan m).2.error.kind
      ∧ (numberValue h scan1 m1).2.errno = (numberValue h scan m).2.errno := by
  unfold numberValue
  rw [hp, ht]
  have hcall : ∀ e : Event, (call h e m1).1 = (call h e m).1
      ∧ (call h e m1).2.self = (call h e m).2.self
      ∧ (call h e m1).2.stop = (call h e m).2.stop
      ∧ (call h e m1).2.error.kind = (call h e m).2.error.kind
      ∧ (call h e m1).2.errno = (call h e m).2.errno := by
    intro e
    simp only [call, emit, hself]
    cases h e m.self with
    | none => simp [hself, hstop, hk, hno]
    | some p => simp [hstop, hk, hno]
  by_cases h1p : (scan.points == 1) = true
  · simp only [h1p, if_true]
    cases stod scan.temp with
    | none => exact ⟨rfl, hself, hstop, hk, congrArg (fun b => b || stodRange scan.temp) hno⟩
    | some v =>
        simp only []
        by_cases he : m.errno = true
        · rw [if_pos he, if_pos (hno.trans he)]
          exact ⟨rfl, hself, hstop, rfl, hno⟩
        · rw [if_neg he, if_neg (fun hx => he (hno.symm.trans hx))]
          exact hcall _
  · simp only [h1p, Bool.false_eq_true, if_false]
    by_cases h0p : (scan.points == 0) = true
    · simp only [h0p, if_true]
      cases from_chars scan.temp with
      | none => exact ⟨rfl, hself, hstop, rfl, hno⟩
      | some v => exact hcall _
    · rw [if_neg h0p, if_neg h0p]
      exact ⟨rfl, hself, hstop, hk, hno⟩

end




open JsonStringViewBufferReader

section
variable {σ : Type} {h : Hooks σ}

/-- How the run goes on behind a pass, from two passes that ended the same way
in shifted states. -/
theorem run_shifted (operation : Operation) (s s1 : Step σ) (hs : ShiftedStep s s1) :
    ∃ r r1,
      (match s with
        | .continue m1 => parseFrom h operation m1
        | .break m1 => some (parseEnd m1)
        | .return r m1 => some (r, m1)) = some r
      ∧ (match s1 with
        | .continue m1 => parseFrom h operation m1
        | .break m1 => some (parseEnd m1)
        | .return r m1 => some (r, m1)) = some r1
      ∧ ShiftedRet r r1 := by
  cases s with
  | «continue» m =>
      cases s1 with
      | «continue» m1 => exact parseFrom_shifted operation m m1 hs
      | «break» m1 => exact hs.elim
      | «return» x m1 => exact hs.elim
  | «break» m =>
      cases s1 with
      | «continue» m1 => exact hs.elim
      | «break» m1 => exact ⟨_, _, rfl, rfl, parseEnd_shifted m m1 hs⟩
      | «return» x m1 => exact hs.elim
  | «return» x m =>
      cases s1 with
      | «continue» m1 => exact hs.elim
      | «break» m1 => exact hs.elim
      | «return» x1 m1 => exact ⟨_, _, rfl, rfl, hs.1, hs.2⟩

/-- The number lexer on a literal that is followed by `,` or by the bracket
that closes the enclosing container, and on the same literal followed by a
space: both reject the literal, with the same error, or both convert it and
call the same value hook; the first then sets the state for the separator or
calls the end hook, the second leaves that to the main loop. -/
theorem readyNumber_terminator (d : Nat) (lit : List Nat) (t : Nat) (rest : List Nat)
    (top1 : JsonReaderType) (below : List JsonReaderType) (m : Machine σ)
    (hdepth : m.depth = top1 :: below)
    (hlit : ∀ c ∈ lit, isNumberChar c = true)
    (ht : t = 44 ∨ (t = 125 ∧ top1 = .ObjectNextPair) ∨ (t = 93 ∧ top1 = .ArrayNext))
    (htop : top1 = .ObjectNextPair ∨ top1 = .ArrayNext) :
    ∃ (x : Ret) (mA mB : Machine σ),
      mB.self = mA.self ∧ mB.stop = mA.stop
      ∧ (mB.error.kind = mA.error.kind ∧ mB.errno = mA.errno)
      ∧ ((x ≠ .true
          ∧ readyNumber h d { m with buffer := { m.buffer with ahead := lit ++ t :: rest } }
              = (x, mA)
          ∧ readyNumber h d { m with buffer := { m.buffer with ahead := lit ++ 32 :: t :: rest } }
              = (x, mB))
        ∨ (∃ p : Int, mA.buffer = { pos := p, cur := t, ahead := rest }
            ∧ mB.buffer = { pos := p, cur := 32, ahead := t :: rest }
            ∧ mA.depth = (if t = 44 then
                (if top1 = .ObjectNextPair then .ObjectNextKey else .ArrayNextValue) :: below
              else below)
            ∧ mB.depth = top1 :: below
            ∧ readyNumber h d { m with buffer := { m.buffer with ahead := lit ++ 32 :: t :: rest } }
                = (.true, mB)
            ∧ readyNumber h d { m with buffer := { m.buffer with ahead := lit ++ t :: rest } }
                = (if t = 125 then call h .ObjectEnd mA
                   else if t = 93 then call h .ArrayEnd mA else (.true, mA)))) := by
  obtain ⟨buffer, depth, self, stop, error, errno⟩ := m
  simp only at hdepth
  subst hdepth
  simp only [readyNumber]
  rcases readyNumberLoop_literal (d == 45) (top1 :: below) lit hlit buffer.pos 0 0 [d] 0 with
    ⟨i1, p1, t1, c1, hgo⟩ | ⟨e, p, c, tl, hfail⟩ | ⟨p1, t1, p, c, tl, hc, hstop⟩
  · -- the scan reaches the byte behind the literal
    rw [hgo (t :: rest), hgo (32 :: t :: rest)]
    have hB : numberStep (d == 45) (top1 :: below) i1 p1 32 = .leave .None (top1 :: below) :=
      (numberStep_terminator (d == 45) (top1 :: below) i1 p1 32 (by decide)).1 (by decide)
    have hctl : isControlCode t = false := by
      rcases ht with ht | ⟨ht, -⟩ | ⟨ht, -⟩ <;> rw [ht] <;> decide
    have hA : ∃ (e : End) (dA : List JsonReaderType),
        numberStep (d == 45) (top1 :: below) i1 p1 t = .leave e dA
        ∧ e ≠ .None
        ∧ dA = (if t = 44 then
                (if top1 = .ObjectNextPair then .ObjectNextKey else .ArrayNextValue) :: below
              else below)
        ∧ (t = 125 → e = .Object) ∧ (t = 93 → e = .Array) ∧ (t = 44 → e = .Separator) := by
      have hterm := numberStep_terminator (d == 45) (top1 :: below) i1 p1 t hctl
      rcases ht with ht | ⟨ht, hto⟩ | ⟨ht, hto⟩
      · rcases htop with hto | hto
        · subst ht hto
          exact ⟨.Separator, .ObjectNextKey :: below, by rw [hterm.2.1 rfl]; rfl, by decide,
            rfl, by decide, by decide, fun _ => rfl⟩
        · subst ht hto
          exact ⟨.Separator, .ArrayNextValue :: below, by rw [hterm.2.1 rfl]; rfl, by decide,
            rfl, by decide, by decide, fun _ => rfl⟩
      · subst ht hto
        exact ⟨.Object, below, by rw [hterm.2.2.1 rfl]; rfl, by decide, rfl, fun _ => rfl,
          by decide, by decide⟩
      · subst ht hto
        exact ⟨.Array, below, by rw [hterm.2.2.2 rfl]; rfl, by decide, rfl, by decide,
          fun _ => rfl, by decide⟩
    obtain ⟨eA, dA, hAstep, heA, hdA, h125, h93, h44⟩ := hA
    rw [readyNumberLoop, readyNumberLoop, hAstep, hB]
    simp only []
    unfold readyNumberEnd
    have hnoneA : (eA == End.None && !isspace t) = false := by
      cases eA <;> simp at heA ⊢
    simp only [Bool.not_true, Bool.false_eq_true, if_false, hnoneA,
      show (End.None == End.None && !isspace 32) = false by decide]
    by_cases hpt : (t1.getLast? == some 46) = true
    · -- the literal ends with a point
      simp only [hpt, if_true]
      exact ⟨.false,
        { buffer := { pos := buffer.pos + lit.length + 1, cur := t, ahead := rest }, depth := dA, self := self, stop := stop, error := makeError Msg.ALotPointMsg { pos := buffer.pos + lit.length + 1, cur := t, ahead := rest }, errno := errno },
        { buffer := { pos := buffer.pos + lit.length + 1, cur := 32, ahead := t :: rest }, depth := top1 :: below, self := self, stop := stop, error := makeError Msg.ALotPointMsg { pos := buffer.pos + lit.length + 1, cur := 32, ahead := t :: rest }, errno := errno },
        rfl, rfl, ⟨rfl, rfl⟩, Or.inl ⟨by decide, rfl, rfl⟩⟩
    · simp only [hpt, Bool.false_eq_true, if_false]
      have hv := numberValue_loose (h := h)
        { exit := true, «end» := eA, points := p1, temp := t1, ch := t, depth := dA }
        { exit := true, «end» := End.None, points := p1, temp := t1, ch := 32, depth := top1 :: below }
        rfl rfl
        { buffer := { pos := buffer.pos + lit.length + 1, cur := t, ahead := rest }, depth := dA, self := self, stop := stop, error := error, errno := errno }
        { buffer := { pos := buffer.pos + lit.length + 1, cur := 32, ahead := t :: rest }, depth := top1 :: below, self := self, stop := stop, error := error, errno := errno }
        rfl rfl rfl rfl
      have hbA := numberValue_buffer h
        { exit := true, «end» := eA, points := p1, temp := t1, ch := t, depth := dA }
        { buffer := { pos := buffer.pos + lit.length + 1, cur := t, ahead := rest }, depth := dA, self := self, stop := stop, error := error, errno := errno }
      have hdA1 := numberValue_depth h
        { exit := true, «end» := eA, points := p1, temp := t1, ch := t, depth := dA }
        { buffer := { pos := buffer.pos + lit.length + 1, cur := t, ahead := rest }, depth := dA, self := self, stop := stop, error := error, errno := errno }
      have hbB := numberValue_buffer h
        { exit := true, «end» := End.None, points := p1, temp := t1, ch := 32, depth := top1 :: below }
        { buffer := { pos := buffer.pos + lit.length + 1, cur := 32, ahead := t :: rest }, depth := top1 :: below, self := self, stop := stop, error := error, errno := errno }
      have hdB1 := numberValue_depth h
        { exit := true, «end» := End.None, points := p1, temp := t1, ch := 32, depth := top1 :: below }
        { buffer := { pos := buffer.pos + lit.length + 1, cur := 32, ahead := t :: rest }, depth := top1 :: below, self := self, stop := stop, error := error, errno := errno }
      cases hxA : numberValue h
        { exit := true, «end» := eA, points := p1, temp := t1, ch := t, depth := dA }
        { buffer := { pos := buffer.pos + lit.length + 1, cur := t, ahead := rest }, depth := dA, self := self, stop := stop, error := error, errno := errno } with
      | mk xA vA =>
          cases hxB : numberValue h
            { exit := true, «end» := End.None, points := p1, temp := t1, ch := 32, depth := top1 :: below }
            { buffer := { pos := buffer.pos + lit.length + 1, cur := 32, ahead := t :: rest }, depth := top1 :: below, self := self, stop := stop, error := error, errno := errno } with
          | mk xB vB =>
              rw [hxA, hxB] at hv
              rw [hxA] at hbA hdA1
              rw [hxB] at hbB hdB1
              simp only at hv hbA hdA1 hbB hdB1
              obtain ⟨hx, hself, hstop1, hkind⟩ := hv
              subst hx
              cases xB with
              | «false» =>
                  exact ⟨.false, vA, vB, hself, hstop1, hkind, Or.inl ⟨by decide, rfl, rfl⟩⟩
              | thrown =>
                  exact ⟨.thrown, vA, vB, hself, hstop1, hkind, Or.inl ⟨by decide, rfl, rfl⟩⟩
              | «true» =>
                  refine ⟨.true, vA, vB, hself, hstop1, hkind, Or.inr ⟨buffer.pos + lit.length + 1,
                    hbA, hbB, by rw [hdA1, hdA], hdB1, ?_, ?_⟩⟩
                  · simp only [numberEnd, show (End.None == End.Object) = false by decide,
                      show (End.None == End.Array) = false by decide, Bool.false_eq_true, if_false]
                  · simp only [numberEnd]
                    rcases ht with ht | ⟨ht, -⟩ | ⟨ht, -⟩
                    · rw [h44 ht, ht]
                      simp
                    · rw [h125 ht, ht]
                      simp
                    · rw [h93 ht, ht]
                      simp
  · -- the scan fails inside the literal
    rw [hfail (t :: rest), hfail (32 :: t :: rest)]
    exact ⟨.false,
      { buffer := { pos := p, cur := c, ahead := tl ++ t :: rest }, depth := top1 :: below, self := self, stop := stop, error := e, errno := errno },
      { buffer := { pos := p, cur := c, ahead := tl ++ 32 :: t :: rest }, depth := top1 :: below, self := self, stop := stop, error := e, errno := errno },
      rfl, rfl, ⟨rfl, rfl⟩, Or.inl ⟨by decide, rfl, rfl⟩⟩
  · -- the scan stops at the cap inside the literal
    rw [hstop (t :: rest), hstop (32 :: t :: rest)]
    simp only [readyNumberEnd, Bool.not_true, Bool.false_eq_true, if_false, hc, Bool.not_false,
      Bool.and_true, show (End.None == End.None) = true by decide, if_true]
    exact ⟨.false,
      { buffer := { pos := p, cur := c, ahead := tl ++ t :: rest }, depth := top1 :: below, self := self, stop := stop, error := makeError Msg.InvalidValueMsg { pos := p, cur := c, ahead := tl ++ t :: rest }, errno := errno },
      { buffer := { pos := p, cur := c, ahead := tl ++ 32 :: t :: rest }, depth := top1 :: below, self := self, stop := stop, error := makeError Msg.InvalidValueMsg { pos := p, cur := c, ahead := tl ++ 32 :: t :: rest }, errno := errno },
      rfl, rfl, ⟨rfl, rfl⟩, Or.inl ⟨by decide, rfl, rfl⟩⟩

/-- The run from a value position over a literal that is followed by `,` or by
the bracket that closes the enclosing container, and the run over the same
input with a space between the literal and that byte: the same flag, the same
hook calls, the same kind of error. -/
theorem parseFrom_terminator (operation : Operation) (m : Machine σ) (d : Nat) (lit : List Nat)
    (t : Nat) (rest : List Nat) (top : JsonReaderType) (below : List JsonReaderType)
    (hdepth : m.depth = top :: below)
    (hpos : top = .ObjectValue ∨ top = .Array ∨ top = .ArrayNextValue)
    (hd : d = 45 ∨ isdigit d = true)
    (hlit : ∀ c ∈ lit, isNumberChar c = true)
    (ht : t = 44 ∨ (t = 125 ∧ top = .ObjectValue) ∨ (t = 93 ∧ top ≠ .ObjectValue)) :
    ∃ r r1,
      parseFrom h operation { m with buffer := { m.buffer with ahead := d :: (lit ++ t :: rest) } }
        = some r
      ∧ parseFrom h operation
          { m with buffer := { m.buffer with ahead := d :: (lit ++ 32 :: t :: rest) } } = some r1
      ∧ r1.1 = r.1 ∧ r1.2.self = r.2.self ∧ r1.2.stop = r.2.stop
      ∧ r1.2.error.kind = r.2.error.kind := by
  obtain ⟨buffer, depth, self, stop, error, errno⟩ := m
  simp only at hdepth
  subst hdepth
  have hdr : d = 45 ∨ (48 ≤ d ∧ d ≤ 57) := by
    rcases hd with hd | hd
    · exact Or.inl hd
    · exact Or.inr ((isdigit_iff d).mp hd)
  have hsp : isspace d = false := by
    cases hs : isspace d with
    | false => rfl
    | true => rw [isspace_iff] at hs; omega
  have hctl : isControlCode d = false := by
    simp only [isControlCode, Bool.or_eq_false_iff, Bool.and_eq_false_imp, decide_eq_false_iff_not,
      decide_eq_true_eq, beq_eq_false_iff_ne]
    omega
  have hpos1 : ∀ tail : List Nat, top = .ObjectValue ∨ top = .ArrayNextValue
      ∨ (top = .Array ∧ ({ buffer := { pos := buffer.pos + 1, cur := d, ahead := tail }, depth := top :: below, self := self, stop := stop, error := error, errno := errno } : Machine σ).buffer.cur ≠ 93) := by
    intro tail
    rcases hpos with hp | hp | hp
    · exact Or.inl hp
    · exact Or.inr (Or.inr ⟨hp, by show d ≠ 93; omega⟩)
    · exact Or.inr (Or.inl hp)
  have hbody : ∀ tail : List Nat,
      parseBody h operation { buffer := { pos := buffer.pos + 1, cur := d, ahead := tail }, depth := top :: below, self := self, stop := stop, error := error, errno := errno }
        = andThen h operation (readyNumber h d { buffer := { pos := buffer.pos + 1, cur := d, ahead := tail }, depth := (if top = .ObjectValue then .ObjectNextPair else .ArrayNext) :: below, self := self, stop := stop, error := error, errno := errno }) := by
    intro tail
    rw [parseBody_value h operation _ top below hsp hctl rfl (hpos1 tail)]
    exact congrArg _ (ready_number h d _ hd)
  have htop1 : (if top = .ObjectValue then JsonReaderType.ObjectNextPair else .ArrayNext)
        = .ObjectNextPair
      ∨ (if top = .ObjectValue then JsonReaderType.ObjectNextPair else .ArrayNext) = .ArrayNext := by
    by_cases hto : top = .ObjectValue
    · exact Or.inl (by rw [if_pos hto])
    · exact Or.inr (by rw [if_neg hto])
  have ht1 : t = 44
      ∨ (t = 125 ∧ (if top = .ObjectValue then JsonReaderType.ObjectNextPair else .ArrayNext)
          = .ObjectNextPair)
      ∨ (t = 93 ∧ (if top = .ObjectValue then JsonReaderType.ObjectNextPair else .ArrayNext)
          = .ArrayNext) := by
    rcases ht with ht | ⟨ht, hto⟩ | ⟨ht, hto⟩
    · exact Or.inl ht
    · exact Or.inr (Or.inl ⟨ht, by rw [if_pos hto]⟩)
    · exact Or.inr (Or.inr ⟨ht, by rw [if_neg hto]⟩)
  rw [parseFrom_cons h operation _ d (lit ++ t :: rest) rfl,
    parseFrom_cons h operation _ d (lit ++ 32 :: t :: rest) rfl]
  simp only []
  rw [hbody, hbody]
  generalize (if top = .ObjectValue then JsonReaderType.ObjectNextPair else .ArrayNext) = top1
    at htop1 ht1 ⊢
  obtain ⟨x, mA, mB, hself, hstop, hkind, hcase⟩ :=
    readyNumber_terminator (h := h) d lit t rest top1 below
      { buffer := { pos := buffer.pos + 1, cur := d, ahead := [] }, depth := top1 :: below, self := self, stop := stop, error := error, errno := errno }
      rfl hlit ht1 htop1
  rcases hcase with ⟨hx, hA, hB⟩ | ⟨p, hbA, hbB, hdA, hdB, hB, hA⟩
  · -- both reject the literal
    have hA1 : readyNumber h d { buffer := { pos := buffer.pos + 1, cur := d, ahead := lit ++ t :: rest }, depth := top1 :: below, self := self, stop := stop, error := error, errno := errno } = (x, mA) := hA
    have hB1 : readyNumber h d { buffer := { pos := buffer.pos + 1, cur := d, ahead := lit ++ 32 :: t :: rest }, depth := top1 :: below, self := self, stop := stop, error := error, errno := errno } = (x, mB) := hB
    rw [hA1, hB1]
    cases x with
    | «true» => exact absurd rfl hx
    | «false» => exact ⟨_, _, rfl, rfl, rfl, hself, hstop, hkind.1⟩
    | thrown => exact ⟨_, _, rfl, rfl, rfl, hself, hstop, hkind.1⟩
  · -- both convert the literal
    have hA1 : readyNumber h d { buffer := { pos := buffer.pos + 1, cur := d, ahead := lit ++ t :: rest }, depth := top1 :: below, self := self, stop := stop, error := error, errno := errno }
        = (if t = 125 then call h .ObjectEnd mA
           else if t = 93 then call h .ArrayEnd mA else (.true, mA)) := hA
    have hB1 : readyNumber h d { buffer := { pos := buffer.pos + 1, cur := d, ahead := lit ++ 32 :: t :: rest }, depth := top1 :: below, self := self, stop := stop, error := error, errno := errno } = (.true, mB) := hB
    rw [hA1, hB1]
    obtain ⟨bA, dA, sA, stA, eA, noA⟩ := mA
    obtain ⟨bB, dB, sB, stB, eB, noB⟩ := mB
    obtain ⟨hkind, herrno⟩ := hkind
    simp only at hself hstop hkind herrno hbA hbB hdA hdB
    subst hself hstop hbA hbB hdB herrno
    have hstepB : andThen h operation (Ret.true, ({ buffer := { pos := p, cur := 32, ahead := t :: rest }, depth := top1 :: below, self := sB, stop := stB, error := eB, errno := noB } : Machine σ))
        = .continue { buffer := { pos := p, cur := 32, ahead := t :: rest }, depth := top1 :: below, self := sB, stop := stB, error := eB, errno := noB } := by
      simp only [andThen, documentEnd, List.isEmpty_cons, Bool.false_eq_true, if_false]
    rw [hstepB]
    simp only []
    rw [parseFrom_cons h operation _ t rest rfl]
    simp only []
    have hshift : ShiftedStep
        (andThen h operation (if t = 125 then call h .ObjectEnd { buffer := { pos := p, cur := t, ahead := rest }, depth := dA, self := sB, stop := stB, error := eA, errno := noB }
           else if t = 93 then call h .ArrayEnd { buffer := { pos := p, cur := t, ahead := rest }, depth := dA, self := sB, stop := stB, error := eA, errno := noB }
           else (.true, { buffer := { pos := p, cur := t, ahead := rest }, depth := dA, self := sB, stop := stB, error := eA, errno := noB })))
        (parseBody h operation { buffer := { pos := p + 1, cur := t, ahead := rest }, depth := top1 :: below, self := sB, stop := stB, error := eB, errno := noB }) := by
      have hsh : Shifted
          ({ buffer := { pos := p, cur := t, ahead := rest }, depth := dA, self := sB, stop := stB, error := eA, errno := noB } : Machine σ)
          { buffer := { pos := p + 1, cur := t, ahead := rest }, depth := dA, self := sB, stop := stB, error := eB, errno := noB } :=
        (shifted_iff _ _).mpr ⟨rfl, rfl, rfl, rfl, rfl, hkind, rfl⟩
      rcases ht1 with ht | ⟨ht, hto⟩ | ⟨ht, hto⟩
      · subst ht
        simp only [show ¬ (44 = 125) by decide, show ¬ (44 = 93) by decide, if_false, if_true] at hdA ⊢
        have hb : parseBody h operation { buffer := { pos := p + 1, cur := 44, ahead := rest }, depth := top1 :: below, self := sB, stop := stB, error := eB, errno := noB }
            = documentEnd h operation { buffer := { pos := p + 1, cur := 44, ahead := rest }, depth := dA, self := sB, stop := stB, error := eB, errno := noB } := by
          rcases htop1 with hto | hto
          · subst hto
            rw [hdA]
            simp [parseBody, JsonStringViewBufferReader.value, isspace, isControlCode, setTop]
          · subst hto
            rw [hdA]
            simp [parseBody, JsonStringViewBufferReader.value, isspace, isControlCode, setTop]
        rw [hb]
        exact documentEnd_shifted operation _ _ hsh
      · subst ht hto
        simp only [show ¬ (125 = 44) by decide, if_false, if_true] at hdA ⊢
        have hb : parseBody h operation { buffer := { pos := p + 1, cur := 125, ahead := rest }, depth := .ObjectNextPair :: below, self := sB, stop := stB, error := eB, errno := noB }
            = andThen h operation (call h .ObjectEnd { buffer := { pos := p + 1, cur := 125, ahead := rest }, depth := dA, self := sB, stop := stB, error := eB, errno := noB }) := by
          rw [hdA]
          simp [parseBody, JsonStringViewBufferReader.value, isspace, isControlCode, close]
        rw [hb]
        exact andThen_shifted operation _ _ (call_shifted _ _ _ hsh)
      · subst ht hto
        simp only [show ¬ (93 = 44) by decide, show ¬ (93 = 125) by decide, if_false, if_true] at hdA ⊢
        have hb : parseBody h operation { buffer := { pos := p + 1, cur := 93, ahead := rest }, depth := .ArrayNext :: below, self := sB, stop := stB, error := eB, errno := noB }
            = andThen h operation (call h .ArrayEnd { buffer := { pos := p + 1, cur := 93, ahead := rest }, depth := dA, self := sB, stop := stB, error := eB, errno := noB }) := by
          rw [hdA]
          simp [parseBody, JsonStringViewBufferReader.value, isspace, isControlCode, close]
        rw [hb]
        exact andThen_shifted operation _ _ (call_shifted _ _ _ hsh)
    obtain ⟨r, r1, h1, h2, hr⟩ := run_shifted (h := h) operation _ _ hshift
    have hs0 := (shifted_iff _ _).mp hr.2
    exact ⟨r, r1, h1, h2, hr.1, hs0.2.2.2.1, hs0.2.2.2.2.1, hs0.2.2.2.2.2.1⟩

end




open JsonStringViewBufferReader

section
variable {σ : Type} {h : Hooks σ}

end




open JsonStringViewBufferReader

section
variable {σ : Type}

/-- The run over an input that continues behind a prefix the loop has read in
`k` passes goes on from the state behind those passes. -/
theorem parse_behind (h : Hooks σ) (operation : Operation) (r0 : JsonSAXReader σ)
    (pre : List Nat) (k : Nat) (m : Machine σ)
    (hreach : passes h operation k (r0.start (ofString pre)) = some m)
    (hend : m.buffer.ahead = []) (tail : List Nat) :
    JsonSAXReader.parse h r0 (ofString (pre ++ tail)) operation
      = parseFrom h operation { m with buffer := { m.buffer with ahead := tail } } := by
  have h1 := passes_extend h operation k _ m hreach tail
  have h2 : (r0.start (ofString pre)).extend tail = r0.start (ofString (pre ++ tail)) := rfl
  have h3 : m.extend tail = { m with buffer := { m.buffer with ahead := tail } } := by
    simp only [Machine.extend, JsonStringViewBufferReader.extend, hend, List.nil_append]
  rw [h2, h3] at h1
  unfold JsonSAXReader.parse
  exact passes_parseFrom h operation k _ _ h1

end

open JsonSAXWriter

/-! ## The text of a number -/

theorem natText_chars (n : Nat) : ∀ c ∈ natText n, isNumberChar c = true :=
  fun c hc => digit_numberChar c ((natText_spec n).2.1 c hc)

/-- The text of a number starts with a digit or with `-`. -/
theorem natText_head (n : Nat) :
    ∃ d tl, natText n = d :: tl ∧ isdigit d = true := by
  have hs := natText_spec n
  cases hx : natText n with
  | nil => exact absurd hx hs.1
  | cons d tl => exact ⟨d, tl, rfl, hs.2.1 d (by rw [hx]; exact List.mem_cons_self _ _)⟩

theorem intText_chars (n : Int) : ∀ c ∈ intText n, isNumberChar c = true := by
  intro c hc
  unfold intText at hc
  by_cases hn : n < 0
  · rw [if_pos hn] at hc
    rcases List.mem_cons.mp hc with rfl | hc
    · decide
    · exact natText_chars _ c hc
  · rw [if_neg hn] at hc
    exact natText_chars _ c hc

theorem intText_head (n : Int) :
    ∃ d tl, intText n = d :: tl ∧ (d = 45 ∨ isdigit d = true) := by
  unfold intText
  by_cases hn : n < 0
  · rw [if_pos hn]; exact ⟨45, _, rfl, Or.inl rfl⟩
  · rw [if_neg hn]
    obtain ⟨d, tl, h1, h2⟩ := natText_head n.toNat
    exact ⟨d, tl, h1, Or.inr h2⟩

theorem exponentText_chars (x : Int) : ∀ c ∈ exponentText x, isNumberChar c = true := by
  intro c hc
  simp only [exponentText, List.mem_cons] at hc
  rcases hc with rfl | hc
  · by_cases hx : x < 0
    · rw [if_pos hx]; decide
    · rw [if_neg hx]; decide
  · by_cases hl : (natText x.natAbs).length < 2
    · rw [if_pos hl] at hc
      rcases List.mem_cons.mp hc with rfl | hc
      · decide
      · exact natText_chars _ c hc
    · rw [if_neg hl] at hc
      exact natText_chars _ c hc

theorem fixedText_chars (ds : List Nat) (k : Int) (hds : ∀ c ∈ ds, isdigit c = true) :
    ∀ c ∈ fixedText ds k, isNumberChar c = true := by
  intro c hc
  unfold fixedText at hc
  by_cases h0 : 0 ≤ k
  · rw [if_pos h0] at hc
    rcases List.mem_append.mp hc with hc | hc
    · exact digit_numberChar c (hds c hc)
    · rw [(List.mem_replicate.mp hc).2]; decide
  · rw [if_neg h0] at hc
    by_cases h1 : (-k).toNat < ds.length
    · rw [if_pos h1] at hc
      rcases List.mem_append.mp hc with hc | hc
      · exact digit_numberChar c (hds c (List.mem_of_mem_take hc))
      · rcases List.mem_cons.mp hc with rfl | hc
        · decide
        · exact digit_numberChar c (hds c (List.mem_of_mem_drop hc))
    · rw [if_neg h1] at hc
      rcases List.mem_cons.mp hc with rfl | hc
      · decide
      · rcases List.mem_cons.mp hc with rfl | hc
        · decide
        · rcases List.mem_append.mp hc with hc | hc
          · rw [(List.mem_replicate.mp hc).2]; decide
          · exact digit_numberChar c (hds c hc)

theorem fixedText_head (ds : List Nat) (k : Int) (hne : ds ≠ [])
    (hds : ∀ c ∈ ds, isdigit c = true) :
    ∃ d tl, fixedText ds k = d :: tl ∧ isdigit d = true := by
  obtain ⟨d0, tl0, rfl⟩ := List.exists_cons_of_ne_nil hne
  have hd0 : isdigit d0 = true := hds d0 (List.mem_cons_self _ _)
  unfold fixedText
  by_cases h0 : 0 ≤ k
  · rw [if_pos h0]; exact ⟨d0, _, rfl, hd0⟩
  · rw [if_neg h0]
    by_cases h1 : (-k).toNat < (d0 :: tl0).length
    · rw [if_pos h1]
      have hpos : (d0 :: tl0).length - (-k).toNat = ((d0 :: tl0).length - (-k).toNat - 1) + 1 := by
        omega
      rw [hpos, List.take_succ_cons]
      exact ⟨d0, _, rfl, hd0⟩
    · rw [if_neg h1]; exact ⟨48, _, rfl, by decide⟩

theorem scientificText_chars (ds : List Nat) (k : Int) (hds : ∀ c ∈ ds, isdigit c = true) :
    ∀ c ∈ scientificText ds k, isNumberChar c = true := by
  intro c hc
  unfold scientificText at hc
  rcases List.mem_append.mp hc with hc | hc
  · rcases List.mem_append.mp hc with hc | hc
    · exact digit_numberChar c (hds c (List.mem_of_mem_take hc))
    · by_cases hl : 1 < ds.length
      · rw [if_pos hl] at hc
        rcases List.mem_cons.mp hc with rfl | hc
        · decide
        · exact digit_numberChar c (hds c (List.mem_of_mem_drop hc))
      · rw [if_neg hl] at hc
        exact absurd hc (List.not_mem_nil _)
  · rcases List.mem_cons.mp hc with rfl | hc
    · decide
    · exact exponentText_chars _ c hc

theorem scientificText_head (ds : List Nat) (k : Int) (hne : ds ≠ [])
    (hds : ∀ c ∈ ds, isdigit c = true) :
    ∃ d tl, scientificText ds k = d :: tl ∧ isdigit d = true := by
  obtain ⟨d0, tl0, rfl⟩ := List.exists_cons_of_ne_nil hne
  exact ⟨d0, _, rfl, hds d0 (List.mem_cons_self _ _)⟩

/-- The text of a double is made of digits, `-`, `+`, `.` and `e`, and starts
with a digit or with `-`. -/
theorem doubleText_chars (d : Double) :
    (∀ c ∈ doubleText d, isNumberChar c = true)
      ∧ ∃ x tl, doubleText d = x :: tl ∧ (x = 45 ∨ isdigit x = true) := by
  have key : ∀ (sign body : List Nat),
      (sign = [45] ∨ sign = []) → (∀ c ∈ body, isNumberChar c = true) →
      (∃ x tl, body = x :: tl ∧ isdigit x = true) →
      (∀ c ∈ sign ++ body, isNumberChar c = true)
        ∧ ∃ x tl, sign ++ body = x :: tl ∧ (x = 45 ∨ isdigit x = true) := by
    intro sign body hs hb hh
    rcases hs with rfl | rfl
    · refine ⟨?_, 45, body, rfl, Or.inl rfl⟩
      intro c hc
      rcases List.mem_cons.mp hc with rfl | hc
      · decide
      · exact hb c hc
    · obtain ⟨x, tl, h1, h2⟩ := hh
      exact ⟨hb, x, tl, h1, Or.inr h2⟩
  have hsign : (if d.neg = true then [45] else ([] : List Nat)) = [45]
      ∨ (if d.neg = true then [45] else ([] : List Nat)) = [] := by
    cases d.neg
    · exact Or.inr rfl
    · exact Or.inl rfl
  unfold doubleText
  by_cases hm : d.mant = 0
  · simp only [hm, if_true]
    exact key _ [48] hsign (by intro c hc; rw [List.mem_singleton.mp hc]; decide)
      ⟨48, [], rfl, by decide⟩
  · simp only [hm, if_false]
    generalize shortestDecimal d (if 0 ≤ d.exp then d.mant * 2 ^ d.exp.toNat else d.mant)
      (if 0 ≤ d.exp then 1 else 2 ^ (-d.exp).toNat)
      (floorLog10 (if 0 ≤ d.exp then d.mant * 2 ^ d.exp.toNat else d.mant)
        (if 0 ≤ d.exp then 1 else 2 ^ (-d.exp).toNat)) 17 1 = p0
    generalize stripZeros 20 p0.1 p0.2 = p
    have hds := (natText_spec p.1).2.1
    have hne := (natText_spec p.1).1
    by_cases hl : (fixedText (natText p.1) p.2).length ≤ (scientificText (natText p.1) p.2).length
    · simp only [hl, if_true]
      by_cases hk : 0 ≤ p.2
      · rw [if_pos hk]
        exact key _ _ hsign (natText_chars _) (natText_head _)
      · rw [if_neg hk]
        exact key _ _ hsign (fixedText_chars _ _ hds) (fixedText_head _ _ hne hds)
    · simp only [hl, if_false]
      exact key _ _ hsign (scientificText_chars _ _ hds) (scientificText_head _ _ hne hds)

/-! ## Scalar values on an open sink -/

/-- A value call that writes the text `text`, where a value may stand inside a
container. -/
theorem scalar_emit (text : List Nat) (hw : ∀ c ∈ text, isControlCode c = false)
    (w : JsonSAXWriter) (ho : w.isOpen = true)
    (hs : w.stack.head? = some .ObjectKey ∨ w.stack.head? = some .Array
      ∨ w.stack.head? = some .ArrayNextValue) :
    seq checkBuffer (seq checkCorrectValue (writeChars text)) w
      = (.true, w.emit (valuePrefix w.beautiful w.stack ++ text) (advanced w.stack)) := by
  have h1 : (w.emit (valuePrefix w.beautiful w.stack) (advanced w.stack)).isOpen = true := by
    rw [emit_isOpen]; exact ho
  simp only [seq, checkBuffer_open w ho, checkCorrectValue_emit w ho hs]
  rw [writeChars_emit text _ h1 hw]
  simp only [emit_emit, emit_stack]

/-- A value call that fails behind `checkCorrectValue`. -/
theorem scalar_fail (e : WriteError) (w : JsonSAXWriter) (ho : w.isOpen = true)
    (hs : w.stack.head? = some .ObjectKey ∨ w.stack.head? = some .Array
      ∨ w.stack.head? = some .ArrayNextValue) :
    ∃ w1, seq checkBuffer (seq checkCorrectValue (failWith e)) w = (.false, w1) := by
  simp only [seq, checkBuffer_open w ho, checkCorrectValue_emit w ho hs]
  exact ⟨_, rfl⟩

/-- A tree that is no container has the text of a scalar. -/
theorem renderTree_scalar (b : Bool) (depth : Nat) (t : ValueTree)
    (ht : ∀ ms, t ≠ .Object ms) (ha : ∀ es, t ≠ .Array es) :
    renderTree b depth t = scalarText t := by
  cases t with
  | Object ms => exact absurd rfl (ht ms)
  | Array es => exact absurd rfl (ha es)
  | Empty => simp only [renderTree, scalarText]
  | String s => simp only [renderTree]
  | Double d => simp only [renderTree]
  | LongLong n => simp only [renderTree]
  | Bool v => simp only [renderTree]
  | Null => simp only [renderTree]

/-- `writeValue` on a value that is no container, where a value may stand
inside a container: the text of the scalar is written, or the call returns
false when the scalar has no text. -/
theorem writeValue_scalar (h : Heap) (c : JsonValue) (n : Nat) (t : ValueTree)
    (ht : h.tree n c = some t) (hc : JsonWriter.isContainer h c = false)
    (w : JsonSAXWriter) (ho : w.isOpen = true)
    (hs : w.stack.head? = some .ObjectKey ∨ w.stack.head? = some .Array
      ∨ w.stack.head? = some .ArrayNextValue) :
    (∀ ms, t ≠ .Object ms) ∧ (∀ es, t ≠ .Array es)
    ∧ ((∃ text, scalarText t = some text
          ∧ JsonWriter.writeValue h c w
            = (.true, w.emit (valuePrefix w.beautiful w.stack ++ text) (advanced w.stack)))
      ∨ (scalarText t = none ∧ ∃ w1, JsonWriter.writeValue h c w = (.false, w1))) := by
  cases n with
  | zero => rw [tree_zero] at ht; exact Option.noConfusion ht
  | succ n =>
      rw [Heap.tree] at ht
      unfold JsonWriter.isContainer Heap.type at hc
      unfold JsonWriter.writeValue
      cases hv : h.values[c.value]? with
      | none => rw [hv] at ht; exact Option.noConfusion ht
      | some cell =>
          rw [hv] at ht hc
          cases cell with
          | Empty =>
              simp only [Option.some.injEq] at ht
              subst ht
              exact ⟨fun _ => ValueTree.noConfusion, fun _ => ValueTree.noConfusion,
                Or.inr ⟨rfl, _, rfl⟩⟩
          | Object map => simp at hc
          | Array array => simp at hc
          | String str =>
              simp only [Option.some.injEq] at ht
              subst ht
              refine ⟨fun _ => ValueTree.noConfusion, fun _ => ValueTree.noConfusion, ?_⟩
              simp only [scalarText]
              by_cases ha : acceptsString str = true
              · rw [if_pos ha]
                exact Or.inl ⟨_, rfl, ValueString_emit str w ho hs ha⟩
              · rw [if_neg ha]
                have ha1 : acceptsString str = false := by simpa using ha
                obtain ⟨_, _, _, _, _, _, hcall⟩ := ValueString_rejected str w ho hs ha1
                exact Or.inr ⟨rfl, _, hcall⟩
          | Double d =>
              simp only [Option.some.injEq] at ht
              subst ht
              refine ⟨fun _ => ValueTree.noConfusion, fun _ => ValueTree.noConfusion, ?_⟩
              simp only [scalarText, JsonSAXWriter.ValueDouble]
              cases htc : to_chars_double 18 d with
              | none =>
                  obtain ⟨w1, hw1⟩ := scalar_fail .ErrorConvDouble w ho hs
                  exact Or.inr ⟨rfl, w1, hw1⟩
              | some str =>
                  have hstr : str = doubleText d := by
                    unfold to_chars_double at htc
                    by_cases hl : (doubleText d).length ≤ 18
                    · rw [if_pos hl] at htc; exact (Option.some.inj htc).symm
                    · rw [if_neg hl] at htc; exact Option.noConfusion htc
                  have hwr : ∀ x ∈ str, isControlCode x = false := by
                    rw [hstr]
                    exact fun x hx => numberChar_writable x ((doubleText_chars d).1 x hx)
                  exact Or.inl ⟨str, rfl, scalar_emit str hwr w ho hs⟩
          | LongLong v =>
              simp only [Option.some.injEq] at ht
              subst ht
              refine ⟨fun _ => ValueTree.noConfusion, fun _ => ValueTree.noConfusion, ?_⟩
              simp only [scalarText, JsonSAXWriter.ValueLongLong]
              cases htc : to_chars_longlong 20 v with
              | none =>
                  obtain ⟨w1, hw1⟩ := scalar_fail .ErrorConvLongLong w ho hs
                  exact Or.inr ⟨rfl, w1, hw1⟩
              | some str =>
                  have hstr : str = intText v := by
                    unfold to_chars_longlong at htc
                    by_cases hl : (intText v).length ≤ 20
                    · rw [if_pos hl] at htc; exact (Option.some.inj htc).symm
                    · rw [if_neg hl] at htc; exact Option.noConfusion htc
                  have hwr : ∀ x ∈ str, isControlCode x = false := by
                    rw [hstr]
                    exact fun x hx => numberChar_writable x (intText_chars v x hx)
                  exact Or.inl ⟨str, rfl, scalar_emit str hwr w ho hs⟩
          | Bool v =>
              simp only [Option.some.injEq] at ht
              subst ht
              refine ⟨fun _ => ValueTree.noConfusion, fun _ => ValueTree.noConfusion, ?_⟩
              cases v with
              | «true» =>
                  exact Or.inl ⟨_, rfl, scalar_emit [116, 114, 117, 101] (by decide) w ho hs⟩
              | «false» =>
                  exact Or.inl ⟨_, rfl, scalar_emit [102, 97, 108, 115, 101] (by decide) w ho hs⟩
          | Null =>
              simp only [Option.some.injEq] at ht
              subst ht
              exact ⟨fun _ => ValueTree.noConfusion, fun _ => ValueTree.noConfusion,
                Or.inl ⟨_, rfl, scalar_emit [110, 117, 108, 108] (by decide) w ho hs⟩⟩


open JsonSAXWriter JsonWriter

/-! ## Passes of the tree writer -/

theorem runs_here (h : Heap) (w : JsonWriter) : JsonWriter.Runs h w (some w) := ⟨0, rfl⟩

/-- One pass and the run behind it. -/
theorem runs_step (h : Heap) (w : JsonWriter) (value : JsonValue) (it : Variant)
    (below : List (JsonValue × Variant)) (hw : w.stack = (value, it) :: below)
    (target : Option JsonWriter)
    (hp : (JsonWriter.pass h value it below w).Runs h target) : JsonWriter.Runs h w target := by
  cases hx : JsonWriter.pass h value it below w with
  | «continue» w1 =>
      rw [hx] at hp
      cases target with
      | some w2 =>
          obtain ⟨n, hn⟩ := hp
          exact ⟨n + 1, by rw [after_step h n w w1 value it below hw hx]; exact hn⟩
      | none =>
          obtain ⟨fuel, w2, hf⟩ := hp
          exact ⟨fuel + 1, w2, by rw [writeLoop_step h fuel w w1 value it below hw hx]; exact hf⟩
  | «return» out w1 =>
      rw [hx] at hp
      obtain ⟨ho, ht⟩ := hp
      subst ho ht
      refine ⟨1, w1, ?_⟩
      simp only [JsonWriter.writeLoop, hw, hx]

/-- A run to a state and the run from there. -/
theorem runs_then (h : Heap) (w w1 : JsonWriter) (target : Option JsonWriter)
    (h1 : JsonWriter.Runs h w (some w1)) (h2 : JsonWriter.Runs h w1 target) :
    JsonWriter.Runs h w target := by
  obtain ⟨n, hn⟩ := h1
  cases target with
  | some w2 =>
      obtain ⟨k, hk⟩ := h2
      exact ⟨n + k, after_trans h n k w w1 w2 hn hk⟩
  | none =>
      obtain ⟨fuel, w2, hf⟩ := h2
      exact ⟨n + fuel, w2, by rw [writeLoop_after h n w w1 hn fuel]; exact hf⟩

/-- A run that fails, behind a run to a state. -/
theorem runs_fail (h : Heap) (w : JsonWriter) (target : Option JsonWriter)
    (ht : target = none) (h1 : JsonWriter.Runs h w none) : JsonWriter.Runs h w target := by
  rw [ht]; exact h1

/-- A pass over an object: the begin call when the iterator is at the start,
the inner loop, and what follows it. -/
theorem pass_object (h : Heap) (value : JsonValue) (it : Variant)
    (below : List (JsonValue × Variant)) (w : JsonWriter) (map : Nat)
    (hv : h.values[value.value]? = some (.Object map)) :
    JsonWriter.pass h value it below w
      = match (if resume it == 0 then JsonSAXWriter.ObjectBegin w.sax else (.true, w.sax)) with
        | (.true, s1) =>
            objectTail value below w.stack
              (walkObject h w.stack (((h.maps[map]?).getD []).drop (resume it)) (resume it) s1)
        | (out, s1) => .return out { sax := s1, stack := w.stack } := by
  unfold JsonWriter.pass
  simp only [hv]
  cases hb : (if resume it == 0 then JsonSAXWriter.ObjectBegin w.sax else (Out.true, w.sax)) with
  | mk out s1 =>
      cases out with
      | «true» =>
          cases hwk : walkObject h w.stack (((h.maps[map]?).getD []).drop (resume it)) (resume it) s1 with
          | finished s2 =>
              simp only [objectTail] <;>
                (try (cases he : JsonSAXWriter.ObjectEnd s2 with
                  | mk o2 s3 => cases o2 <;> rfl))
          | child c n s2 => rfl
          | failed o s2 => rfl
      | «false» => rfl
      | undefined => rfl

/-- A pass over an array. -/
theorem pass_array (h : Heap) (value : JsonValue) (it : Variant)
    (below : List (JsonValue × Variant)) (w : JsonWriter) (array : Nat)
    (hv : h.values[value.value]? = some (.Array array)) :
    JsonWriter.pass h value it below w
      = match (if resume it == 0 then JsonSAXWriter.ArrayBegin w.sax else (.true, w.sax)) with
        | (.true, s1) =>
            arrayTail value below w.stack
              (walkArray h w.stack (((h.arrays[array]?).getD []).drop (resume it)) (resume it) s1)
        | (out, s1) => .return out { sax := s1, stack := w.stack } := by
  unfold JsonWriter.pass
  simp only [hv]
  cases hb : (if resume it == 0 then JsonSAXWriter.ArrayBegin w.sax else (Out.true, w.sax)) with
  | mk out s1 =>
      cases out with
      | «true» =>
          cases hwk : walkArray h w.stack (((h.arrays[array]?).getD []).drop (resume it)) (resume it) s1 with
          | finished s2 =>
              simp only [arrayTail] <;>
                (try (cases he : JsonSAXWriter.ArrayEnd s2 with
                  | mk o2 s3 => cases o2 <;> rfl))
          | child c n s2 => rfl
          | failed o s2 => rfl
      | «false» => rfl
      | undefined => rfl

/-! ## The tree of a value -/

/-- A value unfolds to one tree, whatever the number of levels allowed. -/
theorem tree_unique (h : Heap) (j : JsonValue) (n m : Nat) (t t1 : ValueTree)
    (h1 : h.tree n j = some t) (h2 : h.tree m j = some t1) : t = t1 := by
  have a := tree_mono_le h j t n (max n m) (le_max_left _ _) h1
  have b := tree_mono_le h j t1 m (max n m) (le_max_right _ _) h2
  rw [a] at b
  exact Option.some.inj b

theorem treeMembers_forall (h : Heap) (n : Nat) :
    ∀ (es : List (List Nat × JsonValue)) (ts : List (List Nat × ValueTree)),
      h.treeMembers n es = some ts →
      List.Forall₂ (fun e m => m.1 = e.1 ∧ ∃ k, h.tree k e.2 = some m.2) es ts := by
  induction n with
  | zero => intro es ts ht; rw [treeMembers_zero] at ht; exact Option.noConfusion ht
  | succ n ih =>
      intro es ts ht
      cases es with
      | nil =>
          rw [treeMembers_nil] at ht
          rw [← Option.some.inj ht]
          exact List.Forall₂.nil
      | cons e rest =>
          obtain ⟨k, j⟩ := e
          rw [treeMembers_cons] at ht
          cases hx : h.tree n j with
          | none => rw [hx] at ht; exact Option.noConfusion ht
          | some t =>
              cases hy : h.treeMembers n rest with
              | none => rw [hx, hy] at ht; exact Option.noConfusion ht
              | some ts1 =>
                  rw [hx, hy] at ht
                  rw [← Option.some.inj ht]
                  exact List.Forall₂.cons ⟨rfl, n, hx⟩ (ih rest ts1 hy)

theorem treeElements_forall (h : Heap) (n : Nat) :
    ∀ (es : List JsonValue) (ts : List ValueTree),
      h.treeElements n es = some ts →
      List.Forall₂ (fun e m => ∃ k, h.tree k e = some m) es ts := by
  induction n with
  | zero => intro es ts ht; rw [treeElements_zero] at ht; exact Option.noConfusion ht
  | succ n ih =>
      intro es ts ht
      cases es with
      | nil =>
          rw [treeElements_nil] at ht
          rw [← Option.some.inj ht]
          exact List.Forall₂.nil
      | cons j rest =>
          rw [treeElements_cons] at ht
          cases hx : h.tree n j with
          | none => rw [hx] at ht; exact Option.noConfusion ht
          | some t =>
              cases hy : h.treeElements n rest with
              | none => rw [hx, hy] at ht; exact Option.noConfusion ht
              | some ts1 =>
                  rw [hx, hy] at ht
                  rw [← Option.some.inj ht]
                  exact List.Forall₂.cons ⟨n, hx⟩ (ih rest ts1 hy)

/-- The tree of an object: the trees of the entries of its map, in the order of
the map, under the same keys. -/
theorem tree_object (h : Heap) (n : Nat) (v : JsonValue) (t : ValueTree) (map : Nat)
    (ht : h.tree n v = some t) (hv : h.values[v.value]? = some (.Object map)) :
    ∃ entries ms, h.maps[map]? = some entries ∧ t = .Object ms
      ∧ List.Forall₂ (fun e m => m.1 = e.1 ∧ ∃ k, h.tree k e.2 = some m.2) entries ms := by
  cases n with
  | zero => rw [tree_zero] at ht; exact Option.noConfusion ht
  | succ n =>
      rw [tree_succ, hv] at ht
      simp only [] at ht
      cases hm : h.maps[map]? with
      | none => rw [hm] at ht; exact Option.noConfusion ht
      | some entries =>
          rw [hm] at ht
          simp only [] at ht
          cases hx : h.treeMembers n entries with
          | none => rw [hx] at ht; exact Option.noConfusion ht
          | some ms =>
              rw [hx] at ht
              exact ⟨entries, ms, rfl, (Option.some.inj ht).symm, treeMembers_forall h n entries ms hx⟩

/-- The tree of an array: the trees of the elements of its vector, in order. -/
theorem tree_array (h : Heap) (n : Nat) (v : JsonValue) (t : ValueTree) (array : Nat)
    (ht : h.tree n v = some t) (hv : h.values[v.value]? = some (.Array array)) :
    ∃ elements es, h.arrays[array]? = some elements ∧ t = .Array es
      ∧ List.Forall₂ (fun e m => ∃ k, h.tree k e = some m) elements es := by
  cases n with
  | zero => rw [tree_zero] at ht; exact Option.noConfusion ht
  | succ n =>
      rw [tree_succ, hv] at ht
      simp only [] at ht
      cases hm : h.arrays[array]? with
      | none => rw [hm] at ht; exact Option.noConfusion ht
      | some elements =>
          rw [hm] at ht
          simp only [] at ht
          cases hx : h.treeElements n elements with
          | none => rw [hx] at ht; exact Option.noConfusion ht
          | some es =>
              rw [hx] at ht
              exact ⟨elements, es, rfl, (Option.some.inj ht).symm,
                treeElements_forall h n elements es hx⟩

/-- A container is a value whose cell holds an object or an array. -/
theorem isContainer_cell (h : Heap) (v : JsonValue) (hc : JsonWriter.isContainer h v = true) :
    (∃ map, h.values[v.value]? = some (.Object map))
      ∨ (∃ array, h.values[v.value]? = some (.Array array)) := by
  unfold JsonWriter.isContainer Heap.type at hc
  cases hv : h.values[v.value]? with
  | none => rw [hv] at hc; simp at hc
  | some cell =>
      rw [hv] at hc
      cases cell with
      | Object map => exact Or.inl ⟨map, rfl⟩
      | Array array => exact Or.inr ⟨array, rfl⟩
      | Empty => simp at hc
      | String s => simp at hc
      | Double d => simp at hc
      | LongLong n => simp at hc
      | Bool b => simp at hc
      | Null => simp at hc

theorem cell_isContainer (h : Heap) (v : JsonValue)
    (hc : (∃ map, h.values[v.value]? = some (.Object map))
      ∨ (∃ array, h.values[v.value]? = some (.Array array))) :
    JsonWriter.isContainer h v = true := by
  unfold JsonWriter.isContainer Heap.type
  rcases hc with ⟨map, hv⟩ | ⟨array, hv⟩ <;> rw [hv] <;> simp

theorem member_size (ms : List (List Nat × ValueTree)) :
    ∀ m ∈ ms, m.2.size ≤ membersSize ms := by
  induction ms with
  | nil => intro m hm; exact absurd hm (List.not_mem_nil _)
  | cons x ms ih =>
      intro m hm
      obtain ⟨k, t⟩ := x
      simp only [membersSize]
      rcases List.mem_cons.mp hm with rfl | hm
      · exact Nat.le_add_right _ _
      · exact le_trans (ih m hm) (Nat.le_add_left _ _)

theorem element_size (es : List ValueTree) : ∀ t ∈ es, t.size ≤ elementsSize es := by
  induction es with
  | nil => intro m hm; exact absurd hm (List.not_mem_nil _)
  | cons x es ih =>
      intro m hm
      simp only [elementsSize]
      rcases List.mem_cons.mp hm with rfl | hm
      · exact Nat.le_add_right _ _
      · exact le_trans (ih m hm) (Nat.le_add_left _ _)

/-- A value whose tree is smaller than the tree of every value on the traversal
stack is not on the stack. -/
theorem not_onStack (h : Heap) (stack : List (JsonValue × Variant)) (c : JsonValue)
    (k : Nat) (tc : ValueTree) (ht : h.tree k c = some tc)
    (ha : JsonWriter.Above h tc.size stack) : JsonWriter.onStack stack c = false := by
  cases hx : JsonWriter.onStack stack c with
  | false => rfl
  | true =>
      unfold JsonWriter.onStack at hx
      obtain ⟨e, he, heq⟩ := List.any_eq_true.mp hx
      have hec : e.1 = c := by
        have h1 : e.1.value = c.value := by simpa using heq
        cases hce : e.1 with
        | mk x =>
            cases c with
            | mk y =>
                rw [hce] at h1
                simp only at h1
                rw [h1]
      have := ha e he k tc (by rw [hec]; exact ht)
      exact absurd this (lt_irrefl _)

/-- The traversal stack with the container on it, seen from a smaller tree. -/
theorem above_push (h : Heap) (N k : Nat) (v : JsonValue) (it : Variant)
    (below : List (JsonValue × Variant)) (hk : k < N)
    (hself : ∀ n t, h.tree n v = some t → t.size = N)
    (ha : JsonWriter.Above h N below) : JsonWriter.Above h k ((v, it) :: below) := by
  intro e he n t ht
  rcases List.mem_cons.mp he with rfl | he
  · rw [hself n t ht]; exact hk
  · exact lt_trans hk (ha e he n t ht)


open JsonSAXWriter JsonWriter

theorem drop_next {α : Type} (l : List α) (pos : Nat) (x : α) (rest : List α)
    (hd : l.drop pos = x :: rest) : l.drop (pos + 1) = rest := by
  induction l generalizing pos with
  | nil => simp at hd
  | cons y l ih =>
      cases pos with
      | zero =>
          simp only [List.drop_zero, List.cons.injEq] at hd
          simp only [Nat.zero_add, List.drop_succ_cons, List.drop_zero]
          exact hd.2
      | succ pos =>
          simp only [List.drop_succ_cons] at hd ⊢
          exact ih pos hd

/-- The passes over the entries of an object from the iterator `pos` on: the
inner loop writes the pairs with scalar values, the passes over a child write
the child, and the pass that finds no further entry writes the closing
bracket. -/
theorem members_run (h : Heap) (v : JsonValue) (map : Nat)
    (entries : List (List Nat × JsonValue)) (N : Nat)
    (hv : h.values[v.value]? = some (.Object map)) (hm : h.maps[map]? = some entries)
    (hsub : ∀ (c : JsonValue) (tc : ValueTree) (k : Nat), h.tree k c = some tc → tc.size < N →
      JsonWriter.isContainer h c = true → JsonWriter.Renders h c tc)
    (below : List (JsonValue × Variant)) (habove : JsonWriter.Above h N below)
    (hself : ∀ n t, h.tree n v = some t → t.size = N) :
    ∀ (es : List (List Nat × JsonValue)) (ts : List (List Nat × ValueTree)),
      List.Forall₂ (fun e m => m.1 = e.1 ∧ ∃ k, h.tree k e.2 = some m.2) es ts →
      ∀ (pos : Nat) (it : Variant) (s : JsonSAXWriter) (first : Bool) (st : List Condition),
      entries.drop pos = es → (∀ m ∈ ts, m.2.size < N) →
      s.isOpen = true → s.stack = (if first then Condition.Object else .ObjectNextPair) :: st →
      (objectTail v below ((v, it) :: below)
          (walkObject h ((v, it) :: below) es pos s)).Runs h
        ((renderMembers s.beautiful (st.length + 1) first ts).map (fun body =>
          { sax := s.emit (body ++ (newlineText s.beautiful
              ++ (indentText s.beautiful st.length ++ [125]))) st, stack := below })) := by
  intro es ts hf
  induction hf with
  | nil =>
      intro pos it s first st hdrop hsize ho hst
      have hhead : s.stack.head? = some .Object ∨ s.stack.head? = some .ObjectNextPair := by
        rw [hst]; cases first
        · exact Or.inr rfl
        · exact Or.inl rfl
      simp only [walkObject, objectTail, renderMembers, Option.map_some', ObjectEnd_emit s ho hhead]
      have h1 : s.stack.length - 1 = st.length := by rw [hst]; simp
      have h2 : s.stack.tail = st := by rw [hst]; rfl
      rw [h1, h2, List.nil_append]
      exact runs_here h _
  | @cons e m es1 ts1 hhead htail ih =>
      intro pos it s first st hdrop hsize ho hst
      obtain ⟨key, c⟩ := e
      obtain ⟨key1, tc⟩ := m
      obtain ⟨hkey, k, htree⟩ := hhead
      simp only at hkey htree
      subst hkey
      have hhd : s.stack.head? = some .Object ∨ s.stack.head? = some .ObjectNextPair := by
        rw [hst]; cases first
        · exact Or.inr rfl
        · exact Or.inl rfl
      have hpre : keyPrefix s.beautiful s.stack = entryPrefix s.beautiful (st.length + 1) first := by
        rw [hst]; cases first <;> rfl
      have htail1 : s.stack.tail = st := by rw [hst]; rfl
      have hsz : tc.size < N := hsize (key1, tc) (List.mem_cons_self _ _)
      have hsize1 : ∀ m ∈ ts1, m.2.size < N := fun m hm => hsize m (List.mem_cons_of_mem _ hm)
      have hdrop1 : entries.drop (pos + 1) = es1 := drop_next entries pos _ _ hdrop
      simp only [walkObject]
      by_cases hk : acceptsString key1 = true
      · rw [ObjectKey_emit key1 s ho hhd hk, hpre, htail1]
        simp only []
        have ho1 : (s.emit (entryPrefix s.beautiful (st.length + 1) first ++ (quoteText key1 ++ [58]))
            (.ObjectKey :: st)).isOpen = true := by rw [emit_isOpen]; exact ho
        by_cases hc : JsonWriter.isContainer h c = true
        · -- the value is a container: the pass ends, the child is written, the object resumes
          have hnot := not_onStack h ((v, it) :: below) c k tc htree
            (above_push h N tc.size v it below hsz hself habove)
          simp only [entry, hc, hnot, if_true, Bool.false_eq_true, if_false, objectTail]
          have hr := hsub c tc k htree hsz hc
            (s.emit (entryPrefix s.beautiful (st.length + 1) first ++ (quoteText key1 ++ [58]))
              (.ObjectKey :: st))
            ((v, .map (pos + 1)) :: below) ho1 (Or.inr (Or.inl rfl))
            (above_push h N tc.size v (.map (pos + 1)) below hsz hself habove)
          simp only [emit_beautiful, emit_stack, List.length_cons, valuePrefix, advanced,
            List.nil_append, emit_emit] at hr
          simp only [JsonWriter.Pass.Runs, renderMembers, hk, if_true]
          cases hrt : renderTree s.beautiful (st.length + 1) tc with
          | none =>
              rw [hrt] at hr
              simp only [Option.map_none'] at hr ⊢
              exact hr
          | some text =>
              rw [hrt] at hr
              simp only [Option.map_some'] at hr
              refine runs_then h _ _ _ hr ?_
              refine runs_step h _ v (.map (pos + 1)) below rfl _ ?_
              rw [pass_object h v (.map (pos + 1)) below _ map hv]
              simp only [resume, Nat.add_one_ne_zero, beq_iff_eq, if_false, hm, Option.getD_some,
                hdrop1]
              have hi := ih (pos + 1) (.map (pos + 1))
                (s.emit (entryPrefix s.beautiful (st.length + 1) first
                  ++ (quoteText key1 ++ [58]) ++ text) (.ObjectNextPair :: st))
                false st hdrop1 hsize1 (by rw [emit_isOpen]; exact ho) rfl
              simp only [emit_beautiful, emit_emit] at hi
              cases hrm : renderMembers s.beautiful (st.length + 1) false ts1 with
              | none =>
                  rw [hrm] at hi
                  simp only [Option.map_none'] at hi ⊢
                  exact hi
              | some rest =>
                  rw [hrm] at hi
                  simp only [Option.map_some'] at hi ⊢
                  have e1 : entryPrefix s.beautiful (st.length + 1) first
                        ++ (quoteText key1 ++ [58]) ++ text
                        ++ (rest ++ (newlineText s.beautiful
                          ++ (indentText s.beautiful st.length ++ [125])))
                      = entryPrefix s.beautiful (st.length + 1) first
                        ++ (quoteText key1 ++ 58 :: (text ++ rest))
                        ++ (newlineText s.beautiful
                          ++ (indentText s.beautiful st.length ++ [125])) := by
                    simp only [List.append_assoc, List.singleton_append, List.cons_append, List.nil_append]
                  rw [e1] at hi
                  exact hi
        · -- the value is a scalar: the inner loop goes on
          have hc1 : JsonWriter.isContainer h c = false := by simpa using hc
          simp only [entry, hc1, Bool.false_eq_true, if_false]
          obtain ⟨hno, hna, hres⟩ := writeValue_scalar h c k tc htree hc1
            (s.emit (entryPrefix s.beautiful (st.length + 1) first ++ (quoteText key1 ++ [58]))
              (.ObjectKey :: st)) ho1 (Or.inl rfl)
          have hrs := renderTree_scalar s.beautiful (st.length + 1) tc hno hna
          rcases hres with ⟨text, hst1, hcall⟩ | ⟨hst1, w1, hcall⟩
          · rw [hcall]
            simp only [emit_beautiful, emit_stack, valuePrefix, advanced, List.nil_append,
              emit_emit]
            have hi := ih (pos + 1) it
              (s.emit (entryPrefix s.beautiful (st.length + 1) first
                ++ (quoteText key1 ++ [58]) ++ text) (.ObjectNextPair :: st))
              false st hdrop1 hsize1 (by rw [emit_isOpen]; exact ho) rfl
            simp only [emit_beautiful, emit_emit] at hi
            simp only [renderMembers, hk, if_true, hrs, hst1]
            cases hrm : renderMembers s.beautiful (st.length + 1) false ts1 with
            | none =>
                rw [hrm] at hi
                simp only [Option.map_none'] at hi ⊢
                exact hi
            | some rest =>
                rw [hrm] at hi
                simp only [Option.map_some'] at hi ⊢
                have e1 : entryPrefix s.beautiful (st.length + 1) first
                      ++ (quoteText key1 ++ [58]) ++ text
                      ++ (rest ++ (newlineText s.beautiful
                        ++ (indentText s.beautiful st.length ++ [125])))
                    = entryPrefix s.beautiful (st.length + 1) first
                      ++ (quoteText key1 ++ 58 :: (text ++ rest))
                      ++ (newlineText s.beautiful
                        ++ (indentText s.beautiful st.length ++ [125])) := by
                  simp only [List.append_assoc, List.singleton_append, List.cons_append, List.nil_append]
                rw [e1] at hi
                exact hi
          · rw [hcall]
            simp only [objectTail, JsonWriter.Pass.Runs, renderMembers, hk, if_true, hrs, hst1,
              Option.map_none', and_self]
      · -- the key is rejected
        have hk1 : acceptsString key1 = false := by simpa using hk
        obtain ⟨_, _, _, _, _, _, hcall⟩ := ObjectKey_rejected key1 s ho hhd hk1
        rw [hcall]
        simp only [objectTail, JsonWriter.Pass.Runs, renderMembers, hk1, Bool.false_eq_true,
          if_false, Option.map_none', and_self]

/-- The passes over the elements of an array from the iterator `pos` on. -/
theorem elements_run (h : Heap) (v : JsonValue) (array : Nat)
    (elements : List JsonValue) (N : Nat)
    (hv : h.values[v.value]? = some (.Array array)) (hm : h.arrays[array]? = some elements)
    (hsub : ∀ (c : JsonValue) (tc : ValueTree) (k : Nat), h.tree k c = some tc → tc.size < N →
      JsonWriter.isContainer h c = true → JsonWriter.Renders h c tc)
    (below : List (JsonValue × Variant)) (habove : JsonWriter.Above h N below)
    (hself : ∀ n t, h.tree n v = some t → t.size = N) :
    ∀ (es : List JsonValue) (ts : List ValueTree),
      List.Forall₂ (fun e m => ∃ k, h.tree k e = some m) es ts →
      ∀ (pos : Nat) (it : Variant) (s : JsonSAXWriter) (first : Bool) (st : List Condition),
      elements.drop pos = es → (∀ m ∈ ts, m.size < N) →
      s.isOpen = true → s.stack = (if first then Condition.Array else .ArrayNextValue) :: st →
      (arrayTail v below ((v, it) :: below)
          (walkArray h ((v, it) :: below) es pos s)).Runs h
        ((renderElements s.beautiful (st.length + 1) first ts).map (fun body =>
          { sax := s.emit (body ++ (newlineText s.beautiful
              ++ (indentText s.beautiful st.length ++ [93]))) st, stack := below })) := by
  intro es ts hf
  induction hf with
  | nil =>
      intro pos it s first st hdrop hsize ho hst
      have hne : s.stack ≠ [] := by rw [hst]; exact List.cons_ne_nil _ _
      simp only [walkArray, arrayTail, renderElements, Option.map_some', ArrayEnd_emit s ho hne]
      have h1 : s.stack.length - 1 = st.length := by rw [hst]; simp
      have h2 : s.stack.tail = st := by rw [hst]; rfl
      rw [h1, h2, List.nil_append]
      exact runs_here h _
  | @cons c tc es1 ts1 hhead htail ih =>
      intro pos it s first st hdrop hsize ho hst
      obtain ⟨k, htree⟩ := hhead
      have hhd : s.stack.head? = some .ObjectKey ∨ s.stack.head? = some .Array
          ∨ s.stack.head? = some .ArrayNextValue := by
        rw [hst]; cases first
        · exact Or.inr (Or.inr rfl)
        · exact Or.inr (Or.inl rfl)
      have hpre : valuePrefix s.beautiful s.stack
          = entryPrefix s.beautiful (st.length + 1) first := by
        rw [hst]; cases first <;> rfl
      have hadv : advanced s.stack = .ArrayNextValue :: st := by
        rw [hst]; cases first <;> rfl
      have hlen : s.stack.length = st.length + 1 := by rw [hst]; simp
      have hsz : tc.size < N := hsize tc (List.mem_cons_self _ _)
      have hsize1 : ∀ m ∈ ts1, m.size < N := fun m hm => hsize m (List.mem_cons_of_mem _ hm)
      have hdrop1 : elements.drop (pos + 1) = es1 := drop_next elements pos _ _ hdrop
      simp only [walkArray]
      by_cases hc : JsonWriter.isContainer h c = true
      · have hnot := not_onStack h ((v, it) :: below) c k tc htree
          (above_push h N tc.size v it below hsz hself habove)
        simp only [entry, hc, hnot, if_true, Bool.false_eq_true, if_false, arrayTail]
        have hr := hsub c tc k htree hsz hc s ((v, .vector (pos + 1)) :: below) ho
          (Or.inr hhd) (above_push h N tc.size v (.vector (pos + 1)) below hsz hself habove)
        rw [hpre, hadv, hlen] at hr
        simp only [JsonWriter.Pass.Runs, renderElements]
        cases hrt : renderTree s.beautiful (st.length + 1) tc with
        | none =>
            rw [hrt] at hr
            simp only [Option.map_none'] at hr ⊢
            exact hr
        | some text =>
            rw [hrt] at hr
            simp only [Option.map_some'] at hr
            refine runs_then h _ _ _ hr ?_
            refine runs_step h _ v (.vector (pos + 1)) below rfl _ ?_
            rw [pass_array h v (.vector (pos + 1)) below _ array hv]
            simp only [resume, Nat.add_one_ne_zero, beq_iff_eq, if_false, hm, Option.getD_some,
              hdrop1]
            have hi := ih (pos + 1) (.vector (pos + 1))
              (s.emit (entryPrefix s.beautiful (st.length + 1) first ++ text)
                (.ArrayNextValue :: st))
              false st hdrop1 hsize1 (by rw [emit_isOpen]; exact ho) rfl
            simp only [emit_beautiful, emit_emit] at hi
            cases hrm : renderElements s.beautiful (st.length + 1) false ts1 with
            | none =>
                rw [hrm] at hi
                simp only [Option.map_none'] at hi ⊢
                exact hi
            | some rest =>
                rw [hrm] at hi
                simp only [Option.map_some'] at hi ⊢
                have e1 : entryPrefix s.beautiful (st.length + 1) first ++ text
                      ++ (rest ++ (newlineText s.beautiful
                        ++ (indentText s.beautiful st.length ++ [93])))
                    = entryPrefix s.beautiful (st.length + 1) first ++ (text ++ rest)
                      ++ (newlineText s.beautiful
                        ++ (indentText s.beautiful st.length ++ [93])) := by
                  simp only [List.append_assoc, List.singleton_append, List.cons_append,
                    List.nil_append]
                rw [e1] at hi
                exact hi
      · have hc1 : JsonWriter.isContainer h c = false := by simpa using hc
        simp only [entry, hc1, Bool.false_eq_true, if_false]
        obtain ⟨hno, hna, hres⟩ := writeValue_scalar h c k tc htree hc1 s ho hhd
        have hrs := renderTree_scalar s.beautiful (st.length + 1) tc hno hna
        rcases hres with ⟨text, hst1, hcall⟩ | ⟨hst1, w1, hcall⟩
        · rw [hcall, hpre, hadv]
          simp only []
          have hi := ih (pos + 1) it
            (s.emit (entryPrefix s.beautiful (st.length + 1) first ++ text)
              (.ArrayNextValue :: st))
            false st hdrop1 hsize1 (by rw [emit_isOpen]; exact ho) rfl
          simp only [emit_beautiful, emit_emit] at hi
          simp only [renderElements, hrs, hst1]
          cases hrm : renderElements s.beautiful (st.length + 1) false ts1 with
          | none =>
              rw [hrm] at hi
              simp only [Option.map_none'] at hi ⊢
              exact hi
          | some rest =>
              rw [hrm] at hi
              simp only [Option.map_some'] at hi ⊢
              have e1 : entryPrefix s.beautiful (st.length + 1) first ++ text
                    ++ (rest ++ (newlineText s.beautiful
                      ++ (indentText s.beautiful st.length ++ [93])))
                  = entryPrefix s.beautiful (st.length + 1) first ++ (text ++ rest)
                    ++ (newlineText s.beautiful
                      ++ (indentText s.beautiful st.length ++ [93])) := by
                simp only [List.append_assoc, List.singleton_append, List.cons_append,
                  List.nil_append]
              rw [e1] at hi
              exact hi
        · rw [hcall]
          simp only [arrayTail, JsonWriter.Pass.Runs, renderElements, hrs, hst1,
            Option.map_none', and_self]



open JsonSAXWriter JsonWriter

theorem advanced_length (stack : List Condition) : (advanced stack).length = stack.length := by
  cases stack with
  | nil => rfl
  | cons c st => cases c <;> rfl

theorem takesValue_begin (s : JsonSAXWriter) (ht : s.takesValue) :
    s.stack.head? ≠ some .Object ∧ s.stack.head? ≠ some .ObjectNextPair := by
  rcases ht with h0 | h1 | h2 | h3
  · rw [h0]; exact ⟨by simp, by simp⟩
  · rw [h1]; exact ⟨by simp, by simp⟩
  · rw [h2]; exact ⟨by simp, by simp⟩
  · rw [h3]; exact ⟨by simp, by simp⟩

/-- The passes over a container write the text of its tree, or return false
when the tree has no text. -/
theorem renders_all (h : Heap) :
    ∀ (N : Nat) (v : JsonValue) (t : ValueTree) (k : Nat), h.tree k v = some t → t.size = N →
      JsonWriter.isContainer h v = true → JsonWriter.Renders h v t := by
  intro N
  induction N using Nat.strong_induction_on with
  | _ N ih =>
      intro v t k htree hN hc s below ho htake habove
      have hsub : ∀ (c : JsonValue) (tc : ValueTree) (k : Nat), h.tree k c = some tc →
          tc.size < N → JsonWriter.isContainer h c = true → JsonWriter.Renders h c tc :=
        fun c tc k1 h1 h2 h3 => ih tc.size h2 c tc k1 h1 rfl h3
      have hself : ∀ n t1, h.tree n v = some t1 → t1.size = N := by
        intro n t1 h1
        rw [tree_unique h v n k t1 t h1 htree]; exact hN
      rw [hN] at habove
      have hbegin := begin_emit s ho (takesValue_begin s htake)
      rcases isContainer_cell h v hc with ⟨map, hv⟩ | ⟨array, hv⟩
      · obtain ⟨entries, ms, hm, rfl, hf⟩ := tree_object h k v t map htree hv
        refine runs_step h _ v .monostate below rfl _ ?_
        rw [pass_object h v .monostate below _ map hv]
        simp only [resume, beq_self_eq_true, if_true, hbegin.1, hm, Option.getD_some,
          List.drop_zero]
        have hsize : ∀ m ∈ ms, m.2.size < N := by
          intro m hmem
          have := member_size ms m hmem
          simp only [ValueTree.size] at hN
          omega
        have hr := members_run h v map entries N hv hm hsub below habove hself entries ms hf 0
          .monostate
          (s.emit (valuePrefix s.beautiful s.stack ++ 123 :: newlineText s.beautiful)
            (.Object :: advanced s.stack))
          true (advanced s.stack) (List.drop_zero _) hsize (by rw [emit_isOpen]; exact ho) rfl
        simp only [emit_beautiful, emit_emit, advanced_length] at hr
        simp only [renderTree, Option.map_map]
        cases hrm : renderMembers s.beautiful (s.stack.length + 1) true ms with
        | none =>
            rw [hrm] at hr
            simp only [Option.map_none'] at hr ⊢
            exact hr
        | some body =>
            rw [hrm] at hr
            simp only [Option.map_some', Function.comp] at hr ⊢
            have e1 : valuePrefix s.beautiful s.stack ++ 123 :: newlineText s.beautiful
                  ++ (body ++ (newlineText s.beautiful
                    ++ (indentText s.beautiful s.stack.length ++ [125])))
                = valuePrefix s.beautiful s.stack
                  ++ 123 :: (newlineText s.beautiful ++ body ++ newlineText s.beautiful
                    ++ indentText s.beautiful s.stack.length ++ [125]) := by
              simp only [List.append_assoc, List.singleton_append, List.cons_append,
                List.nil_append]
            rw [e1] at hr
            exact hr
      · obtain ⟨elements, es, hm, rfl, hf⟩ := tree_array h k v t array htree hv
        refine runs_step h _ v .monostate below rfl _ ?_
        rw [pass_array h v .monostate below _ array hv]
        simp only [resume, beq_self_eq_true, if_true, hbegin.2, hm, Option.getD_some,
          List.drop_zero]
        have hsize : ∀ m ∈ es, m.size < N := by
          intro m hmem
          have := element_size es m hmem
          simp only [ValueTree.size] at hN
          omega
        have hr := elements_run h v array elements N hv hm hsub below habove hself elements es hf
          0 .monostate
          (s.emit (valuePrefix s.beautiful s.stack ++ 91 :: newlineText s.beautiful)
            (.Array :: advanced s.stack))
          true (advanced s.stack) (List.drop_zero _) hsize (by rw [emit_isOpen]; exact ho) rfl
        simp only [emit_beautiful, emit_emit, advanced_length] at hr
        simp only [renderTree, Option.map_map]
        cases hrm : renderElements s.beautiful (s.stack.length + 1) true es with
        | none =>
            rw [hrm] at hr
            simp only [Option.map_none'] at hr ⊢
            exact hr
        | some body =>
            rw [hrm] at hr
            simp only [Option.map_some', Function.comp] at hr ⊢
            have e1 : valuePrefix s.beautiful s.stack ++ 91 :: newlineText s.beautiful
                  ++ (body ++ (newlineText s.beautiful
                    ++ (indentText s.beautiful s.stack.length ++ [93])))
                = valuePrefix s.beautiful s.stack
                  ++ 91 :: (newlineText s.beautiful ++ body ++ newlineText s.beautiful
                    ++ indentText s.beautiful s.stack.length ++ [93]) := by
              simp only [List.append_assoc, List.singleton_append, List.cons_append,
                List.nil_append]
            rw [e1] at hr
            exact hr



open JsonSAXWriter JsonWriter

/-! ## The text `JsonWriter::write` leaves in the sink -/

/-- The begin calls at the root fail on a sink that takes no bytes. -/
theorem begin_closed (w : JsonSAXWriter) (b : JsonBufferWriter) (hb : w.buffer = some b)
    (hc : b.is_open = false) (hst : w.stack = []) :
    (∃ s1, ObjectBegin w = (.false, s1)) ∧ (∃ s1, ArrayBegin w = (.false, s1)) := by
  obtain ⟨bf, e, buffer, stack⟩ := w
  simp only at hb hst
  subst hb hst
  constructor
  · refine ⟨{ beautiful := bf, _error := .BufferEnding, buffer := some b, stack := [] }, ?_⟩
    simp [ObjectBegin, seq, checkBuffer, checkIsNotObject, containerEnd,
      writeChar, JsonBufferWriter.write, hc, failWith, isControlCode]
  · refine ⟨{ beautiful := bf, _error := .BufferEnding, buffer := some b, stack := [] }, ?_⟩
    simp [ArrayBegin, seq, checkBuffer, checkIsNotObject, containerEnd,
      writeChar, JsonBufferWriter.write, hc, failWith, isControlCode]

/-- On a sink that takes no bytes the loop returns false in its first pass. -/
theorem writeLoop_closed (h : Heap) (w : JsonWriter) (buffer : JsonBufferWriter)
    (json : JsonValue) (beautiful : Bool) (hc : JsonWriter.isContainer h json = true)
    (ho : buffer.is_open = false) :
    ∃ w1, writeLoop h 1 (w.start buffer json beautiful) = some (.false, w1) := by
  have hb := begin_closed (w.sax.setBuffer (some buffer) beautiful) buffer rfl ho rfl
  rw [writeLoop]
  simp only [JsonWriter.start]
  rcases isContainer_cell h json hc with ⟨map, hv⟩ | ⟨array, hv⟩
  · obtain ⟨s1, h1⟩ := hb.1
    rw [pass_object h json .monostate [] _ map hv]
    simp only [resume, beq_self_eq_true, if_true, h1]
    exact ⟨_, rfl⟩
  · obtain ⟨s1, h1⟩ := hb.2
    rw [pass_array h json .monostate [] _ array hv]
    simp only [resume, beq_self_eq_true, if_true, h1]
    exact ⟨_, rfl⟩

/-- The sink with the bytes `text` appended. -/
theorem setBuffer_emit (s : JsonSAXWriter) (buffer : JsonBufferWriter) (beautiful : Bool)
    (text : List Nat) :
    ((s.setBuffer (some buffer) beautiful).emit text []).buffer
      = some { buffer with count := buffer.count + text.length, json := buffer.json ++ text } := rfl

/-- The loop of `write` on a container with a tree and a sink that takes bytes:
it returns true with the text of the tree appended to the sink, or it returns
false, when the tree has no text. -/
theorem writeLoop_renders (h : Heap) (w : JsonWriter) (buffer : JsonBufferWriter)
    (json : JsonValue) (beautiful : Bool) (k : Nat) (t : ValueTree)
    (htree : h.tree k json = some t) (hc : JsonWriter.isContainer h json = true)
    (ho : buffer.is_open = true) :
    ∃ fuel w1,
      writeLoop h fuel (w.start buffer json beautiful)
        = some ((match renderTree beautiful 0 t with
                  | some _ => .true
                  | none => .false), w1)
      ∧ ∀ text, renderTree beautiful 0 t = some text →
          w1.sax.buffer = some { buffer with count := buffer.count + text.length,
                                             json := buffer.json ++ text } := by
  have hr := renders_all h t.size json t k htree rfl hc
    (w.sax.setBuffer (some buffer) beautiful) [] ho (Or.inl rfl)
    (fun e he => absurd he (List.not_mem_nil _))
  have h0 : (w.sax.setBuffer (some buffer) beautiful).stack = [] := rfl
  have hbf : (w.sax.setBuffer (some buffer) beautiful).beautiful = beautiful := rfl
  rw [h0, hbf] at hr
  simp only [List.length_nil, valuePrefix, advanced, List.nil_append] at hr
  cases hrt : renderTree beautiful 0 t with
  | none =>
      rw [hrt] at hr
      obtain ⟨fuel, w1, hf⟩ := hr
      exact ⟨fuel, w1, hf, fun text ht => Option.noConfusion ht⟩
  | some text =>
      rw [hrt] at hr
      obtain ⟨n, hn⟩ := hr
      refine ⟨n + 1,
        { sax := (w.sax.setBuffer (some buffer) beautiful).emit text [], stack := [] }, ?_, ?_⟩
      · have := writeLoop_after h n _ _ hn 1
        simp only [JsonWriter.start]
        rw [this]
        rfl
      · intro text1 ht1
        rw [← Option.some.inj ht1]
        rfl

/-- The result of `write` does not depend on the number of passes allowed. -/
theorem writeLoop_unique (h : Heap) (w : JsonWriter) (a b : Nat) (r r1 : Out × JsonWriter)
    (ha : writeLoop h a w = some r) (hb : writeLoop h b w = some r1) : r = r1 := by
  have h1 := writeLoop_mono h a w r ha b
  have h2 := writeLoop_mono h b w r1 hb a
  rw [Nat.add_comm] at h2
  rw [h1] at h2
  exact Option.some.inj h2

/-- A call `write(buffer, json, beautiful)` that returns true, on a value with a
tree: the tree has a text, and the sink holds what it held and that text. -/
theorem written_true (fuel : Nat) (h : Heap) (w : JsonWriter) (buffer b1 : JsonBufferWriter)
    (json : JsonValue) (beautiful : Bool) (k : Nat) (t : ValueTree)
    (htree : h.tree k json = some t)
    (hw : JsonWriter.written fuel h w buffer json beautiful = some (.true, b1)) :
    JsonWriter.isContainer h json = true ∧ buffer.is_open = true
      ∧ ∃ text, renderTree beautiful 0 t = some text
        ∧ b1 = { buffer with count := buffer.count + text.length, json := buffer.json ++ text } := by
  unfold JsonWriter.written at hw
  by_cases hroot : (h.type json != some .Object && h.type json != some .Array) = true
  · rw [if_pos hroot] at hw
    exact Out.noConfusion (congrArg Prod.fst (Option.some.inj hw))
  · rw [if_neg hroot] at hw
    have hc : JsonWriter.isContainer h json = true := by
      unfold JsonWriter.isContainer
      cases hty : h.type json with
      | none => rw [hty] at hroot; simp at hroot
      | some ty => rw [hty] at hroot; cases ty <;> simp at hroot ⊢
    rw [write_eq fuel h w buffer json beautiful hc] at hw
    cases hl : writeLoop h fuel (w.start buffer json beautiful) with
    | none => rw [hl] at hw; exact Option.noConfusion hw
    | some r =>
        obtain ⟨out, w1⟩ := r
        rw [hl] at hw
        simp only [Option.some.injEq, Prod.mk.injEq] at hw
        obtain ⟨hout, hbuf⟩ := hw
        subst hout
        have hopen : buffer.is_open = true := by
          cases hb : buffer.is_open with
          | true => rfl
          | false =>
              obtain ⟨w2, h2⟩ := writeLoop_closed h w buffer json beautiful hc hb
              have := writeLoop_unique h _ _ _ _ _ hl h2
              exact Out.noConfusion (congrArg Prod.fst this)
        refine ⟨hc, hopen, ?_⟩
        obtain ⟨fuel1, w2, h2, htext⟩ :=
          writeLoop_renders h w buffer json beautiful k t htree hc hopen
        have hu := writeLoop_unique h _ _ _ _ _ hl h2
        cases hrt : renderTree beautiful 0 t with
        | none =>
            rw [hrt] at hu
            exact Out.noConfusion (congrArg Prod.fst hu)
        | some text =>
            refine ⟨text, rfl, ?_⟩
            have hw2 : w1 = w2 := congrArg Prod.snd hu
            rw [← hbuf, hw2, htext text hrt]
            rfl

/-- A call `write(buffer, json, beautiful)` on a container whose tree has a
text, with a sink that takes bytes: with enough passes it returns true and
appends the text. -/
theorem written_text (h : Heap) (w : JsonWriter) (buffer : JsonBufferWriter)
    (json : JsonValue) (beautiful : Bool) (k : Nat) (t : ValueTree) (text : List Nat)
    (htree : h.tree k json = some t) (hc : JsonWriter.isContainer h json = true)
    (ho : buffer.is_open = true) (ht : renderTree beautiful 0 t = some text) :
    ∃ fuel0, ∀ fuel, fuel0 ≤ fuel →
      JsonWriter.written fuel h w buffer json beautiful
        = some (.true, { buffer with count := buffer.count + text.length,
                                     json := buffer.json ++ text }) := by
  obtain ⟨fuel0, w1, h1, htext⟩ := writeLoop_renders h w buffer json beautiful k t htree hc ho
  rw [ht] at h1
  refine ⟨fuel0, fun fuel hle => ?_⟩
  have hm := writeLoop_mono h fuel0 _ _ h1 (fuel - fuel0)
  rw [Nat.add_sub_cancel' hle] at hm
  unfold JsonWriter.written
  have hroot : (h.type json != some .Object && h.type json != some .Array) = false := by
    unfold JsonWriter.isContainer at hc
    cases hty : h.type json with
    | none => rw [hty] at hc; simp at hc
    | some ty => rw [hty] at hc; cases ty <;> simp at hc ⊢
  rw [hroot]
  simp only [Bool.false_eq_true, if_false]
  rw [write_eq fuel h w buffer json beautiful hc, hm]
  simp only [htext text ht, Option.getD_some]




/-! ## The order of the keys -/

theorem keyLess_cons (a b : Nat) (as bs : List Nat) :
    keyLess (a :: as) (b :: bs) = true ↔ a < b ∨ (a = b ∧ keyLess as bs = true) := by
  simp only [keyLess, Bool.or_eq_true, decide_eq_true_eq, Bool.and_eq_true, beq_iff_eq]

theorem keyLess_trans : ∀ a b c : List Nat, keyLess a b = true → keyLess b c = true →
    keyLess a c = true
  | [], [], _, h1, _ => by simp [keyLess] at h1
  | [], _ :: _, [], _, h2 => by simp [keyLess] at h2
  | [], _ :: _, _ :: _, _, _ => rfl
  | _ :: _, [], _, h1, _ => by simp [keyLess] at h1
  | _ :: _, _ :: _, [], _, h2 => by simp [keyLess] at h2
  | a :: as, b :: bs, c :: cs, h1, h2 => by
      rw [keyLess_cons] at h1 h2 ⊢
      rcases h1 with h1 | ⟨rfl, h1⟩
      · rcases h2 with h2 | ⟨rfl, h2⟩
        · exact Or.inl (lt_trans h1 h2)
        · exact Or.inl h1
      · rcases h2 with h2 | ⟨rfl, h2⟩
        · exact Or.inl h2
        · exact Or.inr ⟨rfl, keyLess_trans as bs cs h1 h2⟩

theorem keyLess_asymm (a b : List Nat) (h1 : keyLess a b = true) : keyLess b a = false := by
  cases h2 : keyLess b a with
  | false => rfl
  | true =>
      have := keyLess_trans a b a h1 h2
      rw [keyLess_irrefl] at this
      exact Bool.noConfusion this

/-- The order of the keys is the lexicographic order of the byte strings. -/
theorem keyLess_lex : ∀ a b : List Nat, keyLess a b = true ↔ List.Lex (· < ·) a b
  | [], [] => by
      simp only [keyLess, Bool.false_eq_true, false_iff]
      intro hx; cases hx
  | [], _ :: _ => by
      simp only [keyLess, true_iff]
      exact List.Lex.nil
  | _ :: _, [] => by
      simp only [keyLess, Bool.false_eq_true, false_iff]
      intro hx; cases hx
  | a :: as, b :: bs => by
      rw [keyLess_cons]
      constructor
      · rintro (h1 | ⟨rfl, h1⟩)
        · exact List.Lex.rel h1
        · exact List.Lex.cons ((keyLess_lex as bs).mp h1)
      · intro hx
        cases hx with
        | cons h1 => exact Or.inr ⟨rfl, (keyLess_lex _ _).mpr h1⟩
        | rel h1 => exact Or.inl h1

theorem mapInsert_mem (key : List Nat) (value : JsonValue) :
    ∀ (entries : List (List Nat × JsonValue)) (p : List Nat × JsonValue),
      p ∈ mapInsert key value entries → p = (key, value) ∨ p ∈ entries
  | [], p, hp => by
      simp only [mapInsert, List.mem_singleton] at hp
      exact Or.inl hp
  | (k, v) :: rest, p, hp => by
      simp only [mapInsert] at hp
      by_cases h1 : keyLess key k = true
      · rw [if_pos h1] at hp
        rcases List.mem_cons.mp hp with hp | hp
        · exact Or.inl hp
        · exact Or.inr hp
      · rw [if_neg h1] at hp
        by_cases h2 : keyLess k key = true
        · rw [if_pos h2] at hp
          rcases List.mem_cons.mp hp with hp | hp
          · exact Or.inr (by rw [hp]; exact List.mem_cons_self _ _)
          · rcases mapInsert_mem key value rest p hp with hp | hp
            · exact Or.inl hp
            · exact Or.inr (List.mem_cons_of_mem _ hp)
        · rw [if_neg h2] at hp
          exact Or.inr hp

/-- The keys behind `insert`: the new key and the old ones. -/
theorem mapInsert_keys (key : List Nat) (value : JsonValue) :
    ∀ (entries : List (List Nat × JsonValue)) (k : List Nat),
      k ∈ (mapInsert key value entries).map Prod.fst ↔ k = key ∨ k ∈ entries.map Prod.fst
  | [], k => by simp [mapInsert]
  | (k0, v) :: rest, k => by
      simp only [mapInsert]
      by_cases h1 : keyLess key k0 = true
      · rw [if_pos h1]; simp
      · rw [if_neg h1]
        by_cases h2 : keyLess k0 key = true
        · rw [if_pos h2]
          simp only [List.map_cons, List.mem_cons]
          rw [mapInsert_keys key value rest k]
          tauto
        · rw [if_neg h2]
          have e : k0 = key := keyLess_total k0 key (by simpa using h2) (by simpa using h1)
          simp only [List.map_cons, List.mem_cons, e]
          tauto

/-- `insert` keeps the entries in strictly increasing key order. -/
theorem mapInsert_ascend (key : List Nat) (value : JsonValue) :
    ∀ entries : List (List Nat × JsonValue), KeysAscend entries →
      KeysAscend (mapInsert key value entries)
  | [], _ => by simp [mapInsert, KeysAscend]
  | (k, v) :: rest, ha => by
      unfold KeysAscend at ha ⊢
      rw [List.pairwise_cons] at ha
      simp only [mapInsert]
      by_cases h1 : keyLess key k = true
      · rw [if_pos h1]
        rw [List.pairwise_cons]
        refine ⟨?_, List.pairwise_cons.mpr ha⟩
        intro q hq
        rcases List.mem_cons.mp hq with hq | hq
        · rw [hq]; exact h1
        · exact keyLess_trans _ _ _ h1 (ha.1 q hq)
      · rw [if_neg h1]
        by_cases h2 : keyLess k key = true
        · rw [if_pos h2, List.pairwise_cons]
          refine ⟨?_, mapInsert_ascend key value rest ha.2⟩
          intro q hq
          rcases mapInsert_mem key value rest q hq with hq | hq
          · rw [hq]; exact h2
          · exact ha.1 q hq
        · rw [if_neg h2]
          exact List.pairwise_cons.mpr ha

theorem foldl_ascend (pairs : List (List Nat × JsonValue)) :
    ∀ entries : List (List Nat × JsonValue), KeysAscend entries →
      KeysAscend (pairs.foldl (fun entries p => mapInsert p.1 p.2 entries) entries) := by
  induction pairs with
  | nil => intro entries ha; exact ha
  | cons p pairs ih =>
      intro entries ha
      exact ih _ (mapInsert_ascend p.1 p.2 entries ha)

/-- Whatever the order of the `insert` calls, the entries stand in strictly
increasing key order. -/
theorem insertAll_ascend (pairs : List (List Nat × JsonValue)) : KeysAscend (insertAll pairs) :=
  foldl_ascend pairs [] List.Pairwise.nil

theorem foldl_keys (pairs : List (List Nat × JsonValue)) :
    ∀ (entries : List (List Nat × JsonValue)) (k : List Nat),
      k ∈ (pairs.foldl (fun entries p => mapInsert p.1 p.2 entries) entries).map Prod.fst
        ↔ k ∈ pairs.map Prod.fst ∨ k ∈ entries.map Prod.fst := by
  induction pairs with
  | nil => intro entries k; simp
  | cons p pairs ih =>
      intro entries k
      rw [List.foldl_cons, ih, mapInsert_keys]
      simp only [List.map_cons, List.mem_cons]
      tauto

theorem insertAll_keys (pairs : List (List Nat × JsonValue)) (k : List Nat) :
    k ∈ (insertAll pairs).map Prod.fst ↔ k ∈ pairs.map Prod.fst := by
  unfold insertAll
  rw [foldl_keys]
  simp

theorem ascend_keys {α : Type} (entries : List (List Nat × α)) (ha : KeysAscend entries) :
    (entries.map Prod.fst).Pairwise (fun a b => keyLess a b = true) := by
  unfold KeysAscend at ha
  rw [List.pairwise_map]
  exact ha

/-- Keys in strictly increasing order are pairwise different. -/
theorem ascend_nodup {α : Type} (entries : List (List Nat × α)) (ha : KeysAscend entries) :
    (entries.map Prod.fst).Nodup := by
  have := ascend_keys entries ha
  unfold List.Nodup
  refine this.imp ?_
  intro a b hab hne
  rw [hne, keyLess_irrefl] at hab
  exact Bool.noConfusion hab

/-- Two key lists in strictly increasing order with the same keys are equal. -/
theorem ascend_unique (l1 l2 : List (List Nat))
    (h1 : l1.Pairwise (fun a b => keyLess a b = true))
    (h2 : l2.Pairwise (fun a b => keyLess a b = true))
    (hm : ∀ k, k ∈ l1 ↔ k ∈ l2) : l1 = l2 := by
  have n1 : l1.Nodup := h1.imp (fun hab hne => by
    rw [hne, keyLess_irrefl] at hab; exact Bool.noConfusion hab)
  have n2 : l2.Nodup := h2.imp (fun hab hne => by
    rw [hne, keyLess_irrefl] at hab; exact Bool.noConfusion hab)
  have hp : l1.Perm l2 := (List.perm_ext_iff_of_nodup n1 n2).mpr hm
  haveI : IsAntisymm (List Nat) (fun a b => keyLess a b = true) :=
    ⟨fun a b hab hba => by
      rw [keyLess_asymm a b hab] at hba; exact Bool.noConfusion hba⟩
  exact List.eq_of_perm_of_sorted hp h1 h2

/-- The keys of a map do not depend on the order of the `insert` calls. -/
theorem insertAll_perm (pairs pairs1 : List (List Nat × JsonValue)) (hp : pairs.Perm pairs1) :
    (insertAll pairs).map Prod.fst = (insertAll pairs1).map Prod.fst := by
  apply ascend_unique _ _ (ascend_keys _ (insertAll_ascend pairs))
    (ascend_keys _ (insertAll_ascend pairs1))
  intro k
  rw [insertAll_keys, insertAll_keys]
  exact (hp.map Prod.fst).mem_iff




open JsonStringViewBufferReader

/-! ## Heaps whose maps are in key order -/

theorem ordered_set (h : Heap) (i : Nat) (entries : List (List Nat × JsonValue))
    (ho : h.Ordered) (ha : KeysAscend entries) :
    Heap.Ordered { h with maps := h.maps.set i entries } := by
  intro es hes
  rcases List.mem_or_eq_of_mem_set hes with hm | rfl
  · exact ho es hm
  · exact ha

theorem ordered_maps (h h1 : Heap) (ho : h.Ordered) (hm : h1.maps = h.maps) : h1.Ordered := by
  intro es hes
  rw [hm] at hes
  exact ho es hes

theorem ordered_get (h : Heap) (ho : h.Ordered) (i : Nat) (entries : List (List Nat × JsonValue))
    (hi : h.maps[i]? = some entries) : KeysAscend entries := by
  obtain ⟨hlt, heq⟩ := List.getElem?_eq_some_iff.mp hi
  exact ho entries (by rw [← heq]; exact List.getElem_mem hlt)

theorem ordered_newMap (h : Heap) (ho : h.Ordered) : h.newMap.1.Ordered := by
  intro es hes
  simp only [Heap.newMap, List.mem_append, List.mem_singleton] at hes
  rcases hes with hm | rfl
  · exact ho es hm
  · exact List.Pairwise.nil

theorem ordered_newValue (h : Heap) (v : Value) (ho : h.Ordered) : (h.newValue v).1.Ordered :=
  ordered_maps h _ ho rfl

theorem ordered_newArray (h : Heap) (ho : h.Ordered) : h.newArray.1.Ordered :=
  ordered_maps h _ ho rfl

/-- `erase` keeps the entries in key order. -/
theorem mapErase_ascend (key : List Nat) (entries : List (List Nat × JsonValue))
    (ha : KeysAscend entries) : KeysAscend (mapErase key entries) :=
  List.Pairwise.sublist (List.filter_sublist _) ha

/-- The member functions of `Object` that change a map keep the maps of the heap
in key order. -/
theorem object_ordered (h : Heap) (o : Object) (key : List Nat) (ho : h.Ordered) :
    (∀ value h1, Object.insert h o key value = some h1 → h1.Ordered)
    ∧ (∀ h1, Object.remove h o key = some h1 → h1.Ordered)
    ∧ (∀ h1, Object.clear h o = some h1 → h1.Ordered)
    ∧ (∀ r, Object.index h o key = some r → r.1.Ordered)
    ∧ (∀ r, Object.copy h o = some r → r.1.Ordered) := by
  refine ⟨?_, ?_, ?_, ?_, ?_⟩
  · intro value h1 hi
    unfold Object.insert at hi
    cases hm : h.maps[o.map]? with
    | none => rw [hm] at hi; exact Option.noConfusion hi
    | some entries =>
        rw [hm] at hi
        rw [← Option.some.inj hi]
        exact ordered_set h _ _ ho (mapInsert_ascend key value entries (ordered_get h ho _ _ hm))
  · intro h1 hi
    unfold Object.remove at hi
    cases hm : h.maps[o.map]? with
    | none => rw [hm] at hi; exact Option.noConfusion hi
    | some entries =>
        rw [hm] at hi
        rw [← Option.some.inj hi]
        exact ordered_set h _ _ ho (mapErase_ascend key entries (ordered_get h ho _ _ hm))
  · intro h1 hi
    unfold Object.clear at hi
    cases hm : h.maps[o.map]? with
    | none => rw [hm] at hi; exact Option.noConfusion hi
    | some entries =>
        rw [hm] at hi
        rw [← Option.some.inj hi]
        exact ordered_set h _ _ ho List.Pairwise.nil
  · intro r hi
    unfold Object.index at hi
    cases hm : h.maps[o.map]? with
    | none => rw [hm] at hi; exact Option.noConfusion hi
    | some entries =>
        rw [hm] at hi
        simp only [] at hi
        cases hf : mapFind key entries with
        | some v =>
            rw [hf] at hi
            rw [← Option.some.inj hi]
            exact ho
        | none =>
            rw [hf] at hi
            rw [← Option.some.inj hi]
            exact ordered_set _ _ _ (ordered_newValue h .Empty ho)
              (mapInsert_ascend key _ entries (ordered_get h ho _ _ hm))
  · intro r hi
    unfold Object.copy at hi
    cases hm : h.maps[o.map]? with
    | none => rw [hm] at hi; exact Option.noConfusion hi
    | some entries =>
        rw [hm] at hi
        rw [← Option.some.inj hi]
        intro es hes
        simp only [List.mem_append, List.mem_singleton] at hes
        rcases hes with h1 | rfl
        · exact ho es h1
        · exact ordered_get h ho _ _ hm

section
variable {κ : Type}

theorem insertValue_ordered (value : JsonValue) (r r1 : JsonReader κ)
    (hi : JsonReader.insertValue value r = some r1) (ho : r.heap.Ordered) : r1.heap.Ordered := by
  unfold JsonReader.insertValue at hi
  cases hs : r.stack with
  | nil => rw [hs] at hi; simp at hi
  | cons cell below =>
      rw [hs] at hi
      simp only [] at hi
      by_cases hk : (!r.key.isEmpty) = true
      · rw [if_pos hk] at hi
        cases hc : r.heap.values[cell]? with
        | none => rw [hc] at hi; simp at hi
        | some x =>
            rw [hc] at hi
            cases x <;> simp only [reduceCtorEq] at hi
            rename_i map
            cases hm : r.heap.maps[map]? with
            | none => rw [hm] at hi; simp at hi
            | some entries =>
                rw [hm] at hi
                simp only [Option.some.injEq] at hi
                rw [← hi]
                exact ordered_set _ _ _ ho
                  (mapInsert_ascend r.key value entries (ordered_get _ ho _ _ hm))
      · rw [if_neg hk] at hi
        cases hc : r.heap.values[cell]? with
        | none => rw [hc] at hi; simp at hi
        | some x =>
            rw [hc] at hi
            cases x <;> simp only [reduceCtorEq] at hi
            rename_i array
            cases hm : r.heap.arrays[array]? with
            | none => rw [hm] at hi; simp at hi
            | some elements =>
                rw [hm] at hi
                simp only [Option.some.injEq] at hi
                rw [← hi]
                exact ordered_maps _ _ ho rfl

theorem begin_ordered (value : JsonValue) (r r1 : JsonReader κ)
    (hb : JsonReader.begin value r = some r1) (ho : r.heap.Ordered) : r1.heap.Ordered := by
  unfold JsonReader.begin at hb
  by_cases he : r.stack.isEmpty = true
  · rw [if_pos he] at hb
    rw [← Option.some.inj hb]
    exact ho
  · rw [if_neg he] at hb
    cases hi : JsonReader.insertValue value r with
    | none => rw [hi] at hb; simp at hb
    | some r2 =>
        rw [hi] at hb
        rw [← Option.some.inj hb]
        exact insertValue_ordered value r r2 hi ho

theorem scalar_ordered (v : Value) (r r1 : JsonReader κ)
    (hs : JsonReader.scalar v r = some r1) (ho : r.heap.Ordered) : r1.heap.Ordered := by
  unfold JsonReader.scalar at hs
  simp only [Heap.newValue] at hs
  exact insertValue_ordered _ _ r1 hs (ordered_maps r.heap _ ho rfl)

/-- Every hook of the builder keeps the maps of its heap in key order. -/
theorem hooks_ordered (callback : Callback κ) (e : Event) (r r1 : JsonReader κ) (b : Bool)
    (hh : JsonReader.hooks callback e r = some (r1, b)) (ho : r.heap.Ordered) :
    r1.heap.Ordered := by
  have hscalar : ∀ v, (JsonReader.scalar v r).map (fun x => (x, false)) = some (r1, b) →
      r1.heap.Ordered := by
    intro v hv
    cases hs : JsonReader.scalar v r with
    | none => rw [hs] at hv; simp at hv
    | some r2 =>
        rw [hs] at hv
        simp only [Option.map_some', Option.some.injEq, Prod.mk.injEq] at hv
        rw [← hv.1]
        exact scalar_ordered v r r2 hs ho
  have hbegin : ∀ (value : JsonValue) (r0 : JsonReader κ),
      (JsonReader.begin value r0).map (fun x => (x, false)) = some (r1, b) →
      r0.heap.Ordered → r1.heap.Ordered := by
    intro value r0 hm h0
    cases hs : JsonReader.begin value r0 with
    | none => rw [hs] at hm; simp at hm
    | some r2 =>
        rw [hs] at hm
        simp only [Option.map_some', Option.some.injEq, Prod.mk.injEq] at hm
        rw [← hm.1]
        exact begin_ordered value r0 r2 hs h0
  cases e with
  | JsonBegin =>
      simp only [JsonReader.hooks, Option.some.injEq, Prod.mk.injEq] at hh
      rw [← hh.1]; exact ho
  | JsonEnd =>
      rw [hooks_JsonEnd] at hh
      simp only [Option.some.injEq, Prod.mk.injEq] at hh
      rw [← hh.1]; exact ho
  | ObjectBegin =>
      simp only [JsonReader.hooks] at hh
      exact hbegin _ _ hh (ordered_newValue _ _ (ordered_newMap _ ho))
  | ObjectKey key =>
      simp only [JsonReader.hooks, Option.some.injEq, Prod.mk.injEq] at hh
      rw [← hh.1]; exact ho
  | ObjectEnd =>
      simp only [JsonReader.hooks] at hh
      by_cases hs : r.stack.isEmpty = true
      · rw [if_pos hs] at hh; simp at hh
      · rw [if_neg hs] at hh
        simp only [Option.some.injEq, Prod.mk.injEq] at hh
        rw [← hh.1]; exact ho
  | ArrayBegin =>
      simp only [JsonReader.hooks] at hh
      exact hbegin _ _ hh (ordered_newValue _ _ (ordered_newArray _ ho))
  | ArrayEnd =>
      simp only [JsonReader.hooks] at hh
      by_cases hs : r.stack.isEmpty = true
      · rw [if_pos hs] at hh; simp at hh
      · rw [if_neg hs] at hh
        simp only [Option.some.injEq, Prod.mk.injEq] at hh
        rw [← hh.1]; exact ho
  | ValueString value => exact hscalar _ hh
  | ValueDouble value => exact hscalar _ hh
  | ValueLongLong value => exact hscalar _ hh
  | ValueBool value => exact hscalar _ hh
  | Null => exact hscalar _ hh

end

section
variable {σ : Type} {h : Hooks σ} {J : σ → Prop}

/-- What every hook keeps holds in the state a pass ends in. -/
theorem parseBody_all (hk : ∀ e s s1 b, h e s = some (s1, b) → J s → J s1)
    (operation : Operation) (m : Machine σ) (hi : J m.self) :
    J (parseBody h operation m).machine.self := by
  have hkeeps : Keeps (fun s _ => J s) h := fun e s s1 b _ _ he hj => hk e s s1 b he hj
  rcases pass_outcome hkeeps operation m hi with
    ⟨m1, hp, h1⟩ | ⟨r, m1, hp, _, h1⟩ | ⟨m1, s, b, h1, _, he, hp⟩
  · rw [hp]; exact h1
  · rw [hp]; exact h1
  · rw [hp]
    have hs := hk .JsonEnd m1.self s b he h1
    by_cases h0 : operation = .Single
    · rw [if_pos h0]; exact hs
    · rw [if_neg h0]
      by_cases h2 : (m1.stop || b) = true
      · rw [if_pos h2]; exact hs
      · rw [if_neg h2]; exact hs

/-- What every hook keeps holds when the loop is left. -/
theorem parseLoop_all (hk : ∀ e s s1 b, h e s = some (s1, b) → J s → J s1)
    (operation : Operation) (fuel : Nat) :
    ∀ (m : Machine σ) (r : Ret × Machine σ), J m.self →
      parseLoop h operation fuel m = some r → J r.2.self := by
  induction fuel with
  | zero => intro m r _ hr; simp [parseLoop] at hr
  | succ fuel ih =>
      intro m r hi hr
      rw [parseLoop_succ] at hr
      cases hn : m.buffer.next with
      | mk more buffer =>
          rw [hn] at hr
          cases more with
          | false =>
              simp only [Option.some.injEq] at hr
              rw [← hr, parseEnd_self]; exact hi
          | true =>
              simp only [] at hr
              have hb := parseBody_all hk operation { m with buffer := buffer } hi
              cases hp : parseBody h operation { m with buffer := buffer } with
              | «continue» m1 =>
                  rw [hp] at hr hb
                  exact ih m1 r hb hr
              | «break» m1 =>
                  rw [hp] at hr hb
                  simp only [Option.some.injEq] at hr
                  rw [← hr, parseEnd_self]; exact hb
              | «return» x m1 =>
                  rw [hp] at hr hb
                  simp only [Option.some.injEq] at hr
                  rw [← hr]; exact hb

end

/-- A heap that `JsonReader::parse` has built on a heap with its maps in key
order has its maps in key order. -/
theorem parse_ordered {κ : Type} (callback : Callback κ) (sax : JsonSAXReader (JsonReader κ))
    (buffer : JsonStringViewBufferReader) (operation : Operation)
    (r : Ret × Machine (JsonReader κ)) (ho : sax.self.heap.Ordered)
    (hp : JsonReader.parse callback sax buffer operation = some r) : r.2.self.heap.Ordered := by
  unfold JsonReader.parse at hp
  cases hs : JsonSAXReader.parse (JsonReader.hooks callback) sax buffer operation with
  | none => rw [hs] at hp; exact Option.noConfusion hp
  | some r0 =>
      have h0 : r0.2.self.heap.Ordered :=
        parseLoop_all (J := fun s => s.heap.Ordered)
          (fun e s s1 b he hj => hooks_ordered callback e s s1 b he hj)
          operation _ _ r0 ho hs
      rw [hs] at hp
      obtain ⟨x, m⟩ := r0
      cases x with
      | «true» => simp only [Option.some.injEq] at hp; rw [← hp]; exact h0
      | thrown => simp only [Option.some.injEq] at hp; rw [← hp]; exact h0
      | «false» =>
          simp only [Heap.newValue, Option.some.injEq] at hp
          rw [← hp]
          exact ordered_maps m.self.heap _ h0 rfl

/-- The heap of a document that `JsonReader::parse(json)` has built has its
maps in key order. -/
theorem parseValue_ordered (errno : Bool) (json : List Nat) (r : Ret) (v : JsonValue) (heap : Heap)
    (hp : JsonReader.parseValue errno json = some (r, v, heap)) : heap.Ordered := by
  unfold JsonReader.parseValue at hp
  simp only [Heap.newValue, JsonReader.new] at hp
  cases hs : JsonReader.parse JsonReader.keep
      { _error := .empty, stop := false,
        self := { heap := { values := [Value.Empty] ++ [Value.Empty], maps := [], arrays := [] },
                  root := { value := 0 }, stack := [], key := [],
                  user := { value := [Value.Empty].length } },
        errno := errno }
      (JsonStringViewBufferReader.ofString json) .Single with
  | none => rw [hs] at hp; exact Option.noConfusion hp
  | some r0 =>
      rw [hs] at hp
      simp only [Option.some.injEq, Prod.mk.injEq] at hp
      rw [← hp.2.2]
      exact parse_ordered _ _ _ _ r0 (fun es hes => absurd hes (List.not_mem_nil _)) hs

/-! ## Trees of heaps in key order -/

theorem membersOrdered_iff (ms : List (List Nat × ValueTree)) :
    membersOrdered ms ↔ ∀ m ∈ ms, m.2.Ordered := by
  induction ms with
  | nil => simp [membersOrdered]
  | cons x ms ih =>
      obtain ⟨k, t⟩ := x
      simp only [membersOrdered, List.mem_cons, forall_eq_or_imp, ih]

theorem elementsOrdered_iff (es : List ValueTree) :
    elementsOrdered es ↔ ∀ t ∈ es, t.Ordered := by
  induction es with
  | nil => simp [elementsOrdered]
  | cons x es ih =>
      simp only [elementsOrdered, List.mem_cons, forall_eq_or_imp, ih]

theorem forall2_right {α β : Type} {R : α → β → Prop} {l1 : List α} {l2 : List β}
    (hf : List.Forall₂ R l1 l2) : ∀ b ∈ l2, ∃ a ∈ l1, R a b := by
  induction hf with
  | nil => intro b hb; exact absurd hb (List.not_mem_nil _)
  | cons hab _ ih =>
      intro b hb
      rcases List.mem_cons.mp hb with rfl | hb
      · exact ⟨_, List.mem_cons_self _ _, hab⟩
      · obtain ⟨a, ha, hr⟩ := ih b hb
        exact ⟨a, List.mem_cons_of_mem _ ha, hr⟩

theorem forall2_keys {α β : Type} {R : List Nat × α → List Nat × β → Prop}
    {l1 : List (List Nat × α)} {l2 : List (List Nat × β)}
    (hf : List.Forall₂ R l1 l2) (hr : ∀ a b, R a b → b.1 = a.1) :
    l2.map Prod.fst = l1.map Prod.fst := by
  induction hf with
  | nil => rfl
  | cons hab _ ih =>
      simp only [List.map_cons, ih, hr _ _ hab]

/-- The members of a tree have the keys of the map they come from, in the order
of the map. -/
theorem members_ascend {α β : Type} (l1 : List (List Nat × α)) (l2 : List (List Nat × β))
    (hk : l2.map Prod.fst = l1.map Prod.fst) (ha : KeysAscend l1) : KeysAscend l2 := by
  have h1 := ascend_keys l1 ha
  rw [← hk] at h1
  unfold KeysAscend
  rw [List.pairwise_map] at h1
  exact h1

/-- In a heap whose maps are in key order, every object of the tree of a value
holds its members in strictly increasing key order. -/
theorem tree_ordered (h : Heap) (ho : h.Ordered) :
    ∀ (N n : Nat) (v : JsonValue) (t : ValueTree), t.size = N → h.tree n v = some t →
      t.Ordered := by
  intro N
  induction N using Nat.strong_induction_on with
  | _ N ih =>
      intro n v t hN htree
      cases n with
      | zero => rw [tree_zero] at htree; exact Option.noConfusion htree
      | succ n =>
          cases t with
          | Object ms =>
              have hcell : ∃ map, h.values[v.value]? = some (.Object map) := by
                rw [tree_succ] at htree
                cases hv : h.values[v.value]? with
                | none => rw [hv] at htree; simp at htree
                | some cell =>
                    rw [hv] at htree
                    cases cell with
                    | Object map => exact ⟨map, rfl⟩
                    | Array array =>
                        simp only [] at htree
                        cases hx : h.arrays[array]? with
                        | none => rw [hx] at htree; exact Option.noConfusion htree
                        | some es =>
                            rw [hx] at htree
                            simp only [] at htree
                            cases hy : h.treeElements n es with
                            | none => rw [hy] at htree; exact Option.noConfusion htree
                            | some x => rw [hy] at htree; simp at htree
                    | Empty => simp at htree
                    | String s => simp at htree
                    | Double d => simp at htree
                    | LongLong x => simp at htree
                    | Bool b => simp at htree
                    | Null => simp at htree
              obtain ⟨map, hv⟩ := hcell
              obtain ⟨entries, ms1, hm, heq, hf⟩ := tree_object h (n + 1) v _ map htree hv
              have hms : ms1 = ms := by injection heq with h1; exact h1.symm
              subst hms
              simp only [ValueTree.Ordered]
              refine ⟨members_ascend entries ms1
                (forall2_keys hf (fun a b hr => hr.1)) (ordered_get h ho _ _ hm), ?_⟩
              rw [membersOrdered_iff]
              intro m hmem
              obtain ⟨e, _, _, k, hk⟩ := forall2_right hf m hmem
              have hsz := member_size ms1 m hmem
              simp only [ValueTree.size] at hN
              exact ih m.2.size (by omega) k e.2 m.2 rfl hk
          | Array es =>
              have hcell : ∃ array, h.values[v.value]? = some (.Array array) := by
                rw [tree_succ] at htree
                cases hv : h.values[v.value]? with
                | none => rw [hv] at htree; simp at htree
                | some cell =>
                    rw [hv] at htree
                    cases cell with
                    | Array array => exact ⟨array, rfl⟩
                    | Object map =>
                        simp only [] at htree
                        cases hx : h.maps[map]? with
                        | none => rw [hx] at htree; exact Option.noConfusion htree
                        | some es =>
                            rw [hx] at htree
                            simp only [] at htree
                            cases hy : h.treeMembers n es with
                            | none => rw [hy] at htree; exact Option.noConfusion htree
                            | some x => rw [hy] at htree; simp at htree
                    | Empty => simp at htree
                    | String s => simp at htree
                    | Double d => simp at htree
                    | LongLong x => simp at htree
                    | Bool b => simp at htree
                    | Null => simp at htree
              obtain ⟨array, hv⟩ := hcell
              obtain ⟨elements, es1, hm, heq, hf⟩ := tree_array h (n + 1) v _ array htree hv
              have hes : es1 = es := by injection heq with h1; exact h1.symm
              subst hes
              simp only [ValueTree.Ordered]
              rw [elementsOrdered_iff]
              intro m hmem
              obtain ⟨e, _, k, hk⟩ := forall2_right hf m hmem
              have hsz := element_size es1 m hmem
              simp only [ValueTree.size] at hN
              exact ih m.size (by omega) k e m rfl hk
          | Empty => simp only [ValueTree.Ordered]
          | String s => simp only [ValueTree.Ordered]
          | Double d => simp only [ValueTree.Ordered]
          | LongLong x => simp only [ValueTree.Ordered]
          | Bool b => simp only [ValueTree.Ordered]
          | Null => simp only [ValueTree.Ordered]



open JsonSAXWriter JsonWriter

/-- C25: in a heap whose maps hold their entries in key order, a call
`write(buffer, json, beautiful)` that returns true on a value with the tree `t`
has appended the text of `t`, in which every object lists its members and every
array its elements in the order of the tree; every object of `t` holds its
members in strictly increasing key order, so each key stands once; the members
of the tree of an object have the keys of its map, in the order of the map, and
the elements of the tree of an array are the trees of the elements of its
vector, in index order.  The order of the keys is the lexicographic order of
the byte strings.  Whatever the order of the `insert` calls, the entries of a
map stand in strictly increasing key order, and their keys do not depend on
that order; `Object::insert` keeps the maps of the heap in key order, and the
heap `JsonReader::parse` builds from a text has its maps in key order. -/
theorem C25_key_order (fuel : Nat) (h : Heap) (w : JsonWriter) (buffer b1 : JsonBufferWriter)
    (json : JsonValue) (beautiful : Bool) (k : Nat) (t : ValueTree)
    (hord : h.Ordered) (htree : h.tree k json = some t)
    (hw : JsonWriter.written fuel h w buffer json beautiful = some (.true, b1)) :
    (∃ text, renderTree beautiful 0 t = some text ∧ b1.json = buffer.json ++ text)
    ∧ t.Ordered
    ∧ (∀ (v : JsonValue) (map : Nat) (entries : List (List Nat × JsonValue)) (n : Nat)
        (t1 : ValueTree), h.values[v.value]? = some (.Object map) →
        h.maps[map]? = some entries → h.tree n v = some t1 →
        ∃ ms, t1 = .Object ms ∧ ms.map Prod.fst = entries.map Prod.fst ∧ KeysAscend ms
          ∧ List.Forall₂ (fun e m => m.1 = e.1 ∧ ∃ k, h.tree k e.2 = some m.2) entries ms)
    ∧ (∀ (v : JsonValue) (array : Nat) (elements : List JsonValue) (n : Nat) (t1 : ValueTree),
        h.values[v.value]? = some (.Array array) → h.arrays[array]? = some elements →
        h.tree n v = some t1 →
        ∃ es, t1 = .Array es ∧ List.Forall₂ (fun e m => ∃ k, h.tree k e = some m) elements es)
    ∧ (∀ a b : List Nat, keyLess a b = true ↔ List.Lex (· < ·) a b)
    ∧ (∀ pairs : List (List Nat × JsonValue), KeysAscend (insertAll pairs))
    ∧ (∀ pairs pairs1 : List (List Nat × JsonValue), pairs.Perm pairs1 →
        (insertAll pairs).map Prod.fst = (insertAll pairs1).map Prod.fst)
    ∧ (∀ (o : Object) (key : List Nat) (value : JsonValue) (h1 : Heap),
        Object.insert h o key value = some h1 → h1.Ordered)
    ∧ (∀ (errno : Bool) (text : List Nat) (r : Ret) (v : JsonValue) (heap : Heap),
        JsonReader.parseValue errno text = some (r, v, heap) → heap.Ordered) := by
  obtain ⟨_, _, text, htext, hb⟩ := written_true fuel h w buffer b1 json beautiful k t htree hw
  refine ⟨⟨text, htext, by rw [hb]⟩, tree_ordered h hord t.size k json t rfl htree, ?_, ?_,
    keyLess_lex, insertAll_ascend, insertAll_perm,
    fun o key value h1 hi => (object_ordered h o key hord).1 value h1 hi,
    parseValue_ordered⟩
  · intro v map entries n t1 hv hm ht1
    obtain ⟨entries1, ms, hm1, heq, hf⟩ := tree_object h n v t1 map ht1 hv
    rw [hm] at hm1
    have he : entries1 = entries := (Option.some.inj hm1).symm
    subst he
    have hkeys := forall2_keys hf (fun a b hr => hr.1)
    exact ⟨ms, heq, hkeys, members_ascend entries1 ms hkeys (ordered_get h hord _ _ hm), hf⟩
  · intro v array elements n t1 hv hm ht1
    obtain ⟨elements1, es, hm1, heq, hf⟩ := tree_array h n v t1 array ht1 hv
    rw [hm] at hm1
    have he : elements1 = elements := (Option.some.inj hm1).symm
    subst he
    exact ⟨es, heq, hf⟩

/-- C25, witness: the object built by `insert("b", 1)` and then
`insert("a", [2])` is written as `{"a":[2],"b":1}`. -/
theorem C25_key_order_witness :
    heapC25.Ordered
    ∧ heapC25.tree 8 { value := 0 }
        = some (.Object [([97], .Array [.LongLong 2]), ([98], .LongLong 1)])
    ∧ JsonWriter.written 10 heapC25 JsonWriter.new JsonStringBufferWriter { value := 0 } false
        = some (.true,
            { is_open := true, count := 15, json := [123, 34, 97, 34, 58, 91, 50, 93, 44, 34, 98, 34, 58, 49, 125] })
    ∧ (∃ text,
        renderTree false 0 (.Object [([97], .Array [.LongLong 2]), ([98], .LongLong 1)])
          = some text
        ∧ [123, 34, 97, 34, 58, 91, 50, 93, 44, 34, 98, 34, 58, 49, 125]
          = JsonStringBufferWriter.json ++ text)
    ∧ (ValueTree.Object [([97], .Array [.LongLong 2]), ([98], .LongLong 1)]).Ordered :=
  have hheap : heapC25
      = { values := [.Object 0, .LongLong 1, .Array 0, .LongLong 2],
          maps := [[([97], { value := 2 }), ([98], { value := 1 })]],
          arrays := [[{ value := 3 }]] } := by decide!
  have hord : heapC25.Ordered := by
    intro entries he
    simp only [heapC25, List.mem_singleton] at he
    rw [he]
    exact insertAll_ascend _
  have htree : heapC25.tree 8 { value := 0 }
      = some (.Object [([97], .Array [.LongLong 2]), ([98], .LongLong 1)]) := by
    rw [hheap]; rfl
  have hw : JsonWriter.written 10 heapC25 JsonWriter.new JsonStringBufferWriter { value := 0 } false
      = some (.true,
          { is_open := true, count := 15, json := [123, 34, 97, 34, 58, 91, 50, 93, 44, 34, 98, 34, 58, 49, 125] }) := by
    rw [hheap]; decide!
  have hrun := C25_key_order 10 heapC25 JsonWriter.new JsonStringBufferWriter
    { is_open := true, count := 15, json := [123, 34, 97, 34, 58, 91, 50, 93, 44, 34, 98, 34, 58, 49, 125] }
    { value := 0 } false 8 (.Object [([97], .Array [.LongLong 2]), ([98], .LongLong 1)])
    hord htree hw
  ⟨hord, htree, hw, hrun.1, hrun.2.1⟩




open JsonStringViewBufferReader

section
variable {σ : Type} {h : Hooks σ}

/-! ## What a run shows -/

theorem shown_shifted (r r1 : Ret × Machine σ) (hs : ShiftedRet r r1) : shown r1 = shown r := by
  obtain ⟨h1, h2⟩ := hs
  rw [shifted_iff] at h2
  unfold shown
  rw [h1, h2.2.2.2.1, h2.2.2.2.2.1, h2.2.2.2.2.2.1]

/-- Two passes that ended the same way in shifted states: the runs behind them
show the same. -/
theorem run_alike (operation : Operation) (s s1 : Step σ) (hs : ShiftedStep s s1) :
    (s1.run h operation).map shown = (s.run h operation).map shown := by
  cases s with
  | «continue» m =>
      cases s1 with
      | «continue» m1 =>
          obtain ⟨r, r1, e1, e2, hr⟩ := parseFrom_shifted (h := h) operation m m1 hs
          simp only [Step.run]
          rw [e1, e2]
          simp only [Option.map_some', shown_shifted r r1 hr]
      | «break» m1 => exact hs.elim
      | «return» x m1 => exact hs.elim
  | «break» m =>
      cases s1 with
      | «continue» m1 => exact hs.elim
      | «break» m1 =>
          simp only [Step.run, Option.map_some', shown_shifted _ _ (parseEnd_shifted m m1 hs)]
      | «return» x m1 => exact hs.elim
  | «return» x m =>
      cases s1 with
      | «continue» m1 => exact hs.elim
      | «break» m1 => exact hs.elim
      | «return» x1 m1 =>
          have hr : ShiftedRet (x, m) (x1, m1) := ⟨hs.1, hs.2⟩
          simp only [Step.run, Option.map_some', shown_shifted _ _ hr]

theorem run_def (operation : Operation) (s : Step σ) :
    (match s with
      | .continue m1 => parseFrom h operation m1
      | .break m1 => some (parseEnd m1)
      | .return r m1 => some (r, m1)) = s.run h operation := by
  cases s <;> rfl

/-- The run from the state `m` over `c :: tail`, unfolded by one pass. -/
theorem outcome_step (operation : Operation) (m : Machine σ) (c : Nat) (tail : List Nat) :
    outcome h operation m (c :: tail)
      = ((parseBody h operation
            { m with buffer := { pos := m.buffer.pos + 1, cur := c, ahead := tail } }).run
          h operation).map shown := by
  unfold outcome
  rw [parseFrom_cons h operation _ c tail rfl]
  exact congrArg (Option.map shown) (run_def operation
    (parseBody h operation
      { m with buffer := { pos := m.buffer.pos + 1, cur := c, ahead := tail } }))

/-- The run from a state with the reader at the end of the input. -/
theorem outcome_nil (operation : Operation) (m : Machine σ) :
    outcome h operation m []
      = some (shown (parseEnd
          { m with buffer := { pos := m.buffer.pos + 1, cur := 0, ahead := [] } })) := by
  unfold outcome
  rw [parseFrom_nil h operation _ rfl]
  rfl

/-- What a run shows depends on the stack, the state of the derived class,
`stop`, the kind of the error, `errno` and the bytes ahead only. -/
theorem outcome_eq (operation : Operation) (m m1 : Machine σ) (rest : List Nat)
    (h1 : m1.depth = m.depth) (h2 : m1.self = m.self) (h3 : m1.stop = m.stop)
    (h4 : m1.error.kind = m.error.kind) (h5 : m1.errno = m.errno) :
    outcome h operation m1 rest = outcome h operation m rest := by
  cases rest with
  | nil =>
      rw [outcome_nil, outcome_nil]
      exact congrArg some (shown_shifted _ _ (parseEnd_shifted _ _
        ((shifted_iff _ _).mpr ⟨rfl, rfl, h1, h2, h3, h4, h5⟩)))
  | cons c tail =>
      rw [outcome_step, outcome_step]
      have hs : Shifted
          { m with buffer := { pos := m.buffer.pos + 1, cur := c, ahead := tail } }
          { m1 with buffer := { pos := m1.buffer.pos + 1, cur := c, ahead := tail } } :=
        (shifted_iff _ _).mpr ⟨rfl, rfl, h1, h2, h3, h4, h5⟩
      exact run_alike operation _ _ (parseBody_shifted (h := h) operation _ _ hs)

/-- The run behind a pass that goes on. -/
theorem outcome_continue (operation : Operation) (m : Machine σ) (c : Nat) (tail : List Nat)
    (m1 : Machine σ)
    (hb : parseBody h operation
        { m with buffer := { pos := m.buffer.pos + 1, cur := c, ahead := tail } } = .continue m1) :
    outcome h operation m (c :: tail) = outcome h operation m1 m1.buffer.ahead := by
  rw [outcome_step, hb]
  rfl

/-- The run that ends in a pass that returns. -/
theorem outcome_return (operation : Operation) (m : Machine σ) (c : Nat) (tail : List Nat)
    (r : Ret) (m1 : Machine σ)
    (hb : parseBody h operation
        { m with buffer := { pos := m.buffer.pos + 1, cur := c, ahead := tail } }
      = .return r m1) :
    outcome h operation m (c :: tail) = some (r, m1.self, m1.stop, m1.error.kind) := by
  rw [outcome_step, hb]
  rfl

/-- Whitespace before a token does not show. -/
theorem outcome_space (operation : Operation) (m : Machine σ) (c : Nat) (tail : List Nat)
    (hc : isspace c = true) :
    outcome h operation m (c :: tail) = outcome h operation m tail := by
  have hb : parseBody h operation
      { m with buffer := { pos := m.buffer.pos + 1, cur := c, ahead := tail } }
      = .continue { m with buffer := { pos := m.buffer.pos + 1, cur := c, ahead := tail } } := by
    unfold parseBody
    simp only [JsonStringViewBufferReader.value]
    rw [if_pos hc]
  rw [outcome_continue operation m c tail _ hb]
  exact outcome_eq operation m _ tail rfl rfl rfl rfl rfl

theorem outcome_spaces (operation : Operation) (ws : List Nat) (hws : ∀ c ∈ ws, isspace c = true)
    (m : Machine σ) (tail : List Nat) :
    outcome h operation m (ws ++ tail) = outcome h operation m tail := by
  induction ws with
  | nil => rfl
  | cons c ws ih =>
      rw [List.cons_append, outcome_space operation m c _ (hws c (List.mem_cons_self _ _))]
      exact ih (fun x hx => hws x (List.mem_cons_of_mem _ hx))

/-- A hook call does not read the stack, the reader or the error text. -/
theorem hooked_eq (operation : Operation) (e : Event) (m m1 : Machine σ) (rest : List Nat)
    (h1 : m1.depth = m.depth) (h2 : m1.self = m.self) (h3 : m1.stop = m.stop)
    (h4 : m1.error.kind = m.error.kind) (h5 : m1.errno = m.errno) :
    hooked h operation e m1 rest = hooked h operation e m rest := by
  unfold hooked
  rw [h2]
  cases hh : h e m.self with
  | none => simp only [h3, h4]
  | some p =>
      obtain ⟨s, st⟩ := p
      simp only []
      exact outcome_eq operation _ _ rest h1 rfl (by simp only [h3]) h4 h5

/-- Texts behind a hook call over which the runs show the same. -/
theorem hooked_agree (operation : Operation) (e : Event) (m : Machine σ)
    (restA restB : List Nat) (ha : Agree h operation m.depth restA restB) :
    hooked h operation e m restA = hooked h operation e m restB := by
  unfold hooked
  cases hh : h e m.self with
  | none => rfl
  | some p =>
      obtain ⟨s, st⟩ := p
      exact ha _ rfl

/-- Whitespace behind a hook call does not show. -/
theorem hooked_spaces (operation : Operation) (e : Event) (m : Machine σ)
    (ws : List Nat) (hws : ∀ c ∈ ws, isspace c = true) (tail : List Nat) :
    hooked h operation e m (ws ++ tail) = hooked h operation e m tail := by
  unfold hooked
  cases hh : h e m.self with
  | none => rfl
  | some p =>
      obtain ⟨s, st⟩ := p
      exact outcome_spaces operation ws hws _ tail

/-- With states on the stack the loop goes on behind the dispatch. -/
theorem documentEnd_on (operation : Operation) (m : Machine σ) (hd : m.depth ≠ []) :
    documentEnd h operation m = .continue m := by
  unfold documentEnd
  cases hx : m.depth with
  | nil => exact absurd hx hd
  | cons a as => simp only [List.isEmpty_cons, Bool.false_eq_true, if_false]

/-- The run behind a hook call at a stack that is not empty. -/
theorem run_call (operation : Operation) (e : Event) (m : Machine σ) (hd : m.depth ≠ []) :
    ((andThen h operation (call h e m)).run h operation).map shown
      = hooked h operation e m m.buffer.ahead := by
  unfold hooked
  simp only [call, emit]
  cases hh : h e m.self with
  | none => rfl
  | some p =>
      obtain ⟨s, st⟩ := p
      simp only [andThen]
      rw [documentEnd_on operation _ (by exact hd)]
      rfl

/-- The pass that calls the hook `e` in the state `m1` and goes on. -/
theorem outcome_hook (operation : Operation) (m : Machine σ) (c : Nat) (tail : List Nat)
    (e : Event) (m1 : Machine σ) (hd : m1.depth ≠ [])
    (hb : parseBody h operation
        { m with buffer := { pos := m.buffer.pos + 1, cur := c, ahead := tail } }
      = andThen h operation (call h e m1)) :
    outcome h operation m (c :: tail) = hooked h operation e m1 m1.buffer.ahead := by
  rw [outcome_step, hb, run_call operation e m1 hd]

end




open JsonStringViewBufferReader

section
variable {σ : Type} {h : Hooks σ}

/-! ## The passes over the tokens of a document -/

/-- The colon behind a key. -/
theorem outcome_colon (operation : Operation) (m : Machine σ) (below : List JsonReaderType)
    (rest : List Nat) (hd : m.depth = .ObjectKey :: below) :
    outcome h operation m (58 :: rest)
      = outcome h operation { m with depth := .ObjectValue :: below } rest := by
  obtain ⟨buffer, depth, self, stop, error, errno⟩ := m
  simp only at hd
  subst hd
  have hb : parseBody h operation
      { buffer := { pos := buffer.pos + 1, cur := 58, ahead := rest },
        depth := .ObjectKey :: below, self := self, stop := stop, error := error, errno := errno }
      = .continue { buffer := { pos := buffer.pos + 1, cur := 58, ahead := rest },
                    depth := .ObjectValue :: below, self := self, stop := stop, error := error, errno := errno } := by
    unfold parseBody
    simp only [JsonStringViewBufferReader.value, show isspace 58 = false by decide,
      show isControlCode 58 = false by decide, Bool.false_eq_true, if_false, beq_self_eq_true,
      if_true, setTop, List.tail_cons]
    exact documentEnd_on operation _ (List.cons_ne_nil _ _)
  rw [outcome_continue operation _ 58 rest _ hb]
  exact outcome_eq operation _ _ rest rfl rfl rfl rfl rfl

/-- The comma behind a member of an object. -/
theorem outcome_commaObject (operation : Operation) (m : Machine σ) (below : List JsonReaderType)
    (rest : List Nat) (hd : m.depth = .ObjectNextPair :: below) :
    outcome h operation m (44 :: rest)
      = outcome h operation { m with depth := .ObjectNextKey :: below } rest := by
  obtain ⟨buffer, depth, self, stop, error, errno⟩ := m
  simp only at hd
  subst hd
  have hb : parseBody h operation
      { buffer := { pos := buffer.pos + 1, cur := 44, ahead := rest },
        depth := .ObjectNextPair :: below, self := self, stop := stop, error := error, errno := errno }
      = .continue { buffer := { pos := buffer.pos + 1, cur := 44, ahead := rest },
                    depth := .ObjectNextKey :: below, self := self, stop := stop, error := error, errno := errno } := by
    unfold parseBody
    simp only [JsonStringViewBufferReader.value, show isspace 44 = false by decide,
      show isControlCode 44 = false by decide, Bool.false_eq_true, if_false, beq_self_eq_true,
      if_true, setTop, List.tail_cons]
    exact documentEnd_on operation _ (List.cons_ne_nil _ _)
  rw [outcome_continue operation _ 44 rest _ hb]
  exact outcome_eq operation _ _ rest rfl rfl rfl rfl rfl

/-- The comma behind an element of an array. -/
theorem outcome_commaArray (operation : Operation) (m : Machine σ) (below : List JsonReaderType)
    (rest : List Nat) (hd : m.depth = .ArrayNext :: below) :
    outcome h operation m (44 :: rest)
      = outcome h operation { m with depth := .ArrayNextValue :: below } rest := by
  obtain ⟨buffer, depth, self, stop, error, errno⟩ := m
  simp only at hd
  subst hd
  have hb : parseBody h operation
      { buffer := { pos := buffer.pos + 1, cur := 44, ahead := rest },
        depth := .ArrayNext :: below, self := self, stop := stop, error := error, errno := errno }
      = .continue { buffer := { pos := buffer.pos + 1, cur := 44, ahead := rest },
                    depth := .ArrayNextValue :: below, self := self, stop := stop, error := error, errno := errno } := by
    unfold parseBody
    simp only [JsonStringViewBufferReader.value, show isspace 44 = false by decide,
      show isControlCode 44 = false by decide, Bool.false_eq_true, if_false, beq_self_eq_true,
      if_true, setTop, List.tail_cons]
    exact documentEnd_on operation _ (List.cons_ne_nil _ _)
  rw [outcome_continue operation _ 44 rest _ hb]
  exact outcome_eq operation _ _ rest rfl rfl rfl rfl rfl

/-- The bracket that closes an object inside a container. -/
theorem outcome_closeObject (operation : Operation) (m : Machine σ) (x : JsonReaderType)
    (below : List JsonReaderType) (rest : List Nat) (hd : m.depth = x :: below)
    (hx : x = .Object ∨ x = .ObjectNextPair) (hne : below ≠ []) :
    outcome h operation m (125 :: rest)
      = hooked h operation .ObjectEnd { m with depth := below } rest := by
  obtain ⟨buffer, depth, self, stop, error, errno⟩ := m
  simp only at hd
  subst hd
  have hb : parseBody h operation
      { buffer := { pos := buffer.pos + 1, cur := 125, ahead := rest },
        depth := x :: below, self := self, stop := stop, error := error, errno := errno }
      = andThen h operation (call h .ObjectEnd
          { buffer := { pos := buffer.pos + 1, cur := 125, ahead := rest },
            depth := below, self := self, stop := stop, error := error, errno := errno }) := by
    unfold parseBody
    rcases hx with rfl | rfl <;>
      simp only [JsonStringViewBufferReader.value, show isspace 125 = false by decide,
        show isControlCode 125 = false by decide, Bool.false_eq_true, if_false,
        beq_self_eq_true, if_true, show (125 == 34) = false by decide,
        show (125 == 44) = false by decide, close, List.tail_cons]
  rw [outcome_hook operation _ 125 rest .ObjectEnd _ (by exact hne) hb]
  exact hooked_eq operation _ _ _ rest rfl rfl rfl rfl rfl

/-- The bracket that closes an array inside a container. -/
theorem outcome_closeArray (operation : Operation) (m : Machine σ) (x : JsonReaderType)
    (below : List JsonReaderType) (rest : List Nat) (hd : m.depth = x :: below)
    (hx : x = .Array ∨ x = .ArrayNext) (hne : below ≠ []) :
    outcome h operation m (93 :: rest)
      = hooked h operation .ArrayEnd { m with depth := below } rest := by
  obtain ⟨buffer, depth, self, stop, error, errno⟩ := m
  simp only at hd
  subst hd
  have hb : parseBody h operation
      { buffer := { pos := buffer.pos + 1, cur := 93, ahead := rest },
        depth := x :: below, self := self, stop := stop, error := error, errno := errno }
      = andThen h operation (call h .ArrayEnd
          { buffer := { pos := buffer.pos + 1, cur := 93, ahead := rest },
            depth := below, self := self, stop := stop, error := error, errno := errno }) := by
    unfold parseBody
    rcases hx with rfl | rfl <;>
      simp only [JsonStringViewBufferReader.value, show isspace 93 = false by decide,
        show isControlCode 93 = false by decide, Bool.false_eq_true, if_false,
        beq_self_eq_true, if_true, show (93 == 44) = false by decide, close, List.tail_cons]
  rw [outcome_hook operation _ 93 rest .ArrayEnd _ (by exact hne) hb]
  exact hooked_eq operation _ _ _ rest rfl rfl rfl rfl rfl

/-- The pass over the first byte of a value, where a value may stand: `ready`
is called with the state behind the value on the stack. -/
theorem outcome_value (operation : Operation) (m : Machine σ) (c : Nat) (tail : List Nat)
    (top : JsonReaderType) (below : List JsonReaderType) (hd : m.depth = top :: below)
    (hpos : top = .ObjectValue ∨ top = .Array ∨ top = .ArrayNextValue)
    (hs : isspace c = false) (hc : isControlCode c = false) (h93 : c ≠ 93) :
    outcome h operation m (c :: tail)
      = ((andThen h operation (ready h c
            { m with buffer := { pos := m.buffer.pos + 1, cur := c, ahead := tail },
                     depth := (if top = .ObjectValue then .ObjectNextPair else .ArrayNext)
                       :: below })).run h operation).map shown := by
  rw [outcome_step]
  have hpos1 : top = .ObjectValue ∨ top = .ArrayNextValue
      ∨ (top = .Array ∧ ({ m with buffer := { pos := m.buffer.pos + 1, cur := c, ahead := tail } } :
          Machine σ).buffer.cur ≠ 93) := by
    rcases hpos with hp | hp | hp
    · exact Or.inl hp
    · exact Or.inr (Or.inr ⟨hp, h93⟩)
    · exact Or.inr (Or.inl hp)
  have hv := parseBody_value h operation
    { m with buffer := { pos := m.buffer.pos + 1, cur := c, ahead := tail } } top below hs hc hd
    hpos1
  exact congrArg (fun s => (Step.run h operation s).map shown) hv

/-- The bracket that opens an object, where a value may stand. -/
theorem outcome_openObject (operation : Operation) (m : Machine σ) (rest : List Nat)
    (top : JsonReaderType) (below : List JsonReaderType) (hd : m.depth = top :: below)
    (hpos : top = .ObjectValue ∨ top = .Array ∨ top = .ArrayNextValue) :
    outcome h operation m (123 :: rest)
      = hooked h operation .ObjectBegin
          { m with depth := .Object :: (if top = .ObjectValue then .ObjectNextPair else .ArrayNext)
              :: below } rest := by
  rw [outcome_value operation m 123 rest top below hd hpos (by decide) (by decide) (by decide)]
  have hr : ready h 123
      { m with buffer := { pos := m.buffer.pos + 1, cur := 123, ahead := rest },
               depth := (if top = .ObjectValue then .ObjectNextPair else .ArrayNext) :: below }
      = call h .ObjectBegin
          { m with buffer := { pos := m.buffer.pos + 1, cur := 123, ahead := rest },
                   depth := .Object :: (if top = .ObjectValue then .ObjectNextPair else .ArrayNext)
                     :: below } := by
    simp only [ready, beq_self_eq_true, if_true]
  rw [hr, run_call operation _ _ (List.cons_ne_nil _ _)]
  exact hooked_eq operation _ _ _ rest rfl rfl rfl rfl rfl

/-- The bracket that opens an array, where a value may stand. -/
theorem outcome_openArray (operation : Operation) (m : Machine σ) (rest : List Nat)
    (top : JsonReaderType) (below : List JsonReaderType) (hd : m.depth = top :: below)
    (hpos : top = .ObjectValue ∨ top = .Array ∨ top = .ArrayNextValue) :
    outcome h operation m (91 :: rest)
      = hooked h operation .ArrayBegin
          { m with depth := .Array :: (if top = .ObjectValue then .ObjectNextPair else .ArrayNext)
              :: below } rest := by
  rw [outcome_value operation m 91 rest top below hd hpos (by decide) (by decide) (by decide)]
  have hr : ready h 91
      { m with buffer := { pos := m.buffer.pos + 1, cur := 91, ahead := rest },
               depth := (if top = .ObjectValue then .ObjectNextPair else .ArrayNext) :: below }
      = call h .ArrayBegin
          { m with buffer := { pos := m.buffer.pos + 1, cur := 91, ahead := rest },
                   depth := .Array :: (if top = .ObjectValue then .ObjectNextPair else .ArrayNext)
                     :: below } := by
    simp only [ready, beq_self_eq_true, if_true, show (91 == 123) = false by decide,
      Bool.false_eq_true, if_false]
  rw [hr, run_call operation _ _ (List.cons_ne_nil _ _)]
  exact hooked_eq operation _ _ _ rest rfl rfl rfl rfl rfl

/-- A keyword, where a value may stand. -/
theorem outcome_keyword (operation : Operation) (m : Machine σ) (rest : List Nat)
    (top : JsonReaderType) (below : List JsonReaderType) (hd : m.depth = top :: below)
    (hpos : top = .ObjectValue ∨ top = .Array ∨ top = .ArrayNextValue) :
    outcome h operation m ([116, 114, 117, 101] ++ rest)
        = hooked h operation (.ValueBool true)
            { m with depth := (if top = .ObjectValue then .ObjectNextPair else .ArrayNext)
                :: below } rest
    ∧ outcome h operation m ([102, 97, 108, 115, 101] ++ rest)
        = hooked h operation (.ValueBool false)
            { m with depth := (if top = .ObjectValue then .ObjectNextPair else .ArrayNext)
                :: below } rest
    ∧ outcome h operation m ([110, 117, 108, 108] ++ rest)
        = hooked h operation .Null
            { m with depth := (if top = .ObjectValue then .ObjectNextPair else .ArrayNext)
                :: below } rest := by
  refine ⟨?_, ?_, ?_⟩
  · rw [List.cons_append,
      outcome_value operation m 116 _ top below hd hpos (by decide) (by decide) (by decide)]
    have hr : ready h 116
        { m with buffer := { pos := m.buffer.pos + 1, cur := 116,
                             ahead := [114, 117, 101] ++ rest },
                 depth := (if top = .ObjectValue then .ObjectNextPair else .ArrayNext) :: below }
        = call h (.ValueBool true)
            { m with buffer := { pos := m.buffer.pos + 1 + 1 + 1 + 1, cur := 101, ahead := rest },
                     depth := (if top = .ObjectValue then .ObjectNextPair else .ArrayNext)
                       :: below } := by
      simp [ready, readyKeyword, readyValue, JsonStringViewBufferReader.next,
        JsonStringViewBufferReader.value, isControlCode, isdigit]
    rw [hr, run_call operation _ _ (List.cons_ne_nil _ _)]
    exact hooked_eq operation _ _ _ rest rfl rfl rfl rfl rfl
  · rw [List.cons_append,
      outcome_value operation m 102 _ top below hd hpos (by decide) (by decide) (by decide)]
    have hr : ready h 102
        { m with buffer := { pos := m.buffer.pos + 1, cur := 102,
                             ahead := [97, 108, 115, 101] ++ rest },
                 depth := (if top = .ObjectValue then .ObjectNextPair else .ArrayNext) :: below }
        = call h (.ValueBool false)
            { m with buffer := { pos := m.buffer.pos + 1 + 1 + 1 + 1 + 1, cur := 101,
                                 ahead := rest },
                     depth := (if top = .ObjectValue then .ObjectNextPair else .ArrayNext)
                       :: below } := by
      simp [ready, readyKeyword, readyValue, JsonStringViewBufferReader.next,
        JsonStringViewBufferReader.value, isControlCode, isdigit]
    rw [hr, run_call operation _ _ (List.cons_ne_nil _ _)]
    exact hooked_eq operation _ _ _ rest rfl rfl rfl rfl rfl
  · rw [List.cons_append,
      outcome_value operation m 110 _ top below hd hpos (by decide) (by decide) (by decide)]
    have hr : ready h 110
        { m with buffer := { pos := m.buffer.pos + 1, cur := 110,
                             ahead := [117, 108, 108] ++ rest },
                 depth := (if top = .ObjectValue then .ObjectNextPair else .ArrayNext) :: below }
        = call h .Null
            { m with buffer := { pos := m.buffer.pos + 1 + 1 + 1 + 1, cur := 108, ahead := rest },
                     depth := (if top = .ObjectValue then .ObjectNextPair else .ArrayNext)
                       :: below } := by
      simp [ready, readyKeyword, readyValue, JsonStringViewBufferReader.next,
        JsonStringViewBufferReader.value, isControlCode, isdigit]
    rw [hr, run_call operation _ _ (List.cons_ne_nil _ _)]
    exact hooked_eq operation _ _ _ rest rfl rfl rfl rfl rfl

/-- The text of a string, in quotes. -/
theorem quoteText_append (s rest : List Nat) :
    quoteText s ++ rest = 34 :: (s.flatMap JsonSAXWriter.escape ++ 34 :: rest) := by
  simp [quoteText]

/-- A string in quotes, where a value may stand. -/
theorem outcome_string (operation : Operation) (m : Machine σ) (s : List Nat) (rest : List Nat)
    (hs : acceptsString s = true)
    (top : JsonReaderType) (below : List JsonReaderType) (hd : m.depth = top :: below)
    (hpos : top = .ObjectValue ∨ top = .Array ∨ top = .ArrayNextValue) :
    outcome h operation m (quoteText s ++ rest)
      = hooked h operation (.ValueString s)
          { m with depth := (if top = .ObjectValue then .ObjectNextPair else .ArrayNext)
              :: below } rest := by
  rw [quoteText_append,
    outcome_value operation m 34 _ top below hd hpos (by decide) (by decide) (by decide)]
  have hr : ready h 34
      { m with buffer := { pos := m.buffer.pos + 1, cur := 34,
                           ahead := s.flatMap JsonSAXWriter.escape ++ 34 :: rest },
               depth := (if top = .ObjectValue then .ObjectNextPair else .ArrayNext) :: below }
      = call h (.ValueString s)
          { m with buffer := { pos := m.buffer.pos + 1
                                 + (s.flatMap JsonSAXWriter.escape).length + 1,
                               cur := 34, ahead := rest },
                   depth := (if top = .ObjectValue then .ObjectNextPair else .ArrayNext)
                     :: below } := by
    simp only [ready, show (34 == 123) = false by decide, show (34 == 91) = false by decide,
      Bool.false_eq_true, if_false, beq_self_eq_true, if_true, readyStringValue]
    rw [readyString_escaped s ((acceptsString_iff s).mp hs) _ 34 rest]
  rw [hr, run_call operation _ _ (List.cons_ne_nil _ _)]
  exact hooked_eq operation _ _ _ rest rfl rfl rfl rfl rfl

/-- A key in quotes, at the start of an object or behind a comma. -/
theorem outcome_key (operation : Operation) (m : Machine σ) (key : List Nat) (rest : List Nat)
    (hk : acceptsString key = true)
    (x : JsonReaderType) (below : List JsonReaderType) (hd : m.depth = x :: below)
    (hx : x = .Object ∨ x = .ObjectNextKey) :
    outcome h operation m (quoteText key ++ rest)
      = hooked h operation (.ObjectKey key) { m with depth := .ObjectKey :: below } rest := by
  obtain ⟨buffer, depth, self, stop, error, errno⟩ := m
  simp only at hd
  subst hd
  rw [quoteText_append, outcome_step]
  have hb : parseBody h operation
      { buffer := { pos := buffer.pos + 1, cur := 34,
                    ahead := key.flatMap JsonSAXWriter.escape ++ 34 :: rest },
        depth := x :: below, self := self, stop := stop, error := error, errno := errno }
      = andThen h operation (keyThenTop h
          { buffer := { pos := buffer.pos + 1, cur := 34,
                        ahead := key.flatMap JsonSAXWriter.escape ++ 34 :: rest },
            depth := x :: below, self := self, stop := stop, error := error, errno := errno }) := by
    unfold parseBody
    rcases hx with rfl | rfl <;>
      simp only [JsonStringViewBufferReader.value, show isspace 34 = false by decide,
        show isControlCode 34 = false by decide, Bool.false_eq_true, if_false,
        beq_self_eq_true, if_true]
  have hb1 : parseBody h operation
      { ({ buffer := buffer, depth := x :: below, self := self, stop := stop, error := error, errno := errno } :
          Machine σ) with
        buffer := { pos := buffer.pos + 1, cur := 34,
                    ahead := key.flatMap JsonSAXWriter.escape ++ 34 :: rest } }
      = andThen h operation (keyThenTop h
          { buffer := { pos := buffer.pos + 1, cur := 34,
                        ahead := key.flatMap JsonSAXWriter.escape ++ 34 :: rest },
            depth := x :: below, self := self, stop := stop, error := error, errno := errno }) := hb
  rw [hb1]
  simp only [keyThenTop, readyObjectKey]
  rw [readyString_escaped key ((acceptsString_iff key).mp hk) _ 34 rest]
  simp only [call, emit, hooked]
  cases hh : h (.ObjectKey key) self with
  | none => rfl
  | some p =>
      obtain ⟨s, st⟩ := p
      simp only [andThen, setTop, List.tail_cons]
      rw [documentEnd_on operation _ (List.cons_ne_nil _ _)]
      exact outcome_eq (h := h) operation
        { buffer := buffer, depth := .ObjectKey :: below, self := s, stop := stop || st,
          error := error, errno := errno }
        { buffer := { pos := buffer.pos + 1 + (key.flatMap JsonSAXWriter.escape).length + 1,
                      cur := 34, ahead := rest },
          depth := .ObjectKey :: below, self := s, stop := stop || st, error := error, errno := errno }
        rest rfl rfl rfl rfl rfl

end




open JsonStringViewBufferReader

section
variable {σ : Type} {h : Hooks σ}

/-! ## The pass over a number -/

theorem numberEnd_none (scan : NumberScan) (hend : scan.end = .None) (r : Ret × Machine σ) :
    numberEnd h scan r = r := by
  obtain ⟨x, m⟩ := r
  cases x <;> simp [numberEnd, hend]

/-- The run over a number that is followed by `,` or by the bracket that closes
the container shows what the run over the number and a space before that byte
shows. -/
theorem outcome_terminator (operation : Operation) (m : Machine σ) (d : Nat) (lit : List Nat)
    (t : Nat) (rest : List Nat) (top : JsonReaderType) (below : List JsonReaderType)
    (hdepth : m.depth = top :: below)
    (hpos : top = .ObjectValue ∨ top = .Array ∨ top = .ArrayNextValue)
    (hd : d = 45 ∨ isdigit d = true)
    (hlit : ∀ c ∈ lit, isNumberChar c = true)
    (ht : t = 44 ∨ (t = 125 ∧ top = .ObjectValue) ∨ (t = 93 ∧ top ≠ .ObjectValue)) :
    outcome h operation m (d :: (lit ++ t :: rest))
      = outcome h operation m (d :: (lit ++ 32 :: t :: rest)) := by
  obtain ⟨r, r1, e1, e2, h1, h2, h3, h4⟩ :=
    parseFrom_terminator (h := h) operation m d lit t rest top below hdepth hpos hd hlit ht
  unfold outcome
  rw [e1, e2]
  simp only [Option.map_some', shown, h1, h2, h3, h4]

/-- The run over a number that is followed by whitespace: what it shows depends
on the bytes behind the number as the run from the state behind a value does. -/
theorem number_blank (operation : Operation) (m : Machine σ) (d : Nat) (lit : List Nat)
    (top : JsonReaderType) (below : List JsonReaderType)
    (hdepth : m.depth = top :: below)
    (hpos : top = .ObjectValue ∨ top = .Array ∨ top = .ArrayNextValue)
    (hd : d = 45 ∨ isdigit d = true)
    (hlit : ∀ c ∈ lit, isNumberChar c = true) :
    ∃ K : List Nat → Option (Ret × σ × Bool × Option Msg),
      (∀ w tail, isspace w = true → outcome h operation m (d :: (lit ++ w :: tail)) = K tail)
      ∧ (∀ restA restB,
          Agree h operation ((if top = .ObjectValue then .ObjectNextPair else .ArrayNext) :: below)
            restA restB → K restA = K restB)
      ∧ (∀ w tail, isspace w = true → K (w :: tail) = K tail) := by
  have hdr : d = 45 ∨ (48 ≤ d ∧ d ≤ 57) := by
    rcases hd with hd | hd
    · exact Or.inl hd
    · exact Or.inr ((isdigit_iff d).mp hd)
  have hsp : isspace d = false := by
    cases hs : isspace d with
    | false => rfl
    | true => rw [isspace_iff] at hs; omega
  have hctl : isControlCode d = false := by
    simp only [isControlCode, Bool.or_eq_false_iff, Bool.and_eq_false_imp, decide_eq_false_iff_not,
      decide_eq_true_eq, beq_eq_false_iff_ne]
    omega
  have h93 : d ≠ 93 := by omega
  have hstep : ∀ tail1 : List Nat, outcome h operation m (d :: tail1)
      = ((andThen h operation (readyNumber h d
            { m with buffer := { pos := m.buffer.pos + 1, cur := d, ahead := tail1 },
                     depth := (if top = .ObjectValue then .ObjectNextPair else .ArrayNext)
                       :: below })).run h operation).map shown := by
    intro tail1
    rw [outcome_value operation m d tail1 top below hdepth hpos hsp hctl h93,
      ready_number h d _ hd]
  generalize (if top = .ObjectValue then JsonReaderType.ObjectNextPair else .ArrayNext) = top1
    at hstep ⊢
  obtain ⟨buffer, depth, self, stop, error, errno⟩ := m
  simp only at hdepth
  subst hdepth
  simp only [readyNumber] at hstep
  rcases readyNumberLoop_literal (d == 45) (top1 :: below) lit hlit (buffer.pos + 1) 0 0 [d] 0 with
    ⟨i1, p1, t1, c1, hgo⟩ | ⟨e, p, c, tl, hfail⟩ | ⟨p1, t1, p, c, tl, hc, hstop⟩
  · have hB : ∀ w, isspace w = true →
        numberStep (d == 45) (top1 :: below) i1 p1 w = .leave .None (top1 :: below) :=
      fun w hw => (numberStep_terminator (d == 45) (top1 :: below) i1 p1 w
        (isspace_not_control w hw)).1 hw
    have hscan : ∀ w tail, isspace w = true →
        outcome h operation
          { buffer := buffer, depth := top :: below, self := self, stop := stop, error := error, errno := errno }
          (d :: (lit ++ w :: tail))
        = ((andThen h operation (readyNumberEnd h
              { exit := true, «end» := .None, points := p1, temp := t1, ch := w,
                depth := top1 :: below }
              { buffer := { pos := buffer.pos + 1 + lit.length + 1, cur := w, ahead := tail },
                depth := top1 :: below, self := self, stop := stop, error := error, errno := errno })).run
            h operation).map shown := by
      intro w tail hw
      rw [hstep (lit ++ w :: tail)]
      rw [hgo (w :: tail), readyNumberLoop, hB w hw]
    by_cases hpt : (t1.getLast? == some 46) = true
    · refine ⟨fun _ => some (.false, self, stop, some .ALotPointMsg), ?_, fun _ _ _ => rfl,
        fun _ _ _ => rfl⟩
      intro w tail hw
      rw [hscan w tail hw]
      simp only [readyNumberEnd, Bool.not_true, Bool.false_eq_true, if_false, hw,
        Bool.and_false, hpt, if_true]
      rfl
    · have hend : ∀ w tail, isspace w = true →
          readyNumberEnd h
            { exit := true, «end» := .None, points := p1, temp := t1, ch := w,
              depth := top1 :: below }
            { buffer := { pos := buffer.pos + 1 + lit.length + 1, cur := w, ahead := tail },
              depth := top1 :: below, self := self, stop := stop, error := error, errno := errno }
          = numberValue h
              { exit := true, «end» := .None, points := p1, temp := t1, ch := w,
                depth := top1 :: below }
              { buffer := { pos := buffer.pos + 1 + lit.length + 1, cur := w, ahead := tail },
                depth := top1 :: below, self := self, stop := stop, error := error, errno := errno } := by
        intro w tail hw
        simp only [readyNumberEnd, Bool.not_true, Bool.false_eq_true, if_false, hw,
          Bool.and_false, hpt]
        exact numberEnd_none _ rfl _
      by_cases hp1 : (p1 == 1) = true
      · cases hst : stod t1 with
        | none =>
            refine ⟨fun _ => some (.thrown, self, stop, error.kind), ?_, fun _ _ _ => rfl,
              fun _ _ _ => rfl⟩
            intro w tail hw
            rw [hscan w tail hw, hend w tail hw]
            simp only [numberValue, hp1, if_true, hst]
            rfl
        | some v =>
            cases errno with
            | true =>
                refine ⟨fun _ => some (.false, self, stop, some .NumberRangeMsg), ?_,
                  fun _ _ _ => rfl, fun _ _ _ => rfl⟩
                intro w tail hw
                rw [hscan w tail hw, hend w tail hw]
                simp only [numberValue, hp1, if_true, hst]
                rfl
            | false =>
                refine ⟨fun rest => hooked h operation (.ValueDouble v)
                    { buffer := buffer, depth := top1 :: below, self := self, stop := stop,
                      error := error, errno := false } rest, ?_,
                  fun restA restB ha => hooked_agree operation _ _ restA restB ha,
                  fun w tail hw => hooked_spaces operation _ _ [w]
                    (fun c hc => by rw [List.mem_singleton.mp hc]; exact hw) tail⟩
                intro w tail hw
                rw [hscan w tail hw, hend w tail hw]
                simp only [numberValue, hp1, if_true, hst, Bool.false_eq_true, if_false]
                rw [run_call operation _ _ (List.cons_ne_nil _ _)]
                exact hooked_eq operation _ _ _ tail rfl rfl rfl rfl rfl
      · by_cases hp0 : (p1 == 0) = true
        · cases hfc : from_chars t1 with
          | none =>
              refine ⟨fun _ => some (.false, self, stop, some .NumberRangeMsg), ?_,
                fun _ _ _ => rfl, fun _ _ _ => rfl⟩
              intro w tail hw
              rw [hscan w tail hw, hend w tail hw]
              simp only [numberValue, hp1, Bool.false_eq_true, if_false, hp0, if_true, hfc]
              rfl
          | some v =>
              refine ⟨fun rest => hooked h operation (.ValueLongLong v)
                  { buffer := buffer, depth := top1 :: below, self := self, stop := stop,
                    error := error, errno := errno } rest, ?_,
                fun restA restB ha => hooked_agree operation _ _ restA restB ha,
                fun w tail hw => hooked_spaces operation _ _ [w]
                  (fun c hc => by rw [List.mem_singleton.mp hc]; exact hw) tail⟩
              intro w tail hw
              rw [hscan w tail hw, hend w tail hw]
              simp only [numberValue, hp1, Bool.false_eq_true, if_false, hp0, if_true, hfc]
              rw [run_call operation _ _ (List.cons_ne_nil _ _)]
              exact hooked_eq operation _ _ _ tail rfl rfl rfl rfl rfl
        · refine ⟨fun rest => outcome h operation
              { buffer := buffer, depth := top1 :: below, self := self, stop := stop,
                error := error, errno := errno } rest, ?_,
            fun restA restB ha => ha _ rfl,
            fun w tail hw => outcome_space operation _ w tail hw⟩
          intro w tail hw
          rw [hscan w tail hw, hend w tail hw]
          simp only [numberValue, hp1, Bool.false_eq_true, if_false, hp0, andThen]
          rw [documentEnd_on operation _ (List.cons_ne_nil _ _)]
          exact outcome_eq (h := h) operation
            { buffer := buffer, depth := top1 :: below, self := self, stop := stop,
              error := error, errno := errno }
            { buffer := { pos := buffer.pos + 1 + lit.length + 1, cur := w, ahead := tail },
              depth := top1 :: below, self := self, stop := stop, error := error, errno := errno }
            tail rfl rfl rfl rfl rfl
  · refine ⟨fun _ => some (.false, self, stop, e.kind), ?_, fun _ _ _ => rfl,
      fun _ _ _ => rfl⟩
    intro w tail hw
    rw [hstep (lit ++ w :: tail)]
    try simp only []
    rw [hfail (w :: tail)]
    rfl
  · refine ⟨fun _ => some (.false, self, stop, some .InvalidValueMsg), ?_, fun _ _ _ => rfl,
      fun _ _ _ => rfl⟩
    intro w tail hw
    rw [hstep (lit ++ w :: tail)]
    try simp only []
    rw [hstop (w :: tail)]
    simp only [readyNumberEnd, Bool.not_true, Bool.false_eq_true, if_false, hc, Bool.not_false,
      Bool.and_true, show (End.None == End.None) = true by decide, if_true]
    rfl

/-- The runs over a number and two texts behind it, each of which starts with a
byte that ends a number, show the same when the runs over the two texts from
the state behind a value do. -/
theorem number_agree (operation : Operation) (d : Nat) (lit : List Nat)
    (top : JsonReaderType) (below : List JsonReaderType) (object : Bool)
    (hpos : top = .ObjectValue ∨ top = .Array ∨ top = .ArrayNextValue)
    (hobj : object = true ↔ top = .ObjectValue)
    (hd : d = 45 ∨ isdigit d = true)
    (hlit : ∀ c ∈ lit, isNumberChar c = true)
    (restA restB : List Nat) (hA : Terminated object restA) (hB : Terminated object restB)
    (ha : Agree h operation
      ((if top = .ObjectValue then .ObjectNextPair else .ArrayNext) :: below) restA restB) :
    Agree h operation (top :: below) (d :: (lit ++ restA)) (d :: (lit ++ restB)) := by
  intro m hdepth
  obtain ⟨K, h1, h2, h3⟩ := number_blank (h := h) operation m d lit top below hdepth hpos hd hlit
  have key : ∀ rest, Terminated object rest →
      outcome h operation m (d :: (lit ++ rest)) = K rest := by
    rintro rest ⟨c, tail, rfl, hc⟩
    rcases hc with hw | ht | ⟨ht, ho⟩ | ⟨ht, ho⟩
    · rw [h1 c tail hw, h3 c tail hw]
    · rw [outcome_terminator operation m d lit c tail top below hdepth hpos hd hlit (Or.inl ht),
        h1 32 (c :: tail) (by decide)]
    · rw [outcome_terminator operation m d lit c tail top below hdepth hpos hd hlit
          (Or.inr (Or.inl ⟨ht, hobj.mp ho⟩)),
        h1 32 (c :: tail) (by decide)]
    · have hno : top ≠ .ObjectValue := by
        intro hx
        rw [hobj.mpr hx] at ho
        exact Bool.noConfusion ho
      rw [outcome_terminator operation m d lit c tail top below hdepth hpos hd hlit
          (Or.inr (Or.inr ⟨ht, hno⟩)),
        h1 32 (c :: tail) (by decide)]
  rw [key restA hA, key restB hB]
  exact h2 restA restB ha

end




/-! ## The text of a tree in the two modes -/

theorem renderTree_object (b : Bool) (d : Nat) (ms : List (List Nat × ValueTree))
    (c : List Nat) (hc : renderTree b d (.Object ms) = some c) :
    ∃ body, renderMembers b (d + 1) true ms = some body
      ∧ c = 123 :: (newlineText b ++ body ++ newlineText b ++ indentText b d ++ [125]) := by
  rw [renderTree] at hc
  cases hm : renderMembers b (d + 1) true ms with
  | none => rw [hm] at hc; exact Option.noConfusion hc
  | some body =>
      rw [hm] at hc
      exact ⟨body, rfl, (Option.some.inj hc).symm⟩

theorem renderTree_array (b : Bool) (d : Nat) (es : List ValueTree)
    (c : List Nat) (hc : renderTree b d (.Array es) = some c) :
    ∃ body, renderElements b (d + 1) true es = some body
      ∧ c = 91 :: (newlineText b ++ body ++ newlineText b ++ indentText b d ++ [93]) := by
  rw [renderTree] at hc
  cases hm : renderElements b (d + 1) true es with
  | none => rw [hm] at hc; exact Option.noConfusion hc
  | some body =>
      rw [hm] at hc
      exact ⟨body, rfl, (Option.some.inj hc).symm⟩

theorem renderMembers_some (b : Bool) (d : Nat) (first : Bool) (key : List Nat) (v : ValueTree)
    (ms : List (List Nat × ValueTree)) (body : List Nat)
    (hb : renderMembers b d first ((key, v) :: ms) = some body) :
    acceptsString key = true
      ∧ ∃ text rest, renderTree b d v = some text ∧ renderMembers b d false ms = some rest
        ∧ body = entryPrefix b d first ++ (quoteText key ++ 58 :: (text ++ rest)) := by
  rw [renderMembers] at hb
  by_cases hk : acceptsString key = true
  · rw [if_pos hk] at hb
    refine ⟨hk, ?_⟩
    cases hv : renderTree b d v with
    | none => rw [hv] at hb; exact Option.noConfusion hb
    | some text =>
        cases hr : renderMembers b d false ms with
        | none => rw [hv, hr] at hb; exact Option.noConfusion hb
        | some rest =>
            rw [hv, hr] at hb
            exact ⟨text, rest, rfl, rfl, (Option.some.inj hb).symm⟩
  · rw [if_neg hk] at hb
    exact Option.noConfusion hb

theorem renderMembers_make (b : Bool) (d : Nat) (first : Bool) (key : List Nat) (v : ValueTree)
    (ms : List (List Nat × ValueTree)) (text rest : List Nat)
    (hk : acceptsString key = true) (hv : renderTree b d v = some text)
    (hr : renderMembers b d false ms = some rest) :
    renderMembers b d first ((key, v) :: ms)
      = some (entryPrefix b d first ++ (quoteText key ++ 58 :: (text ++ rest))) := by
  rw [renderMembers, if_pos hk, hv, hr]

theorem renderElements_some (b : Bool) (d : Nat) (first : Bool) (v : ValueTree)
    (es : List ValueTree) (body : List Nat)
    (hb : renderElements b d first (v :: es) = some body) :
    ∃ text rest, renderTree b d v = some text ∧ renderElements b d false es = some rest
      ∧ body = entryPrefix b d first ++ (text ++ rest) := by
  rw [renderElements] at hb
  cases hv : renderTree b d v with
  | none => rw [hv] at hb; exact Option.noConfusion hb
  | some text =>
      cases hr : renderElements b d false es with
      | none => rw [hv, hr] at hb; exact Option.noConfusion hb
      | some rest =>
          rw [hv, hr] at hb
          exact ⟨text, rest, rfl, rfl, (Option.some.inj hb).symm⟩

theorem renderElements_make (b : Bool) (d : Nat) (first : Bool) (v : ValueTree)
    (es : List ValueTree) (text rest : List Nat)
    (hv : renderTree b d v = some text) (hr : renderElements b d false es = some rest) :
    renderElements b d first (v :: es) = some (entryPrefix b d first ++ (text ++ rest)) := by
  rw [renderElements, hv, hr]

theorem renderMembers_nil (b : Bool) (d : Nat) (first : Bool) :
    renderMembers b d first [] = some [] := by
  rw [renderMembers]

theorem renderElements_nil (b : Bool) (d : Nat) (first : Bool) :
    renderElements b d first [] = some [] := by
  rw [renderElements]

/-- The text of the members behind the first is empty or starts with `,`. -/
theorem members_head (b : Bool) (d : Nat) (ms : List (List Nat × ValueTree)) (r : List Nat)
    (hr : renderMembers b d false ms = some r) : r = [] ∨ ∃ tl, r = 44 :: tl := by
  cases ms with
  | nil =>
      rw [renderMembers_nil] at hr
      exact Or.inl (Option.some.inj hr).symm
  | cons x ms =>
      obtain ⟨key, v⟩ := x
      obtain ⟨_, text, rest, _, _, hb⟩ := renderMembers_some b d false key v ms r hr
      rw [hb]
      exact Or.inr ⟨_, rfl⟩

/-- The text of the elements behind the first is empty or starts with `,`. -/
theorem elements_head (b : Bool) (d : Nat) (es : List ValueTree) (r : List Nat)
    (hr : renderElements b d false es = some r) : r = [] ∨ ∃ tl, r = 44 :: tl := by
  cases es with
  | nil =>
      rw [renderElements_nil] at hr
      exact Or.inl (Option.some.inj hr).symm
  | cons v es =>
      obtain ⟨text, rest, _, _, hb⟩ := renderElements_some b d false v es r hr
      rw [hb]
      exact Or.inr ⟨_, rfl⟩

/-- The text behind a value inside a container starts with a byte that ends a
number. -/
theorem terminated_tail (object : Bool) (r ws rest : List Nat) (t : Nat)
    (hr : r = [] ∨ ∃ tl, r = 44 :: tl) (hws : ∀ c ∈ ws, isspace c = true)
    (ht : (t = 125 ∧ object = true) ∨ (t = 93 ∧ object = false)) :
    Terminated object (r ++ (ws ++ t :: rest)) := by
  rcases hr with rfl | ⟨tl, rfl⟩
  · cases ws with
    | nil => exact ⟨t, rest, rfl, Or.inr (Or.inr ht)⟩
    | cons w ws => exact ⟨w, ws ++ t :: rest, rfl, Or.inl (hws w (List.mem_cons_self _ _))⟩
  · exact ⟨44, tl ++ (ws ++ t :: rest), rfl, Or.inr (Or.inl rfl)⟩

theorem members_mode (b b1 : Bool) (d d1 : Nat) :
    ∀ (ms : List (List Nat × ValueTree)),
      (∀ m ∈ ms, ∀ c, renderTree b d m.2 = some c → ∃ c1, renderTree b1 d1 m.2 = some c1) →
      ∀ (first first1 : Bool) (body : List Nat), renderMembers b d first ms = some body →
        ∃ body1, renderMembers b1 d1 first1 ms = some body1 := by
  intro ms
  induction ms with
  | nil => intro _ first first1 body _; exact ⟨[], renderMembers_nil b1 d1 first1⟩
  | cons x ms ih =>
      intro hsub first first1 body hb
      obtain ⟨key, v⟩ := x
      obtain ⟨hk, text, rest, hv, hr, _⟩ := renderMembers_some b d first key v ms body hb
      obtain ⟨text1, hv1⟩ := hsub (key, v) (List.mem_cons_self _ _) text hv
      obtain ⟨rest1, hr1⟩ := ih (fun m hm => hsub m (List.mem_cons_of_mem _ hm)) false false rest hr
      exact ⟨_, renderMembers_make b1 d1 first1 key v ms text1 rest1 hk hv1 hr1⟩

theorem elements_mode (b b1 : Bool) (d d1 : Nat) :
    ∀ (es : List ValueTree),
      (∀ t ∈ es, ∀ c, renderTree b d t = some c → ∃ c1, renderTree b1 d1 t = some c1) →
      ∀ (first first1 : Bool) (body : List Nat), renderElements b d first es = some body →
        ∃ body1, renderElements b1 d1 first1 es = some body1 := by
  intro es
  induction es with
  | nil => intro _ first first1 body _; exact ⟨[], renderElements_nil b1 d1 first1⟩
  | cons v es ih =>
      intro hsub first first1 body hb
      obtain ⟨text, rest, hv, hr, _⟩ := renderElements_some b d first v es body hb
      obtain ⟨text1, hv1⟩ := hsub v (List.mem_cons_self _ _) text hv
      obtain ⟨rest1, hr1⟩ := ih (fun m hm => hsub m (List.mem_cons_of_mem _ hm)) false false rest hr
      exact ⟨_, renderElements_make b1 d1 first1 v es text1 rest1 hv1 hr1⟩

/-- A tree that has a text in one mode at one level has a text in every mode at
every level. -/
theorem render_mode :
    ∀ (N : Nat) (t : ValueTree), t.size = N → ∀ (b b1 : Bool) (d d1 : Nat) (c : List Nat),
      renderTree b d t = some c → ∃ c1, renderTree b1 d1 t = some c1 := by
  intro N
  induction N using Nat.strong_induction_on with
  | _ N ih =>
      intro t hN b b1 d d1 c hc
      cases t with
      | Object ms =>
          obtain ⟨body, hb, _⟩ := renderTree_object b d ms c hc
          have hsub : ∀ m ∈ ms, ∀ c, renderTree b (d + 1) m.2 = some c →
              ∃ c1, renderTree b1 (d1 + 1) m.2 = some c1 := by
            intro m hm c0 h0
            have hsz := member_size ms m hm
            simp only [ValueTree.size] at hN
            exact ih m.2.size (by omega) m.2 rfl b b1 (d + 1) (d1 + 1) c0 h0
          obtain ⟨body1, hb1⟩ := members_mode b b1 (d + 1) (d1 + 1) ms hsub true true body hb
          exact ⟨_, by rw [renderTree, hb1]; rfl⟩
      | Array es =>
          obtain ⟨body, hb, _⟩ := renderTree_array b d es c hc
          have hsub : ∀ m ∈ es, ∀ c, renderTree b (d + 1) m = some c →
              ∃ c1, renderTree b1 (d1 + 1) m = some c1 := by
            intro m hm c0 h0
            have hsz := element_size es m hm
            simp only [ValueTree.size] at hN
            exact ih m.size (by omega) m rfl b b1 (d + 1) (d1 + 1) c0 h0
          obtain ⟨body1, hb1⟩ := elements_mode b b1 (d + 1) (d1 + 1) es hsub true true body hb
          exact ⟨_, by rw [renderTree, hb1]; rfl⟩
      | Empty => rw [renderTree] at hc; exact Option.noConfusion hc
      | String s => exact ⟨c, by rw [renderTree] at hc ⊢; exact hc⟩
      | Double x => exact ⟨c, by rw [renderTree] at hc ⊢; exact hc⟩
      | LongLong x => exact ⟨c, by rw [renderTree] at hc ⊢; exact hc⟩
      | Bool x => exact ⟨c, by rw [renderTree] at hc ⊢; exact hc⟩
      | Null => exact ⟨c, by rw [renderTree] at hc ⊢; exact hc⟩

/-- What stands before an entry in beautified output: two spaces for each
level, behind `,` and a newline when the entry is not the first. -/
theorem entryPrefix_beautiful (d : Nat) (first : Bool) :
    entryPrefix true d first
      = (if first then [] else [44, 10]) ++ List.replicate (2 * d) 32 := by
  cases first <;> rfl

/-- What stands before an entry in compact output: `,` when the entry is not the
first. -/
theorem entryPrefix_compact (d : Nat) (first : Bool) :
    entryPrefix false d first = (if first then [] else [44]) := by
  cases first <;> rfl

theorem replicate_space (n : Nat) : ∀ c ∈ List.replicate n 32, isspace c = true := by
  intro c hc
  rw [(List.mem_replicate.mp hc).2]
  decide

theorem closing_space (n : Nat) : ∀ c ∈ 10 :: List.replicate n 32, isspace c = true := by
  intro c hc
  rcases List.mem_cons.mp hc with rfl | hc
  · decide
  · exact replicate_space n c hc




open JsonStringViewBufferReader

section
variable {σ : Type} {h : Hooks σ}

/-! ## The runs over the compact text and over the beautified text of a tree -/

/-- The runs over the members of an object in the two texts, from the state at
the start of the object or behind a member. -/
theorem members_agree (operation : Operation) (N : Nat)
    (hsub : ∀ t : ValueTree, t.size < N →
      ∀ (dA dB : Nat) (cA cB : List Nat), renderTree false dA t = some cA →
        renderTree true dB t = some cB →
        ∀ (top : JsonReaderType) (below : List JsonReaderType) (object : Bool)
          (restA restB : List Nat),
          (top = .ObjectValue ∨ top = .Array ∨ top = .ArrayNextValue) →
          (object = true ↔ top = .ObjectValue) →
          Terminated object restA → Terminated object restB →
          Agree h operation
            ((if top = .ObjectValue then .ObjectNextPair else .ArrayNext) :: below) restA restB →
          Agree h operation (top :: below) (cA ++ restA) (cB ++ restB))
    (stk : List JsonReaderType) (restA restB wsB : List Nat)
    (hws : ∀ c ∈ wsB, isspace c = true) (dA dB : Nat)
    (hclose : ∀ x, x = JsonReaderType.Object ∨ x = .ObjectNextPair →
      Agree h operation (x :: stk) (125 :: restA) (125 :: restB)) :
    ∀ (ms : List (List Nat × ValueTree)) (first : Bool) (bodyA bodyB : List Nat),
      (∀ m ∈ ms, m.2.size < N) →
      renderMembers false dA first ms = some bodyA →
      renderMembers true dB first ms = some bodyB →
      Agree h operation ((if first then JsonReaderType.Object else .ObjectNextPair) :: stk)
        (bodyA ++ 125 :: restA) (bodyB ++ (wsB ++ 125 :: restB)) := by
  intro ms
  induction ms with
  | nil =>
      intro first bodyA bodyB _ hA hB m hd
      rw [renderMembers_nil] at hA hB
      rw [← Option.some.inj hA, ← Option.some.inj hB, List.nil_append, List.nil_append,
        outcome_spaces operation wsB hws]
      refine hclose _ ?_ m hd
      cases first
      · exact Or.inr rfl
      · exact Or.inl rfl
  | cons x ms ih =>
      intro first bodyA bodyB hsize hA hB m hd
      obtain ⟨key, v⟩ := x
      obtain ⟨hk, textA, restMA, hvA, hrA, hbA⟩ :=
        renderMembers_some false dA first key v ms bodyA hA
      obtain ⟨_, textB, restMB, hvB, hrB, hbB⟩ :=
        renderMembers_some true dB first key v ms bodyB hB
      have hrest := ih false restMA restMB (fun m hm => hsize m (List.mem_cons_of_mem _ hm))
        hrA hrB
      have hrest1 : Agree h operation (.ObjectNextPair :: stk) (restMA ++ 125 :: restA)
          (restMB ++ (wsB ++ 125 :: restB)) := hrest
      have htA : Terminated true (restMA ++ 125 :: restA) :=
        terminated_tail true restMA [] restA 125 (members_head false dA ms restMA hrA)
          (fun c hc => absurd hc (List.not_mem_nil _)) (Or.inl ⟨rfl, rfl⟩)
      have htB : Terminated true (restMB ++ (wsB ++ 125 :: restB)) :=
        terminated_tail true restMB wsB restB 125 (members_head true dB ms restMB hrB) hws
          (Or.inl ⟨rfl, rfl⟩)
      have hv : Agree h operation (.ObjectValue :: stk) (textA ++ (restMA ++ 125 :: restA))
          (textB ++ (restMB ++ (wsB ++ 125 :: restB))) :=
        hsub v (hsize (key, v) (List.mem_cons_self _ _)) dA dB textA textB hvA hvB .ObjectValue
          stk true _ _ (Or.inl rfl) ⟨fun _ => rfl, fun _ => rfl⟩ htA htB
          (by rw [if_pos rfl]; exact hrest1)
      have hcolon : Agree h operation (.ObjectKey :: stk)
          (58 :: (textA ++ (restMA ++ 125 :: restA)))
          (58 :: (textB ++ (restMB ++ (wsB ++ 125 :: restB)))) := by
        intro m2 hd2
        rw [outcome_colon operation m2 stk _ hd2, outcome_colon operation m2 stk _ hd2]
        exact hv _ rfl
      have hkey : ∀ (m2 : Machine σ) (x : JsonReaderType), m2.depth = x :: stk →
          (x = .Object ∨ x = .ObjectNextKey) →
          outcome h operation m2 (quoteText key ++ 58 :: (textA ++ (restMA ++ 125 :: restA)))
            = outcome h operation m2
                (quoteText key ++ 58 :: (textB ++ (restMB ++ (wsB ++ 125 :: restB)))) := by
        intro m2 x hd2 hx
        rw [outcome_key operation m2 key _ hk x stk hd2 hx,
          outcome_key operation m2 key _ hk x stk hd2 hx]
        exact hooked_agree operation _ _ _ _ hcolon
      rw [hbA, hbB, entryPrefix_compact, entryPrefix_beautiful]
      cases first with
      | «true» =>
          have eA : ((if true = true then [] else [44]) ++ (quoteText key ++ 58 :: (textA ++ restMA)))
              ++ 125 :: restA
              = quoteText key ++ 58 :: (textA ++ (restMA ++ 125 :: restA)) := by
            simp
          have eB : ((if true = true then [] else [44, 10]) ++ List.replicate (2 * dB) 32
                ++ (quoteText key ++ 58 :: (textB ++ restMB))) ++ (wsB ++ 125 :: restB)
              = List.replicate (2 * dB) 32
                ++ (quoteText key ++ 58 :: (textB ++ (restMB ++ (wsB ++ 125 :: restB)))) := by
            simp
          rw [eA, eB, outcome_spaces operation _ (replicate_space _)]
          exact hkey m .Object hd (Or.inl rfl)
      | «false» =>
          have eA : ((if false = true then [] else [44]) ++ (quoteText key ++ 58 :: (textA ++ restMA)))
              ++ 125 :: restA
              = 44 :: (quoteText key ++ 58 :: (textA ++ (restMA ++ 125 :: restA))) := by
            simp
          have eB : ((if false = true then [] else [44, 10]) ++ List.replicate (2 * dB) 32
                ++ (quoteText key ++ 58 :: (textB ++ restMB))) ++ (wsB ++ 125 :: restB)
              = 44 :: ((10 :: List.replicate (2 * dB) 32)
                ++ (quoteText key ++ 58 :: (textB ++ (restMB ++ (wsB ++ 125 :: restB))))) := by
            simp
          rw [eA, eB, outcome_commaObject operation m stk _ hd,
            outcome_commaObject operation m stk _ hd,
            outcome_spaces operation _ (closing_space _)]
          exact hkey _ .ObjectNextKey rfl (Or.inr rfl)

/-- The runs over the elements of an array in the two texts, from the state at
the start of the array or behind an element. -/
theorem elements_agree (operation : Operation) (N : Nat)
    (hsub : ∀ t : ValueTree, t.size < N →
      ∀ (dA dB : Nat) (cA cB : List Nat), renderTree false dA t = some cA →
        renderTree true dB t = some cB →
        ∀ (top : JsonReaderType) (below : List JsonReaderType) (object : Bool)
          (restA restB : List Nat),
          (top = .ObjectValue ∨ top = .Array ∨ top = .ArrayNextValue) →
          (object = true ↔ top = .ObjectValue) →
          Terminated object restA → Terminated object restB →
          Agree h operation
            ((if top = .ObjectValue then .ObjectNextPair else .ArrayNext) :: below) restA restB →
          Agree h operation (top :: below) (cA ++ restA) (cB ++ restB))
    (stk : List JsonReaderType) (restA restB wsB : List Nat)
    (hws : ∀ c ∈ wsB, isspace c = true) (dA dB : Nat)
    (hclose : ∀ x, x = JsonReaderType.Array ∨ x = .ArrayNext →
      Agree h operation (x :: stk) (93 :: restA) (93 :: restB)) :
    ∀ (es : List ValueTree) (first : Bool) (bodyA bodyB : List Nat),
      (∀ t ∈ es, t.size < N) →
      renderElements false dA first es = some bodyA →
      renderElements true dB first es = some bodyB →
      Agree h operation ((if first then JsonReaderType.Array else .ArrayNext) :: stk)
        (bodyA ++ 93 :: restA) (bodyB ++ (wsB ++ 93 :: restB)) := by
  intro es
  induction es with
  | nil =>
      intro first bodyA bodyB _ hA hB m hd
      rw [renderElements_nil] at hA hB
      rw [← Option.some.inj hA, ← Option.some.inj hB, List.nil_append, List.nil_append,
        outcome_spaces operation wsB hws]
      refine hclose _ ?_ m hd
      cases first
      · exact Or.inr rfl
      · exact Or.inl rfl
  | cons v es ih =>
      intro first bodyA bodyB hsize hA hB m hd
      obtain ⟨textA, restMA, hvA, hrA, hbA⟩ := renderElements_some false dA first v es bodyA hA
      obtain ⟨textB, restMB, hvB, hrB, hbB⟩ := renderElements_some true dB first v es bodyB hB
      have hrest := ih false restMA restMB (fun m hm => hsize m (List.mem_cons_of_mem _ hm))
        hrA hrB
      have hrest1 : Agree h operation (.ArrayNext :: stk) (restMA ++ 93 :: restA)
          (restMB ++ (wsB ++ 93 :: restB)) := hrest
      have htA : Terminated false (restMA ++ 93 :: restA) :=
        terminated_tail false restMA [] restA 93 (elements_head false dA es restMA hrA)
          (fun c hc => absurd hc (List.not_mem_nil _)) (Or.inr ⟨rfl, rfl⟩)
      have htB : Terminated false (restMB ++ (wsB ++ 93 :: restB)) :=
        terminated_tail false restMB wsB restB 93 (elements_head true dB es restMB hrB) hws
          (Or.inr ⟨rfl, rfl⟩)
      have hv : ∀ top : JsonReaderType, top = .Array ∨ top = .ArrayNextValue →
          Agree h operation (top :: stk) (textA ++ (restMA ++ 93 :: restA))
            (textB ++ (restMB ++ (wsB ++ 93 :: restB))) := by
        intro top htop
        have hno : top ≠ .ObjectValue := by
          rcases htop with rfl | rfl <;> exact fun hx => JsonReaderType.noConfusion hx
        exact hsub v (hsize v (List.mem_cons_self _ _)) dA dB textA textB hvA hvB top
          stk false _ _ (Or.inr htop)
          ⟨fun hx => Bool.noConfusion hx, fun hx => absurd hx hno⟩ htA htB
          (by rw [if_neg hno]; exact hrest1)
      rw [hbA, hbB, entryPrefix_compact, entryPrefix_beautiful]
      cases first with
      | «true» =>
          have eA : ((if true = true then [] else [44]) ++ (textA ++ restMA)) ++ 93 :: restA
              = textA ++ (restMA ++ 93 :: restA) := by
            simp
          have eB : ((if true = true then [] else [44, 10]) ++ List.replicate (2 * dB) 32
                ++ (textB ++ restMB)) ++ (wsB ++ 93 :: restB)
              = List.replicate (2 * dB) 32
                ++ (textB ++ (restMB ++ (wsB ++ 93 :: restB))) := by
            simp
          rw [eA, eB, outcome_spaces operation _ (replicate_space _)]
          exact hv .Array (Or.inl rfl) m hd
      | «false» =>
          have eA : ((if false = true then [] else [44]) ++ (textA ++ restMA)) ++ 93 :: restA
              = 44 :: (textA ++ (restMA ++ 93 :: restA)) := by
            simp
          have eB : ((if false = true then [] else [44, 10]) ++ List.replicate (2 * dB) 32
                ++ (textB ++ restMB)) ++ (wsB ++ 93 :: restB)
              = 44 :: ((10 :: List.replicate (2 * dB) 32)
                ++ (textB ++ (restMB ++ (wsB ++ 93 :: restB)))) := by
            simp
          rw [eA, eB, outcome_commaArray operation m stk _ hd,
            outcome_commaArray operation m stk _ hd,
            outcome_spaces operation _ (closing_space _)]
          exact hv .ArrayNextValue (Or.inr rfl) _ rfl

end




open JsonStringViewBufferReader

section
variable {σ : Type} {h : Hooks σ}

/-- The texts of a container in the two modes, with what stands behind them. -/
theorem object_texts (dB : Nat) (bodyA bodyB restA restB : List Nat) :
    (123 :: (newlineText false ++ bodyA ++ newlineText false ++ indentText false 0 ++ [125]))
        ++ restA = 123 :: (bodyA ++ 125 :: restA)
    ∧ (123 :: (newlineText true ++ bodyB ++ newlineText true ++ indentText true dB ++ [125]))
        ++ restB = 123 :: 10 :: (bodyB ++ ((10 :: List.replicate (2 * dB) 32) ++ 125 :: restB)) := by
  constructor <;> simp [newlineText, indentText]

theorem array_texts (dB : Nat) (bodyA bodyB restA restB : List Nat) :
    (91 :: (newlineText false ++ bodyA ++ newlineText false ++ indentText false 0 ++ [93]))
        ++ restA = 91 :: (bodyA ++ 93 :: restA)
    ∧ (91 :: (newlineText true ++ bodyB ++ newlineText true ++ indentText true dB ++ [93]))
        ++ restB = 91 :: 10 :: (bodyB ++ ((10 :: List.replicate (2 * dB) 32) ++ 93 :: restB)) := by
  constructor <;> simp [newlineText, indentText]

theorem indentText_compact (d : Nat) : indentText false d = indentText false 0 := rfl

/-- The runs over the compact text and over the beautified text of a value
inside a container show the same, when the runs over what stands behind the two
texts do. -/
theorem value_agree (operation : Operation) :
    ∀ (N : Nat) (t : ValueTree), t.size = N →
      ∀ (dA dB : Nat) (cA cB : List Nat), renderTree false dA t = some cA →
        renderTree true dB t = some cB →
        ∀ (top : JsonReaderType) (below : List JsonReaderType) (object : Bool)
          (restA restB : List Nat),
          (top = .ObjectValue ∨ top = .Array ∨ top = .ArrayNextValue) →
          (object = true ↔ top = .ObjectValue) →
          Terminated object restA → Terminated object restB →
          Agree h operation
            ((if top = .ObjectValue then .ObjectNextPair else .ArrayNext) :: below) restA restB →
          Agree h operation (top :: below) (cA ++ restA) (cB ++ restB) := by
  intro N
  induction N using Nat.strong_induction_on with
  | _ N ih =>
      intro t hN dA dB cA cB hA hB top below object restA restB hpos hobj htA htB ha
      have hsub : ∀ t1 : ValueTree, t1.size < N →
          ∀ (dA dB : Nat) (cA cB : List Nat), renderTree false dA t1 = some cA →
            renderTree true dB t1 = some cB →
            ∀ (top : JsonReaderType) (below : List JsonReaderType) (object : Bool)
              (restA restB : List Nat),
              (top = .ObjectValue ∨ top = .Array ∨ top = .ArrayNextValue) →
              (object = true ↔ top = .ObjectValue) →
              Terminated object restA → Terminated object restB →
              Agree h operation
                ((if top = .ObjectValue then .ObjectNextPair else .ArrayNext) :: below)
                restA restB →
              Agree h operation (top :: below) (cA ++ restA) (cB ++ restB) :=
        fun t1 h1 => ih t1.size h1 t1 rfl
      have hnumber : ∀ text : List Nat, (∀ c ∈ text, isNumberChar c = true) →
          (∃ x tl, text = x :: tl ∧ (x = 45 ∨ isdigit x = true)) →
          Agree h operation (top :: below) (text ++ restA) (text ++ restB) := by
        rintro text hchars ⟨x, tl, rfl, hx⟩
        exact number_agree operation x tl top below object hpos hobj hx
          (fun c hc => hchars c (List.mem_cons_of_mem _ hc)) restA restB htA htB ha
      cases t with
      | Object ms =>
          obtain ⟨bodyA, hbA, rfl⟩ := renderTree_object false dA ms cA hA
          obtain ⟨bodyB, hbB, rfl⟩ := renderTree_object true dB ms cB hB
          have hsize : ∀ m ∈ ms, m.2.size < N := by
            intro m hm
            have := member_size ms m hm
            simp only [ValueTree.size] at hN
            omega
          intro m hd
          rw [indentText_compact, (object_texts dB bodyA bodyB restA restB).1,
            (object_texts dB bodyA bodyB restA restB).2,
            outcome_openObject operation m _ top below hd hpos,
            outcome_openObject operation m _ top below hd hpos]
          refine hooked_agree operation _ _ _ _ ?_
          intro m2 hd2
          rw [outcome_space operation m2 10 _ (by decide)]
          have hclose : ∀ x, x = JsonReaderType.Object ∨ x = .ObjectNextPair →
              Agree h operation
                (x :: (if top = .ObjectValue then .ObjectNextPair else .ArrayNext) :: below)
                (125 :: restA) (125 :: restB) := by
            intro x hx m3 hd3
            rw [outcome_closeObject operation m3 x _ restA hd3 hx (List.cons_ne_nil _ _),
              outcome_closeObject operation m3 x _ restB hd3 hx (List.cons_ne_nil _ _)]
            exact hooked_agree operation _ _ restA restB ha
          have hm := members_agree operation N hsub
            ((if top = .ObjectValue then .ObjectNextPair else .ArrayNext) :: below)
            restA restB (10 :: List.replicate (2 * dB) 32) (closing_space _) (dA + 1) (dB + 1)
            hclose ms true bodyA bodyB hsize hbA hbB
          rw [if_pos rfl] at hm
          exact hm m2 hd2
      | Array es =>
          obtain ⟨bodyA, hbA, rfl⟩ := renderTree_array false dA es cA hA
          obtain ⟨bodyB, hbB, rfl⟩ := renderTree_array true dB es cB hB
          have hsize : ∀ m ∈ es, m.size < N := by
            intro m hm
            have := element_size es m hm
            simp only [ValueTree.size] at hN
            omega
          intro m hd
          rw [indentText_compact, (array_texts dB bodyA bodyB restA restB).1,
            (array_texts dB bodyA bodyB restA restB).2,
            outcome_openArray operation m _ top below hd hpos,
            outcome_openArray operation m _ top below hd hpos]
          refine hooked_agree operation _ _ _ _ ?_
          intro m2 hd2
          rw [outcome_space operation m2 10 _ (by decide)]
          have hclose : ∀ x, x = JsonReaderType.Array ∨ x = .ArrayNext →
              Agree h operation
                (x :: (if top = .ObjectValue then .ObjectNextPair else .ArrayNext) :: below)
                (93 :: restA) (93 :: restB) := by
            intro x hx m3 hd3
            rw [outcome_closeArray operation m3 x _ restA hd3 hx (List.cons_ne_nil _ _),
              outcome_closeArray operation m3 x _ restB hd3 hx (List.cons_ne_nil _ _)]
            exact hooked_agree operation _ _ restA restB ha
          have hm := elements_agree operation N hsub
            ((if top = .ObjectValue then .ObjectNextPair else .ArrayNext) :: below)
            restA restB (10 :: List.replicate (2 * dB) 32) (closing_space _) (dA + 1) (dB + 1)
            hclose es true bodyA bodyB hsize hbA hbB
          rw [if_pos rfl] at hm
          exact hm m2 hd2
      | Empty => rw [renderTree] at hA; exact Option.noConfusion hA
      | String s =>
          rw [renderTree, scalarText] at hA hB
          by_cases hs : acceptsString s = true
          · rw [if_pos hs] at hA hB
            rw [← Option.some.inj hA, ← Option.some.inj hB]
            intro m hd
            rw [outcome_string operation m s restA hs top below hd hpos,
              outcome_string operation m s restB hs top below hd hpos]
            exact hooked_agree operation _ _ restA restB ha
          · rw [if_neg hs] at hA
            exact Option.noConfusion hA
      | Double x =>
          rw [renderTree, scalarText, to_chars_double] at hA hB
          by_cases hl : (doubleText x).length ≤ 18
          · rw [if_pos hl] at hA hB
            rw [← Option.some.inj hA, ← Option.some.inj hB]
            exact hnumber _ (doubleText_chars x).1 (doubleText_chars x).2
          · rw [if_neg hl] at hA
            exact Option.noConfusion hA
      | LongLong x =>
          rw [renderTree, scalarText, to_chars_longlong] at hA hB
          by_cases hl : (intText x).length ≤ 20
          · rw [if_pos hl] at hA hB
            rw [← Option.some.inj hA, ← Option.some.inj hB]
            exact hnumber _ (intText_chars x) (intText_head x)
          · rw [if_neg hl] at hA
            exact Option.noConfusion hA
      | Bool x =>
          cases x with
          | «true» =>
              rw [renderTree, scalarText] at hA hB
              rw [← Option.some.inj hA, ← Option.some.inj hB]
              intro m hd
              rw [(outcome_keyword operation m restA top below hd hpos).1,
                (outcome_keyword operation m restB top below hd hpos).1]
              exact hooked_agree operation _ _ restA restB ha
          | «false» =>
              rw [renderTree, scalarText] at hA hB
              rw [← Option.some.inj hA, ← Option.some.inj hB]
              intro m hd
              rw [(outcome_keyword operation m restA top below hd hpos).2.1,
                (outcome_keyword operation m restB top below hd hpos).2.1]
              exact hooked_agree operation _ _ restA restB ha
      | Null =>
          rw [renderTree, scalarText] at hA hB
          rw [← Option.some.inj hA, ← Option.some.inj hB]
          intro m hd
          rw [(outcome_keyword operation m restA top below hd hpos).2.2,
            (outcome_keyword operation m restB top below hd hpos).2.2]
          exact hooked_agree operation _ _ restA restB ha

/-- The bracket that opens a document: `JsonBegin`, then the begin hook. -/
theorem root_open (operation : Operation) (c : Nat) (t : JsonReaderType) (e : Event)
    (hc : (c = 123 ∧ t = .Object ∧ e = .ObjectBegin) ∨ (c = 91 ∧ t = .Array ∧ e = .ArrayBegin))
    (restA restB : List Nat) (ha : Agree h operation [t] restA restB) :
    Agree h operation [] (c :: restA) (c :: restB) := by
  intro m hd
  obtain ⟨buffer, depth, self, stop, error, errno⟩ := m
  simp only at hd
  subst hd
  have hb : ∀ rest : List Nat, parseBody h operation
      { buffer := { pos := buffer.pos + 1, cur := c, ahead := rest },
        depth := [], self := self, stop := stop, error := error, errno := errno }
      = andThen h operation (openDocument h t e
          { buffer := { pos := buffer.pos + 1, cur := c, ahead := rest },
            depth := [], self := self, stop := stop, error := error, errno := errno }) := by
    intro rest
    unfold parseBody
    rcases hc with ⟨rfl, rfl, rfl⟩ | ⟨rfl, rfl, rfl⟩
    · simp only [JsonStringViewBufferReader.value, show isspace 123 = false by decide,
        show isControlCode 123 = false by decide, Bool.false_eq_true, if_false,
        beq_self_eq_true, if_true]
    · simp only [JsonStringViewBufferReader.value, show isspace 91 = false by decide,
        show isControlCode 91 = false by decide, Bool.false_eq_true, if_false,
        beq_self_eq_true, if_true, show (91 == 123) = false by decide]
  rw [outcome_step, outcome_step]
  have hbA := hb restA
  have hbB := hb restB
  rw [hbA, hbB]
  simp only [openDocument, call, emit]
  cases hh : h .JsonBegin self with
  | none => rfl
  | some p =>
      obtain ⟨s, st⟩ := p
      simp only []
      have hrun : ∀ rest : List Nat,
          ((andThen h operation (call h e
              { buffer := { pos := buffer.pos + 1, cur := c, ahead := rest },
                depth := [t], self := s, stop := stop || st, error := error, errno := errno })).run
            h operation).map shown
          = hooked h operation e
              { buffer := buffer, depth := [t], self := s, stop := stop || st, error := error, errno := errno }
              rest := by
        intro rest
        rw [run_call operation _ _ (List.cons_ne_nil _ _)]
        exact hooked_eq operation _ _ _ rest rfl rfl rfl rfl rfl
      have hrA := hrun restA
      have hrB := hrun restB
      simp only [call, emit] at hrA hrB
      rw [hrA, hrB]
      exact hooked_agree operation _ _ restA restB ha

/-- The runs over the compact text and over the beautified text of a document
show the same: the same flag, the same hook calls, the same kind of error. -/
theorem document_agree (operation : Operation) (t : ValueTree) (dA dB : Nat)
    (cA cB : List Nat) (hA : renderTree false dA t = some cA)
    (hB : renderTree true dB t = some cB)
    (hroot : (∃ ms, t = .Object ms) ∨ (∃ es, t = .Array es)) :
    Agree h operation [] cA cB := by
  have hsub := fun (t1 : ValueTree) (_ : t1.size < t.size) =>
    value_agree (h := h) operation t1.size t1 rfl
  rcases hroot with ⟨ms, rfl⟩ | ⟨es, rfl⟩
  · obtain ⟨bodyA, hbA, rfl⟩ := renderTree_object false dA ms cA hA
    obtain ⟨bodyB, hbB, rfl⟩ := renderTree_object true dB ms cB hB
    have hsize : ∀ m ∈ ms, m.2.size < (ValueTree.Object ms).size := by
      intro m hm
      have := member_size ms m hm
      simp only [ValueTree.size]
      omega
    have e1 := (object_texts dB bodyA bodyB [] []).1
    have e2 := (object_texts dB bodyA bodyB [] []).2
    rw [List.append_nil] at e1 e2
    rw [indentText_compact, e1, e2]
    refine root_open operation 123 .Object .ObjectBegin (Or.inl ⟨rfl, rfl, rfl⟩) _ _ ?_
    intro m2 hd2
    rw [outcome_space operation m2 10 _ (by decide)]
    have hm := members_agree operation (ValueTree.Object ms).size hsub [] [] []
      (10 :: List.replicate (2 * dB) 32) (closing_space _) (dA + 1) (dB + 1)
      (fun _ _ _ _ => rfl) ms true bodyA bodyB hsize hbA hbB
    rw [if_pos rfl] at hm
    exact hm m2 hd2
  · obtain ⟨bodyA, hbA, rfl⟩ := renderTree_array false dA es cA hA
    obtain ⟨bodyB, hbB, rfl⟩ := renderTree_array true dB es cB hB
    have hsize : ∀ m ∈ es, m.size < (ValueTree.Array es).size := by
      intro m hm
      have := element_size es m hm
      simp only [ValueTree.size]
      omega
    have e1 := (array_texts dB bodyA bodyB [] []).1
    have e2 := (array_texts dB bodyA bodyB [] []).2
    rw [List.append_nil] at e1 e2
    rw [indentText_compact, e1, e2]
    refine root_open operation 91 .Array .ArrayBegin (Or.inr ⟨rfl, rfl, rfl⟩) _ _ ?_
    intro m2 hd2
    rw [outcome_space operation m2 10 _ (by decide)]
    have hm := elements_agree operation (ValueTree.Array es).size hsub [] [] []
      (10 :: List.replicate (2 * dB) 32) (closing_space _) (dA + 1) (dB + 1)
      (fun _ _ _ _ => rfl) es true bodyA bodyB hsize hbA hbB
    rw [if_pos rfl] at hm
    exact hm m2 hd2

/-- A call of `parse` on the two texts of a document shows the same. -/
theorem parse_agree (operation : Operation) (r0 : JsonSAXReader σ) (t : ValueTree)
    (dA dB : Nat) (cA cB : List Nat) (hA : renderTree false dA t = some cA)
    (hB : renderTree true dB t = some cB)
    (hroot : (∃ ms, t = .Object ms) ∨ (∃ es, t = .Array es)) :
    (JsonSAXReader.parse h r0 (ofString cB) operation).map shown
      = (JsonSAXReader.parse h r0 (ofString cA) operation).map shown :=
  (document_agree (h := h) operation t dA dB cA cB hA hB hroot (r0.start (ofString [])) rfl).symm

end




open JsonStringViewBufferReader JsonSAXWriter JsonWriter

/-- A container with a tree unfolds to an object or to an array. -/
theorem container_tree (h : Heap) (v : JsonValue) (k : Nat) (t : ValueTree)
    (htree : h.tree k v = some t) (hc : JsonWriter.isContainer h v = true) :
    (∃ ms, t = .Object ms) ∨ (∃ es, t = .Array es) := by
  rcases isContainer_cell h v hc with ⟨map, hv⟩ | ⟨array, hv⟩
  · obtain ⟨_, ms, _, heq, _⟩ := tree_object h k v t map htree hv
    exact Or.inl ⟨ms, heq⟩
  · obtain ⟨_, es, _, heq, _⟩ := tree_array h k v t array htree hv
    exact Or.inr ⟨es, heq⟩

/-- What the DOM builder hands back is decided by what the event parser shows. -/
theorem builder_agree {κ : Type} (callback : Callback κ) (sax : JsonSAXReader (JsonReader κ))
    (bA bB : JsonStringViewBufferReader) (operation : Operation)
    (hs : (JsonSAXReader.parse (JsonReader.hooks callback) sax bB operation).map shown
      = (JsonSAXReader.parse (JsonReader.hooks callback) sax bA operation).map shown) :
    (JsonReader.parse callback sax bB operation).map shown
      = (JsonReader.parse callback sax bA operation).map shown := by
  unfold JsonReader.parse
  cases hA : JsonSAXReader.parse (JsonReader.hooks callback) sax bA operation with
  | none =>
      cases hB : JsonSAXReader.parse (JsonReader.hooks callback) sax bB operation with
      | none => rfl
      | some rB => rw [hA, hB] at hs; exact Option.noConfusion hs
  | some rA =>
      cases hB : JsonSAXReader.parse (JsonReader.hooks callback) sax bB operation with
      | none => rw [hA, hB] at hs; exact Option.noConfusion hs
      | some rB =>
          rw [hA, hB] at hs
          simp only [Option.map_some', Option.some.injEq, shown, Prod.mk.injEq] at hs
          obtain ⟨h1, h2, h3, h4⟩ := hs
          obtain ⟨xA, mA⟩ := rA
          obtain ⟨xB, mB⟩ := rB
          simp only at h1 h2 h3 h4
          subst h1
          cases xB <;>
            simp only [Option.map_some', Option.some.injEq, shown, Prod.mk.injEq, Heap.newValue,
              h2, h3, h4, and_self]

/-- C26: a call `write(buffer, json, false)` that returns true on a value with
the tree `t` has appended the compact text of `t`; the call with
`beautiful = true` then returns true as well and appends the beautified text of
`t`.  A call of `parse` on the beautified text shows what the call on the
compact text shows, for every derived class, every state of the reader and both
operation modes: the same flag, the same hook calls in the same state of the
derived class, the same `stop` and the same kind of error; so the recorded
events are the same, and the DOM builder builds the same heap and root.  In the
beautified text every key and every array element stands behind two spaces for
each nesting level, and behind `,` and a newline before them when it is not the
first entry of its container. -/
theorem C26_beautified_refines (fuel : Nat) (h : Heap) (w : JsonWriter)
    (buffer b1 : JsonBufferWriter) (json : JsonValue) (k : Nat) (t : ValueTree)
    (htree : h.tree k json = some t)
    (hw : JsonWriter.written fuel h w buffer json false = some (.true, b1)) :
    ∃ compact pretty : List Nat,
      renderTree false 0 t = some compact ∧ renderTree true 0 t = some pretty
      ∧ b1.json = buffer.json ++ compact
      ∧ (∃ fuel0, ∀ fuel1, fuel0 ≤ fuel1 →
          JsonWriter.written fuel1 h w buffer json true
            = some (.true, { buffer with count := buffer.count + pretty.length,
                                         json := buffer.json ++ pretty }))
      ∧ (∀ (σ : Type) (hooks : Hooks σ) (r0 : JsonSAXReader σ) (operation : Operation),
          (JsonSAXReader.parse hooks r0 (ofString pretty) operation).map shown
            = (JsonSAXReader.parse hooks r0 (ofString compact) operation).map shown)
      ∧ (∀ operation : Operation,
          (parseEvents pretty operation).map (fun r => (r.1, r.2.self))
            = (parseEvents compact operation).map (fun r => (r.1, r.2.self)))
      ∧ (∀ (κ : Type) (callback : Callback κ) (sax : JsonSAXReader (JsonReader κ))
          (operation : Operation),
          (JsonReader.parse callback sax (ofString pretty) operation).map shown
            = (JsonReader.parse callback sax (ofString compact) operation).map shown)
      ∧ (∀ (d : Nat) (first : Bool),
          entryPrefix true d first
            = (if first then [] else [44, 10]) ++ List.replicate (2 * d) 32)
      ∧ (∀ (d : Nat) (first : Bool) (key : List Nat) (v : ValueTree)
          (ms : List (List Nat × ValueTree)) (body : List Nat),
          renderMembers true d first ((key, v) :: ms) = some body →
          ∃ text rest, renderTree true d v = some text
            ∧ renderMembers true d false ms = some rest
            ∧ body = entryPrefix true d first ++ (quoteText key ++ 58 :: (text ++ rest)))
      ∧ (∀ (d : Nat) (first : Bool) (v : ValueTree) (es : List ValueTree) (body : List Nat),
          renderElements true d first (v :: es) = some body →
          ∃ text rest, renderTree true d v = some text
            ∧ renderElements true d false es = some rest
            ∧ body = entryPrefix true d first ++ (text ++ rest)) := by
  obtain ⟨hc, ho, compact, hcompact, hb⟩ :=
    written_true fuel h w buffer b1 json false k t htree hw
  obtain ⟨pretty, hpretty⟩ := render_mode t.size t rfl false true 0 0 compact hcompact
  have hroot := container_tree h json k t htree hc
  have hparse : ∀ (σ : Type) (hooks : Hooks σ) (r0 : JsonSAXReader σ) (operation : Operation),
      (JsonSAXReader.parse hooks r0 (ofString pretty) operation).map shown
        = (JsonSAXReader.parse hooks r0 (ofString compact) operation).map shown :=
    fun σ hooks r0 operation =>
      parse_agree (h := hooks) operation r0 t 0 0 compact pretty hcompact hpretty hroot
  refine ⟨compact, pretty, hcompact, hpretty, by rw [hb],
    written_text h w buffer json true k t pretty htree hc ho hpretty, hparse, ?_, ?_,
    entryPrefix_beautiful, ?_, ?_⟩
  · intro operation
    have hp := hparse (List Event) recorder freshRecorder operation
    unfold parseEvents
    cases hA : JsonSAXReader.parse recorder freshRecorder (ofString compact) operation with
    | none =>
        cases hB : JsonSAXReader.parse recorder freshRecorder (ofString pretty) operation with
        | none => rfl
        | some rB => rw [hA, hB] at hp; exact Option.noConfusion hp
    | some rA =>
        cases hB : JsonSAXReader.parse recorder freshRecorder (ofString pretty) operation with
        | none => rw [hA, hB] at hp; exact Option.noConfusion hp
        | some rB =>
            rw [hA, hB] at hp
            simp only [Option.map_some', Option.some.injEq, shown, Prod.mk.injEq] at hp
            simp only [Option.map_some', hp.1, hp.2.1]
  · intro κ callback sax operation
    exact builder_agree callback sax _ _ operation
      (hparse (JsonReader κ) (JsonReader.hooks callback) sax operation)
  · intro d first key v ms body hbody
    exact (renderMembers_some true d first key v ms body hbody).2
  · intro d first v es body hbody
    exact renderElements_some true d first v es body hbody

/-- C26, witness: the object `{"a":[2],"b":1}` is written compact as that text
and beautified on six lines, and both texts parse to the same ten events. -/
theorem C26_beautified_refines_witness :
    heapC25.tree 8 { value := 0 }
        = some (.Object [([97], .Array [.LongLong 2]), ([98], .LongLong 1)])
    ∧ JsonWriter.written 10 heapC25 JsonWriter.new JsonStringBufferWriter { value := 0 } false
        = some (.true,
            { is_open := true, count := 15, json := [123, 34, 97, 34, 58, 91, 50, 93, 44, 34, 98, 34, 58, 49, 125] })
    ∧ (∃ compact pretty : List Nat,
        renderTree false 0 (.Object [([97], .Array [.LongLong 2]), ([98], .LongLong 1)])
          = some compact
        ∧ renderTree true 0 (.Object [([97], .Array [.LongLong 2]), ([98], .LongLong 1)])
          = some pretty
        ∧ (∀ operation : Operation,
            (parseEvents pretty operation).map (fun r => (r.1, r.2.self))
              = (parseEvents compact operation).map (fun r => (r.1, r.2.self))))
    ∧ renderTree true 0 (.Object [([97], .Array [.LongLong 2]), ([98], .LongLong 1)])
        = some [123, 10, 32, 32, 34, 97, 34, 58, 91, 10, 32, 32, 32, 32, 50, 10, 32, 32, 93,
            44, 10, 32, 32, 34, 98, 34, 58, 49, 10, 125]
    ∧ (parseEvents [123, 10, 32, 32, 34, 97, 34, 58, 91, 10, 32, 32, 32, 32, 50, 10, 32, 32, 93,
          44, 10, 32, 32, 34, 98, 34, 58, 49, 10, 125] .Single).map (fun r => (r.1, r.2.self))
        = some (.true, [.JsonBegin, .ObjectBegin, .ObjectKey [97], .ArrayBegin, .ValueLongLong 2,
            .ArrayEnd, .ObjectKey [98], .ValueLongLong 1, .ObjectEnd, .JsonEnd])
    ∧ (parseEvents [123, 34, 97, 34, 58, 91, 50, 93, 44, 34, 98, 34, 58, 49, 125]
          .Single).map (fun r => (r.1, r.2.self))
        = some (.true, [.JsonBegin, .ObjectBegin, .ObjectKey [97], .ArrayBegin, .ValueLongLong 2,
            .ArrayEnd, .ObjectKey [98], .ValueLongLong 1, .ObjectEnd, .JsonEnd]) :=
  have hheap : heapC25
      = { values := [.Object 0, .LongLong 1, .Array 0, .LongLong 2],
          maps := [[([97], { value := 2 }), ([98], { value := 1 })]],
          arrays := [[{ value := 3 }]] } := by decide!
  have htree : heapC25.tree 8 { value := 0 }
      = some (.Object [([97], .Array [.LongLong 2]), ([98], .LongLong 1)]) := by
    rw [hheap]; rfl
  have hw : JsonWriter.written 10 heapC25 JsonWriter.new JsonStringBufferWriter { value := 0 } false
      = some (.true,
          { is_open := true, count := 15, json := [123, 34, 97, 34, 58, 91, 50, 93, 44, 34, 98, 34, 58, 49, 125] }) := by
    rw [hheap]; decide!
  have hrun := C26_beautified_refines 10 heapC25 JsonWriter.new JsonStringBufferWriter
    { is_open := true, count := 15, json := [123, 34, 97, 34, 58, 91, 50, 93, 44, 34, 98, 34, 58, 49, 125] }
    { value := 0 } 8 (.Object [([97], .Array [.LongLong 2]), ([98], .LongLong 1)]) htree hw
  ⟨htree, hw,
    hrun.elim (fun compact hx => hx.elim (fun pretty hy =>
      ⟨compact, pretty, hy.1, hy.2.1, hy.2.2.2.2.2.1⟩)),
    by decide!, by decide!, by decide!⟩




open JsonStringViewBufferReader

/-! ## C35: an input of whitespace only -/

/-- On an input of whitespace only the loop of `JsonSAXReader::parse` skips
every byte and the code behind it finds `depth` empty: the call returns true,
and neither the state of the derived class nor the error text has changed. -/
theorem parse_blank {σ : Type} (h : Hooks σ) (r0 : JsonSAXReader σ) (operation : Operation)
    (ws : List Nat) (hws : ∀ c ∈ ws, isspace c = true) :
    JsonSAXReader.parse h r0 (ofString ws) operation
      = some (.true, { buffer := { pos := ws.length, cur := 0, ahead := [] }, depth := [], self := r0.self, stop := false, error := r0._error, errno := r0.errno }) := by
  obtain ⟨cur, hp⟩ := passes_whitespace h operation ws (r0.start (ofString ws)) [] hws
    (by simp [JsonSAXReader.start, ofString])
  unfold JsonSAXReader.parse
  rw [passes_parseFrom h operation ws.length _ _ hp, parseFrom_nil h operation _ rfl]
  simp only [JsonSAXReader.start, ofString, parseEnd, List.isEmpty_nil, Bool.not_true,
    Bool.false_eq_true, if_false]
  have e : (-1 : Int) + (ws.length : Int) + 1 = (ws.length : Int) := by omega
  rw [e]

/-- On an input of whitespace only `JsonReader::parse` with a callback returns
true and leaves the builder, and with it the state of the callback, as it was. -/
theorem reader_blank {κ : Type} (callback : Callback κ) (sax : JsonSAXReader (JsonReader κ))
    (operation : Operation) (ws : List Nat) (hws : ∀ c ∈ ws, isspace c = true) :
    JsonReader.parse callback sax (ofString ws) operation
      = some (.true, { buffer := { pos := ws.length, cur := 0, ahead := [] }, depth := [], self := sax.self, stop := false, error := sax._error, errno := sax.errno }) := by
  unfold JsonReader.parse
  rw [parse_blank (JsonReader.hooks callback) sax operation ws hws]

/-- On an input of whitespace only the overload `parse(json)` returns the value
`ret` it has created, which is of type Empty. -/
theorem parseValue_blank (errno : Bool) (ws : List Nat) (hws : ∀ c ∈ ws, isspace c = true) :
    JsonReader.parseValue errno ws
      = some (.true, { value := 1 }, { values := [.Empty, .Empty], maps := [], arrays := [] }) := by
  unfold JsonReader.parseValue
  simp only [JsonReader.new, Heap.newValue, List.length_singleton]
  rw [reader_blank JsonReader.keep _ .Single ws hws]
  rfl

/-- C35 (empty or whitespace-only input).  For an input `ws` that consists of
whitespace bytes only (none at all included): `JsonSAXReader::parse` returns
true in Single and in Multiple mode, with whatever hooks, and leaves the state
of the derived class and the error text as they were, the reader at the end of
the input; the recording reader has recorded no event.  `JsonReader::parse`
with a callback returns true and the builder, which holds the state of the
callback, is unchanged: the callback has not run.  The overload `parse(json)`
returns true inside and hands back its new value `ret`, of type Empty; the
value it hands back when the parse fails is of type Empty as well. -/
theorem C35_blank_input (ws : List Nat) (hws : ∀ c ∈ ws, isspace c = true) :
    (∀ (σ : Type) (h : Hooks σ) (r0 : JsonSAXReader σ) (operation : Operation),
        JsonSAXReader.parse h r0 (ofString ws) operation
          = some (.true, { buffer := { pos := ws.length, cur := 0, ahead := [] }, depth := [], self := r0.self, stop := false, error := r0._error, errno := r0.errno }))
      ∧ (∀ operation : Operation,
          (parseEvents ws operation).map (fun r => (r.1, r.2.self)) = some (.true, []))
      ∧ (∀ (κ : Type) (callback : Callback κ) (sax : JsonSAXReader (JsonReader κ))
          (operation : Operation),
          JsonReader.parse callback sax (ofString ws) operation
            = some (.true, { buffer := { pos := ws.length, cur := 0, ahead := [] }, depth := [], self := sax.self, stop := false, error := sax._error, errno := sax.errno }))
      ∧ (∀ errno, ∃ ret heap, JsonReader.parseValue errno ws = some (.true, ret, heap)
          ∧ heap.type ret = some .Empty)
      ∧ (∀ errno json ret heap, JsonReader.parseValue errno json = some (.false, ret, heap) →
          heap.type ret = some .Empty) := by
  refine ⟨fun σ h r0 operation => parse_blank h r0 operation ws hws, fun operation => ?_,
    fun κ callback sax operation => reader_blank callback sax operation ws hws,
    fun errno => ⟨_, _, parseValue_blank errno ws hws, rfl⟩,
    fun errno json ret heap hp => parseValue_false errno json .false ret heap hp rfl⟩
  unfold parseEvents
  rw [parse_blank recorder freshRecorder operation ws hws]
  rfl

/-- C35, witness: the input of a space, a newline and a tab. -/
theorem C35_blank_input_witness :
    (∀ c ∈ [32, 10, 9], isspace c = true)
      ∧ (∀ operation : Operation,
          (parseEvents [32, 10, 9] operation).map (fun r => (r.1, r.2.self)) = some (.true, []))
      ∧ (∃ ret heap, JsonReader.parseValue false [32, 10, 9] = some (.true, ret, heap)
          ∧ heap.type ret = some .Empty) :=
  ⟨by decide, (C35_blank_input [32, 10, 9] (by decide)).2.1,
    (C35_blank_input [32, 10, 9] (by decide)).2.2.2.1 false⟩




open JsonSAXWriter

/-! ## C33: the state stack of the serializer when nothing is open -/

/-- `checkCorrectValue` on an empty state stack: the guarded test for `Object`
and `ObjectNextPair` is passed over, and the next test reads `stack.top()`. -/
theorem checkCorrectValue_nothing_open (w : JsonSAXWriter) (hs : w.stack = []) :
    checkCorrectValue w = (.undefined, w) := by
  simp only [checkCorrectValue, advance, hs]

/-- `containerEnd`, which runs the same tests for `ObjectBegin` and `ArrayBegin`,
asks `!stack.empty()` first. -/
theorem containerEnd_nothing_open (w : JsonSAXWriter) (hs : w.stack = []) :
    containerEnd w = (.true, w) := by
  simp only [containerEnd, hs, List.isEmpty_nil, if_true]

/-- C33 (serializer stack safety), the code right behind `setBuffer` with a
sink, whatever the writer was before: the state stack is empty, and each of
`Value(string)`, `Value(double)`, `Value(long long)`, `Value(bool)`, `Null` and
`ArrayEnd` reads `stack.top()` of that empty stack, which is undefined
behaviour; nothing has been written and no error is set at that point.  The
same happens when the last open container has been closed again (`ArrayBegin`,
`ArrayEnd`, `Null` on a string sink).  `ObjectKey` and `ObjectEnd` test
`stack.empty()` first and return false with `InvalidOperation`. -/
theorem C33_top_of_empty_stack (w : JsonSAXWriter) (buffer : JsonBufferWriter)
    (beautiful : Bool) :
    (w.setBuffer (some buffer) beautiful).stack = []
      ∧ (∀ s, ValueString s (w.setBuffer (some buffer) beautiful)
          = (.undefined, w.setBuffer (some buffer) beautiful))
      ∧ (∀ d, ValueDouble d (w.setBuffer (some buffer) beautiful)
          = (.undefined, w.setBuffer (some buffer) beautiful))
      ∧ (∀ n, ValueLongLong n (w.setBuffer (some buffer) beautiful)
          = (.undefined, w.setBuffer (some buffer) beautiful))
      ∧ (∀ b, ValueBool b (w.setBuffer (some buffer) beautiful)
          = (.undefined, w.setBuffer (some buffer) beautiful))
      ∧ Null (w.setBuffer (some buffer) beautiful)
          = (.undefined, w.setBuffer (some buffer) beautiful)
      ∧ ArrayEnd (w.setBuffer (some buffer) beautiful)
          = (.undefined, w.setBuffer (some buffer) beautiful)
      ∧ ObjectEnd (JsonSAXWriter.new.setBuffer (some JsonStringBufferWriter) false)
          = (.false, { beautiful := false, _error := .InvalidOperation, buffer := some JsonStringBufferWriter, stack := [] })
      ∧ ObjectKey [97] (JsonSAXWriter.new.setBuffer (some JsonStringBufferWriter) false)
          = (.false, { beautiful := false, _error := .InvalidOperation, buffer := some JsonStringBufferWriter, stack := [] })
      ∧ seq ArrayBegin (seq ArrayEnd Null)
            (JsonSAXWriter.new.setBuffer (some JsonStringBufferWriter) false)
          = (.undefined, { beautiful := false, _error := .empty, buffer := some { is_open := true, count := 2, json := [91, 93] }, stack := [] }) := by
  have hv : ∀ act : Action, seq checkBuffer (seq checkCorrectValue act)
      (w.setBuffer (some buffer) beautiful) = (.undefined, w.setBuffer (some buffer) beautiful) := by
    intro act
    simp only [seq, checkBuffer, setBuffer, checkCorrectValue, advance]
  refine ⟨rfl, fun s => hv _, fun d => hv _, fun n => hv _, fun b => hv _, hv _, ?_,
    by decide, by decide, by decide⟩
  simp only [ArrayEnd, seq, checkBuffer, setBuffer, List.isEmpty_nil, if_true]




open JsonStringViewBufferReader

/-! ## A key that is already in the map -/

theorem set_same {α : Type} : ∀ (l : List α) (i : Nat) (x : α), l[i]? = some x → l.set i x = l
  | [], _, _, h => by simp at h
  | a :: l, 0, x, h => by
      simp only [List.getElem?_cons_zero, Option.some.injEq] at h
      rw [List.set_cons_zero, h]
  | a :: l, i + 1, x, h => by
      simp only [List.getElem?_cons_succ] at h
      rw [List.set_cons_succ, set_same l i x h]

theorem mapFind_mem (key : List Nat) (entries : List (List Nat × JsonValue)) (v : JsonValue)
    (hf : mapFind key entries = some v) : (key, v) ∈ entries := by
  unfold mapFind at hf
  cases hx : entries.find? (fun p => p.1 == key) with
  | none => rw [hx] at hf; simp at hf
  | some p =>
      rw [hx] at hf
      simp only [Option.map_some', Option.some.injEq] at hf
      have h1 := List.find?_some hx
      have h2 := List.mem_of_find?_eq_some hx
      simp only [beq_iff_eq] at h1
      obtain ⟨k, w⟩ := p
      simp only [] at h1 hf
      subst h1 hf
      exact h2

/-- `std::map::insert` with a key that is present changes nothing. -/
theorem mapInsert_present (key : List Nat) (x : JsonValue) :
    ∀ (entries : List (List Nat × JsonValue)) (v : JsonValue), KeysAscend entries →
      mapFind key entries = some v → mapInsert key x entries = entries
  | [], v, _, hf => by simp [mapFind] at hf
  | (k, w) :: rest, v, ha, hf => by
      unfold KeysAscend at ha
      rw [List.pairwise_cons] at ha
      rw [mapFind_cons] at hf
      unfold mapInsert
      by_cases hk : k = key
      · subst hk
        rw [if_neg (by rw [keyLess_irrefl]; exact Bool.false_ne_true),
          if_neg (by rw [keyLess_irrefl]; exact Bool.false_ne_true)]
      · rw [if_neg hk] at hf
        have hlt : keyLess k key = true := ha.1 (key, v) (mapFind_mem key rest v hf)
        rw [if_neg (by rw [keyLess_asymm k key hlt]; exact Bool.false_ne_true), if_pos hlt,
          mapInsert_present key x rest v ha.2 hf]

/-- An entry of a map in key order is still there, with its value, after any
`insert`. -/
theorem mapFind_kept (key other : List Nat) (x v : JsonValue)
    (entries : List (List Nat × JsonValue)) (ha : KeysAscend entries)
    (hf : mapFind key entries = some v) :
    mapFind key (mapInsert other x entries) = some v := by
  by_cases hk : key = other
  · subst hk
    rw [mapInsert_present key x entries v ha hf, hf]
  · rw [mapFind_insert_other other key x hk, hf]

section
variable {κ : Type}

/-- What `insertValue` does to a map of the heap: nothing, or one `insert`. -/
theorem insertValue_maps (value : JsonValue) (r r1 : JsonReader κ)
    (hi : JsonReader.insertValue value r = some r1) (a : Nat)
    (entries : List (List Nat × JsonValue)) (ha : r.heap.maps[a]? = some entries) :
    ∃ entries1, r1.heap.maps[a]? = some entries1
      ∧ (entries1 = entries ∨ ∃ k x, entries1 = mapInsert k x entries) := by
  unfold JsonReader.insertValue at hi
  cases hs : r.stack with
  | nil => rw [hs] at hi; simp at hi
  | cons cell below =>
      rw [hs] at hi
      simp only [] at hi
      by_cases hk : (!r.key.isEmpty) = true
      · rw [if_pos hk] at hi
        cases hc : r.heap.values[cell]? with
        | none => rw [hc] at hi; simp at hi
        | some x =>
            rw [hc] at hi
            cases x <;> simp only [reduceCtorEq] at hi
            rename_i map
            cases hm : r.heap.maps[map]? with
            | none => rw [hm] at hi; simp at hi
            | some es =>
                rw [hm] at hi
                simp only [Option.some.injEq] at hi
                rw [← hi]
                by_cases hmap : map = a
                · subst hmap
                  rw [hm] at ha
                  have he : es = entries := Option.some.inj ha
                  subst he
                  refine ⟨mapInsert r.key value es, ?_, Or.inr ⟨_, _, rfl⟩⟩
                  exact List.getElem?_set_self (lt_of_getElem? hm)
                · refine ⟨entries, ?_, Or.inl rfl⟩
                  show (r.heap.maps.set map _)[a]? = some entries
                  rw [List.getElem?_set_ne hmap]
                  exact ha
      · rw [if_neg hk] at hi
        cases hc : r.heap.values[cell]? with
        | none => rw [hc] at hi; simp at hi
        | some x =>
            rw [hc] at hi
            cases x <;> simp only [reduceCtorEq] at hi
            rename_i array
            cases hm : r.heap.arrays[array]? with
            | none => rw [hm] at hi; simp at hi
            | some elements =>
                rw [hm] at hi
                simp only [Option.some.injEq] at hi
                rw [← hi]
                exact ⟨entries, ha, Or.inl rfl⟩

theorem begin_maps (value : JsonValue) (r r1 : JsonReader κ)
    (hb : JsonReader.begin value r = some r1) (a : Nat)
    (entries : List (List Nat × JsonValue)) (ha : r.heap.maps[a]? = some entries) :
    ∃ entries1, r1.heap.maps[a]? = some entries1
      ∧ (entries1 = entries ∨ ∃ k x, entries1 = mapInsert k x entries) := by
  unfold JsonReader.begin at hb
  by_cases he : r.stack.isEmpty = true
  · rw [if_pos he] at hb
    rw [← Option.some.inj hb]
    exact ⟨entries, ha, Or.inl rfl⟩
  · rw [if_neg he] at hb
    cases hi : JsonReader.insertValue value r with
    | none => rw [hi] at hb; simp at hb
    | some r2 =>
        rw [hi] at hb
        rw [← Option.some.inj hb]
        exact insertValue_maps value r r2 hi a entries ha

/-- What a hook of the builder does to a map of the heap: nothing, or one
`insert`. -/
theorem hooks_maps (callback : Callback κ) (e : Event) (r r1 : JsonReader κ) (b : Bool)
    (hh : JsonReader.hooks callback e r = some (r1, b)) (a : Nat)
    (entries : List (List Nat × JsonValue)) (ha : r.heap.maps[a]? = some entries) :
    ∃ entries1, r1.heap.maps[a]? = some entries1
      ∧ (entries1 = entries ∨ ∃ k x, entries1 = mapInsert k x entries) := by
  have hscalar : ∀ v, (JsonReader.scalar v r).map (fun x => (x, false)) = some (r1, b) →
      ∃ entries1, r1.heap.maps[a]? = some entries1
        ∧ (entries1 = entries ∨ ∃ k x, entries1 = mapInsert k x entries) := by
    intro v hv
    cases hs : JsonReader.scalar v r with
    | none => rw [hs] at hv; simp at hv
    | some r2 =>
        rw [hs] at hv
        simp only [Option.map_some', Option.some.injEq, Prod.mk.injEq] at hv
        rw [← hv.1]
        unfold JsonReader.scalar at hs
        simp only [Heap.newValue] at hs
        exact insertValue_maps _ _ r2 hs a entries ha
  have hbegin : ∀ (value : JsonValue) (r0 : JsonReader κ),
      (JsonReader.begin value r0).map (fun x => (x, false)) = some (r1, b) →
      r0.heap.maps[a]? = some entries →
      ∃ entries1, r1.heap.maps[a]? = some entries1
        ∧ (entries1 = entries ∨ ∃ k x, entries1 = mapInsert k x entries) := by
    intro value r0 hm h0
    cases hs : JsonReader.begin value r0 with
    | none => rw [hs] at hm; simp at hm
    | some r2 =>
        rw [hs] at hm
        simp only [Option.map_some', Option.some.injEq, Prod.mk.injEq] at hm
        rw [← hm.1]
        exact begin_maps value r0 r2 hs a entries h0
  cases e with
  | JsonBegin =>
      simp only [JsonReader.hooks, Option.some.injEq, Prod.mk.injEq] at hh
      rw [← hh.1]; exact ⟨entries, ha, Or.inl rfl⟩
  | JsonEnd =>
      rw [hooks_JsonEnd] at hh
      simp only [Option.some.injEq, Prod.mk.injEq] at hh
      rw [← hh.1]; exact ⟨entries, ha, Or.inl rfl⟩
  | ObjectBegin =>
      simp only [JsonReader.hooks] at hh
      refine hbegin _ _ hh ?_
      simp only [Heap.newMap, Heap.newValue]
      rw [List.getElem?_append_left (lt_of_getElem? ha)]
      exact ha
  | ObjectKey key =>
      simp only [JsonReader.hooks, Option.some.injEq, Prod.mk.injEq] at hh
      rw [← hh.1]; exact ⟨entries, ha, Or.inl rfl⟩
  | ObjectEnd =>
      simp only [JsonReader.hooks] at hh
      by_cases hs : r.stack.isEmpty = true
      · rw [if_pos hs] at hh; simp at hh
      · rw [if_neg hs] at hh
        simp only [Option.some.injEq, Prod.mk.injEq] at hh
        rw [← hh.1]; exact ⟨entries, ha, Or.inl rfl⟩
  | ArrayBegin =>
      simp only [JsonReader.hooks] at hh
      refine hbegin _ _ hh ?_
      simp only [Heap.newArray, Heap.newValue]
      exact ha
  | ArrayEnd =>
      simp only [JsonReader.hooks] at hh
      by_cases hs : r.stack.isEmpty = true
      · rw [if_pos hs] at hh; simp at hh
      · rw [if_neg hs] at hh
        simp only [Option.some.injEq, Prod.mk.injEq] at hh
        rw [← hh.1]; exact ⟨entries, ha, Or.inl rfl⟩
  | ValueString value => exact hscalar _ hh
  | ValueDouble value => exact hscalar _ hh
  | ValueLongLong value => exact hscalar _ hh
  | ValueBool value => exact hscalar _ hh
  | Null => exact hscalar _ hh

/-- No hook of the builder changes a value cell that exists. -/
theorem hooks_cells (callback : Callback κ) (e : Event) (r r1 : JsonReader κ) (b : Bool)
    (hh : JsonReader.hooks callback e r = some (r1, b)) :
    ∃ vs, r1.heap.values = r.heap.values ++ vs := by
  by_cases he : e = .JsonEnd
  · subst he
    rw [hooks_JsonEnd] at hh
    simp only [Option.some.injEq, Prod.mk.injEq] at hh
    rw [← hh.1]
    exact ⟨[], by simp⟩
  · exact (hooks_frame callback e r r1 b he hh).2.2

/-- An entry of a map and the value cells that exist stay as they are through
every hook of the builder. -/
theorem hooks_hold (callback : Callback κ) (a : Nat) (key : List Nat) (v : JsonValue)
    (cells : List Value) (e : Event) (r r1 : JsonReader κ) (b : Bool)
    (hh : JsonReader.hooks callback e r = some (r1, b))
    (hj : r.heap.Ordered
      ∧ (∃ entries, r.heap.maps[a]? = some entries ∧ mapFind key entries = some v)
      ∧ ∃ vs, r.heap.values = cells ++ vs) :
    r1.heap.Ordered
      ∧ (∃ entries, r1.heap.maps[a]? = some entries ∧ mapFind key entries = some v)
      ∧ ∃ vs, r1.heap.values = cells ++ vs := by
  obtain ⟨ho, ⟨entries, ha, hf⟩, vs, hv⟩ := hj
  refine ⟨hooks_ordered callback e r r1 b hh ho, ?_, ?_⟩
  · obtain ⟨entries1, h1, h2⟩ := hooks_maps callback e r r1 b hh a entries ha
    refine ⟨entries1, h1, ?_⟩
    rcases h2 with rfl | ⟨k, x, rfl⟩
    · exact hf
    · exact mapFind_kept key k x v entries (ordered_get r.heap ho a entries ha) hf
  · obtain ⟨ws, hw⟩ := hooks_cells callback e r r1 b hh
    exact ⟨vs ++ ws, by rw [hw, hv]; simp⟩

end




open JsonStringViewBufferReader

section
variable {κ : Type}

/-! ## C34: duplicate keys -/

/-- What every hook keeps holds after any number of passes through the loop. -/
theorem passes_all {σ : Type} {h : Hooks σ} {J : σ → Prop}
    (hk : ∀ e s s1 b, h e s = some (s1, b) → J s → J s1) (operation : Operation) (k : Nat) :
    ∀ (m m1 : Machine σ), J m.self → passes h operation k m = some m1 → J m1.self := by
  induction k with
  | zero =>
      intro m m1 hi hp
      simp only [passes, Option.some.injEq] at hp
      rw [← hp]; exact hi
  | succ k ih =>
      intro m m1 hi hp
      rw [passes] at hp
      cases hn : m.buffer.next with
      | mk more buffer =>
          rw [hn] at hp
          cases more with
          | false => simp at hp
          | true =>
              simp only [] at hp
              have hb := parseBody_all hk operation { m with buffer := buffer } hi
              cases hq : parseBody h operation { m with buffer := buffer } with
              | «continue» m2 =>
                  rw [hq] at hp hb
                  exact ih m2 m1 hb hp
              | «break» m2 => rw [hq] at hp; simp at hp
              | «return» r m2 => rw [hq] at hp; simp at hp

/-- With an object on top of the builder's stack, a key pending and that key
present in the map of the object, `insertValue` stores nothing: it only clears
`key`. -/
theorem insertValue_present (value : JsonValue) (r : JsonReader κ) (cell : Nat)
    (below : List Nat) (map : Nat) (entries : List (List Nat × JsonValue)) (v : JsonValue)
    (ho : r.heap.Ordered) (hs : r.stack = cell :: below)
    (hc : r.heap.values[cell]? = some (.Object map)) (hm : r.heap.maps[map]? = some entries)
    (hk : r.key ≠ []) (hf : mapFind r.key entries = some v) :
    JsonReader.insertValue value r = some { r with key := [] } := by
  rw [insertValue_key value r cell below map entries hs hc hm hk,
    mapInsert_present r.key value entries v (ordered_get r.heap ho map entries hm) hf,
    set_same r.heap.maps map entries hm]

/-- A scalar behind a key that is present: the new value cell is made, and no
map changes. -/
theorem scalar_present (x : Value) (r : JsonReader κ) (cell : Nat)
    (below : List Nat) (map : Nat) (entries : List (List Nat × JsonValue)) (v : JsonValue)
    (ho : r.heap.Ordered) (hs : r.stack = cell :: below)
    (hc : r.heap.values[cell]? = some (.Object map)) (hm : r.heap.maps[map]? = some entries)
    (hk : r.key ≠ []) (hf : mapFind r.key entries = some v) :
    JsonReader.scalar x r
      = some { r with heap := { r.heap with values := r.heap.values ++ [x] }, key := [] } := by
  unfold JsonReader.scalar
  simp only [Heap.newValue]
  rw [insertValue_present _ { r with heap := { r.heap with values := r.heap.values ++ [x] } }
    cell below map entries v (ordered_maps r.heap _ ho rfl) hs
    (by
      show (r.heap.values ++ [x])[cell]? = some (.Object map)
      rw [List.getElem?_append_left (lt_of_getElem? hc)]; exact hc)
    hm hk hf]

/-- A scalar behind a key that is not in the map yet: the new value is stored
under the key. -/
theorem scalar_absent (x : Value) (r : JsonReader κ) (cell : Nat)
    (below : List Nat) (map : Nat) (entries : List (List Nat × JsonValue))
    (hs : r.stack = cell :: below)
    (hc : r.heap.values[cell]? = some (.Object map)) (hm : r.heap.maps[map]? = some entries)
    (hk : r.key ≠ []) :
    JsonReader.scalar x r
      = some { r with heap := { values := r.heap.values ++ [x], maps := r.heap.maps.set map (mapInsert r.key { value := r.heap.values.length } entries), arrays := r.heap.arrays }, key := [] } := by
  unfold JsonReader.scalar
  simp only [Heap.newValue]
  rw [insertValue_key _ { r with heap := { r.heap with values := r.heap.values ++ [x] } }
    cell below map entries hs
    (by
      show (r.heap.values ++ [x])[cell]? = some (.Object map)
      rw [List.getElem?_append_left (lt_of_getElem? hc)]; exact hc)
    hm hk]

/-- A container behind a key that is present (`ObjectBegin` or `ArrayBegin` once
the new value exists): the new cell goes on the stack, and no map changes. -/
theorem begin_present (value : JsonValue) (r : JsonReader κ) (cell : Nat)
    (below : List Nat) (map : Nat) (entries : List (List Nat × JsonValue)) (v : JsonValue)
    (ho : r.heap.Ordered) (hs : r.stack = cell :: below)
    (hc : r.heap.values[cell]? = some (.Object map)) (hm : r.heap.maps[map]? = some entries)
    (hk : r.key ≠ []) (hf : mapFind r.key entries = some v) :
    JsonReader.begin value r = some { r with stack := value.value :: r.stack, key := [] } := by
  unfold JsonReader.begin
  rw [if_neg (by rw [hs]; simp),
    insertValue_present value r cell below map entries v ho hs hc hm hk hf]

/-- The hook `ObjectBegin` behind a key that is present. -/
theorem objectBegin_present (callback : Callback κ) (r : JsonReader κ) (cell : Nat)
    (below : List Nat) (map : Nat) (entries : List (List Nat × JsonValue)) (v : JsonValue)
    (ho : r.heap.Ordered) (hs : r.stack = cell :: below)
    (hc : r.heap.values[cell]? = some (.Object map)) (hm : r.heap.maps[map]? = some entries)
    (hk : r.key ≠ []) (hf : mapFind r.key entries = some v) :
    JsonReader.hooks callback .ObjectBegin r
      = some ({ r with heap := { values := r.heap.values ++ [.Object r.heap.maps.length], maps := r.heap.maps ++ [[]], arrays := r.heap.arrays }, stack := r.heap.values.length :: r.stack, key := [] }, false) := by
  simp only [JsonReader.hooks, Heap.newMap, Heap.newValue]
  rw [begin_present _ { r with heap := { values := r.heap.values ++ [.Object r.heap.maps.length], maps := r.heap.maps ++ [[]], arrays := r.heap.arrays } }
    cell below map entries v
    (ordered_newValue _ _ (ordered_newMap _ ho)) hs
    (by
      show (r.heap.values ++ [Value.Object r.heap.maps.length])[cell]? = some (.Object map)
      rw [List.getElem?_append_left (lt_of_getElem? hc)]; exact hc)
    (by
      show (r.heap.maps ++ [[]])[map]? = some entries
      rw [List.getElem?_append_left (lt_of_getElem? hm)]; exact hm)
    hk hf]
  rfl

/-- The hook `ArrayBegin` behind a key that is present. -/
theorem arrayBegin_present (callback : Callback κ) (r : JsonReader κ) (cell : Nat)
    (below : List Nat) (map : Nat) (entries : List (List Nat × JsonValue)) (v : JsonValue)
    (ho : r.heap.Ordered) (hs : r.stack = cell :: below)
    (hc : r.heap.values[cell]? = some (.Object map)) (hm : r.heap.maps[map]? = some entries)
    (hk : r.key ≠ []) (hf : mapFind r.key entries = some v) :
    JsonReader.hooks callback .ArrayBegin r
      = some ({ r with heap := { values := r.heap.values ++ [.Array r.heap.arrays.length], maps := r.heap.maps, arrays := r.heap.arrays ++ [[]] }, stack := r.heap.values.length :: r.stack, key := [] }, false) := by
  simp only [JsonReader.hooks, Heap.newArray, Heap.newValue]
  rw [begin_present _ { r with heap := { values := r.heap.values ++ [.Array r.heap.arrays.length], maps := r.heap.maps, arrays := r.heap.arrays ++ [[]] } }
    cell below map entries v
    (ordered_maps r.heap _ ho rfl) hs
    (by
      show (r.heap.values ++ [Value.Array r.heap.arrays.length])[cell]? = some (.Object map)
      rw [List.getElem?_append_left (lt_of_getElem? hc)]; exact hc)
    hm hk hf]
  rfl

/-- What the builder holds under a key once, it holds to the end of the parse:
the entry of the map and the value cells that exist are the same in the state
`JsonReader::parse` returns in, however the call ends. -/
theorem parse_holds (callback : Callback κ) (sax : JsonSAXReader (JsonReader κ))
    (json : List Nat) (operation : Operation) (k : Nat) (m : Machine (JsonReader κ))
    (a : Nat) (key : List Nat) (v : JsonValue) (entries : List (List Nat × JsonValue))
    (ho : sax.self.heap.Ordered)
    (hp : passes (JsonReader.hooks callback) operation k (sax.start (ofString json)) = some m)
    (ha : m.self.heap.maps[a]? = some entries) (hf : mapFind key entries = some v) :
    ∃ res entries1, JsonReader.parse callback sax (ofString json) operation = some res
      ∧ res.2.self.heap.maps[a]? = some entries1 ∧ mapFind key entries1 = some v
      ∧ ∃ vs, res.2.self.heap.values = m.self.heap.values ++ vs := by
  have hom : m.self.heap.Ordered :=
    passes_all (J := fun s => s.heap.Ordered)
      (fun e s s1 b he hj => hooks_ordered callback e s s1 b he hj) operation k _ m ho hp
  obtain ⟨r0, hr0⟩ := parseFrom_isSome (JsonReader.hooks callback) operation m
  have hj := parseLoop_all
    (J := fun s => s.heap.Ordered
      ∧ (∃ entries, s.heap.maps[a]? = some entries ∧ mapFind key entries = some v)
      ∧ ∃ vs, s.heap.values = m.self.heap.values ++ vs)
    (fun e s s1 b he hj => hooks_hold callback a key v m.self.heap.values e s s1 b he hj)
    operation _ m r0 ⟨hom, ⟨entries, ha, hf⟩, [], by simp⟩ hr0
  obtain ⟨_, ⟨entries1, h1, h2⟩, vs, h3⟩ := hj
  have hs : JsonSAXReader.parse (JsonReader.hooks callback) sax (ofString json) operation
      = some r0 := by
    unfold JsonSAXReader.parse
    rw [passes_parseFrom _ operation k _ m hp]
    exact hr0
  obtain ⟨x, m0⟩ := r0
  unfold JsonReader.parse
  rw [hs]
  cases x with
  | «true» => exact ⟨_, entries1, rfl, h1, h2, vs, h3⟩
  | thrown => exact ⟨_, entries1, rfl, h1, h2, vs, h3⟩
  | «false» =>
      refine ⟨_, entries1, rfl, h1, h2, vs ++ [.Empty], ?_⟩
      show m0.self.heap.values ++ [Value.Empty] = m.self.heap.values ++ (vs ++ [Value.Empty])
      simp only [] at h3
      rw [h3, List.append_assoc]

/-- `Object::insert` with a key that is present leaves the heap as it is. -/
theorem insert_present (h : Heap) (o : Object) (key : List Nat) (value v : JsonValue)
    (entries : List (List Nat × JsonValue)) (ho : h.Ordered)
    (hm : h.maps[o.map]? = some entries) (hf : mapFind key entries = some v) :
    Object.insert h o key value = some h := by
  unfold Object.insert
  rw [hm]
  simp only []
  rw [mapInsert_present key value entries v (ordered_get h ho _ _ hm) hf,
    set_same h.maps o.map entries hm]

end




open JsonStringViewBufferReader

/-- Duplicate keys keep the first value, for a key that is not the empty
string.  In the builder, with an object on top of the stack, a key that is not
empty pending and the maps of the heap in key order:
when the key is not in the map of the object yet, a scalar hook stores the new
value under it; when the key is in the map, a scalar hook makes its value cell
and stores nothing, and `ObjectBegin` and `ArrayBegin` make the new container
and push it on the stack without storing it, so that what is parsed into it is
held by no map or vector that was there.  An entry that a map holds at some
point of a parse is in that map, with the same value cell and the same content
of every cell that existed, in the state `JsonReader::parse` returns in,
whatever the rest of the input is.  And `Object::insert` with a key that is
present leaves the heap as it is: `count()` and the value under the key are
what they were. -/
theorem first_key_kept {κ : Type} (callback : Callback κ) :
    (∀ (r : JsonReader κ) (cell : Nat) (below : List Nat) (map : Nat)
        (entries : List (List Nat × JsonValue)),
        r.stack = cell :: below → r.heap.values[cell]? = some (.Object map) →
        r.heap.maps[map]? = some entries → r.key ≠ [] → mapFind r.key entries = none →
        ∀ x : Value,
          JsonReader.scalar x r
              = some { r with heap := { values := r.heap.values ++ [x], maps := r.heap.maps.set map (mapInsert r.key { value := r.heap.values.length } entries), arrays := r.heap.arrays }, key := [] }
            ∧ mapFind r.key (mapInsert r.key { value := r.heap.values.length } entries)
              = some { value := r.heap.values.length })
    ∧ (∀ (r : JsonReader κ) (cell : Nat) (below : List Nat) (map : Nat)
        (entries : List (List Nat × JsonValue)) (v : JsonValue),
        r.heap.Ordered → r.stack = cell :: below → r.heap.values[cell]? = some (.Object map) →
        r.heap.maps[map]? = some entries → r.key ≠ [] → mapFind r.key entries = some v →
        (∀ x : Value, JsonReader.scalar x r
            = some { r with heap := { r.heap with values := r.heap.values ++ [x] }, key := [] })
          ∧ JsonReader.hooks callback .ObjectBegin r
            = some ({ r with heap := { values := r.heap.values ++ [.Object r.heap.maps.length], maps := r.heap.maps ++ [[]], arrays := r.heap.arrays }, stack := r.heap.values.length :: r.stack, key := [] }, false)
          ∧ JsonReader.hooks callback .ArrayBegin r
            = some ({ r with heap := { values := r.heap.values ++ [.Array r.heap.arrays.length], maps := r.heap.maps, arrays := r.heap.arrays ++ [[]] }, stack := r.heap.values.length :: r.stack, key := [] }, false))
    ∧ (∀ (sax : JsonSAXReader (JsonReader κ)) (json : List Nat) (operation : Operation) (k : Nat)
        (m : Machine (JsonReader κ)) (a : Nat) (key : List Nat) (v : JsonValue)
        (entries : List (List Nat × JsonValue)),
        sax.self.heap.Ordered →
        passes (JsonReader.hooks callback) operation k (sax.start (ofString json)) = some m →
        m.self.heap.maps[a]? = some entries → mapFind key entries = some v →
        ∃ res entries1, JsonReader.parse callback sax (ofString json) operation = some res
          ∧ res.2.self.heap.maps[a]? = some entries1 ∧ mapFind key entries1 = some v
          ∧ ∃ vs, res.2.self.heap.values = m.self.heap.values ++ vs)
    ∧ (∀ (h : Heap) (o : Object) (key : List Nat) (value v : JsonValue)
        (entries : List (List Nat × JsonValue)),
        h.Ordered → h.maps[o.map]? = some entries → mapFind key entries = some v →
        Object.insert h o key value = some h
          ∧ Object.count h o = some entries.length
          ∧ Object.value h o key = some (h, v.copyConstruct)) := by
  refine ⟨?_, ?_, ?_, ?_⟩
  · intro r cell below map entries hs hc hm hk hf x
    exact ⟨scalar_absent x r cell below map entries hs hc hm hk,
      mapFind_insert r.key _ entries hf⟩
  · intro r cell below map entries v ho hs hc hm hk hf
    exact ⟨fun x => scalar_present x r cell below map entries v ho hs hc hm hk hf,
      objectBegin_present callback r cell below map entries v ho hs hc hm hk hf,
      arrayBegin_present callback r cell below map entries v ho hs hc hm hk hf⟩
  · intro sax json operation k m a key v entries ho hp ha hf
    exact parse_holds callback sax json operation k m a key v entries ho hp ha hf
  · intro h o key value v entries ho hm hf
    refine ⟨insert_present h o key value v entries ho hm hf, ?_, ?_⟩
    · simp only [Object.count, hm, Option.map_some']
    · simp only [Object.value, hm, hf]

/-- The key `a` twice.  Behind `{"a":1,"a"` the builder has the object in cell 1, the
value 1 in cell 2 and the key `a` pending: the value hook for `2` makes cell 3
and leaves the map as it is, and `ObjectBegin` makes the object of cell 3 and
pushes it without storing it.  In the parse of `{"a":1,"a":{"b":2}}` the entry
that the map holds after four passes is the one it holds in the end.  The two
documents `{"a":1,"a":2}` and `{"a":1,"a":{"b":2}}` both parse to the tree of
`{"a":1}`.  And `insert("a", ...)` into the object that holds `a` changes
nothing. -/
theorem first_key_kept_twice :
    JsonReader.scalar (.LongLong 2)
        ({ heap := { values := [.Empty, .Object 0, .LongLong 1], maps := [[([97], { value := 2 })]], arrays := [] }, root := { value := 1 }, stack := [1], key := [97], user := { value := 0 } } : JsonReader JsonValue)
      = some { heap := { values := [.Empty, .Object 0, .LongLong 1, .LongLong 2], maps := [[([97], { value := 2 })]], arrays := [] }, root := { value := 1 }, stack := [1], key := [], user := { value := 0 } }
    ∧ JsonReader.hooks JsonReader.keep .ObjectBegin
        { heap := { values := [.Empty, .Object 0, .LongLong 1], maps := [[([97], { value := 2 })]], arrays := [] }, root := { value := 1 }, stack := [1], key := [97], user := { value := 0 } }
      = some ({ heap := { values := [.Empty, .Object 0, .LongLong 1, .Object 1], maps := [[([97], { value := 2 })], []], arrays := [] }, root := { value := 1 }, stack := [3, 1], key := [], user := { value := 0 } }, false)
    ∧ (∃ res entries1, JsonReader.parse JsonReader.keep { _error := .empty, stop := false, self := JsonReader.new ({ value := 0 } : JsonValue) }
          (ofString [123, 34, 97, 34, 58, 49, 44, 34, 97, 34, 58, 123, 34, 98, 34, 58, 50, 125, 125]) .Single = some res
        ∧ res.2.self.heap.maps[0]? = some entries1 ∧ mapFind [97] entries1 = some { value := 2 }
        ∧ ∃ vs, res.2.self.heap.values = [.Empty, .Object 0, .LongLong 1] ++ vs)
    ∧ documentTree [123, 34, 97, 34, 58, 49, 44, 34, 97, 34, 58, 50, 125]
      = some (.Object [([97], .LongLong 1)])
    ∧ documentTree [123, 34, 97, 34, 58, 49, 44, 34, 97, 34, 58, 123, 34, 98, 34, 58, 50, 125, 125]
      = some (.Object [([97], .LongLong 1)])
    ∧ Object.insert { values := [.Object 0, .LongLong 1, .LongLong 2], maps := [[([97], { value := 1 })]], arrays := [] } { map := 0 } [97] { value := 2 }
      = some { values := [.Object 0, .LongLong 1, .LongLong 2], maps := [[([97], { value := 1 })]], arrays := [] } :=
  ⟨((first_key_kept JsonReader.keep).2.1
        { heap := { values := [.Empty, .Object 0, .LongLong 1], maps := [[([97], { value := 2 })]], arrays := [] }, root := { value := 1 }, stack := [1], key := [97], user := { value := 0 } }
        1 [] 0 [([97], { value := 2 })] { value := 2 }
        (by unfold Heap.Ordered KeysAscend; decide) rfl rfl rfl (by decide) (by decide)).1 (.LongLong 2),
   ((first_key_kept JsonReader.keep).2.1
        { heap := { values := [.Empty, .Object 0, .LongLong 1], maps := [[([97], { value := 2 })]], arrays := [] }, root := { value := 1 }, stack := [1], key := [97], user := { value := 0 } }
        1 [] 0 [([97], { value := 2 })] { value := 2 }
        (by unfold Heap.Ordered KeysAscend; decide) rfl rfl rfl (by decide) (by decide)).2.1,
   (first_key_kept JsonReader.keep).2.2.1
        { _error := .empty, stop := false, self := JsonReader.new ({ value := 0 } : JsonValue) }
        [123, 34, 97, 34, 58, 49, 44, 34, 97, 34, 58, 123, 34, 98, 34, 58, 50, 125, 125] .Single 4
        { buffer := { pos := 6, cur := 44, ahead := [34, 97, 34, 58, 123, 34, 98, 34, 58, 50, 125, 125] }, depth := [.ObjectNextKey], self := { heap := { values := [.Empty, .Object 0, .LongLong 1], maps := [[([97], { value := 2 })]], arrays := [] }, root := { value := 1 }, stack := [1], key := [], user := { value := 0 } }, stop := false, error := .empty }
        0 [97] { value := 2 } [([97], { value := 2 })]
        (by unfold Heap.Ordered KeysAscend; decide) (by decide!) rfl (by decide),
   documentTree_of_beq _ _ (by decide!),
   documentTree_of_beq _ _ (by decide!),
   ((first_key_kept JsonReader.keep).2.2.2
        { values := [.Object 0, .LongLong 1, .LongLong 2], maps := [[([97], { value := 1 })]], arrays := [] }
        { map := 0 } [97] { value := 2 } { value := 1 } [([97], { value := 1 })]
        (by unfold Heap.Ordered KeysAscend; decide) rfl (by decide)).1⟩

/-- C34 (duplicate keys keep the first value), evaluated where it fails.  In
the text `{"":1,"":2}` the key that occurs twice is the empty string.  The
event parser accepts the text and reports the empty key twice, each time
followed by its value.  In the builder the value hook behind the first key
finds `key` empty, treats the value as an array element and applies `std::get`
for an array to the cell of the object: `std::bad_variant_access` leaves
`JsonReader::parse`, with the callback and with the overload `parse(json)`, and
no Object is returned that could hold the first value; the callback has not
run.  The same happens when the empty key occurs twice behind another key, as
in `{"a":0,"":1,"":2}`.  With the key `a` in place of the empty key the text
parses to the tree of `{"a":1}`. -/
theorem C34_empty_key_twice :
    (parseEvents [123, 34, 34, 58, 49, 44, 34, 34, 58, 50, 125] .Single).map
        (fun p => (p.1, p.2.self))
      = some (.true, [.JsonBegin, .ObjectBegin, .ObjectKey [], .ValueLongLong 1, .ObjectKey [],
          .ValueLongLong 2, .ObjectEnd, .JsonEnd])
      ∧ (JsonReader.parse JsonReader.observe JsonReader.fresh
          (ofString [123, 34, 34, 58, 49, 44, 34, 34, 58, 50, 125]) .Single).map
            (fun p => (p.1, p.2.self.user.length))
        = some (.thrown, 0)
      ∧ (JsonReader.parseValue false [123, 34, 34, 58, 49, 44, 34, 34, 58, 50, 125]).map
          (fun p => p.1) = some .thrown
      ∧ (JsonReader.parseValue false
          [123, 34, 97, 34, 58, 48, 44, 34, 34, 58, 49, 44, 34, 34, 58, 50, 125]).map
          (fun p => p.1) = some .thrown
      ∧ (documentTree [123, 34, 34, 58, 49, 44, 34, 34, 58, 50, 125]).isNone = true
      ∧ (match documentTree [123, 34, 97, 34, 58, 49, 44, 34, 97, 34, 58, 50, 125] with
          | some t => beqTree t (.Object [([97], .LongLong 1)])
          | none => false) = true := by
  refine ⟨by decide!, by decide!, by decide!, by decide!, by decide!, by decide!⟩




open JsonStringViewBufferReader

/-! ## The number lexer over the bytes it takes -/

/-- Below the cap a byte that is no control byte, no whitespace, no terminator,
no point and no digit is rejected as an invalid number. -/
theorem numberStep_invalid (neg : Bool) (depth : List JsonReaderType) (i points c : Nat)
    (hcap : capped neg points i = false) (h1 : isControlCode c = false)
    (h2 : isspace c = false) (h3 : c ≠ 44) (h4 : c ≠ 125) (h5 : c ≠ 93) (h6 : c ≠ 46)
    (h7 : isdigit c = false) :
    numberStep neg depth i points c = .error .InvalidNumberMsg := by
  unfold numberStep
  rw [if_neg (by simp [h1]), if_neg (by simp [h2]), if_neg (by simpa using h3),
    if_neg (by simpa using h4), if_neg (by simpa using h5), if_neg (by simp [hcap]),
    if_neg (by simpa using h6), if_pos (by simp [h7])]

/-- Below the cap a point is taken when it is the first and does not stand
directly behind the sign, and is rejected otherwise. -/
theorem numberStep_dot (neg : Bool) (depth : List JsonReaderType) (i points : Nat)
    (hcap : capped neg points i = false) :
    numberStep neg depth i points 46
      = if points == 1 || (neg && i == 0) then .error .ALotPointMsg else .point := by
  unfold numberStep
  rw [if_neg (by decide), if_neg (by decide), if_neg (by decide), if_neg (by decide),
    if_neg (by decide), if_neg (by simp [hcap]), if_pos (by decide)]

/-- The loop of `readyNumber` takes digits and at most one point, which does not
stand directly behind the sign, as long as no cap is reached. -/
theorem readyNumberLoop_accepts (neg : Bool) (depth : List JsonReaderType) (lit : List Nat) :
    ∀ (pos : Int) (i points : Nat) (temp : List Nat) (ch0 : Nat),
      (∀ x ∈ lit, isdigit x = true ∨ x = 46) →
      points + lit.count 46 ≤ 1 →
      (neg = true → i = 0 → lit.head? ≠ some 46) →
      (∀ j, j < lit.length → capped neg (points + (lit.take j).count 46) (i + j) = false) →
      ∃ ch1, ∀ tail : List Nat,
        readyNumberLoop neg depth pos i points temp ch0 (lit ++ tail)
          = readyNumberLoop neg depth (pos + lit.length) (i + lit.length)
              (points + lit.count 46) (temp ++ lit) ch1 tail := by
  induction lit with
  | nil =>
      intro pos i points temp ch0 _ _ _ _
      exact ⟨ch0, fun tail => by simp⟩
  | cons x lit ih =>
      intro pos i points temp ch0 hlit hone hsign hcap
      have hcap0 : capped neg points i = false := by
        have := hcap 0 (by simp)
        simpa using this
      have hl : ∀ y ∈ lit, isdigit y = true ∨ y = 46 :=
        fun y hy => hlit y (List.mem_cons_of_mem _ hy)
      have hlen : pos + 1 + (lit.length : Int) = pos + ((x :: lit).length : Int) := by
        simp only [List.length_cons]; push_cast; ring
      have hi : i + 1 + lit.length = i + (x :: lit).length := by
        simp only [List.length_cons]; omega
      by_cases hx : x = 46
      · subst hx
        have hc1 : lit.count 46 + 1 = (46 :: lit).count 46 := by simp
        have hp0 : points = 0 := by
          rw [← hc1] at hone; omega
        have hsg : ¬ (neg = true ∧ i = 0) := fun hn => hsign hn.1 hn.2 rfl
        have hstep : numberStep neg depth i points 46 = .point := by
          rw [numberStep_dot neg depth i points hcap0, if_neg]
          simp only [hp0, Bool.or_eq_true, beq_iff_eq, Bool.and_eq_true, not_or]
          exact ⟨by decide, hsg⟩
        obtain ⟨ch1, hgo⟩ := ih (pos + 1) (i + 1) (points + 1) (temp ++ [46]) 46 hl
          (by rw [← hc1] at hone; omega) (fun _ h0 => by omega)
          (fun j hj => by
            have := hcap (j + 1) (by simp only [List.length_cons]; omega)
            simp only [List.take_succ_cons, List.count_cons_self] at this
            rw [show points + 1 + List.count 46 (List.take j lit)
              = points + (List.count 46 (List.take j lit) + 1) by omega,
              show i + 1 + j = i + (j + 1) by omega]
            exact this)
        refine ⟨ch1, fun tail => ?_⟩
        rw [List.cons_append, readyNumberLoop, hstep]
        simp only []
        rw [hgo tail, hlen, hi, ← hc1]
        simp only [List.append_assoc, List.singleton_append]
        rw [show points + 1 + List.count 46 lit = points + (List.count 46 lit + 1) by omega]
      · have hd : isdigit x = true := by
          rcases hlit x (List.mem_cons_self _ _) with h1 | h1
          · exact h1
          · exact absurd h1 hx
        have hc1 : (x :: lit).count 46 = lit.count 46 := by
          rw [List.count_cons_of_ne (Ne.symm hx)]
        have hstep := numberStep_digit neg depth i points x hd hcap0
        obtain ⟨ch1, hgo⟩ := ih (pos + 1) (i + 1) points (temp ++ [x]) x hl
          (by rw [hc1] at hone; exact hone) (fun _ h0 => by omega)
          (fun j hj => by
            have := hcap (j + 1) (by simp only [List.length_cons]; omega)
            simp only [List.take_succ_cons] at this
            rw [List.count_cons_of_ne (Ne.symm hx)] at this
            rw [show i + 1 + j = i + (j + 1) by omega]
            exact this)
        refine ⟨ch1, fun tail => ?_⟩
        rw [List.cons_append, readyNumberLoop, hstep]
        simp only []
        rw [hgo tail, hlen, hi, hc1]
        simp only [List.append_assoc, List.singleton_append]

section
variable {σ : Type}

/-- The run over an input in which a literal starts at a value position, behind
a prefix the loop has read in `k` passes: the number lexer is called on the
first byte of the literal, which stands at the offset `pre.length`. -/
theorem parse_number (h : Hooks σ) (operation : Operation) (r0 : JsonSAXReader σ)
    (pre : List Nat) (k : Nat) (m : Machine σ) (d : Nat) (tail : List Nat)
    (top : JsonReaderType) (below : List JsonReaderType)
    (hreach : passes h operation k (r0.start (ofString pre)) = some m)
    (hend : m.buffer.ahead = [])
    (hdepth : m.depth = top :: below)
    (hpos : top = .ObjectValue ∨ top = .Array ∨ top = .ArrayNextValue)
    (hd : d = 45 ∨ isdigit d = true) :
    JsonSAXReader.parse h r0 (ofString (pre ++ d :: tail)) operation
      = (andThen h operation (readyNumber h d
          { m with buffer := { pos := pre.length, cur := d, ahead := tail },
                   depth := (if top = .ObjectValue then .ObjectNextPair else .ArrayNext) :: below })).run
          h operation := by
  obtain ⟨hsz, -, -⟩ := passes_start h operation k r0 pre m hreach
  rw [hend] at hsz
  have hp : m.buffer.pos + 1 = (pre.length : Int) := by simpa using hsz
  rw [parse_behind h operation r0 pre k m hreach hend]
  obtain ⟨buffer, depth, self, stop, error, errno⟩ := m
  simp only at hdepth hp
  subst hdepth
  have hdr : d = 45 ∨ (48 ≤ d ∧ d ≤ 57) := by
    rcases hd with hd | hd
    · exact Or.inl hd
    · exact Or.inr ((isdigit_iff d).mp hd)
  have hsp : isspace d = false := by
    cases hs : isspace d with
    | false => rfl
    | true => rw [isspace_iff] at hs; omega
  have hctl : isControlCode d = false := by
    simp only [isControlCode, Bool.or_eq_false_iff, Bool.and_eq_false_imp, decide_eq_false_iff_not,
      decide_eq_true_eq, beq_eq_false_iff_ne]
    omega
  have hpos1 : top = .ObjectValue ∨ top = .ArrayNextValue
      ∨ (top = .Array ∧ ({ buffer := { pos := buffer.pos + 1, cur := d, ahead := tail }, depth := top :: below, self := self, stop := stop, error := error, errno := errno } : Machine σ).buffer.cur ≠ 93) := by
    rcases hpos with hp | hp | hp
    · exact Or.inl hp
    · exact Or.inr (Or.inr ⟨hp, by show d ≠ 93; omega⟩)
    · exact Or.inr (Or.inl hp)
  have hbody : parseBody h operation { buffer := { pos := buffer.pos + 1, cur := d, ahead := tail }, depth := top :: below, self := self, stop := stop, error := error, errno := errno }
      = andThen h operation (readyNumber h d { buffer := { pos := buffer.pos + 1, cur := d, ahead := tail }, depth := (if top = .ObjectValue then .ObjectNextPair else .ArrayNext) :: below, self := self, stop := stop, error := error, errno := errno }) := by
    rw [parseBody_value h operation _ top below hsp hctl rfl hpos1]
    exact congrArg _ (ready_number h d _ hd)
  rw [← hp, parseFrom_cons h operation _ d tail rfl]
  simp only []
  rw [hbody]
  exact run_def operation _

/-- The number lexer on a literal whose bytes it takes and which goes on with a
byte that is no digit, no point, no terminator and no control byte: it returns
false with the invalid-number error at that byte, and calls no hook. -/
theorem readyNumber_invalid (h : Hooks σ) (m : Machine σ) (d : Nat) (lit : List Nat) (c : Nat)
    (rest : List Nat)
    (hlit : ∀ x ∈ lit, isdigit x = true ∨ x = 46) (hone : lit.count 46 ≤ 1)
    (hsign : d = 45 → lit.head? ≠ some 46)
    (hcap : ∀ j, j ≤ lit.length → capped (d == 45) ((lit.take j).count 46) j = false)
    (h1 : isControlCode c = false) (h2 : isspace c = false) (h3 : c ≠ 44) (h4 : c ≠ 125)
    (h5 : c ≠ 93) (h6 : c ≠ 46) (h7 : isdigit c = false)
    (ha : m.buffer.ahead = lit ++ c :: rest) :
    readyNumber h d m
      = (.false, { m with buffer := { pos := m.buffer.pos + lit.length + 1, cur := c, ahead := rest }, error := makeError .InvalidNumberMsg { pos := m.buffer.pos + lit.length + 1, cur := c, ahead := rest } }) := by
  obtain ⟨ch1, hgo⟩ := readyNumberLoop_accepts (d == 45) m.depth lit m.buffer.pos 0 0 [d] 0 hlit
    (by omega) (fun hn _ => hsign (by simpa using hn))
    (fun j hj => by
      have := hcap j (by omega)
      simpa using this)
  have hc := hcap lit.length (le_refl _)
  rw [List.take_length] at hc
  unfold readyNumber
  rw [ha, hgo (c :: rest), readyNumberLoop,
    numberStep_invalid (d == 45) m.depth _ _ c (by simpa using hc) h1 h2 h3 h4 h5 h6 h7]

end




open JsonStringViewBufferReader

/-! ## Literals that reach a length cap -/

/-- The number lexer on a literal that reaches a cap: behind the first byte `d`
stand the digits and points `lit`, with at most one point, none directly behind
a sign and no cap reached on them, then a byte `x` at a capped index that is
neither a control byte nor a byte that ends a number.  The scan stops on `x`
without pushing it, and `readyNumber` returns false with "Invalid value" at
`x`, the state of the derived class as it was. -/
theorem readyNumber_capped {σ : Type} (h : Hooks σ) (m : Machine σ) (d : Nat) (lit : List Nat)
    (x : Nat) (rest : List Nat)
    (hlit : ∀ c ∈ lit, isdigit c = true ∨ c = 46) (hone : lit.count 46 ≤ 1)
    (hsign : d = 45 → lit.head? ≠ some 46)
    (hfree : ∀ j, j < lit.length → capped (d == 45) ((lit.take j).count 46) j = false)
    (hcap : capped (d == 45) (lit.count 46) lit.length = true)
    (hc : isControlCode x = false) (hs : isspace x = false)
    (h1 : x ≠ 44) (h2 : x ≠ 125) (h3 : x ≠ 93)
    (ha : m.buffer.ahead = lit ++ x :: rest) :
    readyNumber h d m
      = (.false, { m with buffer := { pos := m.buffer.pos + lit.length + 1, cur := x, ahead := rest }, error := makeError .InvalidValueMsg { pos := m.buffer.pos + lit.length + 1, cur := x, ahead := rest } }) := by
  obtain ⟨ch1, hgo⟩ := readyNumberLoop_accepts (d == 45) m.depth lit m.buffer.pos 0 0 [d] 0 hlit
    (by omega) (fun hn _ => hsign (by simpa using hn))
    (fun j hj => by
      have := hfree j hj
      simpa using this)
  unfold readyNumber
  rw [ha, hgo (x :: rest), readyNumberLoop]
  simp only [Nat.zero_add]
  rw [numberStep_capped (d == 45) m.depth lit.length (lit.count 46) x hcap hc hs h1 h2 h3]
  simp only []
  rw [readyNumberEnd_none h _ _ rfl rfl hs]

/-- A literal of digits only reaches the cap for integers at its 19th digit
behind the first byte when that is `-`, at its 18th when it is a digit; a
literal with one point among the digits reaches the cap for doubles at its 16th
or 15th byte. -/
theorem capped_literal (d : Nat) (lit : List Nat)
    (hlen : (lit.count 46 = 0 ∧ lit.length = (if d = 45 then 19 else 18))
      ∨ (lit.count 46 = 1 ∧ lit.length = (if d = 45 then 16 else 15))) :
    (∀ j, j < lit.length → capped (d == 45) ((lit.take j).count 46) j = false)
      ∧ capped (d == 45) (lit.count 46) lit.length = true := by
  have hle : ∀ j, (lit.take j).count 46 ≤ lit.count 46 := fun j =>
    (List.take_sublist j lit).count_le 46
  by_cases h45 : d = 45
  · have hb : (d == 45) = true := by simpa using h45
    simp only [if_pos h45] at hlen
    rcases hlen with ⟨hc, hl⟩ | ⟨hc, hl⟩
    · constructor
      · intro j hj
        have := hle j
        simp only [capped, hb, if_true, NEGATIVE_DOUBLE_MAX, DOUBLE_MAX, NEGATIVE_INTEGER_MAX,
          INTEGER_MAX, Bool.or_eq_false_iff, Bool.and_eq_false_imp, beq_eq_false_iff_ne,
          decide_eq_true_eq, beq_iff_eq]
        constructor <;> intro _ <;> omega
      · simp [capped, hb, hc, hl, NEGATIVE_INTEGER_MAX, INTEGER_MAX]
    · constructor
      · intro j hj
        simp only [capped, hb, if_true, NEGATIVE_DOUBLE_MAX, DOUBLE_MAX, NEGATIVE_INTEGER_MAX,
          INTEGER_MAX, Bool.or_eq_false_iff, Bool.and_eq_false_imp, beq_eq_false_iff_ne,
          decide_eq_true_eq, beq_iff_eq]
        constructor <;> intro _ <;> omega
      · simp [capped, hb, hc, hl, NEGATIVE_DOUBLE_MAX, DOUBLE_MAX]
  · have hb : (d == 45) = false := by simpa using h45
    simp only [if_neg h45] at hlen
    rcases hlen with ⟨hc, hl⟩ | ⟨hc, hl⟩
    · constructor
      · intro j hj
        have := hle j
        simp only [capped, hb, Bool.false_eq_true, if_false, DOUBLE_MAX, INTEGER_MAX,
          Bool.or_eq_false_iff, Bool.and_eq_false_imp, beq_eq_false_iff_ne,
          decide_eq_true_eq, beq_iff_eq]
        constructor <;> intro _ <;> omega
      · simp [capped, hb, hc, hl, INTEGER_MAX]
    · constructor
      · intro j hj
        simp only [capped, hb, Bool.false_eq_true, if_false, DOUBLE_MAX, INTEGER_MAX,
          Bool.or_eq_false_iff, Bool.and_eq_false_imp, beq_eq_false_iff_ne,
          decide_eq_true_eq, beq_iff_eq]
        constructor <;> intro _ <;> omega
      · simp [capped, hb, hc, hl, DOUBLE_MAX]

/-- C11, as the code has it (overlong numeric literals are rejected, not
truncated).  For an integer literal of 20 digits or more, with or without a
`-`, the scan takes 19 digits and stops on the 20th, which it does not push;
`readyNumber` then returns false with the error "Invalid value" at that digit
and calls no hook, so no value is emitted.  In general, for a literal that
starts with the byte `d` and goes on with the digits and points `lit`, no point
directly behind a `-`, and then with a byte `x` that is neither a control byte
nor a byte that ends a number: when `lit` is 18 digits (19 behind `-`), or 15
bytes (16 behind `-`) of which one is a point, the scan reaches a length cap on
`x`; it stops there without pushing `x`, nothing of what was scanned is
converted, no hook is called, and `readyNumber` returns false with the error
"Invalid value" at `x`. -/
theorem C11_overlong_rejected {σ : Type} (h : Hooks σ) (neg : Bool) :
    (∀ (m : Machine σ) (ds : List Nat) (digit : Nat) (tail rest : List Nat),
        literalText neg ds = digit :: tail → (∀ d ∈ ds, isdigit d = true) → 20 ≤ ds.length →
        m.buffer.ahead = tail ++ rest →
        ∃ x more, ds.drop 19 = x :: more ∧
          readyNumber h digit m
            = (.false, { m with buffer := { pos := m.buffer.pos + (if neg then 20 else 19), cur := x, ahead := more ++ rest }, error := makeError .InvalidValueMsg { pos := m.buffer.pos + (if neg then 20 else 19), cur := x, ahead := more ++ rest } }))
      ∧ (∀ (m : Machine σ) (d : Nat) (lit : List Nat) (x : Nat) (rest : List Nat),
          (∀ c ∈ lit, isdigit c = true ∨ c = 46) → (d = 45 → lit.head? ≠ some 46) →
          (lit.count 46 = 0 ∧ lit.length = (if d = 45 then 19 else 18))
            ∨ (lit.count 46 = 1 ∧ lit.length = (if d = 45 then 16 else 15)) →
          isControlCode x = false → isspace x = false → x ≠ 44 → x ≠ 125 → x ≠ 93 →
          m.buffer.ahead = lit ++ x :: rest →
          (∀ j, j < lit.length → capped (d == 45) ((lit.take j).count 46) j = false)
            ∧ capped (d == 45) (lit.count 46) lit.length = true
            ∧ readyNumber h d m
              = (.false, { m with buffer := { pos := m.buffer.pos + lit.length + 1, cur := x, ahead := rest }, error := makeError .InvalidValueMsg { pos := m.buffer.pos + lit.length + 1, cur := x, ahead := rest } })) := by
  constructor
  · intro m ds digit tail rest hlit hds hlen ha
    exact readyNumber_overlong h m neg ds digit tail rest hlit hds hlen ha
  · intro m d lit x rest hlit hsign hlen hc hs h1 h2 h3 ha
    obtain ⟨hfree, hcap⟩ := capped_literal d lit hlen
    refine ⟨hfree, hcap, ?_⟩
    exact readyNumber_capped h m d lit x rest hlit
      (by rcases hlen with hl | hl <;> omega) hsign hfree hcap hc hs h1 h2 h3 ha

/-- C11, witness: behind `[` the literal `12345678901234567890` is rejected on
its 20th digit, the byte at offset 20; the literal `0.123456789012345678` is
rejected on its 17th byte, at offset 17, and `-1.5000000000000000` on its
18th, at offset 18; the literal `1234567890123456789.5` is rejected on its
point, at offset 20.  In each case the hooks called are those of `[` only. -/
theorem C11_overlong_rejected_witness :
    (∃ x more, digitsLong.drop 19 = x :: more ∧
        readyNumber recorder 49 { buffer := { pos := 1, cur := 49, ahead := digitsLong.tail ++ [93] }, depth := [.ArrayNext], self := [.JsonBegin, .ArrayBegin], stop := false, error := .empty }
          = (.false, { buffer := { pos := 1 + 19, cur := x, ahead := more ++ [93] }, depth := [.ArrayNext], self := [.JsonBegin, .ArrayBegin], stop := false, error := makeError .InvalidValueMsg { pos := 1 + 19, cur := x, ahead := more ++ [93] } }))
      ∧ readyNumber recorder 48 { buffer := { pos := 1, cur := 48, ahead := [46, 49, 50, 51, 52, 53, 54, 55, 56, 57, 48, 49, 50, 51, 52, 53, 54, 55, 56, 93] }, depth := [.ArrayNext], self := [.JsonBegin, .ArrayBegin], stop := false, error := .empty }
          = (.false, { buffer := { pos := 17, cur := 53, ahead := [54, 55, 56, 93] }, depth := [.ArrayNext], self := [.JsonBegin, .ArrayBegin], stop := false, error := .withOffset .InvalidValueMsg 17 })
      ∧ readyNumber recorder 45 { buffer := { pos := 1, cur := 45, ahead := [49, 46, 53, 48, 48, 48, 48, 48, 48, 48, 48, 48, 48, 48, 48, 48, 48, 48, 48, 93] }, depth := [.ArrayNext], self := [.JsonBegin, .ArrayBegin], stop := false, error := .empty }
          = (.false, { buffer := { pos := 18, cur := 48, ahead := [48, 48, 93] }, depth := [.ArrayNext], self := [.JsonBegin, .ArrayBegin], stop := false, error := .withOffset .InvalidValueMsg 18 })
      ∧ readyNumber recorder 49 { buffer := { pos := 1, cur := 49, ahead := [50, 51, 52, 53, 54, 55, 56, 57, 48, 49, 50, 51, 52, 53, 54, 55, 56, 57, 46, 53, 93] }, depth := [.ArrayNext], self := [.JsonBegin, .ArrayBegin], stop := false, error := .empty }
          = (.false, { buffer := { pos := 20, cur := 46, ahead := [53, 93] }, depth := [.ArrayNext], self := [.JsonBegin, .ArrayBegin], stop := false, error := .withOffset .InvalidValueMsg 20 })
      ∧ (parseEvents [91, 48, 46, 49, 50, 51, 52, 53, 54, 55, 56, 57, 48, 49, 50, 51, 52, 53, 54, 55, 56, 93] .Single).map
          (fun r => (r.1, r.2.error.render, r.2.self))
        = some (.false, "Invalid value, offset: 17", [.JsonBegin, .ArrayBegin])
      ∧ (parseEvents [91, 45, 49, 46, 53, 48, 48, 48, 48, 48, 48, 48, 48, 48, 48, 48, 48, 48, 48, 48, 48, 93] .Single).map
          (fun r => (r.1, r.2.error.render, r.2.self))
        = some (.false, "Invalid value, offset: 18", [.JsonBegin, .ArrayBegin])
      ∧ (parseEvents [91, 49, 50, 51, 52, 53, 54, 55, 56, 57, 48, 49, 50, 51, 52, 53, 54, 55, 56, 57, 46, 53, 93] .Single).map
          (fun r => (r.1, r.2.error.render, r.2.self))
        = some (.false, "Invalid value, offset: 20", [.JsonBegin, .ArrayBegin]) :=
  ⟨(C11_overlong_rejected recorder false).1
      { buffer := { pos := 1, cur := 49, ahead := digitsLong.tail ++ [93] }, depth := [.ArrayNext], self := [.JsonBegin, .ArrayBegin], stop := false, error := .empty }
      digitsLong 49 digitsLong.tail [93] rfl (by decide) (by decide) rfl,
   ((C11_overlong_rejected recorder false).2
      { buffer := { pos := 1, cur := 48, ahead := [46, 49, 50, 51, 52, 53, 54, 55, 56, 57, 48, 49, 50, 51, 52, 53, 54, 55, 56, 93] }, depth := [.ArrayNext], self := [.JsonBegin, .ArrayBegin], stop := false, error := .empty }
      48 [46, 49, 50, 51, 52, 53, 54, 55, 56, 57, 48, 49, 50, 51, 52] 53 [54, 55, 56, 93]
      (by decide) (by decide) (Or.inr (by decide)) (by decide) (by decide) (by decide)
      (by decide) (by decide) rfl).2.2,
   ((C11_overlong_rejected recorder false).2
      { buffer := { pos := 1, cur := 45, ahead := [49, 46, 53, 48, 48, 48, 48, 48, 48, 48, 48, 48, 48, 48, 48, 48, 48, 48, 48, 93] }, depth := [.ArrayNext], self := [.JsonBegin, .ArrayBegin], stop := false, error := .empty }
      45 [49, 46, 53, 48, 48, 48, 48, 48, 48, 48, 48, 48, 48, 48, 48, 48] 48 [48, 48, 93]
      (by decide) (by decide) (Or.inr (by decide)) (by decide) (by decide) (by decide)
      (by decide) (by decide) rfl).2.2,
   ((C11_overlong_rejected recorder false).2
      { buffer := { pos := 1, cur := 49, ahead := [50, 51, 52, 53, 54, 55, 56, 57, 48, 49, 50, 51, 52, 53, 54, 55, 56, 57, 46, 53, 93] }, depth := [.ArrayNext], self := [.JsonBegin, .ArrayBegin], stop := false, error := .empty }
      49 [50, 51, 52, 53, 54, 55, 56, 57, 48, 49, 50, 51, 52, 53, 54, 55, 56, 57] 46 [53, 93]
      (by decide) (by decide) (Or.inl (by decide)) (by decide) (by decide) (by decide)
      (by decide) (by decide) rfl).2.2,
   by decide!, by decide!, by decide!⟩

/-- C11 as stated fails at `[12345678901234567890]`: the literal is longer than
the cap of 19 digits, the scan stops on its 20th digit, but nothing is converted
and no value is emitted: parse returns false with "Invalid value, offset: 20",
and the hooks called are those of `[` only. -/
theorem C11_counterexample :
    ∃ m1, parseEvents (91 :: digitsLong ++ [93]) .Single = some (.false, m1)
      ∧ m1.error = .withOffset .InvalidValueMsg 20
      ∧ m1.error.render = "Invalid value, offset: 20"
      ∧ m1.self = [.JsonBegin, .ArrayBegin] :=
  ⟨_, rfl, rfl, by decide, rfl⟩




open JsonStringViewBufferReader

/-- C31 (invalid number bytes, for a literal whose points are in order).  A
literal stands at a value position behind the prefix `pre`, which the loop has
read in `k` passes: it starts with the byte `d`, `-` or a digit, and goes on
with the bytes `lit`, digits and at most one point, which does not stand
directly behind a `-`; no cap of the scan is reached on these bytes or on the
next one.  When the next byte `c` is no digit, no point, no whitespace, none of
`,`, `}`, `]` and no control byte, parse returns false with the reader on `c`,
which is the byte at the offset `pre.length + 1 + lit.length` of the input, and
with the invalid-number error made for that position; no hook has been called
for the literal. -/
theorem C31_invalid_number {σ : Type} (h : Hooks σ) (operation : Operation)
    (r0 : JsonSAXReader σ) (pre : List Nat) (k : Nat) (m : Machine σ) (d : Nat) (lit : List Nat)
    (c : Nat) (rest : List Nat) (top : JsonReaderType) (below : List JsonReaderType)
    (hreach : passes h operation k (r0.start (ofString pre)) = some m)
    (hend : m.buffer.ahead = [])
    (hdepth : m.depth = top :: below)
    (hpos : top = .ObjectValue ∨ top = .Array ∨ top = .ArrayNextValue)
    (hd : d = 45 ∨ isdigit d = true)
    (hlit : ∀ x ∈ lit, isdigit x = true ∨ x = 46) (hone : lit.count 46 ≤ 1)
    (hsign : d = 45 → lit.head? ≠ some 46)
    (hcap : ∀ j, j ≤ lit.length → capped (d == 45) ((lit.take j).count 46) j = false)
    (h1 : isControlCode c = false) (h2 : isspace c = false) (h3 : c ≠ 44) (h4 : c ≠ 125)
    (h5 : c ≠ 93) (h6 : c ≠ 46) (h7 : isdigit c = false) :
    (pre ++ d :: (lit ++ c :: rest))[pre.length + 1 + lit.length]? = some c
      ∧ ∃ m1, JsonSAXReader.parse h r0 (ofString (pre ++ d :: (lit ++ c :: rest))) operation
            = some (.false, m1)
          ∧ m1.buffer = { pos := ((pre.length + 1 + lit.length : Nat) : Int), cur := c, ahead := rest }
          ∧ m1.error = makeError .InvalidNumberMsg m1.buffer
          ∧ (pre.length + 1 + lit.length < 2 ^ 64 →
              m1.error = .withOffset .InvalidNumberMsg (pre.length + 1 + lit.length)
                ∧ m1.error.render
                  = "Invalid number, offset: " ++ toString (pre.length + 1 + lit.length))
          ∧ m1.self = m.self ∧ m1.stop = m.stop := by
  constructor
  · rw [List.getElem?_append_right (by omega)]
    rw [show pre.length + 1 + lit.length - pre.length = lit.length + 1 by omega,
      List.getElem?_cons_succ, List.getElem?_append_right (le_refl _)]
    simp
  · rw [parse_number h operation r0 pre k m d (lit ++ c :: rest) top below hreach hend hdepth hpos
      hd,
      readyNumber_invalid h _ d lit c rest hlit hone hsign hcap h1 h2 h3 h4 h5 h6 h7 rfl]
    have hp : (pre.length : Int) + (lit.length : Int) + 1
        = ((pre.length + 1 + lit.length : Nat) : Int) := by push_cast; ring
    simp only [hp]
    refine ⟨_, rfl, rfl, rfl, fun hsize => ?_, rfl, rfl⟩
    have hoff : ({ pos := ((pre.length + 1 + lit.length : Nat) : Int), cur := c, ahead := rest } : JsonStringViewBufferReader).offset
        = pre.length + 1 + lit.length := offset_of_nonneg _ _ rfl hsize
    have he : makeError .InvalidNumberMsg ({ pos := ((pre.length + 1 + lit.length : Nat) : Int), cur := c, ahead := rest } : JsonStringViewBufferReader)
        = .withOffset .InvalidNumberMsg (pre.length + 1 + lit.length) := by
      unfold makeError; rw [hoff]
    exact ⟨he, congrArg ErrorText.render he⟩

/-- C31, witness: in `[1.5e-3]` the literal starts at offset 1 behind `[`, the
scan takes `.5` and fails on `e`, the byte at offset 4.  The documents `[1e5]`,
`[1E5]`, `[1+2]` and `[--1]` fail in the same way, on the byte at offset 2. -/
theorem C31_invalid_number_witness :
    (∃ m1, parseEvents [91, 49, 46, 53, 101, 45, 51, 93] .Single = some (.false, m1)
        ∧ m1.buffer = { pos := 4, cur := 101, ahead := [45, 51, 93] }
        ∧ m1.error = .withOffset .InvalidNumberMsg 4
        ∧ m1.error.render = "Invalid number, offset: 4"
        ∧ m1.self = [.JsonBegin, .ArrayBegin])
      ∧ (parseEvents [91, 49, 101, 53, 93] .Single).map (fun r => (r.1, r.2.error, r.2.self))
          = some (.false, .withOffset .InvalidNumberMsg 2, [.JsonBegin, .ArrayBegin])
      ∧ (parseEvents [91, 49, 69, 53, 93] .Single).map (fun r => (r.1, r.2.error, r.2.self))
          = some (.false, .withOffset .InvalidNumberMsg 2, [.JsonBegin, .ArrayBegin])
      ∧ (parseEvents [91, 49, 43, 50, 93] .Single).map (fun r => (r.1, r.2.error, r.2.self))
          = some (.false, .withOffset .InvalidNumberMsg 2, [.JsonBegin, .ArrayBegin])
      ∧ (parseEvents [91, 45, 45, 49, 93] .Single).map (fun r => (r.1, r.2.error, r.2.self))
          = some (.false, .withOffset .InvalidNumberMsg 2, [.JsonBegin, .ArrayBegin]) :=
  ⟨((C31_invalid_number recorder .Single freshRecorder [91] 1
        { buffer := { pos := 0, cur := 91, ahead := [] }, depth := [.Array], self := [.JsonBegin, .ArrayBegin], stop := false, error := .empty }
        49 [46, 53] 101 [45, 51, 93] .Array [] (by decide) rfl rfl (Or.inr (Or.inl rfl))
        (Or.inr (by decide)) (by decide) (by decide) (by decide) (by decide)
        (by decide) (by decide) (by decide) (by decide) (by decide) (by decide) (by decide)).2).elim
      (fun m1 hm => ⟨m1, hm.1, hm.2.1, (hm.2.2.2.1 (by decide)).1, (hm.2.2.2.1 (by decide)).2,
        hm.2.2.2.2.1⟩),
    by decide!, by decide!, by decide!, by decide!⟩

/-- C31 as stated fails at `[1.2.3e5]`: the bytes of the literal between its
first byte and `e`, the byte at offset 6, are digits and points, and `e` is the
first byte that is none of the bytes the claim lists; but parse returns false
with the error of the second point, "A lot or an incorrect numeric point,
offset: 4", and the scan never reads `e`. -/
theorem C31_counterexample :
    ([91, 49, 46, 50, 46, 51, 101, 53, 93] : List Nat)[6]? = some 101
      ∧ (∀ x ∈ ([46, 50, 46, 51] : List Nat), isdigit x = true ∨ x = 46)
      ∧ (∀ j, j ≤ 4 → capped false ((List.take j [46, 50, 46, 51]).count 46) j = false)
      ∧ ∃ m1, parseEvents [91, 49, 46, 50, 46, 51, 101, 53, 93] .Single = some (.false, m1)
          ∧ m1.buffer = { pos := 4, cur := 46, ahead := [51, 101, 53, 93] }
          ∧ m1.error = .withOffset .ALotPointMsg 4
          ∧ m1.error.render = "A lot or an incorrect numeric point, offset: 4"
          ∧ m1.self = [.JsonBegin, .ArrayBegin] :=
  ⟨rfl, by decide, by decide, _, rfl, rfl, rfl, by decide, rfl⟩




open JsonStringViewBufferReader

/-! ## The conversion of a short literal with a point -/

theorem bitLength_le : ∀ (fuel n k : Nat), n < 2 ^ k → bitLength fuel n ≤ k
  | 0, _, _, _ => by simp [bitLength]
  | fuel + 1, n, k, hn => by
      unfold bitLength
      by_cases h0 : n = 0
      · rw [if_pos h0]; omega
      · rw [if_neg h0]
        cases k with
        | zero => simp at hn; omega
        | succ k =>
            have h2 : n / 2 < 2 ^ k := by
              rw [pow_succ] at hn
              omega
            have := bitLength_le fuel (n / 2) k h2
            omega

theorem digitsValue_bound (ds : List Nat) (hds : ∀ x ∈ ds, isdigit x = true) :
    ∀ acc, digitsValue acc ds < (acc + 1) * 10 ^ ds.length := by
  induction ds with
  | nil => intro acc; simp [digitsValue_nil]
  | cons d ds ih =>
      intro acc
      have hd := (isdigit_iff d).mp (hds d (List.mem_cons_self _ _))
      have h1 := ih (fun x hx => hds x (List.mem_cons_of_mem _ hx)) (acc * 10 + (d - 48))
      rw [digitsValue_cons]
      have h3 : acc * 10 + (d - 48) + 1 ≤ (acc + 1) * 10 := by omega
      have h2 : (acc * 10 + (d - 48) + 1) * 10 ^ ds.length ≤ (acc + 1) * 10 ^ (d :: ds).length :=
        calc (acc * 10 + (d - 48) + 1) * 10 ^ ds.length
            ≤ ((acc + 1) * 10) * 10 ^ ds.length := Nat.mul_le_mul_right _ h3
          _ = (acc + 1) * 10 ^ (d :: ds).length := by rw [List.length_cons, pow_succ]; ring
      omega

/-- A number below `2^60` is converted: the result is far from the largest
finite value. -/
theorem roundToDouble_some (neg : Bool) (num den : Nat) (hn : num < 2 ^ 60) :
    ∃ v, roundToDouble neg num den = some v := by
  have hb : ((bitLength num num : Nat) : Int) ≤ 60 := by
    exact_mod_cast bitLength_le num num 60 hn
  have hd : (0 : Int) ≤ ((bitLength den den : Nat) : Int) := Int.natCast_nonneg _
  unfold roundToDouble
  by_cases h0 : num = 0
  · rw [if_pos h0]; exact ⟨_, rfl⟩
  · rw [if_neg h0]
    simp only []
    rw [if_neg]
    · exact ⟨_, rfl⟩
    · generalize ((bitLength num num : Nat) : Int) = bn at hb
      generalize ((bitLength den den : Nat) : Int) = bd at hd
      split_ifs <;> omega

/-- A quotient whose denominator is below `2^60` does not underflow: its
exponent is far above the smallest one. -/
theorem underflows_false (num den : Nat) (hd : den < 2 ^ 60) : underflows num den = false := by
  have hb : ((bitLength den den : Nat) : Int) ≤ 60 := by
    exact_mod_cast bitLength_le den den 60 hd
  have hn : (0 : Int) ≤ ((bitLength num num : Nat) : Int) := Int.natCast_nonneg _
  unfold underflows
  by_cases h0 : num = 0
  · rw [if_pos h0]
  · rw [if_neg h0]
    simp only []
    rw [if_pos]
    generalize ((bitLength num num : Nat) : Int) = bn at hn
    generalize ((bitLength den den : Nat) : Int) = bd at hb
    split_ifs <;> omega

/-- `std::stod` converts a text of at most 18 bytes that starts, behind an
optional `-`, with a digit. -/
theorem stod_some (temp : List Nat) (hlen : temp.length ≤ 18)
    (hhead : ∃ x tl, (if temp.head? == some 45 then temp.tail else temp) = x :: tl
      ∧ isdigit x = true) :
    ∃ v, stod temp = some v := by
  obtain ⟨x, tl, hbody, hx⟩ := hhead
  have hblen : (if temp.head? == some 45 then temp.tail else temp).length ≤ temp.length := by
    split
    · simp
    · exact le_refl _
  unfold stod
  simp only []
  generalize (if temp.head? == some 45 then temp.tail else temp) = body at hbody hblen
  subst hbody
  have hint : (List.takeWhile isdigit (x :: tl)).isEmpty = false := by
    rw [List.takeWhile_cons, if_pos hx]; rfl
  rw [if_neg (by rw [hint]; simp)]
  have hdig : ∀ y ∈ List.takeWhile isdigit (x :: tl)
      ++ (if (List.dropWhile isdigit (x :: tl)).head? == some 46
          then List.takeWhile isdigit (List.dropWhile isdigit (x :: tl)).tail else []),
      isdigit y = true := by
    intro y hy
    rw [List.mem_append] at hy
    rcases hy with hy | hy
    · exact List.mem_takeWhile_imp hy
    · split at hy
      · exact List.mem_takeWhile_imp hy
      · simp at hy
  have hlen2 : (List.takeWhile isdigit (x :: tl)
      ++ (if (List.dropWhile isdigit (x :: tl)).head? == some 46
          then List.takeWhile isdigit (List.dropWhile isdigit (x :: tl)).tail else [])).length
      ≤ 18 := by
    have h1 := congrArg List.length (List.takeWhile_append_dropWhile isdigit (x :: tl))
    rw [List.length_append] at h1
    rw [List.length_append]
    have h2 : (if (List.dropWhile isdigit (x :: tl)).head? == some 46
          then List.takeWhile isdigit (List.dropWhile isdigit (x :: tl)).tail else []).length
        ≤ (List.dropWhile isdigit (x :: tl)).length := by
      split
      · have h3 := (List.takeWhile_prefix isdigit
          (l := (List.dropWhile isdigit (x :: tl)).tail)).length_le
        have h4 := List.length_tail (List.dropWhile isdigit (x :: tl))
        omega
      · simp
    omega
  have hv := digitsValue_bound _ hdig 0
  have hp : 10 ^ (List.takeWhile isdigit (x :: tl)
      ++ (if (List.dropWhile isdigit (x :: tl)).head? == some 46
          then List.takeWhile isdigit (List.dropWhile isdigit (x :: tl)).tail else [])).length
      ≤ 10 ^ 18 := Nat.pow_le_pow_right (by decide) hlen2
  have h60 : (10 : Nat) ^ 18 < 2 ^ 60 := by decide
  have hfrac : (if (List.dropWhile isdigit (x :: tl)).head? == some 46
        then List.takeWhile isdigit (List.dropWhile isdigit (x :: tl)).tail else []).length
      ≤ 18 := by
    rw [List.length_append] at hlen2
    omega
  have hden : 10 ^ (if (List.dropWhile isdigit (x :: tl)).head? == some 46
        then List.takeWhile isdigit (List.dropWhile isdigit (x :: tl)).tail else []).length
      < 2 ^ 60 := lt_of_le_of_lt (Nat.pow_le_pow_right (by decide) hfrac) h60
  rw [underflows_false _ _ hden, if_neg (by simp)]
  apply roundToDouble_some
  omega




open JsonStringViewBufferReader

/-! ## Points in a literal -/

/-- The loop of the number lexer at a byte that ends a number in the enclosing
container: it is left, with the terminator recorded. -/
theorem numberStep_leaves (neg : Bool) (d : JsonReaderType) (below : List JsonReaderType)
    (i points t : Nat) (hd : d = .ObjectNextPair ∨ d = .ArrayNext)
    (ht : isspace t = true ∨ t = 44 ∨ (t = 125 ∧ d = .ObjectNextPair) ∨ (t = 93 ∧ d = .ArrayNext)) :
    ∃ e depth1, numberStep neg (d :: below) i points t = .leave e depth1
      ∧ (e = .None → isspace t = true) ∧ (e = .Object ↔ t = 125) ∧ (e = .Array ↔ t = 93)
      ∧ depth1 = (if t = 125 ∨ t = 93 then below
          else (if t = 44 then (if d = .ObjectNextPair then .ObjectNextKey else .ArrayNextValue)
            else d) :: below) := by
  rcases ht with hs | rfl | ⟨rfl, rfl⟩ | ⟨rfl, rfl⟩
  · have hc := isspace_not_control t hs
    refine ⟨.None, d :: below, (numberStep_terminator neg (d :: below) i points t hc).1 hs,
      fun _ => hs, ?_, ?_, ?_⟩
    · rw [isspace_iff] at hs
      constructor
      · intro hx; cases hx
      · intro hx; omega
    · rw [isspace_iff] at hs
      constructor
      · intro hx; cases hx
      · intro hx; omega
    · rw [isspace_iff] at hs
      rw [if_neg (by omega), if_neg (by omega)]
  · rw [(numberStep_terminator neg (d :: below) i points 44 (by decide)).2.1 rfl]
    rcases hd with rfl | rfl
    · refine ⟨.Separator, .ObjectNextKey :: below, ?_, ?_, ?_, ?_, ?_⟩
      · simp only [top, List.headD_cons, JsonReaderType.code, setTop, List.tail_cons]
        rw [if_pos (by decide)]
      · intro hx; cases hx
      · decide
      · decide
      · simp
    · refine ⟨.Separator, .ArrayNextValue :: below, ?_, ?_, ?_, ?_, ?_⟩
      · simp only [top, List.headD_cons, JsonReaderType.code, setTop, List.tail_cons]
        rw [if_neg (by decide)]
      · intro hx; cases hx
      · decide
      · decide
      · simp
  · rw [(numberStep_terminator neg (.ObjectNextPair :: below) i points 125 (by decide)).2.2.1 rfl]
    refine ⟨.Object, below, ?_, ?_, ?_, ?_, ?_⟩
    · simp only [top, List.headD_cons, JsonReaderType.code, List.tail_cons]
      rw [if_neg (by decide)]
    · intro hx; cases hx
    · decide
    · decide
    · simp
  · rw [(numberStep_terminator neg (.ArrayNext :: below) i points 93 (by decide)).2.2.2 rfl]
    refine ⟨.Array, below, ?_, ?_, ?_, ?_, ?_⟩
    · simp only [top, List.headD_cons, JsonReaderType.code, List.tail_cons]
      rw [if_neg (by decide)]
    · intro hx; cases hx
    · decide
    · decide
    · simp

theorem getLast?_behind {α : Type} (d : α) (lit : List α) (x : α)
    (h : lit.getLast? = some x) : (d :: lit).getLast? = some x := by
  cases lit with
  | nil => simp at h
  | cons y tl => rw [List.getLast?_cons_cons]; exact h

/-- The loop of the number lexer over digits and points among which a point is
out of order, a second point or a point directly behind the sign: it fails on
the first such point, whatever follows the bytes. -/
theorem readyNumberLoop_badpoint (neg : Bool) (depth : List JsonReaderType) (lit : List Nat) :
    ∀ (pos : Int) (i points : Nat) (temp : List Nat) (ch0 : Nat),
      (∀ x ∈ lit, isdigit x = true ∨ x = 46) → points ≤ 1 →
      (2 ≤ points + lit.count 46 ∨ (neg = true ∧ i = 0 ∧ lit.head? = some 46)) →
      (∀ j, j < lit.length → capped neg (points + (lit.take j).count 46) (i + j) = false) →
      ∃ n : Nat, lit[n]? = some 46 ∧ ∀ tail : List Nat,
        readyNumberLoop neg depth pos i points temp ch0 (lit ++ tail)
          = .fail (makeError .ALotPointMsg { pos := pos + (n : Int) + 1, cur := 46, ahead := lit.drop (n + 1) ++ tail })
              { pos := pos + (n : Int) + 1, cur := 46, ahead := lit.drop (n + 1) ++ tail } := by
  induction lit with
  | nil =>
      intro pos i points temp ch0 _ hp hbad _
      rcases hbad with hb | ⟨_, _, hb⟩
      · simp at hb; omega
      · simp at hb
  | cons x lit ih =>
      intro pos i points temp ch0 hlit hp hbad hcap
      have hcap0 : capped neg points i = false := by
        have := hcap 0 (by simp)
        simpa using this
      have hl : ∀ y ∈ lit, isdigit y = true ∨ y = 46 :=
        fun y hy => hlit y (List.mem_cons_of_mem _ hy)
      by_cases hx : x = 46
      · subst hx
        by_cases hq : (points == 1 || (neg && i == 0)) = true
        · refine ⟨0, by simp, fun tail => ?_⟩
          rw [List.cons_append, readyNumberLoop, numberStep_dot neg depth i points hcap0, if_pos hq]
          simp
        · have hstep : numberStep neg depth i points 46 = .point := by
            rw [numberStep_dot neg depth i points hcap0, if_neg hq]
          simp only [Bool.or_eq_true, beq_iff_eq, Bool.and_eq_true, not_or, not_and] at hq
          have hp0 : points = 0 := by omega
          have hbad1 : 2 ≤ points + 1 + lit.count 46 := by
            rcases hbad with hb | ⟨h1, h2, _⟩
            · simp only [List.count_cons_self] at hb; omega
            · exact absurd h2 (hq.2 h1)
          obtain ⟨n, hn, hgo⟩ := ih (pos + 1) (i + 1) (points + 1) (temp ++ [46]) 46 hl
            (by omega) (Or.inl hbad1)
            (fun j hj => by
              have := hcap (j + 1) (by simp only [List.length_cons]; omega)
              simp only [List.take_succ_cons, List.count_cons_self] at this
              rw [show points + 1 + List.count 46 (List.take j lit)
                = points + (List.count 46 (List.take j lit) + 1) by omega,
                show i + 1 + j = i + (j + 1) by omega]
              exact this)
          refine ⟨n + 1, by simpa using hn, fun tail => ?_⟩
          rw [List.cons_append, readyNumberLoop, hstep]
          simp only []
          rw [hgo tail]
          have e1 : pos + 1 + (n : Int) + 1 = pos + ((n + 1 : Nat) : Int) + 1 := by
            push_cast; ring
          rw [e1]
          simp
      · have hd : isdigit x = true := by
          rcases hlit x (List.mem_cons_self _ _) with h1 | h1
          · exact h1
          · exact absurd h1 hx
        have hstep := numberStep_digit neg depth i points x hd hcap0
        have hbad1 : 2 ≤ points + lit.count 46 := by
          rcases hbad with hb | ⟨_, _, h3⟩
          · rw [List.count_cons_of_ne (Ne.symm hx)] at hb; exact hb
          · simp only [List.head?_cons, Option.some.injEq] at h3
            exact absurd h3 hx
        obtain ⟨n, hn, hgo⟩ := ih (pos + 1) (i + 1) points (temp ++ [x]) x hl hp (Or.inl hbad1)
          (fun j hj => by
            have := hcap (j + 1) (by simp only [List.length_cons]; omega)
            simp only [List.take_succ_cons] at this
            rw [List.count_cons_of_ne (Ne.symm hx)] at this
            rw [show i + 1 + j = i + (j + 1) by omega]
            exact this)
        refine ⟨n + 1, by simpa using hn, fun tail => ?_⟩
        rw [List.cons_append, readyNumberLoop, hstep]
        simp only []
        rw [hgo tail]
        have e1 : pos + 1 + (n : Int) + 1 = pos + ((n + 1 : Nat) : Int) + 1 := by
          push_cast; ring
        rw [e1]
        simp

section
variable {σ : Type}

/-- The number lexer on a literal whose bytes it takes and which goes on with a
point that is the second of the literal, or the first byte behind the sign: it
returns false with the point error at that point, and calls no hook. -/
theorem readyNumber_badpoint (h : Hooks σ) (m : Machine σ) (d : Nat) (lit : List Nat)
    (rest : List Nat)
    (hlit : ∀ x ∈ lit, isdigit x = true ∨ x = 46) (hone : lit.count 46 ≤ 1)
    (hsign : d = 45 → lit.head? ≠ some 46)
    (hcap : ∀ j, j ≤ lit.length → capped (d == 45) ((lit.take j).count 46) j = false)
    (hbad : lit.count 46 = 1 ∨ (d = 45 ∧ lit = []))
    (ha : m.buffer.ahead = lit ++ 46 :: rest) :
    readyNumber h d m
      = (.false, { m with buffer := { pos := m.buffer.pos + lit.length + 1, cur := 46, ahead := rest }, error := makeError .ALotPointMsg { pos := m.buffer.pos + lit.length + 1, cur := 46, ahead := rest } }) := by
  obtain ⟨ch1, hgo⟩ := readyNumberLoop_accepts (d == 45) m.depth lit m.buffer.pos 0 0 [d] 0 hlit
    (by omega) (fun hn _ => hsign (by simpa using hn))
    (fun j hj => by
      have := hcap j (by omega)
      simpa using this)
  have hc := hcap lit.length (le_refl _)
  rw [List.take_length] at hc
  have hq : (0 + List.count 46 lit == 1 || (d == 45 && 0 + lit.length == 0)) = true := by
    rcases hbad with h1 | ⟨h1, h2⟩
    · simp [h1]
    · simp [h1, h2]
  unfold readyNumber
  rw [ha, hgo (46 :: rest), readyNumberLoop,
    numberStep_dot (d == 45) m.depth _ _ (by simpa using hc), if_pos hq]

/-- The loop of the number lexer over a literal whose bytes it takes, up to the
byte that ends the number. -/
theorem readyNumberLoop_ends (neg : Bool) (top : JsonReaderType) (below : List JsonReaderType)
    (pos : Int) (d : Nat) (lit : List Nat) (t : Nat) (rest : List Nat)
    (hlit : ∀ x ∈ lit, isdigit x = true ∨ x = 46) (hone : lit.count 46 ≤ 1)
    (hsign : neg = true → lit.head? ≠ some 46)
    (hcap : ∀ j, j < lit.length → capped neg ((lit.take j).count 46) j = false)
    (htop : top = .ObjectNextPair ∨ top = .ArrayNext)
    (ht : isspace t = true ∨ t = 44 ∨ (t = 125 ∧ top = .ObjectNextPair)
      ∨ (t = 93 ∧ top = .ArrayNext)) :
    ∃ e depth1, (e = .None → isspace t = true) ∧ (e = .Object ↔ t = 125) ∧ (e = .Array ↔ t = 93)
      ∧ depth1 = (if t = 125 ∨ t = 93 then below
          else (if t = 44 then (if top = .ObjectNextPair then .ObjectNextKey else .ArrayNextValue)
            else top) :: below)
      ∧ readyNumberLoop neg (top :: below) pos 0 0 [d] 0 (lit ++ t :: rest)
        = .ok { exit := true, «end» := e, points := lit.count 46, temp := d :: lit, ch := t, depth := depth1 }
            { pos := pos + lit.length + 1, cur := t, ahead := rest } := by
  obtain ⟨ch1, hgo⟩ := readyNumberLoop_accepts neg (top :: below) lit pos 0 0 [d] 0 hlit
    (by omega) (fun hn _ => hsign hn)
    (fun j hj => by
      have := hcap j hj
      simpa using this)
  obtain ⟨e, depth1, hstep, h1, h2, h3, h4⟩ :=
    numberStep_leaves neg top below (0 + lit.length) (0 + lit.count 46) t htop ht
  refine ⟨e, depth1, h1, h2, h3, h4, ?_⟩
  rw [hgo (t :: rest), readyNumberLoop, hstep]
  simp only [Nat.zero_add, List.singleton_append]

/-- The number lexer on a literal that ends in a point, before the byte that
ends the number: it returns false with the point error, the reader on that
byte, and calls no hook. -/
theorem readyNumber_trailing (h : Hooks σ) (m : Machine σ) (d : Nat) (lit : List Nat) (t : Nat)
    (rest : List Nat) (top : JsonReaderType) (below : List JsonReaderType)
    (hlit : ∀ x ∈ lit, isdigit x = true ∨ x = 46) (hone : lit.count 46 ≤ 1)
    (hsign : d = 45 → lit.head? ≠ some 46)
    (hcap : ∀ j, j < lit.length → capped (d == 45) ((lit.take j).count 46) j = false)
    (hlast : lit.getLast? = some 46)
    (hdepth : m.depth = top :: below) (htop : top = .ObjectNextPair ∨ top = .ArrayNext)
    (ht : isspace t = true ∨ t = 44 ∨ (t = 125 ∧ top = .ObjectNextPair)
      ∨ (t = 93 ∧ top = .ArrayNext))
    (ha : m.buffer.ahead = lit ++ t :: rest) :
    ∃ depth1, readyNumber h d m
      = (.false, { m with buffer := { pos := m.buffer.pos + lit.length + 1, cur := t, ahead := rest }, depth := depth1, error := makeError .ALotPointMsg { pos := m.buffer.pos + lit.length + 1, cur := t, ahead := rest } }) := by
  obtain ⟨e, depth1, h1, _, _, _, hloop⟩ := readyNumberLoop_ends (d == 45) top below m.buffer.pos d
    lit t rest hlit hone (fun hn => hsign (by simpa using hn)) hcap htop ht
  refine ⟨depth1, ?_⟩
  have hne : lit ≠ [] := by
    intro h0; rw [h0] at hlast; simp at hlast
  have hl : (d :: lit).getLast? = some 46 := getLast?_behind d lit 46 hlast
  have hx : ((e == End.None) && !isspace t) = false := by
    cases e <;> simp
    exact h1 rfl
  unfold readyNumber
  rw [hdepth, ha, hloop]
  simp only []
  unfold readyNumberEnd
  simp only [Bool.not_true, Bool.false_eq_true, if_false, hx, hl, beq_self_eq_true, if_true]

/-- The number lexer on a literal of at most 15 bytes behind its first (16
behind a sign) with one point that has a digit on both sides, before the byte
that ends the number: the text is converted by `std::stod`; when `errno` does
not hold `ERANGE` the hook for a double is called with the result, and when it
does the lexer returns false with the range error, the reader on that byte. -/
theorem readyNumber_double (h : Hooks σ) (m : Machine σ) (d : Nat) (lit : List Nat) (t : Nat)
    (rest : List Nat) (top : JsonReaderType) (below : List JsonReaderType)
    (hd : d = 45 ∨ isdigit d = true)
    (hlit : ∀ x ∈ lit, isdigit x = true ∨ x = 46) (hone : lit.count 46 = 1)
    (hsign : d = 45 → lit.head? ≠ some 46)
    (hlen : lit.length ≤ (if d = 45 then 16 else 15))
    (hlast : ∃ x, lit.getLast? = some x ∧ isdigit x = true)
    (hdepth : m.depth = top :: below) (htop : top = .ObjectNextPair ∨ top = .ArrayNext)
    (ht : isspace t = true ∨ t = 44 ∨ (t = 125 ∧ top = .ObjectNextPair)
      ∨ (t = 93 ∧ top = .ArrayNext))
    (ha : m.buffer.ahead = lit ++ t :: rest) :
    ∃ v e depth1, stod (d :: lit) = some v
      ∧ (e = .Object ↔ t = 125) ∧ (e = .Array ↔ t = 93)
      ∧ depth1 = (if t = 125 ∨ t = 93 then below
          else (if t = 44 then (if top = .ObjectNextPair then .ObjectNextKey else .ArrayNextValue)
            else top) :: below)
      ∧ (m.errno = false → readyNumber h d m
        = numberEnd h { exit := true, «end» := e, points := 1, temp := d :: lit, ch := t, depth := depth1 }
            (call h (.ValueDouble v)
              { m with buffer := { pos := m.buffer.pos + lit.length + 1, cur := t, ahead := rest }, depth := depth1 }))
      ∧ (m.errno = true → readyNumber h d m
        = (.false, { m with buffer := { pos := m.buffer.pos + lit.length + 1, cur := t, ahead := rest }, depth := depth1, error := makeError .NumberRangeMsg { pos := m.buffer.pos + lit.length + 1, cur := t, ahead := rest } })) := by
  have hcap : ∀ j, j < lit.length → capped (d == 45) ((lit.take j).count 46) j = false := by
    intro j hj
    by_cases h45 : d = 45
    · rw [if_pos h45] at hlen
      simp only [capped, h45, beq_self_eq_true, if_true, NEGATIVE_DOUBLE_MAX, DOUBLE_MAX,
        NEGATIVE_INTEGER_MAX, INTEGER_MAX, Bool.or_eq_false_iff, Bool.and_eq_false_imp,
        beq_eq_false_iff_ne]
      constructor <;> intro _ <;> omega
    · rw [if_neg h45] at hlen
      have h45b : (d == 45) = false := by simpa using h45
      simp only [capped, h45b, Bool.false_eq_true, if_false, DOUBLE_MAX, INTEGER_MAX,
        Bool.or_eq_false_iff, Bool.and_eq_false_imp, beq_eq_false_iff_ne]
      constructor <;> intro _ <;> omega
  obtain ⟨e, depth1, h1, h2, h3, h4, hloop⟩ := readyNumberLoop_ends (d == 45) top below
    m.buffer.pos d lit t rest hlit (by omega) (fun hn => hsign (by simpa using hn)) hcap htop ht
  have hne : lit ≠ [] := by
    intro h0; rw [h0] at hone; simp at hone
  obtain ⟨x, hx1, hx2⟩ := hlast
  have hl : ((d :: lit).getLast? == some 46) = false := by
    rw [getLast?_behind d lit x hx1]
    have := (isdigit_iff x).mp hx2
    simp; omega
  have hx : ((e == End.None) && !isspace t) = false := by
    cases e <;> simp
    exact h1 rfl
  have hst : ∃ v, stod (d :: lit) = some v := by
    apply stod_some
    · simp only [List.length_cons]
      split at hlen <;> omega
    · by_cases h45 : d = 45
      · cases hlt : lit with
        | nil => exact absurd hlt hne
        | cons y tl =>
            refine ⟨y, tl, by simp [h45], ?_⟩
            rcases hlit y (by rw [hlt]; exact List.mem_cons_self _ _) with hy | hy
            · exact hy
            · exact absurd (by rw [hlt, hy]; rfl) (hsign h45)
      · refine ⟨d, lit, by simp [h45], ?_⟩
        rcases hd with hd | hd
        · exact absurd hd h45
        · exact hd
  obtain ⟨v, hv⟩ := hst
  refine ⟨v, e, depth1, hv, h2, h3, h4, ?_, ?_⟩
  · intro he
    unfold readyNumber
    rw [hdepth, ha, hloop]
    simp only []
    unfold readyNumberEnd
    simp only [Bool.not_true, Bool.false_eq_true, if_false, hx, hl]
    unfold numberValue
    simp only [hone, beq_self_eq_true, if_true, hv]
    rw [if_neg (by rw [he]; simp)]
  · intro he
    unfold readyNumber
    rw [hdepth, ha, hloop]
    simp only []
    unfold readyNumberEnd
    simp only [Bool.not_true, Bool.false_eq_true, if_false, hx, hl]
    unfold numberValue
    simp only [hone, beq_self_eq_true, if_true, hv]
    rw [if_pos he]
    rfl

/-- The number lexer on a literal of digits and points, below the caps, that
holds a second point or a point directly behind the sign: it returns false with
the point error at the first such point, and calls no hook. -/
theorem readyNumber_points (h : Hooks σ) (m : Machine σ) (d : Nat) (lit : List Nat)
    (rest : List Nat)
    (hlit : ∀ x ∈ lit, isdigit x = true ∨ x = 46)
    (hcap : ∀ j, j < lit.length → capped (d == 45) ((lit.take j).count 46) j = false)
    (hbad : 2 ≤ lit.count 46 ∨ (d = 45 ∧ lit.head? = some 46))
    (ha : m.buffer.ahead = lit ++ rest) :
    ∃ n : Nat, lit[n]? = some 46
      ∧ readyNumber h d m
        = (.false, { m with buffer := { pos := m.buffer.pos + (n : Int) + 1, cur := 46, ahead := lit.drop (n + 1) ++ rest }, error := makeError .ALotPointMsg { pos := m.buffer.pos + (n : Int) + 1, cur := 46, ahead := lit.drop (n + 1) ++ rest } }) := by
  obtain ⟨n, hn, hgo⟩ := readyNumberLoop_badpoint (d == 45) m.depth lit m.buffer.pos 0 0 [d] 0 hlit
    (by omega)
    (by
      rcases hbad with hb | ⟨h1, h2⟩
      · exact Or.inl (by omega)
      · exact Or.inr ⟨by simp [h1], rfl, h2⟩)
    (fun j hj => by
      have := hcap j hj
      simpa using this)
  refine ⟨n, hn, ?_⟩
  unfold readyNumber
  rw [ha, hgo rest]

end




open JsonStringViewBufferReader

/-- C32 (malformed decimal point, with the bytes that end a number in the
enclosing container).  A literal stands at a value position behind the prefix
`pre`, which the loop has read in `k` passes: it starts with the byte `d`, `-`
or a digit, and goes on with the digits and points `lit`.
When `lit` holds two points or more, or `d` is `-` and `lit` starts with a
point, and no cap of the scan is reached on `lit`, parse returns false with the
point error, the reader on the first point that is out of order, whatever
follows the literal.
When `lit` holds one point, its last byte, which does not stand directly behind
a `-`, and `t` is whitespace, `,` or the bracket that closes the enclosing
container, the input in which `t` follows the literal makes parse return false
with the point error, the reader on `t`.  In both cases no hook is called for
the literal.
When `lit` holds one point, with a digit before it and a digit as the last
byte of `lit`, `lit` has at most 15 bytes (16 behind `-`) and `t` is as before,
`std::stod` converts the text of the literal to a value `v`; when `errno` does
not hold `ERANGE` at the literal, the pass calls the hook for a double with
`v`, followed by the end hook of the container when `t` is its closing bracket,
and when `errno` holds `ERANGE` there, left by an earlier call, parse returns
false with the range error, the reader on `t`, and calls no hook for the
literal. -/
theorem C32_decimal_point {σ : Type} (h : Hooks σ) (operation : Operation)
    (r0 : JsonSAXReader σ) (pre : List Nat) (k : Nat) (m : Machine σ) (d : Nat) (lit : List Nat)
    (rest : List Nat) (top : JsonReaderType) (below : List JsonReaderType)
    (hreach : passes h operation k (r0.start (ofString pre)) = some m)
    (hend : m.buffer.ahead = [])
    (hdepth : m.depth = top :: below)
    (hpos : top = .ObjectValue ∨ top = .Array ∨ top = .ArrayNextValue)
    (hd : d = 45 ∨ isdigit d = true)
    (hlit : ∀ x ∈ lit, isdigit x = true ∨ x = 46) :
    ((∀ j, j < lit.length → capped (d == 45) ((lit.take j).count 46) j = false) →
      2 ≤ lit.count 46 ∨ (d = 45 ∧ lit.head? = some 46) →
      ∃ (n : Nat) (m1 : Machine σ), lit[n]? = some 46
        ∧ JsonSAXReader.parse h r0 (ofString (pre ++ d :: (lit ++ rest))) operation
            = some (.false, m1)
        ∧ m1.buffer = { pos := ((pre.length + 1 + n : Nat) : Int), cur := 46, ahead := lit.drop (n + 1) ++ rest }
        ∧ m1.error = makeError .ALotPointMsg m1.buffer
        ∧ m1.self = m.self ∧ m1.stop = m.stop)
    ∧ (∀ t : Nat, lit.count 46 ≤ 1 → (d = 45 → lit.head? ≠ some 46) →
        (∀ j, j < lit.length → capped (d == 45) ((lit.take j).count 46) j = false) →
        lit.getLast? = some 46 →
        isspace t = true ∨ t = 44 ∨ (t = 125 ∧ top = .ObjectValue) ∨ (t = 93 ∧ top ≠ .ObjectValue) →
        ∃ m1, JsonSAXReader.parse h r0 (ofString (pre ++ d :: (lit ++ t :: rest))) operation
            = some (.false, m1)
          ∧ m1.buffer = { pos := ((pre.length + 1 + lit.length : Nat) : Int), cur := t, ahead := rest }
          ∧ m1.error = makeError .ALotPointMsg m1.buffer
          ∧ m1.self = m.self ∧ m1.stop = m.stop)
    ∧ (∀ t : Nat, lit.count 46 = 1 → (d = 45 → lit.head? ≠ some 46) →
        lit.length ≤ (if d = 45 then 16 else 15) →
        (∃ x, lit.getLast? = some x ∧ isdigit x = true) →
        isspace t = true ∨ t = 44 ∨ (t = 125 ∧ top = .ObjectValue) ∨ (t = 93 ∧ top ≠ .ObjectValue) →
        m.errno = false →
        ∃ (v : Double) (e : End) (m1 : Machine σ), stod (d :: lit) = some v
          ∧ m1.self = m.self ∧ m1.stop = m.stop
          ∧ m1.buffer = { pos := ((pre.length + 1 + lit.length : Nat) : Int), cur := t, ahead := rest }
          ∧ (e = .Object ↔ t = 125) ∧ (e = .Array ↔ t = 93)
          ∧ JsonSAXReader.parse h r0 (ofString (pre ++ d :: (lit ++ t :: rest))) operation
            = (andThen h operation
                (numberEnd h { exit := true, «end» := e, points := 1, temp := d :: lit, ch := t, depth := m1.depth }
                  (call h (.ValueDouble v) m1))).run h operation)
    ∧ (∀ t : Nat, lit.count 46 = 1 → (d = 45 → lit.head? ≠ some 46) →
        lit.length ≤ (if d = 45 then 16 else 15) →
        (∃ x, lit.getLast? = some x ∧ isdigit x = true) →
        isspace t = true ∨ t = 44 ∨ (t = 125 ∧ top = .ObjectValue) ∨ (t = 93 ∧ top ≠ .ObjectValue) →
        m.errno = true →
        ∃ (v : Double) (m1 : Machine σ), stod (d :: lit) = some v
          ∧ JsonSAXReader.parse h r0 (ofString (pre ++ d :: (lit ++ t :: rest))) operation
            = some (.false, m1)
          ∧ m1.buffer = { pos := ((pre.length + 1 + lit.length : Nat) : Int), cur := t, ahead := rest }
          ∧ m1.error = makeError .NumberRangeMsg m1.buffer
          ∧ m1.self = m.self ∧ m1.stop = m.stop) := by
  have htop1 : (if top = .ObjectValue then JsonReaderType.ObjectNextPair else .ArrayNext)
        = .ObjectNextPair
      ∨ (if top = .ObjectValue then JsonReaderType.ObjectNextPair else .ArrayNext) = .ArrayNext := by
    by_cases hto : top = .ObjectValue
    · exact Or.inl (by rw [if_pos hto])
    · exact Or.inr (by rw [if_neg hto])
  have hterm : ∀ t : Nat,
      isspace t = true ∨ t = 44 ∨ (t = 125 ∧ top = .ObjectValue) ∨ (t = 93 ∧ top ≠ .ObjectValue) →
      isspace t = true ∨ t = 44
        ∨ (t = 125 ∧ (if top = .ObjectValue then JsonReaderType.ObjectNextPair else .ArrayNext)
            = .ObjectNextPair)
        ∨ (t = 93 ∧ (if top = .ObjectValue then JsonReaderType.ObjectNextPair else .ArrayNext)
            = .ArrayNext) := by
    intro t ht
    rcases ht with ht | ht | ⟨ht, hto⟩ | ⟨ht, hto⟩
    · exact Or.inl ht
    · exact Or.inr (Or.inl ht)
    · exact Or.inr (Or.inr (Or.inl ⟨ht, by rw [if_pos hto]⟩))
    · exact Or.inr (Or.inr (Or.inr ⟨ht, by rw [if_neg hto]⟩))
  refine ⟨?_, ?_, ?_, ?_⟩
  · intro hcap hbad
    obtain ⟨n, hn, hr⟩ := readyNumber_points h
      { m with buffer := { pos := pre.length, cur := d, ahead := lit ++ rest },
               depth := (if top = .ObjectValue then .ObjectNextPair else .ArrayNext) :: below }
      d lit rest hlit hcap hbad rfl
    rw [parse_number h operation r0 pre k m d (lit ++ rest) top below hreach hend hdepth hpos hd,
      hr]
    have hp : (pre.length : Int) + (n : Int) + 1 = ((pre.length + 1 + n : Nat) : Int) := by
      push_cast; ring
    simp only [hp]
    exact ⟨n, _, hn, rfl, rfl, rfl, rfl, rfl⟩
  · intro t hone hsign hcap hlast ht
    obtain ⟨depth1, hr⟩ := readyNumber_trailing h
      { m with buffer := { pos := pre.length, cur := d, ahead := lit ++ t :: rest },
               depth := (if top = .ObjectValue then .ObjectNextPair else .ArrayNext) :: below }
      d lit t rest _ below hlit hone hsign hcap hlast rfl htop1 (hterm t ht) rfl
    rw [parse_number h operation r0 pre k m d (lit ++ t :: rest) top below hreach hend hdepth hpos
      hd, hr]
    have hp : (pre.length : Int) + (lit.length : Int) + 1
        = ((pre.length + 1 + lit.length : Nat) : Int) := by push_cast; ring
    simp only [hp]
    exact ⟨_, rfl, rfl, rfl, rfl, rfl⟩
  · intro t hone hsign hlen hlast ht herrno
    obtain ⟨v, e, depth1, hv, h2, h3, _, hr, _⟩ := readyNumber_double h
      { m with buffer := { pos := pre.length, cur := d, ahead := lit ++ t :: rest },
               depth := (if top = .ObjectValue then .ObjectNextPair else .ArrayNext) :: below }
      d lit t rest _ below hd hlit hone hsign hlen hlast rfl htop1 (hterm t ht) rfl
    rw [parse_number h operation r0 pre k m d (lit ++ t :: rest) top below hreach hend hdepth hpos
      hd, hr herrno]
    have hp : (pre.length : Int) + (lit.length : Int) + 1
        = ((pre.length + 1 + lit.length : Nat) : Int) := by push_cast; ring
    simp only [hp]
    exact ⟨v, e, { m with buffer := { pos := ((pre.length + 1 + lit.length : Nat) : Int), cur := t, ahead := rest }, depth := depth1 },
      hv, rfl, rfl, rfl, h2, h3, rfl⟩
  · intro t hone hsign hlen hlast ht herrno
    obtain ⟨v, e, depth1, hv, _, _, _, _, hr⟩ := readyNumber_double h
      { m with buffer := { pos := pre.length, cur := d, ahead := lit ++ t :: rest },
               depth := (if top = .ObjectValue then .ObjectNextPair else .ArrayNext) :: below }
      d lit t rest _ below hd hlit hone hsign hlen hlast rfl htop1 (hterm t ht) rfl
    rw [parse_number h operation r0 pre k m d (lit ++ t :: rest) top below hreach hend hdepth hpos
      hd, hr herrno]
    have hp : (pre.length : Int) + (lit.length : Int) + 1
        = ((pre.length + 1 + lit.length : Nat) : Int) := by push_cast; ring
    simp only [hp]
    exact ⟨v, _, hv, rfl, rfl, rfl, rfl, rfl⟩

/-- C32, witness: behind `[`, the literals `1.2.3` and `-.5` are rejected on
their second and on their only point, `1.` is rejected on the `]` that follows
it, all three with "A lot or an incorrect numeric point"; `1.5` is converted
and, `errno` not holding `ERANGE`, reported as the double 1.5,
`6755399441055744 * 2^-52`; with `ERANGE` in `errno` when parse is entered the
same text is rejected with "Number out of range" on the `]`, no double
reported. -/
theorem C32_decimal_point_witness :
    (∃ (n : Nat) (m1 : Machine (List Event)), ([46, 50, 46, 51] : List Nat)[n]? = some 46
        ∧ parseEvents [91, 49, 46, 50, 46, 51, 93] .Single = some (.false, m1)
        ∧ m1.buffer = { pos := ((1 + 1 + n : Nat) : Int), cur := 46, ahead := List.drop (n + 1) [46, 50, 46, 51] ++ [93] }
        ∧ m1.error = makeError .ALotPointMsg m1.buffer
        ∧ m1.self = [.JsonBegin, .ArrayBegin] ∧ m1.stop = false)
      ∧ (∃ m1, parseEvents [91, 49, 46, 93] .Single = some (.false, m1)
          ∧ m1.buffer = { pos := 3, cur := 93, ahead := [] }
          ∧ m1.error = makeError .ALotPointMsg m1.buffer
          ∧ m1.self = [.JsonBegin, .ArrayBegin] ∧ m1.stop = false)
      ∧ (∃ (v : Double) (e : End) (m1 : Machine (List Event)), stod [49, 46, 53] = some v
          ∧ m1.self = [.JsonBegin, .ArrayBegin] ∧ m1.stop = false
          ∧ m1.buffer = { pos := 4, cur := 93, ahead := [] }
          ∧ (e = .Object ↔ 93 = 125) ∧ (e = .Array ↔ 93 = 93)
          ∧ parseEvents [91, 49, 46, 53, 93] .Single
            = (andThen recorder .Single
                (numberEnd recorder { exit := true, «end» := e, points := 1, temp := [49, 46, 53], ch := 93, depth := m1.depth }
                  (call recorder (.ValueDouble v) m1))).run recorder .Single)
      ∧ (∃ (v : Double) (m1 : Machine (List Event)), stod [49, 46, 53] = some v
          ∧ JsonSAXReader.parse recorder { freshRecorder with errno := true }
              (ofString [91, 49, 46, 53, 93]) .Single = some (.false, m1)
          ∧ m1.buffer = { pos := 4, cur := 93, ahead := [] }
          ∧ m1.error = makeError .NumberRangeMsg m1.buffer
          ∧ m1.self = [.JsonBegin, .ArrayBegin] ∧ m1.stop = false)
      ∧ (parseEvents [91, 49, 46, 50, 46, 51, 93] .Single).map (fun r => (r.1, r.2.error.render))
          = some (.false, "A lot or an incorrect numeric point, offset: 4")
      ∧ (parseEvents [91, 45, 46, 53, 93] .Single).map (fun r => (r.1, r.2.error.render))
          = some (.false, "A lot or an incorrect numeric point, offset: 2")
      ∧ (parseEvents [91, 49, 46, 93] .Single).map (fun r => (r.1, r.2.error.render))
          = some (.false, "A lot or an incorrect numeric point, offset: 3")
      ∧ (parseEvents [91, 49, 46, 53, 93] .Single).map (fun r => (r.1, r.2.self))
          = some (.true, [.JsonBegin, .ArrayBegin,
              .ValueDouble { neg := false, mant := 6755399441055744, exp := -52 }, .ArrayEnd,
              .JsonEnd])
      ∧ (JsonSAXReader.parse recorder { freshRecorder with errno := true }
            (ofString [91, 49, 46, 53, 93]) .Single).map (fun r => (r.1, r.2.error.render, r.2.self))
          = some (.false, "Number out of range, offset: 4", [.JsonBegin, .ArrayBegin]) :=
  ⟨(C32_decimal_point recorder .Single freshRecorder [91] 1
        { buffer := { pos := 0, cur := 91, ahead := [] }, depth := [.Array], self := [.JsonBegin, .ArrayBegin], stop := false, error := .empty }
        49 [46, 50, 46, 51] [93] .Array [] (by decide) rfl rfl (Or.inr (Or.inl rfl))
        (Or.inr (by decide)) (by decide)).1 (by decide) (Or.inl (by decide)),
   (C32_decimal_point recorder .Single freshRecorder [91] 1
        { buffer := { pos := 0, cur := 91, ahead := [] }, depth := [.Array], self := [.JsonBegin, .ArrayBegin], stop := false, error := .empty }
        49 [46] [] .Array [] (by decide) rfl rfl (Or.inr (Or.inl rfl))
        (Or.inr (by decide)) (by decide)).2.1 93 (by decide) (by decide) (by decide) rfl
        (Or.inr (Or.inr (Or.inr ⟨rfl, by decide⟩))),
   (C32_decimal_point recorder .Single freshRecorder [91] 1
        { buffer := { pos := 0, cur := 91, ahead := [] }, depth := [.Array], self := [.JsonBegin, .ArrayBegin], stop := false, error := .empty }
        49 [46, 53] [] .Array [] (by decide) rfl rfl (Or.inr (Or.inl rfl))
        (Or.inr (by decide)) (by decide)).2.2.1 93 (by decide) (by decide) (by decide)
        ⟨53, rfl, by decide⟩ (Or.inr (Or.inr (Or.inr ⟨rfl, by decide⟩))) rfl,
   (C32_decimal_point recorder .Single { freshRecorder with errno := true } [91] 1
        { buffer := { pos := 0, cur := 91, ahead := [] }, depth := [.Array], self := [.JsonBegin, .ArrayBegin], stop := false, error := .empty, errno := true }
        49 [46, 53] [] .Array [] (by decide) rfl rfl (Or.inr (Or.inl rfl))
        (Or.inr (by decide)) (by decide)).2.2.2 93 (by decide) (by decide) (by decide)
        ⟨53, rfl, by decide⟩ (Or.inr (Or.inr (Or.inr ⟨rfl, by decide⟩))) rfl,
   by decide!, by decide!, by decide!, by decide!, by decide!⟩

/-- C32 as stated fails at `[1.}` and `[1.5}`: the literal `1.` ends in a point
and `1.5` has one point with a digit on both sides, and both stand directly
before `}`, one of the bytes that end a number; but the enclosing container is
an array, and the number lexer rejects the `}` with "Invalid value separator or
end of array symbol" before it looks at the text it has scanned: the first
parse does not fail with the point error, and the second reports no double. -/
theorem C32_counterexample :
    (∃ m1, parseEvents [91, 49, 46, 125] .Single = some (.false, m1)
        ∧ m1.error = .withOffset .InvalidSeparatorArrayMsg 3
        ∧ m1.error.render = "Invalid value separator or end of array symbol, offset: 3"
        ∧ m1.self = [.JsonBegin, .ArrayBegin])
      ∧ (∃ m1, parseEvents [91, 49, 46, 53, 125] .Single = some (.false, m1)
          ∧ m1.error = .withOffset .InvalidSeparatorArrayMsg 4
          ∧ m1.error.render = "Invalid value separator or end of array symbol, offset: 4"
          ∧ m1.self = [.JsonBegin, .ArrayBegin]) :=
  ⟨⟨_, rfl, rfl, by decide, rfl⟩, ⟨_, rfl, rfl, by decide, rfl⟩⟩




open JsonSAXWriter

/-! ## Calls of the serializer that stay clear of undefined behaviour -/

theorem writes_failWith (e : WriteError) : Writes (failWith e) := by
  intro w hb
  exact ⟨by simp [failWith], hb, rfl⟩

theorem writes_skip : Writes skip := by
  intro w hb
  exact ⟨by simp [skip], hb, rfl⟩

theorem writes_seq (a b : Action) (ha : Writes a) (hb : Writes b) : Writes (seq a b) := by
  intro w hw
  obtain ⟨h1, h2, h3⟩ := ha w hw
  unfold seq
  cases hr : a w with
  | mk out w1 =>
      rw [hr] at h1 h2 h3
      cases out with
      | «true» =>
          obtain ⟨k1, k2, k3⟩ := hb w1 h2
          exact ⟨k1, k2, by rw [k3]; exact h3⟩
      | «false» => exact ⟨by simp, h2, h3⟩
      | undefined => exact absurd rfl h1

theorem writes_writeChar (ch : Nat) : Writes (writeChar ch) := by
  intro w hb
  unfold writeChar
  by_cases hc : isControlCode ch = true
  · rw [if_pos hc]; exact writes_failWith _ w hb
  · rw [if_neg hc]
    cases hbuf : w.buffer with
    | none => rw [hbuf] at hb; simp at hb
    | some b =>
        simp only []
        cases hw : b.write ch with
        | mk ok b1 =>
            cases ok with
            | «false» => exact ⟨by simp [failWith], rfl, rfl⟩
            | «true» => exact ⟨by simp, rfl, rfl⟩

theorem writes_writeSpace : ∀ n : Nat, Writes (writeSpace n)
  | 0 => writes_skip
  | n + 1 => writes_seq _ _ (writes_writeChar 32) (writes_writeSpace n)

theorem writes_writeChars : ∀ s : List Nat, Writes (writeChars s)
  | [] => writes_skip
  | ch :: s => writes_seq _ _ (writes_writeChar ch) (writes_writeChars s)

theorem writes_writeStringBody : ∀ s : List Nat, Writes (writeStringBody s)
  | [] => writes_skip
  | c :: s => writes_seq _ _ (writes_writeChars (escape c)) (writes_writeStringBody s)

theorem writes_writeString (s : List Nat) : Writes (writeString s) :=
  writes_seq _ _ (writes_writeChar 34)
    (writes_seq _ _ (writes_writeStringBody s) (writes_writeChar 34))

theorem writes_separator : Writes separator := by
  intro w hb
  unfold separator
  by_cases hbe : w.beautiful = true
  · rw [if_pos hbe]
    exact writes_seq _ _ (writes_writeChar 44)
      (writes_seq _ _ (writes_writeChar 10) (writes_writeSpace _)) w hb
  · rw [if_neg hbe]
    exact writes_seq _ _ (writes_writeChar 44) writes_skip w hb

theorem writes_newline : Writes newline := by
  intro w hb
  unfold newline
  by_cases hbe : w.beautiful = true
  · rw [if_pos hbe]; exact writes_writeChar 10 w hb
  · rw [if_neg hbe]; exact ⟨by simp, hb, rfl⟩

theorem writes_checkBuffer : Writes checkBuffer := by
  intro w hb
  unfold checkBuffer
  cases hbuf : w.buffer with
  | none => rw [hbuf] at hb; simp at hb
  | some b => exact ⟨by simp, by simp [hbuf], rfl⟩

theorem writes_checkIsNotObject : Writes checkIsNotObject := by
  intro w hb
  unfold checkIsNotObject
  cases hs : w.stack with
  | nil => refine ⟨?_, ?_, ?_⟩ <;> simp [hb, hs]
  | cons c st => cases c <;> (refine ⟨?_, ?_, ?_⟩ <;> simp [failWith, hb, hs])

theorem writes_checkIsObject (key «end» : Bool) : Writes (checkIsObject key «end») := by
  intro w hb
  have hindent : ∀ w0 : JsonSAXWriter, w0.buffer.isSome = true →
      ((if w0.beautiful then
          writeSpace (if «end» then 2 * w0.stack.length - 2 else 2 * w0.stack.length) w0
        else (Out.true, w0)).1 ≠ .undefined
        ∧ (if w0.beautiful then
            writeSpace (if «end» then 2 * w0.stack.length - 2 else 2 * w0.stack.length) w0
          else (Out.true, w0)).2.buffer.isSome = true
        ∧ (if w0.beautiful then
            writeSpace (if «end» then 2 * w0.stack.length - 2 else 2 * w0.stack.length) w0
          else (Out.true, w0)).2.stack = w0.stack) := by
    intro w0 h0
    by_cases hbe : w0.beautiful = true
    · rw [if_pos hbe]; exact writes_writeSpace _ w0 h0
    · rw [if_neg hbe]; exact ⟨by simp, h0, rfl⟩
  obtain ⟨beautiful, error, buffer, stack⟩ := w
  cases stack with
  | nil => refine ⟨?_, ?_, ?_⟩ <;> simp [checkIsObject, failWith, hb]
  | cons c st =>
      cases c with
      | Object => exact hindent ⟨beautiful, error, buffer, .Object :: st⟩ hb
      | ObjectNextPair =>
          by_cases hk : key = true
          · subst hk
            exact writes_separator ⟨beautiful, error, buffer, .ObjectNextPair :: st⟩ hb
          · have hk0 : key = false := by simpa using hk
            subst hk0
            exact hindent ⟨beautiful, error, buffer, .ObjectNextPair :: st⟩ hb
      | ObjectKey => refine ⟨?_, ?_, ?_⟩ <;> simp [checkIsObject, failWith, hb]
      | Array => refine ⟨?_, ?_, ?_⟩ <;> simp [checkIsObject, failWith, hb]
      | ArrayNextValue => refine ⟨?_, ?_, ?_⟩ <;> simp [checkIsObject, failWith, hb]

/-- `checkIsObject` returns true only with an object state on top of the
stack. -/
theorem checkIsObject_true (key «end» : Bool) (w w1 : JsonSAXWriter)
    (h : checkIsObject key «end» w = (.true, w1)) : w.stack ≠ [] := by
  intro hs
  unfold checkIsObject at h
  rw [hs] at h
  simp [failWith] at h

/-! ## Calls that change the state stack -/

theorem moves_of_writes (a : Action) (ha : Writes a) (w : JsonSAXWriter)
    (hb : w.buffer.isSome = true) : Moves a w w.stack.length := by
  obtain ⟨h1, h2, h3⟩ := ha w hb
  exact ⟨h1, h2, fun _ => by rw [h3]⟩

theorem moves_seq (a b : Action) (w : JsonSAXWriter) (n k : Nat) (ha : Moves a w n)
    (hb : ∀ w1, a w = (.true, w1) → Moves b w1 k) : Moves (seq a b) w k := by
  obtain ⟨h1, h2, _⟩ := ha
  unfold Moves seq
  cases hr : a w with
  | mk out w1 =>
      rw [hr] at h1 h2
      cases out with
      | «true» => exact hb w1 hr
      | «false» => exact ⟨by simp, h2, by simp⟩
      | undefined => exact absurd rfl h1

/-- Behind a call that only writes, the next call finds the state stack as it
was. -/
theorem moves_behind (a b : Action) (w : JsonSAXWriter) (k : Nat) (ha : Writes a)
    (hw : w.buffer.isSome = true)
    (hb : ∀ w1, w1.buffer.isSome = true → w1.stack = w.stack → Moves b w1 k) :
    Moves (seq a b) w k := by
  obtain ⟨h1, h2, h3⟩ := ha w hw
  refine moves_seq a b w w.stack.length k (moves_of_writes a ha w hw) ?_
  intro w1 hr
  rw [hr] at h2 h3
  exact hb w1 h2 h3

theorem moves_advance (w : JsonSAXWriter) (hb : w.buffer.isSome = true) (hs : w.stack ≠ []) :
    Moves advance w w.stack.length := by
  unfold Moves advance
  cases hst : w.stack with
  | nil => exact absurd hst hs
  | cons c st =>
      cases c with
      | ArrayNextValue =>
          simp only []
          obtain ⟨h1, h2, h3⟩ := writes_separator w hb
          exact ⟨h1, h2, fun _ => by rw [h3, hst]⟩
      | ObjectKey => exact ⟨by simp, hb, fun _ => by simp⟩
      | Array =>
          simp only []
          have hw : Writes (fun w0 : JsonSAXWriter =>
              (if w.beautiful then writeSpace (2 * (Condition.Array :: st).length) else skip) w0) := by
            by_cases hbe : w.beautiful = true
            · simp only [hbe, if_true]; exact writes_writeSpace _
            · simp only [hbe, if_false]; exact writes_skip
          obtain ⟨h1, h2, h3⟩ := hw w hb
          unfold seq
          cases hr : (if w.beautiful then writeSpace (2 * (Condition.Array :: st).length) else skip) w with
          | mk out w1 =>
              simp only [hr] at h1 h2 h3
              cases out with
              | «true» => exact ⟨by simp, h2, fun _ => by simp⟩
              | «false» => exact ⟨by simp, h2, by simp⟩
              | undefined => exact absurd rfl h1
      | Object => exact ⟨by simp, hb, fun _ => by rw [hst]⟩
      | ObjectNextPair => exact ⟨by simp, hb, fun _ => by rw [hst]⟩

theorem moves_checkCorrectValue (w : JsonSAXWriter) (hb : w.buffer.isSome = true)
    (hs : w.stack ≠ []) : Moves checkCorrectValue w w.stack.length := by
  have ha := moves_advance w hb hs
  obtain ⟨beautiful, error, buffer, stack⟩ := w
  cases stack with
  | nil => exact absurd rfl hs
  | cons c st =>
      cases c with
      | Object => refine ⟨?_, ?_, ?_⟩ <;> simp [checkCorrectValue, failWith, hb]
      | ObjectNextPair => refine ⟨?_, ?_, ?_⟩ <;> simp [checkCorrectValue, failWith, hb]
      | ObjectKey => exact ha
      | Array => exact ha
      | ArrayNextValue => exact ha

theorem moves_containerEnd (w : JsonSAXWriter) (hb : w.buffer.isSome = true) :
    Moves containerEnd w w.stack.length := by
  by_cases hs : w.stack.isEmpty = true
  · unfold Moves containerEnd
    rw [if_pos hs]; exact ⟨by simp, hb, fun _ => rfl⟩
  · have ha := moves_advance w hb (by intro h0; rw [h0] at hs; simp at hs)
    unfold Moves containerEnd
    unfold Moves at ha
    rw [if_neg hs]
    exact ha

/-- A value call, `checkBuffer` and `checkCorrectValue` followed by writes, on
a writer with a sink and a state on the stack. -/
theorem moves_value (body : Action) (hbody : Writes body) (w : JsonSAXWriter)
    (hb : w.buffer.isSome = true) (hs : w.stack ≠ []) :
    Moves (seq checkBuffer (seq checkCorrectValue body)) w w.stack.length := by
  refine moves_behind _ _ w _ writes_checkBuffer hb ?_
  intro w1 h1 hst
  refine moves_seq _ _ w1 w1.stack.length _ (moves_checkCorrectValue w1 h1 (by rw [hst]; exact hs)) ?_
  intro w2 hr
  obtain ⟨k1, k2, k3⟩ := moves_checkCorrectValue w1 h1 (by rw [hst]; exact hs)
  rw [hr] at k2 k3
  have := moves_of_writes body hbody w2 k2
  rw [k3 rfl, hst] at this
  exact this

theorem moves_Null (w : JsonSAXWriter) (hb : w.buffer.isSome = true) (hs : w.stack ≠ []) :
    Moves Null w w.stack.length :=
  moves_value _ (writes_writeChars _) w hb hs

theorem moves_begin (open_ : Nat) (c : Condition) (w : JsonSAXWriter)
    (hb : w.buffer.isSome = true) :
    Moves (seq checkBuffer (seq checkIsNotObject (seq containerEnd (seq (writeChar open_)
      (seq newline (push c)))))) w (w.stack.length + 1) := by
  refine moves_behind _ _ w _ writes_checkBuffer hb ?_
  intro w1 h1 hst1
  refine moves_behind _ _ w1 _ writes_checkIsNotObject h1 ?_
  intro w2 h2 hst2
  refine moves_seq _ _ w2 w2.stack.length _ (moves_containerEnd w2 h2) ?_
  intro w3 hr
  obtain ⟨_, k2, k3⟩ := moves_containerEnd w2 h2
  rw [hr] at k2 k3
  refine moves_behind _ _ w3 _ (writes_writeChar open_) k2 ?_
  intro w4 h4 hst4
  refine moves_behind _ _ w4 _ writes_newline h4 ?_
  intro w5 h5 hst5
  refine ⟨by simp [push], h5, fun _ => ?_⟩
  simp only [push, List.length_cons]
  rw [hst5, hst4, k3 rfl, hst2, hst1]

theorem moves_ObjectBegin (w : JsonSAXWriter) (hb : w.buffer.isSome = true) :
    Moves ObjectBegin w (w.stack.length + 1) := moves_begin 123 .Object w hb

theorem moves_ArrayBegin (w : JsonSAXWriter) (hb : w.buffer.isSome = true) :
    Moves ArrayBegin w (w.stack.length + 1) := moves_begin 91 .Array w hb

theorem moves_ObjectKey (key : List Nat) (w : JsonSAXWriter) (hb : w.buffer.isSome = true) :
    Moves (ObjectKey key) w w.stack.length := by
  unfold ObjectKey
  refine moves_behind _ _ w _ writes_checkBuffer hb ?_
  intro w1 h1 hst1
  refine moves_seq _ _ w1 w1.stack.length _
    (moves_of_writes _ (writes_checkIsObject true false) w1 h1) ?_
  intro w2 hr
  have hne : w1.stack ≠ [] := checkIsObject_true true false w1 w2 hr
  obtain ⟨_, k2, k3⟩ := writes_checkIsObject true false w1 h1
  rw [hr] at k2 k3
  refine moves_behind _ _ w2 _ (writes_writeString key) k2 ?_
  intro w3 h3 hst3
  refine moves_behind _ _ w3 _ (writes_writeChar 58) h3 ?_
  intro w4 h4 hst4
  refine ⟨by simp, h4, fun _ => ?_⟩
  simp only [List.length_cons, List.length_tail]
  rw [hst4, hst3, k3, ← hst1]
  have : 0 < w1.stack.length := List.length_pos.mpr hne
  omega

theorem moves_ObjectEnd (w : JsonSAXWriter) (hb : w.buffer.isSome = true) :
    Moves ObjectEnd w (w.stack.length - 1) := by
  unfold ObjectEnd
  refine moves_behind _ _ w _ writes_checkBuffer hb ?_
  intro w1 h1 hst1
  refine moves_behind _ _ w1 _ writes_newline h1 ?_
  intro w2 h2 hst2
  refine moves_behind _ _ w2 _ (writes_checkIsObject false true) h2 ?_
  intro w3 h3 hst3
  refine moves_behind _ _ w3 _ (writes_writeChar 125) h3 ?_
  intro w4 h4 hst4
  refine ⟨by simp [pop], h4, fun _ => ?_⟩
  simp only [pop, List.length_tail]
  rw [hst4, hst3, hst2, hst1]

theorem moves_ArrayEnd (w : JsonSAXWriter) (hb : w.buffer.isSome = true) (hs : w.stack ≠ []) :
    Moves ArrayEnd w (w.stack.length - 1) := by
  unfold ArrayEnd
  refine moves_behind _ _ w _ writes_checkBuffer hb ?_
  intro w1 h1 hst1
  have hne : w1.stack.isEmpty = false := by
    rw [hst1]
    cases hw : w.stack with
    | nil => exact absurd hw hs
    | cons c st => rfl
  have hpop : Moves pop w1 (w.stack.length - 1) :=
    ⟨by simp [pop], h1, fun _ => by simp only [pop, List.length_tail]; rw [hst1]⟩
  have hin : Writes (fun w0 : JsonSAXWriter =>
      if w0.beautiful then seq (writeChar 10) (writeSpace (2 * w0.stack.length)) w0
      else (Out.true, w0)) := by
    intro w0 h0
    by_cases hbe : w0.beautiful = true
    · beta_reduce
      rw [if_pos hbe]
      exact writes_seq _ _ (writes_writeChar 10) (writes_writeSpace _) w0 h0
    · beta_reduce
      rw [if_neg hbe]
      exact ⟨by simp, h0, rfl⟩
  have hm : Moves (seq pop (seq (fun w0 : JsonSAXWriter =>
      if w0.beautiful then seq (writeChar 10) (writeSpace (2 * w0.stack.length)) w0
      else (Out.true, w0)) (writeChar 93))) w1 (w.stack.length - 1) := by
    refine moves_seq _ _ w1 _ _ hpop ?_
    intro w2 hr
    have h2 : w2.buffer.isSome = true := by
      have := hpop.2.1; rw [hr] at this; exact this
    have hl2 : w2.stack.length = w.stack.length - 1 := by
      have := hpop.2.2; rw [hr] at this; exact this rfl
    have := moves_of_writes _ (writes_seq _ _ hin (writes_writeChar 93)) w2 h2
    rw [hl2] at this
    exact this
  unfold Moves at hm ⊢
  beta_reduce
  rw [if_neg (by rw [hne]; exact Bool.false_ne_true)]
  exact hm




open JsonSAXWriter JsonWriter

/-! ## The tree writer stays clear of undefined behaviour -/

theorem moves_writeValue (h : Heap) (c : JsonValue) (w : JsonSAXWriter)
    (hb : w.buffer.isSome = true) (hs : w.stack ≠ []) :
    Moves (writeValue h c) w w.stack.length := by
  have hd : ∀ d : Double, Writes (fun w0 : JsonSAXWriter =>
      match to_chars_double 18 d with
      | none => failWith .ErrorConvDouble w0
      | some str => writeChars str w0) := by
    intro d
    cases to_chars_double 18 d with
    | none => exact writes_failWith _
    | some str => exact writes_writeChars str
  have hl : ∀ n : Int, Writes (fun w0 : JsonSAXWriter =>
      match to_chars_longlong 20 n with
      | none => failWith .ErrorConvLongLong w0
      | some str => writeChars str w0) := by
    intro n
    cases to_chars_longlong 20 n with
    | none => exact writes_failWith _
    | some str => exact writes_writeChars str
  have hbool : ∀ b : Bool, Writes
      (if b then writeChars [116, 114, 117, 101] else writeChars [102, 97, 108, 115, 101]) := by
    intro b
    cases b with
    | «false» => exact writes_writeChars _
    | «true» => exact writes_writeChars _
  unfold writeValue
  cases hv : h.values[c.value]? with
  | none => exact moves_of_writes _ (writes_failWith _) w hb
  | some x =>
      cases x with
      | Empty => exact moves_of_writes _ (writes_failWith _) w hb
      | Object map => exact moves_of_writes _ (writes_failWith _) w hb
      | Array array => exact moves_of_writes _ (writes_failWith _) w hb
      | String s => exact moves_value _ (writes_writeString s) w hb hs
      | Double d => exact moves_value _ (hd d) w hb hs
      | LongLong n => exact moves_value _ (hl n) w hb hs
      | Bool b => exact moves_value _ (hbool b) w hb hs
      | Null => exact moves_Null w hb hs

theorem moves_entry (h : Heap) (stack : List (JsonValue × Variant)) (c : JsonValue)
    (act : Action) (he : entry h stack c = some act) (w : JsonSAXWriter)
    (hb : w.buffer.isSome = true) (hs : w.stack ≠ []) : Moves act w w.stack.length := by
  unfold entry at he
  by_cases hc : isContainer h c = true
  · rw [if_pos hc] at he
    by_cases ho : onStack stack c = true
    · rw [if_pos ho] at he
      rw [← Option.some.inj he]
      exact moves_Null w hb hs
    · rw [if_neg ho] at he; exact Option.noConfusion he
  · rw [if_neg hc] at he
    rw [← Option.some.inj he]
    exact moves_writeValue h c w hb hs

theorem walkArray_safe (h : Heap) (stack : List (JsonValue × Variant)) :
    ∀ (es : List JsonValue) (pos : Nat) (s : JsonSAXWriter), s.buffer.isSome = true →
      s.stack ≠ [] → (walkArray h stack es pos s).Safe s.stack.length := by
  intro es
  induction es with
  | nil => intro pos s hb hs; exact ⟨hb, rfl⟩
  | cons value rest ih =>
      intro pos s hb hs
      rw [walkArray]
      cases he : entry h stack value with
      | none => exact ⟨hb, rfl⟩
      | some act =>
          simp only []
          obtain ⟨h1, h2, h3⟩ := moves_entry h stack value act he s hb hs
          cases ha : act s with
          | mk out s1 =>
              rw [ha] at h1 h2 h3
              cases out with
              | «true» =>
                  simp only []
                  have hl : s1.stack.length = s.stack.length := h3 rfl
                  have := ih (pos + 1) s1 h2 (by
                    intro h0
                    have hp : 0 < s.stack.length := List.length_pos.mpr hs
                    rw [h0] at hl; simp at hl; omega)
                  rw [hl] at this
                  exact this
              | «false» => rfl
              | undefined => exact absurd rfl h1

theorem walkObject_safe (h : Heap) (stack : List (JsonValue × Variant)) :
    ∀ (es : List (List Nat × JsonValue)) (pos : Nat) (s : JsonSAXWriter),
      s.buffer.isSome = true → s.stack ≠ [] →
      (walkObject h stack es pos s).Safe s.stack.length := by
  intro es
  induction es with
  | nil => intro pos s hb hs; exact ⟨hb, rfl⟩
  | cons p rest ih =>
      obtain ⟨key, value⟩ := p
      intro pos s hb hs
      have hp : 0 < s.stack.length := List.length_pos.mpr hs
      rw [walkObject]
      obtain ⟨k1, k2, k3⟩ := moves_ObjectKey key s hb
      cases hk : JsonSAXWriter.ObjectKey key s with
      | mk out0 s0 =>
          rw [hk] at k1 k2 k3
          cases out0 with
          | «true» =>
              simp only []
              have hl0 : s0.stack.length = s.stack.length := k3 rfl
              have hs0 : s0.stack ≠ [] := by
                intro h0; rw [h0] at hl0; simp at hl0; omega
              cases he : entry h stack value with
              | none =>
                  simp only []
                  exact ⟨k2, hl0⟩
              | some act =>
                  simp only []
                  obtain ⟨h1, h2, h3⟩ := moves_entry h stack value act he s0 k2 hs0
                  cases ha : act s0 with
                  | mk out s1 =>
                      rw [ha] at h1 h2 h3
                      cases out with
                      | «true» =>
                          simp only []
                          have hl : s1.stack.length = s0.stack.length := h3 rfl
                          have := ih (pos + 1) s1 h2 (by
                            intro h0
                            rw [h0] at hl; simp at hl; omega)
                          rw [hl, hl0] at this
                          exact this
                      | «false» => rfl
                      | undefined => exact absurd rfl h1
          | «false» => rfl
          | undefined => exact absurd rfl k1

/-- The traversal stack behind a pass that found a container among the
entries. -/
theorem sound_child (s2 : JsonSAXWriter) (child value : JsonValue) (it1 : Variant)
    (below : List (JsonValue × Variant)) (hb : s2.buffer.isSome = true)
    (hl : s2.stack.length = below.length + 1) (hn : resume it1 ≠ 0)
    (hbelow : ∀ p ∈ below, resume p.2 ≠ 0) :
    JsonWriter.Sound { sax := s2, stack := (child, .monostate) :: (value, it1) :: below } := by
  refine ⟨hb, ?_, ?_⟩
  · simp only [resume, if_true, List.length_cons]
    omega
  · intro p hp
    rcases List.mem_cons.mp hp with rfl | hp
    · exact hn
    · exact hbelow p hp

/-- The traversal stack behind a pass that closed its container. -/
theorem sound_pop (s3 : JsonSAXWriter) (below : List (JsonValue × Variant))
    (hb : s3.buffer.isSome = true) (hl : s3.stack.length = below.length)
    (hbelow : ∀ p ∈ below, resume p.2 ≠ 0) :
    JsonWriter.Sound { sax := s3, stack := below } := by
  refine ⟨hb, ?_⟩
  cases below with
  | nil => trivial
  | cons p b2 =>
      obtain ⟨v2, it2⟩ := p
      have h2 := hbelow (v2, it2) (List.mem_cons_self _ _)
      refine ⟨?_, fun q hq => hbelow q (List.mem_cons_of_mem _ hq)⟩
      simp only [] at h2
      rw [if_neg h2, hl]
      simp

theorem objectTail_sound (value : JsonValue) (below stack : List (JsonValue × Variant))
    (r : Walk) (hr : r.Safe (below.length + 1))
    (hnext : ∀ c next s, r = .child c next s → next ≠ 0)
    (hbelow : ∀ p ∈ below, resume p.2 ≠ 0) :
    (objectTail value below stack r).Sound := by
  cases r with
  | failed out s2 => exact hr
  | child c next s2 =>
      exact sound_child s2 c value (.map next) below hr.1 hr.2 (hnext c next s2 rfl) hbelow
  | finished s2 =>
      obtain ⟨hb, hl⟩ := hr
      obtain ⟨k1, k2, k3⟩ := moves_ObjectEnd s2 hb
      cases he : JsonSAXWriter.ObjectEnd s2 with
      | mk out s3 =>
          rw [he] at k1 k2 k3
          cases out with
          | «true» =>
              have hl3 : s3.stack.length = s2.stack.length - 1 := k3 rfl
              have hs := sound_pop s3 below k2 (by rw [hl3, hl]; simp) hbelow
              simp only [objectTail, he]
              exact hs
          | «false» =>
              simp only [objectTail, he]
              exact rfl
          | undefined => exact absurd rfl k1

theorem arrayTail_sound (value : JsonValue) (below stack : List (JsonValue × Variant))
    (r : Walk) (hr : r.Safe (below.length + 1))
    (hnext : ∀ c next s, r = .child c next s → next ≠ 0)
    (hbelow : ∀ p ∈ below, resume p.2 ≠ 0) :
    (arrayTail value below stack r).Sound := by
  cases r with
  | failed out s2 => exact hr
  | child c next s2 =>
      exact sound_child s2 c value (.vector next) below hr.1 hr.2 (hnext c next s2 rfl) hbelow
  | finished s2 =>
      obtain ⟨hb, hl⟩ := hr
      obtain ⟨k1, k2, k3⟩ := moves_ArrayEnd s2 hb (by
        intro h0; rw [h0] at hl; simp at hl)
      cases he : JsonSAXWriter.ArrayEnd s2 with
      | mk out s3 =>
          rw [he] at k1 k2 k3
          cases out with
          | «true» =>
              have hl3 : s3.stack.length = s2.stack.length - 1 := k3 rfl
              have hs := sound_pop s3 below k2 (by rw [hl3, hl]; simp) hbelow
              simp only [arrayTail, he]
              exact hs
          | «false» =>
              simp only [arrayTail, he]
              exact rfl
          | undefined => exact absurd rfl k1

/-- The begin call of a pass, made when the iterator is at the start: behind it
the state stack holds one entry for the container of the pass as well. -/
theorem begin_sound (a : Action) (w : JsonWriter) (it : Variant)
    (below : List (JsonValue × Variant)) (value : JsonValue)
    (ha : ∀ s : JsonSAXWriter, s.buffer.isSome = true → Moves a s (s.stack.length + 1))
    (hw : w.Sound) (hst : w.stack = (value, it) :: below) :
    Moves (fun s => if resume it == 0 then a s else (.true, s)) w.sax (below.length + 1)
      ∧ ∀ p ∈ below, resume p.2 ≠ 0 := by
  obtain ⟨hb, hm⟩ := hw
  rw [hst] at hm
  simp only [] at hm
  obtain ⟨hl, hbelow⟩ := hm
  refine ⟨?_, hbelow⟩
  unfold Moves
  by_cases h0 : resume it = 0
  · have hq : (resume it == 0) = true := by simpa using h0
    rw [if_pos h0] at hl
    simp only [hq, if_true]
    have := ha w.sax hb
    rw [hl] at this
    simpa using this
  · have hq : (resume it == 0) = false := by simpa using h0
    rw [if_neg h0] at hl
    simp only [hq, Bool.false_eq_true, if_false]
    exact ⟨by simp, hb, fun _ => hl⟩




open JsonSAXWriter JsonWriter

/-! ## Passes of `write` without undefined behaviour -/

/-- A pass of `write` from a state between two passes uses neither a null sink
nor the top of an empty state stack: it returns false, or it goes on to a state
of the same kind. -/
theorem pass_sound (h : Heap) (value : JsonValue) (it : Variant)
    (below : List (JsonValue × Variant)) (w : JsonWriter) (hw : w.Sound)
    (hst : w.stack = (value, it) :: below) : (JsonWriter.pass h value it below w).Sound := by
  have hob := begin_sound ObjectBegin w it below value (fun s hs => moves_ObjectBegin s hs) hw hst
  have har := begin_sound ArrayBegin w it below value (fun s hs => moves_ArrayBegin s hs) hw hst
  obtain ⟨⟨o1, o2, o3⟩, hbelow⟩ := hob
  obtain ⟨⟨a1, a2, a3⟩, _⟩ := har
  beta_reduce at o1 o2 o3 a1 a2 a3
  have hscalar : ∀ s1, (if (resume it == 0) = true then JsonSAXWriter.ArrayBegin w.sax
        else (Out.true, w.sax)) = (Out.true, s1) →
      (arrayTail value below w.stack (walkArray h w.stack [] (resume it) s1)).Sound := by
    intro s1 hb
    rw [hb] at a2 a3
    have hl : s1.stack.length = below.length + 1 := a3 rfl
    refine arrayTail_sound value below w.stack _ ?_ ?_ hbelow
    · exact ⟨a2, hl⟩
    · intro c next s hx
      simp [walkArray] at hx
  cases hv : h.values[value.value]? with
  | none =>
      unfold JsonWriter.pass
      simp only [hv]
      cases hb : (if (resume it == 0) = true then JsonSAXWriter.ArrayBegin w.sax else (Out.true, w.sax)) with
      | mk out s1 =>
          rw [hb] at a1
          cases out with
          | «true» =>
              have := hscalar s1 hb
              simp only [List.drop_nil, walkArray, arrayTail] at this ⊢
              cases he : JsonSAXWriter.ArrayEnd s1 with
              | mk out2 s3 =>
                  rw [he] at this
                  cases out2 <;> exact this
          | «false» => exact rfl
          | undefined => exact absurd rfl a1
  | some x =>
      cases x with
      | Object map =>
          rw [pass_object h value it below w map hv]
          cases hb : (if (resume it == 0) = true then JsonSAXWriter.ObjectBegin w.sax else (Out.true, w.sax)) with
          | mk out s1 =>
              rw [hb] at o1 o2 o3
              cases out with
              | «true» =>
                  simp only []
                  have hl : s1.stack.length = below.length + 1 := o3 rfl
                  refine objectTail_sound value below w.stack _ ?_ ?_ hbelow
                  · have := walkObject_safe h w.stack
                      (((h.maps[map]?).getD []).drop (resume it)) (resume it) s1 o2
                      (by intro h0; rw [h0] at hl; simp at hl)
                    rw [hl] at this
                    exact this
                  · intro c next s hx
                    have := (walkObject_child h w.stack _ _ _ _ _ _ hx).2.2.1
                    omega
              | «false» => exact rfl
              | undefined => exact absurd rfl o1
      | Array array =>
          rw [pass_array h value it below w array hv]
          cases hb : (if (resume it == 0) = true then JsonSAXWriter.ArrayBegin w.sax else (Out.true, w.sax)) with
          | mk out s1 =>
              rw [hb] at a1 a2 a3
              cases out with
              | «true» =>
                  simp only []
                  have hl : s1.stack.length = below.length + 1 := a3 rfl
                  refine arrayTail_sound value below w.stack _ ?_ ?_ hbelow
                  · have := walkArray_safe h w.stack
                      (((h.arrays[array]?).getD []).drop (resume it)) (resume it) s1 a2
                      (by intro h0; rw [h0] at hl; simp at hl)
                    rw [hl] at this
                    exact this
                  · intro c next s hx
                    have := (walkArray_child h w.stack _ _ _ _ _ _ hx).2.2.1
                    omega
              | «false» => exact rfl
              | undefined => exact absurd rfl a1
      | _ =>
          unfold JsonWriter.pass
          simp only [hv]
          cases hb : (if (resume it == 0) = true then JsonSAXWriter.ArrayBegin w.sax else (Out.true, w.sax)) with
          | mk out s1 =>
              rw [hb] at a1
              cases out with
              | «true» =>
                  have := hscalar s1 hb
                  simp only [List.drop_nil, walkArray, arrayTail] at this ⊢
                  cases he : JsonSAXWriter.ArrayEnd s1 with
                  | mk out2 s3 =>
                      rw [he] at this
                      cases out2 <;> exact this
              | «false» => exact rfl
              | undefined => exact absurd rfl a1

/-- The loop of `write` from a state between two passes returns true or
false. -/
theorem writeLoop_sound (h : Heap) (fuel : Nat) :
    ∀ (w : JsonWriter) (r : Out × JsonWriter), w.Sound → writeLoop h fuel w = some r →
      r.1 ≠ .undefined := by
  induction fuel with
  | zero => intro w r _ hr; simp [writeLoop] at hr
  | succ fuel ih =>
      intro w r hw hr
      rw [writeLoop] at hr
      cases hst : w.stack with
      | nil =>
          rw [hst] at hr
          simp only [Option.some.injEq] at hr
          rw [← hr]; simp
      | cons p below =>
          obtain ⟨value, it⟩ := p
          rw [hst] at hr
          simp only [] at hr
          have hp := pass_sound h value it below w hw hst
          cases hx : JsonWriter.pass h value it below w with
          | «continue» w1 =>
              rw [hx] at hr hp
              exact ih w1 r hp hr
          | «return» out w1 =>
              rw [hx] at hr hp
              simp only [Option.some.injEq] at hr
              have ho : out = .false := hp
              rw [← hr, ho]; simp

theorem start_sound (w : JsonWriter) (buffer : JsonBufferWriter) (json : JsonValue)
    (beautiful : Bool) : (w.start buffer json beautiful).Sound := by
  refine ⟨rfl, ?_⟩
  show (w.sax.setBuffer (some buffer) beautiful).stack.length
      = ([] : List (JsonValue × Variant)).length + (if resume .monostate = 0 then 0 else 1)
    ∧ ∀ p ∈ ([] : List (JsonValue × Variant)), resume p.2 ≠ 0
  exact ⟨rfl, fun p hp => absurd hp (List.not_mem_nil _)⟩

/-- `JsonWriter::write` uses neither a null sink nor the top of an empty state
stack: it returns true or false. -/
theorem write_defined (fuel : Nat) (h : Heap) (w : JsonWriter) (buffer : JsonBufferWriter)
    (json : JsonValue) (beautiful : Bool) (r : Out × JsonWriter)
    (hr : JsonWriter.write fuel h w buffer json beautiful = some r) : r.1 ≠ .undefined := by
  unfold JsonWriter.write at hr
  by_cases hc : (h.type json != some .Object && h.type json != some .Array) = true
  · rw [if_pos hc] at hr
    rw [← Option.some.inj hr]; simp
  · rw [if_neg hc] at hr
    exact writeLoop_sound h fuel _ r (start_sound w buffer json beautiful) hr




open JsonSAXWriter JsonWriter

/-! ## Values of type Empty in the walk of the tree writer -/

/-- A value of type Empty has an empty cell. -/
theorem type_empty (h : Heap) (c : JsonValue) (hc : h.type c = some .Empty) :
    h.values[c.value]? = some .Empty := by
  unfold Heap.type at hc
  cases hv : h.values[c.value]? with
  | none => rw [hv] at hc; simp at hc
  | some x => rw [hv] at hc; cases x <;> simp at hc ⊢

/-- For an entry of type Empty the walk calls `writeValue`, which stores its
error text and returns false. -/
theorem entry_empty (h : Heap) (stack : List (JsonValue × Variant)) (c : JsonValue)
    (hc : h.type c = some .Empty) :
    entry h stack c = some (JsonSAXWriter.failWith emptyTypeError) := by
  have hv := type_empty h c hc
  unfold entry isContainer
  rw [hc]
  simp only [writeValue, hv]
  rfl

/-- The loop over the elements of an array returns false at an element of type
Empty, with the error text of `writeValue` and nothing written for it. -/
theorem walkArray_empty (h : Heap) (stack : List (JsonValue × Variant)) (c : JsonValue)
    (rest : List JsonValue) (pos : Nat) (s : JsonSAXWriter) (hc : h.type c = some .Empty) :
    walkArray h stack (c :: rest) pos s = .failed .false { s with _error := emptyTypeError } := by
  rw [walkArray, entry_empty h stack c hc]
  rfl

/-- The loop over the entries of an object returns false at an entry of type
Empty, after `ObjectKey`, with the error text of `writeValue` and nothing written
behind the key. -/
theorem walkObject_empty (h : Heap) (stack : List (JsonValue × Variant)) (key : List Nat)
    (c : JsonValue) (rest : List (List Nat × JsonValue)) (pos : Nat) (s s1 : JsonSAXWriter)
    (hc : h.type c = some .Empty) (hk : JsonSAXWriter.ObjectKey key s = (.true, s1)) :
    walkObject h stack ((key, c) :: rest) pos s
      = .failed .false { s1 with _error := emptyTypeError } := by
  rw [walkObject, hk]
  simp only [entry_empty h stack c hc]
  rfl

/-- The loop over the elements of an array, the elements at the front written. -/
theorem walkArray_append (h : Heap) (stack : List (JsonValue × Variant)) :
    ∀ (front rest : List JsonValue) (pos : Nat) (s s1 : JsonSAXWriter),
      walkArray h stack front pos s = .finished s1 →
        walkArray h stack (front ++ rest) pos s = walkArray h stack rest (pos + front.length) s1 := by
  intro front
  induction front with
  | nil =>
      intro rest pos s s1 hw
      simp only [walkArray, Walk.finished.injEq] at hw
      rw [hw]; rfl
  | cons c front ih =>
      intro rest pos s s1 hw
      rw [walkArray] at hw
      rw [List.cons_append, walkArray]
      cases he : entry h stack c with
      | none => rw [he] at hw; simp at hw
      | some act =>
          rw [he] at hw
          simp only [] at hw ⊢
          cases ha : act s with
          | mk out s2 =>
              rw [ha] at hw
              cases out with
              | «true» =>
                  simp only [] at hw ⊢
                  rw [ih rest (pos + 1) s2 s1 hw, List.length_cons]
                  congr 1
                  omega
              | «false» => simp at hw
              | undefined => simp at hw

/-- The loop over the entries of an object, the entries at the front written. -/
theorem walkObject_append (h : Heap) (stack : List (JsonValue × Variant)) :
    ∀ (front rest : List (List Nat × JsonValue)) (pos : Nat) (s s1 : JsonSAXWriter),
      walkObject h stack front pos s = .finished s1 →
        walkObject h stack (front ++ rest) pos s
          = walkObject h stack rest (pos + front.length) s1 := by
  intro front
  induction front with
  | nil =>
      intro rest pos s s1 hw
      simp only [walkObject, Walk.finished.injEq] at hw
      rw [hw]; rfl
  | cons p front ih =>
      obtain ⟨key, c⟩ := p
      intro rest pos s s1 hw
      rw [walkObject] at hw
      rw [List.cons_append, walkObject]
      cases hk : JsonSAXWriter.ObjectKey key s with
      | mk o s0 =>
          rw [hk] at hw
          cases o with
          | «true» =>
              simp only [] at hw ⊢
              cases he : entry h stack c with
              | none => rw [he] at hw; simp at hw
              | some act =>
                  rw [he] at hw
                  simp only [] at hw ⊢
                  cases ha : act s0 with
                  | mk out s2 =>
                      rw [ha] at hw
                      cases out with
                      | «true» =>
                          simp only [] at hw ⊢
                          rw [ih rest (pos + 1) s2 s1 hw, List.length_cons]
                          congr 1
                          omega
                      | «false» => simp at hw
                      | undefined => simp at hw
          | «false» => simp at hw
          | undefined => simp at hw

/-- The loop over the entries of an object that hold an entry of type Empty at
the index `j` does not come to the end, and where it leaves for a container, the
iterator has not passed that entry. -/
theorem walkObject_blocked (h : Heap) (stack : List (JsonValue × Variant)) :
    ∀ (es : List (List Nat × JsonValue)) (j pos : Nat) (s : JsonSAXWriter) (key : List Nat)
      (c : JsonValue), es[j]? = some (key, c) → h.type c = some .Empty →
        (∀ s2, walkObject h stack es pos s ≠ .finished s2)
          ∧ ∀ child next s2, walkObject h stack es pos s = .child child next s2 →
              next ≤ pos + j := by
  intro es
  induction es with
  | nil => intro j pos s key c hj; simp at hj
  | cons p es ih =>
      obtain ⟨k, v⟩ := p
      intro j pos s key c hj hc
      rw [walkObject]
      cases hk : JsonSAXWriter.ObjectKey k s with
      | mk o s0 =>
          cases o with
          | «true» =>
              simp only []
              cases j with
              | zero =>
                  simp only [List.getElem?_cons_zero, Option.some.injEq, Prod.mk.injEq] at hj
                  obtain ⟨_, hv⟩ := hj
                  subst hv
                  rw [entry_empty h stack v hc]
                  simp [failWith]
              | succ j =>
                  rw [List.getElem?_cons_succ] at hj
                  cases he : entry h stack v with
                  | none =>
                      simp only []
                      refine ⟨fun s2 hx => by simp at hx, fun child next s2 hx => ?_⟩
                      simp only [Walk.child.injEq] at hx
                      omega
                  | some act =>
                      simp only []
                      cases ha : act s0 with
                      | mk out s2 =>
                          cases out with
                          | «true» =>
                              simp only []
                              obtain ⟨i1, i2⟩ := ih j (pos + 1) s2 key c hj hc
                              refine ⟨i1, fun child next s3 hx => ?_⟩
                              have := i2 child next s3 hx
                              omega
                          | «false» => simp
                          | undefined => simp
          | «false» => simp
          | undefined => simp




open JsonSAXWriter JsonWriter

/-! ## A pass of `write` that reaches an entry of type Empty -/

/-- A pass over an array that has written the elements `front` and comes to an
element of type Empty returns false with the error text of `writeValue`. -/
theorem pass_array_empty (h : Heap) (value : JsonValue) (it : Variant)
    (below : List (JsonValue × Variant)) (w : JsonWriter) (array : Nat)
    (front : List JsonValue) (c : JsonValue) (rest : List JsonValue) (s1 s2 : JsonSAXWriter)
    (hv : h.values[value.value]? = some (.Array array))
    (hes : ((h.arrays[array]?).getD []).drop (resume it) = front ++ c :: rest)
    (hb : (if resume it == 0 then JsonSAXWriter.ArrayBegin w.sax else (.true, w.sax)) = (.true, s1))
    (hw : walkArray h w.stack front (resume it) s1 = .finished s2)
    (hc : h.type c = some .Empty) :
    JsonWriter.pass h value it below w
      = .return .false { sax := { s2 with _error := emptyTypeError }, stack := w.stack } := by
  rw [pass_array h value it below w array hv, hb]
  simp only []
  rw [hes, walkArray_append h w.stack front (c :: rest) (resume it) s1 s2 hw,
    walkArray_empty h w.stack c rest _ s2 hc]
  rfl

/-- A pass over an object that has written the entries `front` and the key of
an entry of type Empty returns false with the error text of `writeValue`. -/
theorem pass_object_empty (h : Heap) (value : JsonValue) (it : Variant)
    (below : List (JsonValue × Variant)) (w : JsonWriter) (map : Nat)
    (front : List (List Nat × JsonValue)) (key : List Nat) (c : JsonValue)
    (rest : List (List Nat × JsonValue)) (s1 s2 s3 : JsonSAXWriter)
    (hv : h.values[value.value]? = some (.Object map))
    (hes : ((h.maps[map]?).getD []).drop (resume it) = front ++ (key, c) :: rest)
    (hb : (if resume it == 0 then JsonSAXWriter.ObjectBegin w.sax else (.true, w.sax)) = (.true, s1))
    (hw : walkObject h w.stack front (resume it) s1 = .finished s2)
    (hk : JsonSAXWriter.ObjectKey key s2 = (.true, s3))
    (hc : h.type c = some .Empty) :
    JsonWriter.pass h value it below w
      = .return .false { sax := { s3 with _error := emptyTypeError }, stack := w.stack } := by
  rw [pass_object h value it below w map hv, hb]
  simp only []
  rw [hes, walkObject_append h w.stack front ((key, c) :: rest) (resume it) s1 s2 hw,
    walkObject_empty h w.stack key c rest _ s2 s3 hc hk]
  rfl

/-- What `write` returns when a pass of its loop returns. -/
theorem write_returns (h : Heap) (w : JsonWriter) (buffer : JsonBufferWriter)
    (json : JsonValue) (beautiful : Bool) (n : Nat) (w1 : JsonWriter) (value : JsonValue)
    (it : Variant) (below : List (JsonValue × Variant)) (out : Out) (w2 : JsonWriter)
    (hc : JsonWriter.isContainer h json = true)
    (ha : after h n (w.start buffer json beautiful) = some w1)
    (hst : w1.stack = (value, it) :: below)
    (hp : JsonWriter.pass h value it below w1 = .return out w2) (more : Nat) :
    JsonWriter.write (n + 1 + more) h w buffer json beautiful = some (out, w2) := by
  rw [write_eq _ h w buffer json beautiful hc, show n + 1 + more = n + (more + 1) by omega,
    writeLoop_after h n _ _ ha (more + 1), writeLoop]
  simp only [hst, hp]

/-! ## An object with an entry of type Empty is not written -/

/-- A pass keeps the root at the bottom of the traversal stack, its iterator not
behind the entry of type Empty. -/
theorem pass_before (h : Heap) (json : JsonValue) (j map : Nat)
    (es : List (List Nat × JsonValue)) (key : List Nat) (c : JsonValue)
    (hroot : h.values[json.value]? = some (.Object map)) (hm : h.maps[map]? = some es)
    (hj : es[j]? = some (key, c)) (hc : h.type c = some .Empty)
    (value : JsonValue) (it : Variant) (below : List (JsonValue × Variant)) (w w1 : JsonWriter)
    (hb : w.Before json j) (hst : w.stack = (value, it) :: below)
    (hp : JsonWriter.pass h value it below w = .continue w1) : w1.Before json j := by
  obtain ⟨upper, it0, hs, hle⟩ := hb
  rw [hst] at hs
  cases upper with
  | nil =>
      simp only [List.nil_append, List.cons.injEq, Prod.mk.injEq] at hs
      obtain ⟨⟨hvj, hit⟩, hbelow⟩ := hs
      subst hvj hit hbelow
      rw [pass_object h value it [] w map hroot] at hp
      have hd : (es.drop (resume it))[j - resume it]? = some (key, c) := by
        rw [List.getElem?_drop, Nat.add_sub_cancel' hle]
        exact hj
      cases hbg : (if (resume it == 0) = true then JsonSAXWriter.ObjectBegin w.sax else (Out.true, w.sax)) with
      | mk out s1 =>
          rw [hbg] at hp
          cases out with
          | «true» =>
              simp only [hm, Option.getD_some] at hp
              obtain ⟨k1, k2⟩ := walkObject_blocked h w.stack (es.drop (resume it))
                (j - resume it) (resume it) s1 key c hd hc
              cases hwk : walkObject h w.stack (es.drop (resume it)) (resume it) s1 with
              | finished s2 => exact absurd hwk (k1 s2)
              | child ch next s2 =>
                  rw [hwk] at hp
                  simp only [objectTail, Pass.continue.injEq] at hp
                  have hn := k2 ch next s2 hwk
                  refine ⟨[(ch, .monostate)], .map next, ?_, ?_⟩
                  · rw [← hp]; rfl
                  · simp only [resume]; omega
              | failed o s2 =>
                  rw [hwk] at hp
                  simp [objectTail] at hp
          | «false» => simp at hp
          | undefined => simp at hp
  | cons u upper =>
      simp only [List.cons_append, List.cons.injEq] at hs
      obtain ⟨hu, hbelow⟩ := hs
      rcases pass_cases h value it below w with ⟨o, w2, h2⟩ | ⟨s, h2⟩ | ⟨ch, it1, s, h2, _⟩
      · rw [h2] at hp; simp at hp
      · rw [h2] at hp
        simp only [Pass.continue.injEq] at hp
        refine ⟨upper, it0, ?_, hle⟩
        rw [← hp]; exact hbelow
      · rw [h2] at hp
        simp only [Pass.continue.injEq] at hp
        refine ⟨(ch, .monostate) :: (value, it1) :: upper, it0, ?_, hle⟩
        rw [← hp, hbelow]; rfl

/-- The loop of `write` on an object with an entry of type Empty returns
false. -/
theorem writeLoop_before (h : Heap) (json : JsonValue) (j map : Nat)
    (es : List (List Nat × JsonValue)) (key : List Nat) (c : JsonValue)
    (hroot : h.values[json.value]? = some (.Object map)) (hm : h.maps[map]? = some es)
    (hj : es[j]? = some (key, c)) (hc : h.type c = some .Empty) (fuel : Nat) :
    ∀ (w : JsonWriter) (r : Out × JsonWriter), w.Sound → w.Before json j →
      writeLoop h fuel w = some r → r.1 = .false := by
  induction fuel with
  | zero => intro w r _ _ hr; simp [writeLoop] at hr
  | succ fuel ih =>
      intro w r hw hb hr
      rw [writeLoop] at hr
      cases hst : w.stack with
      | nil =>
          obtain ⟨upper, it0, hs, _⟩ := hb
          rw [hst] at hs
          simp at hs
      | cons p below =>
          obtain ⟨value, it⟩ := p
          rw [hst] at hr
          simp only [] at hr
          have hp := pass_sound h value it below w hw hst
          cases hx : JsonWriter.pass h value it below w with
          | «continue» w1 =>
              rw [hx] at hr hp
              exact ih w1 r hp
                (pass_before h json j map es key c hroot hm hj hc value it below w w1 hb hst hx) hr
          | «return» out w1 =>
              rw [hx] at hr hp
              simp only [Option.some.injEq] at hr
              have ho : out = .false := hp
              rw [← hr, ho]

/-- `write` on an object with an entry of type Empty returns false. -/
theorem write_blocked (h : Heap) (w : JsonWriter) (buffer : JsonBufferWriter)
    (json : JsonValue) (beautiful : Bool) (j map : Nat)
    (es : List (List Nat × JsonValue)) (key : List Nat) (c : JsonValue)
    (hroot : h.values[json.value]? = some (.Object map)) (hm : h.maps[map]? = some es)
    (hj : es[j]? = some (key, c)) (hc : h.type c = some .Empty) :
    ∃ n r, ∀ more, JsonWriter.write (n + more) h w buffer json beautiful = some (.false, r) := by
  have hcont : JsonWriter.isContainer h json = true := cell_isContainer h json (Or.inl ⟨map, hroot⟩)
  obtain ⟨fuel, r, hr⟩ := writeLoop_halts h w buffer json beautiful hcont
  have hf := writeLoop_before h json j map es key c hroot hm hj hc fuel _ r
    (start_sound w buffer json beautiful) ⟨[], .monostate, rfl, Nat.zero_le _⟩ hr
  obtain ⟨out, w2⟩ := r
  have ho : out = .false := hf
  subst ho
  refine ⟨fuel, w2, fun more => ?_⟩
  rw [write_eq _ h w buffer json beautiful hcont]
  exact writeLoop_mono h fuel _ _ hr more

/-! ## `operator []` and `value` on an absent key -/

/-- The heap after `operator [](key)` on an absent key: a new empty cell, stored
in the map under `key`. -/
theorem index_absent (h : Heap) (o : Object) (key : List Nat)
    (entries : List (List Nat × JsonValue)) (hm : h.maps[o.map]? = some entries)
    (hf : mapFind key entries = none) :
    Object.index h o key
      = some ({ values := h.values ++ [.Empty], maps := h.maps.set o.map (mapInsert key { value := h.values.length } entries), arrays := h.arrays }, { value := h.values.length }) := by
  unfold Object.index
  simp only [hm, hf, Heap.newValue]

/-- The heap after `value(key)` on an absent key: a new empty cell, the maps as
they were. -/
theorem value_absent (h : Heap) (o : Object) (key : List Nat)
    (entries : List (List Nat × JsonValue)) (hm : h.maps[o.map]? = some entries)
    (hf : mapFind key entries = none) :
    Object.value h o key
      = some ({ values := h.values ++ [.Empty], maps := h.maps, arrays := h.arrays }, { value := h.values.length }) := by
  unfold Object.value
  simp only [hm, hf, Heap.newValue]

/-- An object does not write after `operator [](key)` on an absent key. -/
theorem index_blocked (h : Heap) (o : Object) (key : List Nat) (json : JsonValue)
    (entries : List (List Nat × JsonValue))
    (hroot : h.values[json.value]? = some (.Object o.map))
    (hm : h.maps[o.map]? = some entries) (hf : mapFind key entries = none) :
    ∃ h1 v, Object.index h o key = some (h1, v) ∧ h1.type v = some .Empty
      ∧ h1.type json = some .Object
      ∧ Object.contains h1 o key = some true
      ∧ Object.count h1 o = some (entries.length + 1)
      ∧ ∀ (w : JsonWriter) (buffer : JsonBufferWriter) (beautiful : Bool),
          ∃ n r, ∀ more,
            JsonWriter.write (n + more) h1 w buffer json beautiful = some (.false, r) := by
  have hlt : o.map < h.maps.length := by
    rcases Nat.lt_or_ge o.map h.maps.length with hl | hl
    · exact hl
    · rw [List.getElem?_eq_none hl] at hm; exact Option.noConfusion hm
  have hjl : json.value < h.values.length := by
    rcases Nat.lt_or_ge json.value h.values.length with hl | hl
    · exact hl
    · rw [List.getElem?_eq_none hl] at hroot; exact Option.noConfusion hroot
  refine ⟨_, _, index_absent h o key entries hm hf, ?_, ?_, ?_, ?_, ?_⟩
  · simp [Heap.type]
  · simp only [Heap.type, List.getElem?_append_left hjl, hroot]
  · simp only [Object.contains, List.getElem?_set_self hlt, Option.map_some',
      mapFind_insert key _ entries hf, Option.isSome_some]
  · simp only [Object.count, List.getElem?_set_self hlt, Option.map_some',
      mapInsert_length key _ entries hf]
  · intro w buffer beautiful
    have hmem := mapFind_mem key _ _ (mapFind_insert key { value := h.values.length } entries hf)
    obtain ⟨j, hj⟩ := List.mem_iff_getElem?.mp hmem
    exact write_blocked _ w buffer json beautiful j o.map _ key { value := h.values.length }
      (by simp only [List.getElem?_append_left hjl]; exact hroot)
      (by simp only [List.getElem?_set_self hlt]) hj (by simp [Heap.type])




open JsonSAXWriter JsonWriter

/-! ## A tree that holds a value of type Empty has no text -/

mutual
/-- A tree that is an empty value or holds one has no text. -/
theorem holds_render (b : Bool) :
    ∀ (d : Nat) (t : ValueTree), t.holdsEmpty = true → renderTree b d t = none
  | _, .Empty, _ => by rw [renderTree]
  | d, .Object ms, h => by
      rw [ValueTree.holdsEmpty] at h
      rw [renderTree, holds_members b (d + 1) true ms h]
      rfl
  | d, .Array es, h => by
      rw [ValueTree.holdsEmpty] at h
      rw [renderTree, holds_elements b (d + 1) true es h]
      rfl
  | _, .String _, h => by simp [ValueTree.holdsEmpty] at h
  | _, .Double _, h => by simp [ValueTree.holdsEmpty] at h
  | _, .LongLong _, h => by simp [ValueTree.holdsEmpty] at h
  | _, .Bool _, h => by simp [ValueTree.holdsEmpty] at h
  | _, .Null, h => by simp [ValueTree.holdsEmpty] at h
/-- Members of which one holds an empty value have no text. -/
theorem holds_members (b : Bool) :
    ∀ (d : Nat) (first : Bool) (ms : List (List Nat × ValueTree)),
      membersHoldEmpty ms = true → renderMembers b d first ms = none
  | _, _, [], h => by simp [membersHoldEmpty] at h
  | d, first, (key, v) :: ms, h => by
      rw [membersHoldEmpty, Bool.or_eq_true] at h
      rw [renderMembers]
      by_cases hk : acceptsString key = true
      · rw [if_pos hk]
        rcases h with h | h
        · rw [holds_render b d v h]
        · rw [holds_members b d false ms h]
          cases renderTree b d v <;> rfl
      · rw [if_neg hk]
/-- Elements of which one holds an empty value have no text. -/
theorem holds_elements (b : Bool) :
    ∀ (d : Nat) (first : Bool) (es : List ValueTree),
      elementsHoldEmpty es = true → renderElements b d first es = none
  | _, _, [], h => by simp [elementsHoldEmpty] at h
  | d, first, v :: es, h => by
      rw [elementsHoldEmpty, Bool.or_eq_true] at h
      rw [renderElements]
      rcases h with h | h
      · rw [holds_render b d v h]
      · rw [holds_elements b d false es h]
        cases renderTree b d v <;> rfl
end

/-- `write` on a container whose tree holds a value of type Empty returns
false. -/
theorem write_holds (h : Heap) (w : JsonWriter) (buffer : JsonBufferWriter)
    (json : JsonValue) (beautiful : Bool) (k : Nat) (t : ValueTree)
    (htree : h.tree k json = some t) (hc : JsonWriter.isContainer h json = true)
    (he : t.holdsEmpty = true) :
    ∃ n r, ∀ more, JsonWriter.write (n + more) h w buffer json beautiful = some (.false, r) := by
  cases ho : buffer.is_open with
  | «false» =>
      obtain ⟨w1, h1⟩ := writeLoop_closed h w buffer json beautiful hc ho
      refine ⟨1, w1, fun more => ?_⟩
      rw [write_eq _ h w buffer json beautiful hc]
      exact writeLoop_mono h 1 _ _ h1 more
  | «true» =>
      obtain ⟨fuel, w1, h1, _⟩ := writeLoop_renders h w buffer json beautiful k t htree hc ho
      rw [holds_render beautiful 0 t he] at h1
      refine ⟨fuel, w1, fun more => ?_⟩
      rw [write_eq _ h w buffer json beautiful hc]
      exact writeLoop_mono h fuel _ _ h1 more




open JsonSAXWriter JsonWriter

/-! ## C36: values of type Empty are not written -/

/-- C36 (empty values are not serializable).  When the loop of
`JsonWriter::write` stands, after `n` passes, at a container of which it has
written the entries `front` and comes to an entry of type Empty, `write` returns
false: for an array with the serializer as the elements before left it, for an
object with the serializer as `ObjectKey` for the key of the entry left it, in
both cases with the error text "Invalid json value is empty type" and with
nothing written for the value, which is neither rendered as null nor skipped.
A container whose tree holds a value of type Empty at whatever depth is never
written with a true return.  `operator[]` of an object on an absent key stores a
new value of type Empty under that key, after which `write` on that object
returns false, whatever it returned before; `value` on an absent key hands back
a new value of type Empty and leaves the map as it was. -/
theorem C36_empty_not_written :
    (∀ (h : Heap) (w : JsonWriter) (buffer : JsonBufferWriter) (json : JsonValue)
        (beautiful : Bool) (n : Nat) (w1 : JsonWriter) (value : JsonValue) (it : Variant)
        (below : List (JsonValue × Variant)) (array : Nat) (front : List JsonValue)
        (c : JsonValue) (rest : List JsonValue) (s1 s2 : JsonSAXWriter),
        JsonWriter.isContainer h json = true →
        after h n (w.start buffer json beautiful) = some w1 →
        w1.stack = (value, it) :: below →
        h.values[value.value]? = some (.Array array) →
        ((h.arrays[array]?).getD []).drop (resume it) = front ++ c :: rest →
        (if resume it == 0 then JsonSAXWriter.ArrayBegin w1.sax else (.true, w1.sax)) = (.true, s1) →
        walkArray h w1.stack front (resume it) s1 = .finished s2 →
        h.type c = some .Empty →
        ∀ more, JsonWriter.write (n + 1 + more) h w buffer json beautiful
          = some (.false, { sax := { s2 with _error := .text "Invalid json value is empty type" }, stack := w1.stack }))
      ∧ (∀ (h : Heap) (w : JsonWriter) (buffer : JsonBufferWriter) (json : JsonValue)
          (beautiful : Bool) (n : Nat) (w1 : JsonWriter) (value : JsonValue) (it : Variant)
          (below : List (JsonValue × Variant)) (map : Nat) (front : List (List Nat × JsonValue))
          (key : List Nat) (c : JsonValue) (rest : List (List Nat × JsonValue))
          (s1 s2 s3 : JsonSAXWriter),
          JsonWriter.isContainer h json = true →
          after h n (w.start buffer json beautiful) = some w1 →
          w1.stack = (value, it) :: below →
          h.values[value.value]? = some (.Object map) →
          ((h.maps[map]?).getD []).drop (resume it) = front ++ (key, c) :: rest →
          (if resume it == 0 then JsonSAXWriter.ObjectBegin w1.sax else (.true, w1.sax)) = (.true, s1) →
          walkObject h w1.stack front (resume it) s1 = .finished s2 →
          JsonSAXWriter.ObjectKey key s2 = (.true, s3) →
          h.type c = some .Empty →
          ∀ more, JsonWriter.write (n + 1 + more) h w buffer json beautiful
            = some (.false, { sax := { s3 with _error := .text "Invalid json value is empty type" }, stack := w1.stack }))
      ∧ (∀ (h : Heap) (w : JsonWriter) (buffer : JsonBufferWriter) (json : JsonValue)
          (beautiful : Bool) (k : Nat) (t : ValueTree),
          h.tree k json = some t → JsonWriter.isContainer h json = true →
          t.holdsEmpty = true →
          ∃ n r, ∀ more,
            JsonWriter.write (n + more) h w buffer json beautiful = some (.false, r))
      ∧ (∀ (h : Heap) (o : Object) (key : List Nat) (json : JsonValue)
          (entries : List (List Nat × JsonValue)),
          h.values[json.value]? = some (.Object o.map) → h.maps[o.map]? = some entries →
          mapFind key entries = none →
          ∃ h1 v, Object.index h o key = some (h1, v) ∧ h1.type v = some .Empty
            ∧ h1.type json = some .Object
            ∧ Object.contains h1 o key = some true
            ∧ Object.count h1 o = some (entries.length + 1)
            ∧ ∀ (w : JsonWriter) (buffer : JsonBufferWriter) (beautiful : Bool),
                ∃ n r, ∀ more,
                  JsonWriter.write (n + more) h1 w buffer json beautiful = some (.false, r))
      ∧ (∀ (h : Heap) (o : Object) (key : List Nat) (entries : List (List Nat × JsonValue)),
          h.maps[o.map]? = some entries → mapFind key entries = none →
          ∃ h2 v, Object.value h o key = some (h2, v) ∧ h2.type v = some .Empty
            ∧ h2.maps = h.maps ∧ Object.contains h2 o key = some false
            ∧ Object.count h2 o = some entries.length) := by
  refine ⟨?_, ?_, ?_, ?_, ?_⟩
  · intro h w buffer json beautiful n w1 value it below array front c rest s1 s2
      hc ha hst hv hes hb hw he more
    exact write_returns h w buffer json beautiful n w1 value it below .false _ hc ha hst
      (pass_array_empty h value it below w1 array front c rest s1 s2 hv hes hb hw he) more
  · intro h w buffer json beautiful n w1 value it below map front key c rest s1 s2 s3
      hc ha hst hv hes hb hw hk he more
    exact write_returns h w buffer json beautiful n w1 value it below .false _ hc ha hst
      (pass_object_empty h value it below w1 map front key c rest s1 s2 s3 hv hes hb hw hk he)
      more
  · intro h w buffer json beautiful k t htree hc he
    exact write_holds h w buffer json beautiful k t htree hc he
  · intro h o key json entries hroot hm hf
    exact index_blocked h o key json entries hroot hm hf
  · intro h o key entries hm hf
    refine ⟨_, _, value_absent h o key entries hm hf, ?_, rfl, ?_, ?_⟩
    · simp [Heap.type]
    · simp only [Object.contains, hm, Option.map_some', hf, Option.isSome_none]
    · simp only [Object.count, hm, Option.map_some']

/-- C36, witness: `write` on the array of the integer 1 and a value of type
Empty stops behind `[1`; the object `{"a":1}` is written, and after
`operator[]` with the absent key "b" on it, `write` stops behind
`{"a":1,"b":`, in both cases with false and the error text of `writeValue`;
`value` with the key "b" leaves the object as it was. -/
theorem C36_empty_not_written_witness :
    JsonWriter.write 1 heapC36Array JsonWriter.new JsonStringBufferWriter { value := 0 } false
        = some (.false, { sax := { beautiful := false, _error := .text "Invalid json value is empty type", buffer := some { is_open := true, count := 2, json := [91, 49] }, stack := [.ArrayNextValue] }, stack := [({ value := 0 }, .monostate)] })
      ∧ JsonWriter.writeString 2 heapC36 { value := 0 } false
          = some (.true, [123, 34, 97, 34, 58, 49, 125])
      ∧ (∃ h1 v, Object.index heapC36 { map := 0 } [98] = some (h1, v)
          ∧ h1.type v = some .Empty ∧ h1.type { value := 0 } = some .Object
          ∧ Object.contains h1 { map := 0 } [98] = some true
          ∧ Object.count h1 { map := 0 } = some (1 + 1)
          ∧ ∀ (w : JsonWriter) (buffer : JsonBufferWriter) (beautiful : Bool),
              ∃ n r, ∀ more,
                JsonWriter.write (n + more) h1 w buffer { value := 0 } beautiful
                  = some (.false, r))
      ∧ (Object.index heapC36 { map := 0 } [98]).map
            (fun p => JsonWriter.write 1 p.1 JsonWriter.new JsonStringBufferWriter { value := 0 } false)
          = some (some (.false, { sax := { beautiful := false, _error := .text "Invalid json value is empty type", buffer := some { is_open := true, count := 11, json := [123, 34, 97, 34, 58, 49, 44, 34, 98, 34, 58] }, stack := [.ObjectKey] }, stack := [({ value := 0 }, .monostate)] }))
      ∧ (Object.value heapC36 { map := 0 } [98]).map
            (fun p => (JsonWriter.writeString 2 p.1 { value := 0 } false, p.1.type p.2))
          = some (some (.true, [123, 34, 97, 34, 58, 49, 125]), some .Empty) :=
  ⟨C36_empty_not_written.1 heapC36Array JsonWriter.new JsonStringBufferWriter { value := 0 } false
      0 (JsonWriter.new.start JsonStringBufferWriter { value := 0 } false) { value := 0 }
      .monostate [] 0 [{ value := 1 }] { value := 2 } []
      { beautiful := false, _error := .empty, buffer := some { is_open := true, count := 1, json := [91] }, stack := [.Array] }
      { beautiful := false, _error := .empty, buffer := some { is_open := true, count := 2, json := [91, 49] }, stack := [.ArrayNextValue] }
      (by decide) rfl rfl rfl rfl (by decide!) (by decide!) (by decide) 0,
    by decide!,
    C36_empty_not_written.2.2.2.1 heapC36 { map := 0 } [98] { value := 0 }
      [([97], { value := 1 })] rfl rfl (by decide),
    by decide!, by decide!⟩


end Json
